import Mathlib

/-!
# Parallel priority-flood (richdem): shallow embedding and verified properties

Source: `src/programs/parallel_priority_flood/main.cpp`.

Elevations (`elev_t`) are modelled as `Int` (the integer instantiations of the
template only compare elevations and take maxima, never do arithmetic on them).
Labels (`label_t = uint32_t`) are natural numbers; additions performed in
`label_t` are reduced modulo `2^32`.  A `std::map<label_t, elev_t>` is an
association list; a `std::vector` is a `List`.  Operations that throw
(`vector::at`), trip an `assert`, or index out of bounds return `none`.
Loop counters of type `int` are natural numbers (container sizes are taken to
fit `int`); the `int32_t` window offsets of `Preparer` are integers, and a step
that leaves `int32_t` is undefined behaviour.  `Preparer` and the argument
handling of `main` end with a value that names the error.  Timers, log output
and raster input/output are left out.
-/

namespace RichDEM

/-! ## Loops -/

/-- The loop `for(int i=0;i<n;i++) s = body(i,s)` where the body may fail. -/
def forRange {σ : Type} (n : Nat) (body : Nat → σ → Option σ) (s : σ) : Option σ :=
  (List.range n).foldlM (fun st i => body i st) s

/-! ## Array2D -/

/-- Modelled from the spec: Array2D (richdem/common/Array2D.hpp is not part of the
sources).  A grid of one numeric type with a width, a height and cells addressed
as `(x,y)`; the cells are stored row by row. -/
structure Array2D (α : Type) where
  width  : Nat
  height : Nat
  data   : List α
deriving DecidableEq, Repr

namespace Array2D

/-- Modelled from the spec: read access `a(x,y)` of `Array2D`, the cell in column `x`
of row `y`; outside the grid there is no cell. -/
def get {α : Type} (a : Array2D α) (x y : Nat) : Option α :=
  if x < a.width ∧ y < a.height then a.data[y * a.width + x]? else none

/-- Modelled from the spec: write access `a(x,y) = v` of `Array2D`. -/
def set {α : Type} (a : Array2D α) (x y : Nat) (v : α) : Array2D α :=
  { a with data := a.data.set (y * a.width + x) v }

end Array2D

/-! ## ConsumerSpecifics -/

/-- The data members of `ConsumerSpecifics` (main.cpp 178-184): the two grids and the
intra-tile graph left by the tile flood. -/
structure ConsumerSpecifics where
  dem    : Array2D Int
  labels : Array2D Nat
  spillover_graph : List (List (Nat × Int)) := []
deriving DecidableEq, Repr

/-- Body of the double loop of `ConsumerSpecifics::SecondRound` (main.cpp 310-311):
`if(labels(x,y)>1 && dem(x,y)<job2.at(labels(x,y))) dem(x,y) = job2.at(labels(x,y));` -/
def secondRoundCell (job2 : List Int) (x y : Nat) (s : ConsumerSpecifics) :
    Option ConsumerSpecifics :=
  match s.labels.get x y with
  | none => none
  | some l =>
    if 1 < l then
      match s.dem.get x y, job2[l]? with
      | some e, some f =>
        if e < f then some { s with dem := s.dem.set x y f } else some s
      | _, _ => none
    else some s

/-- The function `ConsumerSpecifics::SecondRound` (main.cpp 306-312), calculation part. -/
def SecondRound (job2 : List Int) (s : ConsumerSpecifics) : Option ConsumerSpecifics :=
  forRange s.dem.height (fun y st =>
    forRange s.dem.width (fun x st2 => secondRoundCell job2 x y st2) st) s

/-! ## Labels, maps and the master graph -/

/-- Number of values of `label_t` (`uint32_t`). -/
def LABEL_MOD : Nat := 2 ^ 32

/-- A `std::map<label_t, elev_t>`: association list from neighbour label to spill elevation. -/
abbrev EdgeMap := List (Nat × Int)

/-- A `std::vector< std::map<label_t, elev_t> >`. -/
abbrev Graph := List EdgeMap

/-- The lookup `m.find(k)`: the value stored under key `k`, if any. -/
def mapFind (m : EdgeMap) (k : Nat) : Option Int :=
  match m with
  | [] => none
  | (k2, v2) :: rest => if k = k2 then some v2 else mapFind rest k

/-- The assignment `m[k] = v` of a `std::map` (keys are kept in increasing order). -/
def mapSet (m : EdgeMap) (k : Nat) (v : Int) : EdgeMap :=
  match m with
  | [] => [(k, v)]
  | (k2, v2) :: rest =>
    if k < k2 then (k, v) :: (k2, v2) :: rest
    else if k = k2 then (k, v) :: rest
    else (k2, v2) :: mapSet rest k v

/-- The weight stored at `g[a][b]`, if vertex `a` exists and has neighbour `b`. -/
def weight (g : Graph) (a b : Nat) : Option Int :=
  match g[a]? with
  | none => none
  | some m => mapFind m b

/-- The write `g.at(a)[b] = w` (and the unchecked `g[a][b] = w`, whose out-of-range
case is undefined behaviour): fails when `a` is not a vertex. -/
def graphSet (g : Graph) (a b : Nat) (w : Int) : Option Graph :=
  match g[a]? with
  | none => none
  | some m => some (g.set a (mapSet m b w))

/-- The pair of writes `g[a][b] = w; g[b][a] = w;`. -/
def graphSetBoth (g : Graph) (a b : Nat) (w : Int) : Option Graph :=
  (graphSet g a b w).bind (fun g1 => graphSet g1 b a w)

/-- The offsetting `if(l>1) l+=offset;` in `label_t` arithmetic. -/
def offsetLabel (l off : Nat) : Nat :=
  if 1 < l then (l + off) % LABEL_MOD else l

/-- The guarded upsert shared by `HandleEdge` (main.cpp 365-368) and `HandleCorner` (385-388):
`if(g.at(a).count(b)==0 || w<g.at(a)[b]){ g[a][b]=w; g[b][a]=w; }`. -/
def upsertMin (g : Graph) (a b : Nat) (w : Int) : Option Graph :=
  match g[a]? with
  | none => none
  | some m =>
    match mapFind m b with
    | none => graphSetBoth g a b w
    | some old => if w < old then graphSetBoth g a b w else some g

/-! ## Tile descriptors and phase-1 replies -/

/-- The class `TileInfo` (main.cpp 57-107). -/
structure TileInfo where
  edge            : Nat
  flip            : Nat
  x               : Int
  y               : Int
  gridx           : Int
  gridy           : Int
  width           : Int
  height          : Int
  nullTile        : Bool
  many            : Bool
  label_offset    : Nat
  label_increment : Nat
  filename        : String
  outputname      : String
  retention       : String
  analysis        : String
deriving DecidableEq, Repr

/-- The type `TileGrid`. -/
abbrev TileGrid := List (List TileInfo)

/-- The class `Job1` (main.cpp 138-164), without its timing record. -/
structure Job1 where
  top_elev    : List Int
  bot_elev    : List Int
  left_elev   : List Int
  right_elev  : List Int
  top_label   : List Nat
  bot_label   : List Nat
  left_label  : List Nat
  right_label : List Nat
  graph       : Graph
  gridy       : Int
  gridx       : Int
deriving DecidableEq, Repr

/-- The type `Job1Grid`. -/
abbrev Job1Grid := List (List Job1)

/-- Unchecked access `grid[y][x]` of a vector of vectors. -/
def grid2 {α : Type} (g : List (List α)) (y x : Nat) : Option α :=
  match g[y]? with
  | none => none
  | some row => row[x]?

/-- In-place update `grid[y][x] = f(grid[y][x])`. -/
def grid2Modify {α : Type} (g : List (List α)) (y x : Nat) (f : α → α) : List (List α) :=
  g.modify (fun row => row.modify f x) y

/-! ## ProducerSpecifics::HandleEdge and HandleCorner -/

/-- One pass of the inner loop body of `HandleEdge` (main.cpp 355-369) for the
position `i` of side A and the position `ni = i + d - 1` of side B. -/
def handleEdgePair (elev_a elev_b : List Int) (label_a label_b : List Nat)
    (off_a off_b : Nat) (i d : Nat) (g : Graph) : Option Graph :=
  let len : Int := elev_a.length
  let ni : Int := (i : Int) + (d : Int) - 1
  if ni < 0 ∨ ni = len then some g
  else
    match label_a[i]?, label_b[ni.toNat]?, elev_a[i]?, elev_b[ni.toNat]? with
    | some la, some lb, some ea, some eb =>
      let c_l := offsetLabel la off_a
      let n_l := offsetLabel lb off_b
      if c_l = n_l then some g
      else upsertMin g c_l n_l (max ea eb)
    | _, _, _, _ => none

/-- The function `ProducerSpecifics::HandleEdge` (main.cpp 335-371). -/
def HandleEdge (elev_a elev_b : List Int) (label_a label_b : List Nat)
    (mastergraph : Graph) (label_a_offset label_b_offset : Nat) : Option Graph :=
  if elev_a.length = elev_b.length ∧ label_a.length = label_b.length
      ∧ elev_a.length = label_b.length then
    forRange elev_a.length (fun i g =>
      forRange 3 (fun d g2 =>
        handleEdgePair elev_a elev_b label_a label_b label_a_offset label_b_offset i d g2) g)
      mastergraph
  else none

/-- The function `ProducerSpecifics::HandleCorner` (main.cpp 373-389). -/
def HandleCorner (elev_a elev_b : Int) (l_a l_b : Nat) (mastergraph : Graph)
    (l_a_offset l_b_offset : Nat) : Option Graph :=
  upsertMin mastergraph (offsetLabel l_a l_a_offset) (offsetLabel l_b l_b_offset)
    (max elev_a elev_b)

/-! ## ProducerSpecifics::Calculations: building the master graph -/

/-- The count loop of `Calculations` (main.cpp 406-409): `maxlabel += jobs1[y][x].graph.size()`. -/
def countLabels (gridheight gridwidth : Nat) (jobs1 : Job1Grid) : Option Nat :=
  forRange gridheight (fun y acc =>
    forRange gridwidth (fun x acc2 =>
      match grid2 jobs1 y x with
      | none => none
      | some j => some ((acc2 + j.graph.length) % LABEL_MOD)) acc) 0

/-- State of the merge loop: the tile matrix, the master graph and the running `label_offset`. -/
structure MergeState where
  tiles        : TileGrid
  mastergraph  : Graph
  label_offset : Nat
deriving DecidableEq, Repr

/-- Re-emission of one intra-tile edge (main.cpp 426-435). -/
def mergeEdge (label_offset l : Nat) (g : Graph) (skey : Nat × Int) : Option Graph :=
  let first_label := offsetLabel (l % LABEL_MOD) label_offset
  let second_label := offsetLabel skey.1 label_offset
  (graphSet g first_label second_label skey.2).bind
    (fun g1 => graphSet g1 second_label first_label skey.2)

/-- Re-emission of a whole intra-tile graph (main.cpp 424-436). -/
def mergeTileGraph (label_offset : Nat) (graph : Graph) (g : Graph) : Option Graph :=
  forRange graph.length (fun l g1 =>
    match graph[l]? with
    | none => none
    | some m => m.foldlM (fun g2 skey => mergeEdge label_offset l g2 skey) g1) g

/-- Body of the merge loop for the tile at `(y,x)` (main.cpp 417-439). -/
def mergeTile (jobs1 : Job1Grid) (y x : Nat) (s : MergeState) : Option MergeState :=
  match grid2 s.tiles y x with
  | none => none
  | some t =>
    if t.nullTile then some s
    else
      match grid2 jobs1 y x with
      | none => none
      | some this_job =>
        match mergeTileGraph s.label_offset this_job.graph s.mastergraph with
        | none => none
        | some g =>
          some { tiles := grid2Modify s.tiles y x (fun t2 =>
                   { t2 with label_offset := s.label_offset,
                             label_increment := this_job.graph.length % LABEL_MOD }),
                 mastergraph := g,
                 label_offset := (s.label_offset + this_job.graph.length) % LABEL_MOD }

/-- The merge phase of `Calculations` (main.cpp 402-440): sizes the master graph,
assigns the label offsets and re-emits every intra-tile graph. -/
def mergeGraphs (tiles : TileGrid) (jobs1 : Job1Grid) : Option MergeState :=
  match tiles[0]? with
  | none => none
  | some row0 =>
    match countLabels tiles.length row0.length jobs1 with
    | none => none
    | some maxlabel =>
      forRange tiles.length (fun y s =>
        forRange row0.length (fun x s2 => mergeTile jobs1 y x s2) s)
        { tiles := tiles, mastergraph := List.replicate maxlabel [], label_offset := 0 }

/-- Guarded call on the neighbouring tile at `(ny,nx)`: runs `f` with the neighbour's
descriptor and reply when `cond` holds and the neighbour is not a null tile. -/
def withNeighbour (tiles : TileGrid) (jobs1 : Job1Grid) (cond : Bool) (ny nx : Nat)
    (f : TileInfo → Job1 → Graph → Option Graph) (g : Graph) : Option Graph :=
  if cond then
    match grid2 tiles ny nx with
    | none => none
    | some n =>
      if n.nullTile then some g
      else
        match grid2 jobs1 ny nx with
        | none => none
        | some nj => f n nj g
  else some g

/-- A call of `HandleCorner` on elements taken with `front()` or `back()`; taking an
element of an empty vector is undefined behaviour. -/
def cornerCall (ea eb : Option Int) (la lb : Option Nat) (off_a off_b : Nat) (g : Graph) :
    Option Graph :=
  match ea, eb, la, lb with
  | some a, some b, some l_a, some l_b => HandleCorner a b l_a l_b g off_a off_b
  | _, _, _, _ => none

/-- Body of the perimeter loop of `Calculations` for the tile at `(y,x)` (main.cpp 445-478). -/
def joinTile (tiles : TileGrid) (jobs1 : Job1Grid) (gridheight gridwidth y x : Nat)
    (g : Graph) : Option Graph :=
  match grid2 tiles y x with
  | none => none
  | some t =>
    if t.nullTile then some g
    else
      match grid2 jobs1 y x with
      | none => none
      | some c =>
        (withNeighbour tiles jobs1 (decide (0 < y)) (y - 1) x (fun n nj g1 =>
          HandleEdge c.top_elev nj.bot_elev c.top_label nj.bot_label g1
            t.label_offset n.label_offset) g).bind fun g =>
        (withNeighbour tiles jobs1 (decide (y + 1 < gridheight)) (y + 1) x (fun n nj g1 =>
          HandleEdge c.bot_elev nj.top_elev c.bot_label nj.top_label g1
            t.label_offset n.label_offset) g).bind fun g =>
        (withNeighbour tiles jobs1 (decide (0 < x)) y (x - 1) (fun n nj g1 =>
          HandleEdge c.left_elev nj.right_elev c.left_label nj.right_label g1
            t.label_offset n.label_offset) g).bind fun g =>
        (withNeighbour tiles jobs1 (decide (x + 1 < gridwidth)) y (x + 1) (fun n nj g1 =>
          HandleEdge c.right_elev nj.left_elev c.right_label nj.left_label g1
            t.label_offset n.label_offset) g).bind fun g =>
        (withNeighbour tiles jobs1 (decide (0 < y ∧ 0 < x)) (y - 1) (x - 1) (fun n nj g1 =>
          cornerCall c.top_elev.head? nj.bot_elev.getLast? c.top_label.head?
            nj.bot_label.getLast? t.label_offset n.label_offset g1) g).bind fun g =>
        (withNeighbour tiles jobs1 (decide (y + 1 < gridheight ∧ x + 1 < gridwidth))
          (y + 1) (x + 1) (fun n nj g1 =>
          cornerCall c.bot_elev.getLast? nj.top_elev.head? c.bot_label.getLast?
            nj.top_label.head? t.label_offset n.label_offset g1) g).bind fun g =>
        (withNeighbour tiles jobs1 (decide (0 < y ∧ x + 1 < gridwidth)) (y - 1) (x + 1)
          (fun n nj g1 =>
          cornerCall c.top_elev.getLast? nj.bot_elev.head? c.top_label.getLast?
            nj.bot_label.head? t.label_offset n.label_offset g1) g).bind fun g =>
        withNeighbour tiles jobs1 (decide (0 < x ∧ y + 1 < gridheight)) (y + 1) (x - 1)
          (fun n nj g1 =>
          cornerCall c.bot_elev.head? nj.top_elev.getLast? c.bot_label.head?
            nj.top_label.getLast? t.label_offset n.label_offset g1) g

/-- The perimeter phase of `Calculations` (main.cpp 443-479). -/
def joinPerimeters (tiles : TileGrid) (jobs1 : Job1Grid) (g : Graph) : Option Graph :=
  match tiles[0]? with
  | none => none
  | some row0 =>
    forRange tiles.length (fun y g1 =>
      forRange row0.length (fun x g2 => joinTile tiles jobs1 tiles.length row0.length y x g2) g1)
      g

/-- The construction of the master graph by `Calculations` (main.cpp 402-479):
the tile matrix with its label offsets, and the finished master graph. -/
def buildMasterGraph (tiles : TileGrid) (jobs1 : Job1Grid) : Option (TileGrid × Graph) :=
  match mergeGraphs tiles jobs1 with
  | none => none
  | some s =>
    match joinPerimeters s.tiles jobs1 s.mastergraph with
    | none => none
    | some g => some (s.tiles, g)

/-! ## ProducerSpecifics::Calculations: the aggregated priority-flood -/

/-- A queue entry `graph_node = std::pair<elev_t,label_t>`. -/
abbrev GraphNode := Int × Nat

/-- The order of `std::pair`: `a <= b`. -/
def nodeLE (a b : GraphNode) : Bool :=
  decide (a.1 < b.1) || (decide (a.1 = b.1) && decide (a.2 ≤ b.2))

/-- The element `open.top()` of the min-queue
`std::priority_queue<graph_node, std::vector<graph_node>, std::greater<graph_node>>`,
whose content is kept as a list. -/
def heapTop (q : List GraphNode) : Option GraphNode :=
  match q with
  | [] => none
  | a :: rest =>
    match heapTop rest with
    | none => some a
    | some b => if nodeLE a b then some a else some b

/-- State of the flood loop: the queue `open`, `visited` and `graph_elev`. -/
structure FloodState where
  openq      : List GraphNode
  visited    : List Bool
  graph_elev : List Int
deriving DecidableEq, Repr

/-- Body of the neighbour loop (main.cpp 518-523). -/
def floodNeighbour (my_elev : Int) (s : FloodState) (n : Nat × Int) : Option FloodState :=
  match s.visited[n.1]? with
  | none => none
  | some true => some s
  | some false => some { s with openq := (max my_elev n.2, n.1) :: s.openq }

/-- One iteration of the flood loop (main.cpp 501-533).  The queue `pit` is never
written by the compiled code and stays empty, so every iteration pops `open`. -/
def floodStep (mastergraph : Graph) (s : FloodState) : Option FloodState :=
  match heapTop s.openq with
  | none => none
  | some c =>
    match s.visited[c.2]? with
    | none => none
    | some true => some { s with openq := s.openq.erase c }
    | some false =>
      match mastergraph[c.2]? with
      | none => none
      | some nbrs =>
        nbrs.foldlM (floodNeighbour c.1)
          { openq := s.openq.erase c,
            visited := s.visited.set c.2 true,
            graph_elev := s.graph_elev.set c.2 c.1 }

/-- The loop `while(open.size()>0 || pit.size()>0)` run for at most `fuel` iterations;
`none` when an iteration fails or the fuel runs out before the queue is empty. -/
def floodLoop (mastergraph : Graph) (fuel : Nat) (s : FloodState) : Option FloodState :=
  match fuel with
  | 0 => if s.openq.isEmpty then some s else none
  | fuel + 1 =>
    if s.openq.isEmpty then some s
    else (floodStep mastergraph s).bind (floodLoop mastergraph fuel)

/-- An iteration count that the flood loop cannot exceed: one pop for the seed and
one for every directed edge. -/
def floodFuel (mastergraph : Graph) : Nat :=
  1 + (mastergraph.map List.length).sum

/-- The aggregated priority-flood of `Calculations` (main.cpp 489-534) on a master
graph; `lowest` is `std::numeric_limits<elev_t>::lowest()`.  Returns `graph_elev`. -/
def aggregatedFlood (lowest : Int) (mastergraph : Graph) : Option (List Int) :=
  (floodLoop mastergraph (floodFuel mastergraph)
    { openq := [(lowest, 1)],
      visited := List.replicate mastergraph.length false,
      graph_elev := List.replicate mastergraph.length 0 }).map (fun s => s.graph_elev)

/-- The function `ProducerSpecifics::Calculations` (main.cpp 392-538): the tile matrix
with label offsets and the member `graph_elev`. -/
def Calculations (lowest : Int) (tiles : TileGrid) (jobs1 : Job1Grid) :
    Option (TileGrid × List Int) :=
  match buildMasterGraph tiles jobs1 with
  | none => none
  | some (tiles2, g) =>
    match aggregatedFlood lowest g with
    | none => none
    | some fill => some (tiles2, fill)

/-- The function `ProducerSpecifics::DistributeJob2` (main.cpp 540-545): the iterator
range `[begin+label_offset, begin+label_offset+label_increment)` of `graph_elev`;
a range that leaves the vector is undefined behaviour. -/
def DistributeJob2 (graph_elev : List Int) (tiles : TileGrid) (tx ty : Nat) :
    Option (List Int) :=
  match grid2 tiles ty tx with
  | none => none
  | some t =>
    if t.label_offset + t.label_increment ≤ graph_elev.length then
      some ((graph_elev.drop t.label_offset).take t.label_increment)
    else none

/-- The value `SecondRound` gives to a cell of elevation `e` and label `l`. -/
def raisedTo (job2 : List Int) (l : Nat) (e : Int) : Int :=
  if 1 < l then
    match job2[l]? with
    | some f => max e f
    | none => e
  else e
/-- Invariant of the loops of `SecondRound`: the cells selected by `P` have been
raised, all other cells and the label grid are as in the initial state `s0`. -/
structure SRInv (job2 : List Int) (s0 s : ConsumerSpecifics) (P : Nat → Nat → Prop) : Prop where
  labels_eq : s.labels = s0.labels
  width_eq : s.dem.width = s0.dem.width
  height_eq : s.dem.height = s0.dem.height
  length_eq : s.dem.data.length = s0.dem.data.length
  done : ∀ x y e l, P x y → s0.dem.get x y = some e → s0.labels.get x y = some l →
    s.dem.get x y = some (raisedTo job2 l e) ∧ (1 < l → l < job2.length)
  todo : ∀ x y, ¬ P x y → s.dem.get x y = s0.dem.get x y
  labelled : ∀ x y, P x y → ∃ l, s0.labels.get x y = some l

/-- Cells already handled when the inner loop of `SecondRound` is at column `k` of row `y`. -/
def rowDone (w y k : Nat) (x2 y2 : Nat) : Prop :=
  (y2 < y ∧ x2 < w) ∨ (y2 = y ∧ x2 < k ∧ k ≤ w)

/-- Well-formed input of `SecondRound`: both grids are complete and have the same
shape, and every label above 1 indexes the slice. -/
structure SecondRoundReady (job2 : List Int) (s : ConsumerSpecifics) : Prop where
  same_width : s.labels.width = s.dem.width
  same_height : s.labels.height = s.dem.height
  dem_size : s.dem.data.length = s.dem.width * s.dem.height
  labels_size : s.labels.data.length = s.dem.width * s.dem.height
  in_slice : ∀ l, l ∈ s.labels.data → 1 < l → l < job2.length

/-- Symmetry of a graph: `b` is a neighbour of `a` iff `a` is one of `b`, with equal weight. -/
def Symmetric (g : Graph) : Prop :=
  ∀ a b, weight g a b = weight g b a

/-- The comparison that `HandleEdge` makes at loop indices `(i,d)`, i.e. between
position `i` of side A and position `i+d-1` of side B: the two offset labels are
`c` and `n` and the spill weight is `w`. -/
def candAt (elev_a elev_b : List Int) (label_a label_b : List Nat) (off_a off_b : Nat)
    (i d : Nat) (c n : Nat) (w : Int) : Prop :=
  i < elev_a.length ∧ d < 3 ∧ 1 ≤ i + d ∧ i + d - 1 < elev_a.length ∧
  ∃ la lb ea eb, label_a[i]? = some la ∧ label_b[i + d - 1]? = some lb ∧
    elev_a[i]? = some ea ∧ elev_b[i + d - 1]? = some eb ∧
    offsetLabel la off_a = c ∧ offsetLabel lb off_b = n ∧ w = max ea eb

/-- Candidate weights of the undirected edge `{a,b}` among the comparisons selected by `Q`. -/
def CandIn (elev_a elev_b : List Int) (label_a label_b : List Nat) (off_a off_b : Nat)
    (Q : Nat → Nat → Prop) (a b : Nat) (w : Int) : Prop :=
  ∃ i d, Q i d ∧ (candAt elev_a elev_b label_a label_b off_a off_b i d a b w ∨
                  candAt elev_a elev_b label_a label_b off_a off_b i d b a w)

/-- Invariant of the loops of `HandleEdge` started on the graph `M`: relative to the
comparisons selected by `Q`, every edge between distinct labels carries the
minimum of its weight in `M` and of its candidate weights. -/
structure EdgeInv (elev_a elev_b : List Int) (label_a label_b : List Nat) (off_a off_b : Nat)
    (M : Graph) (Q : Nat → Nat → Prop) (g : Graph) : Prop where
  symm : Symmetric g
  len : g.length = M.length
  below_cand : ∀ a b w, a ≠ b → CandIn elev_a elev_b label_a label_b off_a off_b Q a b w →
    ∃ m, weight g a b = some m ∧ m ≤ w
  below_old : ∀ a b old, a ≠ b → weight M a b = some old → ∃ m, weight g a b = some m ∧ m ≤ old
  attained : ∀ a b m, a ≠ b → weight g a b = some m →
    weight M a b = some m ∨ CandIn elev_a elev_b label_a label_b off_a off_b Q a b m

/-- Comparisons already made when the inner loop of `HandleEdge` is at `(i,k)`. -/
def edgeDone (i k : Nat) (i2 d2 : Nat) : Prop :=
  (i2 < i ∧ d2 < 3) ∨ (i2 = i ∧ d2 < k)

/-- A candidate weight of the edge `{a,b}` in the words of the join rule: positions
`i` of side A and `j` of side B with `|i-j| ≤ 1`, both in range, whose offset
labels are `a` and `b` (in either order), weighted `max(elev_A[i], elev_B[j])`. -/
def SpillCandidate (elev_a elev_b : List Int) (label_a label_b : List Nat) (off_a off_b : Nat)
    (a b : Nat) (w : Int) : Prop :=
  ∃ i j, i < elev_a.length ∧ j < elev_a.length ∧ i ≤ j + 1 ∧ j ≤ i + 1 ∧
    ∃ la lb ea eb, label_a[i]? = some la ∧ label_b[j]? = some lb ∧
      elev_a[i]? = some ea ∧ elev_b[j]? = some eb ∧
      ((offsetLabel la off_a = a ∧ offsetLabel lb off_b = b) ∨
       (offsetLabel la off_a = b ∧ offsetLabel lb off_b = a)) ∧ w = max ea eb

/-- Input on which `HandleEdge` cannot fail: four arrays of one length and every
offset label a vertex of the master graph. -/
structure EdgeReady (elev_a elev_b : List Int) (label_a label_b : List Nat) (off_a off_b : Nat)
    (M : Graph) : Prop where
  len_elev : elev_a.length = elev_b.length
  len_label : label_a.length = label_b.length
  len_mixed : elev_a.length = label_b.length
  range_a : ∀ l, l ∈ label_a → offsetLabel l off_a < M.length
  range_b : ∀ l, l ∈ label_b → offsetLabel l off_b < M.length

/-- Executable symmetry check of a graph. -/
def symmetricB (g : Graph) : Bool :=
  (List.range g.length).all (fun a =>
    (g.getD a []).all (fun p => decide (weight g p.1 a = weight g a p.1)))

/-! ## A worked example: two 3x3 tiles side by side

The left tile is a pit of elevation 1 surrounded by cells of elevation 9, the right
tile is flat at elevation 5; the outer sides drain (label 1) and the middle cells of
the shared boundary carry the local label 2. -/

/-- Tile descriptor of the example at grid column `gx`. -/
def exTile (gx : Int) (off inc : Nat) : TileInfo :=
  { edge := 0, flip := 0, x := 0, y := 0, gridx := gx, gridy := 0, width := 3, height := 3,
    nullTile := false, many := true, label_offset := off, label_increment := inc,
    filename := "in", outputname := "out", retention := "@retain", analysis := "" }

/-- Phase-1 reply of the left tile. -/
def exJobLeft : Job1 :=
  { top_elev := [9, 9, 9], bot_elev := [9, 9, 9], left_elev := [9, 9, 9],
    right_elev := [9, 9, 9], top_label := [1, 1, 1], bot_label := [1, 1, 1],
    left_label := [1, 1, 1], right_label := [1, 2, 1],
    graph := [[], [(2, 9)], [(1, 9)]], gridy := 0, gridx := 0 }

/-- Phase-1 reply of the right tile. -/
def exJobRight : Job1 :=
  { top_elev := [5, 5, 5], bot_elev := [5, 5, 5], left_elev := [5, 5, 5],
    right_elev := [5, 5, 5], top_label := [1, 1, 1], bot_label := [1, 1, 1],
    left_label := [1, 2, 1], right_label := [1, 1, 1],
    graph := [[], [(2, 5)], [(1, 5)]], gridy := 0, gridx := 1 }

/-- The tile matrix of the example before `Calculations`. -/
def exTiles : TileGrid := [[exTile 0 0 0, exTile 1 0 0]]

/-- The replies of the example. -/
def exJobs : Job1Grid := [[exJobLeft, exJobRight]]

/-- The tile matrix of the example after `Calculations`. -/
def exTilesDone : TileGrid := [[exTile 0 0 3, exTile 1 3 3]]

/-- The master graph of the example after the merge phase. -/
def exMerged : Graph := [[], [(2, 9), (5, 5)], [(1, 9)], [], [], [(1, 5)]]

/-- The finished master graph of the example. -/
def exMaster : Graph := [[], [(2, 9), (5, 5)], [(1, 9), (5, 9)], [], [], [(1, 5), (2, 9)]]

/-! ## Sizes of the label namespace -/

/-- The size `|G_U|` of the intra-tile graph in the reply at `(y,x)`. -/
def graphSizeAt (jobs1 : Job1Grid) (y x : Nat) : Nat :=
  match grid2 jobs1 y x with
  | some j => j.graph.length
  | none => 0

/-- Whether the tile at `(y,x)` is a null tile (or missing). -/
def isNullAt (tiles : TileGrid) (y x : Nat) : Bool :=
  match grid2 tiles y x with
  | some t => t.nullTile
  | none => true

/-- The number of labels that the merge loop allots to the tile at `(y,x)`: its graph
size, and nothing for a null tile (which the loop skips). -/
def tileSize (tiles : TileGrid) (jobs1 : Job1Grid) (y x : Nat) : Nat :=
  if isNullAt tiles y x then 0 else graphSizeAt jobs1 y x

/-- Sum of `sz y x` over the tiles of row `y`. -/
def rowSum (sz : Nat → Nat → Nat) (gw y : Nat) : Nat :=
  ((List.range gw).map (sz y)).sum

/-- Sum of `sz` over the tiles that precede `(y,x)` in row-major order: all tiles of
the rows above and the tiles to the left in row `y`. -/
def sumBefore (sz : Nat → Nat → Nat) (gw y x : Nat) : Nat :=
  ((List.range y).map (rowSum sz gw)).sum + ((List.range x).map (sz y)).sum

/-- Sum of `sz` over all tiles of a `gh` by `gw` matrix. -/
def sumAll (sz : Nat → Nat → Nat) (gh gw : Nat) : Nat :=
  ((List.range gh).map (rowSum sz gw)).sum

/-- The descriptor that the merge loop leaves for the non-null tile at `(y,x)`. -/
def stamped (tiles : TileGrid) (jobs1 : Job1Grid) (gw y x : Nat) (t : TileInfo) : TileInfo :=
  { t with label_offset := sumBefore (tileSize tiles jobs1) gw y x % LABEL_MOD,
           label_increment := graphSizeAt jobs1 y x % LABEL_MOD }

/-- Row-major order: `(y2,x2)` comes before `(y,x)`. -/
def before (y x y2 x2 : Nat) : Prop :=
  y2 < y ∨ (y2 = y ∧ x2 < x)

/-- Invariant of the merge loop when it is about to handle the tile at `(y,x)`;
`G` is the part of the invariant that speaks about the master graph. -/
structure MergeInv (tiles : TileGrid) (jobs1 : Job1Grid) (gw : Nat)
    (G : Nat → Nat → Graph → Prop) (y x : Nat) (s : MergeState) : Prop where
  offset : s.label_offset = sumBefore (tileSize tiles jobs1) gw y x % LABEL_MOD
  graph : G y x s.mastergraph
  tiles_done : ∀ y2 x2 t, x2 < gw → before y x y2 x2 → grid2 tiles y2 x2 = some t →
    grid2 s.tiles y2 x2 = some (if t.nullTile then t else stamped tiles jobs1 gw y2 x2 t)
  tiles_todo : ∀ y2 x2, x2 < gw → ¬ before y x y2 x2 → grid2 s.tiles y2 x2 = grid2 tiles y2 x2

/-- The intra-tile graph in the reply at `(y,x)` (empty when there is no reply). -/
def graphAt (jobs1 : Job1Grid) (y x : Nat) : Graph :=
  match grid2 jobs1 y x with
  | some j => j.graph
  | none => []

/-- Well-formed input of the merge phase, as the producer and the tile flood kernel
deliver it: a non-empty `gh` by `gw` tile matrix with a reply grid of the same shape,
an empty graph wherever the tile is null (a default-constructed `Job1`), neighbour
keys that are labels of the same tile graph, and a total number of labels that fits
`label_t`. -/
structure MergeReady (tiles : TileGrid) (jobs1 : Job1Grid) (gh gw : Nat) : Prop where
  height : tiles.length = gh
  width : (tiles[0]?).map List.length = some gw
  tiles_rect : ∀ y, y < gh → ∀ x, x < gw → (grid2 tiles y x).isSome = true
  jobs_rect : ∀ y, y < gh → ∀ x, x < gw → (grid2 jobs1 y x).isSome = true
  nulls_empty : ∀ y, y < gh → ∀ x, x < gw → isNullAt tiles y x = true → graphSizeAt jobs1 y x = 0
  keys : ∀ y, y < gh → ∀ x, x < gw → ∀ m, m ∈ graphAt jobs1 y x → ∀ p, p ∈ m →
    p.1 < graphSizeAt jobs1 y x
  fits : sumAll (graphSizeAt jobs1) gh gw < LABEL_MOD

/-- An entry of a tile graph: `p = (m, w)` is stored in the map of vertex `l`. -/
def IsEntry (graph : Graph) (l : Nat) (p : Nat × Int) : Prop :=
  ∃ em, graph[l]? = some em ∧ p ∈ em

/-- The two places of the master graph where the edge `(l,m)` of a tile with offset
`off` is written. -/
def PosOf (off l m A B : Nat) : Prop :=
  (A = offsetLabel l off ∧ B = offsetLabel m off) ∨
  (A = offsetLabel m off ∧ B = offsetLabel l off)

/-- The place `(A,B)` of `g` holds the weight of an entry of `graph` that belongs there. -/
def Written (off : Nat) (graph g : Graph) (A B : Nat) : Prop :=
  ∃ l p, IsEntry graph l p ∧ PosOf off l p.1 A B ∧ weight g A B = some p.2

/-- Invariant of the re-emission of `graph` into the master graph that was `g0`:
every place is untouched or written, and the places of the entries selected by
`D` are written. -/
structure EmitInv (off : Nat) (graph g0 : Graph) (D : Nat → Nat × Int → Prop) (g : Graph) :
    Prop where
  frame : ∀ A B, weight g A B = weight g0 A B ∨ Written off graph g A B
  emitted : ∀ l p, D l p → IsEntry graph l p →
    Written off graph g (offsetLabel l off) (offsetLabel p.1 off) ∧
    Written off graph g (offsetLabel p.1 off) (offsetLabel l off)

/-- Every map of the graph has strictly increasing keys, as a `std::map` has. -/
def MapsSorted (graph : Graph) : Prop :=
  ∀ em, em ∈ graph → em.Pairwise (fun p q => p.1 < q.1)

/-- The two directions of an edge agree in weight where both are present. -/
def DirectionsAgree (graph : Graph) : Prop :=
  ∀ l, l < graph.length → ∀ p, p ∈ graph.getD l [] → ∀ q, q ∈ graph.getD p.1 [] →
    q.1 = l → q.2 = p.2

/-- What the merge loop has achieved for the master graph when it is about to handle
the tile at `(y,x)`: every edge of an earlier non-null tile that has an endpoint
`≥ 2` is present in both directions under the offset labels. -/
def EdgesEmitted (tiles : TileGrid) (jobs1 : Job1Grid) (gh gw : Nat) (y x : Nat) (g : Graph) :
    Prop :=
  ∀ y2 x2, before y x y2 x2 → y2 < gh → x2 < gw → isNullAt tiles y2 x2 = false →
    ∀ l p, IsEntry (graphAt jobs1 y2 x2) l p → (2 ≤ l ∨ 2 ≤ p.1) →
      weight g (offsetLabel l (sumBefore (tileSize tiles jobs1) gw y2 x2 % LABEL_MOD))
        (offsetLabel p.1 (sumBefore (tileSize tiles jobs1) gw y2 x2 % LABEL_MOD)) = some p.2 ∧
      weight g (offsetLabel p.1 (sumBefore (tileSize tiles jobs1) gw y2 x2 % LABEL_MOD))
        (offsetLabel l (sumBefore (tileSize tiles jobs1) gw y2 x2 % LABEL_MOD)) = some p.2

/-- The edges of a tile graph as the tile flood leaves them: label 0 is no endpoint of
an edge and no edge joins label 1 to itself (an edge joins two different labels), so
that one endpoint of every edge is at least 2. -/
def EdgesProper (graph : Graph) : Prop :=
  ∀ l, l < graph.length → ∀ p, p ∈ graph.getD l [] → 1 ≤ l ∧ 1 ≤ p.1 ∧ (2 ≤ l ∨ 2 ≤ p.1)

instance instDecidableEdgesProper (graph : Graph) : Decidable (EdgesProper graph) := by
  unfold EdgesProper
  infer_instance

/-! ## Paths and spill costs -/

/-- `Path g a b c`: there is a path of at least one edge from `a` to `b` in `g` whose
largest edge weight is `c`. -/
inductive Path (g : Graph) (a : Nat) : Nat → Int → Prop
  | edge {b : Nat} {w : Int} : IsEntry g a (b, w) → Path g a b w
  | snoc {b d : Nat} {c w : Int} : Path g a b c → IsEntry g b (d, w) → Path g a d (max c w)

/-- The cost `c` with which the flood can arrive at `v`: the seed `(lowest, 1)` or a
path from vertex 1. -/
def Reach (g : Graph) (lowest : Int) (v : Nat) (c : Int) : Prop :=
  (v = 1 ∧ c = lowest) ∨ Path g 1 v c

/-- Invariant of the flood loop. -/
structure FloodInv (g : Graph) (lowest : Int) (s : FloodState) : Prop where
  len_visited : s.visited.length = g.length
  len_elev : s.graph_elev.length = g.length
  queue : ∀ x, x ∈ s.openq → Reach g lowest x.2 x.1 ∧ x.2 < g.length
  settled : ∀ v, s.visited[v]? = some true →
    ∃ f, s.graph_elev[v]? = some f ∧ Reach g lowest v f ∧ ∀ c, Reach g lowest v c → f ≤ c
  frontier : ∀ a b w f, s.visited[a]? = some true → IsEntry g a (b, w) →
    s.visited[b]? = some false → s.graph_elev[a]? = some f → (max f w, b) ∈ s.openq
  seed : s.visited[1]? = some true ∨ (lowest, 1) ∈ s.openq
  untouched : ∀ v : Nat, s.visited[v]? = some false → s.graph_elev[v]? = some (0 : Int)

/-- Well-formed master graph for the flood: vertex 1 exists, every neighbour key is a
vertex, and no weight lies below `lowest` (the least value of `elev_t`). -/
structure FloodReady (g : Graph) (lowest : Int) : Prop where
  two : 2 ≤ g.length
  key_mem : ∀ em, em ∈ g → ∀ p, p ∈ em → p.1 < g.length
  low_mem : ∀ em, em ∈ g → ∀ p, p ∈ em → lowest ≤ p.2

/-- Work left for the flood loop: the queue entries plus the edges of the vertices
not yet visited. -/
def floodMeasure (g : Graph) (s : FloodState) : Nat :=
  s.openq.length +
    ((List.range g.length).map
      (fun v => if s.visited[v]? = some true then 0 else (g.getD v []).length)).sum

/-- The graph has an edge from `a` to `b` of weight at most `w`. -/
def EdgeBelow (g : Graph) (a b : Nat) (w : Int) : Prop :=
  ∃ m, weight g a b = some m ∧ m ≤ w

/-- `Later g g2`: `g2` arises from `g` by guarded upserts, in the sense that every
property kept by guarded upserts passes from `g` to `g2`. -/
def Later (g g2 : Graph) : Prop :=
  ∀ P : Graph → Prop, (∀ u v a b w, P u → upsertMin u a b w = some v → P v) → P g → P g2

/-- The eight neighbours of a tile, in the order in which `Calculations` joins them
(main.cpp 450-478). -/
inductive Dir
  | top | bottom | left | right | topLeft | bottomRight | topRight | bottomLeft
deriving DecidableEq, Repr

/-- The guard of the join towards `d` for the tile at `(y,x)`. -/
def dirCond (d : Dir) (gh gw y x : Nat) : Bool :=
  match d with
  | .top => decide (0 < y)
  | .bottom => decide (y + 1 < gh)
  | .left => decide (0 < x)
  | .right => decide (x + 1 < gw)
  | .topLeft => decide (0 < y ∧ 0 < x)
  | .bottomRight => decide (y + 1 < gh ∧ x + 1 < gw)
  | .topRight => decide (0 < y ∧ x + 1 < gw)
  | .bottomLeft => decide (0 < x ∧ y + 1 < gh)

/-- Row of the neighbour towards `d`. -/
def dirY (d : Dir) (y : Nat) : Nat :=
  match d with
  | .top | .topLeft | .topRight => y - 1
  | .bottom | .bottomRight | .bottomLeft => y + 1
  | .left | .right => y

/-- Column of the neighbour towards `d`. -/
def dirX (d : Dir) (x : Nat) : Nat :=
  match d with
  | .left | .topLeft | .bottomLeft => x - 1
  | .right | .bottomRight | .topRight => x + 1
  | .top | .bottom => x

/-- The call that joins the reply `c` with the reply `nj` of its neighbour towards `d`. -/
def dirCall (d : Dir) (c nj : Job1) (oa ob : Nat) (g : Graph) : Option Graph :=
  match d with
  | .top => HandleEdge c.top_elev nj.bot_elev c.top_label nj.bot_label g oa ob
  | .bottom => HandleEdge c.bot_elev nj.top_elev c.bot_label nj.top_label g oa ob
  | .left => HandleEdge c.left_elev nj.right_elev c.left_label nj.right_label g oa ob
  | .right => HandleEdge c.right_elev nj.left_elev c.right_label nj.left_label g oa ob
  | .topLeft => cornerCall c.top_elev.head? nj.bot_elev.getLast? c.top_label.head?
      nj.bot_label.getLast? oa ob g
  | .bottomRight => cornerCall c.bot_elev.getLast? nj.top_elev.head? c.bot_label.getLast?
      nj.top_label.head? oa ob g
  | .topRight => cornerCall c.top_elev.getLast? nj.bot_elev.head? c.top_label.getLast?
      nj.bot_label.head? oa ob g
  | .bottomLeft => cornerCall c.bot_elev.head? nj.top_elev.getLast? c.bot_label.head?
      nj.top_label.getLast? oa ob g

/-- The guarded join of the tile `t` at `(y,x)`, with reply `c`, towards `d`. -/
def joinStep (tiles : TileGrid) (jobs1 : Job1Grid) (gh gw y x : Nat) (t : TileInfo) (c : Job1)
    (d : Dir) (g : Graph) : Option Graph :=
  withNeighbour tiles jobs1 (dirCond d gh gw y x) (dirY d y) (dirX d x)
    (fun n nj g1 => dirCall d c nj t.label_offset n.label_offset g1) g

/-- Two positions of perimeter arrays that `HandleEdge` compares: `i` on side A and
`j` on side B with `|i-j| ≤ 1`, holding the given elevations and labels. -/
def TouchEdge (ea eb : List Int) (la lb : List Nat) (eP eQ : Int) (lP lQ : Nat) : Prop :=
  ∃ i j, i < ea.length ∧ j < ea.length ∧ i ≤ j + 1 ∧ j ≤ i + 1 ∧
    la[i]? = some lP ∧ lb[j]? = some lQ ∧ ea[i]? = some eP ∧ eb[j]? = some eQ

/-- The cell with elevation `eP` and label `lP` of the tile with reply `c` and the cell
with `eQ`, `lQ` of its neighbour towards `d`, with reply `nj`, lie on the touching
perimeters at positions that the join towards `d` compares. -/
def Touching (d : Dir) (c nj : Job1) (eP eQ : Int) (lP lQ : Nat) : Prop :=
  match d with
  | .top => TouchEdge c.top_elev nj.bot_elev c.top_label nj.bot_label eP eQ lP lQ
  | .bottom => TouchEdge c.bot_elev nj.top_elev c.bot_label nj.top_label eP eQ lP lQ
  | .left => TouchEdge c.left_elev nj.right_elev c.left_label nj.right_label eP eQ lP lQ
  | .right => TouchEdge c.right_elev nj.left_elev c.right_label nj.left_label eP eQ lP lQ
  | .topLeft => c.top_elev.head? = some eP ∧ nj.bot_elev.getLast? = some eQ ∧
      c.top_label.head? = some lP ∧ nj.bot_label.getLast? = some lQ
  | .bottomRight => c.bot_elev.getLast? = some eP ∧ nj.top_elev.head? = some eQ ∧
      c.bot_label.getLast? = some lP ∧ nj.top_label.head? = some lQ
  | .topRight => c.top_elev.getLast? = some eP ∧ nj.bot_elev.head? = some eQ ∧
      c.top_label.getLast? = some lP ∧ nj.bot_label.head? = some lQ
  | .bottomLeft => c.bot_elev.head? = some eP ∧ nj.top_elev.getLast? = some eQ ∧
      c.bot_label.head? = some lP ∧ nj.top_label.getLast? = some lQ

/-! ## The global raster -/

/-- A reply with empty perimeters and an empty graph. -/
def emptyJob : Job1 :=
  { top_elev := [], bot_elev := [], left_elev := [], right_elev := [],
    top_label := [], bot_label := [], left_label := [], right_label := [],
    graph := [], gridy := 0, gridx := 0 }

/-- The reply at `(y,x)` (the empty reply when there is none). -/
def jobAt (jobs1 : Job1Grid) (y x : Nat) : Job1 :=
  (grid2 jobs1 y x).getD emptyJob

/-- The four arrays are the world-oriented perimeter of the grid `a`: its first row, its
last row, its first column and its last column, each in increasing coordinate. -/
@[reducible] def PerimeterOf {α : Type} (a : Array2D α) (top bot left right : List α) : Prop :=
  top.length = a.width ∧ bot.length = a.width ∧
  left.length = a.height ∧ right.length = a.height ∧
  (∀ i, i < a.width → top[i]? = a.get i 0) ∧
  (∀ i, i < a.width → bot[i]? = a.get i (a.height - 1)) ∧
  (∀ i, i < a.height → left[i]? = a.get 0 i) ∧
  (∀ i, i < a.height → right[i]? = a.get (a.width - 1) i)

/-- First global coordinate of the tile column (or row) `t` when the columns (rows)
before it have the sizes `size 0, size 1, ...`. -/
def colStart (size : Nat → Nat) (t : Nat) : Nat :=
  ((List.range t).map size).sum

/-- The cells `(gx,gy)` and `(gx2,gy2)` of the global raster are 8-neighbours. -/
def Adjacent8 (gx gy gx2 gy2 : Nat) : Prop :=
  gx ≤ gx2 + 1 ∧ gx2 ≤ gx + 1 ∧ gy ≤ gy2 + 1 ∧ gy2 ≤ gy + 1 ∧ ¬ (gx = gx2 ∧ gy = gy2)

/-- A raster cut into the tiles of the matrix: column `x` is `colW x` cells wide and row
`y` is `rowH y` cells high (both at least 1), so tiles share their height within a row
and their width within a column; `dems y x` and `labs y x` are the complete elevation
and label grids of the non-null tile at `(y,x)`, its reply carries their world-oriented
perimeters, and every label of the tile is a vertex of its graph. -/
structure RasterReady (tiles : TileGrid) (jobs1 : Job1Grid) (gh gw : Nat)
    (colW rowH : Nat → Nat) (dems : Nat → Nat → Array2D Int) (labs : Nat → Nat → Array2D Nat) :
    Prop where
  col_pos : ∀ x, x < gw → 1 ≤ colW x
  row_pos : ∀ y, y < gh → 1 ≤ rowH y
  dem_shape : ∀ y, y < gh → ∀ x, x < gw → isNullAt tiles y x = false →
    (dems y x).width = colW x ∧ (dems y x).height = rowH y ∧
    (dems y x).data.length = colW x * rowH y
  lab_shape : ∀ y, y < gh → ∀ x, x < gw → isNullAt tiles y x = false →
    (labs y x).width = colW x ∧ (labs y x).height = rowH y ∧
    (labs y x).data.length = colW x * rowH y
  elev_perimeter : ∀ y, y < gh → ∀ x, x < gw → isNullAt tiles y x = false →
    PerimeterOf (dems y x) (jobAt jobs1 y x).top_elev (jobAt jobs1 y x).bot_elev
      (jobAt jobs1 y x).left_elev (jobAt jobs1 y x).right_elev
  label_perimeter : ∀ y, y < gh → ∀ x, x < gw → isNullAt tiles y x = false →
    PerimeterOf (labs y x) (jobAt jobs1 y x).top_label (jobAt jobs1 y x).bot_label
      (jobAt jobs1 y x).left_label (jobAt jobs1 y x).right_label
  labels_small : ∀ y, y < gh → ∀ x, x < gw → isNullAt tiles y x = false →
    ∀ l, l ∈ (labs y x).data → l < graphSizeAt jobs1 y x

/-- The perimeter arrays of a reply are ready to be joined: the horizontal ones have
length `w ≥ 1`, the vertical ones length `h ≥ 1`, and every label, offset by `off`,
is one of the `total` vertices. -/
structure PerimReady (c : Job1) (off w h total : Nat) : Prop where
  w_pos : 1 ≤ w
  h_pos : 1 ≤ h
  top_elev : c.top_elev.length = w
  bot_elev : c.bot_elev.length = w
  left_elev : c.left_elev.length = h
  right_elev : c.right_elev.length = h
  top_label : c.top_label.length = w
  bot_label : c.bot_label.length = w
  left_label : c.left_label.length = h
  right_label : c.right_label.length = h
  top_range : ∀ l, l ∈ c.top_label → offsetLabel l off < total
  bot_range : ∀ l, l ∈ c.bot_label → offsetLabel l off < total
  left_range : ∀ l, l ∈ c.left_label → offsetLabel l off < total
  right_range : ∀ l, l ∈ c.right_label → offsetLabel l off < total

/-- Elevation grids of the worked example. -/
def exDems (_ x : Nat) : Array2D Int :=
  if x = 0 then { width := 3, height := 3, data := [9, 9, 9, 9, 1, 9, 9, 9, 9] }
  else { width := 3, height := 3, data := [5, 5, 5, 5, 5, 5, 5, 5, 5] }

/-- Label grids of the worked example. -/
def exLabs (_ x : Nat) : Array2D Nat :=
  if x = 0 then { width := 3, height := 3, data := [1, 1, 1, 1, 2, 2, 1, 1, 1] }
  else { width := 3, height := 3, data := [1, 1, 1, 2, 2, 1, 1, 1, 1] }

/-- Being the perimeter of a grid can be checked by evaluation. -/
instance instDecidablePerimeterOf {α : Type} [DecidableEq α] (a : Array2D α)
    (top bot left right : List α) : Decidable (PerimeterOf a top bot left right) := by
  unfold PerimeterOf
  infer_instance

/-- What the flood loop needs in order not to fail: the two vectors have one entry
per vertex and the queue holds vertices only. -/
structure FloodSafe (g : Graph) (s : FloodState) : Prop where
  len_visited : s.visited.length = g.length
  len_elev : s.graph_elev.length = g.length
  queue : ∀ x, x ∈ s.openq → x.2 < g.length

/-- Every neighbour key of the graph is a vertex. -/
def KeysInRange (g : Graph) : Prop :=
  ∀ em, em ∈ g → ∀ p, p ∈ em → p.1 < g.length

/-! ## ConsumerSpecifics::FirstRound -/

namespace Array2D

/-- Modelled from the spec: `Array2D::getRowData(y)` (Array2D.hpp is not part of the
sources), the cells of row `y` from left to right. -/
def getRowData {α : Type} (a : Array2D α) (y : Nat) : List α :=
  (List.range a.width).filterMap (fun x => a.get x y)

/-- Modelled from the spec: `Array2D::getColData(x)`, the cells of column `x` from top
to bottom. -/
def getColData {α : Type} (a : Array2D α) (x : Nat) : List α :=
  (List.range a.height).filterMap (fun y => a.get x y)

/-- Modelled from the spec: `Array2D::topRow()`, the top row of the grid. -/
def topRow {α : Type} (a : Array2D α) : List α := a.getRowData 0

/-- Modelled from the spec: `Array2D::bottomRow()`, the bottom row of the grid. -/
def bottomRow {α : Type} (a : Array2D α) : List α := a.getRowData (a.height - 1)

/-- Modelled from the spec: `Array2D::leftColumn()`, the left column of the grid. -/
def leftColumn {α : Type} (a : Array2D α) : List α := a.getColData 0

/-- Modelled from the spec: `Array2D::rightColumn()`, the right column of the grid. -/
def rightColumn {α : Type} (a : Array2D α) : List α := a.getColData (a.width - 1)

/-- The grid holds exactly `width * height` cells. -/
def WellFormed {α : Type} (a : Array2D α) : Prop := a.data.length = a.width * a.height

instance instDecidableWellFormed {α : Type} (a : Array2D α) : Decidable a.WellFormed := by
  unfold WellFormed
  infer_instance

/-- The grid mirrored vertically (top and bottom exchanged): the cell `(x,y)` of the
result is the cell `(x, height-1-y)` of `a`. -/
def mirrorVert {α : Type} (a : Array2D α) : Array2D α :=
  { a with
    data := List.filterMap (fun i => a.get (i % a.width) (a.height - 1 - i / a.width))
      (List.range (a.width * a.height)) }

/-- The grid mirrored horizontally (left and right exchanged): the cell `(x,y)` of the
result is the cell `(width-1-x, y)` of `a`. -/
def mirrorHorz {α : Type} (a : Array2D α) : Array2D α :=
  { a with
    data := List.filterMap (fun i => a.get (a.width - 1 - i % a.width) (i / a.width))
      (List.range (a.width * a.height)) }

end Array2D

/-- The constant `FLIP_VERT` (main.cpp 52). -/
def FLIP_VERT : Nat := 1

/-- The constant `FLIP_HORZ` (main.cpp 53). -/
def FLIP_HORZ : Nat := 2

/-- The function `ConsumerSpecifics::FirstRound` (main.cpp 267-304): fills the phase-1
reply with the intra-tile graph and the perimeter of the tile, re-oriented by the
tile's flip mask. -/
def FirstRound (tile : TileInfo) (s : ConsumerSpecifics) (job1 : Job1) : Job1 :=
  let j : Job1 :=
    { job1 with
      graph := s.spillover_graph
      top_elev := s.dem.topRow
      bot_elev := s.dem.bottomRow
      left_elev := s.dem.leftColumn
      right_elev := s.dem.rightColumn
      top_label := s.labels.topRow
      bot_label := s.labels.bottomRow
      left_label := s.labels.leftColumn
      right_label := s.labels.rightColumn }
  let j : Job1 :=
    if tile.flip &&& FLIP_VERT ≠ 0 then
      { j with
        top_elev := j.bot_elev
        bot_elev := j.top_elev
        top_label := j.bot_label
        bot_label := j.top_label
        left_elev := j.left_elev.reverse
        right_elev := j.right_elev.reverse
        left_label := j.left_label.reverse
        right_label := j.right_label.reverse }
    else j
  if tile.flip &&& FLIP_HORZ ≠ 0 then
    { j with
      left_elev := j.right_elev
      right_elev := j.left_elev
      left_label := j.right_label
      right_label := j.left_label
      top_elev := j.top_elev.reverse
      bot_elev := j.bot_elev.reverse
      top_label := j.top_label.reverse
      bot_label := j.bot_label.reverse }
  else j

/-- The grid as the flip mask says it is to be read: mirrored vertically when the mask
holds `FLIP_VERT`, and mirrored horizontally when it holds `FLIP_HORZ`. -/
def flipped {α : Type} (flip : Nat) (a : Array2D α) : Array2D α :=
  let a1 := if flip &&& FLIP_VERT ≠ 0 then a.mirrorVert else a
  if flip &&& FLIP_HORZ ≠ 0 then a1.mirrorHorz else a1

/-- Example grid of 3 columns and 2 rows. -/
def exGrid : Array2D Int := { width := 3, height := 2, data := [1, 2, 3, 4, 5, 6] }

/-- Example label grid of 3 columns and 2 rows. -/
def exGridLabels : Array2D Nat := { width := 3, height := 2, data := [1, 1, 2, 3, 3, 2] }

/-- The state of the flood loop of `Calculations` when the loop is left (main.cpp
489-534): `aggregatedFlood` returns its `graph_elev`. -/
def floodRun (lowest : Int) (mastergraph : Graph) : Option FloodState :=
  floodLoop mastergraph (floodFuel mastergraph)
    { openq := [(lowest, 1)],
      visited := List.replicate mastergraph.length false,
      graph_elev := List.replicate mastergraph.length 0 }

/-- The fill elevation of every visited vertex other than 1 is at least the largest
edge weight of every path from the vertex back to vertex 1. -/
def FillAboveEveryPath (g : Graph) (s : FloodState) : Prop :=
  ∀ v c, v ≠ 1 → s.visited[v]? = some true → Path g v 1 c →
    ∃ f, s.graph_elev[v]? = some f ∧ c ≤ f

/-! ## The pit-queue variant of the flood -/

/-- State of the flood loop with the queue `pit` in use: `open`, `pit`, `visited` and
`graph_elev`. -/
structure PitState where
  openq      : List GraphNode
  pit        : List GraphNode
  visited    : List Bool
  graph_elev : List Int
deriving DecidableEq, Repr

/-- Body of the neighbour loop with the lines of main.cpp 527-531 turned on in place
of the push of line 522:
`if(n_elev<=my_elev) pit.emplace(my_elev,n_vertex_num); else open.emplace(n_elev,n_vertex_num);` -/
def pitNeighbour (my_elev : Int) (s : PitState) (n : Nat × Int) : Option PitState :=
  match s.visited[n.1]? with
  | none => none
  | some true => some s
  | some false =>
    if n.2 ≤ my_elev then some { s with pit := s.pit ++ [(my_elev, n.1)] }
    else some { s with openq := (n.2, n.1) :: s.openq }

/-- The part of an iteration that follows the pop of `c` (main.cpp 510-532). -/
def pitVisit (mastergraph : Graph) (c : GraphNode) (s : PitState) : Option PitState :=
  match s.visited[c.2]? with
  | none => none
  | some true => some s
  | some false =>
    match mastergraph[c.2]? with
    | none => none
    | some nbrs =>
      nbrs.foldlM (pitNeighbour c.1)
        { s with visited := s.visited.set c.2 true, graph_elev := s.graph_elev.set c.2 c.1 }

/-- One iteration of the flood loop with the queue `pit` in use (main.cpp 501-533):
the front of `pit` is taken while there is one, the top of `open` otherwise. -/
def pitStep (mastergraph : Graph) (s : PitState) : Option PitState :=
  match s.pit with
  | c :: rest => pitVisit mastergraph c { s with pit := rest }
  | [] =>
    match heapTop s.openq with
    | none => none
    | some c => pitVisit mastergraph c { s with openq := s.openq.erase c }

/-- The loop `while(open.size()>0 || pit.size()>0)` for at most `fuel` iterations. -/
def pitLoop (mastergraph : Graph) (fuel : Nat) (s : PitState) : Option PitState :=
  match fuel with
  | 0 => if s.openq.isEmpty ∧ s.pit.isEmpty then some s else none
  | fuel + 1 =>
    if s.openq.isEmpty ∧ s.pit.isEmpty then some s
    else (pitStep mastergraph s).bind (pitLoop mastergraph fuel)

/-- The aggregated priority-flood with the pit queue turned on; returns `graph_elev`. -/
def pitFlood (lowest : Int) (mastergraph : Graph) : Option (List Int) :=
  (pitLoop mastergraph (floodFuel mastergraph)
    { openq := [(lowest, 1)],
      pit := [],
      visited := List.replicate mastergraph.length false,
      graph_elev := List.replicate mastergraph.length 0 }).map (fun s => s.graph_elev)

/-- The state of the heap-only loop that holds both queues of a state of the pit
variant as one collection. -/
def PitState.merged (s : PitState) : FloodState :=
  { openq := s.pit ++ s.openq, visited := s.visited, graph_elev := s.graph_elev }

/-- Invariant of the loop of the pit variant: the invariant of the flood for the two
queues taken together, and no entry of either queue lies below an entry of `pit`. -/
structure PitInv (g : Graph) (lowest : Int) (s : PitState) : Prop where
  flood : FloodInv g lowest s.merged
  level : ∀ x, x ∈ s.pit → ∀ y, y ∈ s.pit ++ s.openq → x.1 ≤ y.1

/-! ## Preparer -/

/-- The position `s.find(pat)` of the first occurrence of `pat` in `s`, if any
(`std::string::find`; `none` stands for `npos`). -/
def findSub (s pat : List Char) : Option Nat :=
  match s with
  | [] => if pat = [] then some 0 else none
  | c :: rest =>
    if (c :: rest).take pat.length = pat then some 0
    else (findSub rest pat).map (fun i => i + 1)

/-- The test `s.find(pat) != std::string::npos`. -/
def contains (s pat : String) : Bool := (findSub s.data pat.data).isSome

/-- The statement `s.replace(s.find(pat), 2, rep)` for a two-character pattern that
occurs in `s`; a string without the pattern is left as it is. -/
def replaceFirst (s pat rep : String) : String :=
  match findSub s.data pat.data with
  | none => s
  | some i => String.mk (s.data.take i ++ rep.data ++ s.data.drop (i + 2))

/-- The test `s[0]=='@'`. -/
def startsWithAt (s : String) : Bool := s.data.head? = some '@'

/-- The four edge constants `GRID_TOP`, `GRID_BOTTOM`, `GRID_LEFT` and `GRID_RIGHT`.
They are declared in richdem/common/grid_cell.hpp, which is not part of the sources,
and are taken as parameters. -/
structure EdgeBits where
  top    : Nat
  bottom : Nat
  left   : Nat
  right  : Nat
deriving DecidableEq, Repr

/-- What `getGDALDimensions` reports about a raster file: its height, width, data type
and geotransform.  The six coefficients of the geotransform are doubles of which the
code reads the sign only; they are represented by integers. -/
structure GDALInfo where
  height       : Int
  width        : Int
  file_type    : Nat
  geotransform : List Int
deriving DecidableEq, Repr

/-- One entry served by `LayoutfileReader`: the values of `newRow()`, `isNullTile()`,
`getFullPath()`, `getBasename()`, `getGridLocName()`, `getX()` and `getY()` after a
successful `next()`. -/
structure LayoutEntry where
  newRow      : Bool
  isNullTile  : Bool
  fullPath    : String
  basename    : String
  gridLocName : String
  x           : Int
  y           : Int
deriving DecidableEq, Repr

/-- The ways in which `Preparer` ends without a tile matrix. -/
inductive PrepError
  | layoutName
  | probeFailed
  | manyName
  | tileHeight
  | tileWidth
  | retentionName
  | outputName
  | outputNameLate
  | unrecognisedMode
  | undefinedBehaviour
  | noTermination
deriving DecidableEq, Repr

/-- The default constructor `TileInfo()` (main.cpp 88-90): a null tile.  The other
members are left without a value by the code; they are zero or empty here. -/
def TileInfo.null : TileInfo :=
  { edge := 0, flip := 0, x := 0, y := 0, gridx := 0, gridy := 0, width := 0, height := 0,
    nullTile := true, many := false, label_offset := 0, label_increment := 0,
    filename := "", outputname := "", retention := "", analysis := "" }

/-- The constructor `TileInfo(filename, outputname, retention, gridx, gridy, x, y, width,
height, many, analysis)` (main.cpp 91-106).  `label_offset` and `label_increment` are
left without a value by the code; they are zero here. -/
def TileInfo.make (filename outputname retention : String) (gridx gridy x y width height : Int)
    (many : Bool) (analysis : String) : TileInfo :=
  { edge := 0, flip := 0, x := x, y := y, gridx := gridx, gridy := gridy, width := width,
    height := height, nullTile := false, many := many, label_offset := 0,
    label_increment := 0, filename := filename, outputname := outputname,
    retention := retention, analysis := analysis }

/-- The statement `tiles.back().emplace_back(t)`; `back()` of an empty vector is
undefined behaviour. -/
def pushBackRow (tiles : TileGrid) (t : TileInfo) : Except PrepError TileGrid :=
  match tiles.getLast? with
  | none => Except.error PrepError.undefinedBehaviour
  | some row => Except.ok (tiles.dropLast ++ [row ++ [t]])

/-- The statement `flip ^= bit` guarded by `cond`. -/
def xorIf (cond : Bool) (flip bit : Nat) : Nat :=
  if cond then flip ^^^ bit else flip

/-- The local variables of the many branch that live across the entries of the layout
file. -/
structure ManyState where
  tiles             : TileGrid
  tile_width        : Int
  tile_height       : Int
  tile_geotransform : List Int
deriving DecidableEq, Repr

/-- The per-tile retention name of the many branch (main.cpp 892-902). -/
def manyRetention (retention : String) (e : LayoutEntry) : Except PrepError String :=
  if contains retention "%f" then Except.ok (replaceFirst retention "%f" e.basename)
  else if contains retention "%n" then Except.ok (replaceFirst retention "%n" e.gridLocName)
  else if startsWithAt retention then Except.ok retention
  else Except.error PrepError.manyName

/-- The per-tile output name of the many branch (main.cpp 904-912). -/
def manyOutputName (output_name : String) (e : LayoutEntry) : Except PrepError String :=
  if contains output_name "%f" then Except.ok (replaceFirst output_name "%f" e.basename)
  else if contains output_name "%n" then Except.ok (replaceFirst output_name "%n" e.gridLocName)
  else Except.error PrepError.manyName

/-- Body of the loop `while(lf.next())` of the many branch (main.cpp 861-944) for one
entry of the layout file. -/
def manyEntry (probe : String → Option GDALInfo) (retention output_name : String)
    (flipH flipV : Int) (analysis : String) (st : ManyState) (e : LayoutEntry) :
    Except PrepError ManyState :=
  let tiles := if e.newRow then st.tiles ++ [[]] else st.tiles
  if e.isNullTile then
    (pushBackRow tiles TileInfo.null).map (fun ts => { st with tiles := ts })
  else
    (if st.tile_height = -1 then
      match probe e.fullPath with
      | none => Except.error PrepError.probeFailed
      | some info =>
        Except.ok { st with tile_height := info.height, tile_width := info.width,
                            tile_geotransform := info.geotransform }
    else Except.ok st).bind fun st1 =>
    (manyRetention retention e).bind fun this_retention =>
    (manyOutputName output_name e).bind fun this_output_name =>
    let t := TileInfo.make e.fullPath this_output_name this_retention e.x e.y 0 0
      st1.tile_width st1.tile_height true analysis
    let f1 := xorIf (decide (st1.tile_geotransform.getD 1 0 < 0)) t.flip FLIP_HORZ
    let f2 := xorIf (decide (st1.tile_geotransform.getD 5 0 > 0)) f1 FLIP_VERT
    let f3 := xorIf (decide (flipH ≠ 0)) f2 FLIP_HORZ
    let f4 := xorIf (decide (flipV ≠ 0)) f3 FLIP_VERT
    (pushBackRow tiles { t with flip := f4 }).map (fun ts => { st1 with tiles := ts })

/-- The statement `if(cond && tiles[ny][nx].nullTile) tiles[y][x].edge |= bit;`. -/
def markIfNull (cond : Bool) (ny nx : Nat) (bit : Nat) (y x : Nat) (tiles : TileGrid) :
    Except PrepError TileGrid :=
  if cond then
    match grid2 tiles ny nx with
    | none => Except.error PrepError.undefinedBehaviour
    | some n =>
      if n.nullTile then
        Except.ok (grid2Modify tiles y x (fun t => { t with edge := t.edge ||| bit }))
      else Except.ok tiles
  else Except.ok tiles

/-- Body of the loop over the tiles that follows the layout file (main.cpp 954-965). -/
def nullAdjacentTile (bits : EdgeBits) (height width y x : Nat) (tiles : TileGrid) :
    Except PrepError TileGrid :=
  match grid2 tiles y x with
  | none => Except.error PrepError.undefinedBehaviour
  | some t =>
    if t.nullTile then Except.ok tiles
    else
      (markIfNull (decide (0 < (y : Int) - 1 ∧ 0 < x)) (y - 1) x bits.top y x tiles).bind
        fun tiles =>
      (markIfNull (decide (y + 1 < height ∧ 0 < x)) (y + 1) x bits.bottom y x tiles).bind
        fun tiles =>
      (markIfNull (decide (0 < y ∧ 0 < (x : Int) - 1)) y (x - 1) bits.left y x tiles).bind
        fun tiles =>
      markIfNull (decide (0 < y ∧ x + 1 < width)) y (x + 1) bits.right y x tiles

/-- The loop `for(i=0;i<n;i++)` over a body that may end with an error. -/
def forRangeE {σ : Type} (n : Nat) (body : Nat → σ → Except PrepError σ) (s : σ) :
    Except PrepError σ :=
  (List.range n).foldlM (fun st i => body i st) s

/-- The loops of main.cpp 952-966: tiles next to a null tile get edge bits. -/
def nullAdjacency (bits : EdgeBits) (tiles : TileGrid) : Except PrepError TileGrid :=
  forRangeE tiles.length (fun y ts =>
    match ts[0]? with
    | none => Except.error PrepError.undefinedBehaviour
    | some row0 =>
      forRangeE row0.length (fun x ts2 =>
        nullAdjacentTile bits ts2.length row0.length y x ts2) ts) tiles

/-- The many branch of `Preparer` (main.cpp 852-966). -/
def prepareMany (probe : String → Option GDALInfo) (layout : List LayoutEntry) (bits : EdgeBits)
    (retention output_name : String) (flipH flipV : Int) (analysis : String) :
    Except PrepError TileGrid :=
  (layout.foldlM (manyEntry probe retention output_name flipH flipV analysis)
    { tiles := [], tile_width := -1, tile_height := -1,
      tile_geotransform := List.replicate 6 0 }).bind
    fun st => nullAdjacency bits st.tiles

/-- The largest value of `int32_t`. -/
def INT32_MAX : Int := 2147483647

/-- Body of the inner loop of the one branch (main.cpp 996-1045) for the tile whose
window starts at `(x,y)`: the size and name checks and the new tile. -/
def oneTile (retention input_file output_name analysis : String)
    (total_width total_height bwidth bheight : Int) (x y gridx gridy : Int) :
    Except PrepError TileInfo :=
  if total_height - y < 100 then Except.error PrepError.tileHeight
  else if total_width - x < 100 then Except.error PrepError.tileWidth
  else if !startsWithAt retention && !contains retention "%n" then
    Except.error PrepError.retentionName
  else if !contains output_name "%n" then Except.error PrepError.outputName
  else
    let coord_string := toString gridx ++ "_" ++ toString gridy
    let this_retention :=
      if !startsWithAt retention then replaceFirst retention "%n" coord_string else retention
    if !contains output_name "%n" then Except.error PrepError.outputNameLate
    else
      let this_output_name := replaceFirst output_name "%n" coord_string
      Except.ok (TileInfo.make input_file this_output_name this_retention gridx gridy x y
        (if total_width - x ≥ bwidth then bwidth else total_width - x)
        (if total_height - y ≥ bheight then bheight else total_height - y)
        false analysis)

/-- The inner loop `for(int32_t x=0,gridx=0;x<total_width;x+=bwidth,gridx++)` of the one
branch, from the state `(x, gridx)` on, for at most `fuel` iterations; `row` is
`tiles.back()`.  An `x+=bwidth` that leaves `int32_t` is undefined behaviour. -/
def oneColumns (retention input_file output_name analysis : String)
    (total_width total_height bwidth bheight : Int) (y gridy : Int) :
    Nat → Int → Int → List TileInfo → Except PrepError (List TileInfo)
  | 0, x, _, row =>
    if x < total_width then Except.error PrepError.noTermination else Except.ok row
  | fuel + 1, x, gridx, row =>
    if x < total_width then
      match oneTile retention input_file output_name analysis total_width total_height
          bwidth bheight x y gridx gridy with
      | Except.error e => Except.error e
      | Except.ok t =>
        if x + bwidth > INT32_MAX then Except.error PrepError.undefinedBehaviour
        else oneColumns retention input_file output_name analysis total_width total_height
          bwidth bheight y gridy fuel (x + bwidth) (gridx + 1) (row ++ [t])
    else Except.ok row

/-- The outer loop `for(int32_t y=0,gridy=0;y<total_height;y+=bheight,gridy++)` of the
one branch, from the state `(y, gridy)` on, for at most `fuel` iterations. -/
def oneRows (retention input_file output_name analysis : String)
    (total_width total_height bwidth bheight : Int) :
    Nat → Int → Int → TileGrid → Except PrepError TileGrid
  | 0, y, _, tiles =>
    if y < total_height then Except.error PrepError.noTermination else Except.ok tiles
  | fuel + 1, y, gridy, tiles =>
    if y < total_height then
      match oneColumns retention input_file output_name analysis total_width total_height
          bwidth bheight y gridy total_width.toNat 0 0 [] with
      | Except.error e => Except.error e
      | Except.ok row =>
        if y + bheight > INT32_MAX then Except.error PrepError.undefinedBehaviour
        else oneRows retention input_file output_name analysis total_width total_height
          bwidth bheight fuel (y + bheight) (gridy + 1) (tiles ++ [row])
    else Except.ok tiles

/-- The one branch of `Preparer` (main.cpp 968-1047).  A loop of a block size below 1
does not advance and is reported as `noTermination`. -/
def prepareOne (probe : String → Option GDALInfo) (retention input_file output_name : String)
    (bwidth bheight : Int) (analysis : String) : Except PrepError TileGrid :=
  match probe input_file with
  | none => Except.error PrepError.probeFailed
  | some info =>
    let total_height := info.height
    let total_width := info.width
    let bwidth := if bwidth = -1 then total_width else bwidth
    let bheight := if bheight = -1 then total_height else bheight
    oneRows retention input_file output_name analysis total_width total_height bwidth bheight
      total_height.toNat 0 0 []

/-- The statement `for(auto &e: row) e.edge |= bit;` on row `y`. -/
def markRow (bit : Nat) (y : Nat) (tiles : TileGrid) : TileGrid :=
  tiles.modify (fun row => row.map (fun t => { t with edge := t.edge ||| bit })) y

/-- The statements `tiles[y].front().edge |= GRID_LEFT; tiles[y].back().edge |= GRID_RIGHT;`
for row `y`; `front()` and `back()` of an empty row are undefined behaviour. -/
def markRowEnds (bits : EdgeBits) (y : Nat) (tiles : TileGrid) : Except PrepError TileGrid :=
  match tiles[y]? with
  | none => Except.error PrepError.undefinedBehaviour
  | some row =>
    if row.length = 0 then Except.error PrepError.undefinedBehaviour
    else
      let t1 := grid2Modify tiles y 0 (fun t => { t with edge := t.edge ||| bits.left })
      Except.ok (grid2Modify t1 y (row.length - 1)
        (fun t => { t with edge := t.edge ||| bits.right }))

/-- The marking of the edge of the tile matrix (main.cpp 1054-1063); `front()` and
`back()` of an empty matrix are undefined behaviour. -/
def markEdges (bits : EdgeBits) (tiles : TileGrid) : Except PrepError TileGrid :=
  if tiles.length = 0 then Except.error PrepError.undefinedBehaviour
  else
    let t1 := markRow bits.top 0 tiles
    let t2 := markRow bits.bottom (t1.length - 1) t1
    forRangeE t2.length (fun y ts => markRowEnds bits y ts) t2

/-- The function `Preparer` (main.cpp 821-1098) up to the tile matrix that it hands to
`Producer`.  `probe` stands for `getGDALDimensions` and `layout` for the entries that
`LayoutfileReader` serves for the input file.  The layout file that is written, the
log lines (which in one mode read the flip mask through the pointer `reptile`, set in
the many branch only) and the dispatch on the data type are left out. -/
def Preparer (probe : String → Option GDALInfo) (layout : String → List LayoutEntry)
    (bits : EdgeBits) (many_or_one retention input_file output_name : String)
    (bwidth bheight flipH flipV : Int) (analysis : String) : Except PrepError TileGrid :=
  if !contains output_name "%f" && !contains output_name "%n" then
    Except.error PrepError.layoutName
  else
    (if many_or_one = "many" then
      prepareMany probe (layout input_file) bits retention output_name flipH flipV analysis
    else if many_or_one = "one" then
      prepareOne probe retention input_file output_name bwidth bheight analysis
    else Except.error PrepError.unrecognisedMode).bind (markEdges bits)

/-- The name templates that the one branch accepts: the retention is a tag starting
with `@` or holds `%n`, and the output name holds `%n`. -/
def OneNamesValid (retention output_name : String) : Prop :=
  (startsWithAt retention = true ∨ contains retention "%n" = true) ∧
    contains output_name "%n" = true

instance instDecidableOneNamesValid (retention output_name : String) :
    Decidable (OneNamesValid retention output_name) := by
  unfold OneNamesValid
  infer_instance

/-- The tile that the one branch makes for the window starting at `(x,y)`, once the
checks have passed. -/
def oneTileOf (retention input_file output_name analysis : String)
    (total_width total_height bwidth bheight : Int) (x y gridx gridy : Int) : TileInfo :=
  TileInfo.make input_file
    (replaceFirst output_name "%n" (toString gridx ++ "_" ++ toString gridy))
    (if !startsWithAt retention then
      replaceFirst retention "%n" (toString gridx ++ "_" ++ toString gridy)
    else retention)
    gridx gridy x y
    (if total_width - x ≥ bwidth then bwidth else total_width - x)
    (if total_height - y ≥ bheight then bheight else total_height - y)
    false analysis

/-- The tiles of the columns `gridx, gridx+1, ..., gridx+n-1` of one row, the first
window starting at `x`. -/
def colTiles (retention input_file output_name analysis : String)
    (total_width total_height bwidth bheight : Int) (y gridy x gridx : Int) (n : Nat) :
    List TileInfo :=
  (List.range n).map (fun (k : Nat) => oneTileOf retention input_file output_name analysis
    total_width total_height bwidth bheight (x + (k : Int) * bwidth) y (gridx + (k : Int)) gridy)

/-- The rows `gridy, ..., gridy+m-1` of `n` columns each, the first row starting at `y`. -/
def rowTiles (retention input_file output_name analysis : String)
    (total_width total_height bwidth bheight : Int) (y gridy : Int) (n m : Nat) : TileGrid :=
  (List.range m).map (fun (j : Nat) => colTiles retention input_file output_name analysis
    total_width total_height bwidth bheight (y + (j : Int) * bheight) (gridy + (j : Int)) 0 0 n)

/-- The number of tiles in row `y` of the tile matrix. -/
def rowLen (tiles : TileGrid) (y : Nat) : Nat := (tiles.getD y []).length

/-- The edge mask of the tile at `(y,x)` after the marking of the edge of a matrix of
`m` rows whose row `y` has `len` tiles: the bits of the sides on which the tile lies
are added to the mask `e` it had. -/
def markedEdge (bits : EdgeBits) (m len y x e : Nat) : Nat :=
  let e1 := if y = 0 then e ||| bits.top else e
  let e2 := if y + 1 = m then e1 ||| bits.bottom else e1
  let e3 := if x = 0 then e2 ||| bits.left else e2
  if x + 1 = len then e3 ||| bits.right else e3

/-- The edge mask after the statements `front().edge |= GRID_LEFT; back().edge |= GRID_RIGHT;`
on a row of `len` tiles, for the tile in column `x` with mask `e`. -/
def endsEdge (bits : EdgeBits) (len x e : Nat) : Nat :=
  let e3 := if x = 0 then e ||| bits.left else e
  if x + 1 = len then e3 ||| bits.right else e3

/-- The block size in use on an axis of extent `total`: `-1` stands for the whole
extent (main.cpp 985-988). -/
def blockSize (b total : Int) : Int := if b = -1 then total else b

/-- The partition of an extent `total` into `n` blocks of size `b`, the last one
clamped: the blocks start inside the extent, the block after the last would start
outside, and every block leaves at least 100 cells up to the end of the extent. -/
structure Blocks (total b : Int) (n : Nat) : Prop where
  ends : total ≤ n * b
  starts : ∀ k : Nat, k < n → k * b < total
  checked : ∀ k : Nat, k < n → 100 ≤ total - k * b

/-- The cell `(px,py)` of the raster lies in the window of the tile. -/
def InWindow (t : TileInfo) (px py : Int) : Prop :=
  t.x ≤ px ∧ px < t.x + t.width ∧ t.y ≤ py ∧ py < t.y + t.height

/-- Some tile of the clamped grid is less than 100 cells wide or less than 100 cells
high: a grid position `(gx, gy)` whose window starts inside the `W x H` raster and has
width `min(bw, W - gx*bw) < 100` or height `min(bh, H - gy*bh) < 100`. -/
def SmallTile (W H bw bh : Int) : Prop :=
  ∃ gx gy : Nat, gx * bw < W ∧ gy * bh < H ∧
    (min bw (W - gx * bw) < 100 ∨ min bh (H - gy * bh) < 100)

/-- Example raster: 300 cells wide and 250 cells high. -/
def exInfo : GDALInfo :=
  { height := 250, width := 300, file_type := 1, geotransform := [0, 1, 0, 0, 0, -1] }

/-- The probe of the example: every file is the example raster. -/
def exProbe (_ : String) : Option GDALInfo := some exInfo

/-- Example values of the four edge constants. -/
def exBits : EdgeBits := { top := 2, bottom := 8, left := 1, right := 4 }

/-- The tile matrix of the example raster cut into blocks 150 cells wide. -/
def exOneTiles : TileGrid :=
  [[{ edge := 11, flip := 0, x := 0, y := 0, gridx := 0, gridy := 0, width := 150,
      height := 250, nullTile := false, many := false, label_offset := 0,
      label_increment := 0, filename := "in.tif", outputname := "out0_0.tif",
      retention := "@evict", analysis := "cmd" },
    { edge := 14, flip := 0, x := 150, y := 0, gridx := 1, gridy := 0, width := 150,
      height := 250, nullTile := false, many := false, label_offset := 0,
      label_increment := 0, filename := "in.tif", outputname := "out1_0.tif",
      retention := "@evict", analysis := "cmd" }]]

/-- The edge mask `e` holds the bit(s) of the constant `b`. -/
def HasBit (e b : Nat) : Prop := e &&& b = b

instance instDecidableHasBit (e b : Nat) : Decidable (HasBit e b) := by
  unfold HasBit
  infer_instance

/-- The four edge constants are four different bits: none is zero and no two of them
share a bit. -/
structure EdgeBits.Distinct (bits : EdgeBits) : Prop where
  top_ne : bits.top ≠ 0
  bottom_ne : bits.bottom ≠ 0
  left_ne : bits.left ≠ 0
  right_ne : bits.right ≠ 0
  top_bottom : bits.top &&& bits.bottom = 0
  top_left : bits.top &&& bits.left = 0
  top_right : bits.top &&& bits.right = 0
  bottom_left : bits.bottom &&& bits.left = 0
  bottom_right : bits.bottom &&& bits.right = 0
  left_right : bits.left &&& bits.right = 0
/-- The mask `e` with the constants of the sides `a` (top), `b` (bottom), `c` (left)
and `d` (right) added. -/
def markBits (bits : EdgeBits) (a b c d : Bool) (e : Nat) : Nat :=
  let e1 := if a then e ||| bits.top else e
  let e2 := if b then e1 ||| bits.bottom else e1
  let e3 := if c then e2 ||| bits.left else e2
  if d then e3 ||| bits.right else e3

/-- The flip mask that the many branch gives to a tile: the flips that the geotransform
asks for, then the flips that the user asks for (main.cpp 934-944). -/
def manyFlip (geotransform : List Int) (flipH flipV : Int) : Nat :=
  xorIf (decide (flipV ≠ 0))
    (xorIf (decide (flipH ≠ 0))
      (xorIf (decide (geotransform.getD 5 0 > 0))
        (xorIf (decide (geotransform.getD 1 0 < 0)) 0 FLIP_HORZ) FLIP_VERT) FLIP_HORZ) FLIP_VERT

/-- Every tile of the matrix that is not a null tile has the flip mask `f`. -/
def AllFlip (f : Nat) (tiles : TileGrid) : Prop :=
  ∀ row, row ∈ tiles → ∀ t, t ∈ row → t.nullTile = false → t.flip = f

/-- Every tile of the matrix is a null tile. -/
def AllNull (tiles : TileGrid) : Prop :=
  ∀ row, row ∈ tiles → ∀ t, t ∈ row → t.nullTile = true

/-- A layout entry of the example. -/
def exEntry (newRow isNull : Bool) (name : String) (x y : Int) : LayoutEntry :=
  { newRow := newRow, isNullTile := isNull, fullPath := name, basename := name,
    gridLocName := toString x ++ "_" ++ toString y, x := x, y := y }

/-- Example layout of three rows of three tiles; the tile in the middle of the first
row is a null tile. -/
def exLayout : List LayoutEntry :=
  [ exEntry true false "a" 0 0, exEntry false true "" 1 0, exEntry false false "c" 2 0,
    exEntry true false "d" 0 1, exEntry false false "e" 1 1, exEntry false false "f" 2 1,
    exEntry true false "g" 0 2, exEntry false false "h" 1 2, exEntry false false "k" 2 2 ]

/-- A tile of the example layout as `Preparer` hands it over. -/
def exManyTile (edge : Nat) (name : String) (gx gy : Int) : TileInfo :=
  { edge := edge, flip := 2, x := 0, y := 0, gridx := gx, gridy := gy, width := 300,
    height := 250, nullTile := false, many := true, label_offset := 0, label_increment := 0,
    filename := name, outputname := "out" ++ name ++ ".tif", retention := "@evict",
    analysis := "cmd" }

/-- The tile matrix that `Preparer` hands over for the example layout. -/
def exManyTiles : TileGrid :=
  [[exManyTile 3 "a" 0 0, { TileInfo.null with edge := 2 }, exManyTile 6 "c" 2 0],
   [exManyTile 1 "d" 0 1, exManyTile 0 "e" 1 1, exManyTile 4 "f" 2 1],
   [exManyTile 9 "g" 0 2, exManyTile 8 "h" 1 2, exManyTile 12 "k" 2 2]]

/-! ## main: the command line -/

/-- What a call of `std::stoi` on a string ends with: the converted value, the
exception `std::invalid_argument` (no conversion could be done) or the exception
`std::out_of_range` (the number does not fit `int`). -/
inductive StoiResult
  | value (n : Int)
  | invalidArgument
  | outOfRange
deriving DecidableEq, Repr

/-- The test `isspace(c)` of the C locale: space, tab, line feed, vertical tab, form
feed and carriage return. -/
def isSpaceChar (c : Char) : Bool :=
  c.toNat = 32 || (9 ≤ c.toNat && c.toNat ≤ 13)

/-- The value of the longest run of decimal digits at the start of `cs`, continuing the
value `acc`; `none` when `cs` starts with no digit and `seen` is false. -/
def digitsValue : List Char → Nat → Bool → Option Nat
  | [], acc, seen => if seen then some acc else none
  | c :: rest, acc, seen =>
    if c.isDigit then digitsValue rest (acc * 10 + (c.toNat - 48)) true
    else if seen then some acc else none

/-- The library function `std::stoi(s)` (base 10): white space is skipped, a sign may
follow, then digits are read as far as they go. -/
def stoi (s : String) : StoiResult :=
  let cs := s.data.dropWhile isSpaceChar
  let neg := cs.head? = some '-'
  let body := if cs.head? = some '-' ∨ cs.head? = some '+' then cs.tail else cs
  match digitsValue body 0 false with
  | none => StoiResult.invalidArgument
  | some v =>
    let n : Int := if neg then -(v : Int) else (v : Int)
    if n < -2147483648 ∨ n > 2147483647 then StoiResult.outOfRange else StoiResult.value n

/-- The local variables of `main` that the command line fills (main.cpp 1104-1111). -/
structure Args where
  many_or_one : String
  retention   : String
  input_file  : String
  output_name : String
  bwidth      : Int
  bheight     : Int
  flipH       : Int
  flipV       : Int
deriving DecidableEq, Repr

/-- The ways in which the argument handling of `main` ends: the values with which
`Preparer` is called, the help text (return value -1), an argument error (a caught
`std::invalid_argument`, message printed, return value -1), or an exception that
`main` does not catch. -/
inductive MainResult
  | run (args : Args)
  | help
  | argError (msg : String)
  | uncaught
deriving DecidableEq, Repr

/-- The checks that follow the loop over the arguments (main.cpp 1165-1178); `commSize`
is the value of `CommSize()`. -/
def checkArgs (commSize : Nat) (st : Args) : MainResult :=
  if st.many_or_one = "" ∨ st.retention = "" ∨ st.input_file = "" ∨ st.output_name = "" then
    MainResult.argError "Too few arguments."
  else if startsWithAt st.retention ∧ ¬ (st.retention = "@evict" ∨ st.retention = "@retain") then
    MainResult.argError "Retention must be @evict or @retain or a path."
  else if st.many_or_one ≠ "many" ∧ st.many_or_one ≠ "one" then
    MainResult.argError "Must specify many or one."
  else if commSize = 1 then
    MainResult.argError "Must run program with at least two processes!"
  else if ¬ xor (!contains st.output_name "%f") (!contains st.output_name "%n") then
    MainResult.argError "Output filename must indicate either file number (%n) or name (%f)."
  else if ¬ startsWithAt st.retention ∧ ¬ contains st.retention "%n"
      ∧ ¬ contains st.retention "%f" then
    MainResult.argError "Retention filename must indicate file number with '%n' or '%f'."
  else if st.retention = st.output_name then
    MainResult.argError "Retention and output filenames must differ."
  else MainResult.run st

/-- The handling of the value `v` that follows `--bwidth`/`-w` or `--bheight`/`-h`
(main.cpp 1131-1134 and 1139-1142): the value of `std::stoi(v)` when it passes the
check, the argument error otherwise.  The exception `std::invalid_argument` of `stoi`
is reported as "Invalid width or height." (main.cpp 1181-1182); `std::out_of_range` is
not caught. -/
def blockValue (v msg : String) : Except MainResult Int :=
  match stoi v with
  | StoiResult.invalidArgument => Except.error (MainResult.argError "Invalid width or height.")
  | StoiResult.outOfRange => Except.error MainResult.uncaught
  | StoiResult.value n =>
    if n < 300 ∧ n ≠ -1 then Except.error (MainResult.argError msg) else Except.ok n

/-- The loop `for(int i=1;i<argc;i++)` of `main` over the arguments that are left
(main.cpp 1126-1164), followed by the checks. -/
def parseArgs (commSize : Nat) : List String → Args → MainResult
  | [], st => checkArgs commSize st
  | arg :: rest, st =>
    if arg = "--bwidth" ∨ arg = "-w" then
      match rest with
      | [] => MainResult.argError "-w followed by no argument."
      | v :: rest2 =>
        match blockValue v "Width must be at least 500." with
        | Except.error r => r
        | Except.ok n => parseArgs commSize rest2 { st with bwidth := n }
    else if arg = "--bheight" ∨ arg = "-h" then
      match rest with
      | [] => MainResult.argError "-h followed by no argument."
      | v :: rest2 =>
        match blockValue v "Height must be at least 500." with
        | Except.error r => r
        | Except.ok n => parseArgs commSize rest2 { st with bheight := n }
    else if arg = "--help" then MainResult.help
    else if arg = "--flipH" ∨ arg = "-H" then parseArgs commSize rest { st with flipH := 1 }
    else if arg = "--flipV" ∨ arg = "-V" then parseArgs commSize rest { st with flipV := 1 }
    else if arg.data.head? = some '-' then
      MainResult.argError ("Unrecognised flag: " ++ arg)
    else if st.many_or_one = "" then parseArgs commSize rest { st with many_or_one := arg }
    else if st.retention = "" then parseArgs commSize rest { st with retention := arg }
    else if st.input_file = "" then parseArgs commSize rest { st with input_file := arg }
    else if st.output_name = "" then parseArgs commSize rest { st with output_name := arg }
    else MainResult.argError "Too many arguments."

/-- The argument handling of `main` on process 0 (main.cpp 1103-1192) for the command
line `argv`. -/
def mainArgs (commSize : Nat) (argv : List String) : MainResult :=
  parseArgs commSize argv.tail
    { many_or_one := "", retention := "", input_file := "", output_name := "",
      bwidth := -1, bheight := -1, flipH := 0, flipV := 0 }

/-- The result is an argument error. -/
def MainResult.isArgError : MainResult → Bool
  | MainResult.argError _ => true
  | _ => false

/-- The values with which the example command line calls `Preparer`. -/
def exArgs : Args :=
  { many_or_one := "one"
    retention := "@evict"
    input_file := "in.tif"
    output_name := "out%n.tif"
    bwidth := 300
    bheight := -1
    flipH := 0
    flipV := 0 }

/-! ## main: acceptance of the arguments and the return value -/

/-- The output name holds exactly one of the patterns "%f" and "%n". -/
def ExactlyOnePattern (output_name : String) : Prop :=
  (contains output_name "%f" = true ∧ contains output_name "%n" = false) ∨
  (contains output_name "%f" = false ∧ contains output_name "%n" = true)

instance instDecidableExactlyOnePattern (output_name : String) :
    Decidable (ExactlyOnePattern output_name) := by
  unfold ExactlyOnePattern
  infer_instance

/-- The retention is "@evict", "@retain", or a string that does not start with '@' and
holds "%f" or "%n". -/
def RetentionValid (retention : String) : Prop :=
  retention = "@evict" ∨ retention = "@retain" ∨
  (startsWithAt retention = false ∧
    (contains retention "%f" = true ∨ contains retention "%n" = true))

instance instDecidableRetentionValid (retention : String) :
    Decidable (RetentionValid retention) := by
  unfold RetentionValid
  infer_instance

/-- The checks of `main` that concern neither the output name nor the retention
(main.cpp 1165, 1169-1172): four positional arguments, a known mode and more than one
process. -/
def BasicChecks (commSize : Nat) (st : Args) : Prop :=
  st.many_or_one ≠ "" ∧ st.input_file ≠ "" ∧ st.output_name ≠ "" ∧
  (st.many_or_one = "many" ∨ st.many_or_one = "one") ∧ commSize ≠ 1

instance instDecidableBasicChecks (commSize : Nat) (st : Args) :
    Decidable (BasicChecks commSize st) := by
  unfold BasicChecks
  infer_instance

/-- The value that `main` returns on process 0 for the command line `argv` (main.cpp
1102-1247): -1 after the help text (main.cpp 1146-1151) and after a caught
`std::invalid_argument` (main.cpp 1180-1200), 0 after the call of `Preparer` (main.cpp
1214, 1245-1247).  `preparerReturns` tells whether that call returns; `none` stands for
a run that ends in an exception nobody catches or in `CommAbort`. -/
def mainReturn (commSize : Nat) (preparerReturns : Args → Bool) (argv : List String) :
    Option Int :=
  match mainArgs commSize argv with
  | MainResult.help => some (-1)
  | MainResult.argError _ => some (-1)
  | MainResult.uncaught => none
  | MainResult.run args => if preparerReturns args then some 0 else none

/-- An example command line that `main` accepts. -/
def exCommand : List String :=
  ["parallel_pflood.exe", "--bwidth", "300", "one", "@evict", "in.tif", "out%n.tif"]

/-- The example command line with the flag `--help` put in front. -/
def exHelpCommand : List String :=
  ["parallel_pflood.exe", "--help", "--bwidth", "300", "one", "@evict", "in.tif", "out%n.tif"]

/-! ## A flat raster in four tiles -/

/-- Tile descriptor of the flat example at grid position `(gy, gx)`: a raster of
10 by 10 cells of elevation 5 in 2 by 2 tiles of 5 by 5 cells. -/
def flatTile (gy gx : Int) : TileInfo :=
  { edge := 0, flip := 0, x := gx * 5, y := gy * 5, gridx := gx, gridy := gy, width := 5,
    height := 5, nullTile := false, many := false, label_offset := 0, label_increment := 0,
    filename := "in", outputname := "out", retention := "@retain", analysis := "" }

/-- Phase-1 reply of a tile of the flat example: every perimeter cell has elevation 5
and label 1, and the graph of the tile has the vertices 0 and 1 and no edge. -/
def flatJob (gy gx : Int) : Job1 :=
  { top_elev := [5, 5, 5, 5, 5], bot_elev := [5, 5, 5, 5, 5], left_elev := [5, 5, 5, 5, 5],
    right_elev := [5, 5, 5, 5, 5], top_label := [1, 1, 1, 1, 1], bot_label := [1, 1, 1, 1, 1],
    left_label := [1, 1, 1, 1, 1], right_label := [1, 1, 1, 1, 1],
    graph := [[], []], gridy := gy, gridx := gx }

/-- The tile matrix of the flat example. -/
def flatTiles : TileGrid := [[flatTile 0 0, flatTile 0 1], [flatTile 1 0, flatTile 1 1]]

/-- The replies of the flat example. -/
def flatJobs : Job1Grid := [[flatJob 0 0, flatJob 0 1], [flatJob 1 0, flatJob 1 1]]

/-! ## ConsumerSpecifics: the retention strategies -/

/-- Modelled from the spec: what a file of the disk cache holds, namely the grid that
`Array2D::dumpData` wrote last under that name, of elevations or of labels
(richdem/common/Array2D.hpp is not part of the sources). -/
inductive StoredGrid
  | elev (g : Array2D Int)
  | label (g : Array2D Nat)
deriving DecidableEq, Repr

/-- The disk cache: a map from file name to stored grid. -/
abbrev Cache := List (String × StoredGrid)

/-- The file `name` of the cache, if there is one. -/
def Cache.read (c : Cache) (name : String) : Option StoredGrid :=
  match c with
  | [] => none
  | (n, g) :: rest => if name = n then some g else Cache.read rest name

/-- Modelled from the spec: `Array2D::dumpData` with the cache file name `name`: the
file is written anew. -/
def Cache.dump (c : Cache) (name : String) (g : StoredGrid) : Cache :=
  (name, g) :: c.filter (fun e => e.1 ≠ name)

/-- Modelled from the spec: the constructor `Array2D<elev_t>(name, true)`, which loads
a grid of elevations from the cache file `name`; `none` when there is no such file or
it holds no grid of elevations. -/
def Cache.loadElev (c : Cache) (name : String) : Option (Array2D Int) :=
  match c.read name with
  | some (StoredGrid.elev g) => some g
  | _ => none

/-- Modelled from the spec: the constructor `Array2D<label_t>(name, true)`. -/
def Cache.loadLabel (c : Cache) (name : String) : Option (Array2D Nat) :=
  match c.read name with
  | some (StoredGrid.label g) => some g
  | _ => none

/-- The function `ConsumerSpecifics::SaveToCache` (main.cpp 235-242): both grids get
the cache file name `tile.retention+"dem.dat"` and are dumped, the elevations first. -/
def SaveToCache (tile : TileInfo) (s : ConsumerSpecifics) (cache : Cache) : Cache :=
  let demName := tile.retention ++ "dem.dat"
  let labelsName := tile.retention ++ "dem.dat"
  (cache.dump demName (StoredGrid.elev s.dem)).dump labelsName (StoredGrid.label s.labels)

/-- The function `ConsumerSpecifics::LoadFromCache` (main.cpp 244-249): the elevations
are loaded from `tile.retention+"dem.dat"` and the labels from
`tile.retention+"labels.dat"`. -/
def LoadFromCache (tile : TileInfo) (s : ConsumerSpecifics) (cache : Cache) :
    Option ConsumerSpecifics :=
  match cache.loadElev (tile.retention ++ "dem.dat"),
      cache.loadLabel (tile.retention ++ "labels.dat") with
  | some d, some l => some { s with dem := d, labels := l }
  | _, _ => none

/-- A tile descriptor with a path as retention. -/
def cacheTile : TileInfo :=
  { flatTile 0 0 with retention := "tmp/0_0_" }

/-- The grids of a consumer: one cell of elevation 5 with label 2. -/
def cacheGrids : ConsumerSpecifics :=
  { dem := { width := 1, height := 1, data := [5] }
    labels := { width := 1, height := 1, data := [2] } }

/-! ## Producer: sending the jobs -/

/-- State of a sending loop of `Producer`: the messages sent so far, each with the tile
descriptor, the second part of the message and the rank it was sent to (`msgs` together
with the destinations of `CommISend`), and the counter `jobs_out`. -/
structure SendState (β : Type) where
  msgs     : List (TileInfo × β × Nat)
  jobs_out : Nat
deriving Repr

/-- Body of the sending loops of `Producer` for the tile at `(y,x)` (main.cpp 707-712
and 762-769): a null tile is passed over; any other tile is sent with `job x y` to the
rank `(jobs_out%active_consumer_limit)+1`, where `active_consumer_limit` is
`CommSize()-1`, and `jobs_out` is incremented.  A remainder by zero and an overflow of
the `int` counter are undefined behaviour. -/
def sendJob {β : Type} (commSize : Nat) (job : Nat → Nat → Option β) (tiles : TileGrid)
    (y x : Nat) (s : SendState β) : Option (SendState β) :=
  match grid2 tiles y x with
  | none => none
  | some t =>
    if t.nullTile then some s
    else
      match job x y with
      | none => none
      | some j =>
        if commSize - 1 = 0 ∨ INT32_MAX ≤ (s.jobs_out : Int) then none
        else some { msgs := s.msgs ++ [(t, j, s.jobs_out % (commSize - 1) + 1)],
                    jobs_out := s.jobs_out + 1 }

/-- A sending loop of `Producer` (main.cpp 705-713 and 760-770) over a tile matrix of
`gridheight` rows and `gridwidth` columns, starting with `jobs_out = 0` and no
message. -/
def sendJobs {β : Type} (commSize gridheight gridwidth : Nat) (job : Nat → Nat → Option β)
    (tiles : TileGrid) : Option (SendState β) :=
  forRange gridheight (fun y s =>
    forRange gridwidth (fun x s2 => sendJob commSize job tiles y x s2) s)
    { msgs := [], jobs_out := 0 }

/-- What `Producer` sends: the messages of the first phase, the tile matrix after
`Calculations`, and the messages of the second phase. -/
structure Produced where
  first  : List (TileInfo × Unit × Nat)
  tiles  : TileGrid
  second : List (TileInfo × List Int × Nat)
deriving Repr

/-- The function `Producer` (main.cpp 683-772) as far as the sending goes: the jobs of
the first phase are sent (tag `JOB_FIRST`, no second part), `Calculations` runs on the
replies `jobs1`, and the jobs of the second phase are sent (tag `JOB_SECOND`, with the
result of `DistributeJob2`).  `gridheight` and `gridwidth` are taken once, from the
tile matrix that `Producer` is called with. -/
def Producer (lowest : Int) (commSize : Nat) (jobs1 : Job1Grid) (tiles : TileGrid) :
    Option Produced :=
  match tiles.head? with
  | none => none
  | some row0 =>
    match sendJobs commSize tiles.length row0.length (fun _ _ => some ()) tiles with
    | none => none
    | some s1 =>
      match Calculations lowest tiles jobs1 with
      | none => none
      | some (tiles2, graph_elev) =>
        match sendJobs commSize tiles.length row0.length (DistributeJob2 graph_elev tiles2)
            tiles2 with
        | none => none
        | some s2 => some { first := s1.msgs, tiles := tiles2, second := s2.msgs }

/-- The tiles of the first `gridheight` rows and `gridwidth` columns in row-major
order. -/
def rowMajor (tiles : TileGrid) (gridheight gridwidth : Nat) : List TileInfo :=
  (List.range gridheight).flatMap (fun y =>
    (List.range gridwidth).filterMap (fun x => grid2 tiles y x))

/-- The tiles that are no null tiles, in row-major order. -/
def nonNullTiles (tiles : TileGrid) (gridheight gridwidth : Nat) : List TileInfo :=
  (rowMajor tiles gridheight gridwidth).filter (fun t => !t.nullTile)

/-- Round robin over the ranks `1..limit`: the tile at place `k` of the list (counted
from `start`) goes to the rank `(k mod limit) + 1`. -/
def roundRobin (limit : Nat) : Nat → List TileInfo → List (TileInfo × Nat)
  | _, [] => []
  | start, t :: rest => (t, start % limit + 1) :: roundRobin limit (start + 1) rest

/-- The number of messages that were sent to the rank `rank`. -/
def jobsOf {β : Type} (msgs : List (TileInfo × β × Nat)) (rank : Nat) : Nat :=
  (msgs.filter (fun m => m.2.2 = rank)).length

/-- A message without its second part: the tile descriptor and the rank. -/
def msgView {β : Type} (m : TileInfo × β × Nat) : TileInfo × Nat :=
  (m.1, m.2.2)

/-- Invariant of the sending loop when it is about to handle the tile at `(y,x)`: the
messages sent so far are the round robin over the tiles before `(y,x)` that are no null
tiles, and `jobs_out` counts them. -/
def SendInv {β : Type} (limit : Nat) (tiles : TileGrid) (gw y x : Nat) (s : SendState β) :
    Prop :=
  s.msgs.map msgView = roundRobin limit 0
    ((rowMajor tiles y gw ++ (List.range x).filterMap (fun x2 => grid2 tiles y x2)).filter
      (fun t => !t.nullTile)) ∧
  s.jobs_out = s.msgs.length

/-! ## Soundness of the edge bits -/

/-- The four sides of a tile. -/
inductive Side
  | top
  | bottom
  | left
  | right
deriving DecidableEq, Repr

/-- The edge constant of a side. -/
def EdgeBits.of (bits : EdgeBits) : Side → Nat
  | Side.top => bits.top
  | Side.bottom => bits.bottom
  | Side.left => bits.left
  | Side.right => bits.right

/-- There is a null tile at `(y,x)`. -/
def NullAt (tiles : TileGrid) (y x : Nat) : Prop :=
  ∃ n, grid2 tiles y x = some n ∧ n.nullTile = true

/-- The direct neighbour of the tile at `(y,x)` on the given side is a null tile. -/
def NullNbr (tiles : TileGrid) : Side → Nat → Nat → Prop
  | Side.top, y, x => 0 < y ∧ NullAt tiles (y - 1) x
  | Side.bottom, y, x => NullAt tiles (y + 1) x
  | Side.left, y, x => 0 < x ∧ NullAt tiles y (x - 1)
  | Side.right, y, x => NullAt tiles y (x + 1)

/-- The tile at `(y,x)` lies on the given side of the tile matrix: in its first row,
in its last row, first in its row or last in its row. -/
def OnSide (tiles : TileGrid) : Side → Nat → Nat → Prop
  | Side.top, y, _ => y = 0
  | Side.bottom, y, _ => y + 1 = tiles.length
  | Side.left, _, x => x = 0
  | Side.right, y, x => x + 1 = rowLen tiles y

/-- Invariant of the loops that mark the tiles next to a null tile, with respect to the
tile matrix `tiles0` that the loops start from: the null tiles are where they were,
and a tile has the bit of a side only if its neighbour on that side is a null tile. -/
def AdjInv (bits : EdgeBits) (tiles0 tiles : TileGrid) : Prop :=
  (∀ y x, (grid2 tiles y x).map TileInfo.nullTile = (grid2 tiles0 y x).map TileInfo.nullTile) ∧
  ∀ y x t, grid2 tiles y x = some t → ∀ S, HasBit t.edge (bits.of S) → NullNbr tiles0 S y x

/-- No tile of the matrix has an edge bit. -/
def AllEdgeZero (tiles : TileGrid) : Prop :=
  ∀ row, row ∈ tiles → ∀ t, t ∈ row → t.edge = 0

/-! ## The file names of one mode -/

/-- The number that a list of decimal digits stands for. -/
def decimalValue (cs : List Char) : Nat :=
  cs.foldl (fun acc c => acc * 10 + (c.toNat - 48)) 0

/-- The string `std::to_string(gridx)+"_"+std::to_string(gridy)` that the one branch
puts in the place of "%n" (main.cpp 1020). -/
def coordString (gridx gridy : Int) : String :=
  toString gridx ++ "_" ++ toString gridy

/-! ## The tile flood kernel -/

/-- A cell in the queue of the tile flood: the elevation it was pushed with, the number
of its insertion, and its coordinates. -/
structure QueueCell where
  z : Int
  k : Nat
  x : Nat
  y : Nat
deriving DecidableEq, Repr

/-- The order of the queue of the tile flood: the lower elevation first, and among
equal elevations the cell inserted first. -/
def cellLE (a b : QueueCell) : Bool :=
  decide (a.z < b.z) || (decide (a.z = b.z) && decide (a.k ≤ b.k))

/-- The cell that the queue of the tile flood pops next. -/
def lowestCell (q : List QueueCell) : Option QueueCell :=
  match q with
  | [] => none
  | a :: rest =>
    match lowestCell rest with
    | none => some a
    | some b => if cellLE a b then some a else some b

/-- State of the tile flood: the two grids, the graph, the queue, the number of
insertions so far and the next fresh label. -/
structure KernelState where
  dem           : Array2D Int
  labels        : Array2D Nat
  graph         : Graph
  openq         : List QueueCell
  pushed        : Nat
  current_label : Nat
deriving Repr

/-- The cells of a grid of `w` by `h` cells, row by row. -/
def gridCells (w h : Nat) : List (Nat × Nat) :=
  (List.range h).flatMap (fun y => (List.range w).map (fun x => (x, y)))

/-- The cell `(x,y)` lies on a side of the grid. -/
def onPerimeter (w h x y : Nat) : Bool :=
  decide (x = 0) || decide (y = 0) || decide (x + 1 = w) || decide (y + 1 = h)

/-- The cell `(x,y)` lies on a side of the grid that is flagged as outer. -/
def onOuter (top bottom left right : Bool) (w h x y : Nat) : Bool :=
  (top && decide (y = 0)) || (bottom && decide (y + 1 = h)) ||
  (left && decide (x = 0)) || (right && decide (x + 1 = w))

/-- The eight offsets of the neighbours of a cell. -/
def nbrOffsets : List (Int × Int) :=
  [(-1, -1), (0, -1), (1, -1), (-1, 0), (1, 0), (-1, 1), (0, 1), (1, 1)]

/-- The neighbours of the cell `(x,y)` that lie in the grid. -/
def neighbours (w h x y : Nat) : List (Nat × Nat) :=
  nbrOffsets.filterMap (fun d =>
    let nx : Int := (x : Int) + d.1
    let ny : Int := (y : Int) + d.2
    if 0 ≤ nx ∧ nx < w ∧ 0 ≤ ny ∧ ny < h then some (nx.toNat, ny.toNat) else none)

/-- A side cell gets the label `l` and is pushed with its own elevation. -/
def seedCell (l : Nat) (s : KernelState) (c : Nat × Nat) : Option KernelState :=
  match s.dem.get c.1 c.2 with
  | none => none
  | some e =>
    some { s with labels := s.labels.set c.1 c.2 l
                  openq := s.openq ++ [{ z := e, k := s.pushed, x := c.1, y := c.2 }]
                  pushed := s.pushed + 1 }

/-- A side cell gets a fresh label and is pushed with its own elevation. -/
def seedFresh (s : KernelState) (c : Nat × Nat) : Option KernelState :=
  (seedCell s.current_label s c).map
    (fun s2 => { s2 with current_label := s.current_label + 1 })

/-- What the pop of a cell with elevation `z` and label `lc` does with its neighbour
`n`: an unlabelled neighbour gets the label, is raised to `max(z, elevation)` and is
pushed; a neighbour with another label gives an edge of the graph, of weight
`max(z, elevation)`, with the lower weight kept. -/
def visitNeighbour (z : Int) (lc : Nat) (s : KernelState) (n : Nat × Nat) :
    Option KernelState :=
  match s.labels.get n.1 n.2, s.dem.get n.1 n.2 with
  | some ln, some e =>
    if ln = 0 then
      some { s with labels := s.labels.set n.1 n.2 lc
                    dem := s.dem.set n.1 n.2 (max z e)
                    openq := s.openq ++ [{ z := max z e, k := s.pushed, x := n.1, y := n.2 }]
                    pushed := s.pushed + 1 }
    else if ln = lc then some s
    else (upsertMin s.graph lc ln (max z e)).map (fun g => { s with graph := g })
  | _, _ => none

/-- One pop of the tile flood. -/
def kernelStep (s : KernelState) : Option KernelState :=
  match lowestCell s.openq with
  | none => none
  | some c =>
    match s.labels.get c.x c.y with
    | none => none
    | some lc =>
      (neighbours s.dem.width s.dem.height c.x c.y).foldlM (visitNeighbour c.z lc)
        { s with openq := s.openq.erase c }

/-- The loop of the tile flood, run until the queue is empty, for at most `fuel` pops. -/
def kernelLoop (fuel : Nat) (s : KernelState) : Option KernelState :=
  match fuel with
  | 0 => if s.openq.isEmpty then some s else none
  | fuel + 1 =>
    if s.openq.isEmpty then some s
    else (kernelStep s).bind (kernelLoop fuel)

/-- Modelled from the spec: the tile flood of section 4.1 of the specification on one
tile, given which of its four sides are outer.  The cells on the outer sides get the
label 1 and are pushed; the other side cells get fresh labels from 2 on and are pushed
with their own elevation.  Then the cell of lowest elevation is popped (the first
inserted among equals) until the queue is empty; what a pop does to the neighbours is
`visitNeighbour`.  The elevation that a cell is pushed with is written to the elevation
grid.  The graph comes with one map per possible label and is cut down to the labels
in use. -/
def floodTile (top bottom left right : Bool) (dem : Array2D Int) (labels : Array2D Nat)
    (graph : Graph) : Option (Array2D Int × Array2D Nat × Graph) :=
  let w := dem.width
  let h := dem.height
  let side := (gridCells w h).filter (fun c => onPerimeter w h c.1 c.2)
  let s0 : KernelState :=
    { dem := dem, labels := labels, graph := graph, openq := [], pushed := 0,
      current_label := 2 }
  ((side.filter (fun c => onOuter top bottom left right w h c.1 c.2)).foldlM (seedCell 1) s0).bind
    fun s1 =>
  ((side.filter (fun c => !onOuter top bottom left right w h c.1 c.2)).foldlM seedFresh s1).bind
    fun s2 =>
  (kernelLoop (w * h) s2).map
    fun s3 => (s3.dem, s3.labels, s3.graph.take s3.current_label)

/-- Modelled from the spec: the tile flood kernel `Zhou2015Labels(dem, labels, graph,
edge, flipH, flipV)` (richdem/depressions/Zhou2016pf.hpp is not part of the sources),
after section 4.1 of the specification: the tile flood `floodTile`, where a side of the
tile is outer when the bit of `edge` for it is set, the flips exchanging top with
bottom and left with right.  `bits` holds the four edge constants. -/
def Zhou2015Labels (bits : EdgeBits) (dem : Array2D Int) (labels : Array2D Nat) (graph : Graph)
    (edge : Nat) (flipH flipV : Bool) : Option (Array2D Int × Array2D Nat × Graph) :=
  floodTile
    (if flipV then decide (HasBit edge bits.bottom) else decide (HasBit edge bits.top))
    (if flipV then decide (HasBit edge bits.top) else decide (HasBit edge bits.bottom))
    (if flipH then decide (HasBit edge bits.right) else decide (HasBit edge bits.left))
    (if flipH then decide (HasBit edge bits.left) else decide (HasBit edge bits.right))
    dem labels graph

/-- `Descends D L l c s`: a chain of neighbouring cells of label `l` leads from the cell
`c` to the cell `s`, and the elevation never rises along it. -/
inductive Descends (D : Array2D Int) (L : Array2D Nat) (l : Nat) : Nat × Nat → Nat × Nat → Prop
  | here {c : Nat × Nat} {e : Int} :
      L.get c.1 c.2 = some l → D.get c.1 c.2 = some e → Descends D L l c c
  | step {c p s : Nat × Nat} {e ep : Int} :
      Adjacent8 c.1 c.2 p.1 p.2 → L.get c.1 c.2 = some l → D.get c.1 c.2 = some e →
      D.get p.1 p.2 = some ep → ep ≤ e → Descends D L l p s → Descends D L l c s

/-- The edge `(a, b, w)` of a tile graph is borne out by two neighbouring cells of the
grids: they have the labels `a` and `b` and neither is higher than `w`. -/
def EdgeRealised (D : Array2D Int) (L : Array2D Nat) (a b : Nat) (w : Int) : Prop :=
  ∃ (c n : Nat × Nat) (e e2 : Int), Adjacent8 c.1 c.2 n.1 n.2 ∧
    L.get c.1 c.2 = some a ∧ L.get n.1 n.2 = some b ∧ 1 ≤ a ∧ 1 ≤ b ∧
    D.get c.1 c.2 = some e ∧ D.get n.1 n.2 = some e2 ∧ e ≤ w ∧ e2 ≤ w

/-- The state `s2` keeps the label and the elevation of every cell that has a label
in `s`. -/
def Extends (s s2 : KernelState) : Prop :=
  ∀ x y l, 1 ≤ l → s.labels.get x y = some l →
    s2.labels.get x y = some l ∧ s2.dem.get x y = s.dem.get x y

/-- Invariant of the tile flood on a grid of `W` by `H` cells. -/
structure KCore (top bottom left right : Bool) (W H : Nat) (s : KernelState) : Prop where
  dem_w : s.dem.width = W
  dem_h : s.dem.height = H
  dem_wf : s.dem.WellFormed
  lab_w : s.labels.width = W
  lab_h : s.labels.height = H
  lab_wf : s.labels.WellFormed
  cur : 2 ≤ s.current_label
  glen : s.current_label ≤ s.graph.length
  lab_lt : ∀ x y l, s.labels.get x y = some l → l < s.current_label
  queue : ∀ c, c ∈ s.openq →
    ∃ l, 1 ≤ l ∧ s.labels.get c.x c.y = some l ∧ s.dem.get c.x c.y = some c.z
  drains : ∀ x y, s.labels.get x y = some 1 →
    ∃ sd : Nat × Nat, onOuter top bottom left right W H sd.1 sd.2 = true ∧
      Descends s.dem s.labels 1 (x, y) sd
  seeds : ∀ l, 2 ≤ l → ∃ sd : Nat × Nat, ∀ x y, s.labels.get x y = some l →
    Descends s.dem s.labels l (x, y) sd
  sound : ∀ i p, IsEntry s.graph i p → EdgeRealised s.dem s.labels i p.1 p.2
  sym : Symmetric s.graph
  sorted : MapsSorted s.graph

/-- Every cell that has a label is in the queue or has been popped. -/
def Pending (s : KernelState) (done : List (Nat × Nat)) : Prop :=
  ∀ x y l, 1 ≤ l → s.labels.get x y = some l →
    (∃ c, c ∈ s.openq ∧ c.x = x ∧ c.y = y) ∨ (x, y) ∈ done

/-- The neighbour `n` of a cell with label `lc` has been dealt with: it has a label,
and when that label is another one the graph has the edge. -/
def NbrClosed (s : KernelState) (lc : Nat) (n : Nat × Nat) : Prop :=
  ∃ ln, 1 ≤ ln ∧ s.labels.get n.1 n.2 = some ln ∧
    (ln ≠ lc → ∃ w, EdgeBelow s.graph lc ln w)

/-- Every neighbour of a popped cell has been dealt with. -/
def DoneClosed (W H : Nat) (s : KernelState) (done : List (Nat × Nat)) : Prop :=
  ∀ c, c ∈ done → ∃ lc, 1 ≤ lc ∧ s.labels.get c.1 c.2 = some lc ∧
    ∀ n, n ∈ neighbours W H c.1 c.2 → NbrClosed s lc n

/-- The state `s2` keeps what `s` has settled: the labelled cells, and every edge of the
graph, whose weight may only fall. -/
def Grows (s s2 : KernelState) : Prop :=
  Extends s s2 ∧ (∀ a b w, EdgeBelow s.graph a b w → EdgeBelow s2.graph a b w) ∧
    s2.graph.length = s.graph.length

/-- Work left for the tile flood: the cells in the queue and the cells without label. -/
def kernelMeasure (s : KernelState) : Nat :=
  s.openq.length + s.labels.data.count 0

/-- Invariant of the tile flood between two pops. -/
structure KInv (top bottom left right : Bool) (W H : Nat) (done : List (Nat × Nat))
    (s : KernelState) : Prop where
  core : KCore top bottom left right W H s
  pending : Pending s done
  closed : DoneClosed W H s done

/-- Invariant of the tile flood while the neighbours of the popped cell `p`, of label
`lc` and elevation `z`, are visited. -/
structure KMid (top bottom left right : Bool) (W H : Nat) (done : List (Nat × Nat))
    (p : Nat × Nat) (lc : Nat) (z : Int) (s : KernelState) : Prop where
  core : KCore top bottom left right W H s
  pending : Pending s (p :: done)
  closed : DoneClosed W H s done
  lab : s.labels.get p.1 p.2 = some lc
  elev : s.dem.get p.1 p.2 = some z
  pos : 1 ≤ lc

/-- What the tile flood leaves on a tile of `W` by `H` cells whose outer sides are
given by the four flags: every cell has a label that is a vertex of the graph, the cells on
outer sides have the label 1, a cell of label 1 descends to a cell on an outer side,
the cells of a label from 2 on descend to one common cell, every edge of the graph is
borne out by two neighbouring cells, and two neighbouring cells of different labels
have an edge. -/
structure TileFlooded (top bottom left right : Bool) (W H : Nat) (D : Array2D Int)
    (L : Array2D Nat) (G : Graph) : Prop where
  dem_w : D.width = W
  dem_h : D.height = H
  dem_wf : D.WellFormed
  lab_w : L.width = W
  lab_h : L.height = H
  lab_wf : L.WellFormed
  two : 2 ≤ G.length
  size : G.length ≤ 2 * W + 2 * H
  labelled : ∀ x y, x < W → y < H → ∃ l, L.get x y = some l ∧ 1 ≤ l ∧ l < G.length
  outer : ∀ x y, x < W → y < H → onOuter top bottom left right W H x y = true →
    L.get x y = some 1
  drains : ∀ x y, L.get x y = some 1 →
    ∃ sd : Nat × Nat, onOuter top bottom left right W H sd.1 sd.2 = true ∧
      Descends D L 1 (x, y) sd
  seeds : ∀ l, 2 ≤ l → ∃ sd : Nat × Nat, ∀ x y, L.get x y = some l →
    Descends D L l (x, y) sd
  sound : ∀ i p, IsEntry G i p → EdgeRealised D L i p.1 p.2
  complete : ∀ x y x2 y2 l l2, Adjacent8 x y x2 y2 → L.get x y = some l →
    L.get x2 y2 = some l2 → l ≠ l2 → ∃ w, EdgeBelow G l l2 w
  sym : Symmetric G
  sorted : MapsSorted G

/-- Invariant of the seeding of the side cells, `seeded` being the cells seeded so
far. -/
structure SeedInv (top bottom left right : Bool) (W H : Nat) (seeded : List (Nat × Nat))
    (s : KernelState) : Prop where
  core : KCore top bottom left right W H s
  pending : Pending s []
  zero : ∀ x y, x < W → y < H → (x, y) ∉ seeded → s.labels.get x y = some 0
  lab : ∀ c, c ∈ seeded → ∃ l, 1 ≤ l ∧ s.labels.get c.1 c.2 = some l
  outer : ∀ c, c ∈ seeded → onOuter top bottom left right W H c.1 c.2 = true →
    s.labels.get c.1 c.2 = some 1
  cur : s.current_label ≤ 2 + seeded.length
  measure : kernelMeasure s = W * H
  glen : s.graph.length = 2 * W + 2 * H

/-- The side cells of a grid, in the order of seeding. -/
def sideCells (w h : Nat) : List (Nat × Nat) :=
  (gridCells w h).filter (fun c => onPerimeter w h c.1 c.2)

/-- A list that holds every side cell of a grid of `W` by `H` cells. -/
def sideCover (W H : Nat) : List (Nat × Nat) :=
  (List.range W).map (fun x => (x, 0)) ++ (List.range W).map (fun x => (x, H - 1)) ++
  (List.range (H - 2)).map (fun i => (0, i + 1)) ++
  (List.range (H - 2)).map (fun i => (W - 1, i + 1))

/-- `Drains g vis F v`: the visited vertex `v` is vertex 1, or it hangs below a visited
vertex that drains, by an edge that is not above the fill elevation of `v`, the fill
elevation of the other vertex not being above it either. -/
inductive Drains (g : Graph) (vis : List Bool) (F : List Int) : Nat → Prop
  | root : vis[1]? = some true → Drains g vis F 1
  | next {p v : Nat} {w fp fv : Int} : Drains g vis F p → vis[v]? = some true →
      IsEntry g p (v, w) → F[p]? = some fp → F[v]? = some fv → fp ≤ fv → w ≤ fv →
      Drains g vis F v

/-- Invariant of the flood loop on the way the visited vertices hang together. -/
structure DrainInv (g : Graph) (s : FloodState) : Prop where
  drained : ∀ v, s.visited[v]? = some true → Drains g s.visited s.graph_elev v
  queue : ∀ x, x ∈ s.openq → x.2 = 1 ∨ ∃ p fp w, s.visited[p]? = some true ∧
    s.graph_elev[p]? = some fp ∧ IsEntry g p (x.2, w) ∧ fp ≤ x.1 ∧ w ≤ x.1
  frontier : ∀ a b w, s.visited[a]? = some true → IsEntry g a (b, w) →
    s.visited[b]? = some true ∨ ∃ c, (c, b) ∈ s.openq
  seed : s.visited[1]? = some true ∨ ∃ c, (c, 1) ∈ s.openq
  lens : s.graph_elev.length = s.visited.length

/-- The guarded upserts that the perimeter phase may make: the edge between the offset
labels of two cells that touch across the boundary of a non-null tile at `(y,x)` and
its non-null neighbour towards `d`, weighted with the higher of the two cells. -/
def JoinCand (tiles : TileGrid) (jobs1 : Job1Grid) (gh gw : Nat) (a b : Nat) (w : Int) : Prop :=
  ∃ (y x : Nat) (d : Dir) (t n : TileInfo) (c nj : Job1) (eP eQ : Int) (lP lQ : Nat),
    y < gh ∧ x < gw ∧ grid2 tiles y x = some t ∧ t.nullTile = false ∧
    grid2 jobs1 y x = some c ∧ dirCond d gh gw y x = true ∧
    grid2 tiles (dirY d y) (dirX d x) = some n ∧ n.nullTile = false ∧
    grid2 jobs1 (dirY d y) (dirX d x) = some nj ∧ Touching d c nj eP eQ lP lQ ∧
    a = offsetLabel lP t.label_offset ∧ b = offsetLabel lQ n.label_offset ∧ w = max eP eQ

/-! ## The raster after the tile floods -/

/-- A raster cut into tiles, as it is after the first phase: the tile matrix, the
replies, the numbers of tile rows and tile columns, the width of every tile column
and the height of every tile row, and the elevation and label grid of every tile. -/
structure Raster where
  tiles : TileGrid
  jobs1 : Job1Grid
  gh : Nat
  gw : Nat
  colW : Nat → Nat
  rowH : Nat → Nat
  dems : Nat → Nat → Array2D Int
  labs : Nat → Nat → Array2D Nat

/-- The label offset that the merge phase gives to the tile at `(y,x)`. -/
def Raster.offAt (R : Raster) (y x : Nat) : Nat :=
  sumBefore (tileSize R.tiles R.jobs1) R.gw y x

/-- The global label of the local label `l` of the tile at `(ty,tx)`. -/
def Raster.glabel (R : Raster) (ty tx l : Nat) : Nat :=
  offsetLabel l (R.offAt ty tx)

/-- The cell `(cx,cy)` of the tile at `(ty,tx)` has the elevation `e` and the label `l`
after the tile flood. -/
def Raster.CellAt (R : Raster) (ty tx cx cy : Nat) (e : Int) (l : Nat) : Prop :=
  ty < R.gh ∧ tx < R.gw ∧ (R.dems ty tx).get cx cy = some e ∧ (R.labs ty tx).get cx cy = some l

/-- Two cells, given by tile and position in the tile, are 8-neighbours in the raster. -/
def Raster.Near (R : Raster) (ty tx cx cy ty2 tx2 cx2 cy2 : Nat) : Prop :=
  Adjacent8 (colStart R.colW tx + cx) (colStart R.rowH ty + cy)
    (colStart R.colW tx2 + cx2) (colStart R.rowH ty2 + cy2)

/-- The edge `(A, B, w)` of the master graph is borne out by two neighbouring cells of
the raster: they have the global labels `A` and `B` and neither is higher than `w`. -/
def Raster.Realised (R : Raster) (A B : Nat) (w : Int) : Prop :=
  ∃ (ty tx cx cy : Nat) (e : Int) (l : Nat) (ty2 tx2 cx2 cy2 : Nat) (e2 : Int) (l2 : Nat),
    R.CellAt ty tx cx cy e l ∧ R.CellAt ty2 tx2 cx2 cy2 e2 l2 ∧
    R.Near ty tx cx cy ty2 tx2 cx2 cy2 ∧
    A = R.glabel ty tx l ∧ B = R.glabel ty2 tx2 l2 ∧ e ≤ w ∧ e2 ≤ w

/-- The raster is ready for `Calculations` and every tile has been flooded, the outer
sides of a tile being those on the boundary of the raster; there is no null tile. -/
structure Raster.Flooded (R : Raster) : Prop where
  ready : MergeReady R.tiles R.jobs1 R.gh R.gw
  raster : RasterReady R.tiles R.jobs1 R.gh R.gw R.colW R.rowH R.dems R.labs
  nonnull : ∀ y, y < R.gh → ∀ x, x < R.gw → isNullAt R.tiles y x = false
  tile : ∀ y, y < R.gh → ∀ x, x < R.gw →
    TileFlooded (decide (y = 0)) (decide (y + 1 = R.gh)) (decide (x = 0))
      (decide (x + 1 = R.gw)) (R.colW x) (R.rowH y) (R.dems y x) (R.labs y x)
      (graphAt R.jobs1 y x)

/-- The cell `(cx,cy)` of the tile at `(ty,tx)` lies on the outer boundary of the raster:
in its first or last column or in its first or last row.  The tile columns have the
widths `colW` and the tile rows the heights `rowH`. -/
def OnBoundary (colW rowH : Nat → Nat) (gh gw ty tx cx cy : Nat) : Prop :=
  colStart colW tx + cx = 0 ∨ colStart rowH ty + cy = 0 ∨
    colStart colW tx + cx + 1 = colStart colW gw ∨
    colStart rowH ty + cy + 1 = colStart rowH gh

instance instDecidableOnBoundary (colW rowH : Nat → Nat) (gh gw ty tx cx cy : Nat) :
    Decidable (OnBoundary colW rowH gh gw ty tx cx cy) := by
  unfold OnBoundary
  infer_instance

/-- `DrainsOut elev colW rowH gh gw ty tx cx cy`: from the cell `(cx,cy)` of the tile at
`(ty,tx)` a path of steps between 8-neighbours of the raster, along which the elevation
`elev` never rises, leads to a cell on the outer boundary of the raster. -/
inductive DrainsOut (elev : Nat → Nat → Nat → Nat → Option Int) (colW rowH : Nat → Nat)
    (gh gw : Nat) : Nat → Nat → Nat → Nat → Prop
  | boundary {ty tx cx cy : Nat} {e : Int} : elev ty tx cx cy = some e →
      OnBoundary colW rowH gh gw ty tx cx cy →
      DrainsOut elev colW rowH gh gw ty tx cx cy
  | step {ty tx cx cy ty2 tx2 cx2 cy2 : Nat} {e e2 : Int} : elev ty tx cx cy = some e →
      elev ty2 tx2 cx2 cy2 = some e2 →
      Adjacent8 (colStart colW tx + cx) (colStart rowH ty + cy)
        (colStart colW tx2 + cx2) (colStart rowH ty2 + cy2) →
      e2 ≤ e → DrainsOut elev colW rowH gh gw ty2 tx2 cx2 cy2 →
      DrainsOut elev colW rowH gh gw ty tx cx cy

/-- What the second phase makes of the raster: a cell of label 0 or 1 keeps the
elevation that the tile flood left, a cell of a label from 2 on is raised to the fill
elevation of its global label. -/
def Raster.Raised (R : Raster) (fill : List Int) (elev : Nat → Nat → Nat → Nat → Option Int) :
    Prop :=
  ∀ ty tx cx cy e l, R.CellAt ty tx cx cy e l →
    (l ≤ 1 → elev ty tx cx cy = some e) ∧
    (2 ≤ l → ∃ f, fill[R.glabel ty tx l]? = some f ∧ elev ty tx cx cy = some (max e f))

/-! ## The two phases on a tile matrix, with the retention `@evict` -/

/-- The function `ConsumerSpecifics::LoadFromEvict` (main.cpp 192-229) on a fresh
`ConsumerSpecifics`.  `read filename x y width height many` stands for the constructor
`Array2D<elev_t>(filename, false, x, y, width, height, many)` that reads the window of the
tile from its file (GDAL is not part of the sources); `none` is an exception.  An
overflow of the `int` expression `2*tile.width+2*tile.height` is undefined behaviour. -/
def LoadFromEvict (bits : EdgeBits)
    (read : String → Int → Int → Int → Int → Bool → Option (Array2D Int)) (tile : TileInfo) :
    Option ConsumerSpecifics :=
  if INT32_MAX < 2 * tile.width + 2 * tile.height then none
  else
    match read tile.filename tile.x tile.y tile.width tile.height tile.many with
    | none => none
    | some dem =>
      if (dem.width : Int) ≠ tile.width then none
      else if (dem.height : Int) ≠ tile.height then none
      else
        match Zhou2015Labels bits dem
            { width := dem.width, height := dem.height,
              data := List.replicate (dem.width * dem.height) 0 }
            (List.replicate (2 * tile.width + 2 * tile.height).toNat [])
            tile.edge (decide (tile.flip &&& FLIP_HORZ ≠ 0))
            (decide (tile.flip &&& FLIP_VERT ≠ 0)) with
        | none => none
        | some r => some { dem := r.1, labels := r.2.1, spillover_graph := r.2.2 }

/-- The reply of the branch `JOB_FIRST` of `Consumer` (main.cpp 609-634) for a tile. -/
def consumerJobFirst (bits : EdgeBits)
    (read : String → Int → Int → Int → Int → Bool → Option (Array2D Int)) (tile : TileInfo) :
    Option Job1 :=
  (LoadFromEvict bits read tile).map
    (fun cs => FirstRound tile cs { emptyJob with gridy := tile.gridy, gridx := tile.gridx })

/-- The assignment `jobs1.at(temp.gridy).at(temp.gridx) = temp` of `Producer`
(main.cpp 733); `at` throws outside the grid. -/
def storeReply (jobs1 : Job1Grid) (temp : Job1) : Option Job1Grid :=
  if 0 ≤ temp.gridy ∧ 0 ≤ temp.gridx then
    match grid2 jobs1 temp.gridy.toNat temp.gridx.toNat with
    | none => none
    | some _ => some (grid2Modify jobs1 temp.gridy.toNat temp.gridx.toNat (fun _ => temp))
  else none

/-- The grid `jobs1` of `Producer` when the replies to all first jobs are in (main.cpp
705-734): a grid of default replies of the size of the tile matrix, in which the reply
for every tile that is no null tile has been stored.  The replies are taken in the
order in which the jobs are sent. -/
def firstReplies (bits : EdgeBits)
    (read : String → Int → Int → Int → Int → Bool → Option (Array2D Int)) (tiles : TileGrid) :
    Option Job1Grid :=
  match tiles.head? with
  | none => none
  | some row0 =>
    forRange tiles.length (fun y jobs =>
      forRange row0.length (fun x jobs2 =>
        match grid2 tiles y x with
        | none => none
        | some t =>
          if t.nullTile then some jobs2
          else (consumerJobFirst bits read t).bind (storeReply jobs2)) jobs)
      (List.replicate tiles.length (List.replicate row0.length emptyJob))

/-- The branch `JOB_SECOND` of `Consumer` (main.cpp 635-650) for a tile with the
retention `@evict`, up to the saving of the result: the grids that the consumer holds
after `SecondRound`. -/
def consumerJobSecond (bits : EdgeBits)
    (read : String → Int → Int → Int → Int → Bool → Option (Array2D Int)) (tile : TileInfo)
    (job2 : List Int) : Option ConsumerSpecifics :=
  (LoadFromEvict bits read tile).bind (SecondRound job2)

/-- The grids that the run of `Producer` and the consumers leaves for the tile at
`(y,x)`: the first phase on every tile, `Calculations` on the replies, and the second
phase on the tile with the slice of `DistributeJob2`. -/
def floodedTile (bits : EdgeBits)
    (read : String → Int → Int → Int → Int → Bool → Option (Array2D Int)) (lowest : Int)
    (tiles : TileGrid) (y x : Nat) : Option ConsumerSpecifics :=
  (firstReplies bits read tiles).bind fun jobs1 =>
  (Calculations lowest tiles jobs1).bind fun r =>
  match grid2 r.1 y x with
  | none => none
  | some t =>
    if t.nullTile then none
    else (DistributeJob2 r.2 r.1 x y).bind (consumerJobSecond bits read t)

/-- The elevation of the cell `(cx,cy)` of the tile at `(ty,tx)` in the output. -/
def outputElev (bits : EdgeBits)
    (read : String → Int → Int → Int → Int → Bool → Option (Array2D Int)) (lowest : Int)
    (tiles : TileGrid) (ty tx cx cy : Nat) : Option Int :=
  (floodedTile bits read lowest tiles ty tx).bind (fun o => o.dem.get cx cy)

/-- The label of the cell `(cx,cy)` of the tile at `(ty,tx)` in the output. -/
def outputLabel (bits : EdgeBits)
    (read : String → Int → Int → Int → Int → Bool → Option (Array2D Int)) (lowest : Int)
    (tiles : TileGrid) (ty tx cx cy : Nat) : Option Nat :=
  (floodedTile bits read lowest tiles ty tx).bind (fun o => o.labels.get cx cy)

/-- A raster of 4 by 3 cells with a pit of two cells in the middle, read in two tiles
of 2 by 3 cells. -/
def pitRead (_ : String) (x _ _ _ : Int) (_ : Bool) : Option (Array2D Int) :=
  if x = 0 then some { width := 2, height := 3, data := [5, 5, 5, 1, 5, 5] }
  else some { width := 2, height := 3, data := [5, 5, 2, 5, 5, 5] }

/-- The tile at column `gx` of the matrix of `pitTiles`. -/
def pitTile (gx : Int) (edge : Nat) : TileInfo :=
  { edge := edge, flip := 0, x := 2 * gx, y := 0, gridx := gx, gridy := 0, width := 2,
    height := 3, nullTile := false, many := false, label_offset := 0, label_increment := 0,
    filename := "dem.tif", outputname := "out.tif", retention := "@evict", analysis := "" }

/-- The tile matrix of the raster of `pitRead`: one row of two tiles. -/
def pitTiles : TileGrid := [[pitTile 0 11, pitTile 1 14]]

/-- The tile `t` at `(y,x)` of a matrix of `gh` by `gw` tiles is an ordinary tile of `W`
by `H` cells: it is no null tile and not flipped, it knows its place in the matrix,
the file holds the grid `dem` of its size for it, and its edge bits say on which sides
it lies on the boundary of the raster. -/
structure TileOf (bits : EdgeBits)
    (read : String → Int → Int → Int → Int → Bool → Option (Array2D Int))
    (gh gw W H y x : Nat) (t : TileInfo) (dem : Array2D Int) : Prop where
  nonnull : t.nullTile = false
  noflip : t.flip = 0
  gridy : t.gridy = y
  gridx : t.gridx = x
  width : t.width = W
  height : t.height = H
  read_eq : read t.filename t.x t.y t.width t.height t.many = some dem
  dem_w : dem.width = W
  dem_h : dem.height = H
  dem_wf : dem.WellFormed
  top : HasBit t.edge bits.top ↔ y = 0
  bottom : HasBit t.edge bits.bottom ↔ y + 1 = gh
  left : HasBit t.edge bits.left ↔ x = 0
  right : HasBit t.edge bits.right ↔ x + 1 = gw

/-- The tile matrix cuts a raster into `gh` rows and `gw` columns of ordinary tiles,
the tile column `x` being `colW x` cells wide and the tile row `y` being `rowH y` cells
high, with a perimeter that fits `int` and perimeters that together fit `label_t`. -/
structure Tiled (bits : EdgeBits)
    (read : String → Int → Int → Int → Int → Bool → Option (Array2D Int))
    (tiles : TileGrid) (gh gw : Nat) (colW rowH : Nat → Nat) : Prop where
  rows : tiles.length = gh
  cols : (tiles[0]?).map List.length = some gw
  gw_pos : 1 ≤ gw
  col_pos : ∀ x, x < gw → 1 ≤ colW x
  row_pos : ∀ y, y < gh → 1 ≤ rowH y
  small : ∀ y, y < gh → ∀ x, x < gw → 2 * (colW x : Int) + 2 * (rowH y : Int) ≤ INT32_MAX
  fits : sumAll (fun y x => 2 * colW x + 2 * rowH y) gh gw < LABEL_MOD
  tile : ∀ y, y < gh → ∀ x, x < gw →
    ∃ t dem, grid2 tiles y x = some t ∧ TileOf bits read gh gw (colW x) (rowH y) y x t dem

/-- A `ConsumerSpecifics` with grids of no cell. -/
def emptyGrids : ConsumerSpecifics :=
  { dem := { width := 0, height := 0, data := [] },
    labels := { width := 0, height := 0, data := [] } }

/-- The grids that the first phase leaves for the tile at `(y,x)`. -/
def tileFlood (bits : EdgeBits)
    (read : String → Int → Int → Int → Int → Bool → Option (Array2D Int)) (tiles : TileGrid)
    (y x : Nat) : ConsumerSpecifics :=
  match grid2 tiles y x with
  | some t => (LoadFromEvict bits read t).getD emptyGrids
  | none => emptyGrids

/-- The raster after the first phase on a tile matrix. -/
def rasterOf (bits : EdgeBits)
    (read : String → Int → Int → Int → Int → Bool → Option (Array2D Int)) (tiles : TileGrid)
    (jobs1 : Job1Grid) (gh gw : Nat) (colW rowH : Nat → Nat) : Raster :=
  { tiles := tiles, jobs1 := jobs1, gh := gh, gw := gw, colW := colW, rowH := rowH,
    dems := fun y x => (tileFlood bits read tiles y x).dem,
    labs := fun y x => (tileFlood bits read tiles y x).labels }

/-! ## SuggestTileSize -/

/-- The smallest value of `int`. -/
def INT32_MIN : Int := -2147483648

/-- The expression `std::abs(a-b)` on `int`.  A difference that leaves `int` is
undefined behaviour, and so is `std::abs` of the smallest `int`. -/
def absDiff (a b : Int) : Option Int :=
  if INT32_MAX < a - b ∨ a - b ≤ INT32_MIN then none
  else some ((a - b).natAbs : Int)

/-- Body of the loop of `SuggestTileSize` (main.cpp 177-178) for the counter `x`: the
new value of `best`.  The right operand of `&&` is evaluated only when
`size%x>min` holds. -/
def suggestStep (selected size min x best : Int) : Option Int :=
  if size.tmod x > min then
    (absDiff x selected).bind fun d1 =>
    (absDiff x best).bind fun d2 =>
    if d1 < d2 then some x else some best
  else some best

/-- The function `SuggestTileSize` (main.cpp 174-180): the loop runs the counter over
`1, ..., size-1`. -/
def SuggestTileSize (selected size min : Int) : Option Int :=
  forRange (size - 1).toNat
    (fun k best => suggestStep selected size min ((k : Int) + 1) best) 999999999

/-- The block size `x` is usable for the extent `size`: it is at least 1 and smaller
than `size`, and it leaves a rest of more than `min` cells. -/
def Usable (size min x : Int) : Prop := 1 ≤ x ∧ x < size ∧ size.tmod x > min

instance instDecidableUsable (size min x : Int) : Decidable (Usable size min x) := by
  unfold Usable
  infer_instance

/-! ## Preparer: the representative tile -/

/-- The statement `if(reptile==nullptr) reptile = &tiles.back().back();` of the many
branch (main.cpp 929-931), which an entry that is a null tile does not reach.  The
pointer `reptile` is represented by the position (row, column) in the tile matrix of
the tile it points to, `none` being `nullptr`; `tiles` is the matrix after the tile of
the entry has been appended. -/
def reptileStep (reptile : Option (Nat × Nat)) (tiles : TileGrid) (e : LayoutEntry) :
    Option (Nat × Nat) :=
  if e.isNullTile then reptile
  else
    match reptile with
    | some p => some p
    | none => some (tiles.length - 1, (tiles.getLast?.getD []).length - 1)

/-- Body of the loop `while(lf.next())` of the many branch (main.cpp 861-944) on the
local variables and the pointer `reptile`. -/
def manyEntryRep (probe : String → Option GDALInfo) (retention output_name : String)
    (flipH flipV : Int) (analysis : String) (s : ManyState × Option (Nat × Nat))
    (e : LayoutEntry) : Except PrepError (ManyState × Option (Nat × Nat)) :=
  (manyEntry probe retention output_name flipH flipV analysis s.1 e).map
    fun st => (st, reptileStep s.2 st.tiles e)

/-- The function `Preparer` (main.cpp 821-1070) up to the log lines that read
`reptile->flip`: the tile matrix and the value of the pointer `reptile` at these lines.
The pointer starts as `nullptr` (main.cpp 841), the many branch assigns it and the one
branch (main.cpp 968-1047) has no assignment to it. -/
def PreparerReptile (probe : String → Option GDALInfo) (layout : String → List LayoutEntry)
    (bits : EdgeBits) (many_or_one retention input_file output_name : String)
    (bwidth bheight flipH flipV : Int) (analysis : String) :
    Except PrepError (TileGrid × Option (Nat × Nat)) :=
  if !contains output_name "%f" && !contains output_name "%n" then
    Except.error PrepError.layoutName
  else
    (if many_or_one = "many" then
      ((layout input_file).foldlM
        (manyEntryRep probe retention output_name flipH flipV analysis)
        ({ tiles := [], tile_width := -1, tile_height := -1,
           tile_geotransform := List.replicate 6 0 }, none)).bind
        fun s => (nullAdjacency bits s.1.tiles).map fun ts => (ts, s.2)
    else if many_or_one = "one" then
      (prepareOne probe retention input_file output_name bwidth bheight analysis).map
        fun ts => (ts, none)
    else Except.error PrepError.unrecognisedMode).bind
      fun p => (markEdges bits p.1).map fun ts => (ts, p.2)

/-- The expression `reptile->flip` (main.cpp 1069-1070): the flip mask of the tile that
`reptile` points to; reading through `nullptr` is undefined behaviour. -/
def reptileFlip (tiles : TileGrid) (reptile : Option (Nat × Nat)) : Option Nat :=
  match reptile with
  | none => none
  | some p => (grid2 tiles p.1 p.2).map (fun t => t.flip)

/-! ## Calculations: index safety -/

/-- The three equalities that `HandleEdge` asserts (main.cpp 345-347) for the join of
the reply `c` with the reply `nj` of its neighbour towards the side `d`; nothing for a
corner. -/
def SidesAgree (d : Dir) (c nj : Job1) : Prop :=
  match d with
  | .top => c.top_elev.length = nj.bot_elev.length ∧
      c.top_label.length = nj.bot_label.length ∧ c.top_elev.length = nj.bot_label.length
  | .bottom => c.bot_elev.length = nj.top_elev.length ∧
      c.bot_label.length = nj.top_label.length ∧ c.bot_elev.length = nj.top_label.length
  | .left => c.left_elev.length = nj.right_elev.length ∧
      c.left_label.length = nj.right_label.length ∧
      c.left_elev.length = nj.right_label.length
  | .right => c.right_elev.length = nj.left_elev.length ∧
      c.right_label.length = nj.left_label.length ∧
      c.right_elev.length = nj.left_label.length
  | .topLeft | .bottomRight | .topRight | .bottomLeft => True

instance instDecidableSidesAgree (d : Dir) (c nj : Job1) : Decidable (SidesAgree d c nj) := by
  cases d <;> unfold SidesAgree <;> infer_instance

/-- The arrays of which the join towards the corner `d` takes `front()` or `back()`
(main.cpp 466-477) are not empty; nothing for a side. -/
def CornersExist (d : Dir) (c nj : Job1) : Prop :=
  match d with
  | .topLeft | .topRight => c.top_elev ≠ [] ∧ nj.bot_elev ≠ [] ∧ c.top_label ≠ [] ∧
      nj.bot_label ≠ []
  | .bottomRight | .bottomLeft => c.bot_elev ≠ [] ∧ nj.top_elev ≠ [] ∧ c.bot_label ≠ [] ∧
      nj.top_label ≠ []
  | .top | .bottom | .left | .right => True

instance instDecidableCornersExist (d : Dir) (c nj : Job1) :
    Decidable (CornersExist d c nj) := by
  cases d <;> unfold CornersExist <;> infer_instance

/-- The perimeter labels of a reply: the four label arrays one after the other. -/
def perimeterLabels (c : Job1) : List Nat :=
  c.top_label ++ c.bot_label ++ c.left_label ++ c.right_label

/-- Well-formed phase-1 replies in the words of the specification, for a `gh` by `gw`
tile matrix with a reply grid of the same shape: at least one tile is not a null tile,
and for every tile that is not a null tile the graph of its reply has at least two
vertices, every neighbour key of the graph and every perimeter label of the reply is
smaller than the size of the graph, and the perimeters on which the tile touches a
neighbouring tile that is not a null tile either have equal lengths. -/
structure RepliesWellFormed (tiles : TileGrid) (jobs1 : Job1Grid) (gh gw : Nat) : Prop where
  height : tiles.length = gh
  width : (tiles[0]?).map List.length = some gw
  tiles_rect : ∀ y, y < gh → ∀ x, x < gw → (grid2 tiles y x).isSome = true
  jobs_rect : ∀ y, y < gh → ∀ x, x < gw → (grid2 jobs1 y x).isSome = true
  some_tile : ∃ y x, y < gh ∧ x < gw ∧ isNullAt tiles y x = false
  size_two : ∀ y, y < gh → ∀ x, x < gw → isNullAt tiles y x = false →
    2 ≤ graphSizeAt jobs1 y x
  keys : ∀ y, y < gh → ∀ x, x < gw → isNullAt tiles y x = false →
    ∀ m, m ∈ graphAt jobs1 y x → ∀ p, p ∈ m → p.1 < graphSizeAt jobs1 y x
  labels : ∀ y, y < gh → ∀ x, x < gw → isNullAt tiles y x = false →
    ∀ l, l ∈ perimeterLabels (jobAt jobs1 y x) → l < graphSizeAt jobs1 y x
  touching : ∀ y, y < gh → ∀ x, x < gw → isNullAt tiles y x = false →
    ∀ d, dirCond d gh gw y x = true → isNullAt tiles (dirY d y) (dirX d x) = false →
    SidesAgree d (jobAt jobs1 y x) (jobAt jobs1 (dirY d y) (dirX d x))

/-- What the perimeter phase needs of the replies: wherever a tile that is not a null
tile has a neighbour that is not a null tile either, the asserted lengths agree and the
corner elements exist, and every perimeter label is a label of the graph of its tile. -/
structure JoinSafe (tiles : TileGrid) (jobs1 : Job1Grid) (gh gw : Nat) : Prop where
  labels : ∀ y, y < gh → ∀ x, x < gw → isNullAt tiles y x = false →
    ∀ l, l ∈ perimeterLabels (jobAt jobs1 y x) → l < graphSizeAt jobs1 y x
  sides : ∀ y, y < gh → ∀ x, x < gw → isNullAt tiles y x = false →
    ∀ d, dirCond d gh gw y x = true → isNullAt tiles (dirY d y) (dirX d x) = false →
    SidesAgree d (jobAt jobs1 y x) (jobAt jobs1 (dirY d y) (dirX d x))
  corners : ∀ y, y < gh → ∀ x, x < gw → isNullAt tiles y x = false →
    ∀ d, dirCond d gh gw y x = true → isNullAt tiles (dirY d y) (dirX d x) = false →
    CornersExist d (jobAt jobs1 y x) (jobAt jobs1 (dirY d y) (dirX d x))

/-! ## Generic loop lemmas -/

theorem forRange_succ {σ : Type} (n : Nat) (body : Nat → σ → Option σ) (s : σ) :
    forRange (n + 1) body s = (forRange n body s).bind (body n) := by
  unfold forRange
  rw [List.range_succ, List.foldlM_append]
  simp only [List.foldlM_cons, List.foldlM_nil]
  cases h : List.foldlM (fun st i => body i st) s (List.range n) with
  | none => rfl
  | some t =>
    show (Option.some t >>= fun st => body n st >>= fun s2 => pure s2) = _
    simp only [Option.bind_eq_bind, Option.some_bind]
    cases body n t <;> rfl

theorem forRange_zero {σ : Type} (body : Nat → σ → Option σ) (s : σ) :
    forRange 0 body s = some s := by
  unfold forRange
  simp

/-- Invariant rule for a loop that returns. -/
theorem forRange_inv {σ : Type} (P : Nat → σ → Prop) (body : Nat → σ → Option σ) :
    ∀ (n : Nat) (s t : σ), P 0 s →
      (∀ k u v, k < n → P k u → body k u = some v → P (k + 1) v) →
      forRange n body s = some t → P n t := by
  intro n
  induction n with
  | zero =>
    intro s t h0 _ hr
    rw [forRange_zero] at hr
    cases hr
    exact h0
  | succ n ih =>
    intro s t h0 hstep hr
    rw [forRange_succ] at hr
    cases hm : forRange n body s with
    | none => rw [hm] at hr; cases hr
    | some u =>
      rw [hm] at hr
      simp only [Option.some_bind] at hr
      have hu : P n u := ih s u h0 (fun k a b hk => hstep k a b (Nat.lt_succ_of_lt hk)) hm
      exact hstep n u t (Nat.lt_succ_self n) hu hr

/-- Total-correctness rule: when every iteration succeeds under the invariant, the loop returns. -/
theorem forRange_total {σ : Type} (P : Nat → σ → Prop) (body : Nat → σ → Option σ) :
    ∀ (n : Nat) (s : σ), P 0 s →
      (∀ k u, k < n → P k u → ∃ v, body k u = some v ∧ P (k + 1) v) →
      ∃ t, forRange n body s = some t ∧ P n t := by
  intro n
  induction n with
  | zero =>
    intro s h0 _
    exact ⟨s, forRange_zero body s, h0⟩
  | succ n ih =>
    intro s h0 hstep
    obtain ⟨u, hu, hPu⟩ := ih s h0 (fun k a hk => hstep k a (Nat.lt_succ_of_lt hk))
    obtain ⟨v, hv, hPv⟩ := hstep n u (Nat.lt_succ_self n) hPu
    refine ⟨v, ?_, hPv⟩
    rw [forRange_succ, hu]
    simpa using hv

/-! ## SecondRound -/

theorem cellIndex_inj {w x y x2 y2 : Nat} (hx : x < w) (hx2 : x2 < w)
    (h : y * w + x = y2 * w + x2) : x = x2 ∧ y = y2 := by
  have h1 : (y * w + x) % w = (y2 * w + x2) % w := by rw [h]
  have h2 : (y * w + x) / w = (y2 * w + x2) / w := by rw [h]
  have hw : 0 < w := Nat.lt_of_le_of_lt (Nat.zero_le _) hx
  rw [Nat.mul_comm y w, Nat.mul_comm y2 w] at h1 h2
  rw [Nat.mul_add_mod, Nat.mul_add_mod, Nat.mod_eq_of_lt hx, Nat.mod_eq_of_lt hx2] at h1
  rw [Nat.mul_add_div hw, Nat.mul_add_div hw, Nat.div_eq_of_lt hx, Nat.div_eq_of_lt hx2] at h2
  exact ⟨h1, by simpa using h2⟩

theorem Array2D.get_set_other {α : Type} (a : Array2D α) (x y x2 y2 : Nat) (v : α)
    (hx : x < a.width) (hne : ¬ (x2 = x ∧ y2 = y)) :
    (a.set x y v).get x2 y2 = a.get x2 y2 := by
  unfold Array2D.get Array2D.set
  simp only
  by_cases hc : x2 < a.width ∧ y2 < a.height
  · rw [if_pos hc, if_pos hc]
    apply List.getElem?_set_ne
    intro hidx
    have := cellIndex_inj hx hc.1 hidx
    exact hne ⟨this.1.symm, this.2.symm⟩
  · rw [if_neg hc, if_neg hc]

theorem Array2D.get_set_self {α : Type} (a : Array2D α) (x y : Nat) (v e : α)
    (h : a.get x y = some e) : (a.set x y v).get x y = some v := by
  unfold Array2D.get at h
  unfold Array2D.get Array2D.set
  simp only
  by_cases hc : x < a.width ∧ y < a.height
  · rw [if_pos hc] at h
    rw [if_pos hc]
    have hlt : y * a.width + x < a.data.length := by
      rcases List.getElem?_eq_some_iff.mp h with ⟨hl, _⟩
      exact hl
    exact List.getElem?_set_self hlt
  · rw [if_neg hc] at h
    cases h

theorem SRInv.congrSR {job2 : List Int} {s0 s : ConsumerSpecifics} {P Q : Nat → Nat → Prop}
    (h : SRInv job2 s0 s P) (hPQ : ∀ x y, Q x y ↔ P x y) : SRInv job2 s0 s Q :=
  { labels_eq := h.labels_eq
    width_eq := h.width_eq
    height_eq := h.height_eq
    length_eq := h.length_eq
    done := fun x y e l hq => h.done x y e l ((hPQ x y).mp hq)
    todo := fun x y hq => h.todo x y (fun hp => hq ((hPQ x y).mpr hp))
    labelled := fun x y hq => h.labelled x y ((hPQ x y).mp hq) }

theorem secondRoundCell_inv {job2 : List Int} {s0 s s2 : ConsumerSpecifics}
    {P : Nat → Nat → Prop} {x y : Nat} (hinv : SRInv job2 s0 s P) (hP : ¬ P x y)
    (hx : x < s0.dem.width) (hstep : secondRoundCell job2 x y s = some s2) :
    SRInv job2 s0 s2 (fun x2 y2 => P x2 y2 ∨ (x2 = x ∧ y2 = y)) := by
  have hxs : x < s.dem.width := by rw [hinv.width_eq]; exact hx
  unfold secondRoundCell at hstep
  cases hl : s.labels.get x y with
  | none => rw [hl] at hstep; cases hstep
  | some l =>
    rw [hl] at hstep
    simp only at hstep
    have hl0 : s0.labels.get x y = some l := by rw [← hinv.labels_eq]; exact hl
    have hlab : ∀ x2 y2, (P x2 y2 ∨ (x2 = x ∧ y2 = y)) → ∃ l2, s0.labels.get x2 y2 = some l2 := by
      intro x2 y2 hq
      rcases hq with hp | ⟨rfl, rfl⟩
      · exact hinv.labelled x2 y2 hp
      · exact ⟨l, hl0⟩
    -- the unchanged case, used twice
    have keep : ∀ (hval : ∀ e, s0.dem.get x y = some e → raisedTo job2 l e = e)
        (hrange : 1 < l → l < job2.length),
        SRInv job2 s0 s (fun x2 y2 => P x2 y2 ∨ (x2 = x ∧ y2 = y)) := by
      intro hval hrange
      refine ⟨hinv.labels_eq, hinv.width_eq, hinv.height_eq, hinv.length_eq, ?_, ?_, hlab⟩
      · intro x2 y2 e l2 hq he hl2
        rcases hq with hp | ⟨rfl, rfl⟩
        · exact hinv.done x2 y2 e l2 hp he hl2
        · rw [hl0] at hl2
          cases hl2
          rw [hinv.todo _ _ hP, he, hval e he]
          exact ⟨rfl, hrange⟩
      · intro x2 y2 hq
        exact hinv.todo x2 y2 (fun hp => hq (Or.inl hp))
    by_cases h1 : 1 < l
    · rw [if_pos h1] at hstep
      cases he : s.dem.get x y with
      | none => rw [he] at hstep; cases hstep
      | some e =>
        cases hf : job2[l]? with
        | none => rw [he, hf] at hstep; cases hstep
        | some f =>
          rw [he, hf] at hstep
          simp only at hstep
          have hlt : l < job2.length := (List.getElem?_eq_some_iff.mp hf).1
          have he0 : s0.dem.get x y = some e := by rw [← hinv.todo _ _ hP]; exact he
          by_cases hef : e < f
          · rw [if_pos hef] at hstep
            cases hstep
            refine ⟨hinv.labels_eq, hinv.width_eq, hinv.height_eq, ?_, ?_, ?_, hlab⟩
            · show (s.dem.data.set _ _).length = _
              rw [List.length_set]
              exact hinv.length_eq
            · intro x2 y2 e2 l2 hq he2 hl2
              rcases hq with hp | ⟨rfl, rfl⟩
              · have hne : ¬ (x2 = x ∧ y2 = y) := by
                  rintro ⟨rfl, rfl⟩
                  exact hP hp
                show (s.dem.set x y f).get x2 y2 = _ ∧ _
                rw [Array2D.get_set_other _ _ _ _ _ _ hxs hne]
                exact hinv.done x2 y2 e2 l2 hp he2 hl2
              · rw [hl0] at hl2
                cases hl2
                rw [he0] at he2
                cases he2
                refine ⟨?_, fun _ => hlt⟩
                show (s.dem.set x2 y2 f).get x2 y2 = _
                rw [Array2D.get_set_self _ _ _ _ _ he]
                unfold raisedTo
                rw [if_pos h1, hf]
                simp only
                rw [max_eq_right (le_of_lt hef)]
            · intro x2 y2 hq
              have hne : ¬ (x2 = x ∧ y2 = y) := fun hc => hq (Or.inr hc)
              show (s.dem.set x y f).get x2 y2 = _
              rw [Array2D.get_set_other _ _ _ _ _ _ hxs hne]
              exact hinv.todo x2 y2 (fun hp => hq (Or.inl hp))
          · rw [if_neg hef] at hstep
            cases hstep
            apply keep
            · intro e2 he2
              rw [he0] at he2
              cases he2
              unfold raisedTo
              rw [if_pos h1, hf]
              simp only
              exact max_eq_left (not_lt.mp hef)
            · exact fun _ => hlt
    · rw [if_neg h1] at hstep
      cases hstep
      apply keep
      · intro e _
        unfold raisedTo
        rw [if_neg h1]
      · exact fun h => absurd h h1

theorem rowDone_zero {job2 : List Int} {s0 s : ConsumerSpecifics} {y : Nat}
    (hinv : SRInv job2 s0 s (fun x2 y2 => y2 < y ∧ x2 < s0.dem.width)) :
    SRInv job2 s0 s (rowDone s0.dem.width y 0) := by
  refine hinv.congrSR ?_
  intro x2 y2
  constructor
  · rintro (h | ⟨_, h, _⟩)
    · exact h
    · exact absurd h (Nat.not_lt_zero _)
  · exact fun h => Or.inl h

theorem rowDone_full {job2 : List Int} {s0 s : ConsumerSpecifics} {y : Nat}
    (hinv : SRInv job2 s0 s (rowDone s0.dem.width y s0.dem.width)) :
    SRInv job2 s0 s (fun x2 y2 => y2 < y + 1 ∧ x2 < s0.dem.width) := by
  refine hinv.congrSR ?_
  intro x2 y2
  constructor
  · rintro ⟨h1, h2⟩
    rcases Nat.lt_succ_iff_lt_or_eq.mp h1 with h3 | h3
    · exact Or.inl ⟨h3, h2⟩
    · exact Or.inr ⟨h3, h2, le_refl _⟩
  · rintro (⟨h1, h2⟩ | ⟨h1, h2, _⟩)
    · exact ⟨Nat.lt_succ_of_lt h1, h2⟩
    · exact ⟨by rw [h1]; exact Nat.lt_succ_self _, h2⟩

theorem rowDone_not (w y k : Nat) : ¬ rowDone w y k k y := by
  rintro (⟨h, _⟩ | ⟨_, h, _⟩)
  · exact lt_irrefl _ h
  · exact lt_irrefl _ h

theorem secondRound_row_step {job2 : List Int} {s0 u v : ConsumerSpecifics} {y k : Nat}
    (hk : k < s0.dem.width) (hu : SRInv job2 s0 u (rowDone s0.dem.width y k))
    (hv : secondRoundCell job2 k y u = some v) :
    SRInv job2 s0 v (rowDone s0.dem.width y (k + 1)) := by
  refine (secondRoundCell_inv hu (rowDone_not _ _ _) hk hv).congrSR ?_
  intro x2 y2
  constructor
  · rintro (h | ⟨h1, h2, _⟩)
    · exact Or.inl (Or.inl h)
    · rcases Nat.lt_succ_iff_lt_or_eq.mp h2 with h3 | h3
      · exact Or.inl (Or.inr ⟨h1, h3, le_of_lt hk⟩)
      · exact Or.inr ⟨h3, h1⟩
  · rintro ((h | ⟨h1, h2, _⟩) | ⟨h1, h2⟩)
    · exact Or.inl h
    · exact Or.inr ⟨h1, Nat.lt_succ_of_lt h2, hk⟩
    · exact Or.inr ⟨h2, by rw [h1]; exact Nat.lt_succ_self _, hk⟩

theorem secondRound_row_inv {job2 : List Int} {s0 : ConsumerSpecifics} {y : Nat} :
    ∀ (s t : ConsumerSpecifics),
      SRInv job2 s0 s (fun x2 y2 => y2 < y ∧ x2 < s0.dem.width) →
      forRange s0.dem.width (fun x st => secondRoundCell job2 x y st) s = some t →
      SRInv job2 s0 t (fun x2 y2 => y2 < y + 1 ∧ x2 < s0.dem.width) := by
  intro s t hinv hrun
  exact rowDone_full (forRange_inv
    (fun k st => SRInv job2 s0 st (rowDone s0.dem.width y k))
    (fun x st => secondRoundCell job2 x y st) s0.dem.width s t
    (rowDone_zero hinv) (fun k u v hk hu hv => secondRound_row_step hk hu hv) hrun)

theorem SRInv.initSR (job2 : List Int) (s0 : ConsumerSpecifics) :
    SRInv job2 s0 s0 (fun x2 y2 => y2 < 0 ∧ x2 < s0.dem.width) :=
  { labels_eq := rfl
    width_eq := rfl
    height_eq := rfl
    length_eq := rfl
    done := fun _ _ _ _ h => absurd h.1 (Nat.not_lt_zero _)
    todo := fun _ _ _ => rfl
    labelled := fun _ _ h => absurd h.1 (Nat.not_lt_zero _) }

theorem SecondRound_inv {job2 : List Int} {s0 t : ConsumerSpecifics}
    (hrun : SecondRound job2 s0 = some t) :
    SRInv job2 s0 t (fun x2 y2 => y2 < s0.dem.height ∧ x2 < s0.dem.width) := by
  unfold SecondRound at hrun
  exact forRange_inv
    (fun k st => SRInv job2 s0 st (fun x2 y2 => y2 < k ∧ x2 < s0.dem.width))
    _ s0.dem.height s0 t (SRInv.initSR job2 s0)
    (fun k u v _ hu hv => secondRound_row_inv u v hu hv) hrun

/-- Partial correctness of `SecondRound`: shape and labels are kept and every cell
holds the raised value. -/
theorem SecondRound_spec {job2 : List Int} {s0 t : ConsumerSpecifics}
    (hrun : SecondRound job2 s0 = some t) :
    t.labels = s0.labels ∧ t.dem.width = s0.dem.width ∧ t.dem.height = s0.dem.height ∧
    ∀ x y e, s0.dem.get x y = some e → ∃ l, s0.labels.get x y = some l ∧
      t.dem.get x y = some (raisedTo job2 l e) ∧ (1 < l → l < job2.length) := by
  have hinv := SecondRound_inv hrun
  refine ⟨hinv.labels_eq, hinv.width_eq, hinv.height_eq, ?_⟩
  intro x y e he
  have hP : y < s0.dem.height ∧ x < s0.dem.width := by
    unfold Array2D.get at he
    by_cases hc : x < s0.dem.width ∧ y < s0.dem.height
    · exact ⟨hc.2, hc.1⟩
    · rw [if_neg hc] at he
      cases he
  obtain ⟨l, hl⟩ := hinv.labelled x y hP
  exact ⟨l, hl, hinv.done x y e l hP he hl⟩

theorem le_raisedTo (job2 : List Int) (l : Nat) (e : Int) : e ≤ raisedTo job2 l e := by
  unfold raisedTo
  split
  · split
    · exact le_max_left _ _
    · exact le_refl _
  · exact le_refl _

theorem cellIndex_lt {w h x y : Nat} (hx : x < w) (hy : y < h) : y * w + x < w * h := by
  calc y * w + x < y * w + w := Nat.add_lt_add_left hx _
    _ = (y + 1) * w := by ring
    _ ≤ h * w := Nat.mul_le_mul_right w hy
    _ = w * h := Nat.mul_comm h w

theorem secondRoundCell_total {job2 : List Int} {s0 s : ConsumerSpecifics}
    {P : Nat → Nat → Prop} {x y : Nat} (hwf : SecondRoundReady job2 s0)
    (hinv : SRInv job2 s0 s P) (hP : ¬ P x y)
    (hx : x < s0.dem.width) (hy : y < s0.dem.height) :
    ∃ s2, secondRoundCell job2 x y s = some s2 := by
  have hidx := cellIndex_lt hx hy
  have hlab : ∃ l, s0.labels.get x y = some l ∧ l ∈ s0.labels.data := by
    have hlt : y * s0.labels.width + x < s0.labels.data.length := by
      rw [hwf.same_width, hwf.labels_size]; exact hidx
    refine ⟨s0.labels.data[y * s0.labels.width + x], ?_, List.getElem_mem _⟩
    unfold Array2D.get
    rw [if_pos ⟨by rw [hwf.same_width]; exact hx, by rw [hwf.same_height]; exact hy⟩]
    exact List.getElem?_eq_getElem hlt
  have hdem : ∃ e, s0.dem.get x y = some e := by
    have hlt : y * s0.dem.width + x < s0.dem.data.length := by
      rw [hwf.dem_size]; exact hidx
    refine ⟨s0.dem.data[y * s0.dem.width + x], ?_⟩
    unfold Array2D.get
    rw [if_pos ⟨hx, hy⟩]
    exact List.getElem?_eq_getElem hlt
  obtain ⟨l, hl, hmem⟩ := hlab
  obtain ⟨e, he⟩ := hdem
  unfold secondRoundCell
  rw [hinv.labels_eq, hl]
  simp only
  by_cases h1 : 1 < l
  · rw [if_pos h1, hinv.todo _ _ hP, he]
    have hlt := hwf.in_slice l hmem h1
    rw [List.getElem?_eq_getElem hlt]
    simp only
    by_cases hef : e < job2[l]
    · rw [if_pos hef]; exact ⟨_, rfl⟩
    · rw [if_neg hef]; exact ⟨_, rfl⟩
  · rw [if_neg h1]; exact ⟨_, rfl⟩

theorem secondRound_row_total {job2 : List Int} {s0 s : ConsumerSpecifics} {y : Nat}
    (hwf : SecondRoundReady job2 s0) (hy : y < s0.dem.height)
    (hinv : SRInv job2 s0 s (fun x2 y2 => y2 < y ∧ x2 < s0.dem.width)) :
    ∃ t, forRange s0.dem.width (fun x st => secondRoundCell job2 x y st) s = some t ∧
      SRInv job2 s0 t (fun x2 y2 => y2 < y + 1 ∧ x2 < s0.dem.width) := by
  obtain ⟨t, ht, hinvt⟩ := forRange_total
    (fun k st => SRInv job2 s0 st (rowDone s0.dem.width y k))
    (fun x st => secondRoundCell job2 x y st) s0.dem.width s (rowDone_zero hinv)
    (fun k u hk hu => by
      obtain ⟨v, hv⟩ := secondRoundCell_total hwf hu (rowDone_not _ _ _) hk hy
      exact ⟨v, hv, secondRound_row_step hk hu hv⟩)
  exact ⟨t, ht, rowDone_full hinvt⟩

/-- Termination without failure: on well-formed input `SecondRound` returns. -/
theorem SecondRound_total {job2 : List Int} {s0 : ConsumerSpecifics}
    (hwf : SecondRoundReady job2 s0) : ∃ t, SecondRound job2 s0 = some t := by
  obtain ⟨t, ht, _⟩ := forRange_total
    (fun k st => SRInv job2 s0 st (fun x2 y2 => y2 < k ∧ x2 < s0.dem.width))
    (fun y st => forRange s0.dem.width (fun x st2 => secondRoundCell job2 x y st2) st)
    s0.dem.height s0 (SRInv.initSR job2 s0)
    (fun k u hk hu => secondRound_row_total hwf hk hu)
  exact ⟨t, ht⟩

/-- C2: whenever `SecondRound` completes, every cell of the elevation grid is at
least as high afterwards as it was before. -/
theorem C2_SecondRound_never_lowers (job2 : List Int) (s t : ConsumerSpecifics)
    (hrun : SecondRound job2 s = some t) :
    ∀ x y e, s.dem.get x y = some e → ∃ e2, t.dem.get x y = some e2 ∧ e ≤ e2 := by
  intro x y e he
  obtain ⟨l, _, hval, _⟩ := (SecondRound_spec hrun).2.2.2 x y e he
  exact ⟨raisedTo job2 l e, hval, le_raisedTo job2 l e⟩

theorem C2_witness :
    SecondRound [0, 0, 7, 3]
        { dem := { width := 2, height := 2, data := [1, 5, 9, 2] },
          labels := { width := 2, height := 2, data := [1, 2, 2, 3] } }
      = some { dem := { width := 2, height := 2, data := [1, 7, 9, 3] },
               labels := { width := 2, height := 2, data := [1, 2, 2, 3] } } ∧
    ∀ x y e, (Array2D.mk 2 2 [(1 : Int), 5, 9, 2]).get x y = some e →
      ∃ e2, (Array2D.mk 2 2 [(1 : Int), 7, 9, 3]).get x y = some e2 ∧ e ≤ e2 :=
  ⟨by decide, C2_SecondRound_never_lowers [0, 0, 7, 3]
    { dem := { width := 2, height := 2, data := [1, 5, 9, 2] },
      labels := { width := 2, height := 2, data := [1, 2, 2, 3] } }
    { dem := { width := 2, height := 2, data := [1, 7, 9, 3] },
      labels := { width := 2, height := 2, data := [1, 2, 2, 3] } } (by decide)⟩

/-- C3: `SecondRound` computes exactly the per-label raise.  On well-formed input it
returns; and whenever it returns, the label grid and the shape are untouched, a
cell with label `l > 1` holds `max(E(x,y), job2[l])`, and a cell with label 0 or 1
keeps its elevation. -/
theorem C3_SecondRound_per_label_raise (job2 : List Int) (s : ConsumerSpecifics) :
    (SecondRoundReady job2 s → ∃ t, SecondRound job2 s = some t) ∧
    ∀ t, SecondRound job2 s = some t →
      t.labels = s.labels ∧ t.dem.width = s.dem.width ∧ t.dem.height = s.dem.height ∧
      ∀ x y e, s.dem.get x y = some e → ∃ l, s.labels.get x y = some l ∧
        (1 < l → ∃ f, job2[l]? = some f ∧ t.dem.get x y = some (max e f)) ∧
        (l ≤ 1 → t.dem.get x y = some e) := by
  refine ⟨SecondRound_total, ?_⟩
  intro t hrun
  obtain ⟨h1, h2, h3, h4⟩ := SecondRound_spec hrun
  refine ⟨h1, h2, h3, ?_⟩
  intro x y e he
  obtain ⟨l, hl, hval, hrange⟩ := h4 x y e he
  refine ⟨l, hl, ?_, ?_⟩
  · intro hgt
    have hlt := hrange hgt
    refine ⟨job2[l], List.getElem?_eq_getElem hlt, ?_⟩
    rw [hval]
    unfold raisedTo
    rw [if_pos hgt, List.getElem?_eq_getElem hlt]
  · intro hle
    rw [hval]
    unfold raisedTo
    rw [if_neg (not_lt.mpr hle)]

theorem C3_witness :
    ∃ t, SecondRound [0, 0, 7, 3]
        { dem := { width := 2, height := 2, data := [1, 5, 9, 2] },
          labels := { width := 2, height := 2, data := [1, 2, 2, 3] } } = some t :=
  (C3_SecondRound_per_label_raise [0, 0, 7, 3]
    { dem := { width := 2, height := 2, data := [1, 5, 9, 2] },
      labels := { width := 2, height := 2, data := [1, 2, 2, 3] } }).1
    { same_width := rfl, same_height := rfl, dem_size := rfl, labels_size := rfl,
      in_slice := by decide }

/-! ## Maps and graphs -/

theorem mapFind_mapSet (m : EdgeMap) (k k2 : Nat) (v : Int) :
    mapFind (mapSet m k v) k2 = if k2 = k then some v else mapFind m k2 := by
  induction m with
  | nil =>
    simp only [mapSet, mapFind]
  | cons p rest ih =>
    obtain ⟨kp, vp⟩ := p
    simp only [mapSet]
    by_cases h1 : k < kp
    · rw [if_pos h1]
      simp only [mapFind]
    · rw [if_neg h1]
      by_cases h2 : k = kp
      · rw [if_pos h2]
        simp only [mapFind]
        subst h2
        by_cases h3 : k2 = k
        · simp only [if_pos h3]
        · simp only [if_neg h3]
      · rw [if_neg h2]
        simp only [mapFind]
        rw [ih]
        by_cases h3 : k2 = kp
        · have h4 : ¬ k2 = k := fun h => h2 (h ▸ h3 ▸ rfl)
          simp only [if_pos h3, if_neg h4]
        · simp only [if_neg h3]

theorem graphSet_isSome {g : Graph} {a : Nat} (b : Nat) (w : Int) (ha : a < g.length) :
    ∃ g2, graphSet g a b w = some g2 := by
  unfold graphSet
  rw [List.getElem?_eq_getElem ha]
  exact ⟨_, rfl⟩

theorem graphSet_spec {g g2 : Graph} {a b : Nat} {w : Int} (h : graphSet g a b w = some g2) :
    a < g.length ∧ g2.length = g.length ∧
    ∀ a2 b2, weight g2 a2 b2 = if a2 = a ∧ b2 = b then some w else weight g a2 b2 := by
  unfold graphSet at h
  cases hm : g[a]? with
  | none => rw [hm] at h; cases h
  | some m =>
    rw [hm] at h
    cases h
    have ha : a < g.length := (List.getElem?_eq_some_iff.mp hm).1
    refine ⟨ha, List.length_set _ _ _, ?_⟩
    intro a2 b2
    unfold weight
    by_cases haa : a2 = a
    · subst haa
      rw [List.getElem?_set_self ha, hm]
      simp only [mapFind_mapSet, true_and]
    · rw [List.getElem?_set_ne (fun hc => haa hc.symm)]
      have : ¬ (a2 = a ∧ b2 = b) := fun hc => haa hc.1
      rw [if_neg this]

theorem graphSetBoth_spec {g g2 : Graph} {a b : Nat} {w : Int}
    (h : graphSetBoth g a b w = some g2) :
    a < g.length ∧ b < g.length ∧ g2.length = g.length ∧
    ∀ a2 b2, weight g2 a2 b2 =
      if (a2 = a ∧ b2 = b) ∨ (a2 = b ∧ b2 = a) then some w else weight g a2 b2 := by
  unfold graphSetBoth at h
  cases h1 : graphSet g a b w with
  | none => rw [h1] at h; cases h
  | some g1 =>
    rw [h1] at h
    simp only [Option.some_bind] at h
    obtain ⟨ha, hlen1, hw1⟩ := graphSet_spec h1
    obtain ⟨hb, hlen2, hw2⟩ := graphSet_spec h
    refine ⟨ha, by rw [← hlen1]; exact hb, by rw [hlen2, hlen1], ?_⟩
    intro a2 b2
    rw [hw2, hw1]
    by_cases hc2 : a2 = b ∧ b2 = a
    · rw [if_pos hc2, if_pos (Or.inr hc2)]
    · rw [if_neg hc2]
      by_cases hc1 : a2 = a ∧ b2 = b
      · rw [if_pos hc1, if_pos (Or.inl hc1)]
      · rw [if_neg hc1, if_neg (fun hc => hc.elim hc1 hc2)]

theorem graphSetBoth_isSome {g : Graph} {a b : Nat} (w : Int) (ha : a < g.length)
    (hb : b < g.length) : ∃ g2, graphSetBoth g a b w = some g2 := by
  obtain ⟨g1, h1⟩ := graphSet_isSome b w ha
  have hlen := (graphSet_spec h1).2.1
  obtain ⟨g2, h2⟩ := graphSet_isSome (g := g1) a w (by rw [hlen]; exact hb)
  refine ⟨g2, ?_⟩
  unfold graphSetBoth
  rw [h1]
  exact h2

theorem graphSetBoth_symmetric {g g2 : Graph} {a b : Nat} {w : Int} (hs : Symmetric g)
    (h : graphSetBoth g a b w = some g2) : Symmetric g2 := by
  obtain ⟨_, _, _, hw⟩ := graphSetBoth_spec h
  intro a2 b2
  rw [hw, hw, hs a2 b2]
  by_cases hc : (a2 = a ∧ b2 = b) ∨ (a2 = b ∧ b2 = a)
  · have hc2 : (b2 = a ∧ a2 = b) ∨ (b2 = b ∧ a2 = a) := by
      rcases hc with ⟨h1, h2⟩ | ⟨h1, h2⟩
      · exact Or.inr ⟨h2, h1⟩
      · exact Or.inl ⟨h2, h1⟩
    rw [if_pos hc, if_pos hc2]
  · have hc2 : ¬ ((b2 = a ∧ a2 = b) ∨ (b2 = b ∧ a2 = a)) := by
      rintro (⟨h1, h2⟩ | ⟨h1, h2⟩)
      · exact hc (Or.inr ⟨h2, h1⟩)
      · exact hc (Or.inl ⟨h2, h1⟩)
    rw [if_neg hc, if_neg hc2]

/-- The two outcomes of the guarded upsert. -/
theorem upsertMin_cases {g g2 : Graph} {a b : Nat} {w : Int} (h : upsertMin g a b w = some g2) :
    a < g.length ∧
    ((g2 = g ∧ ∃ old, weight g a b = some old ∧ old ≤ w) ∨
     (graphSetBoth g a b w = some g2 ∧ ∀ old, weight g a b = some old → w < old)) := by
  unfold upsertMin at h
  cases hm : g[a]? with
  | none => rw [hm] at h; cases h
  | some m =>
    rw [hm] at h
    simp only at h
    have ha : a < g.length := (List.getElem?_eq_some_iff.mp hm).1
    have hwt : weight g a b = mapFind m b := by unfold weight; rw [hm]
    refine ⟨ha, ?_⟩
    cases hf : mapFind m b with
    | none =>
      rw [hf] at h
      simp only at h
      refine Or.inr ⟨h, ?_⟩
      intro old hold
      rw [hwt, hf] at hold
      cases hold
    | some old =>
      rw [hf] at h
      simp only at h
      by_cases hlt : w < old
      · rw [if_pos hlt] at h
        refine Or.inr ⟨h, ?_⟩
        intro old2 hold
        rw [hwt, hf] at hold
        cases hold
        exact hlt
      · rw [if_neg hlt] at h
        cases h
        exact Or.inl ⟨rfl, old, by rw [hwt, hf], not_lt.mp hlt⟩

theorem upsertMin_isSome {g : Graph} {a b : Nat} (w : Int) (ha : a < g.length)
    (hb : b < g.length) : ∃ g2, upsertMin g a b w = some g2 := by
  unfold upsertMin
  rw [List.getElem?_eq_getElem ha]
  simp only
  cases mapFind g[a] b with
  | none => exact graphSetBoth_isSome w ha hb
  | some old =>
    simp only
    by_cases hlt : w < old
    · rw [if_pos hlt]; exact graphSetBoth_isSome w ha hb
    · rw [if_neg hlt]; exact ⟨g, rfl⟩

theorem upsertMin_symmetric {g g2 : Graph} {a b : Nat} {w : Int} (hs : Symmetric g)
    (h : upsertMin g a b w = some g2) : Symmetric g2 := by
  rcases (upsertMin_cases h).2 with ⟨rfl, _⟩ | ⟨hb, _⟩
  · exact hs
  · exact graphSetBoth_symmetric hs hb

theorem upsertMin_length {g g2 : Graph} {a b : Nat} {w : Int}
    (h : upsertMin g a b w = some g2) : g2.length = g.length := by
  rcases (upsertMin_cases h).2 with ⟨rfl, _⟩ | ⟨hb, _⟩
  · rfl
  · exact (graphSetBoth_spec hb).2.2.1

/-- Invariant rule for a failing fold over a list. -/
theorem foldlM_inv {σ α : Type} (P : σ → Prop) (f : σ → α → Option σ) :
    ∀ (l : List α) (s t : σ), P s →
      (∀ a u v, a ∈ l → P u → f u a = some v → P v) →
      l.foldlM f s = some t → P t := by
  intro l
  induction l with
  | nil =>
    intro s t hs _ h
    simp only [List.foldlM_nil] at h
    cases h
    exact hs
  | cons a rest ih =>
    intro s t hs hstep h
    simp only [List.foldlM_cons] at h
    cases hf : f s a with
    | none => rw [hf] at h; cases h
    | some u =>
      rw [hf] at h
      exact ih u t (hstep a s u (List.mem_cons_self _ _) hs hf)
        (fun b x y hb => hstep b x y (List.mem_cons_of_mem _ hb)) h

/-- Total-correctness rule for a failing fold over a list. -/
theorem foldlM_total {σ α : Type} (P : σ → Prop) (f : σ → α → Option σ) :
    ∀ (l : List α) (s : σ), P s →
      (∀ a u, a ∈ l → P u → ∃ v, f u a = some v ∧ P v) →
      ∃ t, l.foldlM f s = some t ∧ P t := by
  intro l
  induction l with
  | nil =>
    intro s hs _
    exact ⟨s, rfl, hs⟩
  | cons a rest ih =>
    intro s hs hstep
    obtain ⟨u, hu, hPu⟩ := hstep a s (List.mem_cons_self _ _) hs
    obtain ⟨t, ht, hPt⟩ := ih u hPu (fun b x hb => hstep b x (List.mem_cons_of_mem _ hb))
    refine ⟨t, ?_, hPt⟩
    simp only [List.foldlM_cons, hu]
    exact ht

/-- Invariant rule for a loop whose invariant does not mention the counter. -/
theorem forRange_const_inv {σ : Type} (P : σ → Prop) (body : Nat → σ → Option σ)
    (n : Nat) (s t : σ) (hs : P s)
    (hstep : ∀ k u v, k < n → P u → body k u = some v → P v)
    (h : forRange n body s = some t) : P t :=
  forRange_inv (fun _ u => P u) body n s t hs hstep h

/-! ## Symmetry of the master graph -/

theorem symmetric_replicate (n : Nat) : Symmetric (List.replicate n ([] : EdgeMap)) := by
  intro a b
  have h : ∀ c d, weight (List.replicate n ([] : EdgeMap)) c d = none := by
    intro c d
    unfold weight
    rw [List.getElem?_replicate]
    by_cases hc : c < n
    · rw [if_pos hc]; rfl
    · rw [if_neg hc]
  rw [h, h]

/-- A property kept by every guarded upsert is kept by `handleEdgePair`. -/
theorem handleEdgePair_inv (P : Graph → Prop)
    (hup : ∀ g g2 a b w, P g → upsertMin g a b w = some g2 → P g2)
    {elev_a elev_b : List Int} {label_a label_b : List Nat} {off_a off_b i d : Nat}
    {g g2 : Graph} (hg : P g)
    (h : handleEdgePair elev_a elev_b label_a label_b off_a off_b i d g = some g2) : P g2 := by
  unfold handleEdgePair at h
  simp only at h
  split at h
  · cases h; exact hg
  · split at h
    · split at h
      · cases h; exact hg
      · exact hup _ _ _ _ _ hg h
    · cases h

/-- A property kept by every guarded upsert is kept by `HandleEdge`. -/
theorem HandleEdge_inv (P : Graph → Prop)
    (hup : ∀ g g2 a b w, P g → upsertMin g a b w = some g2 → P g2)
    {elev_a elev_b : List Int} {label_a label_b : List Nat} {off_a off_b : Nat}
    {g g2 : Graph} (hg : P g)
    (h : HandleEdge elev_a elev_b label_a label_b g off_a off_b = some g2) : P g2 := by
  unfold HandleEdge at h
  split at h
  · refine forRange_const_inv P _ _ g g2 hg ?_ h
    intro i u v _ hu hv
    refine forRange_const_inv P _ _ u v hu ?_ hv
    intro d u2 v2 _ hu2 hv2
    exact handleEdgePair_inv P hup hu2 hv2
  · cases h

/-- A property kept by every guarded upsert is kept by a corner call. -/
theorem cornerCall_inv (P : Graph → Prop)
    (hup : ∀ g g2 a b w, P g → upsertMin g a b w = some g2 → P g2)
    {ea eb : Option Int} {la lb : Option Nat} {off_a off_b : Nat} {g g2 : Graph} (hg : P g)
    (h : cornerCall ea eb la lb off_a off_b g = some g2) : P g2 := by
  unfold cornerCall at h
  split at h
  · exact hup _ _ _ _ _ hg h
  · cases h

theorem withNeighbour_inv (P : Graph → Prop) {tiles : TileGrid} {jobs1 : Job1Grid}
    {cond : Bool} {ny nx : Nat} {f : TileInfo → Job1 → Graph → Option Graph}
    (hf : ∀ n nj g g2, P g → f n nj g = some g2 → P g2) {g g2 : Graph} (hg : P g)
    (h : withNeighbour tiles jobs1 cond ny nx f g = some g2) : P g2 := by
  unfold withNeighbour at h
  split at h
  · split at h
    · cases h
    · split at h
      · cases h; exact hg
      · split at h
        · cases h
        · exact hf _ _ _ _ hg h
  · cases h; exact hg

/-- A property kept by every guarded upsert is kept by the perimeter step of a tile. -/
theorem joinTile_inv (P : Graph → Prop)
    (hup : ∀ g g2 a b w, P g → upsertMin g a b w = some g2 → P g2)
    {tiles : TileGrid} {jobs1 : Job1Grid} {gh gw y x : Nat} {g g2 : Graph} (hg : P g)
    (h : joinTile tiles jobs1 gh gw y x g = some g2) : P g2 := by
  unfold joinTile at h
  split at h
  · cases h
  · split at h
    · cases h; exact hg
    · split at h
      · cases h
      · have hE : ∀ (ea eb : List Int) (la lb : List Nat) (oa ob : Nat) (u v : Graph),
            P u → HandleEdge ea eb la lb u oa ob = some v → P v :=
          fun _ _ _ _ _ _ _ _ hu hv => HandleEdge_inv P hup hu hv
        have hC : ∀ (ea eb : Option Int) (la lb : Option Nat) (oa ob : Nat) (u v : Graph),
            P u → cornerCall ea eb la lb oa ob u = some v → P v :=
          fun _ _ _ _ _ _ _ _ hu hv => cornerCall_inv P hup hu hv
        simp only [Option.bind_eq_some] at h
        obtain ⟨g1, h1, g3, h3, g4, h4, g5, h5, g6, h6, g7, h7, g8, h8, h9⟩ := h
        have p1 := withNeighbour_inv P (fun _ _ u v hu hv => hE _ _ _ _ _ _ u v hu hv) hg h1
        have p3 := withNeighbour_inv P (fun _ _ u v hu hv => hE _ _ _ _ _ _ u v hu hv) p1 h3
        have p4 := withNeighbour_inv P (fun _ _ u v hu hv => hE _ _ _ _ _ _ u v hu hv) p3 h4
        have p5 := withNeighbour_inv P (fun _ _ u v hu hv => hE _ _ _ _ _ _ u v hu hv) p4 h5
        have p6 := withNeighbour_inv P (fun _ _ u v hu hv => hC _ _ _ _ _ _ u v hu hv) p5 h6
        have p7 := withNeighbour_inv P (fun _ _ u v hu hv => hC _ _ _ _ _ _ u v hu hv) p6 h7
        have p8 := withNeighbour_inv P (fun _ _ u v hu hv => hC _ _ _ _ _ _ u v hu hv) p7 h8
        exact withNeighbour_inv P (fun _ _ u v hu hv => hC _ _ _ _ _ _ u v hu hv) p8 h9

/-- A property kept by every guarded upsert is kept by the perimeter phase. -/
theorem joinPerimeters_inv (P : Graph → Prop)
    (hup : ∀ g g2 a b w, P g → upsertMin g a b w = some g2 → P g2)
    {tiles : TileGrid} {jobs1 : Job1Grid} {g g2 : Graph} (hg : P g)
    (h : joinPerimeters tiles jobs1 g = some g2) : P g2 := by
  unfold joinPerimeters at h
  split at h
  · cases h
  · refine forRange_const_inv P _ _ g g2 hg ?_ h
    intro y u v _ hu hv
    refine forRange_const_inv P _ _ u v hu ?_ hv
    intro x u2 v2 _ hu2 hv2
    exact joinTile_inv P hup hu2 hv2

theorem mergeEdge_eq (off l : Nat) (g : Graph) (skey : Nat × Int) :
    mergeEdge off l g skey =
      graphSetBoth g (offsetLabel (l % LABEL_MOD) off) (offsetLabel skey.1 off) skey.2 := rfl

/-- A property kept by every symmetric write is kept by the re-emission of a tile graph. -/
theorem mergeTileGraph_inv (P : Graph → Prop)
    (hset : ∀ g g2 a b w, P g → graphSetBoth g a b w = some g2 → P g2)
    {off : Nat} {graph g g2 : Graph} (hg : P g)
    (h : mergeTileGraph off graph g = some g2) : P g2 := by
  unfold mergeTileGraph at h
  refine forRange_const_inv P _ _ g g2 hg ?_ h
  intro l u v _ hu hv
  simp only at hv
  split at hv
  · cases hv
  · refine foldlM_inv P _ _ u v hu ?_ hv
    intro skey u2 v2 _ hu2 hv2
    rw [mergeEdge_eq] at hv2
    exact hset _ _ _ _ _ hu2 hv2

theorem mergeTile_inv (P : Graph → Prop)
    (hset : ∀ g g2 a b w, P g → graphSetBoth g a b w = some g2 → P g2)
    {jobs1 : Job1Grid} {y x : Nat} {s s2 : MergeState} (hg : P s.mastergraph)
    (h : mergeTile jobs1 y x s = some s2) : P s2.mastergraph := by
  unfold mergeTile at h
  split at h
  · cases h
  · split at h
    · cases h; exact hg
    · split at h
      · cases h
      · split at h
        · cases h
        · rename_i g hm
          cases h
          exact mergeTileGraph_inv P hset hg hm

/-- A property of the empty graph kept by every symmetric write holds after the merge phase. -/
theorem mergeGraphs_inv (P : Graph → Prop)
    (hset : ∀ g g2 a b w, P g → graphSetBoth g a b w = some g2 → P g2)
    {tiles : TileGrid} {jobs1 : Job1Grid} {s : MergeState}
    (h0 : ∀ n, P (List.replicate n ([] : EdgeMap)))
    (h : mergeGraphs tiles jobs1 = some s) : P s.mastergraph := by
  unfold mergeGraphs at h
  split at h
  · cases h
  · split at h
    · cases h
    · refine forRange_const_inv (fun st => P st.mastergraph) _ _ _ s (h0 _) ?_ h
      intro y u v _ hu hv
      refine forRange_const_inv (fun st => P st.mastergraph) _ _ u v hu ?_ hv
      intro x u2 v2 _ hu2 hv2
      exact mergeTile_inv P hset hu2 hv2

theorem graphSetBoth_of_upsert (P : Graph → Prop)
    (hset : ∀ g g2 a b w, P g → graphSetBoth g a b w = some g2 → P g2) :
    ∀ g g2 a b w, P g → upsertMin g a b w = some g2 → P g2 := by
  intro g g2 a b w hg h
  rcases (upsertMin_cases h).2 with ⟨rfl, _⟩ | ⟨hb, _⟩
  · exact hg
  · exact hset _ _ _ _ _ hg hb

/-- C5: the master graph is symmetric after every step of its construction: the
empty graph is symmetric; re-emitting an intra-tile edge, re-emitting a whole tile
graph, every `HandleEdge` call and every `HandleCorner` call keep it symmetric;
hence it is symmetric after the merge phase and when the construction is finished. -/
theorem C5_mastergraph_symmetric :
    (∀ n, Symmetric (List.replicate n ([] : EdgeMap))) ∧
    (∀ off l g skey g2, Symmetric g → mergeEdge off l g skey = some g2 → Symmetric g2) ∧
    (∀ off graph g g2, Symmetric g → mergeTileGraph off graph g = some g2 → Symmetric g2) ∧
    (∀ ea eb la lb g oa ob g2, Symmetric g →
      HandleEdge ea eb la lb g oa ob = some g2 → Symmetric g2) ∧
    (∀ ea eb la lb g oa ob g2, Symmetric g →
      HandleCorner ea eb la lb g oa ob = some g2 → Symmetric g2) ∧
    (∀ tiles jobs1 s, mergeGraphs tiles jobs1 = some s → Symmetric s.mastergraph) ∧
    (∀ tiles jobs1 tiles2 g, buildMasterGraph tiles jobs1 = some (tiles2, g) → Symmetric g) := by
  have hset : ∀ g g2 a b w, Symmetric g → graphSetBoth g a b w = some g2 → Symmetric g2 :=
    fun _ _ _ _ _ hg h => graphSetBoth_symmetric hg h
  have hup := graphSetBoth_of_upsert Symmetric hset
  refine ⟨symmetric_replicate, ?_, ?_, ?_, ?_, ?_, ?_⟩
  · intro off l g skey g2 hg h
    rw [mergeEdge_eq] at h
    exact hset _ _ _ _ _ hg h
  · intro off graph g g2 hg h
    exact mergeTileGraph_inv Symmetric hset hg h
  · intro ea eb la lb g oa ob g2 hg h
    exact HandleEdge_inv Symmetric hup hg h
  · intro ea eb la lb g oa ob g2 hg h
    exact hup _ _ _ _ _ hg h
  · intro tiles jobs1 s h
    exact mergeGraphs_inv Symmetric hset symmetric_replicate h
  · intro tiles jobs1 tiles2 g h
    unfold buildMasterGraph at h
    split at h
    · cases h
    · rename_i s hs
      split at h
      · cases h
      · rename_i g3 hj
        cases h
        exact joinPerimeters_inv Symmetric hup
          (mergeGraphs_inv Symmetric hset symmetric_replicate hs) hj

/-! ## HandleEdge keeps the minimum spill weight -/

theorem toNat_pred (i d : Nat) (h : 1 ≤ i + d) : ((i : Int) + (d : Int) - 1).toNat = i + d - 1 := by
  omega

theorem candAt_unique {elev_a elev_b : List Int} {label_a label_b : List Nat}
    {off_a off_b i d c n c2 n2 : Nat} {w w2 : Int}
    (h1 : candAt elev_a elev_b label_a label_b off_a off_b i d c n w)
    (h2 : candAt elev_a elev_b label_a label_b off_a off_b i d c2 n2 w2) :
    c = c2 ∧ n = n2 ∧ w = w2 := by
  obtain ⟨_, _, _, _, la, lb, ea, eb, hla, hlb, hea, heb, hc, hn, hw⟩ := h1
  obtain ⟨_, _, _, _, la2, lb2, ea2, eb2, hla2, hlb2, hea2, heb2, hc2, hn2, hw2⟩ := h2
  rw [hla] at hla2; cases hla2
  rw [hlb] at hlb2; cases hlb2
  rw [hea] at hea2; cases hea2
  rw [heb] at heb2; cases heb2
  exact ⟨hc.symm.trans hc2, hn.symm.trans hn2, hw.trans hw2.symm⟩

/-- What one pass of the inner loop of `HandleEdge` does: nothing when there is no
comparison between distinct labels at `(i,d)`, a guarded upsert otherwise. -/
theorem handleEdgePair_cases {elev_a elev_b : List Int} {label_a label_b : List Nat}
    {off_a off_b i d : Nat} {g g2 : Graph} (hi : i < elev_a.length) (hd : d < 3)
    (h : handleEdgePair elev_a elev_b label_a label_b off_a off_b i d g = some g2) :
    (g2 = g ∧ ∀ c n w, candAt elev_a elev_b label_a label_b off_a off_b i d c n w → c = n) ∨
    (∃ c n w, c ≠ n ∧ candAt elev_a elev_b label_a label_b off_a off_b i d c n w ∧
      upsertMin g c n w = some g2) := by
  unfold handleEdgePair at h
  simp only at h
  by_cases hskip : ((i : Int) + (d : Int) - 1 < 0 ∨ (i : Int) + (d : Int) - 1 = (elev_a.length : Int))
  · rw [if_pos hskip] at h
    cases h
    refine Or.inl ⟨rfl, ?_⟩
    intro c n w hc
    obtain ⟨_, _, h1, h2, _⟩ := hc
    exfalso
    omega
  · rw [if_neg hskip] at h
    have h1 : 1 ≤ i + d := by omega
    have h2 : i + d - 1 < elev_a.length := by omega
    rw [toNat_pred i d h1] at h
    split at h
    · rename_i la lb ea eb hla hlb hea heb
      have hcand : candAt elev_a elev_b label_a label_b off_a off_b i d
          (offsetLabel la off_a) (offsetLabel lb off_b) (max ea eb) :=
        ⟨hi, hd, h1, h2, la, lb, ea, eb, hla, hlb, hea, heb, rfl, rfl, rfl⟩
      by_cases heq : offsetLabel la off_a = offsetLabel lb off_b
      · rw [if_pos heq] at h
        cases h
        refine Or.inl ⟨rfl, ?_⟩
        intro c n w hc
        obtain ⟨e1, e2, _⟩ := candAt_unique hc hcand
        rw [e1, e2]
        exact heq
      · rw [if_neg heq] at h
        exact Or.inr ⟨_, _, _, heq, hcand, h⟩
    · cases h

theorem CandIn.mono {elev_a elev_b : List Int} {label_a label_b : List Nat} {off_a off_b : Nat}
    {Q R : Nat → Nat → Prop} {a b : Nat} {w : Int} (hQR : ∀ i d, Q i d → R i d)
    (h : CandIn elev_a elev_b label_a label_b off_a off_b Q a b w) :
    CandIn elev_a elev_b label_a label_b off_a off_b R a b w := by
  obtain ⟨i, d, hq, hc⟩ := h
  exact ⟨i, d, hQR i d hq, hc⟩

theorem EdgeInv.congrEdge {elev_a elev_b : List Int} {label_a label_b : List Nat} {off_a off_b : Nat}
    {M g : Graph} {Q R : Nat → Nat → Prop}
    (h : EdgeInv elev_a elev_b label_a label_b off_a off_b M Q g)
    (hQR : ∀ i d, Q i d ↔ R i d) :
    EdgeInv elev_a elev_b label_a label_b off_a off_b M R g :=
  { symm := h.symm
    len := h.len
    below_cand := fun a b w hab hc =>
      h.below_cand a b w hab (hc.mono (fun i d => (hQR i d).mpr))
    below_old := h.below_old
    attained := fun a b m hab hm =>
      (h.attained a b m hab hm).imp id (fun hc => hc.mono (fun i d => (hQR i d).mp)) }

theorem handleEdgePair_step {elev_a elev_b : List Int} {label_a label_b : List Nat}
    {off_a off_b i d : Nat} {M g g2 : Graph} {Q : Nat → Nat → Prop}
    (hinv : EdgeInv elev_a elev_b label_a label_b off_a off_b M Q g)
    (hi : i < elev_a.length) (hd : d < 3)
    (h : handleEdgePair elev_a elev_b label_a label_b off_a off_b i d g = some g2) :
    EdgeInv elev_a elev_b label_a label_b off_a off_b M
      (fun i2 d2 => Q i2 d2 ∨ (i2 = i ∧ d2 = d)) g2 := by
  have hmono : ∀ a b m, CandIn elev_a elev_b label_a label_b off_a off_b Q a b m →
      CandIn elev_a elev_b label_a label_b off_a off_b
        (fun i2 d2 => Q i2 d2 ∨ (i2 = i ∧ d2 = d)) a b m :=
    fun a b m hc => hc.mono (fun _ _ hq => Or.inl hq)
  -- a candidate of the enlarged set is an old one or the comparison at `(i,d)`
  have hsplit : ∀ a b w, CandIn elev_a elev_b label_a label_b off_a off_b
        (fun i2 d2 => Q i2 d2 ∨ (i2 = i ∧ d2 = d)) a b w →
      CandIn elev_a elev_b label_a label_b off_a off_b Q a b w ∨
      candAt elev_a elev_b label_a label_b off_a off_b i d a b w ∨
      candAt elev_a elev_b label_a label_b off_a off_b i d b a w := by
    intro a b w hc
    obtain ⟨i2, d2, hq, hc2⟩ := hc
    rcases hq with hq | ⟨rfl, rfl⟩
    · exact Or.inl ⟨i2, d2, hq, hc2⟩
    · exact Or.inr hc2
  rcases handleEdgePair_cases hi hd h with ⟨rfl, hno⟩ | ⟨c, n, w0, hne, hcand, hup⟩
  · refine ⟨hinv.symm, hinv.len, ?_, hinv.below_old, ?_⟩
    · intro a b w hab hc
      rcases hsplit a b w hc with h1 | h1 | h1
      · exact hinv.below_cand a b w hab h1
      · exact absurd (hno _ _ _ h1) hab
      · exact absurd (hno _ _ _ h1).symm hab
    · intro a b m hab hm
      exact (hinv.attained a b m hab hm).imp id (hmono a b m)
  · have hnew : ∀ a b w, (candAt elev_a elev_b label_a label_b off_a off_b i d a b w ∨
          candAt elev_a elev_b label_a label_b off_a off_b i d b a w) →
        ((a = c ∧ b = n) ∨ (a = n ∧ b = c)) ∧ w = w0 := by
      intro a b w hc
      rcases hc with h1 | h1
      · obtain ⟨e1, e2, e3⟩ := candAt_unique h1 hcand
        exact ⟨Or.inl ⟨e1, e2⟩, e3⟩
      · obtain ⟨e1, e2, e3⟩ := candAt_unique h1 hcand
        exact ⟨Or.inr ⟨e2, e1⟩, e3⟩
    have hpair : ∀ a b, ((a = c ∧ b = n) ∨ (a = n ∧ b = c)) → weight g a b = weight g c n := by
      intro a b hm
      rcases hm with ⟨rfl, rfl⟩ | ⟨rfl, rfl⟩
      · rfl
      · exact hinv.symm _ _
    have hcandnew : ∀ a b, ((a = c ∧ b = n) ∨ (a = n ∧ b = c)) →
        CandIn elev_a elev_b label_a label_b off_a off_b
          (fun i2 d2 => Q i2 d2 ∨ (i2 = i ∧ d2 = d)) a b w0 := by
      intro a b hm
      rcases hm with ⟨rfl, rfl⟩ | ⟨rfl, rfl⟩
      · exact ⟨i, d, Or.inr ⟨rfl, rfl⟩, Or.inl hcand⟩
      · exact ⟨i, d, Or.inr ⟨rfl, rfl⟩, Or.inr hcand⟩
    rcases (upsertMin_cases hup).2 with ⟨rfl, old, hold, hle⟩ | ⟨hset, hlt⟩
    · refine ⟨hinv.symm, hinv.len, ?_, hinv.below_old, ?_⟩
      · intro a b w hab hc
        rcases hsplit a b w hc with h1 | h1
        · exact hinv.below_cand a b w hab h1
        · obtain ⟨hm, rfl⟩ := hnew a b w h1
          exact ⟨old, by rw [hpair a b hm]; exact hold, hle⟩
      · intro a b m hab hm
        exact (hinv.attained a b m hab hm).imp id (hmono a b m)
    · obtain ⟨_, _, hlen, hw⟩ := graphSetBoth_spec hset
      refine ⟨graphSetBoth_symmetric hinv.symm hset, by rw [hlen]; exact hinv.len, ?_, ?_, ?_⟩
      · intro a b w hab hc
        rw [hw]
        by_cases hm : (a = c ∧ b = n) ∨ (a = n ∧ b = c)
        · rw [if_pos hm]
          refine ⟨w0, rfl, ?_⟩
          rcases hsplit a b w hc with h1 | h1
          · obtain ⟨m, hm1, hm2⟩ := hinv.below_cand a b w hab h1
            rw [hpair a b hm] at hm1
            exact le_trans (le_of_lt (hlt m hm1)) hm2
          · exact le_of_eq (hnew a b w h1).2.symm
        · rw [if_neg hm]
          rcases hsplit a b w hc with h1 | h1
          · exact hinv.below_cand a b w hab h1
          · exact absurd (hnew a b w h1).1 hm
      · intro a b old hab hold
        rw [hw]
        by_cases hm : (a = c ∧ b = n) ∨ (a = n ∧ b = c)
        · rw [if_pos hm]
          refine ⟨w0, rfl, ?_⟩
          obtain ⟨m, hm1, hm2⟩ := hinv.below_old a b old hab hold
          rw [hpair a b hm] at hm1
          exact le_trans (le_of_lt (hlt m hm1)) hm2
        · rw [if_neg hm]
          exact hinv.below_old a b old hab hold
      · intro a b m hab hm1
        rw [hw] at hm1
        by_cases hm : (a = c ∧ b = n) ∨ (a = n ∧ b = c)
        · rw [if_pos hm] at hm1
          cases hm1
          exact Or.inr (hcandnew a b hm)
        · rw [if_neg hm] at hm1
          exact (hinv.attained a b m hab hm1).imp id (hmono a b m)

theorem EdgeInv.initEdge {elev_a elev_b : List Int} {label_a label_b : List Nat} {off_a off_b : Nat}
    {M : Graph} (hs : Symmetric M) :
    EdgeInv elev_a elev_b label_a label_b off_a off_b M (fun i2 d2 => i2 < 0 ∧ d2 < 3) M :=
  { symm := hs
    len := rfl
    below_cand := fun _ _ _ _ hc => by
      obtain ⟨i, d, hq, _⟩ := hc
      exact absurd hq.1 (Nat.not_lt_zero _)
    below_old := fun _ _ old _ h => ⟨old, h, le_refl _⟩
    attained := fun _ _ _ _ h => Or.inl h }

theorem edgeDone_zero (i i2 d2 : Nat) : edgeDone i 0 i2 d2 ↔ (i2 < i ∧ d2 < 3) := by
  unfold edgeDone
  constructor
  · rintro (h | ⟨_, h⟩)
    · exact h
    · exact absurd h (Nat.not_lt_zero _)
  · exact fun h => Or.inl h

theorem edgeDone_succ (i k i2 d2 : Nat) :
    (edgeDone i k i2 d2 ∨ (i2 = i ∧ d2 = k)) ↔ edgeDone i (k + 1) i2 d2 := by
  unfold edgeDone
  constructor
  · rintro ((h | ⟨h1, h2⟩) | ⟨h1, h2⟩)
    · exact Or.inl h
    · exact Or.inr ⟨h1, Nat.lt_succ_of_lt h2⟩
    · exact Or.inr ⟨h1, by rw [h2]; exact Nat.lt_succ_self _⟩
  · rintro (h | ⟨h1, h2⟩)
    · exact Or.inl (Or.inl h)
    · rcases Nat.lt_succ_iff_lt_or_eq.mp h2 with h3 | h3
      · exact Or.inl (Or.inr ⟨h1, h3⟩)
      · exact Or.inr ⟨h1, h3⟩

theorem edgeDone_full (i i2 d2 : Nat) : edgeDone i 3 i2 d2 ↔ (i2 < i + 1 ∧ d2 < 3) := by
  unfold edgeDone
  constructor
  · rintro (⟨h1, h2⟩ | ⟨h1, h2⟩)
    · exact ⟨Nat.lt_succ_of_lt h1, h2⟩
    · exact ⟨by rw [h1]; exact Nat.lt_succ_self _, h2⟩
  · rintro ⟨h1, h2⟩
    rcases Nat.lt_succ_iff_lt_or_eq.mp h1 with h3 | h3
    · exact Or.inl ⟨h3, h2⟩
    · exact Or.inr ⟨h3, h2⟩

theorem HandleEdge_inv_min {elev_a elev_b : List Int} {label_a label_b : List Nat}
    {off_a off_b : Nat} {M g : Graph} (hs : Symmetric M)
    (h : HandleEdge elev_a elev_b label_a label_b M off_a off_b = some g) :
    EdgeInv elev_a elev_b label_a label_b off_a off_b M
      (fun i2 d2 => i2 < elev_a.length ∧ d2 < 3) g := by
  unfold HandleEdge at h
  split at h
  · refine forRange_inv
      (fun i u => EdgeInv elev_a elev_b label_a label_b off_a off_b M
        (fun i2 d2 => i2 < i ∧ d2 < 3) u) _ _ M g (EdgeInv.initEdge hs) ?_ h
    intro i u v hi hu hv
    have key := forRange_inv
      (fun k st => EdgeInv elev_a elev_b label_a label_b off_a off_b M (edgeDone i k) st)
      _ 3 u v (hu.congrEdge (fun i2 d2 => (edgeDone_zero i i2 d2).symm))
      (fun k u2 v2 hk hu2 hv2 =>
        (handleEdgePair_step hu2 hi hk hv2).congrEdge (fun i2 d2 => edgeDone_succ i k i2 d2)) hv
    exact key.congrEdge (fun i2 d2 => edgeDone_full i i2 d2)
  · cases h

theorem spillCandidate_iff {elev_a elev_b : List Int} {label_a label_b : List Nat}
    {off_a off_b a b : Nat} {w : Int} :
    SpillCandidate elev_a elev_b label_a label_b off_a off_b a b w ↔
    CandIn elev_a elev_b label_a label_b off_a off_b
      (fun i2 d2 => i2 < elev_a.length ∧ d2 < 3) a b w := by
  constructor
  · rintro ⟨i, j, hi, hj, hij, hji, la, lb, ea, eb, hla, hlb, hea, heb, hlab, hw⟩
    have hidx : i + (j + 1 - i) - 1 = j := by omega
    have hc : ∀ c n, offsetLabel la off_a = c → offsetLabel lb off_b = n →
        candAt elev_a elev_b label_a label_b off_a off_b i (j + 1 - i) c n w := by
      intro c n hc hn
      refine ⟨hi, by omega, by omega, by rw [hidx]; exact hj, la, lb, ea, eb, hla, ?_, hea, ?_,
        hc, hn, hw⟩
      · rw [hidx]; exact hlb
      · rw [hidx]; exact heb
    refine ⟨i, j + 1 - i, ⟨hi, by omega⟩, ?_⟩
    rcases hlab with ⟨h1, h2⟩ | ⟨h1, h2⟩
    · exact Or.inl (hc a b h1 h2)
    · exact Or.inr (hc b a h1 h2)
  · rintro ⟨i, d, _, hc⟩
    have hconv : ∀ c n, candAt elev_a elev_b label_a label_b off_a off_b i d c n w →
        ((c = a ∧ n = b) ∨ (c = b ∧ n = a)) →
        SpillCandidate elev_a elev_b label_a label_b off_a off_b a b w := by
      rintro c n ⟨hi, hd, h1, h2, la, lb, ea, eb, hla, hlb, hea, heb, hcl, hnl, hw⟩ hor
      refine ⟨i, i + d - 1, hi, h2, by omega, by omega, la, lb, ea, eb, hla, hlb, hea, heb,
        ?_, hw⟩
      rw [hcl, hnl]
      exact hor
    rcases hc with h1 | h1
    · exact hconv a b h1 (Or.inl ⟨rfl, rfl⟩)
    · exact hconv b a h1 (Or.inr ⟨rfl, rfl⟩)

theorem handleEdgePair_total {elev_a elev_b : List Int} {label_a label_b : List Nat}
    {off_a off_b i d : Nat} {M g : Graph}
    (hr : EdgeReady elev_a elev_b label_a label_b off_a off_b M) (hlen : g.length = M.length)
    (hi : i < elev_a.length) (hd : d < 3) :
    ∃ g2, handleEdgePair elev_a elev_b label_a label_b off_a off_b i d g = some g2 ∧
      g2.length = M.length := by
  unfold handleEdgePair
  simp only
  by_cases hskip : ((i : Int) + (d : Int) - 1 < 0 ∨ (i : Int) + (d : Int) - 1 = (elev_a.length : Int))
  · rw [if_pos hskip]
    exact ⟨g, rfl, hlen⟩
  · rw [if_neg hskip]
    have h1 : 1 ≤ i + d := by omega
    have h2 : i + d - 1 < elev_a.length := by omega
    rw [toNat_pred i d h1]
    have hia : i < label_a.length := by rw [hr.len_label, ← hr.len_mixed]; exact hi
    have hjb : i + d - 1 < label_b.length := by rw [← hr.len_mixed]; exact h2
    have hje : i + d - 1 < elev_b.length := by rw [← hr.len_elev]; exact h2
    rw [List.getElem?_eq_getElem hia, List.getElem?_eq_getElem hjb,
      List.getElem?_eq_getElem hi, List.getElem?_eq_getElem hje]
    simp only
    by_cases heq : offsetLabel label_a[i] off_a = offsetLabel label_b[i + d - 1] off_b
    · rw [if_pos heq]
      exact ⟨g, rfl, hlen⟩
    · rw [if_neg heq]
      have ha := hr.range_a _ (List.getElem_mem hia)
      have hb := hr.range_b _ (List.getElem_mem hjb)
      rw [← hlen] at ha hb
      obtain ⟨g2, hg2⟩ := upsertMin_isSome (max elev_a[i] elev_b[i + d - 1]) ha hb
      exact ⟨g2, hg2, by rw [upsertMin_length hg2]; exact hlen⟩

theorem HandleEdge_total {elev_a elev_b : List Int} {label_a label_b : List Nat}
    {off_a off_b : Nat} {M g : Graph}
    (hr : EdgeReady elev_a elev_b label_a label_b off_a off_b M) (hlen : g.length = M.length) :
    ∃ g2, HandleEdge elev_a elev_b label_a label_b g off_a off_b = some g2 ∧
      g2.length = M.length := by
  unfold HandleEdge
  rw [if_pos ⟨hr.len_elev, hr.len_label, hr.len_mixed⟩]
  refine forRange_total (fun _ u => u.length = M.length) _ _ g hlen ?_
  intro i u hi hu
  refine forRange_total (fun _ u2 => u2.length = M.length) _ 3 u hu ?_
  intro d u2 hd hu2
  exact handleEdgePair_total hr hu2 hi hd

theorem mapFind_some_mem {m : EdgeMap} {b : Nat} {w : Int} (h : mapFind m b = some w) :
    (b, w) ∈ m := by
  induction m with
  | nil => cases h
  | cons p rest ih =>
    obtain ⟨kp, vp⟩ := p
    simp only [mapFind] at h
    by_cases hk : b = kp
    · rw [if_pos hk] at h
      cases h
      rw [hk]
      exact List.mem_cons_self _ _
    · rw [if_neg hk] at h
      exact List.mem_cons_of_mem _ (ih h)

theorem symmetric_of_check {g : Graph} (h : symmetricB g = true) : Symmetric g := by
  have key : ∀ a b w, weight g a b = some w → weight g b a = some w := by
    intro a b w hw
    unfold weight at hw
    cases hm : g[a]? with
    | none => rw [hm] at hw; cases hw
    | some m =>
      rw [hm] at hw
      simp only at hw
      have ha : a < g.length := (List.getElem?_eq_some_iff.mp hm).1
      have hmem := mapFind_some_mem hw
      unfold symmetricB at h
      rw [List.all_eq_true] at h
      have h1 := h a (List.mem_range.mpr ha)
      rw [List.all_eq_true] at h1
      have hgd : g.getD a [] = m := by
        rw [List.getD_eq_getElem?_getD, hm]
        rfl
      rw [hgd] at h1
      have h2 := of_decide_eq_true (h1 (b, w) hmem)
      simp only at h2
      rw [h2]
      unfold weight
      rw [hm]
      exact hw
  intro a b
  cases hab : weight g a b with
  | some w => exact (key a b w hab).symm
  | none =>
    cases hba : weight g b a with
    | none => rfl
    | some w =>
      have := key b a w hba
      rw [hab] at this
      cases this

/-- C10: `HandleEdge` keeps the minimum spill weight.  Started on a symmetric master
graph `M`, it returns when the four arrays have one length and every offset label
is a vertex; and the graph it returns is symmetric and, for distinct labels `a` and `b`, the
weight of `{a,b}` is the least of the previous weight (if any) and the candidate
weights `max(elev_A[i], elev_B[j])`, `|i-j| ≤ 1`: it is present and below every
candidate and below the previous weight, it is one of them, and it is unchanged
when there is no candidate. -/
theorem C10_HandleEdge_keeps_minimum (elev_a elev_b : List Int) (label_a label_b : List Nat)
    (M : Graph) (off_a off_b : Nat) (hsym : Symmetric M) :
    (EdgeReady elev_a elev_b label_a label_b off_a off_b M →
      ∃ g, HandleEdge elev_a elev_b label_a label_b M off_a off_b = some g) ∧
    ∀ g, HandleEdge elev_a elev_b label_a label_b M off_a off_b = some g →
      Symmetric g ∧ ∀ a b, a ≠ b →
        (∀ w, SpillCandidate elev_a elev_b label_a label_b off_a off_b a b w →
          ∃ m, weight g a b = some m ∧ m ≤ w) ∧
        (∀ old, weight M a b = some old → ∃ m, weight g a b = some m ∧ m ≤ old) ∧
        (∀ m, weight g a b = some m →
          weight M a b = some m ∨
          SpillCandidate elev_a elev_b label_a label_b off_a off_b a b m) ∧
        ((∀ w, ¬ SpillCandidate elev_a elev_b label_a label_b off_a off_b a b w) →
          weight g a b = weight M a b) := by
  constructor
  · intro hr
    obtain ⟨g, hg, _⟩ := HandleEdge_total hr (rfl : M.length = M.length)
    exact ⟨g, hg⟩
  · intro g hg
    have hinv := HandleEdge_inv_min hsym hg
    refine ⟨hinv.symm, ?_⟩
    intro a b hab
    have h1 : ∀ w, SpillCandidate elev_a elev_b label_a label_b off_a off_b a b w →
        ∃ m, weight g a b = some m ∧ m ≤ w :=
      fun w hc => hinv.below_cand a b w hab (spillCandidate_iff.mp hc)
    have h2 := hinv.below_old a b
    have h3 : ∀ m, weight g a b = some m → weight M a b = some m ∨
        SpillCandidate elev_a elev_b label_a label_b off_a off_b a b m :=
      fun m hm => (hinv.attained a b m hab hm).imp id spillCandidate_iff.mpr
    refine ⟨h1, fun old => h2 old hab, h3, ?_⟩
    intro hnone
    cases hg2 : weight g a b with
    | some m =>
      rcases h3 m hg2 with h | h
      · exact h.symm
      · exact absurd h (hnone m)
    | none =>
      cases hM : weight M a b with
      | none => rfl
      | some old =>
        obtain ⟨m, hm, _⟩ := h2 old hab hM
        rw [hg2] at hm
        cases hm

theorem exMerged_eq : (mergeGraphs exTiles exJobs).map (fun s => s.mastergraph) = some exMerged := by
  decide

theorem exMaster_eq : buildMasterGraph exTiles exJobs = some (exTilesDone, exMaster) := by
  decide

theorem exFlood_eq : Calculations (-2147483648) exTiles exJobs
    = some (exTilesDone, [0, -2147483648, 9, 0, 0, 5]) := by
  decide

theorem C5_witness :
    buildMasterGraph exTiles exJobs = some (exTilesDone, exMaster) ∧ Symmetric exMaster :=
  ⟨exMaster_eq, C5_mastergraph_symmetric.2.2.2.2.2.2 exTiles exJobs exTilesDone exMaster
    exMaster_eq⟩

theorem C10_witness :
    Symmetric exMerged ∧
    HandleEdge exJobLeft.right_elev exJobRight.left_elev exJobLeft.right_label
      exJobRight.left_label exMerged 0 3 = some exMaster ∧
    weight exMaster 2 5 = some 9 ∧
    ((∀ w, ¬ SpillCandidate exJobLeft.right_elev exJobRight.left_elev exJobLeft.right_label
        exJobRight.left_label 0 3 1 2 w) → weight exMaster 1 2 = weight exMerged 1 2) :=
  ⟨symmetric_of_check (by decide), by decide, by decide,
    ((((C10_HandleEdge_keeps_minimum exJobLeft.right_elev exJobRight.left_elev
      exJobLeft.right_label exJobRight.left_label exMerged 0 3
      (symmetric_of_check (by decide))).2 exMaster (by decide)).2) 1 2 (by decide)).2.2.2⟩

/-! ## Label offsets -/

theorem sum_range_succ_map (f : Nat → Nat) (n : Nat) :
    ((List.range (n + 1)).map f).sum = ((List.range n).map f).sum + f n := by
  rw [List.range_succ, List.map_append, List.sum_append]
  simp

theorem sumBefore_zero (sz : Nat → Nat → Nat) (gw y : Nat) :
    sumBefore sz gw y 0 = sumAll sz y gw := by
  unfold sumBefore sumAll
  simp

theorem sumBefore_succ (sz : Nat → Nat → Nat) (gw y x : Nat) :
    sumBefore sz gw y (x + 1) = sumBefore sz gw y x + sz y x := by
  unfold sumBefore
  rw [sum_range_succ_map, Nat.add_assoc]

theorem sumBefore_row (sz : Nat → Nat → Nat) (gw y : Nat) :
    sumBefore sz gw y gw = sumAll sz (y + 1) gw := by
  unfold sumBefore sumAll
  rw [sum_range_succ_map]
  rfl

theorem sumAll_mono_rows (sz : Nat → Nat → Nat) (gw : Nat) {a b : Nat} (h : a ≤ b) :
    sumAll sz a gw ≤ sumAll sz b gw := by
  induction h with
  | refl => exact le_refl _
  | step _ ih =>
    refine le_trans ih ?_
    unfold sumAll
    rw [sum_range_succ_map]
    exact Nat.le_add_right _ _

theorem sumBefore_mono_cols (sz : Nat → Nat → Nat) (gw y : Nat) {a b : Nat} (h : a ≤ b) :
    sumBefore sz gw y a ≤ sumBefore sz gw y b := by
  induction h with
  | refl => exact le_refl _
  | step _ ih =>
    refine le_trans ih ?_
    rw [sumBefore_succ]
    exact Nat.le_add_right _ _

/-- The labels allotted up to and including tile `(y,x)` are among those of the whole matrix. -/
theorem sumBefore_add_le (sz : Nat → Nat → Nat) {gh gw y x : Nat} (hy : y < gh) (hx : x < gw) :
    sumBefore sz gw y x + sz y x ≤ sumAll sz gh gw := by
  rw [← sumBefore_succ]
  calc sumBefore sz gw y (x + 1) ≤ sumBefore sz gw y gw := sumBefore_mono_cols sz gw y hx
    _ = sumAll sz (y + 1) gw := sumBefore_row sz gw y
    _ ≤ sumAll sz gh gw := sumAll_mono_rows sz gw hy

theorem rowSum_le {sz sz2 : Nat → Nat → Nat} (h : ∀ y x, sz y x ≤ sz2 y x) (gw y : Nat) :
    rowSum sz gw y ≤ rowSum sz2 gw y := by
  unfold rowSum
  induction gw with
  | zero => simp
  | succ n ih =>
    rw [sum_range_succ_map, sum_range_succ_map]
    exact Nat.add_le_add ih (h y n)

theorem sumAll_le {sz sz2 : Nat → Nat → Nat} (h : ∀ y x, sz y x ≤ sz2 y x) (gh gw : Nat) :
    sumAll sz gh gw ≤ sumAll sz2 gh gw := by
  unfold sumAll
  induction gh with
  | zero => simp
  | succ n ih =>
    rw [sum_range_succ_map, sum_range_succ_map]
    exact Nat.add_le_add ih (rowSum_le h gw n)

theorem tileSize_le (tiles : TileGrid) (jobs1 : Job1Grid) (y x : Nat) :
    tileSize tiles jobs1 y x ≤ graphSizeAt jobs1 y x := by
  unfold tileSize
  split
  · exact Nat.zero_le _
  · exact le_refl _

/-- The count loop returns the sum of all graph sizes, reduced to `label_t`. -/
theorem countLabels_spec {gh gw : Nat} {jobs1 : Job1Grid} {n : Nat}
    (h : countLabels gh gw jobs1 = some n) :
    n = sumAll (graphSizeAt jobs1) gh gw % LABEL_MOD := by
  unfold countLabels at h
  have key := forRange_inv
    (fun y acc => acc = sumAll (graphSizeAt jobs1) y gw % LABEL_MOD) _ gh 0 n
    (by simp [sumAll]) ?_ h
  · exact key
  · intro y u v _ hu hv
    have key2 := forRange_inv
      (fun x acc => acc = sumBefore (graphSizeAt jobs1) gw y x % LABEL_MOD) _ gw u v
      (by show u = _; rw [sumBefore_zero]; exact hu) ?_ hv
    · show v = _
      rw [← sumBefore_row]
      exact key2
    · intro x u2 v2 _ hu2 hv2
      simp only at hv2
      cases hj : grid2 jobs1 y x with
      | none => rw [hj] at hv2; cases hv2
      | some j =>
        rw [hj] at hv2
        cases hv2
        show _ = _
        rw [sumBefore_succ, hu2]
        have : graphSizeAt jobs1 y x = j.graph.length := by
          unfold graphSizeAt
          rw [hj]
        rw [this, Nat.mod_add_mod]

theorem grid2_modify {α : Type} (g : List (List α)) (y x y2 x2 : Nat) (f : α → α) :
    grid2 (grid2Modify g y x f) y2 x2 =
      if y2 = y ∧ x2 = x then (grid2 g y x).map f else grid2 g y2 x2 := by
  unfold grid2 grid2Modify
  rw [List.getElem?_modify]
  by_cases hy : y = y2
  · subst hy
    cases hrow : g[y]? with
    | none =>
      simp only [Option.map_eq_map, Option.map_none']
      split <;> rfl
    | some row =>
      simp only [Option.map_eq_map, Option.map_some', if_true, true_and]
      rw [List.getElem?_modify]
      by_cases hx : x = x2
      · subst hx
        simp
      · have hx2 : ¬ x2 = x := fun h => hx h.symm
        rw [if_neg hx2]
        cases row[x2]? <;> simp [hx]
  · have hy2 : ¬ (y2 = y ∧ x2 = x) := fun h => hy h.1.symm
    rw [if_neg hy2]
    cases g[y2]? <;> simp [hy]

theorem before_zero_iff (y y2 x2 : Nat) : before (y + 1) 0 y2 x2 ↔ y2 < y + 1 := by
  unfold before
  constructor
  · rintro (h | ⟨_, h⟩)
    · exact h
    · exact absurd h (Nat.not_lt_zero _)
  · exact fun h => Or.inl h

theorem before_row_iff (y gw y2 x2 : Nat) (hx : x2 < gw) :
    before y gw y2 x2 ↔ before (y + 1) 0 y2 x2 := by
  rw [before_zero_iff]
  unfold before
  constructor
  · rintro (h | ⟨h, _⟩)
    · exact Nat.lt_succ_of_lt h
    · rw [h]; exact Nat.lt_succ_self _
  · intro h
    rcases Nat.lt_succ_iff_lt_or_eq.mp h with h1 | h1
    · exact Or.inl h1
    · exact Or.inr ⟨h1, hx⟩

theorem before_succ_iff (y x y2 x2 : Nat) :
    before y (x + 1) y2 x2 ↔ before y x y2 x2 ∨ (y2 = y ∧ x2 = x) := by
  unfold before
  constructor
  · rintro (h | ⟨h1, h2⟩)
    · exact Or.inl (Or.inl h)
    · rcases Nat.lt_succ_iff_lt_or_eq.mp h2 with h3 | h3
      · exact Or.inl (Or.inr ⟨h1, h3⟩)
      · exact Or.inr ⟨h1, h3⟩
  · rintro ((h | ⟨h1, h2⟩) | ⟨h1, h2⟩)
    · exact Or.inl h
    · exact Or.inr ⟨h1, Nat.lt_succ_of_lt h2⟩
    · exact Or.inr ⟨h1, by rw [h2]; exact Nat.lt_succ_self _⟩

theorem not_before_self (y x : Nat) : ¬ before y x y x := by
  rintro (h | ⟨_, h⟩)
  · exact lt_irrefl _ h
  · exact lt_irrefl _ h

theorem mergeTile_step {tiles : TileGrid} {jobs1 : Job1Grid} {gw y x : Nat}
    {G : Nat → Nat → Graph → Prop} {s s2 : MergeState}
    (hnull : ∀ g, isNullAt tiles y x = true → G y x g → G y (x + 1) g)
    (hstep : ∀ g g2 t j, grid2 tiles y x = some t → t.nullTile = false →
      grid2 jobs1 y x = some j → G y x g →
      mergeTileGraph (sumBefore (tileSize tiles jobs1) gw y x % LABEL_MOD) j.graph g = some g2 →
      G y (x + 1) g2)
    (hx : x < gw) (hinv : MergeInv tiles jobs1 gw G y x s)
    (h : mergeTile jobs1 y x s = some s2) : MergeInv tiles jobs1 gw G y (x + 1) s2 := by
  have htile := hinv.tiles_todo y x hx (not_before_self y x)
  unfold mergeTile at h
  cases ht : grid2 s.tiles y x with
  | none => rw [ht] at h; cases h
  | some t =>
    rw [ht] at h
    simp only at h
    have ht0 : grid2 tiles y x = some t := by rw [← htile]; exact ht
    by_cases hn : t.nullTile = true
    · rw [if_pos hn] at h
      cases h
      have hisnull : isNullAt tiles y x = true := by
        unfold isNullAt
        rw [ht0]
        exact hn
      have hsz : tileSize tiles jobs1 y x = 0 := by
        unfold tileSize
        rw [if_pos hisnull]
      refine ⟨?_, hnull _ hisnull hinv.graph, ?_, ?_⟩
      · rw [sumBefore_succ, hsz, Nat.add_zero]
        exact hinv.offset
      · intro y2 x2 t2 hx2 hb ht2
        rcases (before_succ_iff y x y2 x2).mp hb with hb2 | ⟨rfl, rfl⟩
        · exact hinv.tiles_done y2 x2 t2 hx2 hb2 ht2
        · rw [ht0] at ht2
          cases ht2
          rw [ht, if_pos hn]
      · intro y2 x2 hx2 hb
        exact hinv.tiles_todo y2 x2 hx2
          (fun hb2 => hb ((before_succ_iff y x y2 x2).mpr (Or.inl hb2)))
    · rw [if_neg hn] at h
      have hn2 : t.nullTile = false := by
        cases hnt : t.nullTile
        · rfl
        · exact absurd hnt hn
      cases hj : grid2 jobs1 y x with
      | none => rw [hj] at h; cases h
      | some j =>
        rw [hj] at h
        simp only at h
        cases hm : mergeTileGraph s.label_offset j.graph s.mastergraph with
        | none => rw [hm] at h; cases h
        | some g =>
          rw [hm] at h
          cases h
          have hisnull : isNullAt tiles y x = false := by
            unfold isNullAt
            rw [ht0]
            exact hn2
          have hgs : graphSizeAt jobs1 y x = j.graph.length := by
            unfold graphSizeAt
            rw [hj]
          have hsz : tileSize tiles jobs1 y x = j.graph.length := by
            unfold tileSize
            rw [hisnull, hgs]
            rfl
          refine ⟨?_, ?_, ?_, ?_⟩
          · show (s.label_offset + j.graph.length) % LABEL_MOD = _
            rw [sumBefore_succ, hsz, hinv.offset, Nat.mod_add_mod]
          · rw [hinv.offset] at hm
            exact hstep _ _ t j ht0 hn2 hj hinv.graph hm
          · intro y2 x2 t2 hx2 hb ht2
            show grid2 (grid2Modify s.tiles y x _) y2 x2 = _
            rw [grid2_modify]
            rcases (before_succ_iff y x y2 x2).mp hb with hb2 | ⟨rfl, rfl⟩
            · have hne : ¬ (y2 = y ∧ x2 = x) := by
                rintro ⟨rfl, rfl⟩
                exact not_before_self _ _ hb2
              rw [if_neg hne]
              exact hinv.tiles_done y2 x2 t2 hx2 hb2 ht2
            · rw [ht0] at ht2
              cases ht2
              rw [if_pos ⟨rfl, rfl⟩, ht, if_neg hn]
              simp only [Option.map_some', stamped, hgs, hinv.offset]
          · intro y2 x2 hx2 hb
            show grid2 (grid2Modify s.tiles y x _) y2 x2 = _
            rw [grid2_modify]
            have hne : ¬ (y2 = y ∧ x2 = x) :=
              fun hc => hb ((before_succ_iff y x y2 x2).mpr (Or.inr hc))
            rw [if_neg hne]
            exact hinv.tiles_todo y2 x2 hx2
              (fun hb2 => hb ((before_succ_iff y x y2 x2).mpr (Or.inl hb2)))

theorem MergeInv.next_row {tiles : TileGrid} {jobs1 : Job1Grid} {gw y : Nat}
    {G : Nat → Nat → Graph → Prop} {s : MergeState}
    (hrow : ∀ g, G y gw g → G (y + 1) 0 g)
    (hinv : MergeInv tiles jobs1 gw G y gw s) : MergeInv tiles jobs1 gw G (y + 1) 0 s := by
  refine ⟨?_, hrow _ hinv.graph, ?_, ?_⟩
  · rw [sumBefore_zero, ← sumBefore_row]
    exact hinv.offset
  · intro y2 x2 t hx2 hb ht
    exact hinv.tiles_done y2 x2 t hx2 ((before_row_iff y gw y2 x2 hx2).mpr hb) ht
  · intro y2 x2 hx2 hb
    exact hinv.tiles_todo y2 x2 hx2 (fun hb2 => hb ((before_row_iff y gw y2 x2 hx2).mp hb2))

/-- Invariant rule of the merge loop. -/
theorem mergeLoop_inv {tiles : TileGrid} {jobs1 : Job1Grid} {gh gw : Nat}
    (G : Nat → Nat → Graph → Prop) {s0 s : MergeState}
    (hnull : ∀ y x g, y < gh → x < gw → isNullAt tiles y x = true → G y x g → G y (x + 1) g)
    (hstep : ∀ y x g g2 t j, y < gh → x < gw → grid2 tiles y x = some t → t.nullTile = false →
      grid2 jobs1 y x = some j → G y x g →
      mergeTileGraph (sumBefore (tileSize tiles jobs1) gw y x % LABEL_MOD) j.graph g = some g2 →
      G y (x + 1) g2)
    (hrow : ∀ y g, y < gh → G y gw g → G (y + 1) 0 g)
    (h0 : MergeInv tiles jobs1 gw G 0 0 s0)
    (h : forRange gh (fun y st => forRange gw (fun x st2 => mergeTile jobs1 y x st2) st) s0
      = some s) :
    MergeInv tiles jobs1 gw G gh 0 s := by
  refine forRange_inv (fun y st => MergeInv tiles jobs1 gw G y 0 st) _ gh s0 s h0 ?_ h
  intro y u v hy hu hv
  have key := forRange_inv (fun x st => MergeInv tiles jobs1 gw G y x st) _ gw u v hu
    (fun x u2 v2 hx hu2 hv2 =>
      mergeTile_step (hnull y x · hy hx) (fun g g2 t j => hstep y x g g2 t j hy hx) hx hu2 hv2)
    hv
  exact key.next_row (fun g => hrow y g hy)

theorem graphSetBoth_length {g g2 : Graph} {a b : Nat} {w : Int}
    (h : graphSetBoth g a b w = some g2) : g2.length = g.length :=
  (graphSetBoth_spec h).2.2.1

theorem mergeTileGraph_length {off : Nat} {graph g g2 : Graph}
    (h : mergeTileGraph off graph g = some g2) : g2.length = g.length :=
  mergeTileGraph_inv (fun u => u.length = g.length)
    (fun _ _ _ _ _ hu hs => (graphSetBoth_length hs).trans hu) rfl h

theorem mergeTileGraph_total {off n : Nat} {graph g : Graph} (hlen : g.length = n)
    (hrange : ∀ l m, graph[l]? = some m → ∀ p, p ∈ m →
      offsetLabel (l % LABEL_MOD) off < n ∧ offsetLabel p.1 off < n) :
    ∃ g2, mergeTileGraph off graph g = some g2 := by
  unfold mergeTileGraph
  have key : ∃ g2, forRange graph.length (fun l g1 =>
      match graph[l]? with
      | none => none
      | some m => m.foldlM (fun g2 skey => mergeEdge off l g2 skey) g1) g = some g2 ∧
      g2.length = n := by
    refine forRange_total (fun _ u => u.length = n) _ graph.length g hlen ?_
    intro l u hl hu
    simp only
    rw [List.getElem?_eq_getElem hl]
    simp only
    refine foldlM_total (fun u2 => u2.length = n) _ _ u hu ?_
    intro p u2 hp hu2
    obtain ⟨h1, h2⟩ := hrange l graph[l] (List.getElem?_eq_getElem hl) p hp
    rw [mergeEdge_eq]
    rw [← hu2] at h1 h2
    obtain ⟨u3, hu3⟩ := graphSetBoth_isSome p.2 h1 h2
    exact ⟨u3, hu3, (graphSetBoth_length hu3).trans hu2⟩
  obtain ⟨g2, hg2, _⟩ := key
  exact ⟨g2, hg2⟩

theorem offsetLabel_lt {l off size total : Nat} (hl : l < size) (hle : off + size ≤ total)
    (hfit : total < LABEL_MOD) : offsetLabel l off < total := by
  unfold offsetLabel
  split
  · have : l + off < total := by omega
    rw [Nat.mod_eq_of_lt (lt_trans this hfit)]
    exact this
  · omega

theorem graphAt_eq {jobs1 : Job1Grid} {y x : Nat} {j : Job1} (h : grid2 jobs1 y x = some j) :
    graphAt jobs1 y x = j.graph ∧ graphSizeAt jobs1 y x = j.graph.length := by
  unfold graphAt graphSizeAt
  rw [h]
  exact ⟨rfl, rfl⟩

theorem MergeReady.tileSize_eq {tiles : TileGrid} {jobs1 : Job1Grid} {gh gw : Nat}
    (hr : MergeReady tiles jobs1 gh gw) {y x : Nat} (hy : y < gh) (hx : x < gw) :
    tileSize tiles jobs1 y x = graphSizeAt jobs1 y x := by
  unfold tileSize
  by_cases hn : isNullAt tiles y x = true
  · rw [if_pos hn, hr.nulls_empty y hy x hx hn]
  · rw [if_neg hn]

/-- For a non-null tile, its block of labels lies inside the master graph, without wrap-around. -/
theorem MergeReady.block_le {tiles : TileGrid} {jobs1 : Job1Grid} {gh gw : Nat}
    (hr : MergeReady tiles jobs1 gh gw) {y x : Nat} (hy : y < gh) (hx : x < gw) :
    sumBefore (tileSize tiles jobs1) gw y x + graphSizeAt jobs1 y x
      ≤ sumAll (graphSizeAt jobs1) gh gw := by
  rw [← hr.tileSize_eq hy hx]
  exact le_trans (sumBefore_add_le (tileSize tiles jobs1) hy hx)
    (sumAll_le (tileSize_le tiles jobs1) gh gw)

theorem countLabels_total {gh gw : Nat} {jobs1 : Job1Grid}
    (hrect : ∀ y, y < gh → ∀ x, x < gw → (grid2 jobs1 y x).isSome = true) :
    ∃ n, countLabels gh gw jobs1 = some n := by
  unfold countLabels
  obtain ⟨n, hn, _⟩ := forRange_total (fun _ (_ : Nat) => True)
    (fun y acc => forRange gw (fun x acc2 =>
      match grid2 jobs1 y x with
      | none => none
      | some j => some ((acc2 + j.graph.length) % LABEL_MOD)) acc) gh 0 trivial
    (fun y u hy _ => by
      refine forRange_total (fun _ (_ : Nat) => True) _ gw u trivial ?_
      intro x u2 hx _
      simp only
      have := hrect y hy x hx
      cases hj : grid2 jobs1 y x with
      | none => rw [hj] at this; cases this
      | some j => exact ⟨_, rfl, trivial⟩)
  exact ⟨n, hn⟩

theorem isSome_get {α : Type} {o : Option α} (h : o.isSome = true) : ∃ a, o = some a := by
  cases o with
  | none => cases h
  | some a => exact ⟨a, rfl⟩

theorem mergeTile_total {tiles : TileGrid} {jobs1 : Job1Grid} {gh gw y x : Nat}
    {G : Nat → Nat → Graph → Prop} {s : MergeState}
    (hr : MergeReady tiles jobs1 gh gw) (hy : y < gh) (hx : x < gw)
    (hinv : MergeInv tiles jobs1 gw G y x s)
    (hlen : s.mastergraph.length = sumAll (graphSizeAt jobs1) gh gw) :
    ∃ s2, mergeTile jobs1 y x s = some s2 := by
  have htile := hinv.tiles_todo y x hx (not_before_self y x)
  obtain ⟨t, ht⟩ := isSome_get (hr.tiles_rect y hy x hx)
  obtain ⟨j, hj⟩ := isSome_get (hr.jobs_rect y hy x hx)
  unfold mergeTile
  rw [htile, ht]
  simp only
  by_cases hn : t.nullTile = true
  · rw [if_pos hn]; exact ⟨s, rfl⟩
  · rw [if_neg hn, hj]
    simp only
    obtain ⟨hga, hgs⟩ := graphAt_eq hj
    have hblock := hr.block_le hy hx
    have hoff : s.label_offset = sumBefore (tileSize tiles jobs1) gw y x := by
      rw [hinv.offset]
      exact Nat.mod_eq_of_lt (lt_of_le_of_lt (le_trans (Nat.le_add_right _ _) hblock) hr.fits)
    obtain ⟨g2, hg2⟩ := @mergeTileGraph_total s.label_offset _ j.graph _ hlen
      (by
        intro l m hm p hp
        have hl : l < j.graph.length := (List.getElem?_eq_some_iff.mp hm).1
        have hmem : m ∈ graphAt jobs1 y x := by
          rw [hga]
          exact List.getElem?_mem hm
        have hk := hr.keys y hy x hx m hmem p hp
        rw [hgs] at hk hblock
        rw [← hoff] at hblock
        have hlm : l % LABEL_MOD = l :=
          Nat.mod_eq_of_lt (lt_of_lt_of_le hl (le_trans (le_trans (Nat.le_add_left _ _) hblock)
            (le_of_lt hr.fits)))
        rw [hlm]
        exact ⟨offsetLabel_lt hl hblock hr.fits, offsetLabel_lt hk hblock hr.fits⟩)
    rw [hg2]
    exact ⟨_, rfl⟩

/-- On well-formed input the merge phase returns, the master graph has one vertex
per label, and every tile carries its stamp. -/
theorem mergeGraphs_ready {tiles : TileGrid} {jobs1 : Job1Grid} {gh gw : Nat}
    (hr : MergeReady tiles jobs1 gh gw) :
    ∃ s, mergeGraphs tiles jobs1 = some s ∧
      MergeInv tiles jobs1 gw (fun _ _ g => g.length = sumAll (graphSizeAt jobs1) gh gw) gh 0 s := by
  unfold mergeGraphs
  cases hrow : tiles[0]? with
  | none =>
    have := hr.width
    rw [hrow] at this
    cases this
  | some row0 =>
    have hw : row0.length = gw := by
      have := hr.width
      rw [hrow] at this
      simpa using this
    simp only
    rw [hr.height, hw]
    obtain ⟨n, hn⟩ := countLabels_total hr.jobs_rect
    have hnval : n = sumAll (graphSizeAt jobs1) gh gw := by
      rw [countLabels_spec hn]
      exact Nat.mod_eq_of_lt hr.fits
    rw [hn]
    simp only
    refine forRange_total
      (fun y st => MergeInv tiles jobs1 gw
        (fun _ _ g => g.length = sumAll (graphSizeAt jobs1) gh gw) y 0 st) _ gh _ ?_ ?_
    · refine ⟨?_, ?_, ?_, ?_⟩
      · simp [sumBefore]
      · show (List.replicate n ([] : EdgeMap)).length = _
        rw [List.length_replicate, hnval]
      · intro y2 x2 t _ hb
        rcases hb with h | ⟨_, h⟩
        · exact absurd h (Nat.not_lt_zero _)
        · exact absurd h (Nat.not_lt_zero _)
      · intro y2 x2 _ _
        rfl
    · intro y u hy hu
      obtain ⟨v, hv, hinv⟩ := forRange_total
        (fun x st => MergeInv tiles jobs1 gw
          (fun _ _ g => g.length = sumAll (graphSizeAt jobs1) gh gw) y x st)
        (fun x st2 => mergeTile jobs1 y x st2) gw u hu
        (by
          intro x u2 hx hu2
          obtain ⟨v2, hv2⟩ := mergeTile_total hr hy hx hu2 hu2.graph
          refine ⟨v2, hv2, mergeTile_step (fun _ _ hg => hg) ?_ hx hu2 hv2⟩
          intro g g2 t j _ _ _ hg hm
          exact (mergeTileGraph_length hm).trans hg)
      exact ⟨v, hv, hinv.next_row (fun _ hg => hg)⟩

theorem sum_map_range_congr {f g : Nat → Nat} {n : Nat} (h : ∀ i, i < n → f i = g i) :
    ((List.range n).map f).sum = ((List.range n).map g).sum := by
  congr 1
  apply List.map_congr_left
  intro i hi
  exact h i (List.mem_range.mp hi)

theorem sumBefore_congr {sz sz2 : Nat → Nat → Nat} {gh gw y x : Nat}
    (h : ∀ y2, y2 < gh → ∀ x2, x2 < gw → sz y2 x2 = sz2 y2 x2) (hy : y < gh) (hx : x ≤ gw) :
    sumBefore sz gw y x = sumBefore sz2 gw y x := by
  unfold sumBefore
  congr 1
  · apply sum_map_range_congr
    intro y2 hy2
    unfold rowSum
    exact sum_map_range_congr (fun x2 hx2 => h y2 (lt_trans hy2 hy) x2 hx2)
  · exact sum_map_range_congr (fun x2 hx2 => h y hy x2 (lt_of_lt_of_le hx2 hx))

/-- The stamp of a non-null tile, read off the state that the merge phase returns. -/
theorem MergeInv.stamp {tiles : TileGrid} {jobs1 : Job1Grid} {gh gw : Nat}
    {G : Nat → Nat → Graph → Prop} {s : MergeState}
    (hinv : MergeInv tiles jobs1 gw G gh 0 s) {y x : Nat} {t : TileInfo}
    (hy : y < gh) (hx : x < gw) (ht : grid2 tiles y x = some t) (hn : t.nullTile = false) :
    ∃ t2, grid2 s.tiles y x = some t2 ∧ t2.nullTile = false ∧
      t2.label_offset = sumBefore (tileSize tiles jobs1) gw y x % LABEL_MOD ∧
      t2.label_increment = graphSizeAt jobs1 y x % LABEL_MOD := by
  refine ⟨stamped tiles jobs1 gw y x t, ?_, hn, rfl, rfl⟩
  have := hinv.tiles_done y x t hx (Or.inl hy) ht
  rw [this, hn]
  rfl

/-- C6: on well-formed input the merge phase of `Calculations` returns, and then every
non-null tile `T` has `label_offset` equal to the sum of the graph sizes of the tiles
before it in row-major order and `label_increment` equal to `|G_T|`, and the master
graph has as many vertices as all graphs together; the perimeter phase changes
neither, so the same holds for the finished construction. -/
theorem C6_label_offsets_are_running_sums (tiles : TileGrid) (jobs1 : Job1Grid) (gh gw : Nat)
    (hr : MergeReady tiles jobs1 gh gw) :
    ∃ s, mergeGraphs tiles jobs1 = some s ∧
      s.mastergraph.length = sumAll (graphSizeAt jobs1) gh gw ∧
      (∀ y x t, y < gh → x < gw → grid2 tiles y x = some t → t.nullTile = false →
        ∃ t2, grid2 s.tiles y x = some t2 ∧ t2.nullTile = false ∧
          t2.label_offset = sumBefore (graphSizeAt jobs1) gw y x ∧
          t2.label_increment = graphSizeAt jobs1 y x) ∧
      (∀ tiles2 g, buildMasterGraph tiles jobs1 = some (tiles2, g) →
        tiles2 = s.tiles ∧ g.length = sumAll (graphSizeAt jobs1) gh gw) := by
  obtain ⟨s, hs, hinv⟩ := mergeGraphs_ready hr
  refine ⟨s, hs, hinv.graph, ?_, ?_⟩
  · intro y x t hy hx ht hn
    obtain ⟨t2, h1, h2, h3, h4⟩ := hinv.stamp hy hx ht hn
    have hblock := hr.block_le hy hx
    refine ⟨t2, h1, h2, ?_, ?_⟩
    · rw [h3, Nat.mod_eq_of_lt (by have := hr.fits; omega)]
      exact sumBefore_congr (fun y2 hy2 x2 hx2 => hr.tileSize_eq hy2 hx2) hy (le_of_lt hx)
    · rw [h4]
      exact Nat.mod_eq_of_lt (by have := hr.fits; omega)
  · intro tiles2 g hb
    unfold buildMasterGraph at hb
    rw [hs] at hb
    simp only at hb
    cases hj : joinPerimeters s.tiles jobs1 s.mastergraph with
    | none => rw [hj] at hb; cases hb
    | some g2 =>
      rw [hj] at hb
      cases hb
      refine ⟨rfl, ?_⟩
      have := joinPerimeters_inv (fun u => u.length = s.mastergraph.length)
        (fun _ _ _ _ _ hu h => (upsertMin_length h).trans hu) rfl hj
      exact this.trans hinv.graph

/-! ## Uniqueness of global labels -/

/-- Blocks of labels are laid out one after the other in row-major order. -/
theorem sumBefore_block_le (sz : Nat → Nat → Nat) {gw y x y2 x2 : Nat} (hx : x < gw)
    (hb : before y2 x2 y x) : sumBefore sz gw y x + sz y x ≤ sumBefore sz gw y2 x2 := by
  rw [← sumBefore_succ]
  rcases hb with h | ⟨h1, h2⟩
  · calc sumBefore sz gw y (x + 1) ≤ sumBefore sz gw y gw := sumBefore_mono_cols sz gw y hx
      _ = sumAll sz (y + 1) gw := sumBefore_row sz gw y
      _ ≤ sumAll sz y2 gw := sumAll_mono_rows sz gw h
      _ = sumBefore sz gw y2 0 := (sumBefore_zero sz gw y2).symm
      _ ≤ sumBefore sz gw y2 x2 := sumBefore_mono_cols sz gw y2 (Nat.zero_le _)
  · rw [h1]
    exact sumBefore_mono_cols sz gw y2 h2

theorem before_trichotomy (y x y2 x2 : Nat) :
    before y2 x2 y x ∨ (y = y2 ∧ x = x2) ∨ before y x y2 x2 := by
  unfold before
  rcases Nat.lt_trichotomy y y2 with h | h | h
  · exact Or.inl (Or.inl h)
  · rcases Nat.lt_trichotomy x x2 with h2 | h2 | h2
    · exact Or.inl (Or.inr ⟨h, h2⟩)
    · exact Or.inr (Or.inl ⟨h, h2⟩)
    · exact Or.inr (Or.inr (Or.inr ⟨h.symm, h2⟩))
  · exact Or.inr (Or.inr (Or.inl h))

/-- A non-null tile of the returned matrix is the stamped input tile. -/
theorem MergeInv.output_tile {tiles : TileGrid} {jobs1 : Job1Grid} {gh gw : Nat}
    {G : Nat → Nat → Graph → Prop} {s : MergeState}
    (hr : MergeReady tiles jobs1 gh gw)
    (hinv : MergeInv tiles jobs1 gw G gh 0 s) {y x : Nat} {t : TileInfo}
    (hy : y < gh) (hx : x < gw) (ht : grid2 s.tiles y x = some t) (hn : t.nullTile = false) :
    isNullAt tiles y x = false ∧
    t.label_offset = sumBefore (tileSize tiles jobs1) gw y x ∧
    t.label_increment = graphSizeAt jobs1 y x ∧
    t.label_offset + graphSizeAt jobs1 y x ≤ sumAll (graphSizeAt jobs1) gh gw := by
  obtain ⟨t0, ht0⟩ := isSome_get (hr.tiles_rect y hy x hx)
  have hdone := hinv.tiles_done y x t0 hx (Or.inl hy) ht0
  rw [ht] at hdone
  have hblock := hr.block_le hy hx
  have hfits := hr.fits
  by_cases hn0 : t0.nullTile = true
  · rw [if_pos hn0] at hdone
    cases hdone
    rw [hn] at hn0
    cases hn0
  · rw [if_neg hn0] at hdone
    cases hdone
    have hnull : isNullAt tiles y x = false := by
      unfold isNullAt
      rw [ht0]
      exact hn
    refine ⟨hnull, ?_, ?_, ?_⟩
    · show sumBefore (tileSize tiles jobs1) gw y x % LABEL_MOD = _
      exact Nat.mod_eq_of_lt (by omega)
    · show graphSizeAt jobs1 y x % LABEL_MOD = _
      exact Nat.mod_eq_of_lt (by omega)
    · show sumBefore (tileSize tiles jobs1) gw y x % LABEL_MOD + _ ≤ _
      rw [Nat.mod_eq_of_lt (by omega)]
      exact hblock

theorem exReady : MergeReady exTiles exJobs 1 2 :=
  { height := rfl
    width := rfl
    tiles_rect := by decide
    jobs_rect := by decide
    nulls_empty := by decide
    keys := by decide
    fits := by decide }

theorem C6_witness : ∃ s, mergeGraphs exTiles exJobs = some s ∧ s.mastergraph.length = 6 :=
  match C6_label_offsets_are_running_sums exTiles exJobs 1 2 exReady with
  | ⟨s, h1, h2, _⟩ => ⟨s, h1, h2⟩

theorem PosOf.swap {off l m A B : Nat} (h : PosOf off l m A B) : PosOf off l m B A := by
  rcases h with ⟨h1, h2⟩ | ⟨h1, h2⟩
  · exact Or.inr ⟨h2, h1⟩
  · exact Or.inl ⟨h2, h1⟩

theorem EmitInv.congrEmit {off : Nat} {graph g0 g : Graph} {D E : Nat → Nat × Int → Prop}
    (h : EmitInv off graph g0 D g) (hDE : ∀ l p, E l p → D l p) : EmitInv off graph g0 E g :=
  { frame := h.frame
    emitted := fun l p he hp => h.emitted l p (hDE l p he) hp }

/-- Writing one entry keeps the invariant and adds the entry to the written ones. -/
theorem mergeEdge_emit {off l : Nat} {graph g0 g g2 : Graph} {p : Nat × Int}
    {D : Nat → Nat × Int → Prop} (hinv : EmitInv off graph g0 D g)
    (hl : l % LABEL_MOD = l) (hp : IsEntry graph l p)
    (h : mergeEdge off l g p = some g2) :
    EmitInv off graph g0 (fun l2 p2 => D l2 p2 ∨ (l2 = l ∧ p2 = p)) g2 := by
  rw [mergeEdge_eq, hl] at h
  obtain ⟨_, _, _, hw⟩ := graphSetBoth_spec h
  have hnew : ∀ A B, PosOf off l p.1 A B → Written off graph g2 A B := by
    intro A B hpos
    refine ⟨l, p, hp, hpos, ?_⟩
    rw [hw, if_pos]
    rcases hpos with ⟨h1, h2⟩ | ⟨h1, h2⟩
    · exact Or.inl ⟨h1, h2⟩
    · exact Or.inr ⟨h1, h2⟩
  have hkeep : ∀ A B, Written off graph g A B → Written off graph g2 A B := by
    intro A B hwr
    by_cases hpos : PosOf off l p.1 A B
    · exact hnew A B hpos
    · obtain ⟨l2, p2, hp2, hpos2, hval⟩ := hwr
      refine ⟨l2, p2, hp2, hpos2, ?_⟩
      rw [hw, if_neg]
      · exact hval
      · rintro (⟨h1, h2⟩ | ⟨h1, h2⟩)
        · exact hpos (Or.inl ⟨h1, h2⟩)
        · exact hpos (Or.inr ⟨h1, h2⟩)
  refine ⟨?_, ?_⟩
  · intro A B
    by_cases hpos : PosOf off l p.1 A B
    · exact Or.inr (hnew A B hpos)
    · rcases hinv.frame A B with h1 | h1
      · left
        rw [hw, if_neg]
        · exact h1
        · rintro (⟨h2, h3⟩ | ⟨h2, h3⟩)
          · exact hpos (Or.inl ⟨h2, h3⟩)
          · exact hpos (Or.inr ⟨h2, h3⟩)
      · exact Or.inr (hkeep A B h1)
  · intro l2 p2 hd hp2
    rcases hd with hd | ⟨rfl, rfl⟩
    · obtain ⟨h1, h2⟩ := hinv.emitted l2 p2 hd hp2
      exact ⟨hkeep _ _ h1, hkeep _ _ h2⟩
    · exact ⟨hnew _ _ (Or.inl ⟨rfl, rfl⟩), hnew _ _ (Or.inr ⟨rfl, rfl⟩)⟩

/-- Re-emission of the map of one vertex. -/
theorem foldl_mergeEdge_emit {off l : Nat} {graph g0 : Graph} (hl : l % LABEL_MOD = l) :
    ∀ (rest : List (Nat × Int)) (g g2 : Graph) (D : Nat → Nat × Int → Prop),
      (∀ p, p ∈ rest → IsEntry graph l p) →
      EmitInv off graph g0 D g →
      rest.foldlM (fun u skey => mergeEdge off l u skey) g = some g2 →
      EmitInv off graph g0 (fun l2 p2 => D l2 p2 ∨ (l2 = l ∧ p2 ∈ rest)) g2 := by
  intro rest
  induction rest with
  | nil =>
    intro g g2 D _ hinv h
    simp only [List.foldlM_nil] at h
    cases h
    refine hinv.congrEmit ?_
    rintro l2 p2 (hd | ⟨_, hm⟩)
    · exact hd
    · cases hm
  | cons p rest ih =>
    intro g g2 D hent hinv h
    simp only [List.foldlM_cons] at h
    cases h1 : mergeEdge off l g p with
    | none => rw [h1] at h; cases h
    | some g1 =>
      rw [h1] at h
      have hstep := mergeEdge_emit hinv hl (hent p (List.mem_cons_self _ _)) h1
      have := ih g1 g2 _ (fun q hq => hent q (List.mem_cons_of_mem _ hq)) hstep h
      refine this.congrEmit ?_
      rintro l2 p2 (hd | ⟨h2, hm⟩)
      · exact Or.inl (Or.inl hd)
      · rcases List.mem_cons.mp hm with h3 | h3
        · exact Or.inl (Or.inr ⟨h2, h3⟩)
        · exact Or.inr ⟨h2, h3⟩

/-- Re-emission of a whole tile graph: every place is untouched or written, and the
places of all entries are written. -/
theorem mergeTileGraph_emit {off : Nat} {graph g0 g2 : Graph}
    (hsmall : graph.length ≤ LABEL_MOD)
    (h : mergeTileGraph off graph g0 = some g2) :
    EmitInv off graph g0 (fun _ _ => True) g2 := by
  unfold mergeTileGraph at h
  have key := forRange_inv
    (fun l0 g => EmitInv off graph g0 (fun l _ => l < l0) g) _ graph.length g0 g2
    ⟨fun _ _ => Or.inl rfl, fun _ _ hd => absurd hd (Nat.not_lt_zero _)⟩ ?_ h
  · refine ⟨key.frame, ?_⟩
    intro l p _ hp
    have hl : l < graph.length := by
      obtain ⟨em, hem, _⟩ := hp
      exact (List.getElem?_eq_some_iff.mp hem).1
    exact key.emitted l p hl hp
  · intro l u v hl hu hv
    simp only at hv
    rw [List.getElem?_eq_getElem hl] at hv
    simp only at hv
    have hlm : l % LABEL_MOD = l := Nat.mod_eq_of_lt (lt_of_lt_of_le hl hsmall)
    have := foldl_mergeEdge_emit hlm graph[l] u v _
      (fun p hp => ⟨graph[l], List.getElem?_eq_getElem hl, hp⟩) hu hv
    refine ⟨this.frame, ?_⟩
    intro l2 p2 hd hp2
    apply this.emitted l2 p2 _ hp2
    rcases Nat.lt_succ_iff_lt_or_eq.mp hd with h3 | h3
    · exact Or.inl h3
    · refine Or.inr ⟨h3, ?_⟩
      obtain ⟨em, hem, hmem⟩ := hp2
      rw [h3, List.getElem?_eq_getElem hl] at hem
      cases hem
      exact hmem

theorem pairwise_key_unique {em : EdgeMap} (hs : em.Pairwise (fun p q => p.1 < q.1))
    {p q : Nat × Int} (hp : p ∈ em) (hq : q ∈ em) (hk : p.1 = q.1) : p = q := by
  induction em with
  | nil => cases hp
  | cons a rest ih =>
    rw [List.pairwise_cons] at hs
    rcases List.mem_cons.mp hp with h1 | h1
    · rcases List.mem_cons.mp hq with h2 | h2
      · rw [h1, h2]
      · have := hs.1 q h2
        rw [← h1, hk] at this
        exact absurd this (lt_irrefl _)
    · rcases List.mem_cons.mp hq with h2 | h2
      · have := hs.1 p h1
        rw [← h2, hk] at this
        exact absurd this (lt_irrefl _)
      · exact ih hs.2 h1 h2

theorem getD_of_getElem? {graph : Graph} {l : Nat} {em : EdgeMap} (h : graph[l]? = some em) :
    graph.getD l [] = em := by
  rw [List.getD_eq_getElem?_getD, h]
  rfl

/-- Entries that belong to the same place of the master graph carry the same weight. -/
theorem entries_consistent {graph : Graph} (hs : MapsSorted graph) (hd : DirectionsAgree graph)
    {l l2 : Nat} {p p2 : Nat × Int} (hp : IsEntry graph l p) (hp2 : IsEntry graph l2 p2)
    (h : (l2 = l ∧ p2.1 = p.1) ∨ (l2 = p.1 ∧ p2.1 = l)) : p2.2 = p.2 := by
  obtain ⟨em, hem, hmem⟩ := hp
  obtain ⟨em2, hem2, hmem2⟩ := hp2
  rcases h with ⟨h1, h2⟩ | ⟨h1, h2⟩
  · subst h1
    rw [hem] at hem2
    cases hem2
    rw [pairwise_key_unique (hs em (List.getElem?_mem hem)) hmem2 hmem h2]
  · have hl : l < graph.length := (List.getElem?_eq_some_iff.mp hem).1
    refine hd l hl p ?_ p2 ?_ h2
    · rw [getD_of_getElem? hem]; exact hmem
    · rw [← h1, getD_of_getElem? hem2]; exact hmem2

theorem offsetLabel_cases {k off size total : Nat} (hk : k < size) (hle : off + size ≤ total)
    (hfit : total < LABEL_MOD) :
    (k ≤ 1 ∧ offsetLabel k off = k) ∨ (2 ≤ k ∧ offsetLabel k off = k + off) := by
  unfold offsetLabel
  by_cases h : 1 < k
  · right
    rw [if_pos h]
    exact ⟨h, Nat.mod_eq_of_lt (by omega)⟩
  · left
    rw [if_neg h]
    exact ⟨by omega, rfl⟩

theorem offsetLabel_inj {a b off size total : Nat} (ha : a < size) (hb : b < size)
    (hle : off + size ≤ total) (hfit : total < LABEL_MOD)
    (h : offsetLabel a off = offsetLabel b off) : a = b := by
  rcases offsetLabel_cases ha hle hfit with ⟨h1, h2⟩ | ⟨h1, h2⟩ <;>
  rcases offsetLabel_cases hb hle hfit with ⟨h3, h4⟩ | ⟨h3, h4⟩ <;>
  rw [h2, h4] at h <;> omega

/-- Bounds on the labels of an entry of a tile graph of well-formed input. -/
theorem MergeReady.entry_lt {tiles : TileGrid} {jobs1 : Job1Grid} {gh gw : Nat}
    (hr : MergeReady tiles jobs1 gh gw) {y x l : Nat} {p : Nat × Int} (hy : y < gh) (hx : x < gw)
    (hp : IsEntry (graphAt jobs1 y x) l p) :
    l < graphSizeAt jobs1 y x ∧ p.1 < graphSizeAt jobs1 y x := by
  obtain ⟨em, hem, hmem⟩ := hp
  have hlen : (graphAt jobs1 y x).length = graphSizeAt jobs1 y x := by
    unfold graphAt graphSizeAt
    cases grid2 jobs1 y x <;> rfl
  refine ⟨?_, hr.keys y hy x hx em (List.getElem?_mem hem) p hmem⟩
  rw [← hlen]
  exact (List.getElem?_eq_some_iff.mp hem).1

/-- On well-formed input, a returning merge phase is the merge loop run on the empty
master graph. -/
theorem mergeGraphs_loop {tiles : TileGrid} {jobs1 : Job1Grid} {gh gw : Nat} {s : MergeState}
    (hr : MergeReady tiles jobs1 gh gw) (h : mergeGraphs tiles jobs1 = some s) :
    ∃ n, forRange gh (fun y st => forRange gw (fun x st2 => mergeTile jobs1 y x st2) st)
      { tiles := tiles, mastergraph := List.replicate n [], label_offset := 0 } = some s := by
  unfold mergeGraphs at h
  cases hrow : tiles[0]? with
  | none =>
    have := hr.width
    rw [hrow] at this
    cases this
  | some row0 =>
    have hw : row0.length = gw := by
      have := hr.width
      rw [hrow] at this
      simpa using this
    rw [hrow] at h
    simp only at h
    rw [hr.height, hw] at h
    cases hn : countLabels gh gw jobs1 with
    | none => rw [hn] at h; cases h
    | some n =>
      rw [hn] at h
      exact ⟨n, h⟩

theorem edgesEmitted_step {tiles : TileGrid} {jobs1 : Job1Grid} {gh gw y x : Nat}
    {g g2 : Graph} {t : TileInfo} {j : Job1}
    (hr : MergeReady tiles jobs1 gh gw)
    (hsorted : ∀ y, y < gh → ∀ x, x < gw → MapsSorted (graphAt jobs1 y x))
    (hagree : ∀ y, y < gh → ∀ x, x < gw → DirectionsAgree (graphAt jobs1 y x))
    (hy : y < gh) (hx : x < gw) (ht : grid2 tiles y x = some t) (hn : t.nullTile = false)
    (hj : grid2 jobs1 y x = some j) (hG : EdgesEmitted tiles jobs1 gh gw y x g)
    (hm : mergeTileGraph (sumBefore (tileSize tiles jobs1) gw y x % LABEL_MOD) j.graph g
      = some g2) :
    EdgesEmitted tiles jobs1 gh gw y (x + 1) g2 := by
  obtain ⟨hga, hgs⟩ := graphAt_eq hj
  have hfit := hr.fits
  have hblock := hr.block_le hy hx
  have hnull : isNullAt tiles y x = false := by
    unfold isNullAt; rw [ht]; exact hn
  have hszT : tileSize tiles jobs1 y x = graphSizeAt jobs1 y x := by
    unfold tileSize; rw [hnull]; rfl
  have hoff : sumBefore (tileSize tiles jobs1) gw y x % LABEL_MOD
      = sumBefore (tileSize tiles jobs1) gw y x := Nat.mod_eq_of_lt (by omega)
  have hemit := mergeTileGraph_emit (by rw [← hgs]; omega) hm
  rw [← hga] at hemit
  rw [hoff] at hemit
  intro y2 x2 hb hy2 hx2 hnull2 l p hp hbig
  have hblock2 := hr.block_le hy2 hx2
  have hoff2 : sumBefore (tileSize tiles jobs1) gw y2 x2 % LABEL_MOD
      = sumBefore (tileSize tiles jobs1) gw y2 x2 := Nat.mod_eq_of_lt (by omega)
  obtain ⟨hl, hk⟩ := hr.entry_lt hy2 hx2 hp
  rcases (before_succ_iff y x y2 x2).mp hb with hb2 | ⟨rfl, rfl⟩
  · -- an earlier tile: its places are out of reach of this tile
    obtain ⟨h1, h2⟩ := hG y2 x2 hb2 hy2 hx2 hnull2 l p hp hbig
    have hszU : tileSize tiles jobs1 y2 x2 = graphSizeAt jobs1 y2 x2 := by
      unfold tileSize; rw [hnull2]; rfl
    have hsep := sumBefore_block_le (tileSize tiles jobs1) hx2 hb2
    rw [hszU] at hsep
    rw [hoff2] at h1 h2 ⊢
    have huntouched : ∀ A B,
        PosOf (sumBefore (tileSize tiles jobs1) gw y2 x2) l p.1 A B →
        ¬ Written (sumBefore (tileSize tiles jobs1) gw y x) (graphAt jobs1 y x) g2 A B := by
      intro A B hpos hwr
      obtain ⟨l2, p2, hp2, hpos2, _⟩ := hwr
      obtain ⟨hl2, hk2⟩ := hr.entry_lt hy hx hp2
      rcases offsetLabel_cases hl hblock2 hfit with ⟨a1, a2⟩ | ⟨a1, a2⟩ <;>
      rcases offsetLabel_cases hk hblock2 hfit with ⟨b1, b2⟩ | ⟨b1, b2⟩ <;>
      rcases offsetLabel_cases hl2 hblock hfit with ⟨c1, c2⟩ | ⟨c1, c2⟩ <;>
      rcases offsetLabel_cases hk2 hblock hfit with ⟨d1, d2⟩ | ⟨d1, d2⟩ <;>
      unfold PosOf at hpos hpos2 <;>
      rw [a2, b2] at hpos <;>
      rw [c2, d2] at hpos2 <;>
      omega
    refine ⟨?_, ?_⟩
    · rcases hemit.frame (offsetLabel l (sumBefore (tileSize tiles jobs1) gw y2 x2))
          (offsetLabel p.1 (sumBefore (tileSize tiles jobs1) gw y2 x2)) with h3 | h3
      · rw [h3]; exact h1
      · exact absurd h3 (huntouched _ _ (Or.inl ⟨rfl, rfl⟩))
    · rcases hemit.frame (offsetLabel p.1 (sumBefore (tileSize tiles jobs1) gw y2 x2))
          (offsetLabel l (sumBefore (tileSize tiles jobs1) gw y2 x2)) with h3 | h3
      · rw [h3]; exact h2
      · exact absurd h3 (huntouched _ _ (Or.inr ⟨rfl, rfl⟩))
  · -- the tile just handled: the last write to a place carries the weight of the edge
    rw [hoff2]
    obtain ⟨w1, w2⟩ := hemit.emitted l p trivial hp
    have hfinal : ∀ A B, PosOf (sumBefore (tileSize tiles jobs1) gw y2 x2) l p.1 A B →
        Written (sumBefore (tileSize tiles jobs1) gw y2 x2) (graphAt jobs1 y2 x2) g2 A B →
        weight g2 A B = some p.2 := by
      intro A B hpos hwr
      obtain ⟨l2, p2, hp2, hpos2, hval⟩ := hwr
      obtain ⟨hl2, hk2⟩ := hr.entry_lt hy hx hp2
      have hsame : (l2 = l ∧ p2.1 = p.1) ∨ (l2 = p.1 ∧ p2.1 = l) := by
        have inj := fun (a b : Nat) (ha : a < graphSizeAt jobs1 y2 x2)
          (hb : b < graphSizeAt jobs1 y2 x2) => offsetLabel_inj ha hb hblock hfit
        rcases hpos with ⟨e1, e2⟩ | ⟨e1, e2⟩ <;> rcases hpos2 with ⟨f1, f2⟩ | ⟨f1, f2⟩
        · exact Or.inl ⟨inj _ _ hl2 hl (f1.symm.trans e1), inj _ _ hk2 hk (f2.symm.trans e2)⟩
        · exact Or.inr ⟨inj _ _ hl2 hk (f2.symm.trans e2), inj _ _ hk2 hl (f1.symm.trans e1)⟩
        · exact Or.inr ⟨inj _ _ hl2 hk (f1.symm.trans e1), inj _ _ hk2 hl (f2.symm.trans e2)⟩
        · exact Or.inl ⟨inj _ _ hl2 hl (f2.symm.trans e2), inj _ _ hk2 hk (f1.symm.trans e1)⟩
      rw [hval, entries_consistent (hsorted y2 hy x2 hx) (hagree y2 hy x2 hx) hp hp2 hsame]
    exact ⟨hfinal _ _ (Or.inl ⟨rfl, rfl⟩) w1, hfinal _ _ (Or.inr ⟨rfl, rfl⟩) w2⟩

/-- On well-formed input with sorted maps and agreeing directions, after the merge
phase every edge with an endpoint `≥ 2` of every non-null tile is in the master graph. -/
theorem mergeGraphs_emitted {tiles : TileGrid} {jobs1 : Job1Grid} {gh gw : Nat} {s : MergeState}
    (hr : MergeReady tiles jobs1 gh gw)
    (hsorted : ∀ y, y < gh → ∀ x, x < gw → MapsSorted (graphAt jobs1 y x))
    (hagree : ∀ y, y < gh → ∀ x, x < gw → DirectionsAgree (graphAt jobs1 y x))
    (h : mergeGraphs tiles jobs1 = some s) :
    MergeInv tiles jobs1 gw (EdgesEmitted tiles jobs1 gh gw) gh 0 s := by
  obtain ⟨n, hloop⟩ := mergeGraphs_loop hr h
  refine mergeLoop_inv (EdgesEmitted tiles jobs1 gh gw) ?_ ?_ ?_ ?_ hloop
  · intro y x g _ _ hnull hG y2 x2 hb hy2 hx2 hnull2 l p hp hbig
    rcases (before_succ_iff y x y2 x2).mp hb with hb2 | ⟨rfl, rfl⟩
    · exact hG y2 x2 hb2 hy2 hx2 hnull2 l p hp hbig
    · rw [hnull] at hnull2
      cases hnull2
  · intro y x g g2 t j hy hx ht hn hj hG hm
    exact edgesEmitted_step hr hsorted hagree hy hx ht hn hj hG hm
  · intro y g _ hG y2 x2 hb hy2 hx2 hnull2 l p hp hbig
    exact hG y2 x2 ((before_row_iff y gw y2 x2 hx2).mpr hb) hy2 hx2 hnull2 l p hp hbig
  · refine ⟨by simp [sumBefore], ?_, ?_, ?_⟩
    · intro y2 x2 hb
      rcases hb with hb | ⟨_, hb⟩
      · exact absurd hb (Nat.not_lt_zero _)
      · exact absurd hb (Nat.not_lt_zero _)
    · intro y2 x2 t _ hb
      rcases hb with hb | ⟨_, hb⟩
      · exact absurd hb (Nat.not_lt_zero _)
      · exact absurd hb (Nat.not_lt_zero _)
    · intro y2 x2 _ _
      rfl

theorem heapTop_spec : ∀ (q : List GraphNode) (c : GraphNode), heapTop q = some c →
    c ∈ q ∧ ∀ x, x ∈ q → c.1 ≤ x.1 := by
  intro q
  induction q with
  | nil => intro c h; cases h
  | cons a rest ih =>
    intro c h
    simp only [heapTop] at h
    cases hr : heapTop rest with
    | none =>
      rw [hr] at h
      cases h
      have hnil : rest = [] := by
        cases rest with
        | nil => rfl
        | cons b r2 =>
          simp only [heapTop] at hr
          cases h2 : heapTop r2 with
          | none => rw [h2] at hr; cases hr
          | some d =>
            rw [h2] at hr
            simp only at hr
            split at hr <;> cases hr
      subst hnil
      refine ⟨List.mem_cons_self _ _, ?_⟩
      intro x hx
      rcases List.mem_cons.mp hx with h1 | h1
      · rw [h1]
      · cases h1
    | some b =>
      rw [hr] at h
      simp only at h
      obtain ⟨hb, hmin⟩ := ih b hr
      by_cases hle : nodeLE a b = true
      · rw [if_pos hle] at h
        have hc : a = c := Option.some.inj h
        rw [← hc]
        have hab : a.1 ≤ b.1 := by
          unfold nodeLE at hle
          simp only [Bool.or_eq_true, Bool.and_eq_true, decide_eq_true_eq] at hle
          rcases hle with h1 | ⟨h1, _⟩
          · exact le_of_lt h1
          · exact le_of_eq h1
        refine ⟨List.mem_cons_self _ _, ?_⟩
        intro x hx
        rcases List.mem_cons.mp hx with h1 | h1
        · rw [h1]
        · exact le_trans hab (hmin x h1)
      · rw [if_neg hle] at h
        have hc : b = c := Option.some.inj h
        rw [← hc]
        have hba : b.1 ≤ a.1 := by
          unfold nodeLE at hle
          simp only [Bool.or_eq_true, Bool.and_eq_true, decide_eq_true_eq, not_or, not_and,
            not_lt] at hle
          exact hle.1
        refine ⟨List.mem_cons_of_mem _ hb, ?_⟩
        intro x hx
        rcases List.mem_cons.mp hx with h1 | h1
        · rw [h1]; exact hba
        · exact hmin x h1

theorem heapTop_isSome {q : List GraphNode} (h : q ≠ []) : ∃ c, heapTop q = some c := by
  cases q with
  | nil => exact absurd rfl h
  | cons a rest =>
    simp only [heapTop]
    cases heapTop rest with
    | none => exact ⟨a, rfl⟩
    | some b =>
      simp only
      split
      · exact ⟨a, rfl⟩
      · exact ⟨b, rfl⟩

theorem Reach.step {g : Graph} {lowest : Int} {a b : Nat} {c w : Int}
    (hlow : ∀ a p, IsEntry g a p → lowest ≤ p.2)
    (h : Reach g lowest a c) (he : IsEntry g a (b, w)) : Reach g lowest b (max c w) := by
  rcases h with ⟨rfl, rfl⟩ | h
  · right
    rw [max_eq_right (hlow 1 (b, w) he)]
    exact Path.edge he
  · exact Or.inr (Path.snoc h he)

/-- The neighbour loop: it pushes one entry for every neighbour not yet visited and
changes nothing else. -/
theorem floodNeighbours_spec (my_elev : Int) :
    ∀ (nbrs : List (Nat × Int)) (s : FloodState),
      (∀ p, p ∈ nbrs → p.1 < s.visited.length) →
      ∃ s2, nbrs.foldlM (floodNeighbour my_elev) s = some s2 ∧
        s2.visited = s.visited ∧ s2.graph_elev = s.graph_elev ∧
        (∀ x, x ∈ s2.openq ↔ x ∈ s.openq ∨
          ∃ p, p ∈ nbrs ∧ s.visited[p.1]? = some false ∧ x = (max my_elev p.2, p.1)) ∧
        s2.openq.length ≤ s.openq.length + nbrs.length := by
  intro nbrs
  induction nbrs with
  | nil =>
    intro s _
    refine ⟨s, rfl, rfl, rfl, ?_, le_refl _⟩
    intro x
    constructor
    · exact fun h => Or.inl h
    · rintro (h | ⟨p, hp, _⟩)
      · exact h
      · cases hp
  | cons p rest ih =>
    intro s hr
    have hp : p.1 < s.visited.length := hr p (List.mem_cons_self _ _)
    have hstep : ∃ s1, floodNeighbour my_elev s p = some s1 ∧ s1.visited = s.visited ∧
        s1.graph_elev = s.graph_elev ∧
        (∀ x, x ∈ s1.openq ↔ x ∈ s.openq ∨
          (s.visited[p.1]? = some false ∧ x = (max my_elev p.2, p.1))) ∧
        s1.openq.length ≤ s.openq.length + 1 := by
      unfold floodNeighbour
      rw [List.getElem?_eq_getElem hp]
      cases hv : s.visited[p.1] with
      | true =>
        refine ⟨s, rfl, rfl, rfl, ?_, Nat.le_succ _⟩
        intro x
        constructor
        · exact fun h => Or.inl h
        · rintro (h | ⟨h, _⟩)
          · exact h
          · cases h
      | false =>
        refine ⟨_, rfl, rfl, rfl, ?_, le_of_eq (List.length_cons _ _)⟩
        intro x
        simp only [List.mem_cons]
        constructor
        · rintro (h | h)
          · exact Or.inr ⟨trivial, h⟩
          · exact Or.inl h
        · rintro (h | ⟨_, h⟩)
          · exact Or.inr h
          · exact Or.inl h
    obtain ⟨s1, h1, hv1, he1, hq1, hl1⟩ := hstep
    obtain ⟨s2, h2, hv2, he2, hq2, hl2⟩ := ih s1
      (fun q hq => by rw [hv1]; exact hr q (List.mem_cons_of_mem _ hq))
    refine ⟨s2, ?_, hv2.trans hv1, he2.trans he1, ?_, ?_⟩
    · simp only [List.foldlM_cons, h1]
      exact h2
    · intro x
      rw [hq2, hq1, hv1]
      constructor
      · rintro ((h | ⟨h3, h4⟩) | ⟨q, hq, h3, h4⟩)
        · exact Or.inl h
        · exact Or.inr ⟨p, List.mem_cons_self _ _, h3, h4⟩
        · exact Or.inr ⟨q, List.mem_cons_of_mem _ hq, h3, h4⟩
      · rintro (h | ⟨q, hq, h3, h4⟩)
        · exact Or.inl (Or.inl h)
        · rcases List.mem_cons.mp hq with h5 | h5
          · subst h5
            exact Or.inl (Or.inr ⟨h3, h4⟩)
          · exact Or.inr ⟨q, h5, h3, h4⟩
    · simp only [List.length_cons]
      omega

theorem FloodReady.keys {g : Graph} {lowest : Int} (hr : FloodReady g lowest) (a : Nat)
    (p : Nat × Int) (h : IsEntry g a p) : p.1 < g.length := by
  obtain ⟨em, hem, hp⟩ := h
  exact hr.key_mem em (List.getElem?_mem hem) p hp

theorem FloodReady.low {g : Graph} {lowest : Int} (hr : FloodReady g lowest) (a : Nat)
    (p : Nat × Int) (h : IsEntry g a p) : lowest ≤ p.2 := by
  obtain ⟨em, hem, hp⟩ := h
  exact hr.low_mem em (List.getElem?_mem hem) p hp

/-- A walk from the seed either ends in a visited vertex or has passed a queue entry
that costs no more. -/
theorem FloodInv.cross {g : Graph} {lowest : Int} {s : FloodState}
    (hr : FloodReady g lowest) (hinv : FloodInv g lowest s) {v : Nat} {c : Int}
    (h : Reach g lowest v c) :
    s.visited[v]? = some true ∨ ∃ x, x ∈ s.openq ∧ x.1 ≤ c := by
  have hstep : ∀ a b c w, Reach g lowest a c → IsEntry g a (b, w) →
      (s.visited[a]? = some true ∨ ∃ x, x ∈ s.openq ∧ x.1 ≤ c) →
      (s.visited[b]? = some true ∨ ∃ x, x ∈ s.openq ∧ x.1 ≤ max c w) := by
    intro a b c w hreach he hor
    rcases hor with ha | ⟨x, hx, hle⟩
    · obtain ⟨f, hf, _, hopt⟩ := hinv.settled a ha
      have hb : b < s.visited.length := by
        rw [hinv.len_visited]; exact hr.keys a (b, w) he
      rw [List.getElem?_eq_getElem hb]
      cases hvb : s.visited[b] with
      | true => exact Or.inl rfl
      | false =>
        right
        have hvb2 : s.visited[b]? = some false := by
          rw [List.getElem?_eq_getElem hb, hvb]
        exact ⟨_, hinv.frontier a b w f ha he hvb2 hf, max_le_max (hopt c hreach) (le_refl w)⟩
    · exact Or.inr ⟨x, hx, le_trans hle (le_max_left _ _)⟩
  have hbase : s.visited[1]? = some true ∨ ∃ x, x ∈ s.openq ∧ x.1 ≤ lowest := by
    rcases hinv.seed with h1 | h1
    · exact Or.inl h1
    · exact Or.inr ⟨_, h1, le_refl _⟩
  rcases h with ⟨rfl, rfl⟩ | hp
  · exact hbase
  · induction hp with
    | edge he =>
      rename_i b w
      have := hstep 1 b lowest w (Or.inl ⟨rfl, rfl⟩) he hbase
      rw [max_eq_right (hr.low 1 (b, w) he)] at this
      exact this
    | snoc hp he ih =>
      exact hstep _ _ _ _ (Or.inr hp) he ih

theorem sum_range_point {f f2 : Nat → Nat} {n v : Nat} (hv : v < n)
    (hsame : ∀ u, u ≠ v → f2 u = f u) (hzero : f2 v = 0) :
    ((List.range n).map f2).sum + f v = ((List.range n).map f).sum := by
  induction n with
  | zero => exact absurd hv (Nat.not_lt_zero _)
  | succ n ih =>
    rw [sum_range_succ_map, sum_range_succ_map]
    rcases Nat.lt_succ_iff_lt_or_eq.mp hv with h | h
    · have := ih h
      rw [hsame n (by omega)]
      omega
    · subst h
      rw [hzero, sum_map_range_congr (fun u hu => hsame u (by omega))]
      omega

theorem entry_of_getElem? {g : Graph} {v : Nat} {nbrs : EdgeMap} (h : g[v]? = some nbrs)
    {p : Nat × Int} (hp : p ∈ nbrs) : IsEntry g v p :=
  ⟨nbrs, h, hp⟩

/-- One iteration of the flood loop on a non-empty queue: it does not fail, keeps the
invariant and reduces the work left. -/
theorem floodStep_spec {g : Graph} {lowest : Int} {s : FloodState}
    (hr : FloodReady g lowest) (hinv : FloodInv g lowest s) (hne : s.openq ≠ []) :
    ∃ s2, floodStep g s = some s2 ∧ FloodInv g lowest s2 ∧
      floodMeasure g s2 < floodMeasure g s := by
  obtain ⟨c, hc⟩ := heapTop_isSome hne
  obtain ⟨hcmem, hmin⟩ := heapTop_spec _ _ hc
  obtain ⟨hreach, hcv⟩ := hinv.queue c hcmem
  have hcv2 : c.2 < s.visited.length := by rw [hinv.len_visited]; exact hcv
  have hlen_erase : (s.openq.erase c).length + 1 = s.openq.length := by
    rw [List.length_erase_of_mem hcmem]
    have : 0 < s.openq.length := List.length_pos_of_mem hcmem
    omega
  have hkeep : ∀ x : GraphNode, x ∈ s.openq → x.2 ≠ c.2 → x ∈ s.openq.erase c := by
    intro x hx hne2
    have : x ≠ c := fun h => hne2 (by rw [h])
    exact (List.mem_erase_of_ne this).mpr hx
  unfold floodStep
  rw [hc]
  simp only
  rw [List.getElem?_eq_getElem hcv2]
  cases hvis : s.visited[c.2] with
  | true =>
    have hvis2 : s.visited[c.2]? = some true := by
      rw [List.getElem?_eq_getElem hcv2, hvis]
    refine ⟨_, rfl, ?_, ?_⟩
    · refine ⟨hinv.len_visited, hinv.len_elev, ?_, hinv.settled, ?_, ?_, hinv.untouched⟩
      · intro x hx
        exact hinv.queue x (List.mem_of_mem_erase hx)
      · intro a b w f ha he hb hf
        apply hkeep _ (hinv.frontier a b w f ha he hb hf)
        intro heq
        simp only at heq
        rw [heq, hvis2] at hb
        cases hb
      · rcases hinv.seed with h1 | h1
        · exact Or.inl h1
        · by_cases h2 : c.2 = 1
          · left
            rw [← h2]
            exact hvis2
          · exact Or.inr (hkeep _ h1 (fun h => h2 h.symm))
    · unfold floodMeasure
      dsimp only
      omega
  | false =>
    have hvis2 : s.visited[c.2]? = some false := by
      rw [List.getElem?_eq_getElem hcv2, hvis]
    simp only
    rw [List.getElem?_eq_getElem hcv]
    simp only
    have hnb : g[c.2]? = some g[c.2] := List.getElem?_eq_getElem hcv
    obtain ⟨s2, hs2, hv2, he2, hq2, hl2⟩ := floodNeighbours_spec c.1 g[c.2]
      { openq := s.openq.erase c, visited := s.visited.set c.2 true,
        graph_elev := s.graph_elev.set c.2 c.1 }
      (by
        intro p hp
        simp only [List.length_set]
        rw [hinv.len_visited]
        exact hr.keys c.2 p (entry_of_getElem? hnb hp))
    simp only at hv2 he2 hq2 hl2
    have hvset : ∀ u, u ≠ c.2 → s2.visited[u]? = s.visited[u]? := by
      intro u hu
      rw [hv2]
      exact List.getElem?_set_ne (fun h => hu h.symm)
    have heset : ∀ u, u ≠ c.2 → s2.graph_elev[u]? = s.graph_elev[u]? := by
      intro u hu
      rw [he2]
      exact List.getElem?_set_ne (fun h => hu h.symm)
    have hvself : s2.visited[c.2]? = some true := by
      rw [hv2]
      exact List.getElem?_set_self hcv2
    have heself : s2.graph_elev[c.2]? = some c.1 := by
      rw [he2]
      exact List.getElem?_set_self (by rw [hinv.len_elev]; exact hcv)
    refine ⟨s2, hs2, ?_, ?_⟩
    · refine ⟨?_, ?_, ?_, ?_, ?_, ?_, ?_⟩
      · rw [hv2, List.length_set]; exact hinv.len_visited
      · rw [he2, List.length_set]; exact hinv.len_elev
      · intro x hx
        rcases (hq2 x).mp hx with h1 | ⟨p, hp, _, rfl⟩
        · exact hinv.queue x (List.mem_of_mem_erase h1)
        · have hent := entry_of_getElem? hnb hp
          exact ⟨Reach.step hr.low hreach hent, hr.keys c.2 p hent⟩
      · intro v hv
        by_cases hvc : v = c.2
        · subst hvc
          refine ⟨c.1, heself, hreach, ?_⟩
          intro c2 hc2
          rcases hinv.cross hr hc2 with h1 | ⟨x, hx, hle⟩
          · rw [hvis2] at h1
            cases h1
          · exact le_trans (hmin x hx) hle
        · rw [hvset v hvc] at hv
          rw [heset v hvc]
          exact hinv.settled v hv
      · intro a b w f ha he hb hf
        have hbc : b ≠ c.2 := by
          intro h
          rw [h, hvself] at hb
          cases hb
        rw [hvset b hbc] at hb
        rw [hq2]
        by_cases hac : a = c.2
        · subst hac
          rw [heself] at hf
          cases hf
          right
          obtain ⟨em, hem, hmem⟩ := he
          rw [hnb] at hem
          cases hem
          refine ⟨(b, w), hmem, ?_, rfl⟩
          simp only
          rw [List.getElem?_set_ne hbc.symm]
          exact hb
        · rw [hvset a hac] at ha
          rw [heset a hac] at hf
          exact Or.inl (hkeep _ (hinv.frontier a b w f ha he hb hf) hbc)
      · by_cases h1 : c.2 = 1
        · left
          rw [← h1]
          exact hvself
        · rcases hinv.seed with h2 | h2
          · left
            rw [hvset 1 (fun h => h1 h.symm)]
            exact h2
          · right
            rw [hq2]
            exact Or.inl (hkeep _ h2 (fun h => h1 h.symm))
      · intro v hv
        have hvc : v ≠ c.2 := by
          intro h
          rw [h, hvself] at hv
          cases hv
        rw [hvset v hvc] at hv
        rw [heset v hvc]
        exact hinv.untouched v hv
    · unfold floodMeasure
      have hpoint := @sum_range_point
        (fun v => if s.visited[v]? = some true then 0 else (g.getD v []).length)
        (fun v => if s2.visited[v]? = some true then 0 else (g.getD v []).length)
        g.length c.2 hcv
        (by
          intro u hu
          simp only
          rw [hvset u hu])
        (by
          simp only
          rw [hvself, if_pos rfl])
      have hrem : (if s.visited[c.2]? = some true then 0 else (g.getD c.2 []).length)
          = g[c.2].length := by
        rw [hvis2, if_neg (by simp), getD_of_getElem? hnb]
      dsimp only at hpoint
      rw [hrem] at hpoint
      omega

theorem floodLoop_spec {g : Graph} {lowest : Int} (hr : FloodReady g lowest) :
    ∀ (fuel : Nat) (s : FloodState), FloodInv g lowest s → floodMeasure g s ≤ fuel →
      ∃ s2, floodLoop g fuel s = some s2 ∧ FloodInv g lowest s2 ∧ s2.openq = [] := by
  intro fuel
  induction fuel with
  | zero =>
    intro s hinv hm
    have hnil : s.openq = [] := by
      have : s.openq.length = 0 := by
        unfold floodMeasure at hm
        omega
      exact List.length_eq_zero.mp this
    refine ⟨s, ?_, hinv, hnil⟩
    simp only [floodLoop, hnil, List.isEmpty_nil, if_true]
  | succ fuel ih =>
    intro s hinv hm
    by_cases hnil : s.openq = []
    · refine ⟨s, ?_, hinv, hnil⟩
      simp only [floodLoop, hnil, List.isEmpty_nil, if_true]
    · obtain ⟨s1, hs1, hinv1, hlt⟩ := floodStep_spec hr hinv hnil
      obtain ⟨s2, hs2, hinv2, hq2⟩ := ih s1 hinv1 (by omega)
      refine ⟨s2, ?_, hinv2, hq2⟩
      have hne : s.openq.isEmpty = false := by
        cases hq : s.openq with
        | nil => exact absurd hq hnil
        | cons a r => rfl
      simp only [floodLoop, hne, Bool.false_eq_true, if_false, hs1, Option.some_bind]
      exact hs2

theorem map_getD_range (g : Graph) :
    (List.range g.length).map (fun v => (g.getD v []).length) = g.map List.length := by
  apply List.ext_getElem?
  intro i
  by_cases hi : i < g.length
  · rw [List.getElem?_map, List.getElem?_map, List.getElem?_range hi,
      List.getElem?_eq_getElem hi]
    simp only [Option.map_some']
    rw [getD_of_getElem? (List.getElem?_eq_getElem hi)]
  · rw [List.getElem?_eq_none (by simpa using hi), List.getElem?_eq_none (by simpa using hi)]

theorem floodInit_inv {g : Graph} {lowest : Int} (hr : FloodReady g lowest) :
    FloodInv g lowest
      { openq := [(lowest, 1)], visited := List.replicate g.length false,
        graph_elev := List.replicate g.length 0 } := by
  have hfalse : ∀ v : Nat, (List.replicate g.length false)[v]? ≠ some true := by
    intro v h
    rw [List.getElem?_replicate] at h
    split at h <;> cases h
  refine ⟨List.length_replicate _ _, List.length_replicate _ _, ?_, ?_, ?_, ?_, ?_⟩
  · intro x hx
    simp only [List.mem_singleton] at hx
    subst hx
    exact ⟨Or.inl ⟨rfl, rfl⟩, hr.two⟩
  · intro v hv
    exact absurd hv (hfalse v)
  · intro a b w f ha
    exact absurd ha (hfalse a)
  · exact Or.inr (List.mem_singleton.mpr rfl)
  · intro v hv
    simp only at hv ⊢
    rw [List.getElem?_replicate] at hv ⊢
    split at hv
    · rename_i h
      rw [if_pos h]
    · cases hv

theorem floodInit_measure (g : Graph) (lowest : Int) :
    floodMeasure g
      { openq := [(lowest, 1)], visited := List.replicate g.length false,
        graph_elev := List.replicate g.length 0 } = floodFuel g := by
  unfold floodMeasure floodFuel
  simp only [List.length_singleton]
  congr 1
  rw [← map_getD_range]
  congr 1
  apply List.map_congr_left
  intro v _
  rw [if_neg]
  intro h
  rw [List.getElem?_replicate] at h
  split at h <;> cases h

/-- In a graph of maps with increasing keys, the entries are the stored weights. -/
theorem isEntry_iff_weight {g : Graph} (hs : MapsSorted g) (a b : Nat) (w : Int) :
    IsEntry g a (b, w) ↔ weight g a b = some w := by
  constructor
  · rintro ⟨em, hem, hmem⟩
    unfold weight
    rw [hem]
    simp only
    have hsorted := hs em (List.getElem?_mem hem)
    cases hf : mapFind em b with
    | none =>
      exfalso
      clear hsorted hem
      induction em with
      | nil => cases hmem
      | cons p rest ih =>
        obtain ⟨kp, vp⟩ := p
        simp only [mapFind] at hf
        by_cases hk : b = kp
        · rw [if_pos hk] at hf
          cases hf
        · rw [if_neg hk] at hf
          rcases List.mem_cons.mp hmem with h1 | h1
          · cases h1
            exact hk rfl
          · exact ih h1 hf
    | some v =>
      have := pairwise_key_unique hsorted (mapFind_some_mem hf) hmem rfl
      cases this
      rfl
  · intro h
    unfold weight at h
    cases hem : g[a]? with
    | none => rw [hem] at h; cases h
    | some em =>
      rw [hem] at h
      exact ⟨em, hem, mapFind_some_mem h⟩

/-- An edge in front of a path. -/
theorem Path.cons_path {g : Graph} {a b d : Nat} {w c : Int} (he : IsEntry g a (b, w))
    (hp : Path g b d c) : Path g a d (max w c) := by
  induction hp with
  | edge he2 => exact Path.snoc (Path.edge he) he2
  | snoc _ he2 ih =>
    rw [← max_assoc]
    exact Path.snoc ih he2

/-- In a graph whose edges can be walked both ways, a path can be walked backwards. -/
theorem Path.reverse {g : Graph} (hrev : ∀ a b w, IsEntry g a (b, w) → IsEntry g b (a, w))
    {a b : Nat} {c : Int} (hp : Path g a b c) : Path g b a c := by
  induction hp with
  | edge he => exact Path.edge (hrev _ _ _ he)
  | snoc _ he ih =>
    rw [max_comm]
    exact Path.cons_path (hrev _ _ _ he) ih

/-- In a symmetric graph of maps with increasing keys every edge can be walked both ways. -/
theorem entry_reverse {g : Graph} (hsym : Symmetric g) (hs : MapsSorted g) (a b : Nat) (w : Int)
    (h : IsEntry g a (b, w)) : IsEntry g b (a, w) := by
  rw [isEntry_iff_weight hs] at h ⊢
  rw [← hsym]
  exact h

/-- C1: on a master graph over integer elevations with at least 2 vertices whose
neighbour keys are vertices, the aggregated priority-flood returns, and for every
vertex `v` other than 1 that is connected to vertex 1 it sets `fill_elev[v]` to the
minimum, over all paths from vertex 1 to `v`, of the largest edge weight on the
path: the value is the cost of a path and no path costs less.  When the graph is
symmetric (its maps having increasing keys) the same holds for the paths from `v`
to vertex 1: it is the lowest elevation at which water in `v` can reach vertex 1. -/
theorem C1_flood_computes_minimax (g : Graph) (lowest : Int) (hr : FloodReady g lowest) :
    ∃ fill, aggregatedFlood lowest g = some fill ∧ fill.length = g.length ∧
      ∀ v, v ≠ 1 → (∃ c, Path g 1 v c) →
        ∃ f, fill[v]? = some f ∧ Path g 1 v f ∧ (∀ c, Path g 1 v c → f ≤ c) ∧
          (Symmetric g → MapsSorted g → Path g v 1 f ∧ ∀ c, Path g v 1 c → f ≤ c) := by
  obtain ⟨s, hs, hinv, hq⟩ := floodLoop_spec hr (floodFuel g) _ (floodInit_inv hr)
    (le_of_eq (floodInit_measure g lowest))
  refine ⟨s.graph_elev, ?_, hinv.len_elev, ?_⟩
  · unfold aggregatedFlood
    rw [hs]
    rfl
  · intro v hv hconn
    obtain ⟨c, hc⟩ := hconn
    have hvis : s.visited[v]? = some true := by
      rcases hinv.cross hr (Or.inr hc) with h | ⟨x, hx, _⟩
      · exact h
      · rw [hq] at hx
        cases hx
    obtain ⟨f, hf, hreach, hopt⟩ := hinv.settled v hvis
    have hpath : Path g 1 v f := by
      rcases hreach with ⟨h1, _⟩ | h1
      · exact absurd h1 hv
      · exact h1
    refine ⟨f, hf, hpath, fun c2 hc2 => hopt c2 (Or.inr hc2), ?_⟩
    intro hsym hsorted
    have hrev := entry_reverse hsym hsorted
    exact ⟨hpath.reverse hrev, fun c2 hc2 => hopt c2 (Or.inr (hc2.reverse hrev))⟩

theorem exMaster_ready : FloodReady exMaster (-2147483648) :=
  { two := by decide
    key_mem := by decide
    low_mem := by decide }

theorem C1_witness :
    ∃ fill, aggregatedFlood (-2147483648) exMaster = some fill ∧ fill.length = 6 :=
  match C1_flood_computes_minimax exMaster (-2147483648) exMaster_ready with
  | ⟨fill, h1, h2, _⟩ => ⟨fill, h1, h2⟩

/-! ## The phase-2 slice -/

theorem floodNeighbours_length (my_elev : Int) {nbrs : List (Nat × Int)} {s s2 : FloodState}
    (h : nbrs.foldlM (floodNeighbour my_elev) s = some s2) :
    s2.graph_elev.length = s.graph_elev.length := by
  refine foldlM_inv (fun u : FloodState => u.graph_elev.length = s.graph_elev.length)
    (floodNeighbour my_elev) nbrs s s2 rfl ?_ h
  intro p u v _ hu hv
  unfold floodNeighbour at hv
  split at hv
  · cases hv
  · cases hv; exact hu
  · cases hv; exact hu

theorem floodStep_length {g : Graph} {s s2 : FloodState} (h : floodStep g s = some s2) :
    s2.graph_elev.length = s.graph_elev.length := by
  unfold floodStep at h
  cases hc : heapTop s.openq with
  | none => rw [hc] at h; cases h
  | some c =>
    rw [hc] at h
    simp only at h
    cases hv : s.visited[c.2]? with
    | none => rw [hv] at h; cases h
    | some b =>
      rw [hv] at h
      cases b with
      | true =>
        simp only at h
        cases h
        rfl
      | false =>
        simp only at h
        cases hn : g[c.2]? with
        | none => rw [hn] at h; cases h
        | some nbrs =>
          rw [hn] at h
          simp only at h
          rw [floodNeighbours_length c.1 h]
          exact List.length_set _ _ _

theorem floodLoop_length {g : Graph} : ∀ (fuel : Nat) (s s2 : FloodState),
    floodLoop g fuel s = some s2 → s2.graph_elev.length = s.graph_elev.length := by
  intro fuel
  induction fuel with
  | zero =>
    intro s s2 h
    simp only [floodLoop] at h
    split at h
    · cases h; rfl
    · cases h
  | succ fuel ih =>
    intro s s2 h
    simp only [floodLoop] at h
    split at h
    · cases h; rfl
    · cases h1 : floodStep g s with
      | none => rw [h1] at h; cases h
      | some s1 =>
        rw [h1] at h
        simp only [Option.some_bind] at h
        rw [ih s1 s2 h, floodStep_length h1]

/-- The vector that the flood returns has one entry per vertex. -/
theorem aggregatedFlood_length {g : Graph} {lowest : Int} {fill : List Int}
    (h : aggregatedFlood lowest g = some fill) : fill.length = g.length := by
  unfold aggregatedFlood at h
  cases hl : floodLoop g (floodFuel g)
      { openq := [(lowest, 1)], visited := List.replicate g.length false,
        graph_elev := List.replicate g.length 0 } with
  | none => rw [hl] at h; cases h
  | some s =>
    rw [hl] at h
    cases h
    rw [floodLoop_length _ _ _ hl]
    exact List.length_replicate _ _

/-- The finished construction keeps the tile matrix and the vertex count of the merge phase. -/
theorem buildMasterGraph_of_merge {tiles : TileGrid} {jobs1 : Job1Grid} {s : MergeState}
    {tiles2 : TileGrid} {g : Graph} (hs : mergeGraphs tiles jobs1 = some s)
    (hb : buildMasterGraph tiles jobs1 = some (tiles2, g)) :
    tiles2 = s.tiles ∧ g.length = s.mastergraph.length ∧
      joinPerimeters s.tiles jobs1 s.mastergraph = some g := by
  unfold buildMasterGraph at hb
  rw [hs] at hb
  simp only at hb
  cases hj : joinPerimeters s.tiles jobs1 s.mastergraph with
  | none => rw [hj] at hb; cases hb
  | some g2 =>
    rw [hj] at hb
    cases hb
    exact ⟨rfl, joinPerimeters_inv (fun u => u.length = s.mastergraph.length)
      (fun _ _ _ _ _ hu h => (upsertMin_length h).trans hu) rfl hj, rfl⟩

/-- Alignment of the phase-2 slice, given that `Calculations` has returned: for every
non-null tile the slice exists, has length `label_increment`, holds
`fill_elev[l + label_offset]` at `l`, and `SecondRound` raises each labelled cell against
the fill elevation of its global label. -/
theorem slice_aligned_of_calc (lowest : Int) (tiles : TileGrid) (jobs1 : Job1Grid) (gh gw : Nat)
    (tiles2 : TileGrid) (fill : List Int) (hr : MergeReady tiles jobs1 gh gw)
    (hcalc : Calculations lowest tiles jobs1 = some (tiles2, fill)) :
    ∀ ty tx t, ty < gh → tx < gw → grid2 tiles2 ty tx = some t → t.nullTile = false →
      ∃ job2, DistributeJob2 fill tiles2 tx ty = some job2 ∧
        job2.length = t.label_increment ∧
        (∀ l, l < t.label_increment → job2[l]? = fill[l + t.label_offset]?) ∧
        (∀ l, 2 ≤ l → l < t.label_increment →
          offsetLabel l t.label_offset = l + t.label_offset) ∧
        (∀ s s2, SecondRound job2 s = some s2 →
          ∀ x y e l, s.dem.get x y = some e → s.labels.get x y = some l → 1 < l →
            ∃ f, fill[offsetLabel l t.label_offset]? = some f ∧
              s2.dem.get x y = some (max e f)) := by
  obtain ⟨s, hs, hinv⟩ := mergeGraphs_ready hr
  unfold Calculations at hcalc
  cases hb : buildMasterGraph tiles jobs1 with
  | none => rw [hb] at hcalc; cases hcalc
  | some pr =>
    obtain ⟨tiles3, g⟩ := pr
    rw [hb] at hcalc
    simp only at hcalc
    cases hf : aggregatedFlood lowest g with
    | none => rw [hf] at hcalc; cases hcalc
    | some fill2 =>
      rw [hf] at hcalc
      cases hcalc
      obtain ⟨htiles, hglen, _⟩ := buildMasterGraph_of_merge hs hb
      have hflen : fill.length = sumAll (graphSizeAt jobs1) gh gw :=
        (aggregatedFlood_length hf).trans (hglen.trans hinv.graph)
      intro ty tx t hy hx ht hn
      rw [htiles] at ht
      obtain ⟨_, hoff, hinc, hblock⟩ := hinv.output_tile hr hy hx ht hn
      have hfit := hr.fits
      have hwrap : ∀ l, 2 ≤ l → l < t.label_increment →
          offsetLabel l t.label_offset = l + t.label_offset := by
        intro l hl2 hl
        unfold offsetLabel
        rw [if_pos (by omega), Nat.mod_eq_of_lt (by omega)]
      have hslice : ∀ l, l < t.label_increment →
          ((fill.drop t.label_offset).take t.label_increment)[l]? = fill[l + t.label_offset]? := by
        intro l hl
        rw [List.getElem?_take_of_lt hl, List.getElem?_drop, Nat.add_comm]
      refine ⟨(fill.drop t.label_offset).take t.label_increment, ?_, ?_, hslice, hwrap, ?_⟩
      · unfold DistributeJob2
        rw [htiles, ht]
        simp only
        rw [if_pos (by omega)]
      · rw [List.length_take, List.length_drop]
        omega
      · intro st st2 hrun x y e l he hl hgt
        obtain ⟨_, _, _, hcells⟩ := SecondRound_spec hrun
        obtain ⟨l2, hl2, hval, hrange⟩ := hcells x y e he
        rw [hl] at hl2
        cases hl2
        have hlt := hrange hgt
        have hlinc : l < t.label_increment := by
          rw [List.length_take, List.length_drop] at hlt
          omega
        have hget := hslice l hlinc
        rw [List.getElem?_eq_getElem hlt] at hget
        refine ⟨((fill.drop t.label_offset).take t.label_increment)[l], ?_, ?_⟩
        · rw [hwrap l hgt hlinc, ← hget]
        · rw [hval]
          unfold raisedTo
          rw [if_pos hgt, List.getElem?_eq_getElem hlt]

/-! ## Joining the perimeters -/

theorem Later.rfl_later (g : Graph) : Later g g := fun _ _ h => h

theorem Later.trans_later {g1 g2 g3 : Graph} (h1 : Later g1 g2) (h2 : Later g2 g3) :
    Later g1 g3 := fun P hP h => h2 P hP (h1 P hP h)

theorem Later.symmetric {g g2 : Graph} (h : Later g g2) (hs : Symmetric g) : Symmetric g2 :=
  h Symmetric (fun _ _ _ _ _ hu hv => upsertMin_symmetric hu hv) hs

/-- A guarded upsert leaves an edge of weight at most its own. -/
theorem upsertMin_establish {g g2 : Graph} {a b : Nat} {w : Int}
    (h : upsertMin g a b w = some g2) : EdgeBelow g2 a b w := by
  rcases (upsertMin_cases h).2 with ⟨rfl, old, hold, hle⟩ | ⟨hset, _⟩
  · exact ⟨old, hold, hle⟩
  · obtain ⟨_, _, _, hw⟩ := graphSetBoth_spec hset
    exact ⟨w, by rw [hw, if_pos (Or.inl ⟨rfl, rfl⟩)], le_refl _⟩

/-- On a symmetric graph a guarded upsert never raises the weight of an edge. -/
theorem upsertMin_edgeBelow {g g2 : Graph} {a b c n : Nat} {w v : Int}
    (hs : Symmetric g) (he : EdgeBelow g a b w) (h : upsertMin g c n v = some g2) :
    EdgeBelow g2 a b w := by
  rcases (upsertMin_cases h).2 with ⟨rfl, _⟩ | ⟨hset, hlt⟩
  · exact he
  · obtain ⟨_, _, _, hw⟩ := graphSetBoth_spec hset
    obtain ⟨m, hm, hle⟩ := he
    by_cases hpos : (a = c ∧ b = n) ∨ (a = n ∧ b = c)
    · refine ⟨v, by rw [hw, if_pos hpos], ?_⟩
      have hcn : weight g c n = some m := by
        rcases hpos with ⟨rfl, rfl⟩ | ⟨rfl, rfl⟩
        · exact hm
        · rw [hs]; exact hm
      exact le_trans (le_of_lt (hlt m hcn)) hle
    · exact ⟨m, by rw [hw, if_neg hpos]; exact hm, hle⟩

/-- Edges below a bound stay so under later upserts of a symmetric graph. -/
theorem Later.edgeBelow {g g2 : Graph} {a b : Nat} {w : Int} (h : Later g g2)
    (hs : Symmetric g) (he : EdgeBelow g a b w) : EdgeBelow g2 a b w :=
  (h (fun u => Symmetric u ∧ EdgeBelow u a b w)
    (fun _ _ _ _ _ hu hv => ⟨upsertMin_symmetric hu.1 hv, upsertMin_edgeBelow hu.1 hu.2 hv⟩)
    ⟨hs, he⟩).2

theorem HandleEdge_later {ea eb : List Int} {la lb : List Nat} {oa ob : Nat} {g g2 : Graph}
    (h : HandleEdge ea eb la lb g oa ob = some g2) : Later g g2 :=
  fun P hP hg => HandleEdge_inv P hP hg h

theorem cornerCall_later {ea eb : Option Int} {la lb : Option Nat} {oa ob : Nat} {g g2 : Graph}
    (h : cornerCall ea eb la lb oa ob g = some g2) : Later g g2 :=
  fun P hP hg => cornerCall_inv P hP hg h

theorem joinTile_later {tiles : TileGrid} {jobs1 : Job1Grid} {gh gw y x : Nat} {g g2 : Graph}
    (h : joinTile tiles jobs1 gh gw y x g = some g2) : Later g g2 :=
  fun P hP hg => joinTile_inv P hP hg h

/-- `HandleEdge` on a symmetric graph leaves, for every compared pair of positions with
different offset labels, an edge of weight at most the larger elevation. -/
theorem HandleEdge_establish {ea eb : List Int} {la lb : List Nat} {oa ob : Nat}
    {g g2 : Graph} (hs : Symmetric g) (h : HandleEdge ea eb la lb g oa ob = some g2)
    {i j l1 l2 : Nat} {e1 e2 : Int} (hi : i < ea.length) (hj : j < ea.length)
    (hij : i ≤ j + 1) (hji : j ≤ i + 1)
    (hl1 : la[i]? = some l1) (hl2 : lb[j]? = some l2)
    (he1 : ea[i]? = some e1) (he2 : eb[j]? = some e2)
    (hne : offsetLabel l1 oa ≠ offsetLabel l2 ob) :
    EdgeBelow g2 (offsetLabel l1 oa) (offsetLabel l2 ob) (max e1 e2) := by
  have hinv := HandleEdge_inv_min hs h
  exact hinv.below_cand _ _ _ hne (spillCandidate_iff.mp
    ⟨i, j, hi, hj, hij, hji, l1, l2, e1, e2, hl1, hl2, he1, he2, Or.inl ⟨rfl, rfl⟩, rfl⟩)

theorem cornerCall_establish {e1 e2 : Int} {l1 l2 oa ob : Nat} {g g2 : Graph}
    (h : cornerCall (some e1) (some e2) (some l1) (some l2) oa ob g = some g2) :
    EdgeBelow g2 (offsetLabel l1 oa) (offsetLabel l2 ob) (max e1 e2) :=
  upsertMin_establish h

theorem withNeighbour_later {tiles : TileGrid} {jobs1 : Job1Grid} {cond : Bool} {ny nx : Nat}
    {f : TileInfo → Job1 → Graph → Option Graph}
    (hf : ∀ n nj u v, f n nj u = some v → Later u v) {g g2 : Graph}
    (h : withNeighbour tiles jobs1 cond ny nx f g = some g2) : Later g g2 :=
  fun P hP hg => withNeighbour_inv P (fun n nj u v hu hv => hf n nj u v hv P hP hu) hg h

/-- A guarded call that does run is the call on the neighbour. -/
theorem withNeighbour_run {tiles : TileGrid} {jobs1 : Job1Grid} {ny nx : Nat}
    {f : TileInfo → Job1 → Graph → Option Graph} {g g2 : Graph} {n : TileInfo} {nj : Job1}
    (hn : grid2 tiles ny nx = some n) (hnn : n.nullTile = false)
    (hj : grid2 jobs1 ny nx = some nj)
    (h : withNeighbour tiles jobs1 true ny nx f g = some g2) : f n nj g = some g2 := by
  unfold withNeighbour at h
  rw [if_pos rfl, hn] at h
  simp only at h
  rw [hnn] at h
  simp only [Bool.false_eq_true, if_false] at h
  rw [hj] at h
  exact h

/-- The perimeter step of a non-null tile is the sequence of its eight guarded joins. -/
theorem joinTile_steps {tiles : TileGrid} {jobs1 : Job1Grid} {gh gw y x : Nat} {t : TileInfo}
    {c : Job1} (ht : grid2 tiles y x = some t) (hn : t.nullTile = false)
    (hc : grid2 jobs1 y x = some c) (g : Graph) :
    joinTile tiles jobs1 gh gw y x g =
      (joinStep tiles jobs1 gh gw y x t c .top g).bind fun g =>
      (joinStep tiles jobs1 gh gw y x t c .bottom g).bind fun g =>
      (joinStep tiles jobs1 gh gw y x t c .left g).bind fun g =>
      (joinStep tiles jobs1 gh gw y x t c .right g).bind fun g =>
      (joinStep tiles jobs1 gh gw y x t c .topLeft g).bind fun g =>
      (joinStep tiles jobs1 gh gw y x t c .bottomRight g).bind fun g =>
      (joinStep tiles jobs1 gh gw y x t c .topRight g).bind fun g =>
      joinStep tiles jobs1 gh gw y x t c .bottomLeft g := by
  unfold joinTile
  rw [ht]
  simp only
  rw [hn]
  simp only [Bool.false_eq_true, if_false]
  rw [hc]
  rfl

theorem dirCall_later {d : Dir} {c nj : Job1} {oa ob : Nat} {g g2 : Graph}
    (h : dirCall d c nj oa ob g = some g2) : Later g g2 := by
  cases d <;> first | exact HandleEdge_later h | exact cornerCall_later h

theorem joinStep_later {tiles : TileGrid} {jobs1 : Job1Grid} {gh gw y x : Nat} {t : TileInfo}
    {c : Job1} {d : Dir} {g g2 : Graph}
    (h : joinStep tiles jobs1 gh gw y x t c d g = some g2) : Later g g2 :=
  withNeighbour_later (fun _ _ _ _ hv => dirCall_later hv) h

/-- Every one of the eight guarded joins of a non-null tile is run, on a graph that
came from the one at the start and went into the one at the end by guarded upserts. -/
theorem joinTile_calls {tiles : TileGrid} {jobs1 : Job1Grid} {gh gw y x : Nat} {t : TileInfo}
    {c : Job1} (ht : grid2 tiles y x = some t) (hn : t.nullTile = false)
    (hc : grid2 jobs1 y x = some c) {g g2 : Graph}
    (h : joinTile tiles jobs1 gh gw y x g = some g2) (d : Dir) :
    ∃ u v, Later g u ∧ joinStep tiles jobs1 gh gw y x t c d u = some v ∧ Later v g2 := by
  rw [joinTile_steps ht hn hc] at h
  simp only [Option.bind_eq_some] at h
  obtain ⟨g1, h1, g3, h3, g4, h4, g5, h5, g6, h6, g7, h7, g8, h8, h9⟩ := h
  have l1 := joinStep_later h1
  have l3 := joinStep_later h3
  have l4 := joinStep_later h4
  have l5 := joinStep_later h5
  have l6 := joinStep_later h6
  have l7 := joinStep_later h7
  have l8 := joinStep_later h8
  have l9 := joinStep_later h9
  have r := Later.rfl_later
  have tr := @Later.trans_later
  cases d
  · exact ⟨g, g1, r g, h1,
      tr l3 (tr l4 (tr l5 (tr l6 (tr l7 (tr l8 l9)))))⟩
  · exact ⟨g1, g3, l1, h3, tr l4 (tr l5 (tr l6 (tr l7 (tr l8 l9))))⟩
  · exact ⟨g3, g4, tr l1 l3, h4, tr l5 (tr l6 (tr l7 (tr l8 l9)))⟩
  · exact ⟨g4, g5, tr (tr l1 l3) l4, h5, tr l6 (tr l7 (tr l8 l9))⟩
  · exact ⟨g5, g6, tr (tr (tr l1 l3) l4) l5, h6, tr l7 (tr l8 l9)⟩
  · exact ⟨g6, g7, tr (tr (tr (tr l1 l3) l4) l5) l6, h7, tr l8 l9⟩
  · exact ⟨g7, g8, tr (tr (tr (tr (tr l1 l3) l4) l5) l6) l7, h8, l9⟩
  · exact ⟨g8, g2, tr (tr (tr (tr (tr (tr l1 l3) l4) l5) l6) l7) l8, h9, r g2⟩

/-- Every iteration of a loop of upserting bodies is run, between the start and the end. -/
theorem forRange_calls {body : Nat → Graph → Option Graph} {n : Nat} {g g2 : Graph}
    (hbody : ∀ k u v, body k u = some v → Later u v)
    (h : forRange n body g = some g2) :
    Later g g2 ∧ ∀ k, k < n → ∃ u v, Later g u ∧ body k u = some v ∧ Later v g2 := by
  refine forRange_inv
    (fun m g3 => Later g g3 ∧ ∀ k, k < m → ∃ u v, Later g u ∧ body k u = some v ∧ Later v g3)
    body n g g2 ⟨Later.rfl_later g, fun k hk => absurd hk (Nat.not_lt_zero _)⟩ ?_ h
  intro m u v _ hu hv
  have hl := hbody m u v hv
  refine ⟨hu.1.trans_later hl, ?_⟩
  intro k hk
  rcases Nat.lt_succ_iff_lt_or_eq.mp hk with h1 | h1
  · obtain ⟨u2, v2, a1, a2, a3⟩ := hu.2 k h1
    exact ⟨u2, v2, a1, a2, a3.trans_later hl⟩
  · subst h1
    exact ⟨u, v, hu.1, hv, Later.rfl_later v⟩

/-- In the perimeter phase the step of every tile is run. -/
theorem joinPerimeters_calls {tiles : TileGrid} {jobs1 : Job1Grid} {gh gw : Nat} {g g2 : Graph}
    (hh : tiles.length = gh) (hw : (tiles[0]?).map List.length = some gw)
    (h : joinPerimeters tiles jobs1 g = some g2) :
    Later g g2 ∧ ∀ y x, y < gh → x < gw →
      ∃ u v, Later g u ∧ joinTile tiles jobs1 gh gw y x u = some v ∧ Later v g2 := by
  unfold joinPerimeters at h
  cases hrow : tiles[0]? with
  | none => rw [hrow] at hw; cases hw
  | some row0 =>
    have hw2 : row0.length = gw := by
      rw [hrow] at hw
      simpa using hw
    rw [hrow] at h
    simp only at h
    rw [hh, hw2] at h
    have hinner : ∀ y u v,
        forRange gw (fun x g2 => joinTile tiles jobs1 gh gw y x g2) u = some v →
        Later u v ∧ ∀ x, x < gw → ∃ u2 v2, Later u u2 ∧
          joinTile tiles jobs1 gh gw y x u2 = some v2 ∧ Later v2 v :=
      fun y u v hv => forRange_calls (fun _ _ _ hb => joinTile_later hb) hv
    obtain ⟨hl, hall⟩ := forRange_calls (fun y u v hv => (hinner y u v hv).1) h
    refine ⟨hl, ?_⟩
    intro y x hy hx
    obtain ⟨u, v, a1, a2, a3⟩ := hall y hy
    obtain ⟨u2, v2, b1, b2, b3⟩ := (hinner y u v a2).2 x hx
    exact ⟨u2, v2, a1.trans_later b1, b2, b3.trans_later a3⟩

theorem touchEdge_establish {ea eb : List Int} {la lb : List Nat} {oa ob : Nat}
    {g g2 : Graph} {eP eQ : Int} {lP lQ : Nat} (hs : Symmetric g)
    (h : HandleEdge ea eb la lb g oa ob = some g2)
    (ht : TouchEdge ea eb la lb eP eQ lP lQ)
    (hne : offsetLabel lP oa ≠ offsetLabel lQ ob) :
    EdgeBelow g2 (offsetLabel lP oa) (offsetLabel lQ ob) (max eP eQ) := by
  obtain ⟨i, j, hi, hj, hij, hji, h1, h2, h3, h4⟩ := ht
  exact HandleEdge_establish hs h hi hj hij hji h1 h2 h3 h4 hne

theorem touchCorner_establish {ea eb : Option Int} {la lb : Option Nat} {oa ob : Nat}
    {g g2 : Graph} {eP eQ : Int} {lP lQ : Nat}
    (h : cornerCall ea eb la lb oa ob g = some g2)
    (ht : ea = some eP ∧ eb = some eQ ∧ la = some lP ∧ lb = some lQ) :
    EdgeBelow g2 (offsetLabel lP oa) (offsetLabel lQ ob) (max eP eQ) := by
  obtain ⟨rfl, rfl, rfl, rfl⟩ := ht
  exact cornerCall_establish h

/-- The join towards `d`, run on a symmetric graph, leaves an edge of weight at most
`max(eP, eQ)` between the offset labels of two touching cells with different labels. -/
theorem dirCall_establish {d : Dir} {c nj : Job1} {oa ob : Nat} {g g2 : Graph}
    {eP eQ : Int} {lP lQ : Nat} (hs : Symmetric g)
    (h : dirCall d c nj oa ob g = some g2) (ht : Touching d c nj eP eQ lP lQ)
    (hne : offsetLabel lP oa ≠ offsetLabel lQ ob) :
    EdgeBelow g2 (offsetLabel lP oa) (offsetLabel lQ ob) (max eP eQ) := by
  cases d
  · exact touchEdge_establish hs h ht hne
  · exact touchEdge_establish hs h ht hne
  · exact touchEdge_establish hs h ht hne
  · exact touchEdge_establish hs h ht hne
  · exact touchCorner_establish h ht
  · exact touchCorner_establish h ht
  · exact touchCorner_establish h ht
  · exact touchCorner_establish h ht

/-- The perimeter phase, started on a symmetric graph, leaves an edge of weight at
most `max(eP, eQ)` between the offset labels of two cells that touch across the
boundary of two non-null neighbouring tiles, when those labels differ. -/
theorem joinPerimeters_establish {tiles : TileGrid} {jobs1 : Job1Grid} {gh gw : Nat}
    {g g2 : Graph} (hh : tiles.length = gh) (hw : (tiles[0]?).map List.length = some gw)
    (hs : Symmetric g) (h : joinPerimeters tiles jobs1 g = some g2)
    {y x : Nat} {d : Dir} {t n : TileInfo} {c nj : Job1} {eP eQ : Int} {lP lQ : Nat}
    (hy : y < gh) (hx : x < gw)
    (ht : grid2 tiles y x = some t) (htn : t.nullTile = false) (hc : grid2 jobs1 y x = some c)
    (hcond : dirCond d gh gw y x = true)
    (hn : grid2 tiles (dirY d y) (dirX d x) = some n) (hnn : n.nullTile = false)
    (hnj : grid2 jobs1 (dirY d y) (dirX d x) = some nj)
    (htouch : Touching d c nj eP eQ lP lQ)
    (hne : offsetLabel lP t.label_offset ≠ offsetLabel lQ n.label_offset) :
    EdgeBelow g2 (offsetLabel lP t.label_offset) (offsetLabel lQ n.label_offset)
      (max eP eQ) := by
  obtain ⟨_, hall⟩ := joinPerimeters_calls hh hw h
  obtain ⟨u, v, l1, hjoin, l2⟩ := hall y x hy hx
  obtain ⟨u2, v2, l3, hstep, l4⟩ := joinTile_calls ht htn hc hjoin d
  unfold joinStep at hstep
  rw [hcond] at hstep
  have hcall := withNeighbour_run hn hnn hnj hstep
  have hsu2 : Symmetric u2 := (l1.trans_later l3).symmetric hs
  have hest := dirCall_establish hsu2 hcall htouch hne
  exact (l4.trans_later l2).edgeBelow (dirCall_later hcall |>.symmetric hsu2) hest

/-! ## Cross-tile adjacency -/

theorem colStart_succ (size : Nat → Nat) (t : Nat) :
    colStart size (t + 1) = colStart size t + size t :=
  sum_range_succ_map size t

theorem colStart_mono (size : Nat → Nat) {a b : Nat} (h : a ≤ b) :
    colStart size a ≤ colStart size b := by
  induction h with
  | refl => exact le_refl _
  | step _ ih =>
    rw [colStart_succ]
    exact le_trans ih (Nat.le_add_right _ _)

/-- Cells that are next to each other along one axis lie in the same tile column, or
at the facing borders of two consecutive columns. -/
theorem axis_cases (size : Nat → Nat) (n : Nat) (hpos : ∀ t, t < n → 1 ≤ size t)
    {t t2 c c2 : Nat} (ht : t < n) (ht2 : t2 < n) (hc : c < size t) (hc2 : c2 < size t2)
    (h1 : colStart size t + c ≤ colStart size t2 + c2 + 1)
    (h2 : colStart size t2 + c2 ≤ colStart size t + c + 1) :
    (t = t2 ∧ c ≤ c2 + 1 ∧ c2 ≤ c + 1) ∨
    (t2 = t + 1 ∧ c + 1 = size t ∧ c2 = 0) ∨
    (t = t2 + 1 ∧ c2 + 1 = size t2 ∧ c = 0) := by
  have key : ∀ a b ca cb, a < b → b < n → ca < size a → cb < size b →
      colStart size b + cb ≤ colStart size a + ca + 1 →
      b = a + 1 ∧ ca + 1 = size a ∧ cb = 0 := by
    intro a b ca cb hab hb hca hcb hle
    have hs1 := colStart_succ size a
    by_cases hfar : a + 2 ≤ b
    · have hm := colStart_mono size hfar
      have hs2 : colStart size (a + 2) = colStart size (a + 1) + size (a + 1) :=
        colStart_succ size (a + 1)
      have hp := hpos (a + 1) (by omega)
      omega
    · have hb2 : b = a + 1 := by omega
      subst hb2
      omega
  rcases Nat.lt_trichotomy t t2 with h | h | h
  · exact Or.inr (Or.inl (key t t2 c c2 h ht2 hc hc2 h2))
  · subst h
    exact Or.inl ⟨rfl, by omega, by omega⟩
  · exact Or.inr (Or.inr (key t2 t c2 c h ht hc2 hc h1))

theorem head?_eq_getElem? {α : Type} (l : List α) : l.head? = l[0]? := by
  cases l <;> simp

theorem getLast?_eq_getElem? {α : Type} (l : List α) : l.getLast? = l[l.length - 1]? := by
  rw [List.getLast?_eq_getElem?]

theorem mergeTile_shape {jobs1 : Job1Grid} {y x : Nat} {s s2 : MergeState}
    (h : mergeTile jobs1 y x s = some s2) :
    s2.tiles.length = s.tiles.length ∧
    (s2.tiles[0]?).map List.length = (s.tiles[0]?).map List.length := by
  unfold mergeTile at h
  split at h
  · cases h
  · split at h
    · cases h; exact ⟨rfl, rfl⟩
    · split at h
      · cases h
      · split at h
        · cases h
        · cases h
          refine ⟨List.length_modify _ _ _, ?_⟩
          show ((grid2Modify s.tiles y x _)[0]?).map List.length = _
          unfold grid2Modify
          rw [List.getElem?_modify]
          cases s.tiles[0]? with
          | none => rfl
          | some row =>
            simp only [Option.map_eq_map, Option.map_some']
            split
            · rw [List.length_modify]
            · rfl

/-- The merge phase keeps the shape of the tile matrix. -/
theorem mergeGraphs_shape {tiles : TileGrid} {jobs1 : Job1Grid} {gh gw : Nat} {s : MergeState}
    (hr : MergeReady tiles jobs1 gh gw) (h : mergeGraphs tiles jobs1 = some s) :
    s.tiles.length = gh ∧ (s.tiles[0]?).map List.length = some gw := by
  obtain ⟨n, hloop⟩ := mergeGraphs_loop hr h
  have key := forRange_const_inv
    (fun st : MergeState => st.tiles.length = gh ∧ (st.tiles[0]?).map List.length = some gw)
    _ gh _ s ⟨hr.height, hr.width⟩ ?_ hloop
  · exact key
  · intro y u v _ hu hv
    refine forRange_const_inv
      (fun st : MergeState => st.tiles.length = gh ∧ (st.tiles[0]?).map List.length = some gw)
      _ gw u v hu ?_ hv
    intro x u2 v2 _ hu2 hv2
    obtain ⟨h1, h2⟩ := mergeTile_shape hv2
    exact ⟨h1.trans hu2.1, h2.trans hu2.2⟩

theorem jobAt_eq {jobs1 : Job1Grid} {y x : Nat} {j : Job1} (h : grid2 jobs1 y x = some j) :
    jobAt jobs1 y x = j := by
  unfold jobAt
  rw [h]
  rfl

theorem Array2D.get_lt {α : Type} {a : Array2D α} {x y : Nat} {v : α}
    (h : a.get x y = some v) : x < a.width ∧ y < a.height := by
  unfold Array2D.get at h
  by_cases hc : x < a.width ∧ y < a.height
  · exact hc
  · rw [if_neg hc] at h
    cases h

/-- Two facing cells of neighbouring tiles are compared by the join of the first tile
towards the second. -/
theorem touching_of_adjacent {tiles : TileGrid} {jobs1 : Job1Grid} {gh gw : Nat}
    {colW rowH : Nat → Nat} {dems : Nat → Nat → Array2D Int} {labs : Nat → Nat → Array2D Nat}
    (hrast : RasterReady tiles jobs1 gh gw colW rowH dems labs)
    {ty tx ty2 tx2 cx cy cx2 cy2 : Nat} {eP eQ : Int} {lP lQ : Nat}
    (hy : ty < gh) (hx : tx < gw) (hy2 : ty2 < gh) (hx2 : tx2 < gw)
    (hdiff : ¬ (ty = ty2 ∧ tx = tx2))
    (hnA : isNullAt tiles ty tx = false) (hnB : isNullAt tiles ty2 tx2 = false)
    (heP : (dems ty tx).get cx cy = some eP) (hlP : (labs ty tx).get cx cy = some lP)
    (heQ : (dems ty2 tx2).get cx2 cy2 = some eQ) (hlQ : (labs ty2 tx2).get cx2 cy2 = some lQ)
    (hadj : Adjacent8 (colStart colW tx + cx) (colStart rowH ty + cy)
      (colStart colW tx2 + cx2) (colStart rowH ty2 + cy2)) :
    ∃ d, dirCond d gh gw ty tx = true ∧ dirY d ty = ty2 ∧ dirX d tx = tx2 ∧
      Touching d (jobAt jobs1 ty tx) (jobAt jobs1 ty2 tx2) eP eQ lP lQ := by
  obtain ⟨hwA, hhA, _⟩ := hrast.dem_shape ty hy tx hx hnA
  obtain ⟨hwB, hhB, _⟩ := hrast.dem_shape ty2 hy2 tx2 hx2 hnB
  obtain ⟨hwLA, hhLA, _⟩ := hrast.lab_shape ty hy tx hx hnA
  obtain ⟨hwLB, hhLB, _⟩ := hrast.lab_shape ty2 hy2 tx2 hx2 hnB
  obtain ⟨e1, e2, e3, e4, e5, e6, e7, e8⟩ := hrast.elev_perimeter ty hy tx hx hnA
  obtain ⟨f1, f2, f3, f4, f5, f6, f7, f8⟩ := hrast.elev_perimeter ty2 hy2 tx2 hx2 hnB
  obtain ⟨k1, k2, k3, k4, k5, k6, k7, k8⟩ := hrast.label_perimeter ty hy tx hx hnA
  obtain ⟨m1, m2, m3, m4, m5, m6, m7, m8⟩ := hrast.label_perimeter ty2 hy2 tx2 hx2 hnB
  obtain ⟨hcx, hcy⟩ := Array2D.get_lt heP
  obtain ⟨hcx2, hcy2⟩ := Array2D.get_lt heQ
  rw [hwA] at hcx
  rw [hhA] at hcy
  rw [hwB] at hcx2
  rw [hhB] at hcy2
  simp only [hwA, hhA] at e1 e2 e3 e4 e5 e6 e7 e8
  simp only [hwB, hhB] at f1 f2 f3 f4 f5 f6 f7 f8
  simp only [hwLA, hhLA] at k1 k2 k3 k4 k5 k6 k7 k8
  simp only [hwLB, hhLB] at m1 m2 m3 m4 m5 m6 m7 m8
  obtain ⟨a1, a2, a3, a4, _⟩ := hadj
  have hX := axis_cases colW gw hrast.col_pos hx hx2 hcx hcx2 a1 a2
  have hY := axis_cases rowH gh hrast.row_pos hy hy2 hcy hcy2 a3 a4
  have hwpos := hrast.col_pos tx hx
  have hhpos := hrast.row_pos ty hy
  have hwpos2 := hrast.col_pos tx2 hx2
  have hhpos2 := hrast.row_pos ty2 hy2
  rcases hY with ⟨y1, y2, y3⟩ | ⟨y1, y2, y3⟩ | ⟨y1, y2, y3⟩ <;>
  rcases hX with ⟨x1, x2, x3⟩ | ⟨x1, x2, x3⟩ | ⟨x1, x2, x3⟩
  · exact absurd ⟨y1, x1⟩ hdiff
  · -- right
    subst y1
    subst x1
    subst x3
    have hcxe : cx = colW tx - 1 := by omega
    subst hcxe
    refine ⟨.right, by simp [dirCond, hx2], rfl, rfl, ?_⟩
    exact ⟨cy, cy2, by rw [e4]; exact hcy, by rw [e4]; exact hcy2, y2, y3,
      by rw [k8 cy hcy]; exact hlP, by rw [m7 cy2 hcy2]; exact hlQ,
      by rw [e8 cy hcy]; exact heP, by rw [f7 cy2 hcy2]; exact heQ⟩
  · -- left
    subst y1
    subst x3
    have hx1 : tx - 1 = tx2 := by omega
    have hcxe : cx2 = colW tx2 - 1 := by omega
    subst hcxe
    refine ⟨.left, by simp [dirCond]; omega, rfl, hx1, ?_⟩
    exact ⟨cy, cy2, by rw [e3]; exact hcy, by rw [e3]; exact hcy2, y2, y3,
      by rw [k7 cy hcy]; exact hlP, by rw [m8 cy2 hcy2]; exact hlQ,
      by rw [e7 cy hcy]; exact heP, by rw [f8 cy2 hcy2]; exact heQ⟩
  · -- bottom
    subst x1
    subst y1
    subst y3
    have hcye : cy = rowH ty - 1 := by omega
    subst hcye
    refine ⟨.bottom, by simp [dirCond, hy2], rfl, rfl, ?_⟩
    exact ⟨cx, cx2, by rw [e2]; exact hcx, by rw [e2]; exact hcx2, x2, x3,
      by rw [k6 cx hcx]; exact hlP, by rw [m5 cx2 hcx2]; exact hlQ,
      by rw [e6 cx hcx]; exact heP, by rw [f5 cx2 hcx2]; exact heQ⟩
  · -- bottom right
    subst x1
    subst y1
    subst x3
    subst y3
    have hcxe : cx = colW tx - 1 := by omega
    have hcye : cy = rowH ty - 1 := by omega
    subst hcxe
    subst hcye
    refine ⟨.bottomRight, by simp [dirCond, hx2, hy2], rfl, rfl, ?_⟩
    refine ⟨?_, ?_, ?_, ?_⟩
    · rw [getLast?_eq_getElem?, e2, e6 _ hcx]; exact heP
    · rw [head?_eq_getElem?, f5 0 hcx2]; exact heQ
    · rw [getLast?_eq_getElem?, k2, k6 _ hcx]; exact hlP
    · rw [head?_eq_getElem?, m5 0 hcx2]; exact hlQ
  · -- bottom left
    subst y1
    subst x3
    subst y3
    have hx1 : tx - 1 = tx2 := by omega
    have hcxe : cx2 = colW tx2 - 1 := by omega
    have hcye : cy = rowH ty - 1 := by omega
    subst hcxe
    subst hcye
    refine ⟨.bottomLeft, by simp [dirCond, hy2]; omega, rfl, hx1, ?_⟩
    refine ⟨?_, ?_, ?_, ?_⟩
    · rw [head?_eq_getElem?, e6 0 hcx]; exact heP
    · rw [getLast?_eq_getElem?, f1, f5 _ hcx2]; exact heQ
    · rw [head?_eq_getElem?, k6 0 hcx]; exact hlP
    · rw [getLast?_eq_getElem?, m1, m5 _ hcx2]; exact hlQ
  · -- top
    subst x1
    subst y3
    have hy1 : ty - 1 = ty2 := by omega
    have hcye : cy2 = rowH ty2 - 1 := by omega
    subst hcye
    refine ⟨.top, by simp [dirCond]; omega, hy1, rfl, ?_⟩
    exact ⟨cx, cx2, by rw [e1]; exact hcx, by rw [e1]; exact hcx2, x2, x3,
      by rw [k5 cx hcx]; exact hlP, by rw [m6 cx2 hcx2]; exact hlQ,
      by rw [e5 cx hcx]; exact heP, by rw [f6 cx2 hcx2]; exact heQ⟩
  · -- top right
    subst x1
    subst x3
    subst y3
    have hy1 : ty - 1 = ty2 := by omega
    have hcxe : cx = colW tx - 1 := by omega
    have hcye : cy2 = rowH ty2 - 1 := by omega
    subst hcxe
    subst hcye
    refine ⟨.topRight, by simp [dirCond, hx2]; omega, hy1, rfl, ?_⟩
    refine ⟨?_, ?_, ?_, ?_⟩
    · rw [getLast?_eq_getElem?, e1, e5 _ hcx]; exact heP
    · rw [head?_eq_getElem?, f6 0 hcx2]; exact heQ
    · rw [getLast?_eq_getElem?, k1, k5 _ hcx]; exact hlP
    · rw [head?_eq_getElem?, m6 0 hcx2]; exact hlQ
  · -- top left
    subst x3
    subst y3
    have hy1 : ty - 1 = ty2 := by omega
    have hx1 : tx - 1 = tx2 := by omega
    have hcxe : cx2 = colW tx2 - 1 := by omega
    have hcye : cy2 = rowH ty2 - 1 := by omega
    subst hcxe
    subst hcye
    refine ⟨.topLeft, by simp [dirCond]; constructor <;> omega, hy1, hx1, ?_⟩
    refine ⟨?_, ?_, ?_, ?_⟩
    · rw [head?_eq_getElem?, e5 0 hcx]; exact heP
    · rw [getLast?_eq_getElem?, f2, f6 _ hcx2]; exact heQ
    · rw [head?_eq_getElem?, k5 0 hcx]; exact hlP
    · rw [getLast?_eq_getElem?, m2, m6 _ hcx2]; exact hlQ

theorem Array2D.get_mem {α : Type} {a : Array2D α} {x y : Nat} {v : α}
    (h : a.get x y = some v) : v ∈ a.data := by
  unfold Array2D.get at h
  split at h
  · exact List.getElem?_mem h
  · cases h

theorem head?_some_of_pos {α : Type} {l : List α} (h : 1 ≤ l.length) :
    ∃ a, l.head? = some a ∧ a ∈ l := by
  cases l with
  | nil => simp at h
  | cons a r => exact ⟨a, rfl, List.mem_cons_self _ _⟩

theorem getLast?_some_of_pos {α : Type} {l : List α} (h : 1 ≤ l.length) :
    ∃ a, l.getLast? = some a ∧ a ∈ l := by
  have hlt : l.length - 1 < l.length := by omega
  refine ⟨l[l.length - 1], ?_, List.getElem_mem hlt⟩
  rw [getLast?_eq_getElem?, List.getElem?_eq_getElem hlt]

theorem edge_total {ea eb : List Int} {la lb : List Nat} {oa ob n total : Nat} {g : Graph}
    (h1 : ea.length = n) (h2 : eb.length = n) (h3 : la.length = n) (h4 : lb.length = n)
    (ra : ∀ l, l ∈ la → offsetLabel l oa < total) (rb : ∀ l, l ∈ lb → offsetLabel l ob < total)
    (hlen : g.length = total) :
    ∃ g2, HandleEdge ea eb la lb g oa ob = some g2 ∧ g2.length = total := by
  have hr : EdgeReady ea eb la lb oa ob g :=
    { len_elev := h1.trans h2.symm
      len_label := h3.trans h4.symm
      len_mixed := h1.trans h4.symm
      range_a := fun l hl => by rw [hlen]; exact ra l hl
      range_b := fun l hl => by rw [hlen]; exact rb l hl }
  obtain ⟨g2, hg2, hl2⟩ := HandleEdge_total hr (rfl : g.length = g.length)
  exact ⟨g2, hg2, hl2.trans hlen⟩

theorem corner_total {ea eb : Option Int} {la lb : Option Nat} {oa ob total : Nat} {g : Graph}
    (h1 : ∃ a, ea = some a) (h2 : ∃ a, eb = some a)
    (h3 : ∃ l, la = some l ∧ offsetLabel l oa < total)
    (h4 : ∃ l, lb = some l ∧ offsetLabel l ob < total) (hlen : g.length = total) :
    ∃ g2, cornerCall ea eb la lb oa ob g = some g2 ∧ g2.length = total := by
  obtain ⟨a, rfl⟩ := h1
  obtain ⟨b, rfl⟩ := h2
  obtain ⟨l1, rfl, r1⟩ := h3
  obtain ⟨l2, rfl, r2⟩ := h4
  rw [← hlen] at r1 r2
  obtain ⟨g2, hg2⟩ := upsertMin_isSome (max a b) r1 r2
  exact ⟨g2, hg2, (upsertMin_length hg2).trans hlen⟩

theorem head_ready {α : Type} {l : List α} (h : 1 ≤ l.length) : ∃ a, l.head? = some a :=
  (head?_some_of_pos h).imp fun _ ha => ha.1

theorem last_ready {α : Type} {l : List α} (h : 1 ≤ l.length) : ∃ a, l.getLast? = some a :=
  (getLast?_some_of_pos h).imp fun _ ha => ha.1

theorem head_range {l : List Nat} {off total : Nat} (h : 1 ≤ l.length)
    (hr : ∀ a, a ∈ l → offsetLabel a off < total) :
    ∃ a, l.head? = some a ∧ offsetLabel a off < total :=
  (head?_some_of_pos h).imp fun a ha => ⟨ha.1, hr a ha.2⟩

theorem last_range {l : List Nat} {off total : Nat} (h : 1 ≤ l.length)
    (hr : ∀ a, a ∈ l → offsetLabel a off < total) :
    ∃ a, l.getLast? = some a ∧ offsetLabel a off < total :=
  (getLast?_some_of_pos h).imp fun a ha => ⟨ha.1, hr a ha.2⟩

/-- The join towards `d` returns when both replies are ready and the two tiles share
the size of the side they have in common. -/
theorem dirCall_total {d : Dir} {c nj : Job1} {oa ob w h w2 h2 total : Nat} {g : Graph}
    (hA : PerimReady c oa w h total) (hB : PerimReady nj ob w2 h2 total)
    (hw : (d = .top ∨ d = .bottom) → w2 = w) (hh : (d = .left ∨ d = .right) → h2 = h)
    (hlen : g.length = total) :
    ∃ g2, dirCall d c nj oa ob g = some g2 ∧ g2.length = total := by
  have pa1 : 1 ≤ c.top_elev.length := by rw [hA.top_elev]; exact hA.w_pos
  have pa2 : 1 ≤ c.bot_elev.length := by rw [hA.bot_elev]; exact hA.w_pos
  have pa3 : 1 ≤ c.top_label.length := by rw [hA.top_label]; exact hA.w_pos
  have pa4 : 1 ≤ c.bot_label.length := by rw [hA.bot_label]; exact hA.w_pos
  have pb1 : 1 ≤ nj.top_elev.length := by rw [hB.top_elev]; exact hB.w_pos
  have pb2 : 1 ≤ nj.bot_elev.length := by rw [hB.bot_elev]; exact hB.w_pos
  have pb3 : 1 ≤ nj.top_label.length := by rw [hB.top_label]; exact hB.w_pos
  have pb4 : 1 ≤ nj.bot_label.length := by rw [hB.bot_label]; exact hB.w_pos
  cases d
  · have e := hw (Or.inl rfl)
    exact edge_total hA.top_elev (hB.bot_elev.trans e) hA.top_label (hB.bot_label.trans e)
      hA.top_range hB.bot_range hlen
  · have e := hw (Or.inr rfl)
    exact edge_total hA.bot_elev (hB.top_elev.trans e) hA.bot_label (hB.top_label.trans e)
      hA.bot_range hB.top_range hlen
  · have e := hh (Or.inl rfl)
    exact edge_total hA.left_elev (hB.right_elev.trans e) hA.left_label
      (hB.right_label.trans e) hA.left_range hB.right_range hlen
  · have e := hh (Or.inr rfl)
    exact edge_total hA.right_elev (hB.left_elev.trans e) hA.right_label
      (hB.left_label.trans e) hA.right_range hB.left_range hlen
  · exact corner_total (head_ready pa1) (last_ready pb2) (head_range pa3 hA.top_range)
      (last_range pb4 hB.bot_range) hlen
  · exact corner_total (last_ready pa2) (head_ready pb1) (last_range pa4 hA.bot_range)
      (head_range pb3 hB.top_range) hlen
  · exact corner_total (last_ready pa1) (head_ready pb2) (last_range pa3 hA.top_range)
      (head_range pb4 hB.bot_range) hlen
  · exact corner_total (head_ready pa2) (last_ready pb1) (head_range pa4 hA.bot_range)
      (last_range pb3 hB.top_range) hlen

/-- A join whose guard holds looks at a tile of the matrix, in the same column for a
vertical join and in the same row for a horizontal one. -/
theorem dir_range {d : Dir} {gh gw y x : Nat} (hy : y < gh) (hx : x < gw)
    (h : dirCond d gh gw y x = true) :
    dirY d y < gh ∧ dirX d x < gw ∧
    ((d = .top ∨ d = .bottom) → dirX d x = x) ∧ ((d = .left ∨ d = .right) → dirY d y = y) := by
  cases d <;> simp [dirCond, dirY, dirX] at h ⊢ <;> omega

/-- Every tile position of the returned matrix holds a tile. -/
theorem MergeInv.tile_exists {tiles : TileGrid} {jobs1 : Job1Grid} {gh gw : Nat}
    {G : Nat → Nat → Graph → Prop} {s : MergeState}
    (hr : MergeReady tiles jobs1 gh gw)
    (hinv : MergeInv tiles jobs1 gw G gh 0 s) {y x : Nat} (hy : y < gh) (hx : x < gw) :
    ∃ t, grid2 s.tiles y x = some t := by
  obtain ⟨t0, ht0⟩ := isSome_get (hr.tiles_rect y hy x hx)
  exact ⟨_, hinv.tiles_done y x t0 hx (Or.inl hy) ht0⟩

theorem perimReady_of_raster {tiles : TileGrid} {jobs1 : Job1Grid} {gh gw : Nat}
    {colW rowH : Nat → Nat} {dems : Nat → Nat → Array2D Int} {labs : Nat → Nat → Array2D Nat}
    {G : Nat → Nat → Graph → Prop} {s : MergeState}
    (hr : MergeReady tiles jobs1 gh gw)
    (hrast : RasterReady tiles jobs1 gh gw colW rowH dems labs)
    (hinv : MergeInv tiles jobs1 gw G gh 0 s) {y x : Nat} {t : TileInfo}
    (hy : y < gh) (hx : x < gw) (ht : grid2 s.tiles y x = some t) (hn : t.nullTile = false) :
    PerimReady (jobAt jobs1 y x) t.label_offset (colW x) (rowH y)
      (sumAll (graphSizeAt jobs1) gh gw) := by
  obtain ⟨hnull, _, _, hblock⟩ := hinv.output_tile hr hy hx ht hn
  obtain ⟨_, _, _⟩ := hrast.dem_shape y hy x hx hnull
  obtain ⟨hwL, hhL, _⟩ := hrast.lab_shape y hy x hx hnull
  obtain ⟨e1, e2, e3, e4, _, _, _, _⟩ := hrast.elev_perimeter y hy x hx hnull
  obtain ⟨k1, k2, k3, k4, k5, k6, k7, k8⟩ := hrast.label_perimeter y hy x hx hnull
  have hsmall := hrast.labels_small y hy x hx hnull
  have hrange : ∀ (arr : List Nat) (n : Nat) (f : Nat → Option Nat), arr.length = n →
      (∀ i, i < n → arr[i]? = f i) → (∀ i v, f i = some v → v ∈ (labs y x).data) →
      ∀ l, l ∈ arr → offsetLabel l t.label_offset < sumAll (graphSizeAt jobs1) gh gw := by
    intro arr n f hlen hat hf l hl
    obtain ⟨i, hi⟩ := List.mem_iff_getElem?.mp hl
    have hlt : i < n := by
      rw [← hlen]
      exact (List.getElem?_eq_some_iff.mp hi).1
    rw [hat i hlt] at hi
    exact offsetLabel_lt (hsmall l (hf i l hi)) hblock hr.fits
  simp only [*] at e1 e2 e3 e4 k1 k2 k3 k4
  exact
    { w_pos := hrast.col_pos x hx
      h_pos := hrast.row_pos y hy
      top_elev := e1
      bot_elev := e2
      left_elev := e3
      right_elev := e4
      top_label := k1
      bot_label := k2
      left_label := k3
      right_label := k4
      top_range := hrange _ _ _ k1 (by rw [← hwL]; exact k5) (fun _ _ h => Array2D.get_mem h)
      bot_range := hrange _ _ _ k2 (by rw [← hwL]; exact k6) (fun _ _ h => Array2D.get_mem h)
      left_range := hrange _ _ _ k3 (by rw [← hhL]; exact k7) (fun _ _ h => Array2D.get_mem h)
      right_range := hrange _ _ _ k4 (by rw [← hhL]; exact k8) (fun _ _ h => Array2D.get_mem h) }

theorem joinStep_total {tiles : TileGrid} {jobs1 : Job1Grid} {gh gw : Nat}
    {colW rowH : Nat → Nat} {dems : Nat → Nat → Array2D Int} {labs : Nat → Nat → Array2D Nat}
    {G : Nat → Nat → Graph → Prop} {s : MergeState}
    (hr : MergeReady tiles jobs1 gh gw)
    (hrast : RasterReady tiles jobs1 gh gw colW rowH dems labs)
    (hinv : MergeInv tiles jobs1 gw G gh 0 s) {y x : Nat} {t : TileInfo}
    (hy : y < gh) (hx : x < gw) (ht : grid2 s.tiles y x = some t) (hn : t.nullTile = false)
    (d : Dir) (g : Graph) (hlen : g.length = sumAll (graphSizeAt jobs1) gh gw) :
    ∃ g2, joinStep s.tiles jobs1 gh gw y x t (jobAt jobs1 y x) d g = some g2 ∧
      g2.length = sumAll (graphSizeAt jobs1) gh gw := by
  unfold joinStep withNeighbour
  by_cases hcond : dirCond d gh gw y x = true
  · rw [if_pos hcond]
    obtain ⟨hny, hnx, hsamex, hsamey⟩ := dir_range hy hx hcond
    obtain ⟨n, hnt⟩ := hinv.tile_exists hr hny hnx
    rw [hnt]
    simp only
    by_cases hnn : n.nullTile = true
    · rw [if_pos hnn]
      exact ⟨g, rfl, hlen⟩
    · rw [if_neg hnn]
      have hnn2 : n.nullTile = false := by
        cases hb : n.nullTile
        · rfl
        · exact absurd hb hnn
      obtain ⟨nj, hnj⟩ := isSome_get (hr.jobs_rect _ hny _ hnx)
      rw [hnj]
      simp only
      have hA := perimReady_of_raster hr hrast hinv hy hx ht hn
      have hB := perimReady_of_raster hr hrast hinv hny hnx hnt hnn2
      rw [jobAt_eq hnj] at hB
      exact dirCall_total hA hB (fun h => by rw [hsamex h]) (fun h => by rw [hsamey h]) hlen
  · rw [if_neg hcond]
    exact ⟨g, rfl, hlen⟩

theorem joinTile_total {tiles : TileGrid} {jobs1 : Job1Grid} {gh gw : Nat}
    {colW rowH : Nat → Nat} {dems : Nat → Nat → Array2D Int} {labs : Nat → Nat → Array2D Nat}
    {G : Nat → Nat → Graph → Prop} {s : MergeState}
    (hr : MergeReady tiles jobs1 gh gw)
    (hrast : RasterReady tiles jobs1 gh gw colW rowH dems labs)
    (hinv : MergeInv tiles jobs1 gw G gh 0 s) {y x : Nat} (hy : y < gh) (hx : x < gw)
    (g : Graph) (hlen : g.length = sumAll (graphSizeAt jobs1) gh gw) :
    ∃ g2, joinTile s.tiles jobs1 gh gw y x g = some g2 ∧
      g2.length = sumAll (graphSizeAt jobs1) gh gw := by
  obtain ⟨t, ht⟩ := hinv.tile_exists hr hy hx
  by_cases hn : t.nullTile = true
  · refine ⟨g, ?_, hlen⟩
    unfold joinTile
    rw [ht]
    simp only
    rw [if_pos hn]
  · have hn2 : t.nullTile = false := by
      cases hb : t.nullTile
      · rfl
      · exact absurd hb hn
    obtain ⟨c, hc⟩ := isSome_get (hr.jobs_rect y hy x hx)
    rw [joinTile_steps ht hn2 hc]
    have step := fun d u hu => joinStep_total hr hrast hinv hy hx ht hn2 d u hu
    rw [jobAt_eq hc] at step
    obtain ⟨g1, h1, l1⟩ := step .top g hlen
    obtain ⟨g3, h3, l3⟩ := step .bottom g1 l1
    obtain ⟨g4, h4, l4⟩ := step .left g3 l3
    obtain ⟨g5, h5, l5⟩ := step .right g4 l4
    obtain ⟨g6, h6, l6⟩ := step .topLeft g5 l5
    obtain ⟨g7, h7, l7⟩ := step .bottomRight g6 l6
    obtain ⟨g8, h8, l8⟩ := step .topRight g7 l7
    obtain ⟨g9, h9, l9⟩ := step .bottomLeft g8 l8
    refine ⟨g9, ?_, l9⟩
    rw [h1, Option.some_bind, h3, Option.some_bind, h4, Option.some_bind, h5, Option.some_bind,
      h6, Option.some_bind, h7, Option.some_bind, h8, Option.some_bind, h9]

/-- On a raster cut into the tiles, the perimeter phase returns. -/
theorem joinPerimeters_total {tiles : TileGrid} {jobs1 : Job1Grid} {gh gw : Nat}
    {colW rowH : Nat → Nat} {dems : Nat → Nat → Array2D Int} {labs : Nat → Nat → Array2D Nat}
    {G : Nat → Nat → Graph → Prop} {s : MergeState}
    (hr : MergeReady tiles jobs1 gh gw)
    (hrast : RasterReady tiles jobs1 gh gw colW rowH dems labs)
    (hs : mergeGraphs tiles jobs1 = some s)
    (hinv : MergeInv tiles jobs1 gw G gh 0 s)
    (hlen : s.mastergraph.length = sumAll (graphSizeAt jobs1) gh gw) :
    ∃ g2, joinPerimeters s.tiles jobs1 s.mastergraph = some g2 := by
  obtain ⟨hh, hw⟩ := mergeGraphs_shape hr hs
  unfold joinPerimeters
  cases hrow : s.tiles[0]? with
  | none => rw [hrow] at hw; cases hw
  | some row0 =>
    have hw2 : row0.length = gw := by
      rw [hrow] at hw
      simpa using hw
    simp only
    rw [hh, hw2]
    obtain ⟨g2, hg2, _⟩ := forRange_total
      (fun _ u => u.length = sumAll (graphSizeAt jobs1) gh gw)
      (fun y g1 => forRange gw (fun x g2 => joinTile s.tiles jobs1 gh gw y x g2) g1)
      gh s.mastergraph hlen
      (fun y u hy hu => forRange_total
        (fun _ u2 => u2.length = sumAll (graphSizeAt jobs1) gh gw)
        (fun x g2 => joinTile s.tiles jobs1 gh gw y x g2) gw u hu
        (fun x u2 hx hu2 => joinTile_total hr hrast hinv hy hx u2 hu2))
    exact ⟨g2, hg2⟩

theorem exRaster : RasterReady exTiles exJobs 1 2 (fun _ => 3) (fun _ => 3) exDems exLabs :=
  { col_pos := by decide
    row_pos := by decide
    dem_shape := by decide
    lab_shape := by decide
    elev_perimeter := by decide
    label_perimeter := by decide
    labels_small := by decide }

/-- One iteration of the flood loop on a non-empty queue does not fail and reduces
the work left, whatever the weights are. -/
theorem floodStep_safe {g : Graph} {s : FloodState} (hk : KeysInRange g)
    (hsafe : FloodSafe g s) (hne : s.openq ≠ []) :
    ∃ s2, floodStep g s = some s2 ∧ FloodSafe g s2 ∧ floodMeasure g s2 < floodMeasure g s := by
  obtain ⟨c, hc⟩ := heapTop_isSome hne
  obtain ⟨hcmem, _⟩ := heapTop_spec _ _ hc
  have hcv := hsafe.queue c hcmem
  have hcv2 : c.2 < s.visited.length := by rw [hsafe.len_visited]; exact hcv
  have hlen_erase : (s.openq.erase c).length + 1 = s.openq.length := by
    rw [List.length_erase_of_mem hcmem]
    have : 0 < s.openq.length := List.length_pos_of_mem hcmem
    omega
  unfold floodStep
  rw [hc]
  simp only
  rw [List.getElem?_eq_getElem hcv2]
  cases hvis : s.visited[c.2] with
  | true =>
    refine ⟨_, rfl, ⟨hsafe.len_visited, hsafe.len_elev, ?_⟩, ?_⟩
    · intro x hx
      exact hsafe.queue x (List.mem_of_mem_erase hx)
    · unfold floodMeasure
      dsimp only
      omega
  | false =>
    have hvis2 : s.visited[c.2]? = some false := by
      rw [List.getElem?_eq_getElem hcv2, hvis]
    simp only
    rw [List.getElem?_eq_getElem hcv]
    simp only
    have hnb : g[c.2]? = some g[c.2] := List.getElem?_eq_getElem hcv
    have hkeys : ∀ p, p ∈ g[c.2] → p.1 < g.length :=
      fun p hp => hk g[c.2] (List.getElem_mem hcv) p hp
    obtain ⟨s2, hs2, hv2, he2, hq2, hl2⟩ := floodNeighbours_spec c.1 g[c.2]
      { openq := s.openq.erase c, visited := s.visited.set c.2 true,
        graph_elev := s.graph_elev.set c.2 c.1 }
      (by
        intro p hp
        simp only [List.length_set]
        rw [hsafe.len_visited]
        exact hkeys p hp)
    simp only at hv2 he2 hq2 hl2
    have hvset : ∀ u, u ≠ c.2 → s2.visited[u]? = s.visited[u]? := by
      intro u hu
      rw [hv2]
      exact List.getElem?_set_ne (fun h => hu h.symm)
    have hvself : s2.visited[c.2]? = some true := by
      rw [hv2]
      exact List.getElem?_set_self hcv2
    refine ⟨s2, hs2, ⟨?_, ?_, ?_⟩, ?_⟩
    · rw [hv2, List.length_set]; exact hsafe.len_visited
    · rw [he2, List.length_set]; exact hsafe.len_elev
    · intro x hx
      rcases (hq2 x).mp hx with h1 | ⟨p, hp, _, rfl⟩
      · exact hsafe.queue x (List.mem_of_mem_erase h1)
      · exact hkeys p hp
    · unfold floodMeasure
      have hpoint := @sum_range_point
        (fun v => if s.visited[v]? = some true then 0 else (g.getD v []).length)
        (fun v => if s2.visited[v]? = some true then 0 else (g.getD v []).length)
        g.length c.2 hcv
        (by
          intro u hu
          simp only
          rw [hvset u hu])
        (by
          simp only
          rw [hvself, if_pos rfl])
      have hrem : (if s.visited[c.2]? = some true then 0 else (g.getD c.2 []).length)
          = g[c.2].length := by
        rw [hvis2, if_neg (by simp), getD_of_getElem? hnb]
      dsimp only at hpoint
      rw [hrem] at hpoint
      omega

theorem floodLoop_total {g : Graph} (hk : KeysInRange g) :
    ∀ (fuel : Nat) (s : FloodState), FloodSafe g s → floodMeasure g s ≤ fuel →
      ∃ s2, floodLoop g fuel s = some s2 := by
  intro fuel
  induction fuel with
  | zero =>
    intro s _ hm
    have hnil : s.openq = [] := by
      have : s.openq.length = 0 := by
        unfold floodMeasure at hm
        omega
      exact List.length_eq_zero.mp this
    refine ⟨s, ?_⟩
    simp only [floodLoop, hnil, List.isEmpty_nil, if_true]
  | succ fuel ih =>
    intro s hsafe hm
    by_cases hnil : s.openq = []
    · refine ⟨s, ?_⟩
      simp only [floodLoop, hnil, List.isEmpty_nil, if_true]
    · obtain ⟨s1, hs1, hsafe1, hlt⟩ := floodStep_safe hk hsafe hnil
      obtain ⟨s2, hs2⟩ := ih s1 hsafe1 (by omega)
      refine ⟨s2, ?_⟩
      have hne : s.openq.isEmpty = false := by
        cases hq : s.openq with
        | nil => exact absurd hq hnil
        | cons a r => rfl
      simp only [floodLoop, hne, Bool.false_eq_true, if_false, hs1, Option.some_bind]
      exact hs2

/-- The flood returns on every graph with vertex 1 whose neighbour keys are vertices. -/
theorem aggregatedFlood_total {g : Graph} (lowest : Int) (htwo : 2 ≤ g.length)
    (hk : KeysInRange g) : ∃ fill, aggregatedFlood lowest g = some fill := by
  obtain ⟨s, hs⟩ := floodLoop_total hk (floodFuel g)
    { openq := [(lowest, 1)], visited := List.replicate g.length false,
      graph_elev := List.replicate g.length 0 }
    ⟨List.length_replicate _ _, List.length_replicate _ _, fun x hx => by
      simp only [List.mem_singleton] at hx
      subst hx
      exact htwo⟩
    (le_of_eq (floodInit_measure g lowest))
  refine ⟨s.graph_elev, ?_⟩
  unfold aggregatedFlood
  rw [hs]
  rfl

theorem mem_mapSet {m : EdgeMap} {k : Nat} {v : Int} {p : Nat × Int}
    (h : p ∈ mapSet m k v) : p = (k, v) ∨ p ∈ m := by
  induction m with
  | nil =>
    simp only [mapSet, List.mem_singleton] at h
    exact Or.inl h
  | cons q rest ih =>
    obtain ⟨kq, vq⟩ := q
    simp only [mapSet] at h
    split at h
    · rcases List.mem_cons.mp h with h1 | h1
      · exact Or.inl h1
      · exact Or.inr h1
    · split at h
      · rcases List.mem_cons.mp h with h1 | h1
        · exact Or.inl h1
        · exact Or.inr (List.mem_cons_of_mem _ h1)
      · rcases List.mem_cons.mp h with h1 | h1
        · exact Or.inr (by rw [h1]; exact List.mem_cons_self _ _)
        · rcases ih h1 with h2 | h2
          · exact Or.inl h2
          · exact Or.inr (List.mem_cons_of_mem _ h2)

theorem graphSet_keys {g g2 : Graph} {a b : Nat} {w : Int} (hk : KeysInRange g)
    (hb : b < g.length) (h : graphSet g a b w = some g2) : KeysInRange g2 := by
  unfold graphSet at h
  cases hm : g[a]? with
  | none => rw [hm] at h; cases h
  | some m =>
    rw [hm] at h
    cases h
    intro em hem p hp
    rw [List.length_set]
    rcases List.mem_or_eq_of_mem_set hem with h1 | h1
    · exact hk em h1 p hp
    · subst h1
      rcases mem_mapSet hp with h2 | h2
      · rw [h2]; exact hb
      · exact hk m (List.getElem?_mem hm) p h2

theorem graphSetBoth_keys {g g2 : Graph} {a b : Nat} {w : Int} (hk : KeysInRange g)
    (h : graphSetBoth g a b w = some g2) : KeysInRange g2 := by
  obtain ⟨ha, hb, _, _⟩ := graphSetBoth_spec h
  unfold graphSetBoth at h
  cases h1 : graphSet g a b w with
  | none => rw [h1] at h; cases h
  | some g1 =>
    rw [h1] at h
    simp only [Option.some_bind] at h
    have hk1 := graphSet_keys hk hb h1
    have hlen := (graphSet_spec h1).2.1
    exact graphSet_keys hk1 (by rw [hlen]; exact ha) h

theorem keysInRange_replicate (n : Nat) : KeysInRange (List.replicate n ([] : EdgeMap)) := by
  intro em hem p hp
  rw [(List.mem_replicate.mp hem).2] at hp
  cases hp

/-- Every neighbour key of the finished master graph is one of its vertices. -/
theorem buildMasterGraph_keys {tiles : TileGrid} {jobs1 : Job1Grid} {tiles2 : TileGrid}
    {g : Graph} (h : buildMasterGraph tiles jobs1 = some (tiles2, g)) : KeysInRange g := by
  have hset : ∀ u v a b w, KeysInRange u → graphSetBoth u a b w = some v → KeysInRange v :=
    fun _ _ _ _ _ hu hv => graphSetBoth_keys hu hv
  unfold buildMasterGraph at h
  cases hs : mergeGraphs tiles jobs1 with
  | none => rw [hs] at h; cases h
  | some s =>
    rw [hs] at h
    simp only at h
    cases hj : joinPerimeters s.tiles jobs1 s.mastergraph with
    | none => rw [hj] at h; cases h
    | some g2 =>
      rw [hj] at h
      cases h
      exact joinPerimeters_inv KeysInRange (graphSetBoth_of_upsert KeysInRange hset)
        (mergeGraphs_inv KeysInRange hset keysInRange_replicate hs) hj

/-- On a raster cut into the tiles of a well-formed matrix with at least two labels,
`Calculations` returns. -/
theorem Calculations_total {tiles : TileGrid} {jobs1 : Job1Grid} {gh gw : Nat}
    {colW rowH : Nat → Nat} {dems : Nat → Nat → Array2D Int} {labs : Nat → Nat → Array2D Nat}
    (lowest : Int) (hr : MergeReady tiles jobs1 gh gw)
    (hrast : RasterReady tiles jobs1 gh gw colW rowH dems labs)
    (htwo : 2 ≤ sumAll (graphSizeAt jobs1) gh gw) :
    ∃ tiles2 fill, Calculations lowest tiles jobs1 = some (tiles2, fill) := by
  obtain ⟨s, hs, hinv⟩ := mergeGraphs_ready hr
  obtain ⟨g, hg⟩ := joinPerimeters_total hr hrast hs hinv hinv.graph
  have hb : buildMasterGraph tiles jobs1 = some (s.tiles, g) := by
    unfold buildMasterGraph
    rw [hs]
    simp only
    rw [hg]
  obtain ⟨_, hglen, _⟩ := buildMasterGraph_of_merge hs hb
  obtain ⟨fill, hfill⟩ := aggregatedFlood_total lowest
    (by rw [hglen, hinv.graph]; exact htwo) (buildMasterGraph_keys hb)
  refine ⟨s.tiles, fill, ?_⟩
  unfold Calculations
  rw [hb]
  simp only
  rw [hfill]

/-- C4: the phase-2 slice is aligned with the global label namespace.  On well-formed
input `Calculations` returns (for a raster cut into the tiles, with at least the two
reserved labels), and whenever it returns, then for every non-null tile `T` the slice
`DistributeJob2(T)` exists, has length `T.label_increment`, and holds
`fill_elev[l + T.label_offset]` at `l`; for `l ≥ 2` that index is the global label the
code computed for `l`, so `SecondRound` raises a cell of `T` with local label `l`
against the fill elevation of its own global label. -/
theorem C4_slice_aligned (lowest : Int) (tiles : TileGrid) (jobs1 : Job1Grid) (gh gw : Nat)
    (hr : MergeReady tiles jobs1 gh gw) :
    (∀ (colW rowH : Nat → Nat) (dems : Nat → Nat → Array2D Int)
        (labs : Nat → Nat → Array2D Nat),
      RasterReady tiles jobs1 gh gw colW rowH dems labs →
      2 ≤ sumAll (graphSizeAt jobs1) gh gw →
        ∃ tiles2 fill, Calculations lowest tiles jobs1 = some (tiles2, fill)) ∧
    ∀ tiles2 fill, Calculations lowest tiles jobs1 = some (tiles2, fill) →
      ∀ ty tx t, ty < gh → tx < gw → grid2 tiles2 ty tx = some t → t.nullTile = false →
        ∃ job2, DistributeJob2 fill tiles2 tx ty = some job2 ∧
          job2.length = t.label_increment ∧
          (∀ l, l < t.label_increment → job2[l]? = fill[l + t.label_offset]?) ∧
          (∀ l, 2 ≤ l → l < t.label_increment →
            offsetLabel l t.label_offset = l + t.label_offset) ∧
          (∀ s s2, SecondRound job2 s = some s2 →
            ∀ x y e l, s.dem.get x y = some e → s.labels.get x y = some l → 1 < l →
              ∃ f, fill[offsetLabel l t.label_offset]? = some f ∧
                s2.dem.get x y = some (max e f)) :=
  ⟨fun _ _ _ _ hrast htwo => Calculations_total lowest hr hrast htwo,
   fun tiles2 fill hcalc => slice_aligned_of_calc lowest tiles jobs1 gh gw tiles2 fill hr hcalc⟩

theorem C4_witness :
    (∃ tiles2 fill, Calculations (-2147483648) exTiles exJobs = some (tiles2, fill)) ∧
    ∃ job2, DistributeJob2 [0, -2147483648, 9, 0, 0, 5] exTilesDone 1 0 = some job2 ∧
      job2.length = 3 :=
  ⟨(C4_slice_aligned (-2147483648) exTiles exJobs 1 2 exReady).1 (fun _ => 3) (fun _ => 3)
      exDems exLabs exRaster (by decide),
   match (C4_slice_aligned (-2147483648) exTiles exJobs 1 2 exReady).2 exTilesDone
      [0, -2147483648, 9, 0, 0, 5] exFlood_eq 0 1 (exTile 1 3 3) (by decide) (by decide)
      (by decide) (by decide) with
   | ⟨job2, h1, h2, _⟩ => ⟨job2, h1, h2⟩⟩

/-! ## FirstRound: re-orientation of the perimeter -/

theorem filterMap_range_length {α : Type} (f : Nat → Option α) :
    ∀ n : Nat, (∀ i, i < n → (f i).isSome = true) → ((List.range n).filterMap f).length = n := by
  intro n
  induction n with
  | zero => intro _; rfl
  | succ n ih =>
    intro h
    rw [List.range_succ, List.filterMap_append, List.length_append,
      ih (fun i hi => h i (Nat.lt_succ_of_lt hi))]
    have hn := h n (Nat.lt_succ_self n)
    cases hf : f n with
    | none => rw [hf] at hn; cases hn
    | some v => simp [List.filterMap, hf]

theorem filterMap_range_getElem? {α : Type} (f : Nat → Option α) :
    ∀ n : Nat, (∀ i, i < n → (f i).isSome = true) → ∀ k, k < n →
      ((List.range n).filterMap f)[k]? = f k := by
  intro n
  induction n with
  | zero => intro _ k hk; omega
  | succ n ih =>
    intro h k hk
    have hlen := filterMap_range_length f n (fun i hi => h i (Nat.lt_succ_of_lt hi))
    rw [List.range_succ, List.filterMap_append]
    by_cases hkn : k < n
    · rw [List.getElem?_append_left (by rw [hlen]; exact hkn)]
      exact ih (fun i hi => h i (Nat.lt_succ_of_lt hi)) k hkn
    · have hk2 : k = n := by omega
      subst hk2
      rw [List.getElem?_append_right (by rw [hlen]), hlen, Nat.sub_self]
      have hn := h k (Nat.lt_succ_self k)
      cases hf : f k with
      | none => rw [hf] at hn; cases hn
      | some v => simp [List.filterMap, hf]

theorem Array2D.get_isSome {α : Type} {a : Array2D α} (hw : a.WellFormed) {x y : Nat}
    (hx : x < a.width) (hy : y < a.height) : (a.get x y).isSome = true := by
  unfold Array2D.get
  rw [if_pos ⟨hx, hy⟩]
  have hlt : y * a.width + x < a.data.length := by
    rw [hw]
    calc y * a.width + x < y * a.width + a.width := by omega
      _ = (y + 1) * a.width := by ring
      _ ≤ a.height * a.width := Nat.mul_le_mul_right _ hy
      _ = a.width * a.height := Nat.mul_comm _ _
  rw [List.getElem?_eq_getElem hlt]
  rfl

theorem index_lt {w h x y : Nat} (hx : x < w) (hy : y < h) : y * w + x < w * h := by
  calc y * w + x < y * w + w := by omega
    _ = (y + 1) * w := by ring
    _ ≤ h * w := Nat.mul_le_mul_right _ hy
    _ = w * h := Nat.mul_comm _ _

theorem index_mod {w x y : Nat} (hx : x < w) : (y * w + x) % w = x := by
  rw [Nat.add_comm, Nat.add_mul_mod_self_right]
  exact Nat.mod_eq_of_lt hx

theorem index_div {w x y : Nat} (hx : x < w) : (y * w + x) / w = y := by
  rw [Nat.add_comm, Nat.add_mul_div_right _ _ (by omega), Nat.div_eq_of_lt hx, Nat.zero_add]

theorem Array2D.mirrorVert_wellFormed {α : Type} {a : Array2D α} (hw : a.WellFormed) :
    a.mirrorVert.WellFormed := by
  unfold Array2D.WellFormed Array2D.mirrorVert
  simp only
  apply filterMap_range_length
  intro i hi
  have hpos : 0 < a.width := by
    rcases Nat.eq_zero_or_pos a.width with h | h
    · rw [h, Nat.zero_mul] at hi; omega
    · exact h
  have hdiv : i / a.width < a.height := by
    apply (Nat.div_lt_iff_lt_mul hpos).mpr
    rw [Nat.mul_comm]
    exact hi
  have hrow : a.height - 1 - i / a.width < a.height := by
    generalize i / a.width = q at hdiv
    omega
  exact Array2D.get_isSome hw (Nat.mod_lt _ hpos) hrow

theorem Array2D.mirrorHorz_wellFormed {α : Type} {a : Array2D α} (hw : a.WellFormed) :
    a.mirrorHorz.WellFormed := by
  unfold Array2D.WellFormed Array2D.mirrorHorz
  simp only
  apply filterMap_range_length
  intro i hi
  have hpos : 0 < a.width := by
    rcases Nat.eq_zero_or_pos a.width with h | h
    · rw [h, Nat.zero_mul] at hi; omega
    · exact h
  have hdiv : i / a.width < a.height := by
    apply (Nat.div_lt_iff_lt_mul hpos).mpr
    rw [Nat.mul_comm]
    exact hi
  exact Array2D.get_isSome hw (by omega) hdiv

/-- A cell of the vertically mirrored grid. -/
theorem Array2D.get_mirrorVert {α : Type} {a : Array2D α} (hw : a.WellFormed) (x y : Nat) :
    a.mirrorVert.get x y = if y < a.height then a.get x (a.height - 1 - y) else none := by
  by_cases hy : y < a.height
  · rw [if_pos hy]
    by_cases hx : x < a.width
    · have hget : a.mirrorVert.get x y = a.mirrorVert.data[y * a.width + x]? := by
        unfold Array2D.get
        rw [if_pos ⟨hx, hy⟩]
        rfl
      rw [hget]
      unfold Array2D.mirrorVert
      simp only
      rw [filterMap_range_getElem? _ _ _ _ (index_lt hx hy), index_mod hx, index_div hx]
      intro i hi
      have hpos : 0 < a.width := by omega
      have hdiv : i / a.width < a.height := by
        apply (Nat.div_lt_iff_lt_mul hpos).mpr
        rw [Nat.mul_comm]
        exact hi
      have hrow : a.height - 1 - i / a.width < a.height := by
        generalize i / a.width = q at hdiv
        omega
      exact Array2D.get_isSome hw (Nat.mod_lt _ hpos) hrow
    · have h1 : a.mirrorVert.get x y = none := by
        unfold Array2D.get
        rw [if_neg (fun h => hx h.1)]
      have h2 : a.get x (a.height - 1 - y) = none := by
        unfold Array2D.get
        rw [if_neg (fun h => hx h.1)]
      rw [h1, h2]
  · rw [if_neg hy]
    unfold Array2D.get
    rw [if_neg (fun h => hy h.2)]

/-- A cell of the horizontally mirrored grid. -/
theorem Array2D.get_mirrorHorz {α : Type} {a : Array2D α} (hw : a.WellFormed) (x y : Nat) :
    a.mirrorHorz.get x y = if x < a.width then a.get (a.width - 1 - x) y else none := by
  by_cases hx : x < a.width
  · rw [if_pos hx]
    by_cases hy : y < a.height
    · have hget : a.mirrorHorz.get x y = a.mirrorHorz.data[y * a.width + x]? := by
        unfold Array2D.get
        rw [if_pos ⟨hx, hy⟩]
        rfl
      rw [hget]
      unfold Array2D.mirrorHorz
      simp only
      rw [filterMap_range_getElem? _ _ _ _ (index_lt hx hy), index_mod hx, index_div hx]
      intro i hi
      have hpos : 0 < a.width := by omega
      have hdiv : i / a.width < a.height := by
        apply (Nat.div_lt_iff_lt_mul hpos).mpr
        rw [Nat.mul_comm]
        exact hi
      exact Array2D.get_isSome hw (by omega) hdiv
    · have h1 : a.mirrorHorz.get x y = none := by
        unfold Array2D.get
        rw [if_neg (fun h => hy h.2)]
      have h2 : a.get (a.width - 1 - x) y = none := by
        unfold Array2D.get
        rw [if_neg (fun h => hy h.2)]
      rw [h1, h2]
  · rw [if_neg hx]
    unfold Array2D.get
    rw [if_neg (fun h => hx h.1)]

theorem filterMap_range_mirror {α : Type} (f : Nat → Option α) (n : Nat) :
    (List.range n).filterMap (fun y => f (n - 1 - y)) = ((List.range n).filterMap f).reverse := by
  rw [← List.filterMap_reverse]
  have h : (List.range n).reverse = (List.range n).map (fun y => n - 1 - y) := by
    rw [List.range_eq_range', List.reverse_range']
    simp only [Nat.zero_add]
    rw [List.range_eq_range']
  rw [h, List.filterMap_map]
  rfl

theorem filterMap_congr_mem {α β : Type} {f g : α → Option β} {l : List α}
    (h : ∀ x, x ∈ l → f x = g x) : l.filterMap f = l.filterMap g := by
  induction l with
  | nil => rfl
  | cons a r ih =>
    simp only [List.filterMap_cons]
    rw [h a (List.mem_cons_self _ _), ih (fun x hx => h x (List.mem_cons_of_mem _ hx))]

theorem Array2D.getRowData_none {α : Type} (a : Array2D α) {y : Nat} (hy : ¬ y < a.height) :
    a.getRowData y = [] := by
  unfold Array2D.getRowData
  rw [List.filterMap_eq_nil_iff]
  intro x _
  unfold Array2D.get
  rw [if_neg (fun h => hy h.2)]

theorem Array2D.getColData_none {α : Type} (a : Array2D α) {x : Nat} (hx : ¬ x < a.width) :
    a.getColData x = [] := by
  unfold Array2D.getColData
  rw [List.filterMap_eq_nil_iff]
  intro y _
  unfold Array2D.get
  rw [if_neg (fun h => hx h.1)]

theorem Array2D.getRowData_mirrorVert {α : Type} {a : Array2D α} (hw : a.WellFormed) (y : Nat) :
    a.mirrorVert.getRowData y = if y < a.height then a.getRowData (a.height - 1 - y) else [] := by
  by_cases hy : y < a.height
  · rw [if_pos hy]
    unfold Array2D.getRowData
    apply filterMap_congr_mem
    intro x _
    rw [Array2D.get_mirrorVert hw, if_pos hy]
  · rw [if_neg hy]
    exact Array2D.getRowData_none _ hy

theorem Array2D.getColData_mirrorVert {α : Type} {a : Array2D α} (hw : a.WellFormed) (x : Nat) :
    a.mirrorVert.getColData x = (a.getColData x).reverse := by
  unfold Array2D.getColData
  rw [← filterMap_range_mirror]
  apply filterMap_congr_mem
  intro y hy
  have hy2 : y < a.height := List.mem_range.mp hy
  rw [Array2D.get_mirrorVert hw, if_pos hy2]

theorem Array2D.getRowData_mirrorHorz {α : Type} {a : Array2D α} (hw : a.WellFormed) (y : Nat) :
    a.mirrorHorz.getRowData y = (a.getRowData y).reverse := by
  unfold Array2D.getRowData
  rw [← filterMap_range_mirror]
  apply filterMap_congr_mem
  intro x hx
  have hx2 : x < a.width := List.mem_range.mp hx
  rw [Array2D.get_mirrorHorz hw, if_pos hx2]

theorem Array2D.getColData_mirrorHorz {α : Type} {a : Array2D α} (hw : a.WellFormed) (x : Nat) :
    a.mirrorHorz.getColData x = if x < a.width then a.getColData (a.width - 1 - x) else [] := by
  by_cases hx : x < a.width
  · rw [if_pos hx]
    unfold Array2D.getColData
    apply filterMap_congr_mem
    intro y _
    rw [Array2D.get_mirrorHorz hw, if_pos hx]
  · rw [if_neg hx]
    exact Array2D.getColData_none _ hx

/-- The four perimeter arrays of the vertically mirrored grid. -/
theorem Array2D.perimeter_mirrorVert {α : Type} {a : Array2D α} (hw : a.WellFormed) :
    a.mirrorVert.topRow = a.bottomRow ∧ a.mirrorVert.bottomRow = a.topRow ∧
      a.mirrorVert.leftColumn = a.leftColumn.reverse ∧
      a.mirrorVert.rightColumn = a.rightColumn.reverse := by
  refine ⟨?_, ?_, Array2D.getColData_mirrorVert hw 0, Array2D.getColData_mirrorVert hw _⟩
  · unfold Array2D.topRow Array2D.bottomRow
    rw [Array2D.getRowData_mirrorVert hw]
    by_cases h : 0 < a.height
    · rw [if_pos h]; rfl
    · rw [if_neg h, Array2D.getRowData_none a (by omega)]
  · unfold Array2D.topRow Array2D.bottomRow
    rw [Array2D.getRowData_mirrorVert hw]
    have hh : a.mirrorVert.height = a.height := rfl
    rw [hh]
    by_cases h : 0 < a.height
    · rw [if_pos (by omega)]
      congr 1
      omega
    · rw [if_neg (by omega), Array2D.getRowData_none a (by omega)]

/-- The four perimeter arrays of the horizontally mirrored grid. -/
theorem Array2D.perimeter_mirrorHorz {α : Type} {a : Array2D α} (hw : a.WellFormed) :
    a.mirrorHorz.topRow = a.topRow.reverse ∧ a.mirrorHorz.bottomRow = a.bottomRow.reverse ∧
      a.mirrorHorz.leftColumn = a.rightColumn ∧ a.mirrorHorz.rightColumn = a.leftColumn := by
  refine ⟨Array2D.getRowData_mirrorHorz hw 0, Array2D.getRowData_mirrorHorz hw _, ?_, ?_⟩
  · unfold Array2D.leftColumn Array2D.rightColumn
    rw [Array2D.getColData_mirrorHorz hw]
    by_cases h : 0 < a.width
    · rw [if_pos h]; rfl
    · rw [if_neg h, Array2D.getColData_none a (by omega)]
  · unfold Array2D.leftColumn Array2D.rightColumn
    rw [Array2D.getColData_mirrorHorz hw]
    have hh : a.mirrorHorz.width = a.width := rfl
    rw [hh]
    by_cases h : 0 < a.width
    · rw [if_pos (by omega)]
      congr 1
      omega
    · rw [if_neg (by omega), Array2D.getColData_none a (by omega)]

/-- The perimeter of the grid read as the flip mask says, in terms of the perimeter of
the stored grid. -/
theorem flipped_perimeter {α : Type} (flip : Nat) {a : Array2D α} (hw : a.WellFormed) :
    let v : Bool := decide (flip &&& FLIP_VERT ≠ 0)
    let h : Bool := decide (flip &&& FLIP_HORZ ≠ 0)
    let t1 := if v then a.bottomRow else a.topRow
    let b1 := if v then a.topRow else a.bottomRow
    let l1 := if v then a.leftColumn.reverse else a.leftColumn
    let r1 := if v then a.rightColumn.reverse else a.rightColumn
    (flipped flip a).topRow = (if h then t1.reverse else t1) ∧
    (flipped flip a).bottomRow = (if h then b1.reverse else b1) ∧
    (flipped flip a).leftColumn = (if h then r1 else l1) ∧
    (flipped flip a).rightColumn = (if h then l1 else r1) := by
  intro v h t1 b1 l1 r1
  unfold flipped
  by_cases hv : flip &&& FLIP_VERT ≠ 0
  · have hv2 : v = true := decide_eq_true hv
    obtain ⟨e1, e2, e3, e4⟩ := Array2D.perimeter_mirrorVert hw
    by_cases hh : flip &&& FLIP_HORZ ≠ 0
    · have hh2 : h = true := decide_eq_true hh
      obtain ⟨f1, f2, f3, f4⟩ := Array2D.perimeter_mirrorHorz (Array2D.mirrorVert_wellFormed hw)
      simp only [if_pos hv, if_pos hh, hh2, hv2, t1, b1, l1, r1, if_true, f1, f2, f3, f4, e1, e2,
        e3, e4, and_self]
    · have hh2 : h = false := decide_eq_false hh
      simp only [if_pos hv, if_neg hh, hh2, hv2, t1, b1, l1, r1, if_true, e1, e2, e3, e4,
        Bool.false_eq_true, if_false, and_self]
  · have hv2 : v = false := decide_eq_false hv
    by_cases hh : flip &&& FLIP_HORZ ≠ 0
    · have hh2 : h = true := decide_eq_true hh
      obtain ⟨f1, f2, f3, f4⟩ := Array2D.perimeter_mirrorHorz hw
      simp only [if_neg hv, if_pos hh, hh2, hv2, t1, b1, l1, r1, if_true, f1, f2, f3, f4,
        Bool.false_eq_true, if_false, and_self]
    · have hh2 : h = false := decide_eq_false hh
      simp only [if_neg hv, if_neg hh, hh2, hv2, t1, b1, l1, r1, Bool.false_eq_true, if_false,
        and_self]

/-- C11: perimeter re-orientation is equivalent to flipping the whole tile.  For every
elevation grid and label grid (holding `width * height` cells) and every flip mask, the
top, bottom, left and right arrays that `FirstRound` places in the phase-1 reply are the
top row, bottom row, left column and right column of the grid mirrored vertically
and/or horizontally as the mask says. -/
theorem C11_perimeter_matches_flipped_tile (tile : TileInfo) (s : ConsumerSpecifics) (job1 : Job1)
    (hd : s.dem.WellFormed) (hl : s.labels.WellFormed) :
    (FirstRound tile s job1).top_elev = (flipped tile.flip s.dem).topRow ∧
    (FirstRound tile s job1).bot_elev = (flipped tile.flip s.dem).bottomRow ∧
    (FirstRound tile s job1).left_elev = (flipped tile.flip s.dem).leftColumn ∧
    (FirstRound tile s job1).right_elev = (flipped tile.flip s.dem).rightColumn ∧
    (FirstRound tile s job1).top_label = (flipped tile.flip s.labels).topRow ∧
    (FirstRound tile s job1).bot_label = (flipped tile.flip s.labels).bottomRow ∧
    (FirstRound tile s job1).left_label = (flipped tile.flip s.labels).leftColumn ∧
    (FirstRound tile s job1).right_label = (flipped tile.flip s.labels).rightColumn := by
  obtain ⟨d1, d2, d3, d4⟩ := flipped_perimeter tile.flip hd
  obtain ⟨l1, l2, l3, l4⟩ := flipped_perimeter tile.flip hl
  rw [d1, d2, d3, d4, l1, l2, l3, l4]
  unfold FirstRound
  by_cases hv : tile.flip &&& FLIP_VERT ≠ 0
  · by_cases hh : tile.flip &&& FLIP_HORZ ≠ 0
    · simp [hv, hh]
    · simp [hv, hh]
  · by_cases hh : tile.flip &&& FLIP_HORZ ≠ 0
    · simp [hv, hh]
    · simp [hv, hh]

theorem C11_witness :
    (FirstRound { exTile 0 0 0 with flip := 3 } { dem := exGrid, labels := exGridLabels }
      emptyJob).top_elev = (flipped 3 exGrid).topRow :=
  (C11_perimeter_matches_flipped_tile { exTile 0 0 0 with flip := 3 }
    { dem := exGrid, labels := exGridLabels } emptyJob (by decide) (by decide)).1

/-! ## Fill elevations and spill paths -/

theorem aggregatedFlood_eq_floodRun (lowest : Int) (g : Graph) :
    aggregatedFlood lowest g = (floodRun lowest g).map (fun s => s.graph_elev) := rfl

/-- The flood returns, and its final state satisfies the loop invariant with an empty
queue. -/
theorem floodRun_spec {g : Graph} {lowest : Int} (hr : FloodReady g lowest) :
    ∃ s, floodRun lowest g = some s ∧ FloodInv g lowest s ∧ s.openq = [] :=
  floodLoop_spec hr (floodFuel g) _ (floodInit_inv hr) (le_of_eq (floodInit_measure g lowest))

theorem exFloodRun_eq : floodRun (-2147483648) exMaster
    = some { openq := [], visited := [false, true, true, false, false, true],
             graph_elev := [0, -2147483648, 9, 0, 0, 5] } := by
  decide

/-- The claim as worded fails on the master graph of the example: vertex 5 is filled to
5, yet the path 5 - 2 - 1 back to vertex 1 has largest edge weight 9. -/
theorem C13_counterexample :
    ∃ s, floodRun (-2147483648) exMaster = some s ∧ ¬ FillAboveEveryPath exMaster s := by
  refine ⟨_, exFloodRun_eq, ?_⟩
  intro h
  have e1 : IsEntry exMaster 5 (2, 9) := ⟨[(1, 5), (2, 9)], rfl, by decide⟩
  have e2 : IsEntry exMaster 2 (1, 9) := ⟨[(1, 9), (5, 9)], rfl, by decide⟩
  have hp : Path exMaster 5 1 (max 9 9) := Path.snoc (Path.edge e1) e2
  obtain ⟨f, hf, hle⟩ := h 5 (max 9 9) (by decide) rfl hp
  have hf5 : f = 5 := by
    have h5 : ([0, -2147483648, 9, 0, 0, 5] : List Int)[5]? = some 5 := rfl
    exact Option.some.inj (hf.symm.trans h5)
  rw [hf5] at hle
  exact absurd hle (by decide)

/-- C13 (amended): on a symmetric master graph, for every vertex `v` other than 1 that
the aggregated flood visits and every path from `v` back to vertex 1, `fill_elev[v]` is
less than or equal to the largest edge weight on that path; it is the largest edge
weight of one such path.  The flood is shown to return. -/
theorem C13_fill_at_most_every_path (g : Graph) (lowest : Int) (hr : FloodReady g lowest)
    (hsym : Symmetric g) (hsorted : MapsSorted g) :
    ∃ s, floodRun lowest g = some s ∧ aggregatedFlood lowest g = some s.graph_elev ∧
      ∀ v, v ≠ 1 → s.visited[v]? = some true →
        ∃ f, s.graph_elev[v]? = some f ∧ Path g v 1 f ∧ ∀ c, Path g v 1 c → f ≤ c := by
  obtain ⟨s, hs, hinv, _⟩ := floodRun_spec hr
  refine ⟨s, hs, ?_, ?_⟩
  · rw [aggregatedFlood_eq_floodRun, hs]
    rfl
  · intro v hv hvis
    obtain ⟨f, hf, hreach, hopt⟩ := hinv.settled v hvis
    have hrev := entry_reverse hsym hsorted
    have hpath : Path g 1 v f := by
      rcases hreach with ⟨h1, _⟩ | h1
      · exact absurd h1 hv
      · exact h1
    exact ⟨f, hf, hpath.reverse hrev, fun c hc => hopt c (Or.inr (hc.reverse hrev))⟩

theorem exMaster_sorted : MapsSorted exMaster := by
  unfold MapsSorted
  decide

theorem C13_witness :
    ∃ s, floodRun (-2147483648) exMaster = some s ∧
      aggregatedFlood (-2147483648) exMaster = some s.graph_elev :=
  match C13_fill_at_most_every_path exMaster (-2147483648) exMaster_ready
    (symmetric_of_check (by decide)) exMaster_sorted with
  | ⟨s, h1, h2, _⟩ => ⟨s, h1, h2⟩

/-! ## The pit-queue variant gives the same fill elevations -/

/-- An entry of an already visited vertex may be dropped from the queue. -/
theorem FloodInv.skip {g : Graph} {lowest : Int} {s s2 : FloodState}
    (hinv : FloodInv g lowest s) {c : GraphNode} (hvis : s.visited[c.2]? = some true)
    (hv2 : s2.visited = s.visited) (he2 : s2.graph_elev = s.graph_elev)
    (hsub : ∀ x, x ∈ s2.openq → x ∈ s.openq)
    (hkeep : ∀ x : GraphNode, x ∈ s.openq → x.2 ≠ c.2 → x ∈ s2.openq) :
    FloodInv g lowest s2 := by
  refine ⟨?_, ?_, ?_, ?_, ?_, ?_, ?_⟩
  · rw [hv2]; exact hinv.len_visited
  · rw [he2]; exact hinv.len_elev
  · intro x hx
    exact hinv.queue x (hsub x hx)
  · rw [hv2, he2]; exact hinv.settled
  · rw [hv2, he2]
    intro a b w f ha he hb hf
    apply hkeep _ (hinv.frontier a b w f ha he hb hf)
    intro heq
    simp only at heq
    rw [heq, hvis] at hb
    cases hb
  · rw [hv2]
    rcases hinv.seed with h1 | h1
    · exact Or.inl h1
    · by_cases h2 : c.2 = 1
      · left
        rw [← h2]
        exact hvis
      · exact Or.inr (hkeep _ h1 (fun h => h2 h.symm))
  · rw [hv2, he2]; exact hinv.untouched

/-- Visiting the vertex of a least queue entry `c`: the vertex is settled at `c.1` and
every neighbour not yet visited gets the entry `(max c.1 w, n)`. -/
theorem FloodInv.visit {g : Graph} {lowest : Int} {s s2 : FloodState}
    (hr : FloodReady g lowest) (hinv : FloodInv g lowest s) {c : GraphNode}
    (hcmem : c ∈ s.openq) (hmin : ∀ x, x ∈ s.openq → c.1 ≤ x.1)
    (hvis2 : s.visited[c.2]? = some false) {nbrs : EdgeMap} (hnb : g[c.2]? = some nbrs)
    (hv2 : s2.visited = s.visited.set c.2 true)
    (he2 : s2.graph_elev = s.graph_elev.set c.2 c.1)
    (hsub : ∀ x, x ∈ s2.openq → x ∈ s.openq ∨
      ∃ p, p ∈ nbrs ∧ x = (max c.1 p.2, p.1))
    (hkeep : ∀ x : GraphNode, x ∈ s.openq → x.2 ≠ c.2 → x ∈ s2.openq)
    (hnew : ∀ p, p ∈ nbrs → s2.visited[p.1]? = some false → (max c.1 p.2, p.1) ∈ s2.openq) :
    FloodInv g lowest s2 := by
  obtain ⟨hreach, hcv⟩ := hinv.queue c hcmem
  have hcv2 : c.2 < s.visited.length := by rw [hinv.len_visited]; exact hcv
  have hvset : ∀ u, u ≠ c.2 → s2.visited[u]? = s.visited[u]? := by
    intro u hu
    rw [hv2]
    exact List.getElem?_set_ne (fun h => hu h.symm)
  have heset : ∀ u, u ≠ c.2 → s2.graph_elev[u]? = s.graph_elev[u]? := by
    intro u hu
    rw [he2]
    exact List.getElem?_set_ne (fun h => hu h.symm)
  have hvself : s2.visited[c.2]? = some true := by
    rw [hv2]
    exact List.getElem?_set_self hcv2
  have heself : s2.graph_elev[c.2]? = some c.1 := by
    rw [he2]
    exact List.getElem?_set_self (by rw [hinv.len_elev]; exact hcv)
  refine ⟨?_, ?_, ?_, ?_, ?_, ?_, ?_⟩
  · rw [hv2, List.length_set]; exact hinv.len_visited
  · rw [he2, List.length_set]; exact hinv.len_elev
  · intro x hx
    rcases hsub x hx with h1 | ⟨p, hp, rfl⟩
    · exact hinv.queue x h1
    · have hent := entry_of_getElem? hnb hp
      exact ⟨Reach.step hr.low hreach hent, hr.keys c.2 p hent⟩
  · intro v hv
    by_cases hvc : v = c.2
    · subst hvc
      refine ⟨c.1, heself, hreach, ?_⟩
      intro c2 hc2
      rcases hinv.cross hr hc2 with h1 | ⟨x, hx, hle⟩
      · rw [hvis2] at h1
        cases h1
      · exact le_trans (hmin x hx) hle
    · rw [hvset v hvc] at hv
      rw [heset v hvc]
      exact hinv.settled v hv
  · intro a b w f ha he hb hf
    have hbc : b ≠ c.2 := by
      intro h
      rw [h, hvself] at hb
      cases hb
    by_cases hac : a = c.2
    · subst hac
      rw [heself] at hf
      cases hf
      obtain ⟨em, hem, hmem⟩ := he
      rw [hnb] at hem
      cases hem
      exact hnew (b, w) hmem hb
    · rw [hvset b hbc] at hb
      rw [hvset a hac] at ha
      rw [heset a hac] at hf
      exact hkeep _ (hinv.frontier a b w f ha he hb hf) hbc
  · by_cases h1 : c.2 = 1
    · left
      rw [← h1]
      exact hvself
    · rcases hinv.seed with h2 | h2
      · left
        rw [hvset 1 (fun h => h1 h.symm)]
        exact h2
      · right
        exact hkeep _ h2 (fun h => h1 h.symm)
  · intro v hv
    have hvc : v ≠ c.2 := by
      intro h
      rw [h, hvself] at hv
      cases hv
    rw [hvset v hvc] at hv
    rw [heset v hvc]
    exact hinv.untouched v hv

theorem pitNeighbour_spec (my_elev : Int) (s : PitState) (p : Nat × Int)
    (hp : p.1 < s.visited.length) :
    ∃ s1, pitNeighbour my_elev s p = some s1 ∧ s1.visited = s.visited ∧
      s1.graph_elev = s.graph_elev ∧
      (∀ x, x ∈ s1.pit ++ s1.openq ↔ x ∈ s.pit ++ s.openq ∨
        (s.visited[p.1]? = some false ∧ x = (max my_elev p.2, p.1))) ∧
      s1.pit.length + s1.openq.length ≤ s.pit.length + s.openq.length + 1 ∧
      (∀ x, x ∈ s1.pit → x ∈ s.pit ∨ x.1 = my_elev) ∧
      (∀ y, y ∈ s1.openq → y ∈ s.openq ∨ my_elev ≤ y.1) := by
  unfold pitNeighbour
  rw [List.getElem?_eq_getElem hp]
  cases hv : s.visited[p.1] with
  | true =>
    refine ⟨s, rfl, rfl, rfl, ?_, Nat.le_succ _, fun x hx => Or.inl hx, fun y hy => Or.inl hy⟩
    intro x
    constructor
    · exact fun h => Or.inl h
    · rintro (h | ⟨h, _⟩)
      · exact h
      · cases h
  | false =>
    simp only
    by_cases hle : p.2 ≤ my_elev
    · rw [if_pos hle]
      refine ⟨_, rfl, rfl, rfl, ?_, ?_, ?_, fun y hy => Or.inl hy⟩
      · intro x
        simp only [List.mem_append, List.mem_singleton, max_eq_left hle]
        constructor
        · rintro ((h | h) | h)
          · exact Or.inl (Or.inl h)
          · exact Or.inr ⟨trivial, h⟩
          · exact Or.inl (Or.inr h)
        · rintro ((h | h) | ⟨_, h⟩)
          · exact Or.inl (Or.inl h)
          · exact Or.inr h
          · exact Or.inl (Or.inr h)
      · simp only [List.length_append, List.length_singleton]
        omega
      · intro x hx
        simp only [List.mem_append, List.mem_singleton] at hx
        rcases hx with h | h
        · exact Or.inl h
        · right
          rw [h]
    · rw [if_neg hle]
      have hlt : my_elev ≤ p.2 := le_of_lt (not_le.mp hle)
      refine ⟨_, rfl, rfl, rfl, ?_, ?_, fun x hx => Or.inl hx, ?_⟩
      · intro x
        simp only [List.mem_append, List.mem_cons, max_eq_right hlt]
        constructor
        · rintro (h | h | h)
          · exact Or.inl (Or.inl h)
          · exact Or.inr ⟨trivial, h⟩
          · exact Or.inl (Or.inr h)
        · rintro ((h | h) | ⟨_, h⟩)
          · exact Or.inl h
          · exact Or.inr (Or.inr h)
          · exact Or.inr (Or.inl h)
      · simp only [List.length_cons]
        omega
      · intro y hy
        simp only [List.mem_cons] at hy
        rcases hy with h | h
        · right
          rw [h]
          exact hlt
        · exact Or.inl h

/-- The neighbour loop of the pit variant: one entry `(max my_elev w, n)` for every
neighbour not yet visited, on `pit` at `my_elev` or on `open` above it. -/
theorem pitNeighbours_spec (my_elev : Int) :
    ∀ (nbrs : List (Nat × Int)) (s : PitState),
      (∀ p, p ∈ nbrs → p.1 < s.visited.length) →
      ∃ s2, nbrs.foldlM (pitNeighbour my_elev) s = some s2 ∧
        s2.visited = s.visited ∧ s2.graph_elev = s.graph_elev ∧
        (∀ x, x ∈ s2.pit ++ s2.openq ↔ x ∈ s.pit ++ s.openq ∨
          ∃ p, p ∈ nbrs ∧ s.visited[p.1]? = some false ∧ x = (max my_elev p.2, p.1)) ∧
        s2.pit.length + s2.openq.length ≤ s.pit.length + s.openq.length + nbrs.length ∧
        (∀ x, x ∈ s2.pit → x ∈ s.pit ∨ x.1 = my_elev) ∧
        (∀ y, y ∈ s2.openq → y ∈ s.openq ∨ my_elev ≤ y.1) := by
  intro nbrs
  induction nbrs with
  | nil =>
    intro s _
    refine ⟨s, rfl, rfl, rfl, ?_, le_refl _, fun x hx => Or.inl hx, fun y hy => Or.inl hy⟩
    intro x
    constructor
    · exact fun h => Or.inl h
    · rintro (h | ⟨p, hp, _⟩)
      · exact h
      · cases hp
  | cons p rest ih =>
    intro s hr
    obtain ⟨s1, h1, hv1, he1, hq1, hl1, hp1, ho1⟩ :=
      pitNeighbour_spec my_elev s p (hr p (List.mem_cons_self _ _))
    obtain ⟨s2, h2, hv2, he2, hq2, hl2, hp2, ho2⟩ := ih s1
      (fun q hq => by rw [hv1]; exact hr q (List.mem_cons_of_mem _ hq))
    refine ⟨s2, ?_, hv2.trans hv1, he2.trans he1, ?_, ?_, ?_, ?_⟩
    · simp only [List.foldlM_cons, h1]
      exact h2
    · intro x
      rw [hq2, hq1, hv1]
      constructor
      · rintro ((h | ⟨h3, h4⟩) | ⟨q, hq, h3, h4⟩)
        · exact Or.inl h
        · exact Or.inr ⟨p, List.mem_cons_self _ _, h3, h4⟩
        · exact Or.inr ⟨q, List.mem_cons_of_mem _ hq, h3, h4⟩
      · rintro (h | ⟨q, hq, h3, h4⟩)
        · exact Or.inl (Or.inl h)
        · rcases List.mem_cons.mp hq with rfl | hq2
          · exact Or.inl (Or.inr ⟨h3, h4⟩)
          · exact Or.inr ⟨q, hq2, h3, h4⟩
    · simp only [List.length_cons]
      omega
    · intro x hx
      rcases hp2 x hx with h | h
      · exact hp1 x h
      · exact Or.inr h
    · intro y hy
      rcases ho2 y hy with h | h
      · exact ho1 y h
      · exact Or.inr h

/-- The part of an iteration of the pit variant after the pop of a least entry `c`. -/
theorem pitVisit_spec {g : Graph} {lowest : Int} {s0 s : PitState} {c : GraphNode}
    (hr : FloodReady g lowest) (hinv : PitInv g lowest s0)
    (hcmem : c ∈ s0.pit ++ s0.openq) (hmin : ∀ y, y ∈ s0.pit ++ s0.openq → c.1 ≤ y.1)
    (hv : s.visited = s0.visited) (he : s.graph_elev = s0.graph_elev)
    (hsubp : ∀ x, x ∈ s.pit → x ∈ s0.pit) (hsubo : ∀ x, x ∈ s.openq → x ∈ s0.openq)
    (hkeep : ∀ x, x ∈ s0.pit ++ s0.openq → x ≠ c → x ∈ s.pit ++ s.openq)
    (hlen : s.pit.length + s.openq.length + 1 = s0.pit.length + s0.openq.length)
    (hlevel : ∀ x, x ∈ s.pit → x.1 = c.1) :
    ∃ s2, pitVisit g c s = some s2 ∧ PitInv g lowest s2 ∧
      floodMeasure g s2.merged < floodMeasure g s0.merged := by
  have hf := hinv.flood
  obtain ⟨_, hcv⟩ := hf.queue c hcmem
  have hlv : s0.visited.length = g.length := hf.len_visited
  have hcv2 : c.2 < s.visited.length := by rw [hv, hlv]; exact hcv
  have hsub : ∀ x, x ∈ s.pit ++ s.openq → x ∈ s0.pit ++ s0.openq := by
    intro x hx
    rcases List.mem_append.mp hx with h | h
    · exact List.mem_append.mpr (Or.inl (hsubp x h))
    · exact List.mem_append.mpr (Or.inr (hsubo x h))
  have hkeep2 : ∀ x : GraphNode, x ∈ s0.pit ++ s0.openq → x.2 ≠ c.2 → x ∈ s.pit ++ s.openq :=
    fun x hx hne => hkeep x hx (fun h => hne (by rw [h]))
  unfold pitVisit
  rw [List.getElem?_eq_getElem hcv2]
  cases hvis : s.visited[c.2] with
  | true =>
    have hvis2 : s0.visited[c.2]? = some true := by
      rw [← hv, List.getElem?_eq_getElem hcv2, hvis]
    refine ⟨s, rfl, ⟨?_, ?_⟩, ?_⟩
    · exact @FloodInv.skip g lowest s0.merged s.merged hf c hvis2 hv he hsub hkeep2
    · intro x hx y hy
      exact hinv.level x (hsubp x hx) y (hsub y hy)
    · unfold floodMeasure PitState.merged
      simp only [List.length_append, hv]
      omega
  | false =>
    have hvis2 : s0.visited[c.2]? = some false := by
      rw [← hv, List.getElem?_eq_getElem hcv2, hvis]
    simp only
    rw [List.getElem?_eq_getElem hcv]
    simp only
    have hnb : g[c.2]? = some g[c.2] := List.getElem?_eq_getElem hcv
    obtain ⟨s2, hs2, hv2, he2, hq2, hl2, hp2, ho2⟩ := pitNeighbours_spec c.1 g[c.2]
      { s with visited := s.visited.set c.2 true, graph_elev := s.graph_elev.set c.2 c.1 }
      (by
        intro p hp
        simp only [List.length_set]
        rw [hv, hlv]
        exact hr.keys c.2 p (entry_of_getElem? hnb hp))
    simp only at hv2 he2 hq2 hl2 hp2 ho2
    have hv3 : s2.merged.visited = s0.merged.visited.set c.2 true := by
      show s2.visited = s0.visited.set c.2 true
      rw [hv2, hv]
    have he3 : s2.merged.graph_elev = s0.merged.graph_elev.set c.2 c.1 := by
      show s2.graph_elev = s0.graph_elev.set c.2 c.1
      rw [he2, he]
    refine ⟨s2, hs2, ⟨?_, ?_⟩, ?_⟩
    · refine @FloodInv.visit g lowest s0.merged s2.merged hr hf c hcmem hmin hvis2 g[c.2] hnb
        hv3 he3 ?_ ?_ ?_
      · intro x hx
        rcases (hq2 x).mp hx with h | ⟨p, hp, _, h⟩
        · exact Or.inl (hsub x h)
        · exact Or.inr ⟨p, hp, h⟩
      · intro x hx hne
        exact (hq2 x).mpr (Or.inl (hkeep2 x hx hne))
      · intro p hp hpv
        refine (hq2 _).mpr (Or.inr ⟨p, hp, ?_, rfl⟩)
        rw [← hv2]
        exact hpv
    · intro x hx y hy
      have hx1 : x.1 = c.1 := by
        rcases hp2 x hx with h | h
        · exact hlevel x h
        · exact h
      rw [hx1]
      rcases List.mem_append.mp hy with h | h
      · rcases hp2 y h with h3 | h3
        · exact le_of_eq (hlevel y h3).symm
        · exact le_of_eq h3.symm
      · rcases ho2 y h with h3 | h3
        · exact hmin y (List.mem_append.mpr (Or.inr (hsubo y h3)))
        · exact h3
    · have hvset : ∀ u, u ≠ c.2 → s2.visited[u]? = s0.visited[u]? := by
        intro u hu
        rw [hv2, hv]
        exact List.getElem?_set_ne (fun h => hu h.symm)
      have hvself : s2.visited[c.2]? = some true := by
        rw [hv2]
        exact List.getElem?_set_self hcv2
      unfold floodMeasure PitState.merged
      simp only [List.length_append]
      have hpoint := @sum_range_point
        (fun v => if s0.visited[v]? = some true then 0 else (g.getD v []).length)
        (fun v => if s2.visited[v]? = some true then 0 else (g.getD v []).length)
        g.length c.2 hcv
        (by
          intro u hu
          simp only
          rw [hvset u hu])
        (by
          simp only
          rw [hvself, if_pos rfl])
      have hrem : (if s0.visited[c.2]? = some true then 0 else (g.getD c.2 []).length)
          = g[c.2].length := by
        rw [hvis2, if_neg (by simp), getD_of_getElem? hnb]
      dsimp only at hpoint
      rw [hrem] at hpoint
      omega

/-- One iteration of the pit variant on a state with an entry left does not fail,
keeps the invariant and reduces the work left. -/
theorem pitStep_spec {g : Graph} {lowest : Int} {s : PitState}
    (hr : FloodReady g lowest) (hinv : PitInv g lowest s)
    (hne : ¬ (s.openq = [] ∧ s.pit = [])) :
    ∃ s2, pitStep g s = some s2 ∧ PitInv g lowest s2 ∧
      floodMeasure g s2.merged < floodMeasure g s.merged := by
  unfold pitStep
  cases hp : s.pit with
  | cons c rest =>
    simp only
    have hcp : c ∈ s.pit := by rw [hp]; exact List.mem_cons_self _ _
    refine @pitVisit_spec g lowest s { s with pit := rest } c hr hinv
      (List.mem_append.mpr (Or.inl hcp)) (fun y hy => hinv.level c hcp y hy) rfl rfl ?_
      (fun x hx => hx) ?_ ?_ ?_
    · intro x hx
      rw [hp]
      exact List.mem_cons_of_mem _ hx
    · intro x hx hxc
      rw [hp] at hx
      simp only [List.mem_append, List.mem_cons] at hx ⊢
      rcases hx with (h | h) | h
      · exact absurd h hxc
      · exact Or.inl h
      · exact Or.inr h
    · rw [hp]
      simp only [List.length_cons]
      omega
    · intro x hx
      have hxp : x ∈ s.pit := by rw [hp]; exact List.mem_cons_of_mem _ hx
      exact le_antisymm (hinv.level x hxp c (List.mem_append.mpr (Or.inl hcp)))
        (hinv.level c hcp x (List.mem_append.mpr (Or.inl hxp)))
  | nil =>
    simp only
    have hq : s.openq ≠ [] := fun h => hne ⟨h, hp⟩
    obtain ⟨c, hc⟩ := heapTop_isSome hq
    obtain ⟨hcmem, hmin⟩ := heapTop_spec _ _ hc
    rw [hc]
    simp only
    refine @pitVisit_spec g lowest s { s with openq := s.openq.erase c, pit := [] } c hr hinv
      (List.mem_append.mpr (Or.inr hcmem)) ?_ rfl rfl (fun x hx => by cases hx)
      (fun x hx => List.mem_of_mem_erase hx) ?_ ?_ ?_
    · intro y hy
      rw [hp, List.nil_append] at hy
      exact hmin y hy
    · intro x hx hxc
      rw [hp, List.nil_append] at hx
      rw [List.nil_append]
      exact (List.mem_erase_of_ne hxc).mpr hx
    · rw [hp]
      simp only [List.length_nil, Nat.zero_add]
      rw [List.length_erase_of_mem hcmem]
      have : 0 < s.openq.length := List.length_pos_of_mem hcmem
      omega
    · intro x hx
      cases hx

theorem pitLoop_spec {g : Graph} {lowest : Int} (hr : FloodReady g lowest) :
    ∀ (fuel : Nat) (s : PitState), PitInv g lowest s → floodMeasure g s.merged ≤ fuel →
      ∃ s2, pitLoop g fuel s = some s2 ∧ PitInv g lowest s2 ∧ s2.openq = [] ∧ s2.pit = [] := by
  intro fuel
  induction fuel with
  | zero =>
    intro s hinv hm
    have hlen : (s.pit ++ s.openq).length = 0 := by
      unfold floodMeasure PitState.merged at hm
      simp only at hm
      omega
    have hnil := List.length_eq_zero.mp hlen
    have hp : s.pit = [] := (List.append_eq_nil.mp hnil).1
    have hq : s.openq = [] := (List.append_eq_nil.mp hnil).2
    refine ⟨s, ?_, hinv, hq, hp⟩
    simp [pitLoop, hp, hq]
  | succ fuel ih =>
    intro s hinv hm
    by_cases hnil : s.openq = [] ∧ s.pit = []
    · refine ⟨s, ?_, hinv, hnil.1, hnil.2⟩
      simp [pitLoop, hnil.1, hnil.2]
    · obtain ⟨s1, hs1, hinv1, hlt⟩ := pitStep_spec hr hinv hnil
      obtain ⟨s2, hs2, hinv2, hq2⟩ := ih s1 hinv1 (by omega)
      refine ⟨s2, ?_, hinv2, hq2⟩
      have hne : ¬ (s.openq.isEmpty = true ∧ s.pit.isEmpty = true) := by
        intro h
        exact hnil ⟨List.isEmpty_iff.mp h.1, List.isEmpty_iff.mp h.2⟩
      simp only [pitLoop, if_neg hne, hs1, Option.some_bind]
      exact hs2

/-- Two final states of the flood hold the same fill elevations: the visited vertices
are those reachable from the seed, each at its least cost, and all others hold 0. -/
theorem FloodInv.final_unique {g : Graph} {lowest : Int} {s t : FloodState}
    (hr : FloodReady g lowest) (hs : FloodInv g lowest s) (ht : FloodInv g lowest t)
    (hsq : s.openq = []) (htq : t.openq = []) : s.graph_elev = t.graph_elev := by
  have hvis : ∀ (u : FloodState), FloodInv g lowest u → u.openq = [] → ∀ v c,
      Reach g lowest v c → u.visited[v]? = some true := by
    intro u hu huq v c hc
    rcases hu.cross hr hc with h | ⟨x, hx, _⟩
    · exact h
    · rw [huq] at hx
      cases hx
  apply List.ext_getElem?
  intro v
  by_cases hv : v < g.length
  · have hvs : v < s.visited.length := by rw [hs.len_visited]; exact hv
    have hvt : v < t.visited.length := by rw [ht.len_visited]; exact hv
    cases hb : s.visited[v] with
    | true =>
      have h1 : s.visited[v]? = some true := by rw [List.getElem?_eq_getElem hvs, hb]
      obtain ⟨f, hf, hreach, hopt⟩ := hs.settled v h1
      obtain ⟨f2, hf2, hreach2, hopt2⟩ := ht.settled v (hvis t ht htq v f hreach)
      rw [hf, hf2, le_antisymm (hopt f2 hreach2) (hopt2 f hreach)]
    | false =>
      have h1 : s.visited[v]? = some false := by rw [List.getElem?_eq_getElem hvs, hb]
      have h2 : t.visited[v]? = some false := by
        cases hb2 : t.visited[v] with
        | false => rw [List.getElem?_eq_getElem hvt, hb2]
        | true =>
          have h3 : t.visited[v]? = some true := by rw [List.getElem?_eq_getElem hvt, hb2]
          obtain ⟨f, _, hreach, _⟩ := ht.settled v h3
          have h4 := hvis s hs hsq v f hreach
          rw [h1] at h4
          cases h4
      rw [hs.untouched v h1, ht.untouched v h2]
  · rw [List.getElem?_eq_none (by rw [hs.len_elev]; omega),
      List.getElem?_eq_none (by rw [ht.len_elev]; omega)]

theorem pitInit_inv {g : Graph} {lowest : Int} (hr : FloodReady g lowest) :
    PitInv g lowest
      { openq := [(lowest, 1)], pit := [], visited := List.replicate g.length false,
        graph_elev := List.replicate g.length 0 } :=
  { flood := floodInit_inv hr
    level := fun x hx => by cases hx }

/-- C12: the pit-queue variant of the aggregated flood (FIFO queue for the neighbours
whose edge weight is at most the current elevation, heap for the others, FIFO drained
first) returns, and its `fill_elev` vector is the one of the heap-only flood that is
compiled in, for every master graph with vertex 1, neighbour keys that are vertices
and weights not below the least elevation. -/
theorem C12_pit_variant_same_fill (g : Graph) (lowest : Int) (hr : FloodReady g lowest) :
    ∃ fill, aggregatedFlood lowest g = some fill ∧ pitFlood lowest g = some fill := by
  obtain ⟨s, hs, hinv, hq⟩ := floodRun_spec hr
  obtain ⟨t, ht, htinv, htq, htp⟩ := pitLoop_spec hr (floodFuel g) _ (pitInit_inv hr)
    (le_of_eq (floodInit_measure g lowest))
  refine ⟨s.graph_elev, ?_, ?_⟩
  · rw [aggregatedFlood_eq_floodRun, hs]
    rfl
  · unfold pitFlood
    rw [ht]
    have hmq : t.merged.openq = [] := by
      show t.pit ++ t.openq = []
      rw [htp, htq]
      rfl
    have heq : s.graph_elev = t.merged.graph_elev :=
      FloodInv.final_unique hr hinv htinv.flood hq hmq
    rw [heq]
    rfl

theorem C12_witness :
    ∃ fill, aggregatedFlood (-2147483648) exMaster = some fill ∧
      pitFlood (-2147483648) exMaster = some fill :=
  C12_pit_variant_same_fill exMaster (-2147483648) exMaster_ready

/-! ## Preparer: the one branch -/

section OneBranch

variable (r i o a : String) (W H bw bh : Int)

theorem oneTile_height {x y gx gy : Int} (h : H - y < 100) :
    oneTile r i o a W H bw bh x y gx gy = Except.error PrepError.tileHeight := by
  unfold oneTile
  rw [if_pos h]

theorem oneTile_width {x y gx gy : Int} (h1 : ¬ H - y < 100) (h2 : W - x < 100) :
    oneTile r i o a W H bw bh x y gx gy = Except.error PrepError.tileWidth := by
  unfold oneTile
  rw [if_neg h1, if_pos h2]

theorem oneTile_ok {x y gx gy : Int} (h1 : ¬ H - y < 100) (h2 : ¬ W - x < 100)
    (hn : OneNamesValid r o) :
    oneTile r i o a W H bw bh x y gx gy = Except.ok (oneTileOf r i o a W H bw bh x y gx gy) := by
  unfold oneTile
  rw [if_neg h1, if_neg h2]
  have hr : (!startsWithAt r && !contains r "%n") = false := by
    rcases hn.1 with h | h
    · rw [h]; rfl
    · rw [h]; simp
  have ho : (!contains o "%n") = false := by rw [hn.2]; rfl
  rw [hr, ho]
  rfl

/-- A tile is made only when all checks pass, and then it is `oneTileOf`. -/
theorem oneTile_inv {x y gx gy : Int} {t : TileInfo}
    (h : oneTile r i o a W H bw bh x y gx gy = Except.ok t) :
    100 ≤ H - y ∧ 100 ≤ W - x ∧ OneNamesValid r o ∧ t = oneTileOf r i o a W H bw bh x y gx gy := by
  by_cases h1 : H - y < 100
  · rw [oneTile_height r i o a W H bw bh h1] at h
    cases h
  · by_cases h2 : W - x < 100
    · rw [oneTile_width r i o a W H bw bh h1 h2] at h
      cases h
    · by_cases hn : OneNamesValid r o
      · rw [oneTile_ok r i o a W H bw bh h1 h2 hn] at h
        cases h
        exact ⟨by omega, by omega, hn, rfl⟩
      · exfalso
        unfold oneTile at h
        rw [if_neg h1, if_neg h2] at h
        unfold OneNamesValid at hn
        cases hs : startsWithAt r <;> cases hc : contains r "%n" <;>
          cases ho : contains o "%n" <;> simp [hs, hc, ho] at h hn

/-- With valid names a tile either is made or fails on its size. -/
theorem oneTile_cases {x y gx gy : Int} (hn : OneNamesValid r o) :
    (100 ≤ H - y ∧ 100 ≤ W - x ∧
      oneTile r i o a W H bw bh x y gx gy = Except.ok (oneTileOf r i o a W H bw bh x y gx gy)) ∨
    (H - y < 100 ∧ oneTile r i o a W H bw bh x y gx gy = Except.error PrepError.tileHeight) ∨
    (W - x < 100 ∧ oneTile r i o a W H bw bh x y gx gy = Except.error PrepError.tileWidth) := by
  by_cases h1 : H - y < 100
  · exact Or.inr (Or.inl ⟨h1, oneTile_height r i o a W H bw bh h1⟩)
  · by_cases h2 : W - x < 100
    · exact Or.inr (Or.inr ⟨h2, oneTile_width r i o a W H bw bh h1 h2⟩)
    · exact Or.inl ⟨by omega, by omega, oneTile_ok r i o a W H bw bh h1 h2 hn⟩

theorem colTiles_succ (y gy x gx : Int) (n : Nat) :
    colTiles r i o a W H bw bh y gy x gx (n + 1)
      = oneTileOf r i o a W H bw bh x y gx gy ::
        colTiles r i o a W H bw bh y gy (x + bw) (gx + 1) n := by
  unfold colTiles
  rw [List.range_succ_eq_map, List.map_cons, List.map_map]
  congr 1
  · simp
  · apply List.map_congr_left
    intro k _
    simp only [Function.comp]
    have e1 : x + ((k + 1 : Nat) : Int) * bw = x + bw + (k : Int) * bw := by push_cast; ring
    have e2 : gx + ((k + 1 : Nat) : Int) = gx + 1 + (k : Int) := by push_cast; ring
    rw [e1, e2]

/-- The inner loop, when it returns: it has appended the tiles of `n` columns, the
windows of which start inside the raster and pass the size checks, and the next window
would start outside. -/
theorem oneColumns_ok (y gy : Int) :
    ∀ (fuel : Nat) (x gx : Int) (row res : List TileInfo),
      oneColumns r i o a W H bw bh y gy fuel x gx row = Except.ok res →
      ∃ n : Nat, res = row ++ colTiles r i o a W H bw bh y gy x gx n ∧
        W ≤ x + n * bw ∧
        (∀ k : Nat, k < n → x + k * bw < W ∧ 100 ≤ W - (x + k * bw) ∧ 100 ≤ H - y) ∧
        (0 < n → OneNamesValid r o) := by
  intro fuel
  induction fuel with
  | zero =>
    intro x gx row res h
    unfold oneColumns at h
    by_cases hx : x < W
    · rw [if_pos hx] at h; cases h
    · rw [if_neg hx] at h
      cases h
      refine ⟨0, by simp [colTiles], by simp; omega, fun k hk => by omega, fun h0 => by omega⟩
  | succ fuel ih =>
    intro x gx row res h
    unfold oneColumns at h
    by_cases hx : x < W
    · rw [if_pos hx] at h
      cases ht : oneTile r i o a W H bw bh x y gx gy with
      | error e => rw [ht] at h; cases h
      | ok t =>
        rw [ht] at h
        simp only at h
        obtain ⟨hh, hw, hn, rfl⟩ := oneTile_inv r i o a W H bw bh ht
        by_cases hov : x + bw > INT32_MAX
        · rw [if_pos hov] at h; cases h
        · rw [if_neg hov] at h
          obtain ⟨n, hres, hend, hall, _⟩ := ih _ _ _ _ h
          refine ⟨n + 1, ?_, ?_, ?_, fun _ => hn⟩
          · rw [hres, colTiles_succ, List.append_assoc]
            rfl
          · have e : x + ((n + 1 : Nat) : Int) * bw = x + bw + (n : Int) * bw := by
              push_cast; ring
            rw [e]
            exact hend
          · intro k hk
            cases k with
            | zero =>
              simp only [Nat.cast_zero, zero_mul, add_zero]
              exact ⟨hx, hw, hh⟩
            | succ k =>
              have e : x + ((k + 1 : Nat) : Int) * bw = x + bw + (k : Int) * bw := by
                push_cast; ring
              rw [e]
              exact hall k (by omega)
    · rw [if_neg hx] at h
      cases h
      refine ⟨0, by simp [colTiles], by simp; omega, fun k hk => by omega, fun h0 => by omega⟩

/-- The inner loop with valid names, a positive block width and counters that stay in
`int32_t`: it returns, or it ends on a window that fails a size check. -/
theorem oneColumns_run (hn : OneNamesValid r o) (hbw : 0 < bw) (hov : W + bw ≤ INT32_MAX)
    (y gy : Int) :
    ∀ (fuel : Nat) (x gx : Int) (row : List TileInfo), W - x ≤ fuel →
      (∃ res, oneColumns r i o a W H bw bh y gy fuel x gx row = Except.ok res) ∨
      (x < W ∧ H - y < 100 ∧
        oneColumns r i o a W H bw bh y gy fuel x gx row = Except.error PrepError.tileHeight) ∨
      (oneColumns r i o a W H bw bh y gy fuel x gx row = Except.error PrepError.tileWidth ∧
        ∃ k : Nat, x + k * bw < W ∧ W - (x + k * bw) < 100) := by
  intro fuel
  induction fuel with
  | zero =>
    intro x gx row hf
    left
    unfold oneColumns
    rw [if_neg (by simp at hf; omega)]
    exact ⟨row, rfl⟩
  | succ fuel ih =>
    intro x gx row hf
    unfold oneColumns
    by_cases hx : x < W
    · rw [if_pos hx]
      rcases @oneTile_cases r i o a W H bw bh x y gx gy hn with
        ⟨_, _, ht⟩ | ⟨hh, ht⟩ | ⟨hw, ht⟩
      · rw [ht]
        simp only
        rw [if_neg (by omega)]
        have hf2 : W - (x + bw) ≤ (fuel : Int) := by
          push_cast at hf
          omega
        rcases ih (x + bw) (gx + 1) (row ++ [oneTileOf r i o a W H bw bh x y gx gy]) hf2 with
          h | ⟨_, h2, h3⟩ | ⟨h2, k, h3, h4⟩
        · exact Or.inl h
        · exact Or.inr (Or.inl ⟨hx, h2, h3⟩)
        · refine Or.inr (Or.inr ⟨h2, k + 1, ?_⟩)
          have e : x + ((k + 1 : Nat) : Int) * bw = x + bw + (k : Int) * bw := by
            push_cast; ring
          rw [e]
          exact ⟨h3, h4⟩
      · rw [ht]
        exact Or.inr (Or.inl ⟨hx, hh, rfl⟩)
      · rw [ht]
        refine Or.inr (Or.inr ⟨rfl, 0, ?_⟩)
        simp only [Nat.cast_zero, zero_mul, add_zero]
        exact ⟨hx, hw⟩
    · rw [if_neg hx]
      exact Or.inl ⟨row, rfl⟩

/-- The number of columns is fixed by the raster width and the block width. -/
theorem cols_unique {n n2 : Nat} (h1 : W ≤ n * bw) (h2 : ∀ k : Nat, k < n → k * bw < W)
    (h3 : W ≤ n2 * bw) (h4 : ∀ k : Nat, k < n2 → k * bw < W) : n = n2 := by
  rcases Nat.lt_trichotomy n n2 with h | h | h
  · have := h4 n h
    omega
  · exact h
  · have := h2 n2 h
    omega

theorem rowTiles_succ (y gy : Int) (n m : Nat) :
    rowTiles r i o a W H bw bh y gy n (m + 1)
      = colTiles r i o a W H bw bh y gy 0 0 n ::
        rowTiles r i o a W H bw bh (y + bh) (gy + 1) n m := by
  unfold rowTiles
  rw [List.range_succ_eq_map, List.map_cons, List.map_map]
  congr 1
  · simp
  · apply List.map_congr_left
    intro k _
    simp only [Function.comp]
    have e1 : y + ((k + 1 : Nat) : Int) * bh = y + bh + (k : Int) * bh := by push_cast; ring
    have e2 : gy + ((k + 1 : Nat) : Int) = gy + 1 + (k : Int) := by push_cast; ring
    rw [e1, e2]

/-- The outer loop, when it returns: it has appended `m` rows of `n` columns each; the
rows start inside the raster, the row after would start outside, and every window
passes the size checks. -/
theorem oneRows_ok :
    ∀ (fuel : Nat) (y gy : Int) (tiles res : TileGrid),
      oneRows r i o a W H bw bh fuel y gy tiles = Except.ok res →
      ∃ n m : Nat, res = tiles ++ rowTiles r i o a W H bw bh y gy n m ∧
        H ≤ y + m * bh ∧
        (∀ j : Nat, j < m → y + j * bh < H) ∧
        (0 < m → W ≤ n * bw ∧ ∀ k : Nat, k < n → k * bw < W ∧ 100 ≤ W - k * bw) ∧
        (0 < n → ∀ j : Nat, j < m → 100 ≤ H - (y + j * bh)) ∧
        (0 < n → 0 < m → OneNamesValid r o) := by
  intro fuel
  induction fuel with
  | zero =>
    intro y gy tiles res h
    unfold oneRows at h
    by_cases hy : y < H
    · rw [if_pos hy] at h; cases h
    · rw [if_neg hy] at h
      cases h
      exact ⟨0, 0, by simp [rowTiles], by simp; omega, fun j hj => by omega,
        fun h0 => by omega, fun _ j hj => by omega, fun _ h0 => by omega⟩
  | succ fuel ih =>
    intro y gy tiles res h
    unfold oneRows at h
    by_cases hy : y < H
    · rw [if_pos hy] at h
      cases hc : oneColumns r i o a W H bw bh y gy W.toNat 0 0 [] with
      | error e => rw [hc] at h; cases h
      | ok row =>
        rw [hc] at h
        simp only at h
        obtain ⟨n, hrow, hend, hall, hnv⟩ := oneColumns_ok r i o a W H bw bh y gy _ _ _ _ _ hc
        simp only [List.nil_append, zero_add] at hrow hend hall
        by_cases hov : y + bh > INT32_MAX
        · rw [if_pos hov] at h; cases h
        · rw [if_neg hov] at h
          obtain ⟨n2, m, hres, hend2, hrows, hcols, hhs, _⟩ := ih _ _ _ _ h
          have hn2 : 0 < m → n2 = n := by
            intro hm
            exact cols_unique W bw (hcols hm).1 (fun k hk => ((hcols hm).2 k hk).1) hend
              (fun k hk => (hall k hk).1)
          have hgrid : rowTiles r i o a W H bw bh (y + bh) (gy + 1) n2 m
              = rowTiles r i o a W H bw bh (y + bh) (gy + 1) n m := by
            rcases Nat.eq_zero_or_pos m with hm | hm
            · rw [hm]
              rfl
            · rw [hn2 hm]
          refine ⟨n, m + 1, ?_, ?_, ?_, ?_, ?_, fun hn0 _ => hnv hn0⟩
          · rw [hres, hgrid, rowTiles_succ, List.append_assoc, hrow]
            rfl
          · have e : y + ((m + 1 : Nat) : Int) * bh = y + bh + (m : Int) * bh := by
              push_cast; ring
            rw [e]
            exact hend2
          · intro j hj
            cases j with
            | zero =>
              simp only [Nat.cast_zero, zero_mul, add_zero]
              exact hy
            | succ j =>
              have e : y + ((j + 1 : Nat) : Int) * bh = y + bh + (j : Int) * bh := by
                push_cast; ring
              rw [e]
              exact hrows j (by omega)
          · intro _
            exact ⟨hend, fun k hk => ⟨(hall k hk).1, (hall k hk).2.1⟩⟩
          · intro hn0 j hj
            cases j with
            | zero =>
              simp only [Nat.cast_zero, zero_mul, add_zero]
              have := (hall 0 hn0).2.2
              exact this
            | succ j =>
              have e : y + ((j + 1 : Nat) : Int) * bh = y + bh + (j : Int) * bh := by
                push_cast; ring
              rw [e]
              have hm : 0 < m := by omega
              exact hhs (by rw [hn2 hm]; exact hn0) j (by omega)
    · rw [if_neg hy] at h
      cases h
      exact ⟨0, 0, by simp [rowTiles], by simp; omega, fun j hj => by omega,
        fun h0 => by omega, fun _ j hj => by omega, fun _ h0 => by omega⟩

/-- The outer loop with valid names, positive block sizes and counters that stay in
`int32_t`: it returns, or it ends on a window that fails a size check. -/
theorem oneRows_run (hn : OneNamesValid r o) (hbw : 0 < bw) (hbh : 0 < bh)
    (hovw : W + bw ≤ INT32_MAX) (hovh : H + bh ≤ INT32_MAX) :
    ∀ (fuel : Nat) (y gy : Int) (tiles : TileGrid), H - y ≤ fuel →
      (∃ res, oneRows r i o a W H bw bh fuel y gy tiles = Except.ok res) ∨
      (oneRows r i o a W H bw bh fuel y gy tiles = Except.error PrepError.tileHeight ∧
        0 < W ∧ ∃ j : Nat, y + j * bh < H ∧ H - (y + j * bh) < 100) ∨
      (oneRows r i o a W H bw bh fuel y gy tiles = Except.error PrepError.tileWidth ∧
        y < H ∧ ∃ k : Nat, k * bw < W ∧ W - k * bw < 100) := by
  intro fuel
  induction fuel with
  | zero =>
    intro y gy tiles hf
    left
    unfold oneRows
    rw [if_neg (by simp at hf; omega)]
    exact ⟨tiles, rfl⟩
  | succ fuel ih =>
    intro y gy tiles hf
    unfold oneRows
    by_cases hy : y < H
    · rw [if_pos hy]
      rcases oneColumns_run r i o a W H bw bh hn hbw hovw y gy W.toNat 0 0 [] (by omega) with
        ⟨row, hc⟩ | ⟨h1, h2, hc⟩ | ⟨hc, k, h1, h2⟩
      · rw [hc]
        simp only
        rw [if_neg (by omega)]
        have hf2 : H - (y + bh) ≤ (fuel : Int) := by
          push_cast at hf
          omega
        rcases ih (y + bh) (gy + 1) (tiles ++ [row]) hf2 with
          h | ⟨h3, h4, j, h5, h6⟩ | ⟨h3, _, h5⟩
        · exact Or.inl h
        · refine Or.inr (Or.inl ⟨h3, h4, j + 1, ?_⟩)
          have e : y + ((j + 1 : Nat) : Int) * bh = y + bh + (j : Int) * bh := by
            push_cast; ring
          rw [e]
          exact ⟨h5, h6⟩
        · exact Or.inr (Or.inr ⟨h3, hy, h5⟩)
      · rw [hc]
        refine Or.inr (Or.inl ⟨rfl, h1, 0, ?_⟩)
        simp only [Nat.cast_zero, zero_mul, add_zero]
        exact ⟨hy, h2⟩
      · rw [hc]
        refine Or.inr (Or.inr ⟨rfl, hy, k, ?_⟩)
        simp only [zero_add] at h1 h2
        exact ⟨h1, h2⟩
    · rw [if_neg hy]
      exact Or.inl ⟨tiles, rfl⟩

end OneBranch

/-! ## Loops that may end with an error -/

theorem forRangeE_zero {σ : Type} (body : Nat → σ → Except PrepError σ) (s : σ) :
    forRangeE 0 body s = Except.ok s := by
  unfold forRangeE
  rfl

theorem forRangeE_succ {σ : Type} (n : Nat) (body : Nat → σ → Except PrepError σ) (s : σ) :
    forRangeE (n + 1) body s = (forRangeE n body s).bind (body n) := by
  unfold forRangeE
  rw [List.range_succ, List.foldlM_append]
  simp only [List.foldlM_cons, List.foldlM_nil]
  cases h : List.foldlM (fun st i => body i st) s (List.range n) with
  | error e => rfl
  | ok t =>
    show (Except.ok t >>= fun st => body n st >>= fun s2 => pure s2) = _
    show (body n t >>= fun s2 => pure s2) = body n t
    cases body n t <;> rfl

/-- Invariant rule for a loop that returns. -/
theorem forRangeE_inv {σ : Type} (P : Nat → σ → Prop) (body : Nat → σ → Except PrepError σ) :
    ∀ (n : Nat) (s t : σ), P 0 s →
      (∀ k u v, k < n → P k u → body k u = Except.ok v → P (k + 1) v) →
      forRangeE n body s = Except.ok t → P n t := by
  intro n
  induction n with
  | zero =>
    intro s t h0 _ hr
    rw [forRangeE_zero] at hr
    cases hr
    exact h0
  | succ n ih =>
    intro s t h0 hstep hr
    rw [forRangeE_succ] at hr
    cases hm : forRangeE n body s with
    | error e => rw [hm] at hr; cases hr
    | ok u =>
      rw [hm] at hr
      have hu : P n u := ih s u h0 (fun k a b hk => hstep k a b (Nat.lt_succ_of_lt hk)) hm
      exact hstep n u t (Nat.lt_succ_self n) hu hr

/-- Total-correctness rule for a loop whose iterations succeed under the invariant. -/
theorem forRangeE_total {σ : Type} (P : Nat → σ → Prop) (body : Nat → σ → Except PrepError σ) :
    ∀ (n : Nat) (s : σ), P 0 s →
      (∀ k u, k < n → P k u → ∃ v, body k u = Except.ok v ∧ P (k + 1) v) →
      ∃ t, forRangeE n body s = Except.ok t ∧ P n t := by
  intro n
  induction n with
  | zero =>
    intro s h0 _
    exact ⟨s, forRangeE_zero body s, h0⟩
  | succ n ih =>
    intro s h0 hstep
    obtain ⟨u, hu, hPu⟩ := ih s h0 (fun k a hk => hstep k a (Nat.lt_succ_of_lt hk))
    obtain ⟨v, hv, hPv⟩ := hstep n u (Nat.lt_succ_self n) hPu
    refine ⟨v, ?_, hPv⟩
    rw [forRangeE_succ, hu]
    exact hv

theorem foldlME_inv {σ α : Type} (P : σ → Prop) (f : σ → α → Except PrepError σ) :
    ∀ (l : List α) (s t : σ), P s →
      (∀ a u v, a ∈ l → P u → f u a = Except.ok v → P v) →
      l.foldlM f s = Except.ok t → P t := by
  intro l
  induction l with
  | nil =>
    intro s t hs _ h
    cases h
    exact hs
  | cons a rest ih =>
    intro s t hs hstep h
    simp only [List.foldlM_cons] at h
    cases hf : f s a with
    | error e => rw [hf] at h; cases h
    | ok u =>
      rw [hf] at h
      exact ih u t (hstep a s u (List.mem_cons_self _ _) hs hf)
        (fun b x y hb => hstep b x y (List.mem_cons_of_mem _ hb)) h

/-! ## Marking the edge of the tile matrix -/

theorem rowLen_eq {tiles : TileGrid} {y : Nat} {row : List TileInfo} (h : tiles[y]? = some row) :
    rowLen tiles y = row.length := by
  unfold rowLen
  rw [List.getD_eq_getElem?_getD, h]
  rfl

theorem rowLen_grid2Modify (tiles : TileGrid) (y x y2 : Nat) (f : TileInfo → TileInfo) :
    rowLen (grid2Modify tiles y x f) y2 = rowLen tiles y2 := by
  unfold rowLen grid2Modify
  rw [List.getD_eq_getElem?_getD, List.getD_eq_getElem?_getD, List.getElem?_modify]
  cases h : tiles[y2]? with
  | none => rfl
  | some row =>
    by_cases hy : y = y2
    · simp [hy]
    · simp [hy]

theorem rowLen_markRow (tiles : TileGrid) (bit y y2 : Nat) :
    rowLen (markRow bit y tiles) y2 = rowLen tiles y2 := by
  unfold rowLen markRow
  rw [List.getD_eq_getElem?_getD, List.getD_eq_getElem?_getD, List.getElem?_modify]
  cases h : tiles[y2]? with
  | none => rfl
  | some row =>
    by_cases hy : y = y2
    · simp [hy]
    · simp [hy]

theorem grid2_markRow (tiles : TileGrid) (bit y0 y x : Nat) :
    grid2 (markRow bit y0 tiles) y x
      = (grid2 tiles y x).map
          (fun t => if y = y0 then { t with edge := t.edge ||| bit } else t) := by
  unfold grid2 markRow
  rw [List.getElem?_modify]
  cases h : tiles[y]? with
  | none => rfl
  | some row =>
    simp only [Option.map_eq_map, Option.map_some']
    by_cases hy : y0 = y
    · subst hy
      rw [if_pos rfl, List.getElem?_map]
      cases row[x]? <;> simp
    · have hy2 : ¬ y = y0 := fun h => hy h.symm
      rw [if_neg hy]
      cases row[x]? <;> simp [hy2]

theorem markRowEnds_spec {bits : EdgeBits} {y : Nat} {ts ts2 : TileGrid}
    (h : markRowEnds bits y ts = Except.ok ts2) :
    0 < rowLen ts y ∧ ts2.length = ts.length ∧ (∀ y2, rowLen ts2 y2 = rowLen ts y2) ∧
      ∀ y2 x, grid2 ts2 y2 x = (grid2 ts y2 x).map (fun t =>
        if y2 = y then { t with edge := endsEdge bits (rowLen ts y) x t.edge } else t) := by
  unfold markRowEnds at h
  cases hrow : ts[y]? with
  | none => rw [hrow] at h; cases h
  | some row =>
    rw [hrow] at h
    simp only at h
    by_cases hlen : row.length = 0
    · rw [if_pos hlen] at h; cases h
    · rw [if_neg hlen] at h
      cases h
      have hrl := rowLen_eq hrow
      refine ⟨by omega, ?_, ?_, ?_⟩
      · unfold grid2Modify
        simp
      · intro y2
        rw [rowLen_grid2Modify, rowLen_grid2Modify]
      · intro y2 x
        rw [grid2_modify, grid2_modify, grid2_modify, hrl]
        by_cases hy : y2 = y
        · subst hy
          by_cases hx0 : x = 0
          · subst hx0
            by_cases hx1 : 0 = row.length - 1
            · have h1 : 0 + 1 = row.length := by omega
              simp only [hx1, and_self, if_true, true_and]
              rw [← hx1]
              simp only [if_true, Option.map_map, endsEdge, h1]
              cases grid2 ts y2 0 <;> rfl
            · have h1 : ¬ 0 + 1 = row.length := by omega
              simp only [hx1, and_false, if_false, and_self, if_true, endsEdge, h1]
          · by_cases hx1 : x = row.length - 1
            · have h1 : x + 1 = row.length := by omega
              have h2 : ¬ row.length - 1 = 0 := by omega
              simp only [hx1, and_self, if_true, h2, and_false, if_false, endsEdge]
              rw [← hx1]
              simp only [hx0, if_false, h1, if_true]
            · have h1 : ¬ x + 1 = row.length := by omega
              simp only [hx1, hx0, and_false, if_false, if_true, endsEdge, h1]
              cases grid2 ts y2 x <;> rfl
        · simp only [hy, false_and, if_false]
          cases grid2 ts y2 x <;> rfl

theorem markRowEnds_total (bits : EdgeBits) {y : Nat} {ts : TileGrid} (hy : y < ts.length)
    (hrow : 0 < rowLen ts y) : ∃ ts2, markRowEnds bits y ts = Except.ok ts2 := by
  unfold markRowEnds
  rw [List.getElem?_eq_getElem hy]
  simp only
  have hrl : rowLen ts y = ts[y].length := rowLen_eq (List.getElem?_eq_getElem hy)
  rw [if_neg (by omega)]
  exact ⟨_, rfl⟩

theorem length_markRow (tiles : TileGrid) (bit y : Nat) :
    (markRow bit y tiles).length = tiles.length := by
  unfold markRow
  simp

/-- The loop over the rows of `markEdges`: after `k` rows, the ends of these rows are
marked and nothing else has changed. -/
theorem markEnds_loop {bits : EdgeBits} {t2 ts : TileGrid} (n : Nat)
    (h : forRangeE n (fun y u => markRowEnds bits y u) t2 = Except.ok ts) :
    ts.length = t2.length ∧ (∀ y, rowLen ts y = rowLen t2 y) ∧
      (∀ y, y < n → 0 < rowLen t2 y) ∧
      ∀ y x, grid2 ts y x = (grid2 t2 y x).map (fun t =>
        if y < n then { t with edge := endsEdge bits (rowLen t2 y) x t.edge } else t) := by
  refine forRangeE_inv (fun k (u : TileGrid) =>
    u.length = t2.length ∧ (∀ y, rowLen u y = rowLen t2 y) ∧
      (∀ y, y < k → 0 < rowLen t2 y) ∧
      ∀ y x, grid2 u y x = (grid2 t2 y x).map (fun t =>
        if y < k then { t with edge := endsEdge bits (rowLen t2 y) x t.edge } else t))
    (fun y u => markRowEnds bits y u) n t2 ts ?_ ?_ h
  · refine ⟨rfl, fun _ => rfl, fun y hy => by omega, ?_⟩
    intro y x
    cases grid2 t2 y x <;> simp
  · intro k u v _ ⟨hl, hr, hp, hg⟩ hv
    obtain ⟨h1, h2, h3, h4⟩ := markRowEnds_spec hv
    refine ⟨h2.trans hl, fun y => (h3 y).trans (hr y), ?_, ?_⟩
    · intro y hy
      by_cases hyk : y = k
      · rw [hyk, ← hr k]
        exact h1
      · exact hp y (by omega)
    · intro y x
      rw [h4, hg, hr k]
      by_cases hyk : y = k
      · subst hyk
        cases grid2 t2 y x <;> simp
      · by_cases hlt : y < k
        · have hlt2 : y < k + 1 := by omega
          cases grid2 t2 y x <;> simp [hyk, hlt, hlt2]
        · have hlt2 : ¬ y < k + 1 := by omega
          cases grid2 t2 y x <;> simp [hyk, hlt, hlt2]

/-- The marking of the edge, when it returns: the matrix is not empty, no row is
empty, and every tile has got the bits of the sides of the matrix on which it lies. -/
theorem markEdges_inv {bits : EdgeBits} {tiles tiles2 : TileGrid}
    (h : markEdges bits tiles = Except.ok tiles2) :
    0 < tiles.length ∧ (∀ y, y < tiles.length → 0 < rowLen tiles y) ∧
      tiles2.length = tiles.length ∧ (∀ y, rowLen tiles2 y = rowLen tiles y) ∧
      ∀ y x, grid2 tiles2 y x = (grid2 tiles y x).map (fun t =>
        { t with edge := markedEdge bits tiles.length (rowLen tiles y) y x t.edge }) := by
  unfold markEdges at h
  by_cases h0 : tiles.length = 0
  · rw [if_pos h0] at h; cases h
  · rw [if_neg h0] at h
    simp only [length_markRow] at h
    obtain ⟨hl, hr, hp, hg⟩ := markEnds_loop _ h
    simp only [length_markRow] at hl hp hg
    have hrl : ∀ y, rowLen (markRow bits.bottom (tiles.length - 1) (markRow bits.top 0 tiles)) y
        = rowLen tiles y := by
      intro y
      rw [rowLen_markRow, rowLen_markRow]
    refine ⟨by omega, ?_, hl, fun y => (hr y).trans (hrl y), ?_⟩
    · intro y hy
      rw [← hrl y]
      exact hp y hy
    · intro y x
      rw [hg, hrl, grid2_markRow, grid2_markRow]
      cases hgt : grid2 tiles y x with
      | none => rfl
      | some t =>
        have hy : y < tiles.length := by
          unfold grid2 at hgt
          cases hrow : tiles[y]? with
          | none => rw [hrow] at hgt; cases hgt
          | some row => exact (List.getElem?_eq_some_iff.mp hrow).1
        simp only [Option.map_some', length_markRow, hy, if_true]
        unfold markedEdge endsEdge
        by_cases hy0 : y = 0
        · subst hy0
          by_cases hm : tiles.length = 1
          · simp [hm]
          · have e1 : ¬ 0 = tiles.length - 1 := by omega
            have e2 : ¬ 1 = tiles.length := fun h => hm h.symm
            simp [hm, e1, e2]
        · by_cases hy1 : y = tiles.length - 1
          · have e1 : y + 1 = tiles.length := by omega
            simp [hy0, ← hy1, e1]
          · have e1 : ¬ y + 1 = tiles.length := by omega
            simp [hy0, hy1, e1]

theorem markEdges_total (bits : EdgeBits) {tiles : TileGrid} (hne : 0 < tiles.length)
    (hrows : ∀ y, y < tiles.length → 0 < rowLen tiles y) :
    ∃ tiles2, markEdges bits tiles = Except.ok tiles2 := by
  unfold markEdges
  rw [if_neg (by omega)]
  simp only
  obtain ⟨t, ht, _⟩ := forRangeE_total (fun _ (u : TileGrid) =>
      u.length = tiles.length ∧ ∀ y, rowLen u y = rowLen tiles y)
    (fun y u => markRowEnds bits y u)
    (markRow bits.bottom ((markRow bits.top 0 tiles).length - 1) (markRow bits.top 0 tiles)).length
    (markRow bits.bottom ((markRow bits.top 0 tiles).length - 1) (markRow bits.top 0 tiles))
    ⟨by simp only [length_markRow], fun y => by rw [rowLen_markRow, rowLen_markRow]⟩
    (by
      intro k u hk ⟨hl, hr⟩
      simp only [length_markRow] at hk
      obtain ⟨v, hv⟩ := @markRowEnds_total bits k u (by omega) (by rw [hr]; exact hrows k hk)
      obtain ⟨_, h2, h3, _⟩ := markRowEnds_spec hv
      exact ⟨v, hv, h2.trans hl, fun y => (h3 y).trans (hr y)⟩)
  exact ⟨t, ht⟩

/-! ## Preparer in one mode: the tile matrix -/

section OneGrid

variable (r i o a : String) (W H bw bh : Int)

theorem length_rowTiles (y gy : Int) (n m : Nat) :
    (rowTiles r i o a W H bw bh y gy n m).length = m := by
  unfold rowTiles
  simp

theorem rowLen_rowTiles (y gy : Int) (n m j : Nat) (hj : j < m) :
    rowLen (rowTiles r i o a W H bw bh y gy n m) j = n := by
  unfold rowLen rowTiles colTiles
  rw [List.getD_eq_getElem?_getD, List.getElem?_map, List.getElem?_range hj]
  simp

theorem grid2_rowTiles (n m gy gx : Nat) :
    grid2 (rowTiles r i o a W H bw bh 0 0 n m) gy gx =
      if gy < m ∧ gx < n then
        some (oneTileOf r i o a W H bw bh (gx * bw) (gy * bh) gx gy)
      else none := by
  unfold grid2 rowTiles colTiles
  rw [List.getElem?_map]
  by_cases hy : gy < m
  · rw [List.getElem?_range hy]
    simp only [Option.map_some', zero_add]
    rw [List.getElem?_map]
    by_cases hx : gx < n
    · rw [List.getElem?_range hx, if_pos ⟨hy, hx⟩]
      rfl
    · rw [List.getElem?_eq_none (by simp; omega), if_neg (fun h => hx h.2)]
      rfl
  · rw [List.getElem?_eq_none (by simp; omega), if_neg (fun h => hy h.1)]
    rfl

/-- The one branch, when it returns: the tile matrix is the grid of the clamped blocks
of the raster. -/
theorem prepareOne_ok {probe : String → Option GDALInfo} {bwidth bheight : Int}
    {tiles : TileGrid} (h : prepareOne probe r i o bwidth bheight a = Except.ok tiles) :
    ∃ info n m, probe i = some info ∧
      tiles = rowTiles r i o a info.width info.height (blockSize bwidth info.width)
        (blockSize bheight info.height) 0 0 n m ∧
      info.height ≤ m * blockSize bheight info.height ∧
      (0 < n → Blocks info.height (blockSize bheight info.height) m) ∧
      (0 < m → Blocks info.width (blockSize bwidth info.width) n) ∧
      (0 < n → 0 < m → OneNamesValid r o) := by
  unfold prepareOne at h
  cases hp : probe i with
  | none => rw [hp] at h; cases h
  | some info =>
    rw [hp] at h
    simp only at h
    obtain ⟨n, m, hres, hend, hrows, hcols, hhs, hnv⟩ := oneRows_ok r i o a _ _ _ _ _ _ _ _ _ h
    simp only [List.nil_append, zero_add] at hres hend hrows hhs
    refine ⟨info, n, m, rfl, hres, hend, ?_, ?_, hnv⟩
    · intro hn
      exact ⟨hend, hrows, hhs hn⟩
    · intro hm
      exact ⟨(hcols hm).1, fun k hk => ((hcols hm).2 k hk).1, fun k hk => ((hcols hm).2 k hk).2⟩

end OneGrid

/-- The tile matrix that `Preparer` hands over in one mode: the grid of the clamped
blocks of the raster, each tile with the bits of the sides of the matrix it lies on. -/
theorem Preparer_one_ok {probe : String → Option GDALInfo} {layout : String → List LayoutEntry}
    {bits : EdgeBits} {r i o a : String} {bwidth bheight flipH flipV : Int} {tiles : TileGrid}
    (h : Preparer probe layout bits "one" r i o bwidth bheight flipH flipV a = Except.ok tiles) :
    ∃ info n m, probe i = some info ∧ 0 < n ∧ 0 < m ∧ tiles.length = m ∧
      (∀ y, y < m → rowLen tiles y = n) ∧
      Blocks info.height (blockSize bheight info.height) m ∧
      Blocks info.width (blockSize bwidth info.width) n ∧
      OneNamesValid r o ∧
      ∀ gy gx, grid2 tiles gy gx =
        if gy < m ∧ gx < n then
          some { oneTileOf r i o a info.width info.height (blockSize bwidth info.width)
                   (blockSize bheight info.height) (gx * blockSize bwidth info.width)
                   (gy * blockSize bheight info.height) gx gy with
                 edge := markedEdge bits m n gy gx 0 }
        else none := by
  unfold Preparer at h
  by_cases hl : (!contains o "%f" && !contains o "%n") = true
  · rw [if_pos hl] at h; cases h
  · rw [if_neg hl, if_neg (by decide), if_pos rfl] at h
    cases hp : prepareOne probe r i o bwidth bheight a with
    | error e => rw [hp] at h; cases h
    | ok t1 =>
      rw [hp] at h
      have hm : markEdges bits t1 = Except.ok tiles := h
      obtain ⟨info, n, m, hprobe, ht1, _, hrows, hcols, hnv⟩ := prepareOne_ok r i o a hp
      obtain ⟨hlen, hrl, hlen2, hrl2, hg⟩ := markEdges_inv hm
      have hm0 : 0 < m := by
        rw [ht1, length_rowTiles] at hlen
        exact hlen
      have hn0 : 0 < n := by
        have := hrl 0 (by rw [ht1, length_rowTiles]; exact hm0)
        rw [ht1, rowLen_rowTiles _ _ _ _ _ _ _ _ _ _ _ _ _ hm0] at this
        exact this
      refine ⟨info, n, m, hprobe, hn0, hm0, ?_, ?_, hrows hn0, hcols hm0, hnv hn0 hm0, ?_⟩
      · rw [hlen2, ht1, length_rowTiles]
      · intro y hy
        rw [hrl2, ht1, rowLen_rowTiles _ _ _ _ _ _ _ _ _ _ _ _ _ hy]
      · intro gy gx
        rw [hg, ht1, grid2_rowTiles, length_rowTiles]
        by_cases hc : gy < m ∧ gx < n
        · rw [if_pos hc, if_pos hc, rowLen_rowTiles _ _ _ _ _ _ _ _ _ _ _ _ _ hc.1]
          rfl
        · rw [if_neg hc, if_neg hc]
          rfl

theorem block_index_lt {b total px : Int} {n k : Nat} (hb : 0 < b) (hend : total ≤ n * b)
    (h1 : k * b ≤ px) (h2 : px < total) : k < n := by
  by_contra hk
  have hnk : (n : Int) ≤ k := by
    have : n ≤ k := by omega
    exact_mod_cast this
  have := mul_le_mul_of_nonneg_right hnk (le_of_lt hb)
  omega

theorem block_unique {b px : Int} {k k2 : Nat} (hb : 0 < b) (h1 : k * b ≤ px)
    (h2 : px < k * b + b) (h3 : k2 * b ≤ px) (h4 : px < k2 * b + b) : k = k2 := by
  rcases Nat.lt_trichotomy k k2 with h | h | h
  · have hle : ((k : Int) + 1) ≤ k2 := by exact_mod_cast h
    have := mul_le_mul_of_nonneg_right hle (le_of_lt hb)
    have e : ((k : Int) + 1) * b = k * b + b := by ring
    omega
  · exact h
  · have hle : ((k2 : Int) + 1) ≤ k := by exact_mod_cast h
    have := mul_le_mul_of_nonneg_right hle (le_of_lt hb)
    have e : ((k2 : Int) + 1) * b = k2 * b + b := by ring
    omega

theorem block_exists {b px : Int} (hb : 0 < b) (h0 : 0 ≤ px) :
    ∃ k : Nat, k * b ≤ px ∧ px < k * b + b := by
  refine ⟨(px / b).toNat, ?_⟩
  have hq : 0 ≤ px / b := Int.ediv_nonneg h0 (le_of_lt hb)
  have hc : ((px / b).toNat : Int) = px / b := Int.toNat_of_nonneg hq
  rw [hc]
  have h1 := Int.ediv_add_emod px b
  have h2 := Int.emod_nonneg px (ne_of_gt hb)
  have h3 := Int.emod_lt_of_pos px hb
  have e : px / b * b = b * (px / b) := Int.mul_comm _ _
  omega

/-- The window of a tile of the one branch. -/
theorem oneTileOf_window (r i o a : String) (W H bw bh x y gx gy : Int) :
    (oneTileOf r i o a W H bw bh x y gx gy).x = x ∧
    (oneTileOf r i o a W H bw bh x y gx gy).y = y ∧
    (oneTileOf r i o a W H bw bh x y gx gy).gridx = gx ∧
    (oneTileOf r i o a W H bw bh x y gx gy).gridy = gy ∧
    (oneTileOf r i o a W H bw bh x y gx gy).width = min bw (W - x) ∧
    (oneTileOf r i o a W H bw bh x y gx gy).height = min bh (H - y) ∧
    (oneTileOf r i o a W H bw bh x y gx gy).flip = 0 ∧
    (oneTileOf r i o a W H bw bh x y gx gy).edge = 0 ∧
    (oneTileOf r i o a W H bw bh x y gx gy).nullTile = false := by
  refine ⟨rfl, rfl, rfl, rfl, ?_, ?_, rfl, rfl, rfl⟩
  · show (if W - x ≥ bw then bw else W - x) = min bw (W - x)
    rw [min_def]
  · show (if H - y ≥ bh then bh else H - y) = min bh (H - y)
    rw [min_def]

/-- C14: the tiles of one mode partition the raster.  Whenever `Preparer` returns a tile
matrix in one mode for a raster of `W x H` cells and positive block sizes `bw`, `bh`
(`-1` standing for `W` resp. `H`), the tile at grid position `(gx, gy)` has pixel
offset `(gx*bw, gy*bh)`, width `min(bw, W - gx*bw)` and height `min(bh, H - gy*bh)`;
every window lies in the raster, every cell of the raster lies in the window of a tile,
and in that of one tile only; all tiles of a row share one height and all tiles of a
column share one width. -/
theorem C14_one_mode_tiles_partition (probe : String → Option GDALInfo)
    (layout : String → List LayoutEntry) (bits : EdgeBits) (r i o a : String)
    (bwidth bheight flipH flipV : Int) (info : GDALInfo) (tiles : TileGrid)
    (hprobe : probe i = some info)
    (hbw : 0 < blockSize bwidth info.width) (hbh : 0 < blockSize bheight info.height)
    (h : Preparer probe layout bits "one" r i o bwidth bheight flipH flipV a = Except.ok tiles) :
    (∀ gy gx t, grid2 tiles gy gx = some t →
      t.gridx = gx ∧ t.gridy = gy ∧
      t.x = gx * blockSize bwidth info.width ∧ t.y = gy * blockSize bheight info.height ∧
      t.width = min (blockSize bwidth info.width)
        (info.width - gx * blockSize bwidth info.width) ∧
      t.height = min (blockSize bheight info.height)
        (info.height - gy * blockSize bheight info.height)) ∧
    (∀ gy gx t px py, grid2 tiles gy gx = some t → InWindow t px py →
      0 ≤ px ∧ px < info.width ∧ 0 ≤ py ∧ py < info.height) ∧
    (∀ px py, 0 ≤ px → px < info.width → 0 ≤ py → py < info.height →
      ∃ gy gx t, grid2 tiles gy gx = some t ∧ InWindow t px py) ∧
    (∀ gy gx t gy2 gx2 t2 px py, grid2 tiles gy gx = some t → grid2 tiles gy2 gx2 = some t2 →
      InWindow t px py → InWindow t2 px py → gy = gy2 ∧ gx = gx2) ∧
    (∀ gy gx gx2 t t2, grid2 tiles gy gx = some t → grid2 tiles gy gx2 = some t2 →
      t.height = t2.height) ∧
    (∀ gx gy gy2 t t2, grid2 tiles gy gx = some t → grid2 tiles gy2 gx = some t2 →
      t.width = t2.width) := by
  obtain ⟨info2, n, m, hprobe2, hn, hm, _, _, hrows, hcols, _, hg⟩ := Preparer_one_ok h
  rw [hprobe] at hprobe2
  cases hprobe2
  have htile : ∀ gy gx t, grid2 tiles gy gx = some t →
      gy < m ∧ gx < n ∧
      t.gridx = gx ∧ t.gridy = gy ∧
      t.x = gx * blockSize bwidth info.width ∧ t.y = gy * blockSize bheight info.height ∧
      t.width = min (blockSize bwidth info.width)
        (info.width - gx * blockSize bwidth info.width) ∧
      t.height = min (blockSize bheight info.height)
        (info.height - gy * blockSize bheight info.height) := by
    intro gy gx t ht
    rw [hg] at ht
    by_cases hc : gy < m ∧ gx < n
    · rw [if_pos hc] at ht
      cases ht
      obtain ⟨e1, e2, e3, e4, e5, e6, _⟩ := oneTileOf_window r i o a info.width info.height
        (blockSize bwidth info.width) (blockSize bheight info.height)
        (gx * blockSize bwidth info.width) (gy * blockSize bheight info.height) gx gy
      exact ⟨hc.1, hc.2, e3, e4, e1, e2, e5, e6⟩
    · rw [if_neg hc] at ht
      cases ht
  refine ⟨fun gy gx t ht => (htile gy gx t ht).2.2, ?_, ?_, ?_, ?_, ?_⟩
  · intro gy gx t px py ht ⟨w1, w2, w3, w4⟩
    obtain ⟨hy, hx, _, _, ex, ey, ew, eh⟩ := htile gy gx t ht
    have sx := hcols.starts gx hx
    have sy := hrows.starts gy hy
    have px0 : (0 : Int) ≤ gx * blockSize bwidth info.width :=
      mul_nonneg (Int.ofNat_nonneg _) (le_of_lt hbw)
    have py0 : (0 : Int) ≤ gy * blockSize bheight info.height :=
      mul_nonneg (Int.ofNat_nonneg _) (le_of_lt hbh)
    rw [ex, ew] at w2
    rw [ey, eh] at w4
    rw [ex] at w1
    rw [ey] at w3
    have m1 := min_le_right (blockSize bwidth info.width)
      (info.width - gx * blockSize bwidth info.width)
    have m2 := min_le_right (blockSize bheight info.height)
      (info.height - gy * blockSize bheight info.height)
    exact ⟨by omega, by omega, by omega, by omega⟩
  · intro px py hx0 hx1 hy0 hy1
    obtain ⟨gx, gx1, gx2⟩ := block_exists hbw hx0
    obtain ⟨gy, gy1, gy2⟩ := block_exists hbh hy0
    have hgx : gx < n := block_index_lt hbw hcols.ends gx1 hx1
    have hgy : gy < m := block_index_lt hbh hrows.ends gy1 hy1
    have ht := hg gy gx
    rw [if_pos ⟨hgy, hgx⟩] at ht
    obtain ⟨_, _, _, _, e1, e2, e5, e6⟩ := htile gy gx _ ht
    refine ⟨gy, gx, _, ht, ?_⟩
    unfold InWindow
    rw [e1, e2, e5, e6]
    refine ⟨gx1, ?_, gy1, ?_⟩
    · rw [min_def]
      split <;> omega
    · rw [min_def]
      split <;> omega
  · intro gy gx t gy2 gx2 t2 px py ht ht2 ⟨w1, w2, w3, w4⟩ ⟨v1, v2, v3, v4⟩
    obtain ⟨_, _, _, _, ex, ey, ew, eh⟩ := htile gy gx t ht
    obtain ⟨_, _, _, _, ex2, ey2, ew2, eh2⟩ := htile gy2 gx2 t2 ht2
    rw [ex, ew] at w2
    rw [ey, eh] at w4
    rw [ex] at w1
    rw [ey] at w3
    rw [ex2, ew2] at v2
    rw [ey2, eh2] at v4
    rw [ex2] at v1
    rw [ey2] at v3
    have m1 := min_le_left (blockSize bwidth info.width)
      (info.width - gx * blockSize bwidth info.width)
    have m2 := min_le_left (blockSize bheight info.height)
      (info.height - gy * blockSize bheight info.height)
    have m3 := min_le_left (blockSize bwidth info.width)
      (info.width - gx2 * blockSize bwidth info.width)
    have m4 := min_le_left (blockSize bheight info.height)
      (info.height - gy2 * blockSize bheight info.height)
    exact ⟨block_unique hbh w3 (by omega) v3 (by omega),
      block_unique hbw w1 (by omega) v1 (by omega)⟩
  · intro gy gx gx2 t t2 ht ht2
    rw [(htile gy gx t ht).2.2.2.2.2.2.2, (htile gy gx2 t2 ht2).2.2.2.2.2.2.2]
  · intro gx gy gy2 t t2 ht ht2
    rw [(htile gy gx t ht).2.2.2.2.2.2.1, (htile gy2 gx t2 ht2).2.2.2.2.2.2.1]

theorem exOne_eq : Preparer exProbe (fun _ => []) exBits "one" "@evict" "in.tif" "out%n.tif"
    150 (-1) 1 1 "cmd" = Except.ok exOneTiles := by
  rfl

theorem C14_witness :
    ∃ t, grid2 exOneTiles 0 1 = some t ∧ t.x = 150 ∧ t.width = 150 :=
  ⟨_, rfl,
    ((C14_one_mode_tiles_partition exProbe (fun _ => []) exBits "@evict" "in.tif" "out%n.tif"
      "cmd" 150 (-1) 1 1 exInfo exOneTiles rfl (by decide) (by decide) exOne_eq).1 0 1 _ rfl).2.2.1,
    rfl⟩

/-- A block size that passes the check of the last block is at least 100. -/
theorem Blocks.block_ge {total b : Int} {n : Nat} (hb : Blocks total b n) (hn : 0 < n) :
    100 ≤ b := by
  obtain ⟨k, rfl⟩ := Nat.exists_eq_succ_of_ne_zero (Nat.ne_of_gt hn)
  have h1 := hb.ends
  have h2 := hb.checked k (Nat.lt_succ_self k)
  have e : ((k + 1 : Nat) : Int) * b = k * b + b := by push_cast; ring
  rw [Nat.succ_eq_add_one, e] at h1
  omega

/-- No tile of a grid that passed the checks is small. -/
theorem not_smallTile_of_blocks {W H bw bh : Int} {n m : Nat} (hbw : 0 < bw) (hbh : 0 < bh)
    (hcols : Blocks W bw n) (hrows : Blocks H bh m) : ¬ SmallTile W H bw bh := by
  rintro ⟨gx, gy, hx, hy, hsmall⟩
  have hgx : gx < n := block_index_lt hbw hcols.ends (le_refl _) hx
  have hgy : gy < m := block_index_lt hbh hrows.ends (le_refl _) hy
  have h1 := hcols.checked gx hgx
  have h2 := hrows.checked gy hgy
  have h3 := hcols.block_ge (by omega)
  have h4 := hrows.block_ge (by omega)
  rcases hsmall with h | h
  · rw [min_def] at h
    split at h <;> omega
  · rw [min_def] at h
    split at h <;> omega

/-- C15: the size check of one mode.  With valid name templates, positive block sizes
and loop counters that stay in `int32_t`, the partition of `Preparer` in one mode ends
with a tile-size error if and only if some tile of the clamped grid would be less than
100 cells wide or less than 100 cells high, and it returns a tile matrix otherwise;
whenever it returns, every tile is at least 100 cells wide and 100 cells high. -/
theorem C15_tile_size_check (probe : String → Option GDALInfo) (r i o a : String)
    (bwidth bheight : Int) (info : GDALInfo) (hprobe : probe i = some info)
    (hn : OneNamesValid r o)
    (hbw : 0 < blockSize bwidth info.width) (hbh : 0 < blockSize bheight info.height)
    (hovw : info.width + blockSize bwidth info.width ≤ INT32_MAX)
    (hovh : info.height + blockSize bheight info.height ≤ INT32_MAX) :
    ((prepareOne probe r i o bwidth bheight a = Except.error PrepError.tileHeight ∨
        prepareOne probe r i o bwidth bheight a = Except.error PrepError.tileWidth) ↔
      SmallTile info.width info.height (blockSize bwidth info.width)
        (blockSize bheight info.height)) ∧
    ((∃ tiles, prepareOne probe r i o bwidth bheight a = Except.ok tiles) ↔
      ¬ SmallTile info.width info.height (blockSize bwidth info.width)
        (blockSize bheight info.height)) ∧
    ∀ tiles, prepareOne probe r i o bwidth bheight a = Except.ok tiles →
      ∀ gy gx t, grid2 tiles gy gx = some t → 100 ≤ t.width ∧ 100 ≤ t.height := by
  have hok : ∀ tiles, prepareOne probe r i o bwidth bheight a = Except.ok tiles →
      (¬ SmallTile info.width info.height (blockSize bwidth info.width)
        (blockSize bheight info.height)) ∧
      ∀ gy gx t, grid2 tiles gy gx = some t → 100 ≤ t.width ∧ 100 ≤ t.height := by
    intro tiles ht
    obtain ⟨info2, n, m, hp2, hres, hend, hrows, hcols, _⟩ := prepareOne_ok r i o a ht
    rw [hprobe] at hp2
    cases hp2
    constructor
    · rintro ⟨gx, gy, hx, hy, hsmall⟩
      have hW : (0 : Int) < info.width :=
        lt_of_le_of_lt (mul_nonneg (Int.ofNat_nonneg gx) (le_of_lt hbw)) hx
      have hH : (0 : Int) < info.height :=
        lt_of_le_of_lt (mul_nonneg (Int.ofNat_nonneg gy) (le_of_lt hbh)) hy
      have hm : 0 < m := by
        rcases Nat.eq_zero_or_pos m with h0 | h0
        · rw [h0] at hend
          simp at hend
          omega
        · exact h0
      have hc := hcols hm
      have hn0 : 0 < n := by
        rcases Nat.eq_zero_or_pos n with h0 | h0
        · have := hc.ends
          rw [h0] at this
          simp at this
          omega
        · exact h0
      exact not_smallTile_of_blocks hbw hbh hc (hrows hn0) ⟨gx, gy, hx, hy, hsmall⟩
    · intro gy gx t hgt
      rw [hres, grid2_rowTiles] at hgt
      by_cases hc : gy < m ∧ gx < n
      · rw [if_pos hc] at hgt
        cases hgt
        obtain ⟨_, _, _, _, e5, e6, _⟩ := oneTileOf_window r i o a info.width info.height
          (blockSize bwidth info.width) (blockSize bheight info.height)
          (gx * blockSize bwidth info.width) (gy * blockSize bheight info.height) gx gy
        have hcb := hcols (by omega)
        have hrb := hrows (by omega)
        have h1 := hcb.checked gx hc.2
        have h2 := hrb.checked gy hc.1
        have h3 := hcb.block_ge (by omega)
        have h4 := hrb.block_ge (by omega)
        rw [e5, e6]
        exact ⟨le_min h3 h1, le_min h4 h2⟩
      · rw [if_neg hc] at hgt
        cases hgt
  have hrun : prepareOne probe r i o bwidth bheight a
      = oneRows r i o a info.width info.height (blockSize bwidth info.width)
          (blockSize bheight info.height) info.height.toNat 0 0 [] := by
    unfold prepareOne
    rw [hprobe]
    rfl
  have htri := oneRows_run r i o a info.width info.height (blockSize bwidth info.width)
    (blockSize bheight info.height) hn hbw hbh hovw hovh info.height.toNat 0 0 [] (by omega)
  rw [← hrun] at htri
  have hsmall_of_err :
      (prepareOne probe r i o bwidth bheight a = Except.error PrepError.tileHeight ∨
        prepareOne probe r i o bwidth bheight a = Except.error PrepError.tileWidth) →
      SmallTile info.width info.height (blockSize bwidth info.width)
        (blockSize bheight info.height) := by
    intro herr
    rcases htri with ⟨res, h1⟩ | ⟨_, hW, j, h2, h3⟩ | ⟨_, hy, k, h2, h3⟩
    · rcases herr with h | h <;> rw [h1] at h <;> cases h
    · refine ⟨0, j, by simpa using hW, by simpa using h2, Or.inr ?_⟩
      simp only [zero_add] at h3
      exact lt_of_le_of_lt (min_le_right _ _) h3
    · refine ⟨k, 0, h2, by simpa using hy, Or.inl ?_⟩
      exact lt_of_le_of_lt (min_le_right _ _) h3
  have herr_of_not_ok : (¬ ∃ tiles, prepareOne probe r i o bwidth bheight a = Except.ok tiles) →
      (prepareOne probe r i o bwidth bheight a = Except.error PrepError.tileHeight ∨
        prepareOne probe r i o bwidth bheight a = Except.error PrepError.tileWidth) := by
    intro hno
    rcases htri with h1 | ⟨h1, _⟩ | ⟨h1, _⟩
    · exact absurd h1 hno
    · exact Or.inl h1
    · exact Or.inr h1
  refine ⟨⟨hsmall_of_err, ?_⟩, ⟨?_, ?_⟩, fun tiles ht => (hok tiles ht).2⟩
  · intro hs
    apply herr_of_not_ok
    rintro ⟨tiles, ht⟩
    exact (hok tiles ht).1 hs
  · rintro ⟨tiles, ht⟩
    exact (hok tiles ht).1
  · intro hns
    by_contra hno
    exact hns (hsmall_of_err (herr_of_not_ok hno))

theorem exOne_small : prepareOne exProbe "@evict" "in.tif" "out%n.tif" 250 (-1) "cmd"
    = Except.error PrepError.tileWidth := by
  rfl

theorem C15_witness :
    SmallTile exInfo.width exInfo.height (blockSize 250 exInfo.width)
      (blockSize (-1) exInfo.height) :=
  (C15_tile_size_check exProbe "@evict" "in.tif" "out%n.tif" "cmd" 250 (-1) exInfo rfl
    (by decide) (by decide) (by decide) (by decide) (by decide)).1.mp (Or.inr exOne_small)

/-! ## Edge bits -/

theorem hasBit_or_same (e b : Nat) : HasBit (e ||| b) b := by
  unfold HasBit
  apply Nat.eq_of_testBit_eq
  intro k
  simp only [Nat.testBit_and, Nat.testBit_or]
  cases e.testBit k <;> cases b.testBit k <;> rfl

theorem hasBit_or_of {e b : Nat} (c : Nat) (h : HasBit e b) : HasBit (e ||| c) b := by
  unfold HasBit at h ⊢
  apply Nat.eq_of_testBit_eq
  intro k
  have hk : (e &&& b).testBit k = b.testBit k := by rw [h]
  simp only [Nat.testBit_and, Nat.testBit_or] at hk ⊢
  cases he : e.testBit k <;> cases hb : b.testBit k <;> cases c.testBit k <;>
    simp [he, hb] at hk ⊢

theorem hasBit_or_other {e b c : Nat} (hcb : c &&& b = 0) : HasBit (e ||| c) b ↔ HasBit e b := by
  unfold HasBit
  rw [Nat.and_comm, Nat.and_or_distrib_left, Nat.and_comm b c, hcb, Nat.or_zero, Nat.and_comm]

theorem not_hasBit_zero {b : Nat} (hb : b ≠ 0) : ¬ HasBit 0 b := by
  unfold HasBit
  rw [Nat.zero_and]
  exact fun h => hb h.symm

/-- The bits that the marking of the edge always sets. -/
theorem markedEdge_has (bits : EdgeBits) (m len y x e : Nat) :
    (y = 0 → HasBit (markedEdge bits m len y x e) bits.top) ∧
    (y + 1 = m → HasBit (markedEdge bits m len y x e) bits.bottom) ∧
    (x = 0 → HasBit (markedEdge bits m len y x e) bits.left) ∧
    (x + 1 = len → HasBit (markedEdge bits m len y x e) bits.right) := by
  unfold markedEdge
  refine ⟨?_, ?_, ?_, ?_⟩
  · intro hy
    simp only [hy, if_true]
    have h1 : HasBit (e ||| bits.top) bits.top := hasBit_or_same _ _
    split_ifs <;> first
      | exact h1
      | exact hasBit_or_of _ h1
      | exact hasBit_or_of _ (hasBit_or_of _ h1)
      | exact hasBit_or_of _ (hasBit_or_of _ (hasBit_or_of _ h1))
  · intro hy
    simp only [hy, if_true]
    split_ifs <;> first
      | exact hasBit_or_same _ _
      | exact hasBit_or_of _ (hasBit_or_same _ _)
      | exact hasBit_or_of _ (hasBit_or_of _ (hasBit_or_same _ _))
  · intro hx
    simp only [hx, if_true]
    split_ifs <;> first
      | exact hasBit_or_same _ _
      | exact hasBit_or_of _ (hasBit_or_same _ _)
  · intro hx
    simp only [hx, if_true]
    exact hasBit_or_same _ _

theorem markedEdge_eq_markBits (bits : EdgeBits) (m len y x e : Nat) :
    markedEdge bits m len y x e
      = markBits bits (decide (y = 0)) (decide (y + 1 = m)) (decide (x = 0))
          (decide (x + 1 = len)) e := by
  unfold markedEdge markBits
  simp only [decide_eq_true_eq]

theorem markBits_iff {bits : EdgeBits} (hd : bits.Distinct) (a b c d : Bool) :
    (HasBit (markBits bits a b c d 0) bits.top ↔ a = true) ∧
    (HasBit (markBits bits a b c d 0) bits.bottom ↔ b = true) ∧
    (HasBit (markBits bits a b c d 0) bits.left ↔ c = true) ∧
    (HasBit (markBits bits a b c d 0) bits.right ↔ d = true) := by
  have tb := hd.top_bottom
  have tl := hd.top_left
  have tr := hd.top_right
  have bl := hd.bottom_left
  have br := hd.bottom_right
  have lr := hd.left_right
  have bt : bits.bottom &&& bits.top = 0 := by rw [Nat.and_comm]; exact tb
  have lt : bits.left &&& bits.top = 0 := by rw [Nat.and_comm]; exact tl
  have rt : bits.right &&& bits.top = 0 := by rw [Nat.and_comm]; exact tr
  have lb : bits.left &&& bits.bottom = 0 := by rw [Nat.and_comm]; exact bl
  have rb : bits.right &&& bits.bottom = 0 := by rw [Nat.and_comm]; exact br
  have rl : bits.right &&& bits.left = 0 := by rw [Nat.and_comm]; exact lr
  have z1 := not_hasBit_zero hd.top_ne
  have z2 := not_hasBit_zero hd.bottom_ne
  have z3 := not_hasBit_zero hd.left_ne
  have z4 := not_hasBit_zero hd.right_ne
  have s1 : ∀ e, HasBit (e ||| bits.top) bits.top := fun e => hasBit_or_same e _
  have s2 : ∀ e, HasBit (e ||| bits.bottom) bits.bottom := fun e => hasBit_or_same e _
  have s3 : ∀ e, HasBit (e ||| bits.left) bits.left := fun e => hasBit_or_same e _
  have s4 : ∀ e, HasBit (e ||| bits.right) bits.right := fun e => hasBit_or_same e _
  unfold markBits
  cases a <;> cases b <;> cases c <;> cases d <;>
    simp only [if_true, if_false, Bool.false_eq_true, hasBit_or_other bt, hasBit_or_other lt,
      hasBit_or_other rt, hasBit_or_other tb, hasBit_or_other lb, hasBit_or_other rb,
      hasBit_or_other tl, hasBit_or_other bl, hasBit_or_other rl, hasBit_or_other tr,
      hasBit_or_other br, hasBit_or_other lr, s1, s2, s3, s4, z1, z2, z3, z4, and_self,
      iff_self, true_and, and_true]

/-- The bits of a tile that had none before the marking of the edge, for four
different edge constants: the bit of a side is set exactly on that side. -/
theorem markedEdge_iff {bits : EdgeBits} (hd : bits.Distinct) (m len y x : Nat) :
    (HasBit (markedEdge bits m len y x 0) bits.top ↔ y = 0) ∧
    (HasBit (markedEdge bits m len y x 0) bits.bottom ↔ y + 1 = m) ∧
    (HasBit (markedEdge bits m len y x 0) bits.left ↔ x = 0) ∧
    (HasBit (markedEdge bits m len y x 0) bits.right ↔ x + 1 = len) := by
  rw [markedEdge_eq_markBits]
  obtain ⟨h1, h2, h3, h4⟩ := markBits_iff hd (decide (y = 0)) (decide (y + 1 = m))
    (decide (x = 0)) (decide (x + 1 = len))
  simp only [decide_eq_true_eq] at h1 h2 h3 h4
  exact ⟨h1, h2, h3, h4⟩

/-- Whatever the mode, a tile matrix that `Preparer` hands over comes out of the
marking of the edge. -/
theorem Preparer_marked {probe : String → Option GDALInfo} {layout : String → List LayoutEntry}
    {bits : EdgeBits} {mode r i o a : String} {bwidth bheight flipH flipV : Int}
    {tiles : TileGrid}
    (h : Preparer probe layout bits mode r i o bwidth bheight flipH flipV a = Except.ok tiles) :
    ∃ t1, markEdges bits t1 = Except.ok tiles ∧
      ((mode = "many" ∧
          prepareMany probe (layout i) bits r o flipH flipV a = Except.ok t1) ∨
        (mode = "one" ∧ prepareOne probe r i o bwidth bheight a = Except.ok t1)) := by
  unfold Preparer at h
  by_cases hl : (!contains o "%f" && !contains o "%n") = true
  · rw [if_pos hl] at h; cases h
  · rw [if_neg hl] at h
    by_cases hm : mode = "many"
    · rw [if_pos hm] at h
      cases hp : prepareMany probe (layout i) bits r o flipH flipV a with
      | error e => rw [hp] at h; cases h
      | ok t1 => rw [hp] at h; exact ⟨t1, h, Or.inl ⟨hm, rfl⟩⟩
    · rw [if_neg hm] at h
      by_cases ho : mode = "one"
      · rw [if_pos ho] at h
        cases hp : prepareOne probe r i o bwidth bheight a with
        | error e => rw [hp] at h; cases h
        | ok t1 => rw [hp] at h; exact ⟨t1, h, Or.inr ⟨ho, rfl⟩⟩
      · rw [if_neg ho] at h
        cases h

/-- C16: the marking of the edge of the tile matrix.  In the tile matrix that `Preparer`
hands over, in either mode, every tile of the first row has the TOP bit, every tile of
the last row the BOTTOM bit, the first tile of every row the LEFT bit and the last tile
of every row the RIGHT bit (no row is empty).  In one mode, for four different edge
constants, these are the only bits set: a tile has the bit of a side if and only if it
lies on that side of the tile matrix. -/
theorem C16_edge_bits_mark_matrix_sides (probe : String → Option GDALInfo)
    (layout : String → List LayoutEntry) (bits : EdgeBits) (r i o a : String)
    (bwidth bheight flipH flipV : Int) :
    (∀ mode tiles,
      Preparer probe layout bits mode r i o bwidth bheight flipH flipV a = Except.ok tiles →
      0 < tiles.length ∧ (∀ y, y < tiles.length → 0 < rowLen tiles y) ∧
      (∀ x t, grid2 tiles 0 x = some t → HasBit t.edge bits.top) ∧
      (∀ x t, grid2 tiles (tiles.length - 1) x = some t → HasBit t.edge bits.bottom) ∧
      (∀ y t, grid2 tiles y 0 = some t → HasBit t.edge bits.left) ∧
      (∀ y t, grid2 tiles y (rowLen tiles y - 1) = some t → HasBit t.edge bits.right)) ∧
    (bits.Distinct → ∀ tiles,
      Preparer probe layout bits "one" r i o bwidth bheight flipH flipV a = Except.ok tiles →
      ∀ y x t, grid2 tiles y x = some t →
        (HasBit t.edge bits.top ↔ y = 0) ∧
        (HasBit t.edge bits.bottom ↔ y + 1 = tiles.length) ∧
        (HasBit t.edge bits.left ↔ x = 0) ∧
        (HasBit t.edge bits.right ↔ x + 1 = rowLen tiles y)) := by
  constructor
  · intro mode tiles h
    obtain ⟨t1, hm, _⟩ := Preparer_marked h
    obtain ⟨hlen, hrl, hlen2, hrl2, hg⟩ := markEdges_inv hm
    have key : ∀ y x t, grid2 tiles y x = some t →
        ∃ e, t.edge = markedEdge bits t1.length (rowLen t1 y) y x e := by
      intro y x t ht
      rw [hg] at ht
      cases h1 : grid2 t1 y x with
      | none => rw [h1] at ht; cases ht
      | some t0 =>
        rw [h1] at ht
        cases ht
        exact ⟨t0.edge, rfl⟩
    refine ⟨by omega, ?_, ?_, ?_, ?_, ?_⟩
    · intro y hy
      rw [hrl2]
      exact hrl y (by omega)
    · intro x t ht
      obtain ⟨e, he⟩ := key 0 x t ht
      rw [he]
      exact (markedEdge_has bits _ _ 0 x e).1 rfl
    · intro x t ht
      obtain ⟨e, he⟩ := key _ x t ht
      rw [he]
      exact (markedEdge_has bits _ _ _ x e).2.1 (by omega)
    · intro y t ht
      obtain ⟨e, he⟩ := key y 0 t ht
      rw [he]
      exact (markedEdge_has bits _ _ y 0 e).2.2.1 rfl
    · intro y t ht
      obtain ⟨e, he⟩ := key y _ t ht
      rw [he]
      have hy : y < tiles.length := by
        unfold grid2 at ht
        cases hrow : tiles[y]? with
        | none => rw [hrow] at ht; cases ht
        | some row => exact (List.getElem?_eq_some_iff.mp hrow).1
      have hpos := hrl y (by omega)
      rw [hrl2] at he ⊢
      exact (markedEdge_has bits _ _ y _ e).2.2.2 (by omega)
  · intro hd tiles h y x t ht
    obtain ⟨info, n, m, _, hn, hm, hlen, hrl, _, _, _, hg⟩ := Preparer_one_ok h
    rw [hg] at ht
    by_cases hc : y < m ∧ x < n
    · rw [if_pos hc] at ht
      cases ht
      rw [hlen, hrl y hc.1]
      exact markedEdge_iff hd m n y x
    · rw [if_neg hc] at ht
      cases ht

theorem exBits_distinct : exBits.Distinct :=
  { top_ne := by decide
    bottom_ne := by decide
    left_ne := by decide
    right_ne := by decide
    top_bottom := by decide
    top_left := by decide
    top_right := by decide
    bottom_left := by decide
    bottom_right := by decide
    left_right := by decide }

theorem C16_witness :
    ∃ t, grid2 exOneTiles 0 1 = some t ∧ (HasBit t.edge exBits.left ↔ 1 = 0) :=
  ⟨_, rfl, ((C16_edge_bits_mark_matrix_sides exProbe (fun _ => []) exBits "@evict" "in.tif"
    "out%n.tif" "cmd" 150 (-1) 1 1).2 exBits_distinct exOneTiles exOne_eq 0 1 _ rfl).2.2.1⟩

/-! ## Preparer in many mode: the flip masks -/

theorem xorIf_bits (a b c d : Bool) :
    ((xorIf d (xorIf c (xorIf b (xorIf a 0 FLIP_HORZ) FLIP_VERT) FLIP_HORZ) FLIP_VERT
        &&& FLIP_HORZ ≠ 0) ↔ (a != c) = true) ∧
    ((xorIf d (xorIf c (xorIf b (xorIf a 0 FLIP_HORZ) FLIP_VERT) FLIP_HORZ) FLIP_VERT
        &&& FLIP_VERT ≠ 0) ↔ (b != d) = true) := by
  cases a <;> cases b <;> cases c <;> cases d <;> decide

/-- The two bits of the flip mask of the many branch. -/
theorem manyFlip_bits (gt : List Int) (flipH flipV : Int) :
    ((manyFlip gt flipH flipV &&& FLIP_HORZ ≠ 0) ↔ Xor' (gt.getD 1 0 < 0) (flipH ≠ 0)) ∧
    ((manyFlip gt flipH flipV &&& FLIP_VERT ≠ 0) ↔ Xor' (gt.getD 5 0 > 0) (flipV ≠ 0)) := by
  obtain ⟨h1, h2⟩ := xorIf_bits (decide (gt.getD 1 0 < 0)) (decide (gt.getD 5 0 > 0))
    (decide (flipH ≠ 0)) (decide (flipV ≠ 0))
  unfold manyFlip
  refine ⟨h1.trans ?_, h2.trans ?_⟩
  · unfold Xor'
    by_cases p : gt.getD 1 0 < 0 <;> by_cases q : flipH ≠ 0 <;> simp [p, q]
  · unfold Xor'
    by_cases p : gt.getD 5 0 > 0 <;> by_cases q : flipV ≠ 0 <;> simp [p, q]

theorem pushBackRow_mem {tiles tiles2 : TileGrid} {t : TileInfo}
    (h : pushBackRow tiles t = Except.ok tiles2) :
    ∀ row, row ∈ tiles2 → ∀ u, u ∈ row → u = t ∨ ∃ row0, row0 ∈ tiles ∧ u ∈ row0 := by
  unfold pushBackRow at h
  cases hl : tiles.getLast? with
  | none => rw [hl] at h; cases h
  | some last =>
    rw [hl] at h
    cases h
    intro row hrow u hu
    rcases List.mem_append.mp hrow with h1 | h1
    · exact Or.inr ⟨row, List.dropLast_subset _ h1, hu⟩
    · rw [List.mem_singleton] at h1
      subst h1
      rcases List.mem_append.mp hu with h2 | h2
      · exact Or.inr ⟨last, List.mem_of_getLast?_eq_some hl, h2⟩
      · rw [List.mem_singleton] at h2
        exact Or.inl h2

theorem mem_newRow {tiles : TileGrid} {b : Bool} :
    ∀ row, row ∈ (if b then tiles ++ [[]] else tiles) → ∀ u, u ∈ row →
      ∃ row0, row0 ∈ tiles ∧ u ∈ row0 := by
  intro row hrow u hu
  cases b with
  | false => exact ⟨row, hrow, hu⟩
  | true =>
    simp only [if_true] at hrow
    rcases List.mem_append.mp hrow with h1 | h1
    · exact ⟨row, h1, hu⟩
    · rw [List.mem_singleton] at h1
      rw [h1] at hu
      cases hu

/-- One entry of the layout file: the tiles that were there stay, and the new tile is
a null tile or has the flip mask of the geotransform in use. -/
theorem manyEntry_spec {probe : String → Option GDALInfo} {r o a : String} {flipH flipV : Int}
    {st st2 : ManyState} {e : LayoutEntry}
    (h : manyEntry probe r o flipH flipV a st e = Except.ok st2) :
    (e.isNullTile = true →
      st2.tile_height = st.tile_height ∧ st2.tile_geotransform = st.tile_geotransform ∧
      ∀ row, row ∈ st2.tiles → ∀ u, u ∈ row →
        u.nullTile = true ∨ ∃ row0, row0 ∈ st.tiles ∧ u ∈ row0) ∧
    (e.isNullTile = false →
      (st.tile_height ≠ -1 → st2.tile_height = st.tile_height ∧
        st2.tile_geotransform = st.tile_geotransform) ∧
      (st.tile_height = -1 → ∃ info, probe e.fullPath = some info ∧
        st2.tile_height = info.height ∧ st2.tile_geotransform = info.geotransform) ∧
      ∀ row, row ∈ st2.tiles → ∀ u, u ∈ row →
        (u.nullTile = false ∧ u.flip = manyFlip st2.tile_geotransform flipH flipV) ∨
          ∃ row0, row0 ∈ st.tiles ∧ u ∈ row0) := by
  unfold manyEntry at h
  cases hn : e.isNullTile with
  | true =>
    rw [hn] at h
    simp only [if_true] at h
    cases hp : pushBackRow (if e.newRow = true then st.tiles ++ [[]] else st.tiles)
      TileInfo.null with
    | error err => rw [hp] at h; cases h
    | ok ts =>
      rw [hp] at h
      cases h
      refine ⟨fun _ => ⟨rfl, rfl, ?_⟩, fun hf => by cases hf⟩
      intro row hrow u hu
      rcases pushBackRow_mem hp row hrow u hu with h1 | ⟨row0, h1, h2⟩
      · left
        rw [h1]
        rfl
      · exact Or.inr (mem_newRow row0 h1 u h2)
  | false =>
    rw [hn] at h
    simp only [Bool.false_eq_true, if_false] at h
    refine ⟨(fun hf => by cases hf), fun _ => ?_⟩
    have key : ∀ st1 : ManyState,
        ((manyRetention r e).bind fun this_retention =>
          (manyOutputName o e).bind fun this_output_name =>
          (pushBackRow (if e.newRow = true then st.tiles ++ [[]] else st.tiles)
            { TileInfo.make e.fullPath this_output_name this_retention e.x e.y 0 0
                st1.tile_width st1.tile_height true a with
              flip := manyFlip st1.tile_geotransform flipH flipV }).map
            (fun ts => { st1 with tiles := ts })) = Except.ok st2 →
        st2.tile_height = st1.tile_height ∧ st2.tile_geotransform = st1.tile_geotransform ∧
        ∀ row, row ∈ st2.tiles → ∀ u, u ∈ row →
          (u.nullTile = false ∧ u.flip = manyFlip st1.tile_geotransform flipH flipV) ∨
            ∃ row0, row0 ∈ st.tiles ∧ u ∈ row0 := by
      intro st1 h1
      cases hr : manyRetention r e with
      | error err => rw [hr] at h1; cases h1
      | ok rr =>
        rw [hr] at h1
        cases ho : manyOutputName o e with
        | error err => rw [ho] at h1; cases h1
        | ok oo =>
          rw [ho] at h1
          simp only [Except.bind] at h1
          cases hp : pushBackRow (if e.newRow = true then st.tiles ++ [[]] else st.tiles)
            { TileInfo.make e.fullPath oo rr e.x e.y 0 0 st1.tile_width st1.tile_height true a
              with flip := manyFlip st1.tile_geotransform flipH flipV } with
          | error err => rw [hp] at h1; cases h1
          | ok ts =>
            rw [hp] at h1
            cases h1
            refine ⟨rfl, rfl, ?_⟩
            intro row hrow u hu
            rcases pushBackRow_mem hp row hrow u hu with h2 | ⟨row0, h2, h3⟩
            · left
              rw [h2]
              exact ⟨rfl, rfl⟩
            · exact Or.inr (mem_newRow row0 h2 u h3)
    by_cases hh : st.tile_height = -1
    · rw [if_pos hh] at h
      cases hp : probe e.fullPath with
      | none => rw [hp] at h; cases h
      | some info =>
        rw [hp] at h
        obtain ⟨k1, k2, k3⟩ := key _ h
        refine ⟨fun hne => absurd hh hne, fun _ => ⟨info, rfl, k1, k2⟩, ?_⟩
        rw [k2]
        exact k3
    · rw [if_neg hh] at h
      obtain ⟨k1, k2, k3⟩ := key _ h
      refine ⟨fun _ => ⟨k1, k2⟩, fun he => absurd he hh, ?_⟩
      rw [k2]
      exact k3

/-- Once a geotransform is in use, every further entry keeps it, and all tiles that are
not null tiles have its flip mask. -/
theorem manyLoop_probed {probe : String → Option GDALInfo} {r o a : String} {flipH flipV : Int}
    (gt : List Int) (layout : List LayoutEntry) (st st2 : ManyState)
    (h : layout.foldlM (manyEntry probe r o flipH flipV a) st = Except.ok st2)
    (hh : st.tile_height ≠ -1) (hg : st.tile_geotransform = gt)
    (hf : AllFlip (manyFlip gt flipH flipV) st.tiles) :
    AllFlip (manyFlip gt flipH flipV) st2.tiles := by
  have hinv := foldlME_inv (fun u : ManyState => u.tile_height ≠ -1 ∧ u.tile_geotransform = gt ∧
      AllFlip (manyFlip gt flipH flipV) u.tiles)
    (manyEntry probe r o flipH flipV a) layout st st2 ⟨hh, hg, hf⟩ ?_ h
  · exact hinv.2.2
  · intro e u v _ ⟨h1, h2, h3⟩ hv
    obtain ⟨hnull, hfile⟩ := manyEntry_spec hv
    cases hn : e.isNullTile with
    | true =>
      obtain ⟨k1, k2, k3⟩ := hnull hn
      refine ⟨by rw [k1]; exact h1, k2.trans h2, ?_⟩
      intro row hrow t ht htn
      rcases k3 row hrow t ht with h4 | ⟨row0, h4, h5⟩
      · rw [h4] at htn
        cases htn
      · exact h3 row0 h4 t h5 htn
    | false =>
      obtain ⟨k1, _, k3⟩ := hfile hn
      obtain ⟨k4, k5⟩ := k1 h1
      refine ⟨by rw [k4]; exact h1, k5.trans h2, ?_⟩
      intro row hrow t ht htn
      rcases k3 row hrow t ht with ⟨_, h4⟩ | ⟨row0, h4, h5⟩
      · rw [h4, k5, h2]
      · exact h3 row0 h4 t h5 htn

/-- The loop over the layout file, started before any file has been probed: all tiles
that are not null tiles get the flip mask of the geotransform of the first entry that
is not a null tile. -/
theorem manyLoop_fresh {probe : String → Option GDALInfo} {r o a : String} {flipH flipV : Int}
    {e0 : LayoutEntry} {info0 : GDALInfo} (hprobe : probe e0.fullPath = some info0)
    (hh0 : info0.height ≠ -1) :
    ∀ (layout : List LayoutEntry) (st st2 : ManyState),
      layout.foldlM (manyEntry probe r o flipH flipV a) st = Except.ok st2 →
      st.tile_height = -1 → AllNull st.tiles →
      layout.find? (fun e => !e.isNullTile) = some e0 →
      AllFlip (manyFlip info0.geotransform flipH flipV) st2.tiles := by
  intro layout
  induction layout with
  | nil =>
    intro st st2 _ _ _ hfind
    cases hfind
  | cons e rest ih =>
    intro st st2 h hh hnull hfind
    simp only [List.foldlM_cons] at h
    cases hs : manyEntry probe r o flipH flipV a st e with
    | error err => rw [hs] at h; cases h
    | ok st1 =>
      rw [hs] at h
      have h2 : rest.foldlM (manyEntry probe r o flipH flipV a) st1 = Except.ok st2 := h
      obtain ⟨hn1, hf1⟩ := manyEntry_spec hs
      cases hn : e.isNullTile with
      | true =>
        obtain ⟨k1, _, k3⟩ := hn1 hn
        rw [List.find?_cons, hn] at hfind
        simp only [Bool.not_true] at hfind
        refine ih st1 st2 h2 (k1.trans hh) ?_ hfind
        intro row hrow t ht
        rcases k3 row hrow t ht with h4 | ⟨row0, h4, h5⟩
        · exact h4
        · exact hnull row0 h4 t h5
      | false =>
        rw [List.find?_cons, hn] at hfind
        simp only [Bool.not_false] at hfind
        cases hfind
        obtain ⟨_, k2, k3⟩ := hf1 hn
        obtain ⟨info, hp, k4, k5⟩ := k2 hh
        rw [hprobe] at hp
        cases hp
        refine manyLoop_probed info0.geotransform rest st1 st2 h2 (by rw [k4]; exact hh0) k5 ?_
        intro row hrow t ht htn
        rcases k3 row hrow t ht with ⟨_, h4⟩ | ⟨row0, h4, h5⟩
        · rw [h4, k5]
        · rw [hnull row0 h4 t h5] at htn
          cases htn

theorem mem_of_grid2 {tiles : TileGrid} {y x : Nat} {t : TileInfo}
    (h : grid2 tiles y x = some t) : ∃ row, row ∈ tiles ∧ t ∈ row := by
  unfold grid2 at h
  cases hrow : tiles[y]? with
  | none => rw [hrow] at h; cases h
  | some row =>
    rw [hrow] at h
    exact ⟨row, List.getElem?_mem hrow, List.getElem?_mem h⟩

theorem grid2_of_mem {tiles : TileGrid} {row : List TileInfo} {t : TileInfo}
    (hrow : row ∈ tiles) (ht : t ∈ row) : ∃ y x, grid2 tiles y x = some t := by
  obtain ⟨y, hy⟩ := List.mem_iff_getElem?.mp hrow
  obtain ⟨x, hx⟩ := List.mem_iff_getElem?.mp ht
  refine ⟨y, x, ?_⟩
  unfold grid2
  rw [hy]
  exact hx

/-- A property of the tiles that does not depend on the edge mask passes through an
update of edge masks. -/
theorem grid2Modify_edge_keeps (P : TileInfo → Prop)
    (hP : ∀ t e, P t → P { t with edge := e }) (tiles : TileGrid) (y x : Nat) (f : Nat → Nat)
    (h : ∀ row, row ∈ tiles → ∀ t, t ∈ row → P t) :
    ∀ row, row ∈ grid2Modify tiles y x (fun t => { t with edge := f t.edge }) →
      ∀ t, t ∈ row → P t := by
  intro row hrow t ht
  obtain ⟨y2, x2, hg⟩ := grid2_of_mem hrow ht
  rw [grid2_modify] at hg
  by_cases hc : y2 = y ∧ x2 = x
  · rw [if_pos hc] at hg
    cases h0 : grid2 tiles y x with
    | none => rw [h0] at hg; cases hg
    | some t0 =>
      rw [h0] at hg
      cases hg
      obtain ⟨row0, h1, h2⟩ := mem_of_grid2 h0
      exact hP t0 _ (h row0 h1 t0 h2)
  · rw [if_neg hc] at hg
    obtain ⟨row0, h1, h2⟩ := mem_of_grid2 hg
    exact h row0 h1 t h2

theorem markIfNull_keeps (P : TileInfo → Prop) (hP : ∀ t e, P t → P { t with edge := e })
    {cond : Bool} {ny nx bit y x : Nat} {tiles tiles2 : TileGrid}
    (h : markIfNull cond ny nx bit y x tiles = Except.ok tiles2)
    (hall : ∀ row, row ∈ tiles → ∀ t, t ∈ row → P t) :
    ∀ row, row ∈ tiles2 → ∀ t, t ∈ row → P t := by
  unfold markIfNull at h
  cases cond with
  | false =>
    simp only [Bool.false_eq_true, if_false] at h
    cases h
    exact hall
  | true =>
    simp only [if_true] at h
    cases hg : grid2 tiles ny nx with
    | none => rw [hg] at h; cases h
    | some n =>
      rw [hg] at h
      simp only at h
      cases hn : n.nullTile with
      | false =>
        rw [hn] at h
        simp only [Bool.false_eq_true, if_false] at h
        cases h
        exact hall
      | true =>
        rw [hn] at h
        simp only [if_true] at h
        cases h
        exact grid2Modify_edge_keeps P hP tiles y x (fun e => e ||| bit) hall

theorem nullAdjacentTile_keeps (P : TileInfo → Prop) (hP : ∀ t e, P t → P { t with edge := e })
    {bits : EdgeBits} {height width y x : Nat} {tiles tiles2 : TileGrid}
    (h : nullAdjacentTile bits height width y x tiles = Except.ok tiles2)
    (hall : ∀ row, row ∈ tiles → ∀ t, t ∈ row → P t) :
    ∀ row, row ∈ tiles2 → ∀ t, t ∈ row → P t := by
  unfold nullAdjacentTile at h
  cases hg : grid2 tiles y x with
  | none => rw [hg] at h; cases h
  | some t0 =>
    rw [hg] at h
    simp only at h
    cases hn : t0.nullTile with
    | true =>
      rw [hn] at h
      simp only [if_true] at h
      cases h
      exact hall
    | false =>
      rw [hn] at h
      simp only [Bool.false_eq_true, if_false] at h
      cases h1 : markIfNull (decide (0 < (y : Int) - 1 ∧ 0 < x)) (y - 1) x bits.top y x tiles with
      | error e => rw [h1] at h; cases h
      | ok u1 =>
        rw [h1] at h
        simp only [Except.bind] at h
        cases h2 : markIfNull (decide (y + 1 < height ∧ 0 < x)) (y + 1) x bits.bottom y x u1 with
        | error e => rw [h2] at h; cases h
        | ok u2 =>
          rw [h2] at h
          simp only at h
          cases h3 : markIfNull (decide (0 < y ∧ 0 < (x : Int) - 1)) y (x - 1) bits.left y x u2 with
          | error e => rw [h3] at h; cases h
          | ok u3 =>
            rw [h3] at h
            simp only at h
            exact markIfNull_keeps P hP h (markIfNull_keeps P hP h3
              (markIfNull_keeps P hP h2 (markIfNull_keeps P hP h1 hall)))

theorem nullAdjacency_keeps (P : TileInfo → Prop) (hP : ∀ t e, P t → P { t with edge := e })
    {bits : EdgeBits} {tiles tiles2 : TileGrid}
    (h : nullAdjacency bits tiles = Except.ok tiles2)
    (hall : ∀ row, row ∈ tiles → ∀ t, t ∈ row → P t) :
    ∀ row, row ∈ tiles2 → ∀ t, t ∈ row → P t := by
  unfold nullAdjacency at h
  refine forRangeE_inv (fun _ (u : TileGrid) => ∀ row, row ∈ u → ∀ t, t ∈ row → P t) _ _ _ _
    hall ?_ h
  intro y u v _ hu hv
  simp only at hv
  cases h0 : u[0]? with
  | none => rw [h0] at hv; cases hv
  | some row0 =>
    rw [h0] at hv
    simp only at hv
    refine forRangeE_inv (fun _ (w : TileGrid) => ∀ row, row ∈ w → ∀ t, t ∈ row → P t) _ _ _ _
      hu ?_ hv
    intro x w w2 _ hw hw2
    exact nullAdjacentTile_keeps P hP hw2 hw

theorem markEdges_keeps (P : TileInfo → Prop) (hP : ∀ t e, P t → P { t with edge := e })
    {bits : EdgeBits} {tiles tiles2 : TileGrid} (h : markEdges bits tiles = Except.ok tiles2)
    (hall : ∀ row, row ∈ tiles → ∀ t, t ∈ row → P t) :
    ∀ row, row ∈ tiles2 → ∀ t, t ∈ row → P t := by
  obtain ⟨_, _, _, _, hg⟩ := markEdges_inv h
  intro row hrow t ht
  obtain ⟨y, x, hyx⟩ := grid2_of_mem hrow ht
  rw [hg] at hyx
  cases h0 : grid2 tiles y x with
  | none => rw [h0] at hyx; cases hyx
  | some t0 =>
    rw [h0] at hyx
    cases hyx
    obtain ⟨row0, h1, h2⟩ := mem_of_grid2 h0
    exact hP t0 _ (hall row0 h1 t0 h2)

/-- C18: the flip masks of many mode.  When the first entry of the layout file that is
not a null tile is probed with a height other than `-1`, every tile that is not a null
tile in the matrix `Preparer` hands over has its `FLIP_HORZ` bit equal to
(geotransform X scale < 0) XOR (flipH requested) and its `FLIP_VERT` bit equal to
(geotransform Y scale > 0) XOR (flipV requested), the geotransform being the one of
that first tile. -/
theorem C18_many_mode_flip_mask (probe : String → Option GDALInfo)
    (layout : String → List LayoutEntry) (bits : EdgeBits) (r i o a : String)
    (bwidth bheight flipH flipV : Int) (e0 : LayoutEntry) (info0 : GDALInfo) (tiles : TileGrid)
    (hfirst : (layout i).find? (fun e => !e.isNullTile) = some e0)
    (hprobe : probe e0.fullPath = some info0) (hheight : info0.height ≠ -1)
    (h : Preparer probe layout bits "many" r i o bwidth bheight flipH flipV a
      = Except.ok tiles) :
    ∀ y x t, grid2 tiles y x = some t → t.nullTile = false →
      ((t.flip &&& FLIP_HORZ ≠ 0) ↔
        Xor' (info0.geotransform.getD 1 0 < 0) (flipH ≠ 0)) ∧
      ((t.flip &&& FLIP_VERT ≠ 0) ↔
        Xor' (info0.geotransform.getD 5 0 > 0) (flipV ≠ 0)) := by
  obtain ⟨t1, hm, hbranch⟩ := Preparer_marked h
  rcases hbranch with ⟨_, hmany⟩ | ⟨hone, _⟩
  · unfold prepareMany at hmany
    cases hl : (layout i).foldlM (manyEntry probe r o flipH flipV a)
        { tiles := [], tile_width := -1, tile_height := -1,
          tile_geotransform := List.replicate 6 0 } with
    | error e => rw [hl] at hmany; cases hmany
    | ok st =>
      rw [hl] at hmany
      have hna : nullAdjacency bits st.tiles = Except.ok t1 := hmany
      have hflip := manyLoop_fresh hprobe hheight (layout i) _ st hl rfl
        (fun row hrow => by cases hrow) hfirst
      have hP : ∀ (t : TileInfo) (e : Nat),
          (t.nullTile = false → t.flip = manyFlip info0.geotransform flipH flipV) →
          ({ t with edge := e }.nullTile = false →
            { t with edge := e }.flip = manyFlip info0.geotransform flipH flipV) :=
        fun t e ht => ht
      have hall := markEdges_keeps _ hP hm (nullAdjacency_keeps _ hP hna hflip)
      intro y x t ht hnn
      obtain ⟨row, hrow, hmem⟩ := mem_of_grid2 ht
      rw [hall row hrow t hmem hnn]
      exact manyFlip_bits info0.geotransform flipH flipV
  · exact absurd hone (by decide)

/-! ## Preparer on the examples -/

theorem exMany_eq : Preparer exProbe (fun _ => exLayout) exBits "many" "@evict" "layout"
    "out%f.tif" (-1) (-1) 1 0 "cmd" = Except.ok exManyTiles := by
  rfl

theorem C18_witness :
    ∃ t, grid2 exManyTiles 1 1 = some t ∧
      ((t.flip &&& FLIP_HORZ ≠ 0) ↔ Xor' (exInfo.geotransform.getD 1 0 < 0) ((1 : Int) ≠ 0)) :=
  ⟨_, rfl, (C18_many_mode_flip_mask exProbe (fun _ => exLayout) exBits "@evict" "layout"
    "out%f.tif" "cmd" (-1) (-1) 1 0 (exEntry true false "a" 0 0) exInfo exManyTiles rfl rfl
    (by decide) exMany_eq 1 1 _ rfl rfl).1⟩

/-- C17 (the code departs from the claim): in the example layout the tile at row 1,
column 1 is not a null tile and has the null tile of row 0, column 1 directly above it,
yet in the tile matrix that `Preparer` hands over it does not have the TOP bit; the
tile at row 0, column 0 has that null tile to its right and does not have the RIGHT
bit. -/
theorem C17_null_neighbour_unmarked :
    Preparer exProbe (fun _ => exLayout) exBits "many" "@evict" "layout" "out%f.tif"
        (-1) (-1) 1 0 "cmd" = Except.ok exManyTiles ∧
    ∃ t up c, grid2 exManyTiles 1 1 = some t ∧ grid2 exManyTiles 0 1 = some up ∧
      grid2 exManyTiles 0 0 = some c ∧
      t.nullTile = false ∧ c.nullTile = false ∧ up.nullTile = true ∧
      ¬ HasBit t.edge exBits.top ∧ ¬ HasBit c.edge exBits.right :=
  ⟨exMany_eq, _, _, _, rfl, rfl, rfl, rfl, rfl, rfl, by decide, by decide⟩

theorem blockValue_value {v msg : String} {n : Int} (h : stoi v = StoiResult.value n) :
    blockValue v msg = if n < 300 ∧ n ≠ -1 then Except.error (MainResult.argError msg)
      else Except.ok n := by
  unfold blockValue
  rw [h]

theorem blockValue_invalid {v msg : String} (h : stoi v = StoiResult.invalidArgument) :
    blockValue v msg = Except.error (MainResult.argError "Invalid width or height.") := by
  unfold blockValue
  rw [h]

/-- The arguments after `--bwidth`/`-w`: what `main` does with them. -/
theorem parseArgs_width (commSize : Nat) {flag : String} (hflag : flag = "--bwidth" ∨ flag = "-w")
    (st : Args) :
    parseArgs commSize [flag] st = MainResult.argError "-w followed by no argument." ∧
    ∀ v rest, parseArgs commSize (flag :: v :: rest) st =
      match blockValue v "Width must be at least 500." with
      | Except.error r => r
      | Except.ok n => parseArgs commSize rest { st with bwidth := n } := by
  constructor
  · rw [parseArgs, if_pos hflag]
  · intro v rest
    rw [parseArgs, if_pos hflag]

/-- The arguments after `--bheight`/`-h`: what `main` does with them. -/
theorem parseArgs_height (commSize : Nat) {flag : String}
    (hflag : flag = "--bheight" ∨ flag = "-h") (st : Args) :
    parseArgs commSize [flag] st = MainResult.argError "-h followed by no argument." ∧
    ∀ v rest, parseArgs commSize (flag :: v :: rest) st =
      match blockValue v "Height must be at least 500." with
      | Except.error r => r
      | Except.ok n => parseArgs commSize rest { st with bheight := n } := by
  have hnw : ¬ (flag = "--bwidth" ∨ flag = "-w") := by
    rcases hflag with h | h <;> rw [h] <;> decide
  constructor
  · rw [parseArgs, if_neg hnw, if_pos hflag]
  · intro v rest
    rw [parseArgs, if_neg hnw, if_pos hflag]

/-- C20: the check of the block size arguments.  For the flag `--bwidth`/`-w` (and
likewise `--bheight`/`-h`) followed by a text that `std::stoi` converts to the integer
`n`: when `n == -1` or `n >= 300` the value is stored and the handling of the command
line goes on, so the command line is accepted exactly when the rest of it is; every
other `n` ends in an argument error, and so do a text without a number and a flag
followed by no value. -/
theorem C20_block_size_arguments (commSize : Nat) (flag : String)
    (hflag : flag = "--bwidth" ∨ flag = "-w" ∨ flag = "--bheight" ∨ flag = "-h") (st : Args) :
    (parseArgs commSize [flag] st).isArgError = true ∧
    (∀ v rest, stoi v = StoiResult.invalidArgument →
      (parseArgs commSize (flag :: v :: rest) st).isArgError = true) ∧
    ∀ v n rest, stoi v = StoiResult.value n →
      ((n = -1 ∨ 300 ≤ n) →
        parseArgs commSize (flag :: v :: rest) st = parseArgs commSize rest
          (if flag = "--bwidth" ∨ flag = "-w" then { st with bwidth := n }
            else { st with bheight := n })) ∧
      (¬ (n = -1 ∨ 300 ≤ n) →
        (parseArgs commSize (flag :: v :: rest) st).isArgError = true) ∧
      ((∃ args, parseArgs commSize (flag :: v :: rest) st = MainResult.run args) ↔
        ((n = -1 ∨ 300 ≤ n) ∧
          ∃ args, parseArgs commSize rest
            (if flag = "--bwidth" ∨ flag = "-w" then { st with bwidth := n }
              else { st with bheight := n }) = MainResult.run args)) := by
  have key : ∃ msg, (parseArgs commSize [flag] st).isArgError = true ∧
      ∀ v rest, parseArgs commSize (flag :: v :: rest) st =
        match blockValue v msg with
        | Except.error r => r
        | Except.ok n => parseArgs commSize rest
            (if flag = "--bwidth" ∨ flag = "-w" then { st with bwidth := n }
              else { st with bheight := n }) := by
    by_cases hw : flag = "--bwidth" ∨ flag = "-w"
    · obtain ⟨h1, h2⟩ := parseArgs_width commSize hw st
      refine ⟨"Width must be at least 500.", by rw [h1]; rfl, fun v rest => ?_⟩
      rw [h2 v rest]
      simp only [if_pos hw]
    · have hh : flag = "--bheight" ∨ flag = "-h" := by
        rcases hflag with h | h | h | h
        · exact absurd (Or.inl h) hw
        · exact absurd (Or.inr h) hw
        · exact Or.inl h
        · exact Or.inr h
      obtain ⟨h1, h2⟩ := parseArgs_height commSize hh st
      refine ⟨"Height must be at least 500.", by rw [h1]; rfl, fun v rest => ?_⟩
      rw [h2 v rest]
      simp only [if_neg hw]
  obtain ⟨msg, h1, h2⟩ := key
  refine ⟨h1, ?_, ?_⟩
  · intro v rest hv
    rw [h2 v rest, blockValue_invalid hv]
    rfl
  · intro v n rest hv
    have hok : (n = -1 ∨ 300 ≤ n) →
        parseArgs commSize (flag :: v :: rest) st = parseArgs commSize rest
          (if flag = "--bwidth" ∨ flag = "-w" then { st with bwidth := n }
            else { st with bheight := n }) := by
      intro hn
      rw [h2 v rest, blockValue_value hv, if_neg (by omega)]
    have hbad : ¬ (n = -1 ∨ 300 ≤ n) →
        parseArgs commSize (flag :: v :: rest) st = MainResult.argError msg := by
      intro hn
      rw [h2 v rest, blockValue_value hv, if_pos (by omega)]
    refine ⟨hok, fun hn => by rw [hbad hn]; rfl, ?_⟩
    constructor
    · rintro ⟨args, ha⟩
      by_cases hn : n = -1 ∨ 300 ≤ n
      · rw [hok hn] at ha
        exact ⟨hn, args, ha⟩
      · rw [hbad hn] at ha
        cases ha
    · rintro ⟨hn, args, ha⟩
      exact ⟨args, by rw [hok hn]; exact ha⟩

theorem C20_witness :
    parseArgs 2 ["-w", "300", "one", "@evict", "in.tif", "out%n.tif"]
        { many_or_one := "", retention := "", input_file := "", output_name := "",
          bwidth := -1, bheight := -1, flipH := 0, flipV := 0 }
      = MainResult.run exArgs :=
  (((C20_block_size_arguments 2 "-w" (by decide)
      { many_or_one := "", retention := "", input_file := "", output_name := "",
        bwidth := -1, bheight := -1, flipH := 0, flipV := 0 }).2.2 "300" 300
      ["one", "@evict", "in.tif", "out%n.tif"] (by decide)).1 (by decide)).trans (by decide)

/-! ## main: acceptance of the arguments -/

/-- When the checks of `main` let the arguments pass, they are handed on unchanged and
every single check held; and the other way round. -/
theorem checkArgs_run_iff (commSize : Nat) (st a : Args) :
    checkArgs commSize st = MainResult.run a ↔
      a = st ∧ BasicChecks commSize st ∧ ExactlyOnePattern st.output_name ∧
      RetentionValid st.retention ∧ st.retention ≠ st.output_name := by
  unfold checkArgs BasicChecks ExactlyOnePattern RetentionValid
  constructor
  · intro h
    split_ifs at h with h1 h2 h3 h4 h5 h6 h7
    cases h
    refine ⟨rfl, ⟨?_, ?_, ?_, ?_, h4⟩, ?_, ?_, h7⟩
    · exact fun hc => h1 (Or.inl hc)
    · exact fun hc => h1 (Or.inr (Or.inr (Or.inl hc)))
    · exact fun hc => h1 (Or.inr (Or.inr (Or.inr hc)))
    · by_contra hc
      exact h3 ⟨fun hm => hc (Or.inl hm), fun ho => hc (Or.inr ho)⟩
    · cases hf : contains st.output_name "%f" <;> cases hn : contains st.output_name "%n" <;>
        simp [hf, hn] at h5 ⊢
    · by_cases hs : startsWithAt st.retention = true
      · have := not_not.mp (fun hc => h2 ⟨hs, hc⟩)
        rcases this with h | h
        · exact Or.inl h
        · exact Or.inr (Or.inl h)
      · refine Or.inr (Or.inr ⟨by simpa using hs, ?_⟩)
        by_contra hc
        refine h6 ⟨hs, ?_, ?_⟩
        · exact fun hn => hc (Or.inr hn)
        · exact fun hf => hc (Or.inl hf)
  · rintro ⟨rfl, ⟨hm, hi, ho, hmode, hc⟩, hx, hr, hne⟩
    have hr0 : a.retention ≠ "" := by
      rintro h0
      rw [h0] at hr
      revert hr
      decide
    rw [if_neg, if_neg, if_neg, if_neg hc, if_neg, if_neg, if_neg hne]
    · rintro ⟨hs, hn, hf⟩
      rcases hr with h | h | ⟨_, h | h⟩
      · rw [h] at hs
        exact hs (by decide)
      · rw [h] at hs
        exact hs (by decide)
      · exact hf h
      · exact hn h
    · rcases hx with ⟨hf, hn⟩ | ⟨hf, hn⟩ <;> simp [hf, hn]
    · rintro ⟨h1, h2⟩
      rcases hmode with h | h
      · exact h1 h
      · exact h2 h
    · rintro ⟨hs, hn⟩
      rcases hr with h | h | ⟨h, _⟩
      · exact hn (Or.inl h)
      · exact hn (Or.inr h)
      · rw [h] at hs
        exact absurd hs (by decide)
    · rintro (h | h | h | h)
      · exact hm h
      · exact hr0 h
      · exact hi h
      · exact ho h

/-- The checks of `main` end in the call of `Preparer` or in an argument error. -/
theorem checkArgs_cases (commSize : Nat) (st : Args) :
    checkArgs commSize st = MainResult.run st ∨
      (checkArgs commSize st).isArgError = true := by
  unfold checkArgs
  split_ifs <;> first | exact Or.inl rfl | exact Or.inr rfl

/-- Arguments that fail one of the checks end in an argument error. -/
theorem checkArgs_reject (commSize : Nat) (st : Args)
    (h : ¬ (BasicChecks commSize st ∧ ExactlyOnePattern st.output_name ∧
      RetentionValid st.retention ∧ st.retention ≠ st.output_name)) :
    (checkArgs commSize st).isArgError = true := by
  rcases checkArgs_cases commSize st with hc | hc
  · exact absurd ((checkArgs_run_iff commSize st st).mp hc).2 h
  · exact hc

/-- The handling of a block size ends in a value or in something that is no run. -/
theorem blockValue_error {v msg : String} {r : MainResult}
    (h : blockValue v msg = Except.error r) : ∀ a, r ≠ MainResult.run a := by
  intro a
  unfold blockValue at h
  split at h
  · cases h
    exact fun hc => by cases hc
  · cases h
    exact fun hc => by cases hc
  · split_ifs at h
    cases h
    exact fun hc => by cases hc

/-- The arguments that are no block size: what `main` does with them. -/
theorem parseArgs_other (commSize : Nat) {arg : String} {rest : List String} {st : Args}
    (h1 : ¬ (arg = "--bwidth" ∨ arg = "-w")) (h2 : ¬ (arg = "--bheight" ∨ arg = "-h")) :
    parseArgs commSize (arg :: rest) st =
      if arg = "--help" then MainResult.help
      else if arg = "--flipH" ∨ arg = "-H" then parseArgs commSize rest { st with flipH := 1 }
      else if arg = "--flipV" ∨ arg = "-V" then parseArgs commSize rest { st with flipV := 1 }
      else if arg.data.head? = some '-' then
        MainResult.argError ("Unrecognised flag: " ++ arg)
      else if st.many_or_one = "" then parseArgs commSize rest { st with many_or_one := arg }
      else if st.retention = "" then parseArgs commSize rest { st with retention := arg }
      else if st.input_file = "" then parseArgs commSize rest { st with input_file := arg }
      else if st.output_name = "" then parseArgs commSize rest { st with output_name := arg }
      else MainResult.argError "Too many arguments." := by
  cases rest with
  | nil => conv_lhs => rw [parseArgs, if_neg h1, if_neg h2]
  | cons v rest2 => conv_lhs => rw [parseArgs, if_neg h1, if_neg h2]

/-- A command line that `main` accepts passed the checks with the values that are handed
to `Preparer`. -/
theorem parseArgs_run (commSize : Nat) : ∀ (n : Nat) (l : List String) (st a : Args),
    l.length ≤ n → parseArgs commSize l st = MainResult.run a →
    checkArgs commSize a = MainResult.run a := by
  intro n
  induction n with
  | zero =>
    intro l st a hl h
    have : l = [] := List.length_eq_zero.mp (Nat.le_zero.mp hl)
    subst this
    simp only [parseArgs] at h
    have := ((checkArgs_run_iff commSize st a).mp h).1
    subst this
    exact h
  | succ n ih =>
    intro l st a hl h
    cases l with
    | nil =>
      simp only [parseArgs] at h
      have := ((checkArgs_run_iff commSize st a).mp h).1
      subst this
      exact h
    | cons arg rest =>
      have hr : rest.length ≤ n := by
        simp only [List.length_cons] at hl
        omega
      have hne : ∀ msg, MainResult.argError msg ≠ MainResult.run a :=
        fun msg hc => MainResult.noConfusion hc
      by_cases h1 : arg = "--bwidth" ∨ arg = "-w"
      · cases rest with
        | nil =>
          rw [(parseArgs_width commSize h1 st).1] at h
          exact absurd h (hne _)
        | cons v rest2 =>
          rw [(parseArgs_width commSize h1 st).2] at h
          split at h
          · next r hb => exact absurd h (blockValue_error hb a)
          · next k hb =>
            exact ih rest2 _ a (by simp only [List.length_cons] at hr; omega) h
      by_cases h2 : arg = "--bheight" ∨ arg = "-h"
      · cases rest with
        | nil =>
          rw [(parseArgs_height commSize h2 st).1] at h
          exact absurd h (hne _)
        | cons v rest2 =>
          rw [(parseArgs_height commSize h2 st).2] at h
          split at h
          · next r hb => exact absurd h (blockValue_error hb a)
          · next k hb =>
            exact ih rest2 _ a (by simp only [List.length_cons] at hr; omega) h
      rw [parseArgs_other commSize h1 h2] at h
      by_cases h3 : arg = "--help"
      · rw [if_pos h3] at h
        exact MainResult.noConfusion h
      rw [if_neg h3] at h
      by_cases h4 : arg = "--flipH" ∨ arg = "-H"
      · rw [if_pos h4] at h
        exact ih rest _ a hr h
      rw [if_neg h4] at h
      by_cases h5 : arg = "--flipV" ∨ arg = "-V"
      · rw [if_pos h5] at h
        exact ih rest _ a hr h
      rw [if_neg h5] at h
      by_cases h6 : arg.data.head? = some '-'
      · rw [if_pos h6] at h
        exact absurd h (hne _)
      rw [if_neg h6] at h
      by_cases h7 : st.many_or_one = ""
      · rw [if_pos h7] at h
        exact ih rest _ a hr h
      rw [if_neg h7] at h
      by_cases h8 : st.retention = ""
      · rw [if_pos h8] at h
        exact ih rest _ a hr h
      rw [if_neg h8] at h
      by_cases h9 : st.input_file = ""
      · rw [if_pos h9] at h
        exact ih rest _ a hr h
      rw [if_neg h9] at h
      by_cases h10 : st.output_name = ""
      · rw [if_pos h10] at h
        exact ih rest _ a hr h
      rw [if_neg h10] at h
      exact absurd h (hne _)

/-- A command line that `main` accepts passes every check. -/
theorem mainArgs_run {commSize : Nat} {argv : List String} {a : Args}
    (h : mainArgs commSize argv = MainResult.run a) :
    BasicChecks commSize a ∧ ExactlyOnePattern a.output_name ∧
      RetentionValid a.retention ∧ a.retention ≠ a.output_name :=
  ((checkArgs_run_iff commSize a a).mp (parseArgs_run commSize _ _ _ a (le_refl _) h)).2

/-- The flag `--help` is no block size. -/
theorem blockValue_help (msg : String) :
    blockValue "--help" msg = Except.error (MainResult.argError "Invalid width or height.") := by
  have h : stoi "--help" = StoiResult.invalidArgument := by decide
  unfold blockValue
  rw [h]

/-- A command line that `main` accepts does not hold the flag `--help`. -/
theorem parseArgs_no_help (commSize : Nat) : ∀ (n : Nat) (l : List String) (st a : Args),
    l.length ≤ n → parseArgs commSize l st = MainResult.run a → "--help" ∉ l := by
  intro n
  induction n with
  | zero =>
    intro l st a hl _
    have : l = [] := List.length_eq_zero.mp (Nat.le_zero.mp hl)
    subst this
    exact List.not_mem_nil _
  | succ n ih =>
    intro l st a hl h
    cases l with
    | nil => exact List.not_mem_nil _
    | cons arg rest =>
      have hr : rest.length ≤ n := by
        simp only [List.length_cons] at hl
        omega
      have hne : ∀ msg, MainResult.argError msg ≠ MainResult.run a :=
        fun msg hc => MainResult.noConfusion hc
      have hblock : ∀ v rest2 msg, rest = v :: rest2 → arg ≠ "--help" →
          (∀ k, blockValue v msg = Except.ok k → "--help" ∉ rest2) →
          (∃ k, blockValue v msg = Except.ok k) → "--help" ∉ arg :: rest := by
        intro v rest2 msg hrest harg hk hex hmem
        subst hrest
        rcases hex with ⟨k, hkv⟩
        rcases List.mem_cons.mp hmem with hm | hm
        · exact harg hm.symm
        · rcases List.mem_cons.mp hm with hm2 | hm2
          · rw [← hm2, blockValue_help] at hkv
            cases hkv
          · exact hk k hkv hm2
      by_cases h1 : arg = "--bwidth" ∨ arg = "-w"
      · have harg : arg ≠ "--help" := by
          rcases h1 with h | h <;> rw [h] <;> decide
        cases rest with
        | nil =>
          rw [(parseArgs_width commSize h1 st).1] at h
          exact absurd h (hne _)
        | cons v rest2 =>
          rw [(parseArgs_width commSize h1 st).2] at h
          split at h
          · next r hb => exact absurd h (blockValue_error hb a)
          · next k hb =>
            refine hblock v rest2 _ rfl harg ?_ ⟨k, hb⟩
            intro k2 hk2
            rw [hb] at hk2
            cases hk2
            exact ih rest2 _ a (by simp only [List.length_cons] at hr; omega) h
      by_cases h2 : arg = "--bheight" ∨ arg = "-h"
      · have harg : arg ≠ "--help" := by
          rcases h2 with h | h <;> rw [h] <;> decide
        cases rest with
        | nil =>
          rw [(parseArgs_height commSize h2 st).1] at h
          exact absurd h (hne _)
        | cons v rest2 =>
          rw [(parseArgs_height commSize h2 st).2] at h
          split at h
          · next r hb => exact absurd h (blockValue_error hb a)
          · next k hb =>
            refine hblock v rest2 _ rfl harg ?_ ⟨k, hb⟩
            intro k2 hk2
            rw [hb] at hk2
            cases hk2
            exact ih rest2 _ a (by simp only [List.length_cons] at hr; omega) h
      rw [parseArgs_other commSize h1 h2] at h
      by_cases h3 : arg = "--help"
      · rw [if_pos h3] at h
        exact MainResult.noConfusion h
      have hstep : ∀ st2, parseArgs commSize rest st2 = MainResult.run a →
          "--help" ∉ arg :: rest := by
        intro st2 h2 hmem
        rcases List.mem_cons.mp hmem with hm | hm
        · exact h3 hm.symm
        · exact ih rest st2 a hr h2 hm
      rw [if_neg h3] at h
      by_cases h4 : arg = "--flipH" ∨ arg = "-H"
      · rw [if_pos h4] at h
        exact hstep _ h
      rw [if_neg h4] at h
      by_cases h5 : arg = "--flipV" ∨ arg = "-V"
      · rw [if_pos h5] at h
        exact hstep _ h
      rw [if_neg h5] at h
      by_cases h6 : arg.data.head? = some '-'
      · rw [if_pos h6] at h
        exact absurd h (hne _)
      rw [if_neg h6] at h
      by_cases h7 : st.many_or_one = ""
      · rw [if_pos h7] at h
        exact hstep _ h
      rw [if_neg h7] at h
      by_cases h8 : st.retention = ""
      · rw [if_pos h8] at h
        exact hstep _ h
      rw [if_neg h8] at h
      by_cases h9 : st.input_file = ""
      · rw [if_pos h9] at h
        exact hstep _ h
      rw [if_neg h9] at h
      by_cases h10 : st.output_name = ""
      · rw [if_pos h10] at h
        exact hstep _ h
      rw [if_neg h10] at h
      exact absurd h (hne _)

/-- The example command line is accepted. -/
theorem exCommand_run : mainArgs 2 exCommand = MainResult.run exArgs := by decide

/-- The example command line with `--help` ends with the help text. -/
theorem exHelpCommand_help : mainArgs 2 exHelpCommand = MainResult.help := by decide

/-- C21: `main` hands on only output names that hold exactly one of "%f" and "%n": a
command line that is accepted has such an output name; when the other checks pass, the
arguments are accepted if and only if the output name holds exactly one of the two; an
output name that does not is an argument error.  In one mode `Preparer` ends in an
error, and so before `Producer` sends any tile, when the output name has no "%n" or
the retention is a path without "%n". -/
theorem C21_output_name_validation (commSize : Nat) (st : Args)
    (probe : String → Option GDALInfo) (layout : String → List LayoutEntry) (bits : EdgeBits)
    (bwidth bheight flipH flipV : Int) (analysis : String) :
    (∀ argv a, mainArgs commSize argv = MainResult.run a → ExactlyOnePattern a.output_name) ∧
    (BasicChecks commSize st → RetentionValid st.retention →
      st.retention ≠ st.output_name →
      (checkArgs commSize st = MainResult.run st ↔ ExactlyOnePattern st.output_name)) ∧
    (¬ ExactlyOnePattern st.output_name → (checkArgs commSize st).isArgError = true) ∧
    ((contains st.output_name "%n" = false ∨
        (startsWithAt st.retention = false ∧ contains st.retention "%n" = false)) →
      ∃ e, Preparer probe layout bits "one" st.retention st.input_file st.output_name
        bwidth bheight flipH flipV analysis = Except.error e) := by
  refine ⟨fun argv a h => (mainArgs_run h).2.1, ?_, ?_, ?_⟩
  · intro hb hr hne
    constructor
    · intro h
      exact ((checkArgs_run_iff commSize st st).mp h).2.2.1
    · intro hx
      exact (checkArgs_run_iff commSize st st).mpr ⟨rfl, hb, hx, hr, hne⟩
  · intro hx
    exact checkArgs_reject commSize st (fun hc => hx hc.2.1)
  · intro hbad
    cases hp : Preparer probe layout bits "one" st.retention st.input_file st.output_name
        bwidth bheight flipH flipV analysis with
    | error e => exact ⟨e, rfl⟩
    | ok tiles =>
      obtain ⟨_, _, _, _, _, _, _, _, _, _, hvalid, _⟩ := Preparer_one_ok hp
      exfalso
      rcases hbad with hn | ⟨hs, hn⟩
      · rw [hvalid.2] at hn
        cases hn
      · rcases hvalid.1 with h | h
        · rw [h] at hs
          cases hs
        · rw [h] at hn
          cases hn

theorem C21_witness :
    (checkArgs 2 exArgs = MainResult.run exArgs ↔ ExactlyOnePattern "out%n.tif") ∧
    (checkArgs 2 { exArgs with output_name := "out%n_%f.tif" }).isArgError = true ∧
    ∃ e, Preparer exProbe (fun _ => exLayout) exBits "one" "@evict" "in.tif" "out%f.tif" 300 (-1) 0 0 ""
      = Except.error e :=
  ⟨(C21_output_name_validation 2 exArgs exProbe (fun _ => exLayout) exBits 300 (-1) 0 0 "").2.1
      (by decide) (by decide) (by decide),
    (C21_output_name_validation 2 { exArgs with output_name := "out%n_%f.tif" }
      exProbe (fun _ => exLayout) exBits 300 (-1) 0 0 "").2.2.1 (by decide),
    (C21_output_name_validation 2 { exArgs with output_name := "out%f.tif" }
      exProbe (fun _ => exLayout) exBits 300 (-1) 0 0 "").2.2.2 (Or.inl (by decide))⟩

/-- C22: `main` hands on only a retention that is "@evict", "@retain" or a string that
does not start with '@' and holds "%f" or "%n", and never one that equals the output
name: a command line that is accepted has such a retention; when the other checks
pass, the arguments are accepted if and only if the retention is of that kind; any
other retention, and a retention equal to the output name, is an argument error. -/
theorem C22_retention_validation (commSize : Nat) (st : Args) :
    (∀ argv a, mainArgs commSize argv = MainResult.run a →
      RetentionValid a.retention ∧ a.retention ≠ a.output_name) ∧
    (BasicChecks commSize st → ExactlyOnePattern st.output_name →
      st.retention ≠ st.output_name →
      (checkArgs commSize st = MainResult.run st ↔ RetentionValid st.retention)) ∧
    (¬ RetentionValid st.retention → (checkArgs commSize st).isArgError = true) ∧
    (st.retention = st.output_name → (checkArgs commSize st).isArgError = true) := by
  refine ⟨fun argv a h => (mainArgs_run h).2.2, ?_, ?_, ?_⟩
  · intro hb hx hne
    constructor
    · intro h
      exact ((checkArgs_run_iff commSize st st).mp h).2.2.2.1
    · intro hr
      exact (checkArgs_run_iff commSize st st).mpr ⟨rfl, hb, hx, hr, hne⟩
  · intro hr
    exact checkArgs_reject commSize st (fun hc => hr hc.2.2.1)
  · intro he
    exact checkArgs_reject commSize st (fun hc => hc.2.2.2 he)

theorem C22_witness :
    (checkArgs 2 exArgs = MainResult.run exArgs ↔ RetentionValid "@evict") ∧
    (checkArgs 2 { exArgs with retention := "@keep" }).isArgError = true ∧
    (checkArgs 2 { exArgs with retention := "out%n.tif" }).isArgError = true :=
  ⟨(C22_retention_validation 2 exArgs).2.1 (by decide) (by decide) (by decide),
    (C22_retention_validation 2 { exArgs with retention := "@keep" }).2.2.1 (by decide),
    (C22_retention_validation 2 { exArgs with retention := "out%n.tif" }).2.2.2 rfl⟩

/-- C23 (as amended): the return value of `main` on process 0 is -1 when an argument
error is detected and also when the flag `--help` is reached (the help text is printed
and the return value is -1, not 0); a command line that holds `--help` never ends with
the return value 0; the return value is 0 exactly when the arguments pass every check
and the call of `Preparer` returns. -/
theorem C23_exit_code (commSize : Nat) (preparerReturns : Args → Bool)
    (argv : List String) :
    ((mainArgs commSize argv).isArgError = true →
      mainReturn commSize preparerReturns argv = some (-1)) ∧
    (mainArgs commSize argv = MainResult.help →
      mainReturn commSize preparerReturns argv = some (-1)) ∧
    ("--help" ∈ argv.tail → mainReturn commSize preparerReturns argv ≠ some 0) ∧
    (mainReturn commSize preparerReturns argv = some 0 ↔
      ∃ a, mainArgs commSize argv = MainResult.run a ∧ preparerReturns a = true ∧
        BasicChecks commSize a ∧ ExactlyOnePattern a.output_name ∧
        RetentionValid a.retention ∧ a.retention ≠ a.output_name) := by
  have hzero : mainReturn commSize preparerReturns argv = some 0 →
      ∃ a, mainArgs commSize argv = MainResult.run a ∧ preparerReturns a = true := by
    intro h
    unfold mainReturn at h
    split at h
    · cases h
    · cases h
    · cases h
    · next a ha =>
      split_ifs at h with hp
      exact ⟨a, ha, hp⟩
  refine ⟨?_, ?_, ?_, ?_⟩
  · intro h
    unfold mainReturn
    cases hm : mainArgs commSize argv with
    | argError msg => rfl
    | help => rfl
    | uncaught =>
      rw [hm] at h
      cases h
    | run a =>
      rw [hm] at h
      cases h
  · intro h
    unfold mainReturn
    rw [h]
  · intro hmem h
    obtain ⟨a, ha, _⟩ := hzero h
    exact parseArgs_no_help commSize _ _ _ a (le_refl _) ha hmem
  · constructor
    · intro h
      obtain ⟨a, ha, hp⟩ := hzero h
      exact ⟨a, ha, hp, mainArgs_run ha⟩
    · rintro ⟨a, ha, hp, _⟩
      unfold mainReturn
      rw [ha]
      simp only [hp, if_true]

theorem C23_witness :
    mainReturn 2 (fun _ => true) exHelpCommand = some (-1) ∧
    mainReturn 2 (fun _ => true) exHelpCommand ≠ some 0 ∧
    mainReturn 2 (fun _ => true) ["parallel_pflood.exe", "one"] = some (-1) :=
  ⟨(C23_exit_code 2 (fun _ => true) exHelpCommand).2.1 exHelpCommand_help,
    (C23_exit_code 2 (fun _ => true) exHelpCommand).2.2.1 (by decide),
    (C23_exit_code 2 (fun _ => true) ["parallel_pflood.exe", "one"]).1 (by decide)⟩

/-- C23, the claim as worded fails: the example command line is free of errors and
ends with the return value 0, and the same command line with `--help` in front prints
the help text and ends with the return value -1. -/
theorem C23_counterexample :
    mainArgs 2 exCommand = MainResult.run exArgs ∧
    mainReturn 2 (fun _ => true) exCommand = some 0 ∧
    mainArgs 2 exHelpCommand = MainResult.help ∧
    mainReturn 2 (fun _ => true) exHelpCommand = some (-1) ∧
    mainReturn 2 (fun _ => true) exHelpCommand ≠ some 0 := by
  decide

/-! ## The perimeter join at equal labels -/

/-- A touching pair with equal offset labels leaves the master graph as it is in
`HandleEdge`. -/
theorem handleEdgePair_equal {elev_a elev_b : List Int} {label_a label_b : List Nat}
    {off_a off_b i d : Nat} {g : Graph} {la lb : Nat} {ea eb : Int}
    (hla : label_a[i]? = some la) (hlb : label_b[i + d - 1]? = some lb)
    (hea : elev_a[i]? = some ea) (heb : elev_b[i + d - 1]? = some eb)
    (hd : 1 ≤ i + d) (heq : offsetLabel la off_a = offsetLabel lb off_b) :
    handleEdgePair elev_a elev_b label_a label_b off_a off_b i d g = some g := by
  unfold handleEdgePair
  have hni : ((i : Int) + (d : Int) - 1).toNat = i + d - 1 := by omega
  simp only [hni, hla, hlb, hea, heb, heq, if_true]
  split_ifs <;> rfl

/-- C28: the perimeter join at equal labels, evaluated on a flat raster of 10 by 10
cells in 2 by 2 tiles, where every perimeter cell has label 1: `HandleEdge` leaves the
master graph unchanged, `HandleCorner` called with two cells of label 1 writes the
entry of vertex 1 under its own key, and the master graph that `Calculations` builds
for the flat raster has vertex 1 as a neighbour of itself. -/
theorem C28_corner_joins_equal_labels :
    HandleEdge [5, 5, 5, 5, 5] [5, 5, 5, 5, 5] [1, 1, 1, 1, 1] [1, 1, 1, 1, 1] [[], []] 0 0
      = some [[], []] ∧
    HandleCorner 5 5 1 1 [[], []] 0 0 = some [[], [(1, 5)]] ∧
    (buildMasterGraph flatTiles flatJobs).map (fun r => weight r.2 1 1) = some (some 5) := by
  decide

/-! ## The disk cache -/

/-- A file that was dumped is read back. -/
theorem Cache.read_dump_same (c : Cache) (name : String) (g : StoredGrid) :
    (c.dump name g).read name = some g := by
  unfold Cache.dump Cache.read
  rw [if_pos rfl]

/-- The lookup skips the files of other names that a filter removes. -/
theorem Cache.read_filter (c : Cache) (name other : String) (h : other ≠ name) :
    Cache.read (c.filter (fun e => e.1 ≠ name)) other = Cache.read c other := by
  induction c with
  | nil => rfl
  | cons e rest ih =>
    obtain ⟨n, g⟩ := e
    by_cases hn : n = name
    · have : List.filter (fun e : String × StoredGrid => decide (e.1 ≠ name)) ((n, g) :: rest)
          = List.filter (fun e => decide (e.1 ≠ name)) rest := by
        rw [List.filter_cons_of_neg]
        simp [hn]
      rw [this, ih]
      conv_rhs => unfold Cache.read
      rw [if_neg (fun hc => h (hc.trans hn))]
    · have : List.filter (fun e : String × StoredGrid => decide (e.1 ≠ name)) ((n, g) :: rest)
          = (n, g) :: List.filter (fun e => decide (e.1 ≠ name)) rest := by
        rw [List.filter_cons_of_pos]
        simp [hn]
      rw [this]
      unfold Cache.read
      rw [ih]

/-- A dump leaves the files of other names as they are. -/
theorem Cache.read_dump_other (c : Cache) (name other : String) (g : StoredGrid)
    (h : other ≠ name) : (c.dump name g).read other = c.read other := by
  unfold Cache.dump
  conv_lhs => unfold Cache.read
  rw [if_neg h]
  exact Cache.read_filter c name other h

/-- The two cache file names of a tile differ. -/
theorem cacheNames_ne (retention : String) :
    retention ++ "labels.dat" ≠ retention ++ "dem.dat" := by
  intro h
  have h2 := congrArg String.data h
  rw [String.data_append, String.data_append] at h2
  have h3 := List.append_cancel_left h2
  revert h3
  decide

/-- C25: `SaveToCache` followed by `LoadFromCache`.  After `SaveToCache` the file
`retention+"dem.dat"` holds the labels (they were dumped over the elevations) and the
file `retention+"labels.dat"` is as it was before; `LoadFromCache` therefore does not
give back the grids that were saved, and from an empty cache it loads nothing. -/
theorem C25_cache_round_trip_fails (tile : TileInfo) (s s2 : ConsumerSpecifics)
    (cache : Cache) :
    (SaveToCache tile s cache).read (tile.retention ++ "dem.dat")
      = some (StoredGrid.label s.labels) ∧
    (SaveToCache tile s cache).read (tile.retention ++ "labels.dat")
      = cache.read (tile.retention ++ "labels.dat") ∧
    LoadFromCache tile s2 (SaveToCache tile s cache) = none ∧
    LoadFromCache cacheTile cacheGrids (SaveToCache cacheTile cacheGrids []) = none := by
  have h1 : (SaveToCache tile s cache).read (tile.retention ++ "dem.dat")
      = some (StoredGrid.label s.labels) := by
    unfold SaveToCache
    exact Cache.read_dump_same _ _ _
  refine ⟨h1, ?_, ?_, by decide⟩
  · unfold SaveToCache
    simp only
    rw [Cache.read_dump_other _ _ _ _ (cacheNames_ne _),
      Cache.read_dump_other _ _ _ _ (cacheNames_ne _)]
  · unfold LoadFromCache Cache.loadElev
    rw [h1]

/-! ## Producer: the round robin of the sending loops -/

theorem roundRobin_append (limit : Nat) : ∀ (l : List TileInfo) (start : Nat) (t : TileInfo),
    roundRobin limit start (l ++ [t]) =
      roundRobin limit start l ++ [(t, (start + l.length) % limit + 1)] := by
  intro l
  induction l with
  | nil =>
    intro start t
    simp [roundRobin]
  | cons a rest ih =>
    intro start t
    have : start + 1 + rest.length = start + (rest.length + 1) := by omega
    rw [List.cons_append, roundRobin, ih, this]
    rfl

theorem roundRobin_length (limit : Nat) : ∀ (l : List TileInfo) (start : Nat),
    (roundRobin limit start l).length = l.length := by
  intro l
  induction l with
  | nil => intro start; rfl
  | cons a rest ih =>
    intro start
    simp only [roundRobin, List.length_cons, ih]

theorem roundRobin_getElem (limit : Nat) : ∀ (l : List TileInfo) (start i : Nat),
    (roundRobin limit start l)[i]? = (l[i]?).map (fun t => (t, (start + i) % limit + 1)) := by
  intro l
  induction l with
  | nil => intro start i; simp [roundRobin]
  | cons a rest ih =>
    intro start i
    cases i with
    | zero => simp [roundRobin]
    | succ i =>
      simp only [roundRobin, List.getElem?_cons_succ, ih]
      have : start + 1 + i = start + (i + 1) := by omega
      rw [this]

theorem roundRobin_ranks (limit : Nat) : ∀ (l : List TileInfo) (start : Nat),
    (roundRobin limit start l).map Prod.snd =
      (List.range l.length).map (fun k => (start + k) % limit + 1) := by
  intro l
  induction l using List.reverseRecOn with
  | nil => intro start; simp [roundRobin]
  | append_singleton rest t ih =>
    intro start
    rw [roundRobin_append, List.map_append, ih, List.length_append, List.length_singleton,
      List.range_succ, List.map_append]
    rfl

/-- The part of row `y` that lies in the columns before `x`. -/
theorem rowPart_succ (tiles : TileGrid) (y x : Nat) (t : TileInfo)
    (h : grid2 tiles y x = some t) :
    (List.range (x + 1)).filterMap (fun x2 => grid2 tiles y x2) =
      (List.range x).filterMap (fun x2 => grid2 tiles y x2) ++ [t] := by
  rw [List.range_succ, List.filterMap_append]
  simp [h]

theorem rowMajor_succ (tiles : TileGrid) (y gw : Nat) :
    rowMajor tiles (y + 1) gw =
      rowMajor tiles y gw ++ (List.range gw).filterMap (fun x => grid2 tiles y x) := by
  unfold rowMajor
  rw [List.range_succ, List.flatMap_append]
  simp

theorem sendJob_inv {β : Type} {commSize : Nat} {job : Nat → Nat → Option β}
    {tiles : TileGrid} {gw y x : Nat} {s v : SendState β}
    (hinv : SendInv (commSize - 1) tiles gw y x s)
    (h : sendJob commSize job tiles y x s = some v) :
    SendInv (commSize - 1) tiles gw y (x + 1) v := by
  unfold sendJob at h
  cases ht : grid2 tiles y x with
  | none => rw [ht] at h; cases h
  | some t =>
    rw [ht] at h
    simp only at h
    unfold SendInv
    rw [rowPart_succ tiles y x t ht, ← List.append_assoc, List.filter_append]
    by_cases hn : t.nullTile = true
    · rw [if_pos hn] at h
      cases h
      have : List.filter (fun t : TileInfo => !t.nullTile) [t] = [] := by
        simp [hn]
      rw [this, List.append_nil]
      exact hinv
    · rw [if_neg hn] at h
      cases hj : job x y with
      | none => rw [hj] at h; cases h
      | some j =>
        rw [hj] at h
        simp only at h
        split_ifs at h with hc
        cases h
        have hf : List.filter (fun t : TileInfo => !t.nullTile) [t] = [t] := by
          simp [hn]
        have hlen := congrArg List.length hinv.1
        rw [List.length_map, roundRobin_length] at hlen
        rw [hf, roundRobin_append, List.map_append, hinv.1, ← hlen, Nat.zero_add]
        refine ⟨?_, ?_⟩
        · simp only [List.map_cons, List.map_nil, msgView, hinv.2]
        · simp only [List.length_append, List.length_singleton, hinv.2]

/-- What a sending loop that returns has sent: the tiles that are no null tiles, in
row-major order, each to the rank that the round robin gives it. -/
theorem sendJobs_spec {β : Type} {commSize gh gw : Nat} {job : Nat → Nat → Option β}
    {tiles : TileGrid} {s : SendState β}
    (h : sendJobs commSize gh gw job tiles = some s) :
    s.msgs.map msgView = roundRobin (commSize - 1) 0 (nonNullTiles tiles gh gw) ∧
      s.jobs_out = s.msgs.length := by
  have hP := forRange_inv (fun y (u : SendState β) => SendInv (commSize - 1) tiles gw y 0 u)
    _ gh _ s ?_ ?_ h
  · have h2 : SendInv (commSize - 1) tiles gw gh 0 s := hP
    unfold SendInv at h2
    simpa [nonNullTiles] using h2
  · unfold SendInv rowMajor
    simp [roundRobin]
  · intro y u v _ hu hv
    have hin := forRange_inv (fun x (w : SendState β) => SendInv (commSize - 1) tiles gw y x w)
      _ gw u v hu (fun x a b _ ha hb => sendJob_inv ha hb) hv
    have h3 : SendInv (commSize - 1) tiles gw y gw v := hin
    unfold SendInv at h3 ⊢
    rw [rowMajor_succ]
    simpa using h3

/-- A sending loop over a tile matrix of the given shape returns, when there are at
least two processes, every job can be built and the `int` counter cannot overflow. -/
theorem sendJobs_total {β : Type} {commSize gh gw : Nat} {job : Nat → Nat → Option β}
    {tiles : TileGrid} (hN : 2 ≤ commSize)
    (hrect : ∀ y, y < gh → ∀ x, x < gw → ∃ t, grid2 tiles y x = some t ∧
      (t.nullTile = false → (job x y).isSome = true))
    (hsize : ((gh * gw : Nat) : Int) ≤ INT32_MAX) :
    ∃ s, sendJobs commSize gh gw job tiles = some s := by
  have hout := forRange_total (fun y (u : SendState β) => u.jobs_out ≤ y * gw)
    (fun y s => forRange gw (fun x s2 => sendJob commSize job tiles y x s2) s) gh
    { msgs := [], jobs_out := 0 } (by simp) ?_
  · obtain ⟨s, hs, _⟩ := hout
    exact ⟨s, hs⟩
  · intro y u hy hu
    have hin := forRange_total (fun x (w : SendState β) => w.jobs_out ≤ y * gw + x)
      (fun x s2 => sendJob commSize job tiles y x s2) gw u hu ?_
    · obtain ⟨v, hv, hPv⟩ := hin
      refine ⟨v, hv, ?_⟩
      have : (y + 1) * gw = y * gw + gw := by ring
      show v.jobs_out ≤ (y + 1) * gw
      rw [this]
      exact hPv
    · intro x w hx hw
      obtain ⟨t, ht, hjob⟩ := hrect y hy x hx
      show ∃ v, sendJob commSize job tiles y x w = some v ∧ v.jobs_out ≤ y * gw + (x + 1)
      unfold sendJob
      rw [ht]
      simp only
      by_cases hn : t.nullTile = true
      · rw [if_pos hn]
        exact ⟨w, rfl, by omega⟩
      · rw [if_neg hn]
        have hj := hjob (by simpa using hn)
        cases hjv : job x y with
        | none => rw [hjv] at hj; cases hj
        | some j =>
          simp only
          have hlt : y * gw + x < gh * gw := by
            calc y * gw + x < y * gw + gw := by omega
              _ = (y + 1) * gw := by ring
              _ ≤ gh * gw := Nat.mul_le_mul_right gw hy
          have hb : ¬ (commSize - 1 = 0 ∨ INT32_MAX ≤ (w.jobs_out : Int)) := by
            rintro (hc | hc)
            · omega
            · have : (w.jobs_out : Int) < ((gh * gw : Nat) : Int) := by
                exact_mod_cast (lt_of_le_of_lt hw hlt)
              omega
          rw [if_neg hb]
          exact ⟨_, rfl, by simp only; omega⟩

/-- The number of places `k < n` whose rank `(k mod limit) + 1` is `rank`. -/
theorem rank_count (limit n rank : Nat) (hl : 0 < limit) (h1 : 1 ≤ rank)
    (h2 : rank ≤ limit) :
    (((List.range n).map (fun k => (0 + k) % limit + 1)).filter (fun r => r = rank)).length
      = n / limit + if rank - 1 < n % limit then 1 else 0 := by
  have h := @Nat.count_modEq_card n limit hl (rank - 1)
  rw [Nat.mod_eq_of_lt (by omega : rank - 1 < limit)] at h
  rw [← h, Nat.count, List.filter_map, List.length_map, List.countP_eq_length_filter]
  congr 1
  apply List.filter_congr
  intro k _
  simp only [Function.comp_apply, Nat.zero_add, decide_eq_decide]
  unfold Nat.ModEq
  rw [Nat.mod_eq_of_lt (by omega : rank - 1 < limit)]
  omega

/-- The jobs of a round robin are spread evenly: two ranks differ by at most one job. -/
theorem jobsOf_even {β : Type} {limit : Nat} {msgs : List (TileInfo × β × Nat)}
    {l : List TileInfo} (hm : msgs.map msgView = roundRobin limit 0 l) (hl : 0 < limit)
    (r1 r2 : Nat) (h1 : 1 ≤ r1) (h2 : r1 ≤ limit) (h3 : 1 ≤ r2) (h4 : r2 ≤ limit) :
    jobsOf msgs r1 ≤ jobsOf msgs r2 + 1 := by
  have hcount : ∀ r, jobsOf msgs r =
      (((List.range l.length).map (fun k => (0 + k) % limit + 1)).filter
        (fun x => x = r)).length := by
    intro r
    rw [← roundRobin_ranks, ← hm, List.map_map, List.filter_map, List.length_map]
    rfl
  rw [hcount r1, hcount r2, rank_count limit _ r1 hl h1 h2, rank_count limit _ r2 hl h3 h4]
  split_ifs <;> omega

/-! ## Producer: the two phases send alike -/

/-- The parts of a run of `Producer` that returns. -/
theorem Producer_parts {lowest : Int} {commSize : Nat} {jobs1 : Job1Grid} {tiles : TileGrid}
    {p : Produced} (h : Producer lowest commSize jobs1 tiles = some p) :
    ∃ row0 s1 fill s2, tiles.head? = some row0 ∧
      sendJobs commSize tiles.length row0.length (fun _ _ => some ()) tiles = some s1 ∧
      Calculations lowest tiles jobs1 = some (p.tiles, fill) ∧
      sendJobs commSize tiles.length row0.length (DistributeJob2 fill p.tiles) p.tiles
        = some s2 ∧
      p.first = s1.msgs ∧ p.second = s2.msgs := by
  unfold Producer at h
  cases hrow : tiles.head? with
  | none => rw [hrow] at h; cases h
  | some row0 =>
    rw [hrow] at h
    simp only at h
    cases h1 : sendJobs commSize tiles.length row0.length (fun _ _ => some ()) tiles with
    | none => rw [h1] at h; cases h
    | some s1 =>
      rw [h1] at h
      simp only at h
      cases hc : Calculations lowest tiles jobs1 with
      | none => rw [hc] at h; cases h
      | some pr =>
        obtain ⟨tiles2, fill⟩ := pr
        rw [hc] at h
        simp only at h
        cases h2 : sendJobs commSize tiles.length row0.length (DistributeJob2 fill tiles2)
            tiles2 with
        | none => rw [h2] at h; cases h
        | some s2 =>
          rw [h2] at h
          cases h
          exact ⟨row0, s1, fill, s2, rfl, h1, rfl, h2, rfl, rfl⟩

/-- C24: the sending loop of the first phase with at least two processes returns; it
sends the tiles that are no null tiles, in row-major order, and nothing else; the
message at place `k` (counted from 0) goes to the rank `(k mod (N-1)) + 1`, which lies
in `1..N-1`; and the numbers of jobs of any two consumers differ by at most one.  The
messages are those of the first phase of `Producer`. -/
theorem C24_round_robin_dispatch (commSize : Nat) (tiles : TileGrid) (gh gw : Nat)
    (hN : 2 ≤ commSize) (hh : tiles.length = gh)
    (hw : tiles.head?.map List.length = some gw)
    (hrect : ∀ y, y < gh → ∀ x, x < gw → (grid2 tiles y x).isSome = true)
    (hsize : ((gh * gw : Nat) : Int) ≤ INT32_MAX) :
    ∃ s, sendJobs commSize gh gw (fun _ _ => some ()) tiles = some s ∧
      s.msgs.map (fun m => m.1) = nonNullTiles tiles gh gw ∧
      (∀ (k : Nat) m, s.msgs[k]? = some m →
        m.2.2 = k % (commSize - 1) + 1 ∧ 1 ≤ m.2.2 ∧ m.2.2 ≤ commSize - 1 ∧
        m.1.nullTile = false ∧ (nonNullTiles tiles gh gw)[k]? = some m.1) ∧
      (∀ r1 r2, 1 ≤ r1 → r1 ≤ commSize - 1 → 1 ≤ r2 → r2 ≤ commSize - 1 →
        jobsOf s.msgs r1 ≤ jobsOf s.msgs r2 + 1) ∧
      ∀ lowest jobs1 p, Producer lowest commSize jobs1 tiles = some p → p.first = s.msgs := by
  obtain ⟨s, hs⟩ := @sendJobs_total Unit commSize gh gw (fun _ _ => some ()) tiles hN
    (fun y hy x hx => by
      obtain ⟨t, ht⟩ := Option.isSome_iff_exists.mp (hrect y hy x hx)
      exact ⟨t, ht, fun _ => rfl⟩) hsize
  have hspec := (sendJobs_spec hs).1
  have hfst : s.msgs.map (fun m => m.1) = nonNullTiles tiles gh gw := by
    have := congrArg (List.map Prod.fst) hspec
    rw [List.map_map] at this
    have h2 : ∀ (l : List TileInfo) (start : Nat),
        (roundRobin (commSize - 1) start l).map Prod.fst = l := by
      intro l
      induction l with
      | nil => intro start; rfl
      | cons a rest ih => intro start; simp only [roundRobin, List.map_cons, ih]
    rw [h2] at this
    exact this
  refine ⟨s, hs, hfst, ?_, ?_, ?_⟩
  · intro k m hk
    have h1 : (s.msgs.map msgView)[k]? = some (msgView m) := by
      rw [List.getElem?_map, hk]
      rfl
    rw [hspec, roundRobin_getElem] at h1
    cases ht : (nonNullTiles tiles gh gw)[k]? with
    | none => rw [ht] at h1; cases h1
    | some t =>
      rw [ht] at h1
      simp only [Option.map_some', Option.some.injEq, msgView, Prod.mk.injEq, Nat.zero_add]
        at h1
      have hmem : t ∈ nonNullTiles tiles gh gw := List.getElem?_mem ht
      unfold nonNullTiles at hmem
      have hnn := (List.mem_filter.mp hmem).2
      have hlt : k % (commSize - 1) < commSize - 1 := Nat.mod_lt _ (by omega)
      refine ⟨h1.2.symm, ?_, ?_, ?_, ?_⟩
      · omega
      · omega
      · rw [← h1.1]
        simpa using hnn
      · rw [← h1.1]
  · intro r1 r2 h1 h2 h3 h4
    exact jobsOf_even hspec (by omega) r1 r2 h1 h2 h3 h4
  · intro lowest jobs1 p hp
    obtain ⟨row0, s1, _, _, hhead, h1, _, _, hf, _⟩ := Producer_parts hp
    rw [hhead] at hw
    have hlen : row0.length = gw := by simpa using hw
    rw [hh, hlen, hs] at h1
    cases h1
    exact hf

theorem C24_witness :
    ∃ s, sendJobs 3 2 2 (fun _ _ => some ()) flatTiles = some s ∧
      s.msgs.map (fun m => m.1) = nonNullTiles flatTiles 2 2 ∧
      (∀ (k : Nat) m, s.msgs[k]? = some m →
        m.2.2 = k % (3 - 1) + 1 ∧ 1 ≤ m.2.2 ∧ m.2.2 ≤ 3 - 1 ∧
        m.1.nullTile = false ∧ (nonNullTiles flatTiles 2 2)[k]? = some m.1) ∧
      (∀ r1 r2, 1 ≤ r1 → r1 ≤ 3 - 1 → 1 ≤ r2 → r2 ≤ 3 - 1 →
        jobsOf s.msgs r1 ≤ jobsOf s.msgs r2 + 1) ∧
      ∀ lowest jobs1 p, Producer lowest 3 jobs1 flatTiles = some p → p.first = s.msgs :=
  C24_round_robin_dispatch 3 flatTiles 2 2 (by decide) rfl rfl (by decide) (by decide)

theorem EdgeBits.Distinct.of_ne {bits : EdgeBits} (hd : bits.Distinct) :
    ∀ S, bits.of S ≠ 0 := by
  intro S
  cases S
  · exact hd.top_ne
  · exact hd.bottom_ne
  · exact hd.left_ne
  · exact hd.right_ne

theorem EdgeBits.Distinct.of_disjoint {bits : EdgeBits} (hd : bits.Distinct) :
    ∀ S S2, S ≠ S2 → bits.of S &&& bits.of S2 = 0 := by
  have tb := hd.top_bottom
  have tl := hd.top_left
  have tr := hd.top_right
  have bl := hd.bottom_left
  have br := hd.bottom_right
  have lr := hd.left_right
  have bt : bits.bottom &&& bits.top = 0 := by rw [Nat.and_comm]; exact tb
  have lt : bits.left &&& bits.top = 0 := by rw [Nat.and_comm]; exact tl
  have rt : bits.right &&& bits.top = 0 := by rw [Nat.and_comm]; exact tr
  have lb : bits.left &&& bits.bottom = 0 := by rw [Nat.and_comm]; exact bl
  have rb : bits.right &&& bits.bottom = 0 := by rw [Nat.and_comm]; exact br
  have rl : bits.right &&& bits.left = 0 := by rw [Nat.and_comm]; exact lr
  intro S S2 hne
  cases S <;> cases S2 <;> first
    | exact absurd rfl hne
    | assumption

/-- A mask with one more bit has the bit of a side only if it is the new bit or the
mask had it. -/
theorem hasBit_or_side {bits : EdgeBits} (hd : bits.Distinct) {e : Nat} {S S2 : Side}
    (h : HasBit (e ||| bits.of S) (bits.of S2)) : S2 = S ∨ HasBit e (bits.of S2) := by
  by_cases hs : S = S2
  · exact Or.inl hs.symm
  · exact Or.inr ((hasBit_or_other (hd.of_disjoint S S2 hs)).mp h)

theorem adjInv_start {bits : EdgeBits} (hd : bits.Distinct) {tiles : TileGrid}
    (h0 : AllEdgeZero tiles) : AdjInv bits tiles tiles := by
  refine ⟨fun _ _ => rfl, ?_⟩
  intro y x t ht S hS
  obtain ⟨row, hrow, hmem⟩ := mem_of_grid2 ht
  rw [h0 row hrow t hmem] at hS
  exact absurd hS (not_hasBit_zero (hd.of_ne S))

theorem markIfNull_adj {bits : EdgeBits} (hd : bits.Distinct) {tiles0 tiles tiles2 : TileGrid}
    {S : Side} {cond : Bool} {ny nx y x : Nat}
    (h : markIfNull cond ny nx (bits.of S) y x tiles = Except.ok tiles2)
    (hinv : AdjInv bits tiles0 tiles)
    (hn : cond = true → NullAt tiles0 ny nx → NullNbr tiles0 S y x) :
    AdjInv bits tiles0 tiles2 := by
  unfold markIfNull at h
  cases cond with
  | false =>
    simp only [Bool.false_eq_true, if_false] at h
    cases h
    exact hinv
  | true =>
    simp only [if_true] at h
    cases hg : grid2 tiles ny nx with
    | none => rw [hg] at h; cases h
    | some n =>
      rw [hg] at h
      simp only at h
      cases hnull : n.nullTile with
      | false =>
        rw [hnull] at h
        simp only [Bool.false_eq_true, if_false] at h
        cases h
        exact hinv
      | true =>
        rw [hnull] at h
        simp only [if_true] at h
        cases h
        have hnbr : NullNbr tiles0 S y x := by
          apply hn rfl
          have := hinv.1 ny nx
          rw [hg] at this
          cases h0 : grid2 tiles0 ny nx with
          | none => rw [h0] at this; cases this
          | some n0 =>
            rw [h0] at this
            simp only [Option.map_some', Option.some.injEq] at this
            exact ⟨n0, h0, by rw [← this]; exact hnull⟩
        constructor
        · intro y2 x2
          rw [grid2_modify]
          by_cases hc : y2 = y ∧ x2 = x
          · rw [if_pos hc, hc.1, hc.2, ← hinv.1 y x, Option.map_map]
            rfl
          · rw [if_neg hc]
            exact hinv.1 y2 x2
        · intro y2 x2 t ht S2 hS2
          rw [grid2_modify] at ht
          by_cases hc : y2 = y ∧ x2 = x
          · rw [if_pos hc] at ht
            cases h0 : grid2 tiles y x with
            | none => rw [h0] at ht; cases ht
            | some t0 =>
              rw [h0] at ht
              simp only [Option.map_some', Option.some.injEq] at ht
              rw [← ht] at hS2
              rw [hc.1, hc.2]
              rcases hasBit_or_side hd hS2 with hs | hs
              · rw [hs]
                exact hnbr
              · exact hinv.2 y x t0 h0 S2 hs
          · rw [if_neg hc] at ht
            exact hinv.2 y2 x2 t ht S2 hS2

theorem nullAdjacentTile_adj {bits : EdgeBits} (hd : bits.Distinct)
    {tiles0 tiles tiles2 : TileGrid} {height width y x : Nat}
    (h : nullAdjacentTile bits height width y x tiles = Except.ok tiles2)
    (hinv : AdjInv bits tiles0 tiles) : AdjInv bits tiles0 tiles2 := by
  unfold nullAdjacentTile at h
  cases hg : grid2 tiles y x with
  | none => rw [hg] at h; cases h
  | some t0 =>
    rw [hg] at h
    simp only at h
    cases hnull : t0.nullTile with
    | true =>
      rw [hnull] at h
      simp only [if_true] at h
      cases h
      exact hinv
    | false =>
      rw [hnull] at h
      simp only [Bool.false_eq_true, if_false] at h
      cases h1 : markIfNull (decide (0 < (y : Int) - 1 ∧ 0 < x)) (y - 1) x bits.top y x tiles with
      | error e => rw [h1] at h; cases h
      | ok u1 =>
        rw [h1] at h
        simp only [Except.bind] at h
        cases h2 : markIfNull (decide (y + 1 < height ∧ 0 < x)) (y + 1) x bits.bottom y x u1 with
        | error e => rw [h2] at h; cases h
        | ok u2 =>
          rw [h2] at h
          simp only at h
          cases h3 : markIfNull (decide (0 < y ∧ 0 < (x : Int) - 1)) y (x - 1) bits.left y x u2 with
          | error e => rw [h3] at h; cases h
          | ok u3 =>
            rw [h3] at h
            simp only at h
            have i1 : AdjInv bits tiles0 u1 :=
              @markIfNull_adj bits hd tiles0 tiles u1 Side.top _ _ _ _ _ h1 hinv
                (fun hc hn => by
                  simp only [decide_eq_true_eq] at hc
                  exact ⟨by omega, hn⟩)
            have i2 : AdjInv bits tiles0 u2 :=
              @markIfNull_adj bits hd tiles0 u1 u2 Side.bottom _ _ _ _ _ h2 i1
                (fun _ hn => hn)
            have i3 : AdjInv bits tiles0 u3 :=
              @markIfNull_adj bits hd tiles0 u2 u3 Side.left _ _ _ _ _ h3 i2
                (fun hc hn => by
                  simp only [decide_eq_true_eq] at hc
                  exact ⟨by omega, hn⟩)
            exact @markIfNull_adj bits hd tiles0 u3 tiles2 Side.right _ _ _ _ _ h i3
              (fun _ hn => hn)

theorem nullAdjacency_adj {bits : EdgeBits} (hd : bits.Distinct) {tiles tiles2 : TileGrid}
    (h : nullAdjacency bits tiles = Except.ok tiles2) (h0 : AllEdgeZero tiles) :
    AdjInv bits tiles tiles2 := by
  unfold nullAdjacency at h
  refine forRangeE_inv (fun _ (u : TileGrid) => AdjInv bits tiles u) _ _ _ _
    (adjInv_start hd h0) ?_ h
  intro y u v _ hu hv
  simp only at hv
  cases hr : u[0]? with
  | none => rw [hr] at hv; cases hv
  | some row0 =>
    rw [hr] at hv
    simp only at hv
    refine forRangeE_inv (fun _ (w : TileGrid) => AdjInv bits tiles w) _ _ _ _ hu ?_ hv
    intro x a b _ ha hb
    exact nullAdjacentTile_adj hd hb ha

/-- The entries of the layout file make tiles without edge bits. -/
theorem manyEntry_edge {probe : String → Option GDALInfo} {r o a : String} {flipH flipV : Int}
    {st st2 : ManyState} {e : LayoutEntry}
    (h : manyEntry probe r o flipH flipV a st e = Except.ok st2)
    (h0 : AllEdgeZero st.tiles) : AllEdgeZero st2.tiles := by
  unfold manyEntry at h
  cases hn : e.isNullTile with
  | true =>
    rw [hn] at h
    simp only [if_true] at h
    cases hp : pushBackRow (if e.newRow = true then st.tiles ++ [[]] else st.tiles)
      TileInfo.null with
    | error err => rw [hp] at h; cases h
    | ok ts =>
      rw [hp] at h
      cases h
      intro row hrow u hu
      rcases pushBackRow_mem hp row hrow u hu with h1 | ⟨row0, h1, h2⟩
      · rw [h1]
        rfl
      · obtain ⟨row1, k1, k2⟩ := mem_newRow row0 h1 u h2
        exact h0 row1 k1 u k2
  | false =>
    rw [hn] at h
    simp only [Bool.false_eq_true, if_false] at h
    have key : ∀ st1 : ManyState,
        ((manyRetention r e).bind fun this_retention =>
          (manyOutputName o e).bind fun this_output_name =>
          (pushBackRow (if e.newRow = true then st.tiles ++ [[]] else st.tiles)
            { TileInfo.make e.fullPath this_output_name this_retention e.x e.y 0 0
                st1.tile_width st1.tile_height true a with
              flip := manyFlip st1.tile_geotransform flipH flipV }).map
            (fun ts => { st1 with tiles := ts })) = Except.ok st2 →
        AllEdgeZero st2.tiles := by
      intro st1 h1
      cases hr : manyRetention r e with
      | error err => rw [hr] at h1; cases h1
      | ok rr =>
        rw [hr] at h1
        cases ho : manyOutputName o e with
        | error err => rw [ho] at h1; cases h1
        | ok oo =>
          rw [ho] at h1
          simp only [Except.bind] at h1
          cases hp : pushBackRow (if e.newRow = true then st.tiles ++ [[]] else st.tiles)
            { TileInfo.make e.fullPath oo rr e.x e.y 0 0 st1.tile_width st1.tile_height true a
              with flip := manyFlip st1.tile_geotransform flipH flipV } with
          | error err => rw [hp] at h1; cases h1
          | ok ts =>
            rw [hp] at h1
            cases h1
            intro row hrow u hu
            rcases pushBackRow_mem hp row hrow u hu with h2 | ⟨row0, h2, h3⟩
            · rw [h2]
              rfl
            · obtain ⟨row1, k1, k2⟩ := mem_newRow row0 h2 u h3
              exact h0 row1 k1 u k2
    by_cases hh : st.tile_height = -1
    · rw [if_pos hh] at h
      cases hp : probe e.fullPath with
      | none => rw [hp] at h; cases h
      | some info =>
        rw [hp] at h
        exact key _ h
    · rw [if_neg hh] at h
      exact key _ h

/-- The bits of a side after the marking of the edge: the tile lies on that side of
the matrix, or it had the bit before. -/
theorem markBits_sound {bits : EdgeBits} (hd : bits.Distinct) (a b c d : Bool) (e : Nat) :
    (HasBit (markBits bits a b c d e) bits.top → a = true ∨ HasBit e bits.top) ∧
    (HasBit (markBits bits a b c d e) bits.bottom → b = true ∨ HasBit e bits.bottom) ∧
    (HasBit (markBits bits a b c d e) bits.left → c = true ∨ HasBit e bits.left) ∧
    (HasBit (markBits bits a b c d e) bits.right → d = true ∨ HasBit e bits.right) := by
  have tb := hd.top_bottom
  have tl := hd.top_left
  have tr := hd.top_right
  have bl := hd.bottom_left
  have br := hd.bottom_right
  have lr := hd.left_right
  have bt : bits.bottom &&& bits.top = 0 := by rw [Nat.and_comm]; exact tb
  have lt : bits.left &&& bits.top = 0 := by rw [Nat.and_comm]; exact tl
  have rt : bits.right &&& bits.top = 0 := by rw [Nat.and_comm]; exact tr
  have lb : bits.left &&& bits.bottom = 0 := by rw [Nat.and_comm]; exact bl
  have rb : bits.right &&& bits.bottom = 0 := by rw [Nat.and_comm]; exact br
  have rl : bits.right &&& bits.left = 0 := by rw [Nat.and_comm]; exact lr
  unfold markBits
  cases a <;> cases b <;> cases c <;> cases d <;>
    simp only [if_true, if_false, Bool.false_eq_true, hasBit_or_other bt, hasBit_or_other lt,
      hasBit_or_other rt, hasBit_or_other tb, hasBit_or_other lb, hasBit_or_other rb,
      hasBit_or_other tl, hasBit_or_other bl, hasBit_or_other rl, hasBit_or_other tr,
      hasBit_or_other br, hasBit_or_other lr, false_or, true_or, imp_self, implies_true,
      and_self]

theorem nullAt_congr {A B : TileGrid}
    (h : ∀ y x, (grid2 A y x).map TileInfo.nullTile = (grid2 B y x).map TileInfo.nullTile)
    (y x : Nat) : NullAt B y x → NullAt A y x := by
  rintro ⟨n, hn, hnull⟩
  have := h y x
  rw [hn] at this
  cases ha : grid2 A y x with
  | none => rw [ha] at this; cases this
  | some m =>
    rw [ha] at this
    simp only [Option.map_some', Option.some.injEq] at this
    exact ⟨m, ha, this.trans hnull⟩

theorem nullNbr_congr {A B : TileGrid}
    (h : ∀ y x, (grid2 A y x).map TileInfo.nullTile = (grid2 B y x).map TileInfo.nullTile)
    (S : Side) (y x : Nat) : NullNbr B S y x → NullNbr A S y x := by
  cases S
  · exact fun hb => ⟨hb.1, nullAt_congr h _ _ hb.2⟩
  · exact fun hb => nullAt_congr h _ _ hb
  · exact fun hb => ⟨hb.1, nullAt_congr h _ _ hb.2⟩
  · exact fun hb => nullAt_congr h _ _ hb

/-- The marking of the edge of the matrix keeps the edge bits sound. -/
theorem markEdges_sound {bits : EdgeBits} (hd : bits.Distinct) {t1 tiles : TileGrid}
    (hm : markEdges bits t1 = Except.ok tiles)
    (hadj : ∀ y x t, grid2 t1 y x = some t → ∀ S, HasBit t.edge (bits.of S) →
      NullNbr t1 S y x) :
    ∀ y x t, grid2 tiles y x = some t → ∀ S, HasBit t.edge (bits.of S) →
      OnSide tiles S y x ∨ NullNbr tiles S y x := by
  obtain ⟨_, _, hlen, hrl, hg⟩ := markEdges_inv hm
  have hnull : ∀ y x, (grid2 tiles y x).map TileInfo.nullTile
      = (grid2 t1 y x).map TileInfo.nullTile := by
    intro y x
    rw [hg, Option.map_map]
    rfl
  intro y x t ht S hS
  rw [hg] at ht
  cases h0 : grid2 t1 y x with
  | none => rw [h0] at ht; cases ht
  | some t0 =>
    rw [h0] at ht
    simp only [Option.map_some', Option.some.injEq] at ht
    rw [← ht] at hS
    simp only at hS
    rw [markedEdge_eq_markBits] at hS
    obtain ⟨k1, k2, k3, k4⟩ := markBits_sound hd (decide (y = 0)) (decide (y + 1 = t1.length))
      (decide (x = 0)) (decide (x + 1 = rowLen t1 y)) t0.edge
    have hold : HasBit t0.edge (bits.of S) → NullNbr tiles S y x :=
      fun hb => nullNbr_congr hnull S y x (hadj y x t0 h0 S hb)
    cases S with
    | top =>
      rcases k1 hS with hc | hb
      · exact Or.inl (by simpa using hc)
      · exact Or.inr (hold hb)
    | bottom =>
      rcases k2 hS with hc | hb
      · left
        show y + 1 = tiles.length
        rw [hlen]
        simpa using hc
      · exact Or.inr (hold hb)
    | left =>
      rcases k3 hS with hc | hb
      · exact Or.inl (by simpa using hc)
      · exact Or.inr (hold hb)
    | right =>
      rcases k4 hS with hc | hb
      · left
        show x + 1 = rowLen tiles y
        rw [hrl]
        simpa using hc
      · exact Or.inr (hold hb)

/-- Before the marking of the edge of the matrix, a tile has the bit of a side only if
its neighbour on that side is a null tile, in either mode. -/
theorem Preparer_adjacent {probe : String → Option GDALInfo}
    {layout : String → List LayoutEntry} {bits : EdgeBits} (hd : bits.Distinct)
    {mode r i o a : String} {bwidth bheight flipH flipV : Int} {t1 : TileGrid}
    (hbranch : (mode = "many" ∧
          prepareMany probe (layout i) bits r o flipH flipV a = Except.ok t1) ∨
        (mode = "one" ∧ prepareOne probe r i o bwidth bheight a = Except.ok t1)) :
    ∀ y x t, grid2 t1 y x = some t → ∀ S, HasBit t.edge (bits.of S) → NullNbr t1 S y x := by
  rcases hbranch with ⟨_, hmany⟩ | ⟨_, hone⟩
  · unfold prepareMany at hmany
    cases hl : (layout i).foldlM (manyEntry probe r o flipH flipV a)
        { tiles := [], tile_width := -1, tile_height := -1,
          tile_geotransform := List.replicate 6 0 } with
    | error e => rw [hl] at hmany; cases hmany
    | ok st =>
      rw [hl] at hmany
      have hzero : AllEdgeZero st.tiles :=
        foldlME_inv (fun u : ManyState => AllEdgeZero u.tiles)
          (manyEntry probe r o flipH flipV a) (layout i) _ st
          (fun row hrow => absurd hrow (List.not_mem_nil row))
          (fun e u v _ hu hv => manyEntry_edge hv hu) hl
      have hadj := nullAdjacency_adj hd hmany hzero
      intro y x t ht S hS
      exact nullNbr_congr hadj.1 S y x (hadj.2 y x t ht S hS)
  · obtain ⟨info, n, m, _, htiles, _⟩ := prepareOne_ok r i o a hone
    intro y x t ht S hS
    rw [htiles, grid2_rowTiles] at ht
    split_ifs at ht
    cases ht
    exact absurd hS (not_hasBit_zero (hd.of_ne S))

/-- C29: the edge bits are sound.  For four different edge constants, in every tile
matrix that `Preparer` hands over, in either mode, a tile that is no null tile has the
bit of a side only if it lies on that side of the tile matrix (first row, last row,
first of its row, last of its row) or its direct neighbour on that side is a null
tile. -/
theorem C29_edge_bits_sound (probe : String → Option GDALInfo)
    (layout : String → List LayoutEntry) (bits : EdgeBits) (mode r i o a : String)
    (bwidth bheight flipH flipV : Int) (tiles : TileGrid) (hd : bits.Distinct)
    (h : Preparer probe layout bits mode r i o bwidth bheight flipH flipV a
      = Except.ok tiles) :
    ∀ y x t, grid2 tiles y x = some t → t.nullTile = false →
      (HasBit t.edge bits.top → y = 0 ∨ (0 < y ∧ NullAt tiles (y - 1) x)) ∧
      (HasBit t.edge bits.bottom → y + 1 = tiles.length ∨ NullAt tiles (y + 1) x) ∧
      (HasBit t.edge bits.left → x = 0 ∨ (0 < x ∧ NullAt tiles y (x - 1))) ∧
      (HasBit t.edge bits.right → x + 1 = rowLen tiles y ∨ NullAt tiles y (x + 1)) := by
  obtain ⟨t1, hm, hbranch⟩ := Preparer_marked h
  have hs := markEdges_sound hd hm (Preparer_adjacent hd hbranch)
  intro y x t ht _
  exact ⟨hs y x t ht Side.top, hs y x t ht Side.bottom, hs y x t ht Side.left,
    hs y x t ht Side.right⟩

theorem C29_witness :
    ∃ t, grid2 exManyTiles 1 2 = some t ∧
      (HasBit t.edge exBits.top → 1 = 0 ∨ (0 < 1 ∧ NullAt exManyTiles (1 - 1) 2)) ∧
      (HasBit t.edge exBits.right → 2 + 1 = rowLen exManyTiles 1 ∨
        NullAt exManyTiles 1 (2 + 1)) :=
  match C29_edge_bits_sound exProbe (fun _ => exLayout) exBits "many" "@evict" "layout"
      "out%f.tif" "cmd" (-1) (-1) 1 0 exManyTiles exBits_distinct exMany_eq 1 2
      (exManyTile 4 "f" 2 1) rfl rfl with
  | ⟨h1, _, _, h4⟩ => ⟨_, rfl, h1, h4⟩

/-! ## The file names of one mode -/

theorem digitChar_spec : ∀ k, k < 10 →
    (Nat.digitChar k).toNat - 48 = k ∧ Nat.digitChar k ≠ '_' ∧ Nat.digitChar k ≠ '-' := by
  decide

theorem decimalValue_append (xs : List Char) (c : Char) :
    decimalValue (xs ++ [c]) = decimalValue xs * 10 + (c.toNat - 48) := by
  unfold decimalValue
  rw [List.foldl_append]
  rfl

/-- The digits that `Nat.toDigitsCore` puts in front of `ds`, given enough fuel: they
stand for `n`, there is at least one, and none is an underscore or a minus sign. -/
theorem toDigitsCore_spec : ∀ (fuel n : Nat) (ds : List Char), n < fuel →
    ∃ xs, Nat.toDigitsCore 10 fuel n ds = xs ++ ds ∧ decimalValue xs = n ∧ xs ≠ [] ∧
      ∀ c, c ∈ xs → c ≠ '_' ∧ c ≠ '-' := by
  intro fuel
  induction fuel with
  | zero => intro n ds h; omega
  | succ fuel ih =>
    intro n ds h
    have hd := digitChar_spec (n % 10) (Nat.mod_lt _ (by decide))
    unfold Nat.toDigitsCore
    simp only
    by_cases h0 : n / 10 = 0
    · rw [if_pos h0]
      refine ⟨[Nat.digitChar (n % 10)], rfl, ?_, by simp, ?_⟩
      · have : decimalValue [Nat.digitChar (n % 10)] = (Nat.digitChar (n % 10)).toNat - 48 := by
          unfold decimalValue
          simp
        rw [this, hd.1]
        omega
      · intro c hc
        rw [List.mem_singleton.mp hc]
        exact hd.2
    · rw [if_neg h0]
      obtain ⟨xs, hxs, hval, _, hall⟩ := ih (n / 10) (Nat.digitChar (n % 10) :: ds) (by omega)
      refine ⟨xs ++ [Nat.digitChar (n % 10)], ?_, ?_, by simp, ?_⟩
      · rw [hxs]
        simp
      · rw [decimalValue_append, hval, hd.1]
        omega
      · intro c hc
        rcases List.mem_append.mp hc with h1 | h1
        · exact hall c h1
        · rw [List.mem_singleton.mp h1]
          exact hd.2

theorem toDigits_spec (n : Nat) :
    decimalValue (Nat.toDigits 10 n) = n ∧ Nat.toDigits 10 n ≠ [] ∧
      ∀ c, c ∈ Nat.toDigits 10 n → c ≠ '_' ∧ c ≠ '-' := by
  obtain ⟨xs, hxs, hval, hne, hall⟩ := toDigitsCore_spec (n + 1) n [] (by omega)
  unfold Nat.toDigits
  rw [hxs, List.append_nil]
  exact ⟨hval, hne, hall⟩

theorem toDigits_injective {n m : Nat} (h : Nat.toDigits 10 n = Nat.toDigits 10 m) : n = m := by
  rw [← (toDigits_spec n).1, ← (toDigits_spec m).1, h]

/-- The characters of the decimal string of an integer. -/
theorem intString_data (z : Int) :
    (toString z).data =
      match z with
      | Int.ofNat m => Nat.toDigits 10 m
      | Int.negSucc m => '-' :: Nat.toDigits 10 (m + 1) := by
  cases z <;> rfl

theorem intString_no_underscore (z : Int) : '_' ∉ (toString z).data := by
  rw [intString_data]
  cases z with
  | ofNat m =>
    exact fun hc => ((toDigits_spec m).2.2 _ hc).1 rfl
  | negSucc m =>
    simp only
    intro hc
    rcases List.mem_cons.mp hc with h1 | h1
    · revert h1
      decide
    · exact ((toDigits_spec (m + 1)).2.2 _ h1).1 rfl

/-- Different integers have different decimal strings. -/
theorem intString_injective {z w : Int} (h : (toString z).data = (toString w).data) :
    z = w := by
  rw [intString_data, intString_data] at h
  have hfirst : ∀ m k : Nat, Nat.toDigits 10 m ≠ '-' :: Nat.toDigits 10 (k + 1) := by
    intro m k hc
    have hall := (toDigits_spec m).2.2 '-' (by rw [hc]; exact List.mem_cons_self _ _)
    exact hall.2 rfl
  cases z with
  | ofNat m =>
    cases w with
    | ofNat k =>
      simp only at h
      rw [toDigits_injective h]
    | negSucc k => exact absurd h (hfirst m k)
  | negSucc m =>
    cases w with
    | ofNat k => exact absurd h.symm (hfirst k m)
    | negSucc k =>
      simp only [List.cons.injEq, true_and] at h
      have := toDigits_injective h
      have hmk : m = k := by omega
      rw [hmk]

/-- Two lists that are cut at their first underscore agree part by part. -/
theorem split_at_underscore : ∀ (a a2 b b2 : List Char), '_' ∉ a → '_' ∉ a2 →
    a ++ '_' :: b = a2 ++ '_' :: b2 → a = a2 ∧ b = b2 := by
  intro a
  induction a with
  | nil =>
    intro a2 b b2 _ h2 h
    cases a2 with
    | nil =>
      simp only [List.nil_append, List.cons.injEq, true_and] at h
      exact ⟨rfl, h⟩
    | cons c rest =>
      simp only [List.nil_append, List.cons_append, List.cons.injEq] at h
      exact absurd (by rw [← h.1]; exact List.mem_cons_self _ _) h2
  | cons c rest ih =>
    intro a2 b b2 h1 h2 h
    cases a2 with
    | nil =>
      simp only [List.nil_append, List.cons_append, List.cons.injEq] at h
      exact absurd (by rw [h.1]; exact List.mem_cons_self _ _) h1
    | cons c2 rest2 =>
      simp only [List.cons_append, List.cons.injEq] at h
      obtain ⟨k1, k2⟩ := ih rest2 b b2 (fun hc => h1 (List.mem_cons_of_mem _ hc))
        (fun hc => h2 (List.mem_cons_of_mem _ hc)) h.2
      exact ⟨by rw [h.1, k1], k2⟩

theorem coordString_data (gridx gridy : Int) :
    (coordString gridx gridy).data = (toString gridx).data ++ '_' :: (toString gridy).data := by
  unfold coordString
  rw [String.data_append, String.data_append]
  simp

/-- Different grid coordinates have different coordinate strings. -/
theorem coordString_injective {gx gy gx2 gy2 : Int}
    (h : coordString gx gy = coordString gx2 gy2) : gx = gx2 ∧ gy = gy2 := by
  have hd := congrArg String.data h
  rw [coordString_data, coordString_data] at hd
  obtain ⟨h1, h2⟩ := split_at_underscore _ _ _ _ (intString_no_underscore gx)
    (intString_no_underscore gx2) hd
  exact ⟨intString_injective h1, intString_injective h2⟩

/-- Putting different strings in the place of the pattern gives different names. -/
theorem replaceFirst_injective {s pat rep rep2 : String} (hc : contains s pat = true)
    (h : replaceFirst s pat rep = replaceFirst s pat rep2) : rep = rep2 := by
  unfold contains at hc
  unfold replaceFirst at h
  cases hf : findSub s.data pat.data with
  | none => rw [hf] at hc; cases hc
  | some i =>
    rw [hf] at h
    have hdata := congrArg String.data h
    simp only [List.append_assoc] at hdata
    have h2 := List.append_cancel_right (List.append_cancel_left hdata)
    exact String.ext h2

/-- The fields of a tile of one mode that hold its grid coordinates and its names. -/
theorem Preparer_one_names {probe : String → Option GDALInfo}
    {layout : String → List LayoutEntry} {bits : EdgeBits} {r i o a : String}
    {bwidth bheight flipH flipV : Int} {tiles : TileGrid}
    (h : Preparer probe layout bits "one" r i o bwidth bheight flipH flipV a = Except.ok tiles)
    {y x : Nat} {t : TileInfo} (ht : grid2 tiles y x = some t) :
    t.gridx = (x : Int) ∧ t.gridy = (y : Int) ∧
      t.outputname = replaceFirst o "%n" (coordString t.gridx t.gridy) ∧
      (startsWithAt r = false →
        t.retention = replaceFirst r "%n" (coordString t.gridx t.gridy)) ∧
      (startsWithAt r = true → t.retention = r) := by
  obtain ⟨info, n, m, _, _, _, _, _, _, _, _, hg⟩ := Preparer_one_ok h
  rw [hg] at ht
  split_ifs at ht
  cases ht
  refine ⟨rfl, rfl, rfl, ?_, ?_⟩
  · intro hs
    simp only [oneTileOf, TileInfo.make, hs, Bool.not_false, if_true]
    rfl
  · intro hs
    simp only [oneTileOf, TileInfo.make, hs, Bool.not_true, Bool.false_eq_true, if_false]

/-- C26: in one mode the file names of the tiles do not collide.  In the tile matrix
that `Preparer` hands over, the output name of a tile is the output template with
`gridx_gridy` in the place of its first "%n", and so is the retention when it is a
path; tiles at different places have different grid coordinates; and two tiles with
different grid coordinates have different output names and, when the retention is a
path, different retention paths. -/
theorem C26_one_mode_names_distinct (probe : String → Option GDALInfo)
    (layout : String → List LayoutEntry) (bits : EdgeBits) (r i o a : String)
    (bwidth bheight flipH flipV : Int) (tiles : TileGrid)
    (h : Preparer probe layout bits "one" r i o bwidth bheight flipH flipV a
      = Except.ok tiles) :
    ∀ y x y2 x2 t t2, grid2 tiles y x = some t → grid2 tiles y2 x2 = some t2 →
      t.outputname = replaceFirst o "%n" (coordString t.gridx t.gridy) ∧
      (startsWithAt r = false →
        t.retention = replaceFirst r "%n" (coordString t.gridx t.gridy)) ∧
      ((y, x) ≠ (y2, x2) → (t.gridx, t.gridy) ≠ (t2.gridx, t2.gridy)) ∧
      ((t.gridx, t.gridy) ≠ (t2.gridx, t2.gridy) →
        t.outputname ≠ t2.outputname ∧
        (startsWithAt r = false → t.retention ≠ t2.retention)) := by
  intro y x y2 x2 t t2 ht ht2
  obtain ⟨k1, k2, k3, k4, _⟩ := Preparer_one_names h ht
  obtain ⟨j1, j2, j3, j4, _⟩ := Preparer_one_names h ht2
  obtain ⟨_, _, _, _, _, _, _, _, _, _, hvalid, _⟩ := Preparer_one_ok h
  refine ⟨k3, k4, ?_, ?_⟩
  · intro hne hc
    rw [k1, k2, j1, j2] at hc
    simp only [Prod.mk.injEq, Nat.cast_inj] at hc
    exact hne (by rw [hc.1, hc.2])
  · intro hne
    constructor
    · intro hc
      rw [k3, j3] at hc
      obtain ⟨e1, e2⟩ := coordString_injective (replaceFirst_injective hvalid.2 hc)
      exact hne (by rw [e1, e2])
    · intro hs hc
      rw [k4 hs, j4 hs] at hc
      have hcont : contains r "%n" = true := by
        rcases hvalid.1 with h1 | h1
        · rw [hs] at h1
          cases h1
        · exact h1
      obtain ⟨e1, e2⟩ := coordString_injective (replaceFirst_injective hcont hc)
      exact hne (by rw [e1, e2])

theorem C26_witness :
    ∃ t t2, grid2 exOneTiles 0 0 = some t ∧ grid2 exOneTiles 0 1 = some t2 ∧
      t.outputname ≠ t2.outputname :=
  ⟨_, _, rfl, rfl,
    ((C26_one_mode_names_distinct exProbe (fun _ => []) exBits "@evict" "in.tif" "out%n.tif"
      "cmd" 150 (-1) 1 1 exOneTiles exOne_eq 0 0 0 1 _ _ rfl rfl).2.2.2 (by decide)).1⟩

/-! ## The tile flood kernel: neighbours and the queue -/

theorem mem_neighbours {w h x y : Nat} (n : Nat × Nat) :
    n ∈ neighbours w h x y ↔ n.1 < w ∧ n.2 < h ∧ Adjacent8 x y n.1 n.2 := by
  obtain ⟨nx, ny⟩ := n
  unfold neighbours Adjacent8
  simp only [List.mem_filterMap]
  constructor
  · rintro ⟨d, hd, hval⟩
    simp only [nbrOffsets, List.mem_cons, List.mem_singleton, List.not_mem_nil, or_false] at hd
    split_ifs at hval with hc
    simp only [Option.some.injEq, Prod.mk.injEq] at hval
    obtain ⟨h1, h2⟩ := hval
    rcases hd with rfl | rfl | rfl | rfl | rfl | rfl | rfl | rfl <;>
      simp only at hc h1 h2 <;> omega
  · rintro ⟨h1, h2, a1, a2, a3, a4, a5⟩
    refine ⟨((nx : Int) - x, (ny : Int) - y), ?_, ?_⟩
    · have hx : ((nx : Int) - x = -1 ∨ (nx : Int) - x = 0 ∨ (nx : Int) - x = 1) := by omega
      have hy : ((ny : Int) - y = -1 ∨ (ny : Int) - y = 0 ∨ (ny : Int) - y = 1) := by omega
      have hne : ¬ ((nx : Int) - x = 0 ∧ (ny : Int) - y = 0) := by omega
      simp only [nbrOffsets, List.mem_cons, List.mem_singleton, Prod.mk.injEq, List.not_mem_nil,
        or_false]
      rcases hx with hx | hx | hx <;> rcases hy with hy | hy | hy <;>
        simp only [hx, hy] at hne ⊢ <;> simp at hne ⊢
    · simp only
      rw [if_pos (by omega)]
      simp only [Option.some.injEq, Prod.mk.injEq]
      omega

theorem lowestCell_mem : ∀ (q : List QueueCell) (c : QueueCell), lowestCell q = some c → c ∈ q := by
  intro q
  induction q with
  | nil => intro c h; cases h
  | cons a rest ih =>
    intro c h
    unfold lowestCell at h
    cases hr : lowestCell rest with
    | none =>
      rw [hr] at h
      cases h
      exact List.mem_cons_self _ _
    | some b =>
      rw [hr] at h
      simp only at h
      split_ifs at h
      · cases h
        exact List.mem_cons_self _ _
      · cases h
        exact List.mem_cons_of_mem _ (ih _ hr)

theorem lowestCell_isSome {q : List QueueCell} (h : q ≠ []) : ∃ c, lowestCell q = some c := by
  cases q with
  | nil => exact absurd rfl h
  | cons a rest =>
    unfold lowestCell
    cases lowestCell rest with
    | none => exact ⟨a, rfl⟩
    | some b =>
      simp only
      split_ifs
      · exact ⟨a, rfl⟩
      · exact ⟨b, rfl⟩

theorem mem_gridCells {w h : Nat} (c : Nat × Nat) : c ∈ gridCells w h ↔ c.1 < w ∧ c.2 < h := by
  obtain ⟨x, y⟩ := c
  unfold gridCells
  simp only [List.mem_flatMap, List.mem_range, List.mem_map, Prod.mk.injEq]
  constructor
  · rintro ⟨y2, hy2, x2, hx2, rfl, rfl⟩
    exact ⟨hx2, hy2⟩
  · rintro ⟨hx, hy⟩
    exact ⟨y, hy, x, hx, rfl, rfl⟩

/-! ## Entries of a graph under writes -/

theorem mapSet_sorted {m : EdgeMap} (k : Nat) (v : Int)
    (h : m.Pairwise (fun p q => p.1 < q.1)) :
    (mapSet m k v).Pairwise (fun p q => p.1 < q.1) := by
  induction m with
  | nil => simp [mapSet]
  | cons q rest ih =>
    obtain ⟨k2, v2⟩ := q
    rw [List.pairwise_cons] at h
    unfold mapSet
    split_ifs with h1 h2
    · rw [List.pairwise_cons]
      refine ⟨?_, List.pairwise_cons.mpr h⟩
      intro p hp
      rcases List.mem_cons.mp hp with h3 | h3
      · rw [h3]
        exact h1
      · exact lt_trans h1 (h.1 p h3)
    · rw [List.pairwise_cons]
      refine ⟨?_, h.2⟩
      intro p hp
      rw [h2]
      exact h.1 p hp
    · rw [List.pairwise_cons]
      refine ⟨?_, ih h.2⟩
      intro p hp
      rcases mem_mapSet hp with h3 | h3
      · rw [h3]
        show k2 < k
        omega
      · exact h.1 p h3

/-- The entries after a write: the old ones and the new one. -/
theorem graphSet_entries {g g2 : Graph} {a b : Nat} {w : Int} (h : graphSet g a b w = some g2)
    {i : Nat} {p : Nat × Int} (hp : IsEntry g2 i p) :
    IsEntry g i p ∨ (i = a ∧ p = (b, w)) := by
  unfold graphSet at h
  cases hm : g[a]? with
  | none => rw [hm] at h; cases h
  | some m =>
    rw [hm] at h
    cases h
    obtain ⟨em, hem, hmem⟩ := hp
    by_cases hi : i = a
    · subst hi
      have hlt : i < g.length := (List.getElem?_eq_some_iff.mp hm).1
      rw [List.getElem?_set_self hlt] at hem
      cases hem
      rcases mem_mapSet hmem with h1 | h1
      · exact Or.inr ⟨rfl, h1⟩
      · exact Or.inl ⟨m, hm, h1⟩
    · rw [List.getElem?_set_ne (fun hc => hi hc.symm)] at hem
      exact Or.inl ⟨em, hem, hmem⟩

theorem graphSet_sorted {g g2 : Graph} {a b : Nat} {w : Int} (hs : MapsSorted g)
    (h : graphSet g a b w = some g2) : MapsSorted g2 := by
  unfold graphSet at h
  cases hm : g[a]? with
  | none => rw [hm] at h; cases h
  | some m =>
    rw [hm] at h
    cases h
    intro em hem
    rcases List.mem_or_eq_of_mem_set hem with h1 | h1
    · exact hs em h1
    · rw [h1]
      exact mapSet_sorted b w (hs m (List.getElem?_mem hm))

theorem graphSetBoth_entries {g g2 : Graph} {a b : Nat} {w : Int}
    (h : graphSetBoth g a b w = some g2) {i : Nat} {p : Nat × Int} (hp : IsEntry g2 i p) :
    IsEntry g i p ∨ (i = a ∧ p = (b, w)) ∨ (i = b ∧ p = (a, w)) := by
  unfold graphSetBoth at h
  cases h1 : graphSet g a b w with
  | none => rw [h1] at h; cases h
  | some g1 =>
    rw [h1] at h
    simp only [Option.some_bind] at h
    rcases graphSet_entries h hp with k1 | k1
    · rcases graphSet_entries h1 k1 with k2 | k2
      · exact Or.inl k2
      · exact Or.inr (Or.inl k2)
    · exact Or.inr (Or.inr k1)

theorem graphSetBoth_sorted {g g2 : Graph} {a b : Nat} {w : Int} (hs : MapsSorted g)
    (h : graphSetBoth g a b w = some g2) : MapsSorted g2 := by
  unfold graphSetBoth at h
  cases h1 : graphSet g a b w with
  | none => rw [h1] at h; cases h
  | some g1 =>
    rw [h1] at h
    simp only [Option.some_bind] at h
    exact graphSet_sorted (graphSet_sorted hs h1) h

theorem upsertMin_entries {g g2 : Graph} {a b : Nat} {w : Int}
    (h : upsertMin g a b w = some g2) {i : Nat} {p : Nat × Int} (hp : IsEntry g2 i p) :
    IsEntry g i p ∨ (i = a ∧ p = (b, w)) ∨ (i = b ∧ p = (a, w)) := by
  rcases (upsertMin_cases h).2 with ⟨rfl, _⟩ | ⟨hb, _⟩
  · exact Or.inl hp
  · exact graphSetBoth_entries hb hp

theorem upsertMin_sorted {g g2 : Graph} {a b : Nat} {w : Int} (hs : MapsSorted g)
    (h : upsertMin g a b w = some g2) : MapsSorted g2 := by
  rcases (upsertMin_cases h).2 with ⟨rfl, _⟩ | ⟨hb, _⟩
  · exact hs
  · exact graphSetBoth_sorted hs hb

/-- A property of the entries that every new entry has passes through a guarded
upsert. -/
theorem upsertMin_sound (R : Nat → Nat → Int → Prop) {g g2 : Graph} {a b : Nat} {w : Int}
    (hg : ∀ i p, IsEntry g i p → R i p.1 p.2) (hab : R a b w) (hba : R b a w)
    (h : upsertMin g a b w = some g2) : ∀ i p, IsEntry g2 i p → R i p.1 p.2 := by
  intro i p hp
  rcases upsertMin_entries h hp with k | ⟨rfl, rfl⟩ | ⟨rfl, rfl⟩
  · exact hg i p k
  · exact hab
  · exact hba

theorem graphSetBoth_sound (R : Nat → Nat → Int → Prop) {g g2 : Graph} {a b : Nat} {w : Int}
    (hg : ∀ i p, IsEntry g i p → R i p.1 p.2) (hab : R a b w) (hba : R b a w)
    (h : graphSetBoth g a b w = some g2) : ∀ i p, IsEntry g2 i p → R i p.1 p.2 := by
  intro i p hp
  rcases graphSetBoth_entries h hp with k | ⟨rfl, rfl⟩ | ⟨rfl, rfl⟩
  · exact hg i p k
  · exact hab
  · exact hba

/-! ## The tile flood kernel: invariants -/

theorem Descends.label {D : Array2D Int} {L : Array2D Nat} {l : Nat} {c s : Nat × Nat}
    (h : Descends D L l c s) : L.get c.1 c.2 = some l := by
  cases h with
  | here h1 _ => exact h1
  | step _ h1 _ _ _ _ => exact h1

theorem Descends.congr {D D2 : Array2D Int} {L L2 : Array2D Nat} {l : Nat}
    (hk : ∀ x y, L.get x y = some l → L2.get x y = some l ∧ D2.get x y = D.get x y)
    {c s : Nat × Nat} (h : Descends D L l c s) : Descends D2 L2 l c s := by
  induction h with
  | here h1 h2 =>
    exact Descends.here (hk _ _ h1).1 (by rw [(hk _ _ h1).2]; exact h2)
  | step ha h1 h2 h3 h4 hrest ih =>
    exact Descends.step ha (hk _ _ h1).1 (by rw [(hk _ _ h1).2]; exact h2)
      (by rw [(hk _ _ hrest.label).2]; exact h3) h4 ih

theorem Extends.descends {s s2 : KernelState} (he : Extends s s2) {l : Nat} (hl : 1 ≤ l)
    {c sd : Nat × Nat} (h : Descends s.dem s.labels l c sd) :
    Descends s2.dem s2.labels l c sd :=
  Descends.congr (fun x y hxy => he x y l hl hxy) h

theorem Extends.realised {s s2 : KernelState} (he : Extends s s2) {a b : Nat} {w : Int}
    (h : EdgeRealised s.dem s.labels a b w) : EdgeRealised s2.dem s2.labels a b w := by
  obtain ⟨c, n, e, e2, hadj, h1, h2, ha, hb, h3, h4, h5, h6⟩ := h
  exact ⟨c, n, e, e2, hadj, (he _ _ a ha h1).1, (he _ _ b hb h2).1, ha, hb,
    by rw [(he _ _ a ha h1).2]; exact h3, by rw [(he _ _ b hb h2).2]; exact h4, h5, h6⟩

theorem Extends.refl_ext (s : KernelState) : Extends s s :=
  fun _ _ _ _ h => ⟨h, rfl⟩

theorem Extends.trans_ext {s s2 s3 : KernelState} (h1 : Extends s s2) (h2 : Extends s2 s3) :
    Extends s s3 := by
  intro x y l hl h
  obtain ⟨a1, a2⟩ := h1 x y l hl h
  obtain ⟨b1, b2⟩ := h2 x y l hl a1
  exact ⟨b1, b2.trans a2⟩

/-- A cell without label gets the label `l` and the elevation `v` and is pushed: the
invariant is kept when the cell is an outer side cell with `l = 1`, or `l` is a fresh
label, or a neighbour that is not higher than `v` has the label `l`. -/
theorem KCore.label_cell {top bottom left right : Bool} {W H : Nat} {s s2 : KernelState}
    (hs : KCore top bottom left right W H s) (n : Nat × Nat) (l : Nat) (v : Int)
    (hn0 : s.labels.get n.1 n.2 = some 0)
    (hL : ∀ x y, s2.labels.get x y = if x = n.1 ∧ y = n.2 then some l else s.labels.get x y)
    (hD : ∀ x y, s2.dem.get x y = if x = n.1 ∧ y = n.2 then some v else s.dem.get x y)
    (hdw : s2.dem.width = W) (hdh : s2.dem.height = H) (hdwf : s2.dem.WellFormed)
    (hlw : s2.labels.width = W) (hlh : s2.labels.height = H) (hlwf : s2.labels.WellFormed)
    (hq : s2.openq = s.openq ++ [{ z := v, k := s.pushed, x := n.1, y := n.2 }])
    (hg : s2.graph = s.graph) (hl1 : 1 ≤ l) (hcur : l < s2.current_label)
    (hcur2 : s.current_label ≤ s2.current_label) (hglen : s2.current_label ≤ s2.graph.length)
    (hj : (l = 1 ∧ onOuter top bottom left right W H n.1 n.2 = true) ∨
      (2 ≤ l ∧ s.current_label ≤ l) ∨
      (∃ (c : Nat × Nat) (ec : Int), Adjacent8 n.1 n.2 c.1 c.2 ∧ s.labels.get c.1 c.2 = some l ∧
        s.dem.get c.1 c.2 = some ec ∧ ec ≤ v)) :
    KCore top bottom left right W H s2 ∧ Extends s s2 := by
  have hne : ∀ x y l0, 1 ≤ l0 → s.labels.get x y = some l0 → ¬ (x = n.1 ∧ y = n.2) := by
    rintro x y l0 hl0 hxy ⟨rfl, rfl⟩
    rw [hn0] at hxy
    cases hxy
    omega
  have hext : Extends s s2 := by
    intro x y l0 hl0 hxy
    have := hne x y l0 hl0 hxy
    rw [hL, hD, if_neg this, if_neg this]
    exact ⟨hxy, rfl⟩
  have hLn : s2.labels.get n.1 n.2 = some l := by rw [hL, if_pos ⟨rfl, rfl⟩]
  have hDn : s2.dem.get n.1 n.2 = some v := by rw [hD, if_pos ⟨rfl, rfl⟩]
  have hold : ∀ x y l0, 1 ≤ l0 → s2.labels.get x y = some l0 → ¬ (x = n.1 ∧ y = n.2) →
      s.labels.get x y = some l0 := by
    intro x y l0 _ hxy hc
    rw [hL, if_neg hc] at hxy
    exact hxy
  -- the chain of the new cell through a neighbour of the same label
  have hpar : ∀ (c : Nat × Nat) (ec : Int) (sd : Nat × Nat),
      Adjacent8 n.1 n.2 c.1 c.2 → s.labels.get c.1 c.2 = some l → s.dem.get c.1 c.2 = some ec →
      ec ≤ v → Descends s.dem s.labels l c sd → Descends s2.dem s2.labels l n sd := by
    intro c ec sd hadj hc hec hle hd
    refine Descends.step hadj hLn hDn ?_ hle (hext.descends hl1 hd)
    rw [(hext _ _ l hl1 hc).2]
    exact hec
  refine ⟨?_, hext⟩
  refine
    { dem_w := hdw, dem_h := hdh, dem_wf := hdwf, lab_w := hlw, lab_h := hlh, lab_wf := hlwf
      cur := le_trans hs.cur hcur2
      glen := hglen
      lab_lt := ?_, queue := ?_, drains := ?_, seeds := ?_, sound := ?_
      sym := by rw [hg]; exact hs.sym
      sorted := by rw [hg]; exact hs.sorted }
  · intro x y l0 hxy
    rw [hL] at hxy
    split_ifs at hxy with hc
    · cases hxy
      exact hcur
    · exact lt_of_lt_of_le (hs.lab_lt x y l0 hxy) hcur2
  · intro c hc
    rw [hq] at hc
    rcases List.mem_append.mp hc with h1 | h1
    · obtain ⟨l0, hl0, k1, k2⟩ := hs.queue c h1
      exact ⟨l0, hl0, (hext _ _ l0 hl0 k1).1, by rw [(hext _ _ l0 hl0 k1).2]; exact k2⟩
    · rw [List.mem_singleton.mp h1]
      exact ⟨l, hl1, hLn, hDn⟩
  · intro x y hxy
    by_cases hc : x = n.1 ∧ y = n.2
    · have hl : l = 1 := by
        rw [hc.1, hc.2, hLn] at hxy
        exact Option.some.inj hxy
      have hxy2 : (x, y) = n := by rw [hc.1, hc.2]
      rw [hxy2]
      rcases hj with ⟨_, ho⟩ | ⟨h2, _⟩ | ⟨c, ec, hadj, hcl, hec, hle⟩
      · exact ⟨n, ho, by rw [← hl]; exact Descends.here hLn hDn⟩
      · omega
      · rw [hl] at hcl
        obtain ⟨sd, hsd, hd⟩ := hs.drains c.1 c.2 hcl
        refine ⟨sd, hsd, ?_⟩
        have := hpar c ec sd hadj (by rw [hl]; exact hcl) hec hle (by rw [hl]; exact hd)
        rw [hl] at this
        exact this
    · obtain ⟨sd, hsd, hd⟩ := hs.drains x y (hold x y 1 (le_refl 1) hxy hc)
      exact ⟨sd, hsd, hext.descends (le_refl 1) hd⟩
  · intro l0 hl0
    by_cases hll : l0 = l
    · subst hll
      rcases hj with ⟨h1, _⟩ | ⟨_, hfresh⟩ | ⟨c, ec, hadj, hcl, hec, hle⟩
      · omega
      · refine ⟨n, ?_⟩
        intro x y hxy
        by_cases hc : x = n.1 ∧ y = n.2
        · have hxy2 : (x, y) = n := by rw [hc.1, hc.2]
          rw [hxy2]
          exact Descends.here hLn hDn
        · have := hs.lab_lt x y l0 (hold x y l0 hl1 hxy hc)
          omega
      · obtain ⟨sd, hsd⟩ := hs.seeds l0 hl0
        refine ⟨sd, ?_⟩
        intro x y hxy
        by_cases hc : x = n.1 ∧ y = n.2
        · have hxy2 : (x, y) = n := by rw [hc.1, hc.2]
          rw [hxy2]
          exact hpar c ec sd hadj hcl hec hle (hsd c.1 c.2 hcl)
        · exact hext.descends hl1 (hsd x y (hold x y l0 hl1 hxy hc))
    · obtain ⟨sd, hsd⟩ := hs.seeds l0 hl0
      refine ⟨sd, ?_⟩
      intro x y hxy
      have hc : ¬ (x = n.1 ∧ y = n.2) := by
        rintro ⟨rfl, rfl⟩
        rw [hLn] at hxy
        exact hll (Option.some.inj hxy).symm
      exact hext.descends (by omega) (hsd x y (hold x y l0 (by omega) hxy hc))
  · intro i p hp
    rw [hg] at hp
    exact hext.realised (hs.sound i p hp)

/-- The graph gets an edge between the labels of two neighbouring cells, of a weight
that neither cell exceeds: the invariant is kept. -/
theorem KCore.add_edge {top bottom left right : Bool} {W H : Nat} {s : KernelState}
    (hs : KCore top bottom left right W H s) {a b : Nat} {w : Int} {g : Graph}
    (hr : EdgeRealised s.dem s.labels a b w) (hr2 : EdgeRealised s.dem s.labels b a w)
    (h : upsertMin s.graph a b w = some g) :
    KCore top bottom left right W H { s with graph := g } :=
  { dem_w := hs.dem_w, dem_h := hs.dem_h, dem_wf := hs.dem_wf, lab_w := hs.lab_w
    lab_h := hs.lab_h, lab_wf := hs.lab_wf, cur := hs.cur, lab_lt := hs.lab_lt
    glen := by rw [upsertMin_length h]; exact hs.glen
    queue := hs.queue, drains := hs.drains, seeds := hs.seeds
    sound := upsertMin_sound (EdgeRealised s.dem s.labels) hs.sound hr hr2 h
    sym := upsertMin_symmetric hs.sym h
    sorted := upsertMin_sorted hs.sorted h }

theorem EdgeRealised.swap_ends {D : Array2D Int} {L : Array2D Nat} {a b : Nat} {w : Int}
    (h : EdgeRealised D L a b w) : EdgeRealised D L b a w := by
  obtain ⟨c, n, e, e2, hadj, h1, h2, ha, hb, h3, h4, h5, h6⟩ := h
  refine ⟨n, c, e2, e, ?_, h2, h1, hb, ha, h4, h3, h6, h5⟩
  unfold Adjacent8 at hadj ⊢
  omega

/-! ## The tile flood kernel: one pop -/

theorem foldlM_total_each {σ α : Type} (P : σ → Prop) (Q : α → σ → Prop)
    (f : σ → α → Option σ) :
    ∀ (l : List α) (s : σ), P s →
      (∀ a u, a ∈ l → P u → ∃ v, f u a = some v ∧ P v ∧ Q a v) →
      (∀ a b u v, b ∈ l → P u → Q a u → f u b = some v → Q a v) →
      ∃ t, l.foldlM f s = some t ∧ P t ∧ ∀ a, a ∈ l → Q a t := by
  intro l
  induction l with
  | nil =>
    intro s hs _ _
    exact ⟨s, rfl, hs, fun a ha => absurd ha (List.not_mem_nil a)⟩
  | cons b rest ih =>
    intro s hs hstep hkeep
    obtain ⟨v, hv, hPv, hQv⟩ := hstep b s (List.mem_cons_self _ _) hs
    -- the fold over the rest keeps `P`, `Q` of its elements, and `Q b`
    obtain ⟨t, ht, hPt, hQt⟩ := ih v hPv
      (fun a u ha hu => hstep a u (List.mem_cons_of_mem _ ha) hu)
      (fun a c u w hc hu hq hw => hkeep a c u w (List.mem_cons_of_mem _ hc) hu hq hw)
    have hb : Q b t := by
      have key := foldlM_inv (fun u => P u ∧ Q b u) f rest v t ⟨hPv, hQv⟩
        (fun a u w ha hu hw => by
          obtain ⟨w2, hw2, hPw, _⟩ := hstep a u (List.mem_cons_of_mem _ ha) hu.1
          rw [hw] at hw2
          cases hw2
          exact ⟨hPw, hkeep b a u w (List.mem_cons_of_mem _ ha) hu.1 hu.2 hw⟩) ht
      exact key.2
    refine ⟨t, ?_, hPt, ?_⟩
    · simp only [List.foldlM_cons, hv, Option.bind_eq_bind, Option.some_bind]
      exact ht
    · intro a ha
      rcases List.mem_cons.mp ha with rfl | h1
      · exact hb
      · exact hQt a h1

theorem Array2D.get_set {α : Type} (a : Array2D α) (x y : Nat) (v e : α)
    (h : a.get x y = some e) (x2 y2 : Nat) :
    (a.set x y v).get x2 y2 = if x2 = x ∧ y2 = y then some v else a.get x2 y2 := by
  by_cases hc : x2 = x ∧ y2 = y
  · rw [if_pos hc, hc.1, hc.2]
    exact Array2D.get_set_self a x y v e h
  · rw [if_neg hc]
    exact Array2D.get_set_other a x y x2 y2 v (Array2D.get_lt h).1 hc

theorem Array2D.set_wellFormed {α : Type} {a : Array2D α} (hw : a.WellFormed) (x y : Nat)
    (v : α) : (a.set x y v).WellFormed := by
  unfold Array2D.WellFormed Array2D.set at *
  simp only [List.length_set]
  exact hw

theorem count_set_zero : ∀ (l : List Nat) (i v : Nat), l[i]? = some 0 → v ≠ 0 →
    (l.set i v).count 0 + 1 = l.count 0 := by
  intro l
  induction l with
  | nil => intro i v h; simp at h
  | cons a rest ih =>
    intro i v h hv
    cases i with
    | zero =>
      simp only [List.getElem?_cons_zero, Option.some.injEq] at h
      subst h
      simp only [List.set_cons_zero, List.count_cons, beq_self_eq_true, if_true]
      have : (v == 0) = false := by simpa using hv
      rw [this]
      simp
    | succ j =>
      simp only [List.getElem?_cons_succ] at h
      simp only [List.set_cons_succ, List.count_cons]
      have := ih j v h hv
      omega

theorem Array2D.count_zero_set (a : Array2D Nat) (x y v : Nat) (h : a.get x y = some 0)
    (hv : v ≠ 0) : (a.set x y v).data.count 0 + 1 = a.data.count 0 := by
  unfold Array2D.get at h
  split_ifs at h
  exact RichDEM.count_set_zero a.data (y * a.width + x) v h hv

theorem Grows.rfl_grows (s : KernelState) : Grows s s :=
  ⟨Extends.refl_ext s, fun _ _ _ h => h, rfl⟩

theorem Grows.trans_grows {s s2 s3 : KernelState} (h1 : Grows s s2) (h2 : Grows s2 s3) :
    Grows s s3 :=
  ⟨h1.1.trans_ext h2.1, fun a b w h => h2.2.1 a b w (h1.2.1 a b w h), h2.2.2.trans h1.2.2⟩

theorem NbrClosed.grow {s s2 : KernelState} (hg : Grows s s2) {lc : Nat} {n : Nat × Nat}
    (h : NbrClosed s lc n) : NbrClosed s2 lc n := by
  obtain ⟨ln, h1, h2, h3⟩ := h
  refine ⟨ln, h1, (hg.1 _ _ ln h1 h2).1, ?_⟩
  intro hne
  obtain ⟨w, hw⟩ := h3 hne
  exact ⟨w, hg.2.1 _ _ _ hw⟩

theorem DoneClosed.grow_done {W H : Nat} {s s2 : KernelState} (hg : Grows s s2)
    {done : List (Nat × Nat)} (h : DoneClosed W H s done) : DoneClosed W H s2 done := by
  intro c hc
  obtain ⟨lc, h1, h2, h3⟩ := h c hc
  exact ⟨lc, h1, (hg.1 _ _ lc h1 h2).1, fun n hn => (h3 n hn).grow hg⟩

/-- The visit of one neighbour of the popped cell returns, keeps the invariant and the
measure, and deals with the neighbour. -/
theorem visitNeighbour_spec {top bottom left right : Bool} {W H : Nat}
    {done : List (Nat × Nat)} {p : Nat × Nat} {lc : Nat} {z : Int} {u : KernelState}
    (hu : KMid top bottom left right W H done p lc z u) {n : Nat × Nat}
    (hn : n ∈ neighbours W H p.1 p.2) :
    ∃ v, visitNeighbour z lc u n = some v ∧ KMid top bottom left right W H done p lc z v ∧
      Grows u v ∧ NbrClosed v lc n ∧ kernelMeasure v = kernelMeasure u := by
  obtain ⟨hnx, hny, hadj⟩ := (mem_neighbours n).mp hn
  have hc := hu.core
  obtain ⟨ln, hln⟩ := Option.isSome_iff_exists.mp
    (Array2D.get_isSome hc.lab_wf (by rw [hc.lab_w]; exact hnx) (by rw [hc.lab_h]; exact hny))
  obtain ⟨e, he⟩ := Option.isSome_iff_exists.mp
    (Array2D.get_isSome hc.dem_wf (by rw [hc.dem_w]; exact hnx) (by rw [hc.dem_h]; exact hny))
  have hadj2 : Adjacent8 n.1 n.2 p.1 p.2 := by
    unfold Adjacent8 at hadj ⊢
    omega
  unfold visitNeighbour
  rw [hln, he]
  simp only
  by_cases h0 : ln = 0
  · rw [if_pos h0]
    subst h0
    refine ⟨_, rfl, ?_⟩
    have key : KCore top bottom left right W H
        { u with labels := u.labels.set n.1 n.2 lc, dem := u.dem.set n.1 n.2 (max z e),
                 openq := u.openq ++ [{ z := max z e, k := u.pushed, x := n.1, y := n.2 }],
                 pushed := u.pushed + 1 } ∧
        Extends u
        { u with labels := u.labels.set n.1 n.2 lc, dem := u.dem.set n.1 n.2 (max z e),
                 openq := u.openq ++ [{ z := max z e, k := u.pushed, x := n.1, y := n.2 }],
                 pushed := u.pushed + 1 } :=
      KCore.label_cell hc n lc (max z e) hln
        (fun x y => Array2D.get_set u.labels n.1 n.2 lc 0 hln x y)
        (fun x y => Array2D.get_set u.dem n.1 n.2 (max z e) e he x y)
        hc.dem_w hc.dem_h (Array2D.set_wellFormed hc.dem_wf _ _ _)
        hc.lab_w hc.lab_h (Array2D.set_wellFormed hc.lab_wf _ _ _)
        rfl rfl hu.pos (hc.lab_lt _ _ _ hu.lab) (le_refl _) hc.glen
        (Or.inr (Or.inr ⟨p, z, hadj2, hu.lab, hu.elev, le_max_left _ _⟩))
    obtain ⟨hcore, hext⟩ := key
    have hgrow : Grows u _ := ⟨hext, fun _ _ _ h => h, rfl⟩
    have hLn := Array2D.get_set u.labels n.1 n.2 lc 0 hln n.1 n.2
    rw [if_pos ⟨rfl, rfl⟩] at hLn
    refine ⟨?_, hgrow, ⟨lc, hu.pos, hLn, fun h => absurd rfl h⟩, ?_⟩
    · refine
        { core := hcore, pending := ?_, closed := hu.closed.grow_done hgrow
          lab := (hext _ _ lc hu.pos hu.lab).1
          elev := by rw [(hext _ _ lc hu.pos hu.lab).2]; exact hu.elev
          pos := hu.pos }
      intro x y l hl hxy
      have hxy2 := hxy
      simp only at hxy2
      rw [Array2D.get_set u.labels n.1 n.2 lc 0 hln x y] at hxy2
      split_ifs at hxy2 with hcase
      · left
        refine ⟨{ z := max z e, k := u.pushed, x := n.1, y := n.2 }, ?_, hcase.1.symm,
          hcase.2.symm⟩
        simp only [List.mem_append, List.mem_singleton, or_true]
      · rcases hu.pending x y l hl hxy2 with ⟨c, hcq, hcx, hcy⟩ | hd
        · left
          exact ⟨c, List.mem_append_left _ hcq, hcx, hcy⟩
        · right
          exact hd
    · unfold kernelMeasure
      simp only [List.length_append, List.length_singleton]
      have := Array2D.count_zero_set u.labels n.1 n.2 lc hln (by have := hu.pos; omega)
      omega
  · rw [if_neg h0]
    by_cases h1 : ln = lc
    · rw [if_pos h1]
      exact ⟨u, rfl, hu, Grows.rfl_grows u, ⟨ln, by omega, hln, fun h => absurd h1 h⟩, rfl⟩
    · rw [if_neg h1]
      have hlc := hc.lab_lt _ _ _ hu.lab
      have hlnlt := hc.lab_lt _ _ _ hln
      obtain ⟨g, hg⟩ := upsertMin_isSome (max z e) (lt_of_lt_of_le hlc hc.glen)
        (lt_of_lt_of_le hlnlt hc.glen)
      rw [hg]
      refine ⟨_, rfl, ?_⟩
      have hreal : EdgeRealised u.dem u.labels lc ln (max z e) :=
        ⟨p, n, z, e, hadj, hu.lab, hln, hu.pos, by omega, hu.elev, he, le_max_left _ _,
          le_max_right _ _⟩
      have hcore := hc.add_edge hreal hreal.swap_ends hg
      have hgrow : Grows u { u with graph := g } :=
        ⟨fun _ _ _ _ h => ⟨h, rfl⟩, fun a b w h => upsertMin_edgeBelow hc.sym h hg,
          upsertMin_length hg⟩
      refine ⟨?_, hgrow, ⟨ln, by omega, hln, fun _ => ⟨max z e, upsertMin_establish hg⟩⟩, rfl⟩
      exact
        { core := hcore, pending := hu.pending, closed := hu.closed.grow_done hgrow
          lab := hu.lab, elev := hu.elev, pos := hu.pos }

/-- One pop of the tile flood returns, keeps the invariant with the popped cell added
to the cells done, and lowers the measure by one. -/
theorem kernelStep_spec {top bottom left right : Bool} {W H : Nat}
    {done : List (Nat × Nat)} {s : KernelState}
    (hs : KInv top bottom left right W H done s) (hq : s.openq ≠ []) :
    ∃ s2 p, kernelStep s = some s2 ∧ KInv top bottom left right W H (p :: done) s2 ∧
      Grows s s2 ∧ kernelMeasure s2 + 1 = kernelMeasure s := by
  obtain ⟨c, hc⟩ := lowestCell_isSome hq
  have hmem := lowestCell_mem _ _ hc
  obtain ⟨lc, hlc1, hlab, helev⟩ := hs.core.queue c hmem
  unfold kernelStep
  rw [hc]
  simp only
  rw [hlab]
  simp only
  rw [hs.core.dem_w, hs.core.dem_h]
  have hcore0 : KCore top bottom left right W H { s with openq := s.openq.erase c } :=
    { dem_w := hs.core.dem_w, dem_h := hs.core.dem_h, dem_wf := hs.core.dem_wf
      lab_w := hs.core.lab_w, lab_h := hs.core.lab_h, lab_wf := hs.core.lab_wf
      cur := hs.core.cur, glen := hs.core.glen, lab_lt := hs.core.lab_lt
      queue := fun c2 h2 => hs.core.queue c2 (List.mem_of_mem_erase h2)
      drains := hs.core.drains, seeds := hs.core.seeds, sound := hs.core.sound
      sym := hs.core.sym, sorted := hs.core.sorted }
  have hmid0 : KMid top bottom left right W H done (c.x, c.y) lc c.z
      { s with openq := s.openq.erase c } :=
    { core := hcore0
      pending := by
        intro x y l hl hxy
        rcases hs.pending x y l hl hxy with ⟨c2, hc2, hx2, hy2⟩ | hd
        · by_cases hcc : c2 = c
          · right
            rw [← hx2, ← hy2, hcc]
            exact List.mem_cons_self _ _
          · left
            exact ⟨c2, (List.mem_erase_of_ne hcc).mpr hc2, hx2, hy2⟩
        · right
          exact List.mem_cons_of_mem _ hd
      closed := hs.closed
      lab := hlab, elev := helev, pos := hlc1 }
  obtain ⟨t, ht, hPt, hQt⟩ := foldlM_total_each
    (fun u => KMid top bottom left right W H done (c.x, c.y) lc c.z u ∧
      Grows { s with openq := s.openq.erase c } u ∧
      kernelMeasure u = kernelMeasure { s with openq := s.openq.erase c })
    (fun n u => NbrClosed u lc n) (visitNeighbour c.z lc)
    (neighbours W H c.x c.y) { s with openq := s.openq.erase c }
    ⟨hmid0, Grows.rfl_grows _, rfl⟩
    (fun n u hn hu => by
      obtain ⟨v, hv, h1, h2, h3, h4⟩ := visitNeighbour_spec hu.1 hn
      exact ⟨v, hv, ⟨h1, hu.2.1.trans_grows h2, h4.trans hu.2.2⟩, h3⟩)
    (fun a b u v hb hu hqa hv => by
      obtain ⟨v2, hv2, _, h2, _, _⟩ := visitNeighbour_spec hu.1 hb
      rw [hv] at hv2
      cases hv2
      exact hqa.grow h2)
  refine ⟨t, (c.x, c.y), ht, ?_, ?_, ?_⟩
  · refine { core := hPt.1.core, pending := hPt.1.pending, closed := ?_ }
    intro c2 hc2
    rcases List.mem_cons.mp hc2 with rfl | h1
    · exact ⟨lc, hlc1, hPt.1.lab, fun n hn => hQt n hn⟩
    · exact hPt.1.closed c2 h1
  · exact ⟨fun x y l hl h => hPt.2.1.1 x y l hl h, fun a b w h => hPt.2.1.2.1 a b w h,
      hPt.2.1.2.2⟩
  · rw [hPt.2.2]
    unfold kernelMeasure
    simp only
    have := List.length_erase_of_mem hmem
    have hpos : 0 < s.openq.length := List.length_pos.mpr hq
    omega

/-- The loop of the tile flood returns when the fuel covers the measure; the queue is
then empty and the invariant holds. -/
theorem kernelLoop_spec {top bottom left right : Bool} {W H : Nat} :
    ∀ (fuel : Nat) (done : List (Nat × Nat)) (s : KernelState),
      KInv top bottom left right W H done s → kernelMeasure s ≤ fuel →
      ∃ s2 done2, kernelLoop fuel s = some s2 ∧ KInv top bottom left right W H done2 s2 ∧
        s2.openq = [] ∧ Grows s s2 := by
  intro fuel
  induction fuel with
  | zero =>
    intro done s hs hm
    have hnil : s.openq = [] := by
      unfold kernelMeasure at hm
      exact List.length_eq_zero.mp (by omega)
    refine ⟨s, done, ?_, hs, hnil, Grows.rfl_grows s⟩
    simp only [kernelLoop, hnil, List.isEmpty_nil, if_true]
  | succ fuel ih =>
    intro done s hs hm
    by_cases hnil : s.openq = []
    · refine ⟨s, done, ?_, hs, hnil, Grows.rfl_grows s⟩
      simp only [kernelLoop, hnil, List.isEmpty_nil, if_true]
    · obtain ⟨s1, p, h1, hinv1, hg1, hm1⟩ := kernelStep_spec hs hnil
      obtain ⟨s2, done2, h2, hinv2, hq2, hg2⟩ := ih (p :: done) s1 hinv1 (by omega)
      refine ⟨s2, done2, ?_, hinv2, hq2, hg1.trans_grows hg2⟩
      have : s.openq.isEmpty = false := by
        cases hq : s.openq with
        | nil => exact absurd hq hnil
        | cons _ _ => rfl
      simp only [kernelLoop, this, Bool.false_eq_true, if_false, h1, Option.some_bind]
      exact h2

/-! ## The tile flood kernel: seeding and the result -/

theorem foldlM_initial_total {σ α : Type} (f : σ → α → Option σ) :
    ∀ (l : List α) (P : List α → σ → Prop) (s : σ), P [] s →
      (∀ pre a u, (pre ++ [a]) <+: l → P pre u → ∃ v, f u a = some v ∧ P (pre ++ [a]) v) →
      ∃ t, l.foldlM f s = some t ∧ P l t := by
  intro l
  induction l with
  | nil =>
    intro P s hs _
    exact ⟨s, rfl, hs⟩
  | cons b rest ih =>
    intro P s hs hstep
    obtain ⟨v, hv, hPv⟩ := hstep [] b s (by simp) hs
    obtain ⟨t, ht, hPt⟩ := ih (fun pre u => P (b :: pre) u) v hPv
      (fun pre a u hpre hu => by
        have := hstep (b :: pre) a u (by simpa using hpre) hu
        simpa using this)
    refine ⟨t, ?_, hPt⟩
    simp only [List.foldlM_cons, hv, Option.bind_eq_bind, Option.some_bind]
    exact ht

theorem gridCells_nodup (w h : Nat) : (gridCells w h).Nodup := by
  unfold gridCells
  rw [List.nodup_flatMap]
  constructor
  · intro y _
    refine List.Nodup.map ?_ (List.nodup_range w)
    intro a b hab
    simp only [Prod.mk.injEq] at hab
    exact hab.1
  · refine List.Pairwise.imp_of_mem ?_ (List.nodup_range h)
    intro a b _ _ hab
    simp only [Function.onFun]
    intro c hc1 hc2
    simp only [List.mem_map, List.mem_range] at hc1 hc2
    obtain ⟨_, _, rfl⟩ := hc1
    obtain ⟨_, _, h2⟩ := hc2
    simp only [Prod.mk.injEq] at h2
    exact hab h2.2.symm

theorem mem_sideCells {w h : Nat} (c : Nat × Nat) :
    c ∈ sideCells w h ↔ c.1 < w ∧ c.2 < h ∧ onPerimeter w h c.1 c.2 = true := by
  unfold sideCells
  rw [List.mem_filter, mem_gridCells]
  tauto

theorem sideCells_nodup (w h : Nat) : (sideCells w h).Nodup :=
  (gridCells_nodup w h).filter _

theorem sideCells_length (W H : Nat) (hW : 1 ≤ W) (hH : 1 ≤ H) :
    (sideCells W H).length + 2 ≤ 2 * W + 2 * H := by
  have hsub : sideCells W H ⊆ sideCover W H := by
    intro c hc
    obtain ⟨x, y⟩ := c
    obtain ⟨hx, hy, hp⟩ := (mem_sideCells _).mp hc
    simp only [onPerimeter, Bool.or_eq_true, decide_eq_true_eq] at hp
    simp only [sideCover, List.mem_append, List.mem_map, List.mem_range, Prod.mk.injEq]
    by_cases h1 : y = 0
    · exact Or.inl (Or.inl (Or.inl ⟨x, hx, rfl, h1.symm⟩))
    · by_cases h2 : y + 1 = H
      · exact Or.inl (Or.inl (Or.inr ⟨x, hx, rfl, by omega⟩))
      · by_cases h3 : x = 0
        · exact Or.inl (Or.inr ⟨y - 1, by omega, h3.symm, by omega⟩)
        · exact Or.inr ⟨y - 1, by omega, by omega, by omega⟩
  have hlen := (List.subperm_of_subset (sideCells_nodup W H) hsub).length_le
  simp only [sideCover, List.length_append, List.length_map, List.length_range] at hlen
  omega

theorem onPerimeter_of_onOuter {top bottom left right : Bool} {W H x y : Nat}
    (h : onOuter top bottom left right W H x y = true) : onPerimeter W H x y = true := by
  simp only [onOuter, onPerimeter, Bool.or_eq_true, Bool.and_eq_true, decide_eq_true_eq] at h ⊢
  tauto

theorem Array2D.get_replicate {α : Type} (W H : Nat) (v : α) {x y : Nat} (hx : x < W)
    (hy : y < H) :
    (Array2D.mk W H (List.replicate (W * H) v)).get x y = some v := by
  unfold Array2D.get
  simp only
  rw [if_pos ⟨hx, hy⟩, List.getElem?_replicate, if_pos (index_lt hx hy)]

theorem mapsSorted_replicate (n : Nat) : MapsSorted (List.replicate n ([] : EdgeMap)) := by
  intro em hem
  rw [(List.mem_replicate.mp hem).2]
  exact List.Pairwise.nil

theorem isEntry_replicate {n i : Nat} {p : Nat × Int}
    (h : IsEntry (List.replicate n ([] : EdgeMap)) i p) : False := by
  obtain ⟨em, hem, hp⟩ := h
  rw [(List.mem_replicate.mp (List.getElem?_mem hem)).2] at hp
  cases hp

/-- The state before the seeding satisfies the invariant of the seeding. -/
theorem seedInv_init (top bottom left right : Bool) {W H : Nat} {dem : Array2D Int}
    (hW : 1 ≤ W) (hH : 1 ≤ H) (hw : dem.width = W) (hh : dem.height = H)
    (hwf : dem.WellFormed) :
    SeedInv top bottom left right W H []
      { dem := dem, labels := Array2D.mk W H (List.replicate (W * H) 0),
        graph := List.replicate (2 * W + 2 * H) [], openq := [], pushed := 0,
        current_label := 2 } := by
  have hget : ∀ x y l, (Array2D.mk W H (List.replicate (W * H) 0)).get x y = some l → l = 0 := by
    intro x y l h
    obtain ⟨hx, hy⟩ := Array2D.get_lt h
    rw [Array2D.get_replicate W H 0 hx hy] at h
    exact (Option.some.inj h).symm
  refine
    { core :=
        { dem_w := hw, dem_h := hh, dem_wf := hwf, lab_w := rfl, lab_h := rfl
          lab_wf := by simp [Array2D.WellFormed]
          cur := le_refl 2
          glen := by
            show 2 ≤ (List.replicate (2 * W + 2 * H) ([] : EdgeMap)).length
            rw [List.length_replicate]
            omega
          lab_lt := fun x y l h => by
            rw [hget x y l h]
            show 0 < 2
            omega
          queue := fun c hc => absurd hc (List.not_mem_nil c)
          drains := fun x y h => by have := hget x y 1 h; omega
          seeds := fun l hl => ⟨(0, 0), fun x y h => by have := hget x y l h; omega⟩
          sound := fun i p h => (isEntry_replicate h).elim
          sym := symmetric_replicate _
          sorted := mapsSorted_replicate _ }
      pending := fun x y l hl h => by have := hget x y l h; omega
      zero := fun x y hx hy _ => Array2D.get_replicate W H 0 hx hy
      lab := fun c hc => absurd hc (List.not_mem_nil c)
      outer := fun c hc => absurd hc (List.not_mem_nil c)
      cur := by simp
      measure := by simp [kernelMeasure]
      glen := by simp }

/-- Seeding one more side cell, with the label 1 when it lies on an outer side and
with a fresh label otherwise, keeps the invariant of the seeding. -/
theorem seedCell_spec {top bottom left right : Bool} {W H : Nat} {seeded : List (Nat × Nat)}
    {s : KernelState} (hs : SeedInv top bottom left right W H seeded s) (c : Nat × Nat)
    (hnd : (seeded ++ [c]).Nodup) (hsub : seeded ++ [c] ⊆ sideCells W H) (hW : 1 ≤ W)
    (hH : 1 ≤ H) (fresh : Bool)
    (hfresh : fresh = !onOuter top bottom left right W H c.1 c.2) :
    ∃ v, (if fresh then seedFresh s c else seedCell 1 s c) = some v ∧
      SeedInv top bottom left right W H (seeded ++ [c]) v := by
  have hcs : c ∈ sideCells W H := hsub (by simp)
  obtain ⟨hcx, hcy, _⟩ := (mem_sideCells c).mp hcs
  have hcn : c ∉ seeded := by
    intro h
    have := List.nodup_append.mp hnd
    exact this.2.2 h (List.mem_singleton_self c)
  have hc := hs.core
  obtain ⟨e, he⟩ := Option.isSome_iff_exists.mp
    (Array2D.get_isSome hc.dem_wf (by rw [hc.dem_w]; exact hcx) (by rw [hc.dem_h]; exact hcy))
  have hl0 := hs.zero c.1 c.2 hcx hcy hcn
  have hlen : (seeded ++ [c]).length + 2 ≤ 2 * W + 2 * H :=
    le_trans (Nat.add_le_add_right (List.subperm_of_subset hnd hsub).length_le 2)
      (sideCells_length W H hW hH)
  simp only [List.length_append, List.length_singleton] at hlen
  have hcur := hs.cur
  -- the common part: the cell gets the label `l`
  have main : ∀ (l cur2 : Nat), 1 ≤ l → l < cur2 → s.current_label ≤ cur2 →
      cur2 ≤ 2 + (seeded.length + 1) →
      ((l = 1 ∧ onOuter top bottom left right W H c.1 c.2 = true) ∨
        (2 ≤ l ∧ s.current_label ≤ l ∧ onOuter top bottom left right W H c.1 c.2 = false)) →
      SeedInv top bottom left right W H (seeded ++ [c])
        { s with labels := s.labels.set c.1 c.2 l,
                 openq := s.openq ++ [{ z := e, k := s.pushed, x := c.1, y := c.2 }],
                 pushed := s.pushed + 1, current_label := cur2 } := by
    intro l cur2 hl1 hlt hle hbound hj
    have hL := fun x y => Array2D.get_set s.labels c.1 c.2 l 0 hl0 x y
    have key : KCore top bottom left right W H
        { s with labels := s.labels.set c.1 c.2 l,
                 openq := s.openq ++ [{ z := e, k := s.pushed, x := c.1, y := c.2 }],
                 pushed := s.pushed + 1, current_label := cur2 } ∧
        Extends s
        { s with labels := s.labels.set c.1 c.2 l,
                 openq := s.openq ++ [{ z := e, k := s.pushed, x := c.1, y := c.2 }],
                 pushed := s.pushed + 1, current_label := cur2 } :=
      KCore.label_cell hc c l e hl0 hL
        (fun x y => by
          by_cases hxy : x = c.1 ∧ y = c.2
          · rw [if_pos hxy, hxy.1, hxy.2]
            exact he
          · rw [if_neg hxy])
        hc.dem_w hc.dem_h hc.dem_wf hc.lab_w hc.lab_h (Array2D.set_wellFormed hc.lab_wf _ _ _)
        rfl rfl hl1 hlt hle (by show cur2 ≤ s.graph.length; rw [hs.glen]; omega)
        (by
          rcases hj with h1 | h2
          · exact Or.inl h1
          · exact Or.inr (Or.inl ⟨h2.1, h2.2.1⟩))
    obtain ⟨hcore, hext⟩ := key
    have hLc : (s.labels.set c.1 c.2 l).get c.1 c.2 = some l := by
      rw [hL, if_pos ⟨rfl, rfl⟩]
    refine
      { core := hcore, pending := ?_, zero := ?_, lab := ?_, outer := ?_
        cur := by simpa using hbound
        measure := ?_, glen := hs.glen }
    · intro x y l2 hl2 hxy
      have hxy2 := hxy
      simp only at hxy2
      rw [hL] at hxy2
      split_ifs at hxy2 with hcase
      · left
        refine ⟨{ z := e, k := s.pushed, x := c.1, y := c.2 }, ?_, hcase.1.symm, hcase.2.symm⟩
        simp only [List.mem_append, List.mem_singleton, or_true]
      · rcases hs.pending x y l2 hl2 hxy2 with ⟨c2, hc2, hx2, hy2⟩ | hd
        · left
          exact ⟨c2, List.mem_append_left _ hc2, hx2, hy2⟩
        · exact absurd hd (List.not_mem_nil _)
    · intro x y hx hy hmem
      simp only [List.mem_append, List.mem_singleton, not_or] at hmem
      show (s.labels.set c.1 c.2 l).get x y = some 0
      rw [hL, if_neg (by
        rintro ⟨rfl, rfl⟩
        exact hmem.2 rfl)]
      exact hs.zero x y hx hy hmem.1
    · intro c2 hc2
      rcases List.mem_append.mp hc2 with h1 | h1
      · obtain ⟨l2, hl2, hlab2⟩ := hs.lab c2 h1
        exact ⟨l2, hl2, (hext _ _ l2 hl2 hlab2).1⟩
      · rw [List.mem_singleton.mp h1]
        exact ⟨l, hl1, hLc⟩
    · intro c2 hc2 ho
      rcases List.mem_append.mp hc2 with h1 | h1
      · exact (hext _ _ 1 (le_refl 1) (hs.outer c2 h1 ho)).1
      · rw [List.mem_singleton.mp h1] at ho ⊢
        rcases hj with ⟨h2, _⟩ | ⟨_, _, h3⟩
        · rw [← h2]
          exact hLc
        · rw [h3] at ho
          cases ho
    · have := Array2D.count_zero_set s.labels c.1 c.2 l hl0 (by omega)
      have hm := hs.measure
      unfold kernelMeasure at hm ⊢
      simp only [List.length_append, List.length_singleton]
      omega
  by_cases hout : onOuter top bottom left right W H c.1 c.2 = true
  · have hf : fresh = false := by rw [hfresh, hout]; rfl
    rw [hf]
    simp only [Bool.false_eq_true, if_false]
    unfold seedCell
    rw [he]
    refine ⟨_, rfl, ?_⟩
    exact main 1 s.current_label (le_refl 1) (by have := hc.cur; omega) (le_refl _) (by omega)
      (Or.inl ⟨rfl, hout⟩)
  · have hout2 : onOuter top bottom left right W H c.1 c.2 = false := by
      simpa using hout
    have hf : fresh = true := by rw [hfresh, hout2]; rfl
    rw [hf]
    simp only [if_true]
    unfold seedFresh seedCell
    rw [he]
    refine ⟨_, rfl, ?_⟩
    exact main s.current_label (s.current_label + 1) (by have := hc.cur; omega) (by omega)
      (by omega) (by omega) (Or.inr ⟨hc.cur, le_refl _, hout2⟩)

theorem isEntry_take {g : Graph} {n i : Nat} {p : Nat × Int} :
    IsEntry (g.take n) i p ↔ i < n ∧ IsEntry g i p := by
  unfold IsEntry
  rw [List.getElem?_take]
  by_cases h : i < n
  · rw [if_pos h]
    simp [h]
  · rw [if_neg h]
    simp [h]

theorem weight_take (g : Graph) (n a b : Nat) :
    weight (g.take n) a b = if a < n then weight g a b else none := by
  unfold weight
  rw [List.getElem?_take]
  by_cases h : a < n
  · rw [if_pos h, if_pos h]
  · rw [if_neg h, if_neg h]

theorem weight_isEntry {g : Graph} {a b : Nat} {w : Int} (h : weight g a b = some w) :
    IsEntry g a (b, w) := by
  unfold weight at h
  cases hm : g[a]? with
  | none => rw [hm] at h; cases h
  | some m =>
    rw [hm] at h
    exact ⟨m, hm, mapFind_some_mem h⟩

/-- The tile flood returns on a well-formed grid of at least one cell, started with
labels that are all 0 and a graph of `2 W + 2 H` empty maps, and leaves the tile
flooded. -/
theorem floodTile_spec (top bottom left right : Bool) {W H : Nat} {dem : Array2D Int}
    (hW : 1 ≤ W) (hH : 1 ≤ H) (hw : dem.width = W) (hh : dem.height = H)
    (hwf : dem.WellFormed) :
    ∃ D L G, floodTile top bottom left right dem (Array2D.mk W H (List.replicate (W * H) 0))
        (List.replicate (2 * W + 2 * H) []) = some (D, L, G) ∧
      TileFlooded top bottom left right W H D L G := by
  have hnd1 : ((sideCells W H).filter
      (fun c => onOuter top bottom left right W H c.1 c.2)).Nodup :=
    (sideCells_nodup W H).filter _
  have hnd2 : ((sideCells W H).filter
      (fun c => !onOuter top bottom left right W H c.1 c.2)).Nodup :=
    (sideCells_nodup W H).filter _
  have hnd : ((sideCells W H).filter (fun c => onOuter top bottom left right W H c.1 c.2) ++
      (sideCells W H).filter (fun c => !onOuter top bottom left right W H c.1 c.2)).Nodup := by
    refine List.Nodup.append hnd1 hnd2 ?_
    rw [List.disjoint_left]
    intro a ha hb
    have h1 := (List.mem_filter.mp ha).2
    have h2 := (List.mem_filter.mp hb).2
    simp only at h1 h2
    rw [h1] at h2
    cases h2
  have hsub : (sideCells W H).filter (fun c => onOuter top bottom left right W H c.1 c.2) ++
      (sideCells W H).filter (fun c => !onOuter top bottom left right W H c.1 c.2) ⊆
      sideCells W H := by
    intro a ha
    rcases List.mem_append.mp ha with h | h
    · exact (List.mem_filter.mp h).1
    · exact (List.mem_filter.mp h).1
  -- the seeding of the outer side cells
  obtain ⟨s1, hs1, hinv1⟩ := foldlM_initial_total (seedCell 1)
    ((sideCells W H).filter (fun c => onOuter top bottom left right W H c.1 c.2))
    (fun pre s => SeedInv top bottom left right W H pre s) _
    (seedInv_init top bottom left right hW hH hw hh hwf)
    (fun pre a u hpre hu => by
      have ha : a ∈ (sideCells W H).filter
          (fun c => onOuter top bottom left right W H c.1 c.2) :=
        hpre.subset (by simp)
      have hout := (List.mem_filter.mp ha).2
      simp only at hout
      have := seedCell_spec hu a (hnd1.sublist hpre.sublist)
        (fun b hb => (List.mem_filter.mp (hpre.subset hb)).1) hW hH false (by rw [hout]; rfl)
      simpa using this)
  -- the seeding of the other side cells
  obtain ⟨s2, hs2, hinv2⟩ := foldlM_initial_total seedFresh
    ((sideCells W H).filter (fun c => !onOuter top bottom left right W H c.1 c.2))
    (fun pre s => SeedInv top bottom left right W H
      ((sideCells W H).filter (fun c => onOuter top bottom left right W H c.1 c.2) ++ pre) s) s1
    (by simpa using hinv1)
    (fun pre a u hpre hu => by
      have ha : a ∈ (sideCells W H).filter
          (fun c => !onOuter top bottom left right W H c.1 c.2) :=
        hpre.subset (by simp)
      have hout := (List.mem_filter.mp ha).2
      simp only [Bool.not_eq_true'] at hout
      have hsl : List.Sublist
          (((sideCells W H).filter (fun c => onOuter top bottom left right W H c.1 c.2) ++
            pre) ++ [a])
          ((sideCells W H).filter (fun c => onOuter top bottom left right W H c.1 c.2) ++
            (sideCells W H).filter (fun c => !onOuter top bottom left right W H c.1 c.2)) := by
        rw [List.append_assoc]
        exact hpre.sublist.append_left _
      have := seedCell_spec hu a (hnd.sublist hsl)
        (fun b hb => hsub (hsl.subset hb)) hW hH true (by rw [hout]; rfl)
      simp only [if_true] at this
      rw [List.append_assoc] at this
      exact this)
  -- the loop
  have hkinv : KInv top bottom left right W H [] s2 :=
    { core := hinv2.core, pending := hinv2.pending
      closed := fun c hc => absurd hc (List.not_mem_nil c) }
  obtain ⟨s3, done, hs3, hinv3, hq3, hgrow⟩ := kernelLoop_spec (W * H) [] s2 hkinv
    (le_of_eq hinv2.measure)
  refine ⟨s3.dem, s3.labels, s3.graph.take s3.current_label, ?_, ?_⟩
  · unfold floodTile
    simp only [hw, hh]
    have e1 : (gridCells W H).filter (fun c => onPerimeter W H c.1 c.2) = sideCells W H := rfl
    rw [e1, hs1]
    simp only [Option.some_bind]
    rw [hs2]
    simp only [Option.some_bind]
    rw [hs3]
    rfl
  · have hc := hinv3.core
    -- the side cells have labels
    have hside : ∀ x y, x < W → y < H → onPerimeter W H x y = true →
        ∃ l, 1 ≤ l ∧ s3.labels.get x y = some l := by
      intro x y hx hy hp
      have hmem : (x, y) ∈
          (sideCells W H).filter (fun c => onOuter top bottom left right W H c.1 c.2) ++
          (sideCells W H).filter (fun c => !onOuter top bottom left right W H c.1 c.2) := by
        have hs : (x, y) ∈ sideCells W H := (mem_sideCells _).mpr ⟨hx, hy, hp⟩
        rw [List.mem_append, List.mem_filter, List.mem_filter]
        by_cases ho : onOuter top bottom left right W H x y = true
        · exact Or.inl ⟨hs, ho⟩
        · exact Or.inr ⟨hs, by simpa using ho⟩
      obtain ⟨l, hl, hlab⟩ := hinv2.lab _ hmem
      exact ⟨l, hl, (hgrow.1 _ _ l hl hlab).1⟩
    -- a cell with a label has been popped
    have hdone : ∀ x y l, 1 ≤ l → s3.labels.get x y = some l → (x, y) ∈ done := by
      intro x y l hl hlab
      rcases hinv3.pending x y l hl hlab with ⟨c, hcq, _, _⟩ | hd
      · rw [hq3] at hcq
        cases hcq
      · exact hd
    -- every cell has a label
    have hall : ∀ y x, x < W → y < H → ∃ l, 1 ≤ l ∧ s3.labels.get x y = some l := by
      intro y
      induction y with
      | zero =>
        intro x hx hy
        exact hside x 0 hx hy (by simp [onPerimeter])
      | succ y ih =>
        intro x hx hy
        obtain ⟨l, hl, hlab⟩ := ih x hx (by omega)
        obtain ⟨lc, _, _, hn⟩ := hinv3.closed (x, y) (hdone x y l hl hlab)
        obtain ⟨ln, hln1, hln, _⟩ := hn (x, y + 1)
          ((mem_neighbours _).mpr ⟨hx, hy, by unfold Adjacent8; simp only; omega⟩)
        exact ⟨ln, hln1, hln⟩
    have hlen : (s3.graph.take s3.current_label).length = s3.current_label := by
      rw [List.length_take]
      exact min_eq_left hc.glen
    have hglen3 : s3.current_label ≤ 2 * W + 2 * H := by
      have h1 := hc.glen
      have h2 := hgrow.2.2
      have h3 := hinv2.glen
      omega
    refine
      { dem_w := hc.dem_w, dem_h := hc.dem_h, dem_wf := hc.dem_wf, lab_w := hc.lab_w
        lab_h := hc.lab_h, lab_wf := hc.lab_wf
        two := by rw [hlen]; exact hc.cur
        size := by rw [hlen]; exact hglen3
        labelled := ?_, outer := ?_, drains := hc.drains, seeds := hc.seeds
        sound := fun i p h => hc.sound i p (isEntry_take.mp h).2
        complete := ?_, sym := ?_, sorted := ?_ }
    · intro x y hx hy
      obtain ⟨l, hl, hlab⟩ := hall y x hx hy
      exact ⟨l, hlab, hl, by rw [hlen]; exact hc.lab_lt _ _ _ hlab⟩
    · intro x y hx hy ho
      have hmem : (x, y) ∈
          (sideCells W H).filter (fun c => onOuter top bottom left right W H c.1 c.2) ++
          (sideCells W H).filter (fun c => !onOuter top bottom left right W H c.1 c.2) := by
        have hs : (x, y) ∈ sideCells W H :=
          (mem_sideCells _).mpr ⟨hx, hy, onPerimeter_of_onOuter ho⟩
        rw [List.mem_append, List.mem_filter]
        exact Or.inl ⟨hs, ho⟩
      exact (hgrow.1 _ _ 1 (le_refl 1) (hinv2.outer _ hmem ho)).1
    · intro x y x2 y2 l l2 hadj hl hl2 hne
      obtain ⟨hx2, hy2⟩ := Array2D.get_lt hl2
      rw [hc.lab_w] at hx2
      rw [hc.lab_h] at hy2
      obtain ⟨hx, hy⟩ := Array2D.get_lt hl
      rw [hc.lab_w] at hx
      rw [hc.lab_h] at hy
      obtain ⟨l0, hl0, hlab0⟩ := hall y x hx hy
      rw [hl] at hlab0
      cases hlab0
      obtain ⟨lc, _, hlc, hn⟩ := hinv3.closed (x, y) (hdone x y l hl0 hl)
      simp only at hlc
      rw [hl] at hlc
      cases hlc
      obtain ⟨ln, _, hln, hedge⟩ := hn (x2, y2) ((mem_neighbours _).mpr ⟨hx2, hy2, hadj⟩)
      simp only at hln
      rw [hl2] at hln
      cases hln
      obtain ⟨w, m, hm, hle⟩ := hedge (Ne.symm hne)
      refine ⟨w, m, ?_, hle⟩
      rw [weight_take, if_pos (hc.lab_lt _ _ _ hl)]
      exact hm
    · intro a b
      rw [weight_take, weight_take]
      have hnone : ∀ u v, ¬ v < s3.current_label → weight s3.graph u v = none := by
        intro u v hv
        cases hwt : weight s3.graph u v with
        | none => rfl
        | some w =>
          exfalso
          obtain ⟨_, n, _, _, _, _, hn, _⟩ := hc.sound u (v, w) (weight_isEntry hwt)
          exact hv (hc.lab_lt _ _ _ hn)
      by_cases ha : a < s3.current_label
      · by_cases hb : b < s3.current_label
        · rw [if_pos ha, if_pos hb]
          exact hc.sym a b
        · rw [if_pos ha, if_neg hb]
          exact hnone a b hb
      · by_cases hb : b < s3.current_label
        · rw [if_neg ha, if_pos hb]
          exact (hnone b a ha).symm
        · rw [if_neg ha, if_neg hb]
    · intro em hem
      exact hc.sorted em (List.mem_of_mem_take hem)

/-! ## The flood: how the visited vertices hang together -/

theorem Drains.visited {g : Graph} {vis : List Bool} {F : List Int} {v : Nat}
    (h : Drains g vis F v) : vis[v]? = some true := by
  cases h with
  | root h1 => exact h1
  | next _ h1 _ _ _ _ _ => exact h1

theorem Drains.mono_drains {g : Graph} {vis vis2 : List Bool} {F F2 : List Int}
    (hk : ∀ v : Nat, vis[v]? = some true → vis2[v]? = some true ∧ F2[v]? = F[v]?)
    {v : Nat} (h : Drains g vis F v) : Drains g vis2 F2 v := by
  induction h with
  | root h1 => exact Drains.root (hk 1 h1).1
  | next hp hv he hfp hfv h1 h2 ih =>
    exact Drains.next ih (hk _ hv).1 he (by rw [(hk _ hp.visited).2]; exact hfp)
      (by rw [(hk _ hv).2]; exact hfv) h1 h2

theorem foldlM_each {σ α : Type} (P : σ → Prop) (Q : α → σ → Prop) (f : σ → α → Option σ) :
    ∀ (l : List α) (s t : σ), P s →
      (∀ a u v, a ∈ l → P u → f u a = some v → P v ∧ Q a v) →
      (∀ a b u v, b ∈ l → P u → Q a u → f u b = some v → Q a v) →
      l.foldlM f s = some t → P t ∧ ∀ a, a ∈ l → Q a t := by
  intro l
  induction l with
  | nil =>
    intro s t hs _ _ h
    simp only [List.foldlM_nil] at h
    cases h
    exact ⟨hs, fun a ha => absurd ha (List.not_mem_nil a)⟩
  | cons b rest ih =>
    intro s t hs hstep hkeep h
    simp only [List.foldlM_cons, Option.bind_eq_bind] at h
    cases hv : f s b with
    | none => rw [hv] at h; cases h
    | some v =>
      rw [hv] at h
      simp only [Option.some_bind] at h
      obtain ⟨hPv, hQv⟩ := hstep b s v (List.mem_cons_self _ _) hs hv
      obtain ⟨hPt, hQt⟩ := ih v t hPv
        (fun a u w ha hu hw => hstep a u w (List.mem_cons_of_mem _ ha) hu hw)
        (fun a c u w hc hu hq hw => hkeep a c u w (List.mem_cons_of_mem _ hc) hu hq hw) h
      have hb : Q b t :=
        (foldlM_inv (fun u => P u ∧ Q b u) f rest v t ⟨hPv, hQv⟩
          (fun a u w ha hu hw =>
            ⟨(hstep a u w (List.mem_cons_of_mem _ ha) hu.1 hw).1,
              hkeep b a u w (List.mem_cons_of_mem _ ha) hu.1 hu.2 hw⟩) h).2
      refine ⟨hPt, ?_⟩
      intro a ha
      rcases List.mem_cons.mp ha with rfl | h1
      · exact hb
      · exact hQt a h1

/-- One iteration of the flood loop keeps the invariant. -/
theorem floodStep_drain {g : Graph} {s s2 : FloodState} (hs : DrainInv g s)
    (h : floodStep g s = some s2) : DrainInv g s2 := by
  unfold floodStep at h
  cases hc : heapTop s.openq with
  | none => rw [hc] at h; cases h
  | some c =>
    rw [hc] at h
    simp only at h
    have hcq := (heapTop_spec _ _ hc).1
    cases hv : s.visited[c.2]? with
    | none => rw [hv] at h; cases h
    | some b =>
      rw [hv] at h
      cases b with
      | true =>
        simp only at h
        cases h
        have hkeep : ∀ x, x ∈ s.openq → x.2 ≠ c.2 → x ∈ s.openq.erase c := by
          intro x hx hne
          exact (List.mem_erase_of_ne (by rintro rfl; exact hne rfl)).mpr hx
        refine
          { drained := hs.drained
            queue := fun x hx => hs.queue x (List.mem_of_mem_erase hx)
            frontier := ?_, seed := ?_, lens := hs.lens }
        · intro a b2 w ha he
          rcases hs.frontier a b2 w ha he with h1 | ⟨c2, hc2⟩
          · exact Or.inl h1
          · by_cases hb : b2 = c.2
            · left
              rw [hb]
              exact hv
            · exact Or.inr ⟨c2, hkeep _ hc2 hb⟩
        · rcases hs.seed with h1 | ⟨c2, hc2⟩
          · exact Or.inl h1
          · by_cases hb : 1 = c.2
            · left
              rw [hb]
              exact hv
            · exact Or.inr ⟨c2, hkeep _ hc2 hb⟩
      | false =>
        simp only at h
        cases hn : g[c.2]? with
        | none => rw [hn] at h; cases h
        | some nbrs =>
          rw [hn] at h
          simp only at h
          have hlt : c.2 < s.visited.length := (List.getElem?_eq_some_iff.mp hv).1
          have hvis : ∀ v : Nat, s.visited[v]? = some true →
              (s.visited.set c.2 true)[v]? = some true ∧
              (s.graph_elev.set c.2 c.1)[v]? = s.graph_elev[v]? := by
            intro v hvv
            have hne : c.2 ≠ v := by
              rintro rfl
              rw [hv] at hvv
              cases hvv
            exact ⟨by rw [List.getElem?_set_ne hne]; exact hvv, List.getElem?_set_ne hne⟩
          have hself : (s.visited.set c.2 true)[c.2]? = some true := by
            rw [List.getElem?_set_self hlt]
          have hFself : (s.graph_elev.set c.2 c.1)[c.2]? = some c.1 := by
            rw [List.getElem?_set_self (by rw [hs.lens]; exact hlt)]
          -- the invariant of the neighbour loop
          have key := foldlM_each
            (fun u : FloodState => u.visited = s.visited.set c.2 true ∧
              u.graph_elev = s.graph_elev.set c.2 c.1 ∧
              (∀ x, x ∈ s.openq.erase c → x ∈ u.openq) ∧
              (∀ x, x ∈ u.openq → x ∈ s.openq.erase c ∨
                ∃ w, IsEntry g c.2 (x.2, w) ∧ c.1 ≤ x.1 ∧ w ≤ x.1))
            (fun (n : Nat × Int) u => u.visited[n.1]? = some true ∨ ∃ c2, (c2, n.1) ∈ u.openq)
            (floodNeighbour c.1) nbrs _ s2
            ⟨rfl, rfl, fun x hx => hx, fun x hx => Or.inl hx⟩
            (fun n u v hn2 hu huv => by
              unfold floodNeighbour at huv
              split at huv
              · cases huv
              · rename_i htrue
                cases huv
                exact ⟨hu, Or.inl htrue⟩
              · cases huv
                refine ⟨⟨hu.1, hu.2.1, fun x hx => List.mem_cons_of_mem _ (hu.2.2.1 x hx), ?_⟩,
                  Or.inr ⟨max c.1 n.2, List.mem_cons_self _ _⟩⟩
                intro x hx
                rcases List.mem_cons.mp hx with rfl | h1
                · exact Or.inr ⟨n.2, ⟨nbrs, hn, hn2⟩, le_max_left _ _, le_max_right _ _⟩
                · exact hu.2.2.2 x h1)
            (fun a b2 u v _ hu hq huv => by
              unfold floodNeighbour at huv
              split at huv
              · cases huv
              · cases huv
                exact hq
              · cases huv
                rcases hq with h1 | ⟨c2, hc2⟩
                · exact Or.inl h1
                · exact Or.inr ⟨c2, List.mem_cons_of_mem _ hc2⟩) h
          obtain ⟨⟨e1, e2, e3, e4⟩, hall⟩ := key
          have hmono : ∀ v, s.visited[v]? = some true →
              Drains g s2.visited s2.graph_elev v := by
            intro v hvv
            rw [e1, e2]
            exact (hs.drained v hvv).mono_drains hvis
          have hnew : Drains g s2.visited s2.graph_elev c.2 := by
            rw [e1, e2]
            rcases hs.queue c hcq with h1 | ⟨p, fp, w, hp, hfp, he, hle1, hle2⟩
            · rw [h1] at hself ⊢
              exact Drains.root hself
            · exact Drains.next ((hs.drained p hp).mono_drains hvis) hself he
                (by rw [(hvis p hp).2]; exact hfp) hFself hle1 hle2
          have hcase : ∀ v, s2.visited[v]? = some true → v = c.2 ∨ s.visited[v]? = some true := by
            intro v hvv
            rw [e1] at hvv
            by_cases hne : c.2 = v
            · exact Or.inl hne.symm
            · rw [List.getElem?_set_ne hne] at hvv
              exact Or.inr hvv
          have hkeep : ∀ x, x ∈ s.openq → x.2 ≠ c.2 → x ∈ s2.openq := by
            intro x hx hne
            exact e3 x ((List.mem_erase_of_ne (by rintro rfl; exact hne rfl)).mpr hx)
          refine
            { drained := ?_, queue := ?_, frontier := ?_, seed := ?_
              lens := by rw [e1, e2, List.length_set, List.length_set]; exact hs.lens }
          · intro v hvv
            rcases hcase v hvv with rfl | h1
            · exact hnew
            · exact hmono v h1
          · intro x hx
            rcases e4 x hx with h1 | ⟨w, he, hle1, hle2⟩
            · rcases hs.queue x (List.mem_of_mem_erase h1) with h2 | ⟨p, fp, w, hp, hfp, he, h3, h4⟩
              · exact Or.inl h2
              · refine Or.inr ⟨p, fp, w, ?_, ?_, he, h3, h4⟩
                · rw [e1]; exact (hvis p hp).1
                · rw [e2, (hvis p hp).2]; exact hfp
            · refine Or.inr ⟨c.2, c.1, w, ?_, ?_, he, hle1, hle2⟩
              · rw [e1]; exact hself
              · rw [e2]; exact hFself
          · intro a b2 w ha he
            rcases hcase a ha with rfl | h1
            · obtain ⟨em, hem, hmem⟩ := he
              rw [hn] at hem
              cases hem
              exact hall (b2, w) hmem
            · rcases hs.frontier a b2 w h1 he with h2 | ⟨c2, hc2⟩
              · left
                rw [e1]
                exact (hvis b2 h2).1
              · by_cases hb : b2 = c.2
                · left
                  rw [e1, hb]
                  exact hself
                · exact Or.inr ⟨c2, hkeep _ hc2 hb⟩
          · rcases hs.seed with h1 | ⟨c2, hc2⟩
            · left
              rw [e1]
              exact (hvis 1 h1).1
            · by_cases hb : 1 = c.2
              · left
                rw [e1, hb]
                exact hself
              · exact Or.inr ⟨c2, hkeep _ hc2 hb⟩

/-- The flood loop keeps the invariant. -/
theorem floodLoop_drain {g : Graph} : ∀ (fuel : Nat) (s s2 : FloodState), DrainInv g s →
    floodLoop g fuel s = some s2 → DrainInv g s2 ∧ s2.openq = [] := by
  intro fuel
  induction fuel with
  | zero =>
    intro s s2 hs h
    simp only [floodLoop] at h
    split at h
    · cases h
      exact ⟨hs, List.isEmpty_iff.mp (by assumption)⟩
    · cases h
  | succ fuel ih =>
    intro s s2 hs h
    simp only [floodLoop] at h
    split at h
    · cases h
      exact ⟨hs, List.isEmpty_iff.mp (by assumption)⟩
    · cases h1 : floodStep g s with
      | none => rw [h1] at h; cases h
      | some s1 =>
        rw [h1] at h
        simp only [Option.some_bind] at h
        exact ih s1 s2 (floodStep_drain hs h1) h

/-- When the flood has returned, vertex 1 is visited, every neighbour of a visited
vertex is visited, and every visited vertex drains. -/
theorem floodRun_drain {g : Graph} {lowest : Int} {s : FloodState}
    (h : floodRun lowest g = some s) :
    s.visited[1]? = some true ∧
    (∀ a b w, s.visited[a]? = some true → IsEntry g a (b, w) → s.visited[b]? = some true) ∧
    (∀ v, s.visited[v]? = some true → Drains g s.visited s.graph_elev v) := by
  have hinit : DrainInv g
      { openq := [(lowest, 1)], visited := List.replicate g.length false,
        graph_elev := List.replicate g.length 0 } :=
    { drained := fun v hv => by
        simp only [List.getElem?_replicate] at hv
        split_ifs at hv
        cases hv
      queue := fun x hx => by
        simp only [List.mem_singleton] at hx
        rw [hx]
        exact Or.inl rfl
      frontier := fun a b w ha _ => by
        simp only [List.getElem?_replicate] at ha
        split_ifs at ha
        cases ha
      seed := Or.inr ⟨lowest, List.mem_singleton_self _⟩
      lens := by simp }
  obtain ⟨hinv, hq⟩ := floodLoop_drain _ _ _ hinit h
  refine ⟨?_, ?_, hinv.drained⟩
  · rcases hinv.seed with h1 | ⟨c, hc⟩
    · exact h1
    · rw [hq] at hc
      cases hc
  · intro a b w ha he
    rcases hinv.frontier a b w ha he with h1 | ⟨c, hc⟩
    · exact h1
    · rw [hq] at hc
      cases hc

/-! ## The perimeter phase upserts only between touching cells -/

theorem handleEdgePair_cand (P : Graph → Prop) (C : Nat → Nat → Int → Prop)
    (hup : ∀ g g2 a b w, P g → C a b w → upsertMin g a b w = some g2 → P g2)
    {ea eb : List Int} {la lb : List Nat} {oa ob i d : Nat}
    (hC : ∀ eP eQ lP lQ, TouchEdge ea eb la lb eP eQ lP lQ →
      C (offsetLabel lP oa) (offsetLabel lQ ob) (max eP eQ))
    (hi : i < ea.length) (hd : d < 3) {g g2 : Graph} (hg : P g)
    (h : handleEdgePair ea eb la lb oa ob i d g = some g2) : P g2 := by
  rcases handleEdgePair_cases hi hd h with ⟨rfl, _⟩ | ⟨c, n, w, _, hcand, hu⟩
  · exact hg
  · obtain ⟨_, _, h1, h2, la2, lb2, ea2, eb2, k1, k2, k3, k4, rfl, rfl, rfl⟩ := hcand
    exact hup _ _ _ _ _ hg
      (hC ea2 eb2 la2 lb2 ⟨i, i + d - 1, hi, h2, by omega, by omega, k1, k2, k3, k4⟩) hu

theorem HandleEdge_cand (P : Graph → Prop) (C : Nat → Nat → Int → Prop)
    (hup : ∀ g g2 a b w, P g → C a b w → upsertMin g a b w = some g2 → P g2)
    {ea eb : List Int} {la lb : List Nat} {oa ob : Nat}
    (hC : ∀ eP eQ lP lQ, TouchEdge ea eb la lb eP eQ lP lQ →
      C (offsetLabel lP oa) (offsetLabel lQ ob) (max eP eQ))
    {g g2 : Graph} (hg : P g) (h : HandleEdge ea eb la lb g oa ob = some g2) : P g2 := by
  unfold HandleEdge at h
  split at h
  · refine forRange_const_inv P _ _ g g2 hg ?_ h
    intro i u v hi hu hv
    refine forRange_const_inv P _ _ u v hu ?_ hv
    intro d u2 v2 hd hu2 hv2
    exact handleEdgePair_cand P C hup hC hi hd hu2 hv2
  · cases h

theorem cornerCall_cand (P : Graph → Prop) (C : Nat → Nat → Int → Prop)
    (hup : ∀ g g2 a b w, P g → C a b w → upsertMin g a b w = some g2 → P g2)
    {ea eb : Option Int} {la lb : Option Nat} {oa ob : Nat}
    (hC : ∀ eP eQ lP lQ, ea = some eP → eb = some eQ → la = some lP → lb = some lQ →
      C (offsetLabel lP oa) (offsetLabel lQ ob) (max eP eQ))
    {g g2 : Graph} (hg : P g) (h : cornerCall ea eb la lb oa ob g = some g2) : P g2 := by
  unfold cornerCall at h
  split at h
  · exact hup _ _ _ _ _ hg (hC _ _ _ _ rfl rfl rfl rfl) h
  · cases h

theorem dirCall_cand (P : Graph → Prop) (C : Nat → Nat → Int → Prop)
    (hup : ∀ g g2 a b w, P g → C a b w → upsertMin g a b w = some g2 → P g2)
    {d : Dir} {c nj : Job1} {oa ob : Nat}
    (hC : ∀ eP eQ lP lQ, Touching d c nj eP eQ lP lQ →
      C (offsetLabel lP oa) (offsetLabel lQ ob) (max eP eQ))
    {g g2 : Graph} (hg : P g) (h : dirCall d c nj oa ob g = some g2) : P g2 := by
  cases d
  · exact HandleEdge_cand P C hup hC hg h
  · exact HandleEdge_cand P C hup hC hg h
  · exact HandleEdge_cand P C hup hC hg h
  · exact HandleEdge_cand P C hup hC hg h
  · exact cornerCall_cand P C hup (fun eP eQ lP lQ h1 h2 h3 h4 => hC eP eQ lP lQ ⟨h1, h2, h3, h4⟩)
      hg h
  · exact cornerCall_cand P C hup (fun eP eQ lP lQ h1 h2 h3 h4 => hC eP eQ lP lQ ⟨h1, h2, h3, h4⟩)
      hg h
  · exact cornerCall_cand P C hup (fun eP eQ lP lQ h1 h2 h3 h4 => hC eP eQ lP lQ ⟨h1, h2, h3, h4⟩)
      hg h
  · exact cornerCall_cand P C hup (fun eP eQ lP lQ h1 h2 h3 h4 => hC eP eQ lP lQ ⟨h1, h2, h3, h4⟩)
      hg h

theorem joinStep_cand (P : Graph → Prop) {tiles : TileGrid} {jobs1 : Job1Grid} {gh gw y x : Nat}
    (hup : ∀ g g2 a b w, P g → JoinCand tiles jobs1 gh gw a b w →
      upsertMin g a b w = some g2 → P g2)
    {t : TileInfo} {c : Job1} (hy : y < gh) (hx : x < gw) (ht : grid2 tiles y x = some t)
    (hn : t.nullTile = false) (hc : grid2 jobs1 y x = some c) (d : Dir)
    {g g2 : Graph} (hg : P g) (h : joinStep tiles jobs1 gh gw y x t c d g = some g2) : P g2 := by
  unfold joinStep withNeighbour at h
  split at h
  · rename_i hcond
    split at h
    · cases h
    · rename_i n hn2
      split at h
      · cases h; exact hg
      · rename_i hnn
        split at h
        · cases h
        · rename_i nj hnj
          refine dirCall_cand P (JoinCand tiles jobs1 gh gw) hup ?_ hg h
          intro eP eQ lP lQ htouch
          exact ⟨y, x, d, t, n, c, nj, eP, eQ, lP, lQ, hy, hx, ht, hn, hc, hcond, hn2,
            by simpa using hnn, hnj, htouch, rfl, rfl, rfl⟩
  · cases h; exact hg

theorem joinTile_cand (P : Graph → Prop) {tiles : TileGrid} {jobs1 : Job1Grid} {gh gw y x : Nat}
    (hup : ∀ g g2 a b w, P g → JoinCand tiles jobs1 gh gw a b w →
      upsertMin g a b w = some g2 → P g2)
    (hy : y < gh) (hx : x < gw) {g g2 : Graph} (hg : P g)
    (h : joinTile tiles jobs1 gh gw y x g = some g2) : P g2 := by
  cases ht : grid2 tiles y x with
  | none =>
    unfold joinTile at h
    rw [ht] at h
    cases h
  | some t =>
    by_cases hn : t.nullTile = true
    · unfold joinTile at h
      rw [ht] at h
      simp only [hn, if_true] at h
      cases h
      exact hg
    · have hn2 : t.nullTile = false := by simpa using hn
      cases hc : grid2 jobs1 y x with
      | none =>
        unfold joinTile at h
        rw [ht] at h
        simp only [hn2, Bool.false_eq_true, if_false, hc] at h
        cases h
      | some c =>
        rw [joinTile_steps ht hn2 hc] at h
        simp only [Option.bind_eq_some] at h
        obtain ⟨g1, h1, g3, h3, g4, h4, g5, h5, g6, h6, g7, h7, g8, h8, h9⟩ := h
        have st := fun (d : Dir) (u v : Graph) (hu : P u)
            (hv : joinStep tiles jobs1 gh gw y x t c d u = some v) =>
          joinStep_cand P hup hy hx ht hn2 hc d hu hv
        exact st _ _ _ (st _ _ _ (st _ _ _ (st _ _ _ (st _ _ _ (st _ _ _ (st _ _ _
          (st _ _ _ hg h1) h3) h4) h5) h6) h7) h8) h9

/-- A property kept by every guarded upsert between touching cells is kept by the
perimeter phase. -/
theorem joinPerimeters_cand (P : Graph → Prop) {tiles : TileGrid} {jobs1 : Job1Grid}
    {gh gw : Nat}
    (hup : ∀ g g2 a b w, P g → JoinCand tiles jobs1 gh gw a b w →
      upsertMin g a b w = some g2 → P g2)
    (hh : tiles.length = gh) (hw : (tiles[0]?).map List.length = some gw)
    {g g2 : Graph} (hg : P g) (h : joinPerimeters tiles jobs1 g = some g2) : P g2 := by
  unfold joinPerimeters at h
  cases hrow : tiles[0]? with
  | none => rw [hrow] at hw; cases hw
  | some row0 =>
    have hw2 : row0.length = gw := by
      rw [hrow] at hw
      simpa using hw
    rw [hrow] at h
    simp only at h
    rw [hh, hw2] at h
    refine forRange_const_inv P _ _ g g2 hg ?_ h
    intro y u v hy hu hv
    refine forRange_const_inv P _ _ u v hu ?_ hv
    intro x u2 v2 hx hu2 hv2
    exact joinTile_cand P hup hy hx hu2 hv2

/-! ## Every edge of the master graph is borne out by two cells -/

theorem Raster.Realised.swap_cells {R : Raster} {A B : Nat} {w : Int} (h : R.Realised A B w) :
    R.Realised B A w := by
  obtain ⟨ty, tx, cx, cy, e, l, ty2, tx2, cx2, cy2, e2, l2, h1, h2, h3, h4, h5, h6, h7⟩ := h
  refine ⟨ty2, tx2, cx2, cy2, e2, l2, ty, tx, cx, cy, e, l, h2, h1, ?_, h5, h4, h7, h6⟩
  unfold Raster.Near Adjacent8 at h3 ⊢
  omega

theorem weight_replicate (n a b : Nat) : weight (List.replicate n ([] : EdgeMap)) a b = none := by
  unfold weight
  rw [List.getElem?_replicate]
  by_cases hc : a < n
  · rw [if_pos hc]; rfl
  · rw [if_neg hc]

theorem Raster.Flooded.offset_mod {R : Raster} (hF : R.Flooded) {y x : Nat} (hy : y < R.gh)
    (hx : x < R.gw) :
    sumBefore (tileSize R.tiles R.jobs1) R.gw y x % LABEL_MOD = R.offAt y x := by
  have := hF.ready.block_le hy hx
  have := hF.ready.fits
  unfold Raster.offAt
  exact Nat.mod_eq_of_lt (by omega)

/-- After the merge phase every weight of the master graph is borne out by two
neighbouring cells of one tile. -/
theorem merge_sound {R : Raster} (hF : R.Flooded) {s : MergeState}
    (h : mergeGraphs R.tiles R.jobs1 = some s) :
    ∀ A B w, weight s.mastergraph A B = some w → R.Realised A B w := by
  obtain ⟨n, hloop⟩ := mergeGraphs_loop hF.ready h
  suffices key : MergeInv R.tiles R.jobs1 R.gw
      (fun _ _ g => ∀ A B w, weight g A B = some w → R.Realised A B w) R.gh 0 s from key.graph
  refine mergeLoop_inv _ ?_ ?_ ?_ ?_ hloop
  · intro y x g _ _ _ hG
    exact hG
  · intro y x g g2 t j hy hx ht hn hj hG hm
    obtain ⟨hga, hgs⟩ := graphAt_eq hj
    have hblock := hF.ready.block_le hy hx
    have hfit := hF.ready.fits
    have hemit := mergeTileGraph_emit (by rw [← hgs]; omega) hm
    have htile := hF.tile y hy x hx
    rw [hga] at htile
    rw [hF.offset_mod hy hx] at hemit
    intro A B w hw
    rcases hemit.frame A B with h1 | ⟨l, p, hentry, hpos, hw2⟩
    · rw [h1] at hw
      exact hG A B w hw
    · rw [hw2] at hw
      cases hw
      obtain ⟨c, n2, e, e2, hadj, hl1, hl2, _, _, he1, he2, hle1, hle2⟩ := htile.sound l p hentry
      have hreal : R.Realised (offsetLabel l (R.offAt y x)) (offsetLabel p.1 (R.offAt y x)) p.2 :=
        ⟨y, x, c.1, c.2, e, l, y, x, n2.1, n2.2, e2, p.1, ⟨hy, hx, he1, hl1⟩,
          ⟨hy, hx, he2, hl2⟩, by
            unfold Raster.Near
            unfold Adjacent8 at hadj ⊢
            omega, rfl, rfl, hle1, hle2⟩
      rcases hpos with ⟨rfl, rfl⟩ | ⟨rfl, rfl⟩
      · exact hreal
      · exact hreal.swap_cells
  · intro y g _ hG
    exact hG
  · refine ⟨by simp [sumBefore], ?_, ?_, ?_⟩
    · intro A B w hw
      rw [weight_replicate] at hw
      cases hw
    · intro y2 x2 t _ hb
      rcases hb with hb | ⟨_, hb⟩
      · exact absurd hb (Nat.not_lt_zero _)
      · exact absurd hb (Nat.not_lt_zero _)
    · intro y2 x2 _ _
      rfl

/-- Two cells that the join towards `d` compares are neighbours in the raster. -/
theorem near_of_touching {R : Raster} (hF : R.Flooded) {y x : Nat} {d : Dir}
    {eP eQ : Int} {lP lQ : Nat} (hy : y < R.gh) (hx : x < R.gw)
    (hcond : dirCond d R.gh R.gw y x = true)
    (ht : Touching d (jobAt R.jobs1 y x) (jobAt R.jobs1 (dirY d y) (dirX d x)) eP eQ lP lQ) :
    ∃ cx cy cx2 cy2, R.CellAt y x cx cy eP lP ∧
      R.CellAt (dirY d y) (dirX d x) cx2 cy2 eQ lQ ∧
      R.Near y x cx cy (dirY d y) (dirX d x) cx2 cy2 := by
  obtain ⟨hy2, hx2, _, _⟩ := dir_range hy hx hcond
  have hrast := hF.raster
  have hnA := hF.nonnull y hy x hx
  have hnB := hF.nonnull _ hy2 _ hx2
  obtain ⟨hwA, hhA, _⟩ := hrast.dem_shape y hy x hx hnA
  obtain ⟨hwB, hhB, _⟩ := hrast.dem_shape _ hy2 _ hx2 hnB
  obtain ⟨hwLA, hhLA, _⟩ := hrast.lab_shape y hy x hx hnA
  obtain ⟨hwLB, hhLB, _⟩ := hrast.lab_shape _ hy2 _ hx2 hnB
  obtain ⟨e1, e2, e3, e4, e5, e6, e7, e8⟩ := hrast.elev_perimeter y hy x hx hnA
  obtain ⟨f1, f2, f3, f4, f5, f6, f7, f8⟩ := hrast.elev_perimeter _ hy2 _ hx2 hnB
  obtain ⟨k1, k2, k3, k4, k5, k6, k7, k8⟩ := hrast.label_perimeter y hy x hx hnA
  obtain ⟨m1, m2, m3, m4, m5, m6, m7, m8⟩ := hrast.label_perimeter _ hy2 _ hx2 hnB
  simp only [hwA, hhA] at e1 e2 e3 e4 e5 e6 e7 e8
  simp only [hwB, hhB] at f1 f2 f3 f4 f5 f6 f7 f8
  simp only [hwLA, hhLA] at k1 k2 k3 k4 k5 k6 k7 k8
  simp only [hwLB, hhLB] at m1 m2 m3 m4 m5 m6 m7 m8
  have hwpos := hrast.col_pos x hx
  have hhpos := hrast.row_pos y hy
  have hwpos2 := hrast.col_pos _ hx2
  have hhpos2 := hrast.row_pos _ hy2
  have hsx := colStart_succ R.colW
  have hsy := colStart_succ R.rowH
  cases d
  · -- top
    simp only [dirCond, decide_eq_true_eq] at hcond
    simp only [dirY, dirX] at *
    obtain ⟨i, j, hi, hj, hij, hji, a1, a2, a3, a4⟩ := ht
    rw [e1] at hi hj
    rw [k5 i hi] at a1
    rw [m6 j hj] at a2
    rw [e5 i hi] at a3
    rw [f6 j hj] at a4
    refine ⟨i, 0, j, R.rowH (y - 1) - 1, ⟨hy, hx, a3, a1⟩, ⟨hy2, hx2, a4, a2⟩, ?_⟩
    have := hsy (y - 1)
    rw [show y - 1 + 1 = y by omega] at this
    unfold Raster.Near Adjacent8
    omega
  · -- bottom
    simp only [dirCond, decide_eq_true_eq] at hcond
    simp only [dirY, dirX] at *
    obtain ⟨i, j, hi, hj, hij, hji, a1, a2, a3, a4⟩ := ht
    rw [e2] at hi hj
    rw [k6 i hi] at a1
    rw [m5 j hj] at a2
    rw [e6 i hi] at a3
    rw [f5 j hj] at a4
    refine ⟨i, R.rowH y - 1, j, 0, ⟨hy, hx, a3, a1⟩, ⟨hy2, hx2, a4, a2⟩, ?_⟩
    have := hsy y
    unfold Raster.Near Adjacent8
    omega
  · -- left
    simp only [dirCond, decide_eq_true_eq] at hcond
    simp only [dirY, dirX] at *
    obtain ⟨i, j, hi, hj, hij, hji, a1, a2, a3, a4⟩ := ht
    rw [e3] at hi hj
    rw [k7 i hi] at a1
    rw [m8 j hj] at a2
    rw [e7 i hi] at a3
    rw [f8 j hj] at a4
    refine ⟨0, i, R.colW (x - 1) - 1, j, ⟨hy, hx, a3, a1⟩, ⟨hy2, hx2, a4, a2⟩, ?_⟩
    have := hsx (x - 1)
    rw [show x - 1 + 1 = x by omega] at this
    unfold Raster.Near Adjacent8
    omega
  · -- right
    simp only [dirCond, decide_eq_true_eq] at hcond
    simp only [dirY, dirX] at *
    obtain ⟨i, j, hi, hj, hij, hji, a1, a2, a3, a4⟩ := ht
    rw [e4] at hi hj
    rw [k8 i hi] at a1
    rw [m7 j hj] at a2
    rw [e8 i hi] at a3
    rw [f7 j hj] at a4
    refine ⟨R.colW x - 1, i, 0, j, ⟨hy, hx, a3, a1⟩, ⟨hy2, hx2, a4, a2⟩, ?_⟩
    have := hsx x
    unfold Raster.Near Adjacent8
    omega
  · -- top left
    simp only [dirCond, decide_eq_true_eq] at hcond
    simp only [dirY, dirX] at *
    obtain ⟨a3, a4, a1, a2⟩ := ht
    rw [head?_eq_getElem?, e5 0 hwpos] at a3
    rw [getLast?_eq_getElem?, f2, f6 _ (by omega)] at a4
    rw [head?_eq_getElem?, k5 0 hwpos] at a1
    rw [getLast?_eq_getElem?, m2, m6 _ (by omega)] at a2
    refine ⟨0, 0, R.colW (x - 1) - 1, R.rowH (y - 1) - 1, ⟨hy, hx, a3, a1⟩,
      ⟨hy2, hx2, a4, a2⟩, ?_⟩
    have h1 := hsx (x - 1)
    rw [show x - 1 + 1 = x by omega] at h1
    have h2 := hsy (y - 1)
    rw [show y - 1 + 1 = y by omega] at h2
    unfold Raster.Near Adjacent8
    omega
  · -- bottom right
    simp only [dirCond, decide_eq_true_eq] at hcond
    simp only [dirY, dirX] at *
    obtain ⟨a3, a4, a1, a2⟩ := ht
    rw [getLast?_eq_getElem?, e2, e6 _ (by omega)] at a3
    rw [head?_eq_getElem?, f5 0 hwpos2] at a4
    rw [getLast?_eq_getElem?, k2, k6 _ (by omega)] at a1
    rw [head?_eq_getElem?, m5 0 hwpos2] at a2
    refine ⟨R.colW x - 1, R.rowH y - 1, 0, 0, ⟨hy, hx, a3, a1⟩, ⟨hy2, hx2, a4, a2⟩, ?_⟩
    have h1 := hsx x
    have h2 := hsy y
    unfold Raster.Near Adjacent8
    omega
  · -- top right
    simp only [dirCond, decide_eq_true_eq] at hcond
    simp only [dirY, dirX] at *
    obtain ⟨a3, a4, a1, a2⟩ := ht
    rw [getLast?_eq_getElem?, e1, e5 _ (by omega)] at a3
    rw [head?_eq_getElem?, f6 0 hwpos2] at a4
    rw [getLast?_eq_getElem?, k1, k5 _ (by omega)] at a1
    rw [head?_eq_getElem?, m6 0 hwpos2] at a2
    refine ⟨R.colW x - 1, 0, 0, R.rowH (y - 1) - 1, ⟨hy, hx, a3, a1⟩, ⟨hy2, hx2, a4, a2⟩, ?_⟩
    have h1 := hsx x
    have h2 := hsy (y - 1)
    rw [show y - 1 + 1 = y by omega] at h2
    unfold Raster.Near Adjacent8
    omega
  · -- bottom left
    simp only [dirCond, decide_eq_true_eq] at hcond
    simp only [dirY, dirX] at *
    obtain ⟨a3, a4, a1, a2⟩ := ht
    rw [head?_eq_getElem?, e6 0 hwpos] at a3
    rw [getLast?_eq_getElem?, f1, f5 _ (by omega)] at a4
    rw [head?_eq_getElem?, k6 0 hwpos] at a1
    rw [getLast?_eq_getElem?, m1, m5 _ (by omega)] at a2
    refine ⟨0, R.rowH y - 1, R.colW (x - 1) - 1, 0, ⟨hy, hx, a3, a1⟩, ⟨hy2, hx2, a4, a2⟩, ?_⟩
    have h1 := hsx (x - 1)
    rw [show x - 1 + 1 = x by omega] at h1
    have h2 := hsy y
    unfold Raster.Near Adjacent8
    omega

theorem directionsAgree_of_symmetric {graph : Graph} (hsym : Symmetric graph)
    (hs : MapsSorted graph) : DirectionsAgree graph := by
  intro l hl p hp q hq hql
  have e1 : IsEntry graph l (p.1, p.2) :=
    ⟨graph[l], List.getElem?_eq_getElem hl, by
      rw [List.getD_eq_getElem?_getD, List.getElem?_eq_getElem hl] at hp
      exact hp⟩
  have e2 : IsEntry graph p.1 (l, q.2) := by
    cases hg : graph[p.1]? with
    | none =>
      rw [List.getD_eq_getElem?_getD, hg] at hq
      cases hq
    | some em =>
      rw [List.getD_eq_getElem?_getD, hg] at hq
      refine ⟨em, hg, ?_⟩
      rw [← hql]
      exact hq
  have w1 := (isEntry_iff_weight hs l p.1 p.2).mp e1
  have w2 := (isEntry_iff_weight hs p.1 l q.2).mp e2
  rw [hsym] at w1
  rw [w1] at w2
  exact (Option.some.inj w2).symm

/-- What the construction of the master graph leaves, on a flooded raster: the merge
phase has returned, every tile carries its label offset, and the master graph after
the merge phase is symmetric with sorted maps. -/
theorem Raster.Flooded.built {R : Raster} (hF : R.Flooded) {tiles2 : TileGrid} {g : Graph}
    (hb : buildMasterGraph R.tiles R.jobs1 = some (tiles2, g)) :
    ∃ s, mergeGraphs R.tiles R.jobs1 = some s ∧ tiles2 = s.tiles ∧
      joinPerimeters s.tiles R.jobs1 s.mastergraph = some g ∧
      s.tiles.length = R.gh ∧ (s.tiles[0]?).map List.length = some R.gw ∧
      Symmetric s.mastergraph ∧ MapsSorted s.mastergraph ∧
      (∀ y x, y < R.gh → x < R.gw → ∃ t, grid2 s.tiles y x = some t ∧ t.nullTile = false ∧
        t.label_offset = R.offAt y x ∧ t.label_increment = graphSizeAt R.jobs1 y x) := by
  obtain ⟨s, hs, hinv⟩ := mergeGraphs_ready hF.ready
  obtain ⟨h1, _, h3⟩ := buildMasterGraph_of_merge hs hb
  obtain ⟨hh, hw⟩ := mergeGraphs_shape hF.ready hs
  refine ⟨s, hs, h1, h3, hh, hw, ?_, ?_, ?_⟩
  · exact mergeGraphs_inv Symmetric (fun _ _ _ _ _ hu hv => graphSetBoth_symmetric hu hv)
      symmetric_replicate hs
  · exact mergeGraphs_inv MapsSorted (fun _ _ _ _ _ hu hv => graphSetBoth_sorted hu hv)
      mapsSorted_replicate hs
  · intro y x hy hx
    obtain ⟨t, ht⟩ := hinv.tile_exists hF.ready hy hx
    have hnn : t.nullTile = false := by
      obtain ⟨t0, ht0⟩ := isSome_get (hF.ready.tiles_rect y hy x hx)
      have hnull := hF.nonnull y hy x hx
      unfold isNullAt at hnull
      rw [ht0] at hnull
      simp only at hnull
      have hdone := hinv.tiles_done y x t0 hx (Or.inl hy) ht0
      rw [ht, hnull] at hdone
      simp only [Bool.false_eq_true, if_false, Option.some.injEq] at hdone
      rw [hdone]
      exact hnull
    obtain ⟨_, h5, h6, _⟩ := hinv.output_tile hF.ready hy hx ht hnn
    exact ⟨t, ht, hnn, h5, h6⟩

/-- Every edge of the finished master graph is borne out by two neighbouring cells of
the raster. -/
theorem master_sound {R : Raster} (hF : R.Flooded) {tiles2 : TileGrid} {g : Graph}
    (hb : buildMasterGraph R.tiles R.jobs1 = some (tiles2, g)) :
    ∀ A p, IsEntry g A p → R.Realised A p.1 p.2 := by
  obtain ⟨s, hs, _, hjoin, hh, hw, _, hsorted, htile⟩ := hF.built hb
  have hmerge := merge_sound hF hs
  refine joinPerimeters_cand (fun u => ∀ A p, IsEntry u A p → R.Realised A p.1 p.2) ?_ hh hw
    ?_ hjoin
  · intro u v a b w hu hcand hv
    have hreal : R.Realised a b w := by
      obtain ⟨y, x, d, t, n, c, nj, eP, eQ, lP, lQ, hy, hx, ht, _, hc, hcond, hn, _, hnj,
        htouch, rfl, rfl, rfl⟩ := hcand
      obtain ⟨hy2, hx2, _, _⟩ := dir_range hy hx hcond
      obtain ⟨t1, ht1, _, hoff1, _⟩ := htile y x hy hx
      obtain ⟨t2, ht2, _, hoff2, _⟩ := htile _ _ hy2 hx2
      rw [ht] at ht1
      cases ht1
      rw [hn] at ht2
      cases ht2
      rw [← jobAt_eq hc, ← jobAt_eq hnj] at htouch
      obtain ⟨cx, cy, cx2, cy2, hA, hB, hnear⟩ := near_of_touching hF hy hx hcond htouch
      exact ⟨y, x, cx, cy, eP, lP, _, _, cx2, cy2, eQ, lQ, hA, hB, hnear,
        by rw [hoff1]; rfl, by rw [hoff2]; rfl, le_max_left _ _, le_max_right _ _⟩
    exact upsertMin_sound R.Realised hu hreal hreal.swap_cells hv
  · intro A p hp
    obtain ⟨B, w⟩ := p
    exact hmerge A B w ((isEntry_iff_weight hsorted A B w).mp hp)

/-- Two neighbouring cells of the raster whose global labels differ have an edge in
the finished master graph. -/
theorem master_complete {R : Raster} (hF : R.Flooded) {tiles2 : TileGrid} {g : Graph}
    (hb : buildMasterGraph R.tiles R.jobs1 = some (tiles2, g))
    {ty tx cx cy ty2 tx2 cx2 cy2 : Nat} {e e2 : Int} {l l2 : Nat}
    (hA : R.CellAt ty tx cx cy e l) (hB : R.CellAt ty2 tx2 cx2 cy2 e2 l2)
    (hnear : R.Near ty tx cx cy ty2 tx2 cx2 cy2)
    (hne : R.glabel ty tx l ≠ R.glabel ty2 tx2 l2) :
    ∃ m, IsEntry g (R.glabel ty tx l) (R.glabel ty2 tx2 l2, m) := by
  obtain ⟨s, hs, _, hjoin, hh, hw, hsym, hsorted, htile⟩ := hF.built hb
  obtain ⟨hy, hx, he, hl⟩ := hA
  obtain ⟨hy2, hx2, he2, hl2⟩ := hB
  obtain ⟨hlater, _⟩ := joinPerimeters_calls hh hw hjoin
  have fin : ∀ w, EdgeBelow g (R.glabel ty tx l) (R.glabel ty2 tx2 l2) w →
      ∃ m, IsEntry g (R.glabel ty tx l) (R.glabel ty2 tx2 l2, m) := by
    rintro w ⟨m, hm, _⟩
    exact ⟨m, weight_isEntry hm⟩
  by_cases hsame : ty = ty2 ∧ tx = tx2
  · obtain ⟨rfl, rfl⟩ := hsame
    have hadj : Adjacent8 cx cy cx2 cy2 := by
      unfold Raster.Near Adjacent8 at hnear
      unfold Adjacent8
      omega
    have hll : l ≠ l2 := by
      rintro rfl
      exact hne rfl
    have hT := hF.tile ty hy tx hx
    obtain ⟨w, m, hm, _⟩ := hT.complete cx cy cx2 cy2 l l2 hadj hl hl2 hll
    obtain ⟨la, hla, hla1, _⟩ := hT.labelled cx cy
      (by rw [← hT.lab_w]; exact (Array2D.get_lt hl).1)
      (by rw [← hT.lab_h]; exact (Array2D.get_lt hl).2)
    obtain ⟨lb, hlb, hlb1, _⟩ := hT.labelled cx2 cy2
      (by rw [← hT.lab_w]; exact (Array2D.get_lt hl2).1)
      (by rw [← hT.lab_h]; exact (Array2D.get_lt hl2).2)
    rw [hl2] at hlb
    cases hlb
    rw [hl] at hla
    cases hla
    have hemit := (mergeGraphs_emitted hF.ready
      (fun y hy x hx => (hF.tile y hy x hx).sorted)
      (fun y hy x hx => directionsAgree_of_symmetric (hF.tile y hy x hx).sym
        (hF.tile y hy x hx).sorted) hs).graph
    have hw2 := (hemit ty tx (Or.inl hy) hy hx (hF.nonnull ty hy tx hx) l (l2, m)
      (weight_isEntry hm) (by simp only; omega)).1
    rw [hF.offset_mod hy hx] at hw2
    exact fin m (hlater.edgeBelow hsym ⟨m, hw2, le_refl _⟩)
  · obtain ⟨d, hcond, hdy, hdx, htouch⟩ := touching_of_adjacent hF.raster hy hx hy2 hx2 hsame
      (hF.nonnull ty hy tx hx) (hF.nonnull ty2 hy2 tx2 hx2) he hl he2 hl2 hnear
    obtain ⟨t1, ht1, hn1, hoff1, _⟩ := htile ty tx hy hx
    obtain ⟨t2, ht2, hn2, hoff2, _⟩ := htile ty2 tx2 hy2 hx2
    obtain ⟨c, hc⟩ := isSome_get (hF.ready.jobs_rect ty hy tx hx)
    obtain ⟨nj, hnj⟩ := isSome_get (hF.ready.jobs_rect ty2 hy2 tx2 hx2)
    rw [jobAt_eq hc, jobAt_eq hnj] at htouch
    rw [← hdy, ← hdx] at ht2 hnj
    have hest := joinPerimeters_establish hh hw hsym hjoin hy hx ht1 hn1 hc hcond ht2 hn2 hnj
      htouch (by rw [hoff1, hoff2]; exact hne)
    rw [hoff1, hoff2] at hest
    exact fin _ hest

/-- The global label of a local label below 2 is the label itself. -/
theorem Raster.glabel_small (R : Raster) (ty tx : Nat) {l : Nat} (h : l ≤ 1) :
    R.glabel ty tx l = l := by
  unfold Raster.glabel offsetLabel
  rw [if_neg (by omega)]

/-- The global label of a local label from 2 on is the label plus the offset of the
tile. -/
theorem Raster.Flooded.glabel_big {R : Raster} (hF : R.Flooded) {ty tx l : Nat} (hy : ty < R.gh)
    (hx : tx < R.gw) (h2 : 2 ≤ l) (hl : l < graphSizeAt R.jobs1 ty tx) :
    R.glabel ty tx l = l + R.offAt ty tx := by
  rcases offsetLabel_cases hl (hF.ready.block_le hy hx) hF.ready.fits with ⟨h1, _⟩ | ⟨_, h3⟩
  · omega
  · exact h3

/-- A global label from 2 on belongs to one tile and one local label only. -/
theorem Raster.Flooded.glabel_inj {R : Raster} (hF : R.Flooded) {ty tx l ty2 tx2 l2 : Nat}
    (hy : ty < R.gh) (hx : tx < R.gw) (hy2 : ty2 < R.gh) (hx2 : tx2 < R.gw)
    (h2 : 2 ≤ l) (hl : l < graphSizeAt R.jobs1 ty tx) (hl2 : l2 < graphSizeAt R.jobs1 ty2 tx2)
    (h : R.glabel ty tx l = R.glabel ty2 tx2 l2) : ty = ty2 ∧ tx = tx2 ∧ l = l2 := by
  rw [hF.glabel_big hy hx h2 hl] at h
  by_cases hs : l2 ≤ 1
  · rw [R.glabel_small ty2 tx2 hs] at h
    omega
  · rw [hF.glabel_big hy2 hx2 (by omega) hl2] at h
    have e1 := hF.ready.tileSize_eq hy hx
    have e2 := hF.ready.tileSize_eq hy2 hx2
    unfold Raster.offAt at h
    rcases before_trichotomy ty tx ty2 tx2 with hb | ⟨rfl, rfl⟩ | hb
    · have := sumBefore_block_le (tileSize R.tiles R.jobs1) hx hb
      omega
    · exact ⟨rfl, rfl, by omega⟩
    · have := sumBefore_block_le (tileSize R.tiles R.jobs1) hx2 hb
      omega

/-! ## Every cell of the flooded raster drains to the boundary -/

theorem Descends.end_cell {D : Array2D Int} {L : Array2D Nat} {l : Nat} {c s : Nat × Nat}
    (h : Descends D L l c s) : ∃ e, L.get s.1 s.2 = some l ∧ D.get s.1 s.2 = some e := by
  induction h with
  | here h1 h2 => exact ⟨_, h1, h2⟩
  | step _ _ _ _ _ _ ih => exact ih

/-- Down a chain of one label, along which the output elevation is a monotone function
of the elevation that the tile flood left, the path to the boundary extends. -/
theorem descend_out {elev : Nat → Nat → Nat → Nat → Option Int} {R : Raster} {ty tx l : Nat}
    {φ : Int → Int} (hφ : ∀ a b, a ≤ b → φ a ≤ φ b)
    (hval : ∀ x y e, (R.labs ty tx).get x y = some l → (R.dems ty tx).get x y = some e →
      elev ty tx x y = some (φ e))
    {c sd : Nat × Nat} (h : Descends (R.dems ty tx) (R.labs ty tx) l c sd)
    (hsd : DrainsOut elev R.colW R.rowH R.gh R.gw ty tx sd.1 sd.2) :
    DrainsOut elev R.colW R.rowH R.gh R.gw ty tx c.1 c.2 := by
  induction h with
  | here _ _ => exact hsd
  | step hadj hl he hep hle hrest ih =>
    refine DrainsOut.step (hval _ _ _ hl he) (hval _ _ _ hrest.label hep) ?_ (hφ _ _ hle)
      (ih hsd)
    unfold Adjacent8 at hadj ⊢
    omega

/-- Up a chain of one label that lies below the fill elevation of the label, the path
to the boundary extends at the level of the fill elevation. -/
theorem ascend_out {elev : Nat → Nat → Nat → Nat → Option Int} {R : Raster} {ty tx l : Nat}
    {f : Int}
    (hval : ∀ x y e, (R.labs ty tx).get x y = some l → (R.dems ty tx).get x y = some e →
      elev ty tx x y = some (max e f))
    {c sd : Nat × Nat} (h : Descends (R.dems ty tx) (R.labs ty tx) l c sd) :
    ∀ e, (R.dems ty tx).get c.1 c.2 = some e → e ≤ f →
      DrainsOut elev R.colW R.rowH R.gh R.gw ty tx c.1 c.2 →
      DrainsOut elev R.colW R.rowH R.gh R.gw ty tx sd.1 sd.2 := by
  induction h with
  | here _ _ => exact fun _ _ _ hc => hc
  | step hadj hl he hep hle hrest ih =>
    intro e0 he0 hle0 hc
    rw [he] at he0
    cases he0
    refine ih _ hep (le_trans hle hle0) ?_
    refine DrainsOut.step (hval _ _ _ hrest.label hep) (hval _ _ _ hl he) ?_ ?_ hc
    · unfold Adjacent8 at hadj ⊢
      omega
    · rw [max_eq_right hle0, max_eq_right (le_trans hle hle0)]

theorem colStart_zero (size : Nat → Nat) : colStart size 0 = 0 := by
  simp [colStart]

/-- The labels of the cells of a flooded raster. -/
theorem Raster.Flooded.cell_label {R : Raster} (hF : R.Flooded) {ty tx cx cy : Nat} {e : Int}
    {l : Nat} (h : R.CellAt ty tx cx cy e l) : 1 ≤ l ∧ l < graphSizeAt R.jobs1 ty tx := by
  obtain ⟨hy, hx, _, hl⟩ := h
  have hT := hF.tile ty hy tx hx
  obtain ⟨l2, hl2, h1, h2⟩ := hT.labelled cx cy (by rw [← hT.lab_w]; exact (Array2D.get_lt hl).1)
    (by rw [← hT.lab_h]; exact (Array2D.get_lt hl).2)
  rw [hl] at hl2
  cases hl2
  refine ⟨h1, ?_⟩
  have : (graphAt R.jobs1 ty tx).length = graphSizeAt R.jobs1 ty tx := by
    unfold graphAt graphSizeAt
    cases grid2 R.jobs1 ty tx <;> rfl
  rw [← this]
  exact h2

/-- Every position of every tile of a flooded raster holds a cell. -/
theorem Raster.Flooded.cell_exists {R : Raster} (hF : R.Flooded) {ty tx cx cy : Nat}
    (hy : ty < R.gh) (hx : tx < R.gw) (hcx : cx < R.colW tx) (hcy : cy < R.rowH ty) :
    ∃ e l, R.CellAt ty tx cx cy e l := by
  have hT := hF.tile ty hy tx hx
  obtain ⟨l, hl, _, _⟩ := hT.labelled cx cy hcx hcy
  obtain ⟨e, he⟩ := Option.isSome_iff_exists.mp
    (Array2D.get_isSome hT.dem_wf (by rw [hT.dem_w]; exact hcx) (by rw [hT.dem_h]; exact hcy))
  exact ⟨e, l, hy, hx, he, hl⟩

theorem Raster.CellAt.lt {R : Raster} (hF : R.Flooded) {ty tx cx cy : Nat} {e : Int} {l : Nat}
    (h : R.CellAt ty tx cx cy e l) : cx < R.colW tx ∧ cy < R.rowH ty := by
  obtain ⟨hy, hx, he, _⟩ := h
  have hT := hF.tile ty hy tx hx
  obtain ⟨h1, h2⟩ := Array2D.get_lt he
  rw [hT.dem_w] at h1
  rw [hT.dem_h] at h2
  exact ⟨h1, h2⟩

/-- A cell of label 1 drains to the boundary of the raster. -/
theorem drain_one {elev : Nat → Nat → Nat → Nat → Option Int} {R : Raster} (hF : R.Flooded)
    {fill : List Int} (hout : R.Raised fill elev) {ty tx cx cy : Nat} {e : Int}
    (h : R.CellAt ty tx cx cy e 1) : DrainsOut elev R.colW R.rowH R.gh R.gw ty tx cx cy := by
  obtain ⟨hy, hx, he, hl⟩ := h
  have hT := hF.tile ty hy tx hx
  obtain ⟨sd, ho, hd⟩ := hT.drains cx cy hl
  have hval : ∀ x y e, (R.labs ty tx).get x y = some 1 → (R.dems ty tx).get x y = some e →
      elev ty tx x y = some (id e) :=
    fun x y e2 h1 h2 => (hout ty tx x y e2 1 ⟨hy, hx, h2, h1⟩).1 (le_refl 1)
  refine descend_out (fun a b hab => hab) hval hd ?_
  obtain ⟨es, hls, hes⟩ := hd.end_cell
  refine DrainsOut.boundary (hval _ _ _ hls hes) ?_
  unfold OnBoundary
  simp only [onOuter, Bool.or_eq_true, Bool.and_eq_true, decide_eq_true_eq] at ho
  have hsx := colStart_succ R.colW tx
  have hsy := colStart_succ R.rowH ty
  have h0x := colStart_zero R.colW
  have h0y := colStart_zero R.rowH
  rcases ho with ((⟨h1, h2⟩ | ⟨h1, h2⟩) | ⟨h1, h2⟩) | ⟨h1, h2⟩
  · right; left
    rw [h1, h2, h0y]
  · right; right; right
    rw [← h1, hsy]
    omega
  · left
    rw [h1, h2, h0x]
  · right; right; left
    rw [← h1, hsx]
    omega

/-- Every cell whose global label drains in the master graph drains to the boundary of
the raster. -/
theorem drain_of_drains {elev : Nat → Nat → Nat → Nat → Option Int} {R : Raster}
    (hF : R.Flooded) {tiles2 : TileGrid} {g : Graph}
    (hb : buildMasterGraph R.tiles R.jobs1 = some (tiles2, g)) {fill : List Int}
    {vis : List Bool} (hout : R.Raised fill elev) {v : Nat} (hv : Drains g vis fill v) :
    ∀ ty tx cx cy e l, R.CellAt ty tx cx cy e l → R.glabel ty tx l = v →
      DrainsOut elev R.colW R.rowH R.gh R.gw ty tx cx cy := by
  induction hv with
  | root _ =>
    intro ty tx cx cy e l hc hgl
    obtain ⟨h1, h2⟩ := hF.cell_label hc
    have hl : l = 1 := by
      by_cases hs : l ≤ 1
      · omega
      · rw [hF.glabel_big hc.1 hc.2.1 (by omega) h2] at hgl
        omega
    subst hl
    exact drain_one hF hout hc
  | @next p v w fp fv hp _ hentry hfp hfv hle1 hle2 ih =>
    intro ty tx cx cy e l hc hgl
    obtain ⟨h1, h2⟩ := hF.cell_label hc
    by_cases hs : l ≤ 1
    · have hl : l = 1 := by omega
      subst hl
      exact drain_one hF hout hc
    · have hl2 : 2 ≤ l := by omega
      obtain ⟨hy, hx, he, hl⟩ := hc
      -- the two cells that bear the edge out
      obtain ⟨tyB, txB, cxB, cyB, eB, lB, tyA, txA, cxA, cyA, eA, lA, hB, hA, hnear, hgB, hgA,
        hleB, hleA⟩ := master_sound hF hb p (v, w) hentry
      simp only at hgB hgA hleB hleA
      obtain ⟨hA1, hA2⟩ := hF.cell_label hA
      obtain ⟨rfl, rfl, rfl⟩ := hF.glabel_inj hy hx hA.1 hA.2.1 hl2 h2 hA2 (hgl.trans hgA)
      have hT := hF.tile ty hy tx hx
      obtain ⟨sd, hsd⟩ := hT.seeds l hl2
      have hval : ∀ x y e, (R.labs ty tx).get x y = some l → (R.dems ty tx).get x y = some e →
          elev ty tx x y = some (max e fv) := by
        intro x y e2 k1 k2
        obtain ⟨f, hf, hval⟩ := (hout ty tx x y e2 l ⟨hy, hx, k2, k1⟩).2 hl2
        rw [hgl, hfv] at hf
        cases hf
        exact hval
      -- the neighbour across the edge drains
      have hBout := ih tyB txB cxB cyB eB lB hB hgB.symm
      -- so does the cell at the edge
      have hAout : DrainsOut elev R.colW R.rowH R.gh R.gw ty tx cxA cyA := by
        have hEB : ∃ eo, elev tyB txB cxB cyB = some eo ∧ eo ≤ fv := by
          by_cases hsB : lB ≤ 1
          · exact ⟨eB, (hout _ _ _ _ _ _ hB).1 hsB, le_trans hleB hle2⟩
          · obtain ⟨f, hf, hval2⟩ := (hout _ _ _ _ _ _ hB).2 (by omega)
            rw [← hgB, hfp] at hf
            cases hf
            exact ⟨max eB fp, hval2, max_le (le_trans hleB hle2) hle1⟩
        obtain ⟨eo, heo, hleo⟩ := hEB
        refine DrainsOut.step (hval _ _ _ hA.2.2.2 hA.2.2.1) heo ?_
          (le_trans hleo (le_max_right _ _)) hBout
        unfold Raster.Near Adjacent8 at hnear
        unfold Adjacent8
        omega
      -- up to the common cell of the label and down from the cell in question
      have hsdout := ascend_out hval (hsd cxA cyA hA.2.2.2) eA hA.2.2.1 (le_trans hleA hle2) hAout
      exact descend_out (fun a b hab => max_le_max hab (le_refl _)) hval (hsd cx cy hl) hsdout

/-- When vertex 1 is visited and every neighbour of a visited vertex is visited, the
global label of every cell of the flooded raster is visited. -/
theorem all_visited {R : Raster} (hF : R.Flooded) {tiles2 : TileGrid} {g : Graph}
    (hb : buildMasterGraph R.tiles R.jobs1 = some (tiles2, g)) {vis : List Bool}
    (h1 : vis[1]? = some true)
    (hcl : ∀ a b w, vis[a]? = some true → IsEntry g a (b, w) → vis[b]? = some true) :
    ∀ ty cy tx cx e l, R.CellAt ty tx cx cy e l → vis[R.glabel ty tx l]? = some true := by
  have transfer : ∀ {ty tx cx cy ty2 tx2 cx2 cy2 : Nat} {e e2 : Int} {l l2 : Nat},
      R.CellAt ty tx cx cy e l → R.CellAt ty2 tx2 cx2 cy2 e2 l2 →
      R.Near ty tx cx cy ty2 tx2 cx2 cy2 → vis[R.glabel ty tx l]? = some true →
      vis[R.glabel ty2 tx2 l2]? = some true := by
    intro ty tx cx cy ty2 tx2 cx2 cy2 e e2 l l2 hA hB hnear hv
    by_cases heq : R.glabel ty tx l = R.glabel ty2 tx2 l2
    · rw [← heq]
      exact hv
    · obtain ⟨m, hm⟩ := master_complete hF hb hA hB hnear heq
      exact hcl _ _ m hv hm
  intro ty
  induction ty with
  | zero =>
    intro cy
    induction cy with
    | zero =>
      intro tx cx e l hc
      obtain ⟨hcx, hcy⟩ := hc.lt hF
      have hT := hF.tile 0 hc.1 tx hc.2.1
      have hl := hT.outer cx 0 hcx hcy (by simp [onOuter])
      rw [hc.2.2.2] at hl
      cases hl
      rw [R.glabel_small 0 tx (le_refl 1)]
      exact h1
    | succ cy ih =>
      intro tx cx e l hc
      obtain ⟨hcx, hcy⟩ := hc.lt hF
      obtain ⟨e2, l2, hc2⟩ := hF.cell_exists hc.1 hc.2.1 hcx (by omega : cy < R.rowH 0)
      refine transfer hc2 hc ?_ (ih tx cx e2 l2 hc2)
      unfold Raster.Near Adjacent8
      omega
  | succ ty ihy =>
    intro cy
    induction cy with
    | zero =>
      intro tx cx e l hc
      obtain ⟨hcx, hcy⟩ := hc.lt hF
      have hy : ty < R.gh := by have := hc.1; omega
      have hpos := hF.raster.row_pos ty hy
      obtain ⟨e2, l2, hc2⟩ := hF.cell_exists hy hc.2.1 hcx (by omega : R.rowH ty - 1 < R.rowH ty)
      refine transfer hc2 hc ?_ (ihy (R.rowH ty - 1) tx cx e2 l2 hc2)
      have := colStart_succ R.rowH ty
      unfold Raster.Near Adjacent8
      omega
    | succ cy ih =>
      intro tx cx e l hc
      obtain ⟨hcx, hcy⟩ := hc.lt hF
      obtain ⟨e2, l2, hc2⟩ := hF.cell_exists hc.1 hc.2.1 hcx (by omega : cy < R.rowH (ty + 1))
      refine transfer hc2 hc ?_ (ih tx cx e2 l2 hc2)
      unfold Raster.Near Adjacent8
      omega

/-- On a flooded raster on which `Calculations` has returned the fill elevations, every
cell drains to the boundary of the raster once the second phase has raised the cells. -/
theorem raster_drains {elev : Nat → Nat → Nat → Nat → Option Int} {R : Raster} (hF : R.Flooded)
    {lowest : Int} {tiles2 : TileGrid} {fill : List Int}
    (hcalc : Calculations lowest R.tiles R.jobs1 = some (tiles2, fill))
    (hout : R.Raised fill elev) :
    ∀ ty tx cx cy e l, R.CellAt ty tx cx cy e l →
      DrainsOut elev R.colW R.rowH R.gh R.gw ty tx cx cy := by
  unfold Calculations at hcalc
  cases hb : buildMasterGraph R.tiles R.jobs1 with
  | none => rw [hb] at hcalc; cases hcalc
  | some r =>
    obtain ⟨t2, g⟩ := r
    rw [hb] at hcalc
    simp only at hcalc
    cases hfl : aggregatedFlood lowest g with
    | none => rw [hfl] at hcalc; cases hcalc
    | some fill2 =>
      rw [hfl] at hcalc
      simp only [Option.some.injEq, Prod.mk.injEq] at hcalc
      obtain ⟨_, rfl⟩ := hcalc
      rw [aggregatedFlood_eq_floodRun] at hfl
      cases hrun : floodRun lowest g with
      | none => rw [hrun] at hfl; cases hfl
      | some fs =>
        rw [hrun] at hfl
        simp only [Option.map_some', Option.some.injEq] at hfl
        obtain ⟨h1, hcl, hdr⟩ := floodRun_drain hrun
        rw [hfl] at hdr
        intro ty tx cx cy e l hc
        exact drain_of_drains hF hb hout (hdr _ (all_visited hF hb h1 hcl ty cy tx cx e l hc))
          ty tx cx cy e l hc rfl

/-! ## The first phase on a tile matrix -/

/-- On an ordinary tile `LoadFromEvict` returns and leaves the tile flooded, its outer
sides being those on the boundary of the raster. -/
theorem LoadFromEvict_spec {bits : EdgeBits}
    {read : String → Int → Int → Int → Int → Bool → Option (Array2D Int)}
    {gh gw W H y x : Nat} {t : TileInfo} {dem : Array2D Int}
    (ht : TileOf bits read gh gw W H y x t dem) (hW : 1 ≤ W) (hH : 1 ≤ H)
    (hsmall : 2 * (W : Int) + 2 * (H : Int) ≤ INT32_MAX) :
    ∃ cs, LoadFromEvict bits read t = some cs ∧
      TileFlooded (decide (y = 0)) (decide (y + 1 = gh)) (decide (x = 0)) (decide (x + 1 = gw))
        W H cs.dem cs.labels cs.spillover_graph := by
  obtain ⟨D, L, G, hrun, hfl⟩ := floodTile_spec (decide (y = 0)) (decide (y + 1 = gh))
    (decide (x = 0)) (decide (x + 1 = gw)) hW hH ht.dem_w ht.dem_h ht.dem_wf
  refine ⟨{ dem := D, labels := L, spillover_graph := G }, ?_, hfl⟩
  unfold LoadFromEvict
  rw [if_neg (by rw [ht.width, ht.height]; exact not_lt.mpr hsmall), ht.read_eq]
  simp only
  rw [if_neg (by rw [ht.dem_w, ht.width]; exact fun h => h rfl),
    if_neg (by rw [ht.dem_h, ht.height]; exact fun h => h rfl)]
  have hlen : (2 * t.width + 2 * t.height).toNat = 2 * W + 2 * H := by
    rw [ht.width, ht.height]
    omega
  have hz : Zhou2015Labels bits dem
      { width := dem.width, height := dem.height,
        data := List.replicate (dem.width * dem.height) 0 }
      (List.replicate (2 * t.width + 2 * t.height).toNat [])
      t.edge (decide (t.flip &&& FLIP_HORZ ≠ 0)) (decide (t.flip &&& FLIP_VERT ≠ 0))
      = some (D, L, G) := by
    rw [hlen, ht.noflip, ht.dem_w, ht.dem_h]
    unfold Zhou2015Labels
    have e1 : decide (HasBit t.edge bits.top) = decide (y = 0) := decide_eq_decide.mpr ht.top
    have e2 : decide (HasBit t.edge bits.bottom) = decide (y + 1 = gh) :=
      decide_eq_decide.mpr ht.bottom
    have e3 : decide (HasBit t.edge bits.left) = decide (x = 0) := decide_eq_decide.mpr ht.left
    have e4 : decide (HasBit t.edge bits.right) = decide (x + 1 = gw) :=
      decide_eq_decide.mpr ht.right
    have f1 : decide (0 &&& FLIP_HORZ ≠ 0) = false := by decide
    have f2 : decide (0 &&& FLIP_VERT ≠ 0) = false := by decide
    rw [f1, f2]
    simp only [Bool.false_eq_true, if_false]
    rw [e1, e2, e3, e4]
    exact hrun
  rw [hz]

theorem grid2_replicate {α : Type} (gh gw : Nat) (v : α) {y x : Nat} (hy : y < gh)
    (hx : x < gw) : grid2 (List.replicate gh (List.replicate gw v)) y x = some v := by
  unfold grid2
  rw [List.getElem?_replicate, if_pos hy]
  simp only
  rw [List.getElem?_replicate, if_pos hx]

/-- On a tile matrix that cuts a raster into ordinary tiles, the first phase returns,
and the reply grid holds the reply of every tile at the place of the tile. -/
theorem firstReplies_spec {bits : EdgeBits}
    {read : String → Int → Int → Int → Int → Bool → Option (Array2D Int)}
    {tiles : TileGrid} {gh gw : Nat} {colW rowH : Nat → Nat}
    (hT : Tiled bits read tiles gh gw colW rowH) :
    ∃ jobs1, firstReplies bits read tiles = some jobs1 ∧
      ∀ y x, y < gh → x < gw → ∃ t cs, grid2 tiles y x = some t ∧
        LoadFromEvict bits read t = some cs ∧
        grid2 jobs1 y x =
          some (FirstRound t cs { emptyJob with gridy := t.gridy, gridx := t.gridx }) := by
  -- the invariant of the two loops
  let Inv : Nat → Nat → Job1Grid → Prop := fun y x jobs =>
    (∀ y2 x2, y2 < gh → x2 < gw → (grid2 jobs y2 x2).isSome = true) ∧
    (∀ y2 x2, y2 < gh → x2 < gw → before y x y2 x2 → ∃ t cs, grid2 tiles y2 x2 = some t ∧
      LoadFromEvict bits read t = some cs ∧
      grid2 jobs y2 x2 =
        some (FirstRound t cs { emptyJob with gridy := t.gridy, gridx := t.gridx }))
  cases hrow : tiles[0]? with
  | none =>
    have := hT.cols
    rw [hrow] at this
    cases this
  | some row0 =>
    have hw : row0.length = gw := by
      have := hT.cols
      rw [hrow] at this
      simpa using this
    have key : ∃ jobs1, forRange gh (fun y jobs =>
        forRange gw (fun x jobs2 =>
          match grid2 tiles y x with
          | none => none
          | some t =>
            if t.nullTile then some jobs2
            else (consumerJobFirst bits read t).bind (storeReply jobs2)) jobs)
        (List.replicate gh (List.replicate gw emptyJob)) = some jobs1 ∧ Inv gh 0 jobs1 := by
      refine forRange_total (fun y jobs => Inv y 0 jobs) _ gh _ ?_ ?_
      · refine ⟨fun y2 x2 hy2 hx2 => by rw [grid2_replicate gh gw emptyJob hy2 hx2]; rfl, ?_⟩
        intro y2 x2 _ _ hb
        rcases hb with hb | ⟨_, hb⟩
        · exact absurd hb (Nat.not_lt_zero _)
        · exact absurd hb (Nat.not_lt_zero _)
      · intro y u hy hu
        have inner : ∃ v, forRange gw (fun x jobs2 =>
            match grid2 tiles y x with
            | none => none
            | some t =>
              if t.nullTile then some jobs2
              else (consumerJobFirst bits read t).bind (storeReply jobs2)) u = some v ∧
            Inv y gw v := by
          refine forRange_total (fun x jobs => Inv y x jobs) _ gw u hu ?_
          intro x u2 hx hu2
          obtain ⟨t, dem, ht, htile⟩ := hT.tile y hy x hx
          obtain ⟨cs, hcs, _⟩ := LoadFromEvict_spec htile (hT.col_pos x hx) (hT.row_pos y hy)
            (hT.small y hy x hx)
          simp only
          rw [ht]
          simp only [htile.nonnull, Bool.false_eq_true, if_false]
          unfold consumerJobFirst
          rw [hcs]
          simp only [Option.map_some', Option.some_bind]
          unfold storeReply
          have gy : (FirstRound t cs { emptyJob with gridy := t.gridy, gridx := t.gridx }).gridy
              = (y : Int) := by
            rw [← htile.gridy]
            unfold FirstRound
            simp only [htile.noflip]
            rfl
          have gx : (FirstRound t cs { emptyJob with gridy := t.gridy, gridx := t.gridx }).gridx
              = (x : Int) := by
            rw [← htile.gridx]
            unfold FirstRound
            simp only [htile.noflip]
            rfl
          rw [gy, gx]
          simp only [Int.toNat_ofNat, Nat.cast_nonneg, and_self, if_true]
          obtain ⟨old, hold⟩ := isSome_get (hu2.1 y x hy hx)
          rw [hold]
          refine ⟨_, rfl, ?_, ?_⟩
          · intro y2 x2 hy2 hx2
            rw [grid2_modify]
            split
            · rw [hold]; rfl
            · exact hu2.1 y2 x2 hy2 hx2
          · intro y2 x2 hy2 hx2 hb
            rw [grid2_modify]
            rcases (before_succ_iff y x y2 x2).mp hb with hb2 | ⟨rfl, rfl⟩
            · have hne : ¬ (y2 = y ∧ x2 = x) := by
                rintro ⟨rfl, rfl⟩
                exact not_before_self _ _ hb2
              rw [if_neg hne]
              exact hu2.2 y2 x2 hy2 hx2 hb2
            · rw [if_pos ⟨rfl, rfl⟩, hold]
              exact ⟨t, cs, ht, hcs, rfl⟩
        obtain ⟨v, hv, hinv⟩ := inner
        refine ⟨v, hv, hinv.1, ?_⟩
        intro y2 x2 hy2 hx2 hb
        exact hinv.2 y2 x2 hy2 hx2 ((before_row_iff y gw y2 x2 hx2).mpr hb)
    obtain ⟨jobs1, hrun, hinv⟩ := key
    refine ⟨jobs1, ?_, ?_⟩
    · unfold firstReplies
      rw [List.head?_eq_getElem?, hrow]
      simp only
      rw [hT.rows, hw]
      exact hrun
    · intro y x hy hx
      exact hinv.2 y x hy hx (Or.inl hy)

/-! ## The raster after the first phase is flooded -/

theorem perimeterOf_self {α : Type} {a : Array2D α} (hw : a.WellFormed) (h1 : 1 ≤ a.width)
    (h2 : 1 ≤ a.height) :
    PerimeterOf a a.topRow a.bottomRow a.leftColumn a.rightColumn := by
  have hrow : ∀ y, y < a.height → ∀ i, i < a.width → (a.get i y).isSome = true :=
    fun y hy i hi => Array2D.get_isSome hw hi hy
  have hcol : ∀ x, x < a.width → ∀ i, i < a.height → (a.get x i).isSome = true :=
    fun x hx i hi => Array2D.get_isSome hw hx hi
  unfold PerimeterOf Array2D.topRow Array2D.bottomRow Array2D.leftColumn Array2D.rightColumn
    Array2D.getRowData Array2D.getColData
  refine ⟨?_, ?_, ?_, ?_, ?_, ?_, ?_, ?_⟩
  · exact filterMap_range_length _ _ (hrow 0 (by omega))
  · exact filterMap_range_length _ _ (hrow (a.height - 1) (by omega))
  · exact filterMap_range_length _ _ (hcol 0 (by omega))
  · exact filterMap_range_length _ _ (hcol (a.width - 1) (by omega))
  · exact fun i hi => filterMap_range_getElem? _ _ (hrow 0 (by omega)) i hi
  · exact fun i hi => filterMap_range_getElem? _ _ (hrow (a.height - 1) (by omega)) i hi
  · exact fun i hi => filterMap_range_getElem? _ _ (hcol 0 (by omega)) i hi
  · exact fun i hi => filterMap_range_getElem? _ _ (hcol (a.width - 1) (by omega)) i hi

theorem Array2D.mem_data_get {α : Type} {a : Array2D α} (hw : a.WellFormed) {v : α}
    (h : v ∈ a.data) : ∃ x y, a.get x y = some v := by
  obtain ⟨i, hi, hv⟩ := List.getElem_of_mem h
  have hlt : i < a.width * a.height := by rw [← hw]; exact hi
  have hwpos : 0 < a.width := by
    rcases Nat.eq_zero_or_pos a.width with h0 | h0
    · rw [h0, Nat.zero_mul] at hlt
      omega
    · exact h0
  refine ⟨i % a.width, i / a.width, ?_⟩
  unfold Array2D.get
  rw [if_pos ⟨Nat.mod_lt _ hwpos, (Nat.div_lt_iff_lt_mul hwpos).mpr (by rw [Nat.mul_comm]; exact hlt)⟩]
  have : i / a.width * a.width + i % a.width = i := by
    rw [Nat.mul_comm]
    exact Nat.div_add_mod i a.width
  rw [this, List.getElem?_eq_getElem hi, hv]

theorem sumAll_le_range {sz sz2 : Nat → Nat → Nat} (gh gw : Nat)
    (h : ∀ y, y < gh → ∀ x, x < gw → sz y x ≤ sz2 y x) :
    sumAll sz gh gw ≤ sumAll sz2 gh gw := by
  have hrow : ∀ y, y < gh → rowSum sz gw y ≤ rowSum sz2 gw y := by
    intro y hy
    unfold rowSum
    have : ∀ n, n ≤ gw → ((List.range n).map (sz y)).sum ≤ ((List.range n).map (sz2 y)).sum := by
      intro n
      induction n with
      | zero => intro _; simp
      | succ n ih =>
        intro hn
        rw [sum_range_succ_map, sum_range_succ_map]
        exact Nat.add_le_add (ih (by omega)) (h y hy n (by omega))
    exact this gw (le_refl _)
  unfold sumAll
  have : ∀ n, n ≤ gh → ((List.range n).map (rowSum sz gw)).sum ≤
      ((List.range n).map (rowSum sz2 gw)).sum := by
    intro n
    induction n with
    | zero => intro _; simp
    | succ n ih =>
      intro hn
      rw [sum_range_succ_map, sum_range_succ_map]
      exact Nat.add_le_add (ih (by omega)) (hrow n (by omega))
  exact this gh (le_refl _)

theorem FirstRound_noflip {t : TileInfo} (s : ConsumerSpecifics) (job1 : Job1)
    (h : t.flip = 0) :
    FirstRound t s job1 =
      { job1 with
        graph := s.spillover_graph
        top_elev := s.dem.topRow
        bot_elev := s.dem.bottomRow
        left_elev := s.dem.leftColumn
        right_elev := s.dem.rightColumn
        top_label := s.labels.topRow
        bot_label := s.labels.bottomRow
        left_label := s.labels.leftColumn
        right_label := s.labels.rightColumn } := by
  unfold FirstRound
  simp [h, FLIP_VERT, FLIP_HORZ]

/-- What the first phase leaves for every tile of a matrix that cuts a raster into
ordinary tiles. -/
theorem tile_facts {bits : EdgeBits}
    {read : String → Int → Int → Int → Int → Bool → Option (Array2D Int)}
    {tiles : TileGrid} {gh gw : Nat} {colW rowH : Nat → Nat}
    (hT : Tiled bits read tiles gh gw colW rowH) {jobs1 : Job1Grid}
    (hj : ∀ y x, y < gh → x < gw → ∃ t cs, grid2 tiles y x = some t ∧
      LoadFromEvict bits read t = some cs ∧
      grid2 jobs1 y x =
        some (FirstRound t cs { emptyJob with gridy := t.gridy, gridx := t.gridx }))
    {y x : Nat} (hy : y < gh) (hx : x < gw) :
    ∃ t cs j, grid2 tiles y x = some t ∧ t.nullTile = false ∧
      LoadFromEvict bits read t = some cs ∧ tileFlood bits read tiles y x = cs ∧
      grid2 jobs1 y x = some j ∧ j.graph = cs.spillover_graph ∧
      PerimeterOf cs.dem j.top_elev j.bot_elev j.left_elev j.right_elev ∧
      PerimeterOf cs.labels j.top_label j.bot_label j.left_label j.right_label ∧
      TileFlooded (decide (y = 0)) (decide (y + 1 = gh)) (decide (x = 0)) (decide (x + 1 = gw))
        (colW x) (rowH y) cs.dem cs.labels cs.spillover_graph := by
  obtain ⟨t, cs, ht, hcs, hjob⟩ := hj y x hy hx
  obtain ⟨t2, dem, ht2, htile⟩ := hT.tile y hy x hx
  rw [ht] at ht2
  cases ht2
  obtain ⟨cs2, hcs2, hfl⟩ := LoadFromEvict_spec htile (hT.col_pos x hx) (hT.row_pos y hy)
    (hT.small y hy x hx)
  rw [hcs] at hcs2
  cases hcs2
  have hW := hT.col_pos x hx
  have hH := hT.row_pos y hy
  refine ⟨t, cs, _, ht, htile.nonnull, hcs, ?_, hjob, ?_, ?_, ?_, hfl⟩
  · unfold tileFlood
    rw [ht]
    simp only [hcs, Option.getD_some]
  · rw [FirstRound_noflip _ _ htile.noflip]
  · rw [FirstRound_noflip _ _ htile.noflip]
    exact perimeterOf_self hfl.dem_wf (by rw [hfl.dem_w]; exact hW) (by rw [hfl.dem_h]; exact hH)
  · rw [FirstRound_noflip _ _ htile.noflip]
    exact perimeterOf_self hfl.lab_wf (by rw [hfl.lab_w]; exact hW) (by rw [hfl.lab_h]; exact hH)

/-- The raster after the first phase on a tile matrix that cuts a raster into ordinary
tiles is flooded. -/
theorem flooded_of_tiled {bits : EdgeBits}
    {read : String → Int → Int → Int → Int → Bool → Option (Array2D Int)}
    {tiles : TileGrid} {gh gw : Nat} {colW rowH : Nat → Nat}
    (hT : Tiled bits read tiles gh gw colW rowH) {jobs1 : Job1Grid}
    (hj : ∀ y x, y < gh → x < gw → ∃ t cs, grid2 tiles y x = some t ∧
      LoadFromEvict bits read t = some cs ∧
      grid2 jobs1 y x =
        some (FirstRound t cs { emptyJob with gridy := t.gridy, gridx := t.gridx })) :
    (rasterOf bits read tiles jobs1 gh gw colW rowH).Flooded := by
  have hnull : ∀ y, y < gh → ∀ x, x < gw → isNullAt tiles y x = false := by
    intro y hy x hx
    obtain ⟨t, _, _, ht, hn, _⟩ := tile_facts hT hj hy hx
    unfold isNullAt
    rw [ht]
    exact hn
  have hgraph : ∀ y, y < gh → ∀ x, x < gw →
      graphAt jobs1 y x = (tileFlood bits read tiles y x).spillover_graph ∧
      graphSizeAt jobs1 y x = (tileFlood bits read tiles y x).spillover_graph.length := by
    intro y hy x hx
    obtain ⟨t, cs, j, _, _, _, hfl, hjob, hg, _⟩ := tile_facts hT hj hy hx
    obtain ⟨h1, h2⟩ := graphAt_eq hjob
    rw [h1, h2, hg, hfl]
    exact ⟨rfl, rfl⟩
  have htile : ∀ y, y < gh → ∀ x, x < gw →
      TileFlooded (decide (y = 0)) (decide (y + 1 = gh)) (decide (x = 0)) (decide (x + 1 = gw))
        (colW x) (rowH y) (tileFlood bits read tiles y x).dem
        (tileFlood bits read tiles y x).labels (graphAt jobs1 y x) := by
    intro y hy x hx
    obtain ⟨t, cs, j, _, _, _, hfl, _, _, _, _, hT2⟩ := tile_facts hT hj hy hx
    rw [(hgraph y hy x hx).1, hfl]
    exact hT2
  have hsize : ∀ y, y < gh → ∀ x, x < gw → graphSizeAt jobs1 y x ≤ 2 * colW x + 2 * rowH y := by
    intro y hy x hx
    have := (htile y hy x hx).size
    rw [(hgraph y hy x hx).1, ← (hgraph y hy x hx).2] at this
    exact this
  refine
    { ready :=
        { height := hT.rows, width := hT.cols
          tiles_rect := ?_, jobs_rect := ?_, nulls_empty := ?_, keys := ?_, fits := ?_ }
      raster :=
        { col_pos := hT.col_pos, row_pos := hT.row_pos
          dem_shape := ?_, lab_shape := ?_, elev_perimeter := ?_, label_perimeter := ?_
          labels_small := ?_ }
      nonnull := hnull
      tile := htile }
  · intro y hy x hx
    obtain ⟨t, _, _, ht, _⟩ := tile_facts hT hj hy hx
    show (grid2 tiles y x).isSome = true
    rw [ht]
    rfl
  · intro y hy x hx
    obtain ⟨_, _, j, _, _, _, _, hjob, _⟩ := tile_facts hT hj hy hx
    show (grid2 jobs1 y x).isSome = true
    rw [hjob]
    rfl
  · intro y hy x hx hn
    have := hnull y hy x hx
    change isNullAt tiles y x = true at hn
    rw [this] at hn
    cases hn
  · intro y hy x hx m hm p hp
    change m ∈ graphAt jobs1 y x at hm
    change p.1 < graphSizeAt jobs1 y x
    have hfl := htile y hy x hx
    obtain ⟨i, hi, hmi⟩ := List.getElem_of_mem hm
    have hentry : IsEntry (graphAt jobs1 y x) i p :=
      ⟨m, by rw [List.getElem?_eq_getElem hi, hmi], hp⟩
    obtain ⟨_, n, _, _, _, _, hn, _⟩ := hfl.sound i p hentry
    obtain ⟨l, hl, _, hlt⟩ := hfl.labelled n.1 n.2
      (by rw [← hfl.lab_w]; exact (Array2D.get_lt hn).1)
      (by rw [← hfl.lab_h]; exact (Array2D.get_lt hn).2)
    rw [hn] at hl
    cases hl
    rw [(hgraph y hy x hx).2, ← (hgraph y hy x hx).1]
    exact hlt
  · exact lt_of_le_of_lt (sumAll_le_range gh gw hsize) hT.fits
  · intro y hy x hx _
    have hfl := htile y hy x hx
    refine ⟨hfl.dem_w, hfl.dem_h, ?_⟩
    have := hfl.dem_wf
    unfold Array2D.WellFormed at this
    rw [hfl.dem_w, hfl.dem_h] at this
    exact this
  · intro y hy x hx _
    have hfl := htile y hy x hx
    refine ⟨hfl.lab_w, hfl.lab_h, ?_⟩
    have := hfl.lab_wf
    unfold Array2D.WellFormed at this
    rw [hfl.lab_w, hfl.lab_h] at this
    exact this
  · intro y hy x hx _
    obtain ⟨_, cs, j, _, _, _, hfl, hjob, _, hp, _⟩ := tile_facts hT hj hy hx
    show PerimeterOf (tileFlood bits read tiles y x).dem (jobAt jobs1 y x).top_elev
      (jobAt jobs1 y x).bot_elev (jobAt jobs1 y x).left_elev (jobAt jobs1 y x).right_elev
    rw [jobAt_eq hjob, hfl]
    exact hp
  · intro y hy x hx _
    obtain ⟨_, cs, j, _, _, _, hfl, hjob, _, _, hp, _⟩ := tile_facts hT hj hy hx
    show PerimeterOf (tileFlood bits read tiles y x).labels (jobAt jobs1 y x).top_label
      (jobAt jobs1 y x).bot_label (jobAt jobs1 y x).left_label (jobAt jobs1 y x).right_label
    rw [jobAt_eq hjob, hfl]
    exact hp
  · intro y hy x hx _ l hl
    change l ∈ (tileFlood bits read tiles y x).labels.data at hl
    change l < graphSizeAt jobs1 y x
    have hfl := htile y hy x hx
    obtain ⟨cx, cy, hget⟩ := Array2D.mem_data_get hfl.lab_wf hl
    obtain ⟨l2, hl2, _, hlt⟩ := hfl.labelled cx cy
      (by rw [← hfl.lab_w]; exact (Array2D.get_lt hget).1)
      (by rw [← hfl.lab_h]; exact (Array2D.get_lt hget).2)
    rw [hget] at hl2
    cases hl2
    rw [(hgraph y hy x hx).2, ← (hgraph y hy x hx).1]
    exact hlt

/-! ## The second phase and the output -/

theorem LoadFromEvict_stamped (bits : EdgeBits)
    (read : String → Int → Int → Int → Int → Bool → Option (Array2D Int)) (tiles : TileGrid)
    (jobs1 : Job1Grid) (gw y x : Nat) (t : TileInfo) :
    LoadFromEvict bits read (stamped tiles jobs1 gw y x t) = LoadFromEvict bits read t := rfl

/-- On a tile matrix that cuts a raster into ordinary tiles both phases return: the
first phase leaves a flooded raster, `Calculations` returns the fill elevations, and
the second phase leaves for every tile the labels of the first phase and the raised
elevations. -/
theorem flood_output {bits : EdgeBits}
    {read : String → Int → Int → Int → Int → Bool → Option (Array2D Int)}
    {tiles : TileGrid} {gh gw : Nat} {colW rowH : Nat → Nat}
    (hT : Tiled bits read tiles gh gw colW rowH) (lowest : Int) :
    ∃ jobs1 tiles2 fill, firstReplies bits read tiles = some jobs1 ∧
      Calculations lowest tiles jobs1 = some (tiles2, fill) ∧
      (rasterOf bits read tiles jobs1 gh gw colW rowH).Flooded ∧
      (∀ ty tx, ty < gh → tx < gw → ∃ o, floodedTile bits read lowest tiles ty tx = some o ∧
        o.labels = (tileFlood bits read tiles ty tx).labels) ∧
      (rasterOf bits read tiles jobs1 gh gw colW rowH).Raised fill
        (outputElev bits read lowest tiles) := by
  obtain ⟨jobs1, hfirst, hj⟩ := firstReplies_spec hT
  have hF := flooded_of_tiled hT hj
  have hr : MergeReady tiles jobs1 gh gw := hF.ready
  have hrast : RasterReady tiles jobs1 gh gw colW rowH
      (fun y x => (tileFlood bits read tiles y x).dem)
      (fun y x => (tileFlood bits read tiles y x).labels) := hF.raster
  have hgh : 0 < gh := by
    have h1 := hT.cols
    have h2 := hT.rows
    cases hrow : tiles[0]? with
    | none => rw [hrow] at h1; cases h1
    | some row =>
      have := (List.getElem?_eq_some_iff.mp hrow).1
      omega
  have htwo : 2 ≤ sumAll (graphSizeAt jobs1) gh gw := by
    have h1 := hr.block_le hgh hT.gw_pos
    have h2 : 2 ≤ (graphAt jobs1 0 0).length := (hF.tile 0 hgh 0 hT.gw_pos).two
    have h3 : (graphAt jobs1 0 0).length = graphSizeAt jobs1 0 0 := by
      unfold graphAt graphSizeAt
      cases grid2 jobs1 0 0 <;> rfl
    omega
  obtain ⟨tiles2, fill, hcalc⟩ := Calculations_total lowest hr hrast htwo
  have hslice := slice_aligned_of_calc lowest tiles jobs1 gh gw tiles2 fill hr hcalc
  obtain ⟨s, hs, hinv⟩ := mergeGraphs_ready hr
  have htiles2 : tiles2 = s.tiles := by
    unfold Calculations at hcalc
    cases hb : buildMasterGraph tiles jobs1 with
    | none => rw [hb] at hcalc; cases hcalc
    | some r =>
      obtain ⟨t2, g⟩ := r
      rw [hb] at hcalc
      simp only at hcalc
      cases hfl : aggregatedFlood lowest g with
      | none => rw [hfl] at hcalc; cases hcalc
      | some fill2 =>
        rw [hfl] at hcalc
        simp only [Option.some.injEq, Prod.mk.injEq] at hcalc
        rw [← hcalc.1]
        exact (buildMasterGraph_of_merge hs hb).1
  -- the second job of every tile
  have tile2 : ∀ ty tx, ty < gh → tx < gw → ∃ t2 job2 o,
      grid2 tiles2 ty tx = some t2 ∧ t2.nullTile = false ∧
      t2.label_offset = sumBefore (tileSize tiles jobs1) gw ty tx ∧
      DistributeJob2 fill tiles2 tx ty = some job2 ∧
      LoadFromEvict bits read t2 = some (tileFlood bits read tiles ty tx) ∧
      SecondRound job2 (tileFlood bits read tiles ty tx) = some o ∧
      floodedTile bits read lowest tiles ty tx = some o ∧
      (∀ x y e l, (tileFlood bits read tiles ty tx).dem.get x y = some e →
        (tileFlood bits read tiles ty tx).labels.get x y = some l → 1 < l →
        ∃ f, fill[offsetLabel l t2.label_offset]? = some f ∧ o.dem.get x y = some (max e f)) := by
    intro ty tx hy hx
    obtain ⟨t, cs, j, ht, hnn, hcs, hfl, hjob, _, _, _, hT2⟩ := tile_facts hT hj hy hx
    have hdone := hinv.tiles_done ty tx t hx (Or.inl hy) ht
    rw [hnn] at hdone
    simp only [Bool.false_eq_true, if_false] at hdone
    rw [← htiles2] at hdone
    have hnn2 : (stamped tiles jobs1 gw ty tx t).nullTile = false := hnn
    obtain ⟨job2, hdist, hlen, _, _, hraise⟩ := hslice ty tx _ hy hx hdone hnn2
    have hload : LoadFromEvict bits read (stamped tiles jobs1 gw ty tx t)
        = some (tileFlood bits read tiles ty tx) := by
      rw [LoadFromEvict_stamped, hcs, hfl]
    have hoff : (stamped tiles jobs1 gw ty tx t).label_offset
        = sumBefore (tileSize tiles jobs1) gw ty tx := by
      have h1 := hr.block_le hy hx
      have h2 := hr.fits
      show sumBefore (tileSize tiles jobs1) gw ty tx % LABEL_MOD = _
      exact Nat.mod_eq_of_lt (by omega)
    have hinc : job2.length = graphSizeAt jobs1 ty tx := by
      rw [hlen]
      have h1 := hr.block_le hy hx
      have h2 := hr.fits
      show graphSizeAt jobs1 ty tx % LABEL_MOD = _
      exact Nat.mod_eq_of_lt (by omega)
    have hready : SecondRoundReady job2 (tileFlood bits read tiles ty tx) := by
      rw [hfl]
      refine
        { same_width := by rw [hT2.lab_w, hT2.dem_w]
          same_height := by rw [hT2.lab_h, hT2.dem_h]
          dem_size := hT2.dem_wf
          labels_size := by
            have := hT2.lab_wf
            unfold Array2D.WellFormed at this
            rw [this, hT2.lab_w, hT2.lab_h, hT2.dem_w, hT2.dem_h]
          in_slice := ?_ }
      intro l hl _
      rw [hinc]
      have := hrast.labels_small ty hy tx hx (hF.nonnull ty hy tx hx) l
      rw [hfl] at this
      exact this hl
    obtain ⟨o, ho⟩ := SecondRound_total hready
    refine ⟨_, job2, o, hdone, hnn2, hoff, hdist, hload, ho, ?_, ?_⟩
    · unfold floodedTile
      rw [hfirst]
      simp only [Option.some_bind]
      rw [hcalc]
      simp only [Option.some_bind]
      rw [hdone]
      simp only [hnn2, Bool.false_eq_true, if_false]
      rw [hdist]
      simp only [Option.some_bind]
      unfold consumerJobSecond
      rw [hload]
      exact ho
    · intro x y e l he hl hgt
      exact hraise _ o ho x y e l he hl hgt
  refine ⟨jobs1, tiles2, fill, hfirst, hcalc, hF, ?_, ?_⟩
  · intro ty tx hy hx
    obtain ⟨_, job2, o, _, _, _, _, _, hsec, hout, _⟩ := tile2 ty tx hy hx
    exact ⟨o, hout, (SecondRound_spec hsec).1⟩
  · intro ty tx cx cy e l hc
    obtain ⟨hy, hx, he, hl⟩ := hc
    change (tileFlood bits read tiles ty tx).dem.get cx cy = some e at he
    change (tileFlood bits read tiles ty tx).labels.get cx cy = some l at hl
    obtain ⟨t2, job2, o, _, _, hoff, _, _, hsec, hout, hraise⟩ := tile2 ty tx hy hx
    have helev : outputElev bits read lowest tiles ty tx cx cy = o.dem.get cx cy := by
      unfold outputElev
      rw [hout]
      rfl
    constructor
    · intro hle
      obtain ⟨l2, hl2, hval, _⟩ := (SecondRound_spec hsec).2.2.2 cx cy e he
      rw [hl] at hl2
      cases hl2
      rw [helev, hval]
      unfold raisedTo
      rw [if_neg (by omega)]
    · intro hge
      obtain ⟨f, hf, hval⟩ := hraise cx cy e l he hl (by omega)
      refine ⟨f, ?_, by rw [helev]; exact hval⟩
      rw [hoff] at hf
      exact hf

/-- The label of a cell of the output is the label that the first phase gave it. -/
theorem outputLabel_eq {bits : EdgeBits}
    {read : String → Int → Int → Int → Int → Bool → Option (Array2D Int)}
    {tiles : TileGrid} {gh gw : Nat} {colW rowH : Nat → Nat}
    (hT : Tiled bits read tiles gh gw colW rowH) (lowest : Int) {ty tx cx cy l : Nat}
    (h : outputLabel bits read lowest tiles ty tx cx cy = some l) (hy : ty < gh) (hx : tx < gw) :
    (tileFlood bits read tiles ty tx).labels.get cx cy = some l := by
  obtain ⟨_, _, _, _, _, _, hall, _⟩ := flood_output hT lowest
  obtain ⟨o, ho, hlab⟩ := hall ty tx hy hx
  unfold outputLabel at h
  rw [ho] at h
  simp only [Option.some_bind] at h
  rw [← hlab]
  exact h

/-- Every cell of the output drains to the boundary of the raster. -/
theorem every_cell_drains {bits : EdgeBits}
    {read : String → Int → Int → Int → Int → Bool → Option (Array2D Int)}
    {tiles : TileGrid} {gh gw : Nat} {colW rowH : Nat → Nat}
    (hT : Tiled bits read tiles gh gw colW rowH) (lowest : Int) {ty tx cx cy l : Nat}
    (hy : ty < gh) (hx : tx < gw)
    (h : outputLabel bits read lowest tiles ty tx cx cy = some l) :
    DrainsOut (outputElev bits read lowest tiles) colW rowH gh gw ty tx cx cy := by
  have hlab := outputLabel_eq hT lowest h hy hx
  obtain ⟨jobs1, tiles2, fill, _, hcalc, hF, _, hraised⟩ := flood_output hT lowest
  have hTile := hF.tile ty hy tx hx
  have hlt := Array2D.get_lt hlab
  obtain ⟨e, he⟩ := Option.isSome_iff_exists.mp
    (Array2D.get_isSome hTile.dem_wf
      (by rw [hTile.dem_w, ← hTile.lab_w]; exact hlt.1)
      (by rw [hTile.dem_h, ← hTile.lab_h]; exact hlt.2))
  exact raster_drains hF hcalc hraised ty tx cx cy e l ⟨hy, hx, he, hlab⟩

/-! ## End-to-end depression filling -/

/-- The tile matrix `pitTiles` cuts the raster of `pitRead` into two ordinary tiles. -/
theorem pit_tiled : Tiled exBits pitRead pitTiles 1 2 (fun _ => 2) (fun _ => 3) :=
  { rows := rfl
    cols := rfl
    gw_pos := by decide
    col_pos := fun _ _ => by decide
    row_pos := fun _ _ => by decide
    small := fun _ _ _ _ => by decide
    fits := by decide
    tile := by
      intro y hy x hx
      have hy0 : y = 0 := by omega
      subst hy0
      rcases Nat.lt_succ_iff_lt_or_eq.mp hx with h | h
      · have hx0 : x = 0 := by omega
        subst hx0
        exact ⟨pitTile 0 11, { width := 2, height := 3, data := [5, 5, 5, 1, 5, 5] }, rfl,
          { nonnull := rfl, noflip := rfl, gridy := rfl, gridx := rfl, width := rfl
            height := rfl, read_eq := rfl, dem_w := rfl, dem_h := rfl, dem_wf := by decide
            top := by decide, bottom := by decide, left := by decide, right := by decide }⟩
      · subst h
        exact ⟨pitTile 1 14, { width := 2, height := 3, data := [5, 5, 2, 5, 5, 5] }, rfl,
          { nonnull := rfl, noflip := rfl, gridy := rfl, gridx := rfl, width := rfl
            height := rfl, read_eq := rfl, dem_w := rfl, dem_h := rfl, dem_wf := by decide
            top := by decide, bottom := by decide, left := by decide, right := by decide }⟩ }

/-- C27: end-to-end depression filling.  For every tile matrix that cuts a raster into
ordinary tiles (no null tile, no flip, the edge bits set on the sides that lie on the
boundary of the raster, retention `@evict`), whatever the elevations and the sizes of
the tiles: the first phase with the tile flood kernel, the solve of the spillover graph
in `Calculations` and the second phase return for every tile, and in their output every
interior cell with a label `≥ 2` has a path of steps between 8-neighbours, along which
the elevation never rises, to a cell on the outer boundary of the raster. -/
theorem C27_filled_cells_drain (bits : EdgeBits)
    (read : String → Int → Int → Int → Int → Bool → Option (Array2D Int)) (lowest : Int)
    (tiles : TileGrid) (gh gw : Nat) (colW rowH : Nat → Nat)
    (hT : Tiled bits read tiles gh gw colW rowH) :
    (∀ ty tx, ty < gh → tx < gw → ∃ o, floodedTile bits read lowest tiles ty tx = some o) ∧
    ∀ ty tx cx cy l, ty < gh → tx < gw →
      outputLabel bits read lowest tiles ty tx cx cy = some l → 2 ≤ l →
      ¬ OnBoundary colW rowH gh gw ty tx cx cy →
      DrainsOut (outputElev bits read lowest tiles) colW rowH gh gw ty tx cx cy := by
  constructor
  · intro ty tx hy hx
    obtain ⟨_, _, _, _, _, _, hall, _⟩ := flood_output hT lowest
    obtain ⟨o, ho, _⟩ := hall ty tx hy hx
    exact ⟨o, ho⟩
  · intro ty tx cx cy l hy hx hl _ _
    exact every_cell_drains hT lowest hy hx hl

theorem C27_witness :
    Tiled exBits pitRead pitTiles 1 2 (fun _ => 2) (fun _ => 3) ∧
    outputLabel exBits pitRead (-2147483648) pitTiles 0 0 1 1 = some 2 ∧
    outputElev exBits pitRead (-2147483648) pitTiles 0 0 1 1 = some 5 ∧
    ¬ OnBoundary (fun _ => 2) (fun _ => 3) 1 2 0 0 1 1 ∧
    DrainsOut (outputElev exBits pitRead (-2147483648) pitTiles) (fun _ => 2) (fun _ => 3) 1 2
      0 0 1 1 :=
  ⟨pit_tiled, by decide, by decide, by decide,
    (C27_filled_cells_drain exBits pitRead (-2147483648) pitTiles 1 2 (fun _ => 2) (fun _ => 3)
      pit_tiled).2 0 0 1 1 2 (by decide) (by decide) (by decide) (by decide) (by decide)⟩

/-! ## SuggestTileSize -/

theorem suggestStep_cases {selected size min x best v : Int}
    (h : suggestStep selected size min x best = some v) :
    v = best ∨ (v = x ∧ size.tmod x > min) := by
  unfold suggestStep at h
  split_ifs at h with hc
  · cases h1 : absDiff x selected with
    | none => rw [h1] at h; cases h
    | some d1 =>
      cases h2 : absDiff x best with
      | none => rw [h1, h2] at h; cases h
      | some d2 =>
        rw [h1, h2] at h
        simp only [Option.some_bind, Option.bind_eq_bind] at h
        split_ifs at h
        · cases h; exact Or.inr ⟨rfl, hc⟩
        · cases h; exact Or.inl rfl
  · cases h; exact Or.inl rfl

/-- The result of `SuggestTileSize` is the sentinel or a usable block size. -/
theorem SuggestTileSize_usable {selected size min r : Int}
    (h : SuggestTileSize selected size min = some r) :
    r = 999999999 ∨ Usable size min r := by
  unfold SuggestTileSize at h
  refine forRange_inv (fun _ b => b = 999999999 ∨ Usable size min b) _ _ _ _ (Or.inl rfl) ?_ h
  intro k u v hk hu hv
  rcases suggestStep_cases hv with e | ⟨e, hc⟩
  · rw [e]; exact hu
  · right
    rw [e]
    refine ⟨by omega, by omega, hc⟩

theorem absDiff_total {a b : Int} (h1 : a - b ≤ INT32_MAX) (h2 : INT32_MIN < a - b) :
    ∃ d, absDiff a b = some d := by
  unfold absDiff
  rw [if_neg (by omega)]
  exact ⟨_, rfl⟩

/-- `SuggestTileSize` returns when its arguments are such that no difference leaves
`int`. -/
theorem SuggestTileSize_total {selected size min : Int} (hs : size ≤ INT32_MAX)
    (h1 : selected ≤ INT32_MAX) (h2 : size - selected ≤ INT32_MAX) :
    ∃ r, SuggestTileSize selected size min = some r := by
  unfold SuggestTileSize
  obtain ⟨t, ht, _⟩ := forRange_total
    (fun _ b => b = 999999999 ∨ (1 ≤ b ∧ b < size))
    (fun k best => suggestStep selected size min ((k : Int) + 1) best)
    (size - 1).toNat 999999999 (Or.inl rfl) (by
      intro k u hk hu
      have hk2 : (k : Int) + 1 < size := by omega
      show ∃ v, suggestStep selected size min ((k : Int) + 1) u = some v ∧
        (v = 999999999 ∨ (1 ≤ v ∧ v < size))
      unfold suggestStep
      split_ifs with hc
      · obtain ⟨d1, e1⟩ := @absDiff_total ((k : Int) + 1) selected
          (by unfold INT32_MAX at *; omega) (by unfold INT32_MAX INT32_MIN at *; omega)
        obtain ⟨d2, e2⟩ := @absDiff_total ((k : Int) + 1) u
          (by unfold INT32_MAX at *; rcases hu with e | e <;> omega)
          (by unfold INT32_MAX INT32_MIN at *; rcases hu with e | e <;> omega)
        rw [e1, e2]
        simp only [Option.some_bind, Option.bind_eq_bind]
        split_ifs
        · exact ⟨_, rfl, Or.inr ⟨by omega, hk2⟩⟩
        · exact ⟨_, rfl, hu⟩
      · exact ⟨_, rfl, hu⟩)
  exact ⟨t, ht⟩

/-- A usable block size with a rest of more than 100 cells: the block is larger than
100 cells and every block that starts inside the extent has at least 100 cells up to
the end of the extent. -/
theorem usable_blocks {size r : Int} (h : Usable size 100 r) :
    100 ≤ r ∧ 100 < size % r ∧ ∀ k : Nat, (k : Int) * r < size → 100 ≤ size - k * r := by
  obtain ⟨h1, h2, h3⟩ := h
  have hs : 0 ≤ size := by omega
  have hr : 0 ≤ r := by omega
  have hm : size.tmod r = size % r := Int.tmod_eq_emod hs hr
  rw [hm] at h3
  have hlt : size % r < r := Int.emod_lt_of_pos size (by omega)
  have hdiv : r * (size / r) + size % r = size := Int.ediv_add_emod size r
  refine ⟨by omega, h3, ?_⟩
  intro k hk
  have hkq : (k : Int) < size / r + 1 := by
    by_contra hcon
    have : size / r + 1 ≤ (k : Int) := by omega
    have : (size / r + 1) * r ≤ (k : Int) * r := Int.mul_le_mul_of_nonneg_right this hr
    nlinarith
  have : (k : Int) * r ≤ (size / r) * r :=
    Int.mul_le_mul_of_nonneg_right (by omega) hr
  nlinarith

/-! ## The size check of the one branch, by axis -/

theorem oneTile_error_width {r i o a : String} {W H bw bh x y gx gy : Int}
    (h : oneTile r i o a W H bw bh x y gx gy = Except.error PrepError.tileWidth) :
    W - x < 100 := by
  unfold oneTile at h
  split_ifs at h <;> first | assumption | cases h

theorem oneTile_error_height {r i o a : String} {W H bw bh x y gx gy : Int}
    (h : oneTile r i o a W H bw bh x y gx gy = Except.error PrepError.tileHeight) :
    H - y < 100 := by
  unfold oneTile at h
  split_ifs at h <;> first | assumption | cases h

/-- The inner loop ends with the error of a narrow tile only at a window that starts
inside the raster and has less than 100 cells up to its right side. -/
theorem oneColumns_error_width {r i o a : String} {W H bw bh y gy : Int} :
    ∀ (fuel : Nat) (x gx : Int) (row : List TileInfo),
      oneColumns r i o a W H bw bh y gy fuel x gx row = Except.error PrepError.tileWidth →
      ∃ k : Nat, x + k * bw < W ∧ W - (x + k * bw) < 100 := by
  intro fuel
  induction fuel with
  | zero =>
    intro x gx row h
    unfold oneColumns at h
    split_ifs at h
    cases h
  | succ fuel ih =>
    intro x gx row h
    unfold oneColumns at h
    by_cases hx : x < W
    swap
    · rw [if_neg hx] at h; cases h
    rw [if_pos hx] at h
    cases ht : oneTile r i o a W H bw bh x y gx gy with
    | error e =>
      rw [ht] at h
      simp only at h
      cases h
      exact ⟨0, by simpa using hx, by simpa using oneTile_error_width ht⟩
    | ok t =>
      rw [ht] at h
      simp only at h
      by_cases hov : x + bw > INT32_MAX
      · rw [if_pos hov] at h; cases h
      rw [if_neg hov] at h
      obtain ⟨k, h1, h2⟩ := ih _ _ _ h
      refine ⟨k + 1, ?_, ?_⟩
      · have e : x + ((k + 1 : Nat) : Int) * bw = x + bw + (k : Int) * bw := by
          push_cast; ring
        rw [e]; exact h1
      · have e : x + ((k + 1 : Nat) : Int) * bw = x + bw + (k : Int) * bw := by
          push_cast; ring
        rw [e]; exact h2

/-- The inner loop ends with the error of a low tile only in a row that has less than
100 cells down to the lower side of the raster. -/
theorem oneColumns_error_height {r i o a : String} {W H bw bh y gy : Int} :
    ∀ (fuel : Nat) (x gx : Int) (row : List TileInfo),
      oneColumns r i o a W H bw bh y gy fuel x gx row = Except.error PrepError.tileHeight →
      H - y < 100 := by
  intro fuel
  induction fuel with
  | zero =>
    intro x gx row h
    unfold oneColumns at h
    split_ifs at h
    cases h
  | succ fuel ih =>
    intro x gx row h
    unfold oneColumns at h
    by_cases hx : x < W
    swap
    · rw [if_neg hx] at h; cases h
    rw [if_pos hx] at h
    cases ht : oneTile r i o a W H bw bh x y gx gy with
    | error e =>
      rw [ht] at h
      simp only at h
      cases h
      exact oneTile_error_height ht
    | ok t =>
      rw [ht] at h
      simp only at h
      by_cases hov : x + bw > INT32_MAX
      · rw [if_pos hov] at h; cases h
      rw [if_neg hov] at h
      exact ih _ _ _ h

theorem oneRows_error_width {r i o a : String} {W H bw bh : Int} :
    ∀ (fuel : Nat) (y gy : Int) (tiles : TileGrid),
      oneRows r i o a W H bw bh fuel y gy tiles = Except.error PrepError.tileWidth →
      ∃ k : Nat, (k : Int) * bw < W ∧ W - k * bw < 100 := by
  intro fuel
  induction fuel with
  | zero =>
    intro y gy tiles h
    unfold oneRows at h
    split_ifs at h
    cases h
  | succ fuel ih =>
    intro y gy tiles h
    unfold oneRows at h
    by_cases hy : y < H
    swap
    · rw [if_neg hy] at h; cases h
    rw [if_pos hy] at h
    cases hc : oneColumns r i o a W H bw bh y gy W.toNat 0 0 [] with
    | error e =>
      rw [hc] at h
      simp only at h
      cases h
      obtain ⟨k, h1, h2⟩ := oneColumns_error_width _ _ _ _ hc
      exact ⟨k, by simpa using h1, by simpa using h2⟩
    | ok row =>
      rw [hc] at h
      simp only at h
      by_cases hov : y + bh > INT32_MAX
      · rw [if_pos hov] at h; cases h
      rw [if_neg hov] at h
      exact ih _ _ _ h

theorem oneRows_error_height {r i o a : String} {W H bw bh : Int} :
    ∀ (fuel : Nat) (y gy : Int) (tiles : TileGrid),
      oneRows r i o a W H bw bh fuel y gy tiles = Except.error PrepError.tileHeight →
      ∃ j : Nat, y + j * bh < H ∧ H - (y + j * bh) < 100 := by
  intro fuel
  induction fuel with
  | zero =>
    intro y gy tiles h
    unfold oneRows at h
    split_ifs at h
    cases h
  | succ fuel ih =>
    intro y gy tiles h
    unfold oneRows at h
    by_cases hy : y < H
    swap
    · rw [if_neg hy] at h; cases h
    rw [if_pos hy] at h
    cases hc : oneColumns r i o a W H bw bh y gy W.toNat 0 0 [] with
    | error e =>
      rw [hc] at h
      simp only at h
      cases h
      exact ⟨0, by simpa using hy, by simpa using oneColumns_error_height _ _ _ _ hc⟩
    | ok row =>
      rw [hc] at h
      simp only at h
      by_cases hov : y + bh > INT32_MAX
      · rw [if_pos hov] at h; cases h
      rw [if_neg hov] at h
      obtain ⟨j, h1, h2⟩ := ih _ _ _ h
      refine ⟨j + 1, ?_, ?_⟩
      · have e : y + ((j + 1 : Nat) : Int) * bh = y + bh + (j : Int) * bh := by
          push_cast; ring
        rw [e]; exact h1
      · have e : y + ((j + 1 : Nat) : Int) * bh = y + bh + (j : Int) * bh := by
          push_cast; ring
        rw [e]; exact h2

/-- The one branch on a raster whose width is cut into blocks that all leave at least
100 cells does not end with the error of a narrow tile. -/
theorem prepareOne_width_ok {probe : String → Option GDALInfo} {r i o a : String}
    {bwidth bheight : Int} {info : GDALInfo} (hp : probe i = some info)
    (hb : bwidth ≠ -1)
    (hall : ∀ k : Nat, (k : Int) * bwidth < info.width → 100 ≤ info.width - k * bwidth) :
    prepareOne probe r i o bwidth bheight a ≠ Except.error PrepError.tileWidth := by
  intro h
  unfold prepareOne at h
  rw [hp] at h
  simp only [if_neg hb] at h
  obtain ⟨k, h1, h2⟩ := oneRows_error_width _ _ _ _ h
  have := hall k h1
  omega

/-- The one branch on a raster whose height is cut into blocks that all leave at least
100 cells does not end with the error of a low tile. -/
theorem prepareOne_height_ok {probe : String → Option GDALInfo} {r i o a : String}
    {bwidth bheight : Int} {info : GDALInfo} (hp : probe i = some info)
    (hb : bheight ≠ -1)
    (hall : ∀ k : Nat, (k : Int) * bheight < info.height → 100 ≤ info.height - k * bheight) :
    prepareOne probe r i o bwidth bheight a ≠ Except.error PrepError.tileHeight := by
  intro h
  unfold prepareOne at h
  rw [hp] at h
  simp only [if_neg hb] at h
  obtain ⟨k, h1, h2⟩ := oneRows_error_height _ _ _ _ h
  have := hall k (by simpa using h1)
  simp only [zero_add] at h2
  omega

/-! ## Claims on SuggestTileSize -/

set_option maxRecDepth 100000 in
/-- The suggestion for the selected block size 200 on an extent of 300 cells. -/
theorem exSuggest : SuggestTileSize 200 300 100 = some 198 := by
  decide

/-- C33: `SuggestTileSize` does not return the nearest usable block size.  For the
selected block size 200 on an extent of 300 cells with a rest of more than 100 cells
the code returns 198, although the block size 199 is usable as well and is strictly
closer to 200; the loop compares the distance of `x` to `selected` with the distance of
`x` to `best`, not with the distance of `best` to `selected`. -/
theorem C33_suggestion_not_nearest :
    SuggestTileSize 200 300 100 = some 198 ∧ Usable 300 100 199 ∧
      Int.natAbs (199 - 200) < Int.natAbs (198 - 200) := by
  exact ⟨exSuggest, by decide, by decide⟩

/-- C34: a suggested block size passes the size check of the partition.  `SuggestTileSize`
returns whenever no difference leaves `int`, and whenever its result `r` for a rest of
100 cells is not the sentinel 999999999: `r` is at least 100, every block that starts
inside the extent `size` (the last, clamped one among them) has at least 100 cells up
to the end of the extent, the extent is cut into blocks that pass the check, and the one
branch of `Preparer` ends neither with the error of a narrow tile on a raster of this
width cut at `r` nor with the error of a low tile on a raster of this height cut at
`r`. -/
theorem C34_suggested_size_passes_check (selected size : Int) :
    (size ≤ INT32_MAX → selected ≤ INT32_MAX → size - selected ≤ INT32_MAX →
      ∃ r, SuggestTileSize selected size 100 = some r) ∧
    ∀ r, SuggestTileSize selected size 100 = some r → r ≠ 999999999 →
      100 ≤ r ∧ 100 ≤ size % r ∧
      (∀ k : Nat, (k : Int) * r < size → 100 ≤ size - k * r) ∧
      (∃ n : Nat, Blocks size r n) ∧
      (∀ (probe : String → Option GDALInfo) (ret i o a : String) (bheight : Int)
          (info : GDALInfo), probe i = some info → info.width = size →
        prepareOne probe ret i o r bheight a ≠ Except.error PrepError.tileWidth) ∧
      (∀ (probe : String → Option GDALInfo) (ret i o a : String) (bwidth : Int)
          (info : GDALInfo), probe i = some info → info.height = size →
        prepareOne probe ret i o bwidth r a ≠ Except.error PrepError.tileHeight) := by
  refine ⟨fun hs h1 h2 => SuggestTileSize_total hs h1 h2, ?_⟩
  intro r h hr
  rcases SuggestTileSize_usable h with e | hu
  · exact absurd e hr
  obtain ⟨h100, hrest, hall⟩ := usable_blocks hu
  have hr0 : (0 : Int) < r := by omega
  refine ⟨h100, le_of_lt hrest, hall, ?_, ?_, ?_⟩
  · have hq : 0 ≤ size / r := Int.ediv_nonneg (by have := hu.2.1; omega) (le_of_lt hr0)
    have hdiv : r * (size / r) + size % r = size := Int.ediv_add_emod size r
    have hlt : size % r < r := Int.emod_lt_of_pos size hr0
    refine ⟨(size / r).toNat + 1, ?_, ?_, ?_⟩
    · have : (((size / r).toNat + 1 : Nat) : Int) = size / r + 1 := by
        push_cast
        rw [Int.toNat_of_nonneg hq]
      rw [this]
      nlinarith
    · intro k hk
      have hk2 : (k : Int) ≤ size / r := by omega
      have : (k : Int) * r ≤ (size / r) * r := Int.mul_le_mul_of_nonneg_right hk2 (le_of_lt hr0)
      nlinarith
    · intro k hk
      have hk2 : (k : Int) ≤ size / r := by omega
      have : (k : Int) * r ≤ (size / r) * r := Int.mul_le_mul_of_nonneg_right hk2 (le_of_lt hr0)
      nlinarith
  · intro probe ret i o a bheight info hp hw
    exact prepareOne_width_ok hp (by omega) (by rw [hw]; exact hall)
  · intro probe ret i o a bwidth info hp hh
    exact prepareOne_height_ok hp (by omega) (by rw [hh]; exact hall)

theorem C34_witness :
    (∃ r, SuggestTileSize 200 300 100 = some r) ∧ (100 : Int) ≤ 198 ∧
      (100 : Int) ≤ 300 % 198 ∧ ∃ n : Nat, Blocks 300 198 n :=
  ⟨(C34_suggested_size_passes_check 200 300).1 (by decide) (by decide) (by decide),
    ((C34_suggested_size_passes_check 200 300).2 198 exSuggest (by decide)).1,
    ((C34_suggested_size_passes_check 200 300).2 198 exSuggest (by decide)).2.1,
    ((C34_suggested_size_passes_check 200 300).2 198 exSuggest (by decide)).2.2.2.1⟩

/-! ## Preparer: the representative tile -/

/-- The loop of the many branch with the pointer `reptile` computes the local variables
of the loop without it. -/
theorem manyRep_fst {probe : String → Option GDALInfo} {r o a : String} {flipH flipV : Int} :
    ∀ (l : List LayoutEntry) (s : ManyState × Option (Nat × Nat)),
      (l.foldlM (manyEntryRep probe r o flipH flipV a) s).map Prod.fst
        = l.foldlM (manyEntry probe r o flipH flipV a) s.1 := by
  intro l
  induction l with
  | nil => intro s; rfl
  | cons e rest ih =>
    intro s
    simp only [List.foldlM_cons]
    unfold manyEntryRep
    cases hm : manyEntry probe r o flipH flipV a s.1 e with
    | error err => rfl
    | ok st =>
      exact ih (st, reptileStep s.2 st.tiles e)

/-- After the loop of the many branch, `reptile` is set if and only if it was set
before or some entry of the layout is not a null tile. -/
theorem manyRep_isSome {probe : String → Option GDALInfo} {r o a : String} {flipH flipV : Int} :
    ∀ (l : List LayoutEntry) (s s2 : ManyState × Option (Nat × Nat)),
      l.foldlM (manyEntryRep probe r o flipH flipV a) s = Except.ok s2 →
      (s2.2.isSome = true ↔ s.2.isSome = true ∨ ∃ e, e ∈ l ∧ e.isNullTile = false) := by
  intro l
  induction l with
  | nil =>
    intro s s2 h
    cases h
    simp
  | cons e rest ih =>
    intro s s2 h
    simp only [List.foldlM_cons] at h
    cases hm : manyEntryRep probe r o flipH flipV a s e with
    | error err => rw [hm] at h; cases h
    | ok u =>
      rw [hm] at h
      have hu := ih u s2 h
      have hstep : u.2.isSome = true ↔ s.2.isSome = true ∨ e.isNullTile = false := by
        unfold manyEntryRep at hm
        cases hme : manyEntry probe r o flipH flipV a s.1 e with
        | error err => rw [hme] at hm; cases hm
        | ok st =>
          rw [hme] at hm
          cases hm
          unfold reptileStep
          cases hn : e.isNullTile with
          | true => simp
          | false =>
            cases hs : s.2 with
            | none => simp
            | some p => simp
      rw [hu, hstep]
      constructor
      · rintro ((h1 | h1) | ⟨e2, h1, h2⟩)
        · exact Or.inl h1
        · exact Or.inr ⟨e, List.mem_cons_self _ _, h1⟩
        · exact Or.inr ⟨e2, List.mem_cons_of_mem _ h1, h2⟩
      · rintro (h1 | ⟨e2, h1, h2⟩)
        · exact Or.inl (Or.inl h1)
        · rcases List.mem_cons.mp h1 with h3 | h3
          · rw [h3] at h2; exact Or.inl (Or.inr h2)
          · exact Or.inr ⟨e2, h3, h2⟩

/-- The tile matrix of `PreparerReptile` is the one of `Preparer`, and both end with the
same error. -/
theorem PreparerReptile_fst (probe : String → Option GDALInfo)
    (layout : String → List LayoutEntry) (bits : EdgeBits) (m r i o : String)
    (bwidth bheight flipH flipV : Int) (a : String) :
    (PreparerReptile probe layout bits m r i o bwidth bheight flipH flipV a).map Prod.fst
      = Preparer probe layout bits m r i o bwidth bheight flipH flipV a := by
  unfold PreparerReptile Preparer
  by_cases hl : (!contains o "%f" && !contains o "%n") = true
  · rw [if_pos hl, if_pos hl]; rfl
  rw [if_neg hl, if_neg hl]
  by_cases hm : m = "many"
  · rw [if_pos hm, if_pos hm]
    unfold prepareMany
    have key := @manyRep_fst probe r o a flipH flipV (layout i)
      ({ tiles := [], tile_width := -1, tile_height := -1,
         tile_geotransform := List.replicate 6 0 }, none)
    simp only at key
    rw [← key]
    cases (layout i).foldlM (manyEntryRep probe r o flipH flipV a)
        ({ tiles := [], tile_width := -1, tile_height := -1,
           tile_geotransform := List.replicate 6 0 }, none) with
    | error err => rfl
    | ok s =>
      show Except.map Prod.fst
        (((nullAdjacency bits s.1.tiles).map fun ts => (ts, s.2)).bind
          fun p => (markEdges bits p.1).map fun ts => (ts, p.2))
        = (nullAdjacency bits s.1.tiles).bind (markEdges bits)
      cases nullAdjacency bits s.1.tiles with
      | error err => rfl
      | ok ts =>
        show Except.map Prod.fst ((markEdges bits ts).map fun ts2 => (ts2, s.2))
          = markEdges bits ts
        cases markEdges bits ts <;> rfl
  rw [if_neg hm, if_neg hm]
  by_cases ho : m = "one"
  · rw [if_pos ho, if_pos ho]
    cases prepareOne probe r i o bwidth bheight a with
    | error err => rfl
    | ok ts =>
      show Except.map Prod.fst ((markEdges bits ts).map fun ts2 => (ts2, none))
        = markEdges bits ts
      cases markEdges bits ts <;> rfl
  · rw [if_neg ho, if_neg ho]; rfl

/-- In many mode `reptile` is set where its flip mask is read if and only if some entry
of the layout is not a null tile. -/
theorem PreparerReptile_many {probe : String → Option GDALInfo}
    {layout : String → List LayoutEntry} {bits : EdgeBits} {r i o a : String}
    {bwidth bheight flipH flipV : Int} {tiles : TileGrid} {rep : Option (Nat × Nat)}
    (h : PreparerReptile probe layout bits "many" r i o bwidth bheight flipH flipV a
      = Except.ok (tiles, rep)) :
    rep.isSome = true ↔ ∃ e, e ∈ layout i ∧ e.isNullTile = false := by
  unfold PreparerReptile at h
  by_cases hl : (!contains o "%f" && !contains o "%n") = true
  · rw [if_pos hl] at h; cases h
  rw [if_neg hl, if_pos rfl] at h
  cases hf : (layout i).foldlM (manyEntryRep probe r o flipH flipV a)
      ({ tiles := [], tile_width := -1, tile_height := -1,
         tile_geotransform := List.replicate 6 0 }, none) with
  | error err => rw [hf] at h; cases h
  | ok s =>
    rw [hf] at h
    have hs := manyRep_isSome _ _ _ hf
    have h2 : ((nullAdjacency bits s.1.tiles).map fun ts => (ts, s.2)).bind
        (fun p => (markEdges bits p.1).map fun ts => (ts, p.2)) = Except.ok (tiles, rep) := h
    cases hn : nullAdjacency bits s.1.tiles with
    | error err => rw [hn] at h2; cases h2
    | ok ts =>
      rw [hn] at h2
      have h3 : (markEdges bits ts).map (fun ts2 => (ts2, s.2)) = Except.ok (tiles, rep) := h2
      cases hm : markEdges bits ts with
      | error err => rw [hm] at h3; cases h3
      | ok ts2 =>
        rw [hm] at h3
        cases h3
        rw [hs]
        simp

/-- C32: in one mode `Preparer` reads `reptile->flip` through a null pointer.  Whenever
`Preparer` gets through the partition in one mode and hands over a tile matrix, the
pointer `reptile` is still `nullptr` at the lines that read `reptile->flip`, so the
read is undefined: only the many branch assigns the pointer. -/
theorem C32_reptile_null_in_one_mode (probe : String → Option GDALInfo)
    (layout : String → List LayoutEntry) (bits : EdgeBits) (r i o : String)
    (bwidth bheight flipH flipV : Int) (a : String) (tiles : TileGrid)
    (h : Preparer probe layout bits "one" r i o bwidth bheight flipH flipV a
      = Except.ok tiles) :
    PreparerReptile probe layout bits "one" r i o bwidth bheight flipH flipV a
      = Except.ok (tiles, none) ∧ reptileFlip tiles none = none := by
  refine ⟨?_, rfl⟩
  unfold Preparer at h
  unfold PreparerReptile
  by_cases hl : (!contains o "%f" && !contains o "%n") = true
  · rw [if_pos hl] at h; cases h
  rw [if_neg hl, if_neg (by decide), if_pos rfl] at h
  rw [if_neg hl, if_neg (by decide), if_pos rfl]
  cases hp : prepareOne probe r i o bwidth bheight a with
  | error err => rw [hp] at h; cases h
  | ok ts =>
    rw [hp] at h
    have h2 : markEdges bits ts = Except.ok tiles := h
    show (markEdges bits ts).map (fun ts2 => (ts2, none)) = Except.ok (tiles, none)
    rw [h2]
    rfl

theorem C32_witness :
    PreparerReptile exProbe (fun _ => []) exBits "one" "@evict" "in.tif" "out%n.tif"
        150 (-1) 1 1 "cmd" = Except.ok (exOneTiles, none) ∧
      reptileFlip exOneTiles none = none :=
  C32_reptile_null_in_one_mode exProbe (fun _ => []) exBits "@evict" "in.tif" "out%n.tif"
    150 (-1) 1 1 "cmd" exOneTiles exOne_eq

/-- On the example layout the many branch sets `reptile` to the first tile, whose flip
mask is read. -/
theorem exMany_reptile :
    PreparerReptile exProbe (fun _ => exLayout) exBits "many" "@evict" "layout"
        "out%f.tif" (-1) (-1) 1 0 "cmd" = Except.ok (exManyTiles, some (0, 0)) ∧
      reptileFlip exManyTiles (some (0, 0)) = some 2 := by
  constructor <;> rfl

/-! ## Calculations: index safety -/

/-- The block of labels of a tile that is not a null tile lies inside the labels that
the count loop has counted. -/
theorem block_le_of_tile {tiles : TileGrid} {jobs1 : Job1Grid} {gh gw y x : Nat}
    (hn : isNullAt tiles y x = false) (hy : y < gh) (hx : x < gw) :
    sumBefore (tileSize tiles jobs1) gw y x + graphSizeAt jobs1 y x
      ≤ sumAll (graphSizeAt jobs1) gh gw := by
  have e : tileSize tiles jobs1 y x = graphSizeAt jobs1 y x := by
    unfold tileSize
    rw [hn]
    rfl
  rw [← e]
  exact le_trans (sumBefore_add_le (tileSize tiles jobs1) hy hx)
    (sumAll_le (tileSize_le tiles jobs1) gh gw)

theorem isNullAt_of_tile {tiles : TileGrid} {y x : Nat} {t : TileInfo}
    (ht : grid2 tiles y x = some t) : isNullAt tiles y x = t.nullTile := by
  unfold isNullAt
  rw [ht]

/-- The body of the merge loop returns on well-formed replies whose labels fit
`label_t`. -/
theorem mergeTile_safe {tiles : TileGrid} {jobs1 : Job1Grid} {gh gw y x : Nat}
    {G : Nat → Nat → Graph → Prop} {s : MergeState}
    (hw : RepliesWellFormed tiles jobs1 gh gw)
    (hfit : sumAll (graphSizeAt jobs1) gh gw < LABEL_MOD) (hy : y < gh) (hx : x < gw)
    (hinv : MergeInv tiles jobs1 gw G y x s)
    (hlen : s.mastergraph.length = sumAll (graphSizeAt jobs1) gh gw) :
    ∃ s2, mergeTile jobs1 y x s = some s2 := by
  have htile := hinv.tiles_todo y x hx (not_before_self y x)
  obtain ⟨t, ht⟩ := isSome_get (hw.tiles_rect y hy x hx)
  obtain ⟨j, hj⟩ := isSome_get (hw.jobs_rect y hy x hx)
  unfold mergeTile
  rw [htile, ht]
  simp only
  by_cases hn : t.nullTile = true
  · rw [if_pos hn]; exact ⟨s, rfl⟩
  · rw [if_neg hn, hj]
    simp only
    have hnull : isNullAt tiles y x = false := by
      rw [isNullAt_of_tile ht]
      cases hb : t.nullTile
      · rfl
      · exact absurd hb hn
    obtain ⟨hga, hgs⟩ := graphAt_eq hj
    have hblock := @block_le_of_tile tiles jobs1 gh gw y x hnull hy hx
    have hoff : s.label_offset = sumBefore (tileSize tiles jobs1) gw y x := by
      rw [hinv.offset]
      exact Nat.mod_eq_of_lt (lt_of_le_of_lt (le_trans (Nat.le_add_right _ _) hblock) hfit)
    obtain ⟨g2, hg2⟩ := @mergeTileGraph_total s.label_offset _ j.graph _ hlen
      (by
        intro l m hm p hp
        have hl : l < j.graph.length := (List.getElem?_eq_some_iff.mp hm).1
        have hmem : m ∈ graphAt jobs1 y x := by
          rw [hga]
          exact List.getElem?_mem hm
        have hk := hw.keys y hy x hx hnull m hmem p hp
        rw [hgs] at hk hblock
        rw [← hoff] at hblock
        have hlm : l % LABEL_MOD = l :=
          Nat.mod_eq_of_lt (lt_of_lt_of_le hl (le_trans (le_trans (Nat.le_add_left _ _) hblock)
            (le_of_lt hfit)))
        rw [hlm]
        exact ⟨offsetLabel_lt hl hblock hfit, offsetLabel_lt hk hblock hfit⟩)
    rw [hg2]
    exact ⟨_, rfl⟩

/-- The merge phase returns on well-formed replies whose labels fit `label_t`: the
master graph has one vertex per counted label, the tile matrix keeps its shape and
every tile carries its stamp. -/
theorem mergeGraphs_safe {tiles : TileGrid} {jobs1 : Job1Grid} {gh gw : Nat}
    (hw : RepliesWellFormed tiles jobs1 gh gw)
    (hfit : sumAll (graphSizeAt jobs1) gh gw < LABEL_MOD) :
    ∃ s, mergeGraphs tiles jobs1 = some s ∧
      MergeInv tiles jobs1 gw (fun _ _ g => g.length = sumAll (graphSizeAt jobs1) gh gw)
        gh 0 s ∧
      s.tiles.length = gh ∧ (s.tiles[0]?).map List.length = some gw := by
  unfold mergeGraphs
  cases hrow : tiles[0]? with
  | none =>
    have := hw.width
    rw [hrow] at this
    cases this
  | some row0 =>
    have hwd : row0.length = gw := by
      have := hw.width
      rw [hrow] at this
      simpa using this
    simp only
    rw [hw.height, hwd]
    obtain ⟨n, hn⟩ := countLabels_total hw.jobs_rect
    have hnval : n = sumAll (graphSizeAt jobs1) gh gw := by
      rw [countLabels_spec hn]
      exact Nat.mod_eq_of_lt hfit
    rw [hn]
    simp only
    obtain ⟨s, hs, hinv, hshape⟩ := forRange_total
      (fun y st => MergeInv tiles jobs1 gw
        (fun _ _ g => g.length = sumAll (graphSizeAt jobs1) gh gw) y 0 st ∧
        (st.tiles.length = gh ∧ (st.tiles[0]?).map List.length = some gw))
      (fun y st => forRange gw (fun x st2 => mergeTile jobs1 y x st2) st) gh
      { tiles := tiles, mastergraph := List.replicate n [], label_offset := 0 }
      (by
        refine ⟨⟨?_, ?_, ?_, ?_⟩, hw.height, hw.width⟩
        · simp [sumBefore]
        · show (List.replicate n ([] : EdgeMap)).length = _
          rw [List.length_replicate, hnval]
        · intro y2 x2 t _ hb
          rcases hb with h | ⟨_, h⟩
          · exact absurd h (Nat.not_lt_zero _)
          · exact absurd h (Nat.not_lt_zero _)
        · intro y2 x2 _ _
          rfl)
      (by
        intro y u hy hu
        obtain ⟨v, hv, hinv, hshape⟩ := forRange_total
          (fun x st => MergeInv tiles jobs1 gw
            (fun _ _ g => g.length = sumAll (graphSizeAt jobs1) gh gw) y x st ∧
            (st.tiles.length = gh ∧ (st.tiles[0]?).map List.length = some gw))
          (fun x st2 => mergeTile jobs1 y x st2) gw u hu
          (by
            intro x u2 hx hu2
            obtain ⟨v2, hv2⟩ := mergeTile_safe hw hfit hy hx hu2.1 hu2.1.graph
            obtain ⟨e1, e2⟩ := mergeTile_shape hv2
            refine ⟨v2, hv2, mergeTile_step (fun _ _ hg => hg) ?_ hx hu2.1 hv2,
              e1.trans hu2.2.1, e2.trans hu2.2.2⟩
            intro g g2 t j _ _ _ hg hm
            exact (mergeTileGraph_length hm).trans hg)
        exact ⟨v, hv, hinv.next_row (fun _ hg => hg), hshape⟩)
    exact ⟨s, hs, hinv, hshape⟩

/-- What the merge phase leaves in the descriptor of a tile that is not a null tile:
its block of labels, which lies inside the master graph. -/
theorem MergeInv.stamp_safe {tiles : TileGrid} {jobs1 : Job1Grid} {gh gw : Nat}
    {G : Nat → Nat → Graph → Prop} {s : MergeState}
    (hw : RepliesWellFormed tiles jobs1 gh gw)
    (hfit : sumAll (graphSizeAt jobs1) gh gw < LABEL_MOD)
    (hinv : MergeInv tiles jobs1 gw G gh 0 s) {y x : Nat} {t : TileInfo}
    (hy : y < gh) (hx : x < gw) (ht : grid2 s.tiles y x = some t) (hn : t.nullTile = false) :
    isNullAt tiles y x = false ∧
    t.label_offset + graphSizeAt jobs1 y x ≤ sumAll (graphSizeAt jobs1) gh gw := by
  obtain ⟨t0, ht0⟩ := isSome_get (hw.tiles_rect y hy x hx)
  have hdone := hinv.tiles_done y x t0 hx (Or.inl hy) ht0
  rw [ht] at hdone
  by_cases hn0 : t0.nullTile = true
  · rw [if_pos hn0] at hdone
    cases hdone
    rw [hn] at hn0
    cases hn0
  · rw [if_neg hn0] at hdone
    cases hdone
    have hnull : isNullAt tiles y x = false := by
      rw [isNullAt_of_tile ht0]
      exact hn
    have hblock := @block_le_of_tile tiles jobs1 gh gw y x hnull hy hx
    refine ⟨hnull, ?_⟩
    show sumBefore (tileSize tiles jobs1) gw y x % LABEL_MOD + _ ≤ _
    rw [Nat.mod_eq_of_lt (by omega)]
    exact hblock

/-- The join towards `d` returns when the asserted lengths agree, the corner elements
exist and every perimeter label of the two replies, offset, is a vertex. -/
theorem dirCall_safe {d : Dir} {c nj : Job1} {oa ob total : Nat} {g : Graph}
    (hs : SidesAgree d c nj) (hc : CornersExist d c nj)
    (ra : ∀ l, l ∈ perimeterLabels c → offsetLabel l oa < total)
    (rb : ∀ l, l ∈ perimeterLabels nj → offsetLabel l ob < total)
    (hlen : g.length = total) :
    ∃ g2, dirCall d c nj oa ob g = some g2 ∧ g2.length = total := by
  have a1 : ∀ l, l ∈ c.top_label → offsetLabel l oa < total :=
    fun l hl => ra l (by unfold perimeterLabels; simp [hl])
  have a2 : ∀ l, l ∈ c.bot_label → offsetLabel l oa < total :=
    fun l hl => ra l (by unfold perimeterLabels; simp [hl])
  have a3 : ∀ l, l ∈ c.left_label → offsetLabel l oa < total :=
    fun l hl => ra l (by unfold perimeterLabels; simp [hl])
  have a4 : ∀ l, l ∈ c.right_label → offsetLabel l oa < total :=
    fun l hl => ra l (by unfold perimeterLabels; simp [hl])
  have b1 : ∀ l, l ∈ nj.top_label → offsetLabel l ob < total :=
    fun l hl => rb l (by unfold perimeterLabels; simp [hl])
  have b2 : ∀ l, l ∈ nj.bot_label → offsetLabel l ob < total :=
    fun l hl => rb l (by unfold perimeterLabels; simp [hl])
  have b3 : ∀ l, l ∈ nj.left_label → offsetLabel l ob < total :=
    fun l hl => rb l (by unfold perimeterLabels; simp [hl])
  have b4 : ∀ l, l ∈ nj.right_label → offsetLabel l ob < total :=
    fun l hl => rb l (by unfold perimeterLabels; simp [hl])
  have pos : ∀ {α : Type} {l : List α}, l ≠ [] → 1 ≤ l.length :=
    fun h => List.length_pos.mpr h
  cases d
  · obtain ⟨e1, e2, e3⟩ := hs
    exact edge_total rfl e1.symm (e2.trans (e3.symm.trans rfl)) e3.symm a1 b2 hlen
  · obtain ⟨e1, e2, e3⟩ := hs
    exact edge_total rfl e1.symm (e2.trans (e3.symm.trans rfl)) e3.symm a2 b1 hlen
  · obtain ⟨e1, e2, e3⟩ := hs
    exact edge_total rfl e1.symm (e2.trans (e3.symm.trans rfl)) e3.symm a3 b4 hlen
  · obtain ⟨e1, e2, e3⟩ := hs
    exact edge_total rfl e1.symm (e2.trans (e3.symm.trans rfl)) e3.symm a4 b3 hlen
  · obtain ⟨k1, k2, k3, k4⟩ := hc
    exact corner_total (head_ready (pos k1)) (last_ready (pos k2)) (head_range (pos k3) a1)
      (last_range (pos k4) b2) hlen
  · obtain ⟨k1, k2, k3, k4⟩ := hc
    exact corner_total (last_ready (pos k1)) (head_ready (pos k2)) (last_range (pos k3) a2)
      (head_range (pos k4) b1) hlen
  · obtain ⟨k1, k2, k3, k4⟩ := hc
    exact corner_total (last_ready (pos k1)) (head_ready (pos k2)) (last_range (pos k3) a1)
      (head_range (pos k4) b2) hlen
  · obtain ⟨k1, k2, k3, k4⟩ := hc
    exact corner_total (head_ready (pos k1)) (last_ready (pos k2)) (head_range (pos k3) a2)
      (last_range (pos k4) b1) hlen

theorem joinStep_safe {tiles : TileGrid} {jobs1 : Job1Grid} {gh gw : Nat}
    {G : Nat → Nat → Graph → Prop} {s : MergeState}
    (hw : RepliesWellFormed tiles jobs1 gh gw)
    (hfit : sumAll (graphSizeAt jobs1) gh gw < LABEL_MOD)
    (hj : JoinSafe tiles jobs1 gh gw)
    (hinv : MergeInv tiles jobs1 gw G gh 0 s) {y x : Nat} {t : TileInfo}
    (hy : y < gh) (hx : x < gw) (ht : grid2 s.tiles y x = some t) (hn : t.nullTile = false)
    (d : Dir) (g : Graph) (hlen : g.length = sumAll (graphSizeAt jobs1) gh gw) :
    ∃ g2, joinStep s.tiles jobs1 gh gw y x t (jobAt jobs1 y x) d g = some g2 ∧
      g2.length = sumAll (graphSizeAt jobs1) gh gw := by
  unfold joinStep withNeighbour
  by_cases hcond : dirCond d gh gw y x = true
  · rw [if_pos hcond]
    obtain ⟨hny, hnx, _, _⟩ := dir_range hy hx hcond
    obtain ⟨n0, hn0⟩ := isSome_get (hw.tiles_rect _ hny _ hnx)
    have hnt := hinv.tiles_done _ _ n0 hnx (Or.inl hny) hn0
    rw [hnt]
    simp only
    by_cases hnn : (if n0.nullTile = true then n0
        else stamped tiles jobs1 gw (dirY d y) (dirX d x) n0).nullTile = true
    · rw [if_pos hnn]
      exact ⟨g, rfl, hlen⟩
    · rw [if_neg hnn]
      have hnn2 : (if n0.nullTile = true then n0
          else stamped tiles jobs1 gw (dirY d y) (dirX d x) n0).nullTile = false := by
        cases hb : (if n0.nullTile = true then n0
          else stamped tiles jobs1 gw (dirY d y) (dirX d x) n0).nullTile
        · rfl
        · exact absurd hb hnn
      obtain ⟨nj, hnj⟩ := isSome_get (hw.jobs_rect _ hny _ hnx)
      rw [hnj]
      simp only
      obtain ⟨hA0, hAb⟩ := hinv.stamp_safe hw hfit hy hx ht hn
      obtain ⟨hB0, hBb⟩ := hinv.stamp_safe hw hfit hny hnx hnt hnn2
      have hs := hj.sides y hy x hx hA0 d hcond hB0
      have hc := hj.corners y hy x hx hA0 d hcond hB0
      have ra := hj.labels y hy x hx hA0
      have rb := hj.labels _ hny _ hnx hB0
      rw [jobAt_eq hnj] at hs hc rb
      exact dirCall_safe hs hc
        (fun l hl => offsetLabel_lt (ra l hl) hAb hfit)
        (fun l hl => offsetLabel_lt (rb l hl) hBb hfit) hlen
  · rw [if_neg hcond]
    exact ⟨g, rfl, hlen⟩

theorem joinTile_safe {tiles : TileGrid} {jobs1 : Job1Grid} {gh gw : Nat}
    {G : Nat → Nat → Graph → Prop} {s : MergeState}
    (hw : RepliesWellFormed tiles jobs1 gh gw)
    (hfit : sumAll (graphSizeAt jobs1) gh gw < LABEL_MOD)
    (hj : JoinSafe tiles jobs1 gh gw)
    (hinv : MergeInv tiles jobs1 gw G gh 0 s) {y x : Nat} (hy : y < gh) (hx : x < gw)
    (g : Graph) (hlen : g.length = sumAll (graphSizeAt jobs1) gh gw) :
    ∃ g2, joinTile s.tiles jobs1 gh gw y x g = some g2 ∧
      g2.length = sumAll (graphSizeAt jobs1) gh gw := by
  obtain ⟨t0, ht0⟩ := isSome_get (hw.tiles_rect y hy x hx)
  have ht := hinv.tiles_done y x t0 hx (Or.inl hy) ht0
  by_cases hn : (if t0.nullTile = true then t0
      else stamped tiles jobs1 gw y x t0).nullTile = true
  · refine ⟨g, ?_, hlen⟩
    unfold joinTile
    rw [ht]
    simp only
    rw [if_pos hn]
  · have hn2 : (if t0.nullTile = true then t0
        else stamped tiles jobs1 gw y x t0).nullTile = false := by
      cases hb : (if t0.nullTile = true then t0
        else stamped tiles jobs1 gw y x t0).nullTile
      · rfl
      · exact absurd hb hn
    obtain ⟨c, hc⟩ := isSome_get (hw.jobs_rect y hy x hx)
    rw [joinTile_steps ht hn2 hc]
    have step := fun d u hu => joinStep_safe hw hfit hj hinv hy hx ht hn2 d u hu
    rw [jobAt_eq hc] at step
    obtain ⟨g1, h1, l1⟩ := step .top g hlen
    obtain ⟨g3, h3, l3⟩ := step .bottom g1 l1
    obtain ⟨g4, h4, l4⟩ := step .left g3 l3
    obtain ⟨g5, h5, l5⟩ := step .right g4 l4
    obtain ⟨g6, h6, l6⟩ := step .topLeft g5 l5
    obtain ⟨g7, h7, l7⟩ := step .bottomRight g6 l6
    obtain ⟨g8, h8, l8⟩ := step .topRight g7 l7
    obtain ⟨g9, h9, l9⟩ := step .bottomLeft g8 l8
    refine ⟨g9, ?_, l9⟩
    rw [h1, Option.some_bind, h3, Option.some_bind, h4, Option.some_bind, h5, Option.some_bind,
      h6, Option.some_bind, h7, Option.some_bind, h8, Option.some_bind, h9]

/-- The perimeter phase returns on replies that are safe to join. -/
theorem joinPerimeters_safe {tiles : TileGrid} {jobs1 : Job1Grid} {gh gw : Nat}
    {G : Nat → Nat → Graph → Prop} {s : MergeState}
    (hw : RepliesWellFormed tiles jobs1 gh gw)
    (hfit : sumAll (graphSizeAt jobs1) gh gw < LABEL_MOD)
    (hj : JoinSafe tiles jobs1 gh gw)
    (hinv : MergeInv tiles jobs1 gw G gh 0 s)
    (hh : s.tiles.length = gh) (hwd : (s.tiles[0]?).map List.length = some gw)
    (hlen : s.mastergraph.length = sumAll (graphSizeAt jobs1) gh gw) :
    ∃ g2, joinPerimeters s.tiles jobs1 s.mastergraph = some g2 := by
  unfold joinPerimeters
  cases hrow : s.tiles[0]? with
  | none => rw [hrow] at hwd; cases hwd
  | some row0 =>
    have hw2 : row0.length = gw := by
      rw [hrow] at hwd
      simpa using hwd
    simp only
    rw [hh, hw2]
    obtain ⟨g2, hg2, _⟩ := forRange_total
      (fun _ u => u.length = sumAll (graphSizeAt jobs1) gh gw)
      (fun y g1 => forRange gw (fun x g2 => joinTile s.tiles jobs1 gh gw y x g2) g1)
      gh s.mastergraph hlen
      (fun y u hy hu => forRange_total
        (fun _ u2 => u2.length = sumAll (graphSizeAt jobs1) gh gw)
        (fun x g2 => joinTile s.tiles jobs1 gh gw y x g2) gw u hu
        (fun x u2 hx hu2 => joinTile_safe hw hfit hj hinv hy hx u2 hu2))
    exact ⟨g2, hg2⟩

theorem graphSizeAt_le_sumAll (jobs1 : Job1Grid) {gh gw y x : Nat} (hy : y < gh)
    (hx : x < gw) : graphSizeAt jobs1 y x ≤ sumAll (graphSizeAt jobs1) gh gw :=
  le_trans (Nat.le_add_left _ _) (sumBefore_add_le (graphSizeAt jobs1) hy hx)

theorem flat_wellFormed : RepliesWellFormed flatTiles flatJobs 2 2 :=
  { height := rfl
    width := rfl
    tiles_rect := by decide
    jobs_rect := by decide
    some_tile := ⟨0, 0, by decide, by decide, by decide⟩
    size_two := by decide
    keys := by decide
    labels := by decide
    touching := by
      intro y hy x hx _ d hc hnn
      have hy2 : y = 0 ∨ y = 1 := by omega
      have hx2 : x = 0 ∨ x = 1 := by omega
      rcases hy2 with rfl | rfl <;> rcases hx2 with rfl | rfl <;> cases d <;>
        revert hc hnn <;> decide }

theorem flat_corners : ∀ y, y < 2 → ∀ x, x < 2 → isNullAt flatTiles y x = false →
    ∀ d, dirCond d 2 2 y x = true → isNullAt flatTiles (dirY d y) (dirX d x) = false →
    CornersExist d (jobAt flatJobs y x) (jobAt flatJobs (dirY d y) (dirX d x)) := by
  intro y hy x hx _ d hc hnn
  have hy2 : y = 0 ∨ y = 1 := by omega
  have hx2 : x = 0 ∨ x = 1 := by omega
  rcases hy2 with rfl | rfl <;> rcases hx2 with rfl | rfl <;> cases d <;>
    revert hc hnn <;> decide

/-- C31: `Calculations` is index-safe on well-formed phase-1 replies.  For a tile
matrix with a reply grid of the same shape whose count of labels fits `label_t` and
whose tiles have at least one cell, so that the perimeter arrays of which a corner
join takes the first or last element are not empty: if at least one tile is not a null
tile, the graph of every tile that is not a null tile has at least two vertices, every
neighbour key in it and every perimeter label of the tile is smaller than its size, and
touching perimeters have equal lengths, then `Calculations` returns.  Every checked
access that throws, every failed assertion of `HandleEdge` and every index outside its
vector makes the embedded code return nothing, so none of them happens.  The master
graph has one vertex per counted label, vertex 1 is one of them, every neighbour key of
the master graph, hence every vertex that the flood pushes or pops, is a vertex, and
the fill elevations have one entry per vertex. -/
theorem C31_calculations_index_safe (lowest : Int) (tiles : TileGrid) (jobs1 : Job1Grid)
    (gh gw : Nat) (hw : RepliesWellFormed tiles jobs1 gh gw)
    (hcorner : ∀ y, y < gh → ∀ x, x < gw → isNullAt tiles y x = false →
      ∀ d, dirCond d gh gw y x = true → isNullAt tiles (dirY d y) (dirX d x) = false →
      CornersExist d (jobAt jobs1 y x) (jobAt jobs1 (dirY d y) (dirX d x)))
    (hfit : sumAll (graphSizeAt jobs1) gh gw < LABEL_MOD) :
    ∃ tiles2 g fill, buildMasterGraph tiles jobs1 = some (tiles2, g) ∧
      aggregatedFlood lowest g = some fill ∧
      Calculations lowest tiles jobs1 = some (tiles2, fill) ∧
      g.length = sumAll (graphSizeAt jobs1) gh gw ∧ 1 < g.length ∧ KeysInRange g ∧
      fill.length = g.length := by
  have hj : JoinSafe tiles jobs1 gh gw :=
    { labels := hw.labels, sides := hw.touching, corners := hcorner }
  obtain ⟨y, x, hy, hx, hn⟩ := hw.some_tile
  have htwo : 2 ≤ sumAll (graphSizeAt jobs1) gh gw :=
    le_trans (hw.size_two y hy x hx hn) (graphSizeAt_le_sumAll jobs1 hy hx)
  obtain ⟨s, hs, hinv, hh, hwd⟩ := mergeGraphs_safe hw hfit
  obtain ⟨g, hg⟩ := joinPerimeters_safe hw hfit hj hinv hh hwd hinv.graph
  have hb : buildMasterGraph tiles jobs1 = some (s.tiles, g) := by
    unfold buildMasterGraph
    rw [hs]
    simp only
    rw [hg]
  obtain ⟨_, hglen, _⟩ := buildMasterGraph_of_merge hs hb
  have hk := buildMasterGraph_keys hb
  have hlen : g.length = sumAll (graphSizeAt jobs1) gh gw := by rw [hglen, hinv.graph]
  obtain ⟨fill, hfill⟩ := aggregatedFlood_total lowest (by rw [hlen]; exact htwo) hk
  refine ⟨s.tiles, g, fill, hb, hfill, ?_, hlen, by rw [hlen]; exact htwo, hk,
    aggregatedFlood_length hfill⟩
  unfold Calculations
  rw [hb]
  simp only
  rw [hfill]

theorem C31_witness :
    ∃ tiles2 fill, Calculations (-2147483648) flatTiles flatJobs = some (tiles2, fill) ∧
      fill.length = 8 :=
  match C31_calculations_index_safe (-2147483648) flatTiles flatJobs 2 2 flat_wellFormed
    flat_corners (by decide) with
  | ⟨tiles2, _, fill, _, _, h3, h4, _, _, h6⟩ => ⟨tiles2, fill, h3, by rw [h6, h4]; decide⟩

end RichDEM
